import Mathlib

/-!
# Range locks of leanstore: a shallow embedding

Objects live in a heap that is a list of records.  A pointer is a machine
address: `0` is `nullptr`, and the `i`-th allocated object has the even,
nonzero address `2 * (i + 1)`, so bit 0 of a pointer to an object is free.
-/

namespace RangeLock

/-- Address of the `i`-th allocated object. -/
def addrOf (i : Nat) : Nat := 2 * (i + 1)

/-- Dereference a pointer: `none` for `nullptr`, a misaligned or a dangling address. -/
def deref {α : Type} (h : List α) (p : Nat) : Option α :=
  if p = 0 ∨ p % 2 = 1 then none else h[p / 2 - 1]?

/-- Overwrite the object a pointer designates (no effect through a bad pointer). -/
def store {α : Type} (h : List α) (p : Nat) (a : α) : List α :=
  if p = 0 ∨ p % 2 = 1 then h else h.set (p / 2 - 1) a

/-- Allocation with `new`: the object is appended, its address returned. -/
def alloc {α : Type} (h : List α) (a : α) : List α × Nat :=
  (h ++ [a], addrOf h.length)

/-- Source `std::numeric_limits<uint64_t>::max()`, also `~0ULL`. -/
def UINT64_MAX : Nat := 2 ^ 64 - 1

/-- Source `fetch_add(1)` on a `std::atomic<size_t>`. -/
def fetchAdd1 (c : Nat) : Nat := (c + 1) % 2 ^ 64

/-- Source `fetch_sub(1)` on a `std::atomic<size_t>`. -/
def fetchSub1 (c : Nat) : Nat := (c + (2 ^ 64 - 1)) % 2 ^ 64

/-- The coin-flip loop `while (rand() % 2 && level < maxLevel) level++`, where
`rand i` is the value of the `i`-th call of `rand()`; one call is made per
iteration, so the number of calls made so far equals `level`. -/
def randomLevelLoop (rand : Nat → Nat) (maxLevel : Nat) : Nat → Nat → Nat
  | 0, level => level
  | fuel + 1, level =>
    if rand level % 2 ≠ 0 ∧ level < maxLevel then
      randomLevelLoop rand maxLevel fuel (level + 1)
    else level

/-- Source `randomLevel()` of V0 and V3: `int level = 0;` then the coin-flip loop. -/
def randomLevel (rand : Nat → Nat) (maxLevel : Nat) : Nat :=
  randomLevelLoop rand maxLevel (maxLevel + 1) 0

/-- Abstract view of one list node: its address and its immutable fields. -/
structure Entry where
  addr : Nat
  start : Nat
  end_ : Nat
  level : Nat
  deriving DecidableEq, Repr

/-- The entries of a list that take part in level `k`. -/
def atLevel (k : Nat) (l : List Entry) : List Entry :=
  l.filter fun e => decide (k ≤ e.level)

/-- The last entry at level `k` of a prefix, the head sentinel when there is none. -/
def predAt (hd : Entry) (P : List Entry) (k : Nat) : Entry := (atLevel k P).getLastD hd

/-- The first entry at level `k` of a suffix, the tail sentinel when there is none. -/
def succAt (tl : Entry) (R : List Entry) (k : Nat) : Entry := (atLevel k R).headD tl

/-- The value `levelFound` has after a search has looked at the levels `n - 1, ..., 0`:
the highest level at which the test holds, unless it was already set. -/
def scanLevels (test : Nat → Bool) : Nat → Int → Int
  | 0, levelFound => levelFound
  | k + 1, levelFound =>
    scanLevels test k (if levelFound = -1 ∧ test k = true then (k : Int) else levelFound)

/-- The arrays a search fills: below the levels done they hold the predecessors and the
successors at each level, above they are untouched. -/
def Filled (hd tl : Entry) (P R : List Entry) (k : Nat) (preds succs preds1 succs1 : List Nat) :
    Prop :=
  preds1.length = preds.length ∧ succs1.length = succs.length ∧
  (∀ j, j ≤ k → j < preds.length → preds1[j]? = some (predAt hd P j).addr) ∧
  (∀ j, j ≤ k → j < succs.length → succs1[j]? = some (succAt tl R j).addr) ∧
  (∀ j, k < j → preds1[j]? = preds[j]?) ∧ (∀ j, k < j → succs1[j]? = succs[j]?)


namespace V3

/-- Source `SongRangeLock::MAX_LEVEL`. -/
def MAX_LEVEL : Nat := 3

/-- Source `SongRangeLock::MAX_VALUE = ~0ULL`. -/
def MAX_VALUE : Nat := UINT64_MAX

/-- Source `class SkipListNode`: `forward` has `level + 1` plain pointers. -/
structure SkipListNode where
  start : Nat
  end_ : Nat
  level : Nat
  forward : List Nat
  deriving DecidableEq, Repr

/-- Source `class SongRangeLock` together with the heap its nodes live in. -/
structure SongRangeLock where
  nodes : List SkipListNode
  head_ : Nat
  tail_ : Nat
  elementsCount : Nat
  deriving DecidableEq, Repr

/-- Source `SongRangeLock::AllocNode`: the constructor nulls every forward pointer. -/
def AllocNode (h : List SkipListNode) (start end_ level : Nat) :
    List SkipListNode × Nat :=
  alloc h ⟨start, end_, level, List.replicate (level + 1) 0⟩

/-- Source `p->forward[k] = q`. -/
def setForward (h : List SkipListNode) (p k q : Nat) : Option (List SkipListNode) :=
  match deref h p with
  | none => none
  | some n =>
    if k < n.forward.length then
      some (store h p { n with forward := n.forward.set k q })
    else none

/-- Source `p->forward[k]`. -/
def getForward (h : List SkipListNode) (p k : Nat) : Option Nat :=
  match deref h p with
  | none => none
  | some n => n.forward[k]?

/-- The constructor's loop `for (i = 0; i <= MAX_LEVEL; ++i) head_->forward[i] = tail_`,
with `n` iterations left. -/
def initHead (head tail : Nat) : Nat → Nat → List SkipListNode → Option (List SkipListNode)
  | 0, _, h => some h
  | n + 1, i, h =>
    match setForward h head i tail with
    | none => none
    | some h1 => initHead head tail n (i + 1) h1

/-- Source `SongRangeLock::SongRangeLock()`; the loop cannot fault on the two nodes just made. -/
def SongRangeLock.new : SongRangeLock :=
  let (h1, head) := AllocNode [] 0 0 MAX_LEVEL
  let (h2, tail) := AllocNode h1 MAX_VALUE MAX_VALUE MAX_LEVEL
  ⟨(initHead head tail (MAX_LEVEL + 1) 0 h2).getD h2, head, tail, 0⟩

/-- The inner loop of `FindNodes`:
`while (curr = pred->forward[k], curr->end < start) pred = curr;`
returning the final `(pred, curr)`. -/
def findNodesWalk (h : List SkipListNode) (k start : Nat) : Nat → Nat → Option (Nat × Nat)
  | 0, _ => none
  | fuel + 1, pred =>
    match getForward h pred k with
    | none => none
    | some curr =>
      match deref h curr with
      | none => none
      | some c =>
        if c.end_ < start then findNodesWalk h k start fuel curr
        else some (pred, curr)

/-- The outer loop of `FindNodes`, `for (k = MAX_LEVEL; k >= 0; k--)`, with
levels `n - 1, ..., 0` still to do. -/
def findNodesLevels (h : List SkipListNode) (start fuel : Nat) :
    Nat → Nat → Nat → List Nat → Option (Nat × Nat × List Nat)
  | 0, pred, curr, out => some (pred, curr, out)
  | k + 1, pred, _, out =>
    match findNodesWalk h k start fuel pred with
    | none => none
    | some (pred1, curr1) => findNodesLevels h start fuel k pred1 curr1 (out.set k pred1)

/-- Source `SongRangeLock::FindNodes`: the result and the filled `out_nodes`. -/
def FindNodes (fuel : Nat) (s : SongRangeLock) (start end_ : Nat) : Option (Bool × List Nat) :=
  match findNodesLevels s.nodes start fuel (MAX_LEVEL + 1) s.head_ 0
      (List.replicate (MAX_LEVEL + 1) 0) with
  | none => none
  | some (pred, curr, out) =>
    match deref s.nodes pred, deref s.nodes curr with
    | some p, some c =>
      if pred = s.head_ then
        some (!(decide (start ≥ p.end_) && decide (end_ < c.start)), out)
      else
        some (!(decide (start > p.end_) && decide (end_ < c.start)), out)
    | _, _ => none

/-- The loop of `InsertRange`, `for (k = 0; k <= lv; k++)`, with `n` iterations left. -/
def insertRangeLoop (nodes : List Nat) (q : Nat) :
    Nat → Nat → List SkipListNode → Option (List SkipListNode)
  | 0, _, h => some h
  | n + 1, k, h =>
    match nodes[k]? with
    | none => none
    | some p =>
      match getForward h p k with
      | none => none
      | some f =>
        match setForward h q k f with
        | none => none
        | some h1 =>
          match setForward h1 p k q with
          | none => none
          | some h2 => insertRangeLoop nodes q n (k + 1) h2

/-- Source `SongRangeLock::InsertRange`. -/
def InsertRange (s : SongRangeLock) (nodes : List Nat) (start end_ : Nat)
    (rand : Nat → Nat) : Option SongRangeLock :=
  let lv := randomLevel rand MAX_LEVEL
  let (h1, q) := AllocNode s.nodes start end_ lv
  match insertRangeLoop nodes q (lv + 1) 0 h1 with
  | none => none
  | some h2 => some { s with nodes := h2 }

/-- Source `SongRangeLock::tryLock`; every walk gets a budget of one step per heap node. -/
def tryLock (s : SongRangeLock) (start end_ : Nat) (rand : Nat → Nat) :
    Option (Bool × SongRangeLock) :=
  match FindNodes s.nodes.length s start end_ with
  | none => none
  | some (true, _) => some (false, s)
  | some (false, nodes) =>
    match InsertRange s nodes start end_ rand with
    | none => none
    | some s1 => some (true, { s1 with elementsCount := fetchAdd1 s1.elementsCount })

/-- The search loop of `releaseLock`:
`while ((succ = pred->forward[level]) && succ->start < start) pred = succ;`. -/
def releaseWalk (h : List SkipListNode) (level start : Nat) : Nat → Nat → Option Nat
  | 0, _ => none
  | fuel + 1, pred =>
    match getForward h pred level with
    | none => none
    | some succ =>
      if succ = 0 then some pred
      else
        match deref h succ with
        | none => none
        | some sn =>
          if sn.start < start then releaseWalk h level start fuel succ
          else some pred

/-- The first loop of `releaseLock`, levels `n - 1, ..., 0` still to do. -/
def releaseLevels (h : List SkipListNode) (start fuel : Nat) :
    Nat → Nat → List Nat → Option (List Nat)
  | 0, _, preds => some preds
  | level + 1, pred, preds =>
    match releaseWalk h level start fuel pred with
    | none => none
    | some pred1 => releaseLevels h start fuel level pred1 (preds.set level pred1)

/-- The second loop of `releaseLock`:
`for (level = 0; level <= MAX_LEVEL && (pred = preds[level])->forward[level] == curr; level++)
   pred->forward[level] = curr->forward[level];` with `n` levels left to look at. -/
def releaseUnlink (preds : List Nat) (curr : Nat) :
    Nat → Nat → List SkipListNode → Option (List SkipListNode)
  | 0, _, h => some h
  | n + 1, level, h =>
    match preds[level]? with
    | none => none
    | some pred =>
      match getForward h pred level with
      | none => none
      | some f =>
        if f = curr then
          match getForward h curr level with
          | none => none
          | some cf =>
            match setForward h pred level cf with
            | none => none
            | some h1 => releaseUnlink preds curr n (level + 1) h1
        else some h

/-- Source `SongRangeLock::releaseLock`. -/
def releaseLock (s : SongRangeLock) (start : Nat) : Option SongRangeLock :=
  match releaseLevels s.nodes start s.nodes.length (MAX_LEVEL + 1) s.head_
      (List.replicate (MAX_LEVEL + 1) 0) with
  | none => none
  | some preds =>
    match preds[0]? with
    | none => none
    | some p0 =>
      match getForward s.nodes p0 0 with
      | none => none
      | some curr =>
        match releaseUnlink preds curr (MAX_LEVEL + 1) 0 s.nodes with
        | none => none
        | some h1 => some { s with nodes := h1, elementsCount := fetchSub1 s.elementsCount }

/-- Source `SongRangeLock::size`. -/
def size (s : SongRangeLock) : Nat := s.elementsCount

/-- The addresses met after `p` when following `forward[k]`, up to (excluding) `stop`. -/
def chainAfter (h : List SkipListNode) (stop k : Nat) : Nat → Nat → List Nat
  | 0, _ => []
  | fuel + 1, p =>
    match getForward h p k with
    | none => []
    | some q => if q = stop ∨ q = 0 then [] else q :: chainAfter h stop k fuel q

/-- The nodes linked at level `k` strictly between the two sentinels. -/
def levelNodes (s : SongRangeLock) (k : Nat) : List Nat :=
  chainAfter s.nodes s.tail_ k s.nodes.length s.head_

/-- The held intervals, in list order: the nodes of level 0 between the sentinels. -/
def held (s : SongRangeLock) : List (Nat × Nat) :=
  (levelNodes s 0).filterMap fun p => (deref s.nodes p).map fun n => (n.start, n.end_)

end V3


namespace V1

/-- The node `struct Node_V1`: `next` has `topLevel + 1` plain pointers, which
`new Node_V1*[level + 1]` leaves unset (modelled as `nullptr`); `locked` is the state of
the node's `std::mutex`. -/
structure Node_V1 where
  start : Nat
  end_ : Nat
  topLevel : Nat
  next : List Nat
  marked : Bool
  fullyLinked : Bool
  locked : Bool
  deriving DecidableEq, Repr

/-- The lock `struct ConcurrentRangeLock_V1<uint64_t, maxLevel>` with the heap of its nodes. -/
structure ConcurrentRangeLock_V1 where
  nodes : List Node_V1
  maxLevel : Nat
  elementsCount : Nat
  head : Nat
  tail : Nat
  deriving DecidableEq, Repr

/-- What a call of `releaseLock` does: it returns a value, or it ends the process
through `exit(0)`. -/
inductive Ret where
  | ret (b : Bool)
  | exited
  deriving DecidableEq, Repr

/-- The loop of `generateRandomLevel`, `while (rand() % 2 == 0 && level < maxLevel) ++level`,
where `rand i` is the value of the `i`-th call of `rand()`; `level` starts at 1, so
`level - 1` calls were made before each test. -/
def generateRandomLevelLoop (rand : Nat → Nat) (maxLevel : Nat) : Nat → Nat → Nat
  | 0, level => level
  | fuel + 1, level =>
    if rand (level - 1) % 2 = 0 ∧ level < maxLevel then
      generateRandomLevelLoop rand maxLevel fuel (level + 1)
    else level

/-- Source `ConcurrentRangeLock_V1::generateRandomLevel`: `unsigned level = 1;` then the loop. -/
def generateRandomLevel (rand : Nat → Nat) (maxLevel : Nat) : Nat :=
  generateRandomLevelLoop rand maxLevel maxLevel 1

/-- Source `createNode_V1(start, end, level)`, that is `new Node_V1<T>(start, end, level)`. -/
def createNode_V1 (h : List Node_V1) (start end_ level : Nat) : List Node_V1 × Nat :=
  alloc h ⟨start, end_, level, List.replicate (level + 1) 0, false, false, false⟩

/-- Source `p->next[k]`. -/
def getNext (h : List Node_V1) (p k : Nat) : Option Nat :=
  match deref h p with
  | none => none
  | some n => n.next[k]?

/-- Source `p->next[k] = q`. -/
def setNext (h : List Node_V1) (p k q : Nat) : Option (List Node_V1) :=
  match deref h p with
  | none => none
  | some n =>
    if k < n.next.length then some (store h p { n with next := n.next.set k q })
    else none

/-- Source `Node_V1::lock()`: taking a mutex that is already held never returns. -/
def lockNode (h : List Node_V1) (p : Nat) : Option (List Node_V1) :=
  match deref h p with
  | none => none
  | some n => if n.locked then none else some (store h p { n with locked := true })

/-- Source `Node_V1::unlock()`. -/
def unlockNode (h : List Node_V1) (p : Nat) : Option (List Node_V1) :=
  match deref h p with
  | none => none
  | some n => some (store h p { n with locked := false })

/-- Source `Node_V1Locker::trackAndLock`: lock the node unless it is already tracked. -/
def trackAndLock (h : List Node_V1) (tracked : List Nat) (p : Nat) :
    Option (List Node_V1 × List Nat) :=
  if p ∈ tracked then some (h, tracked)
  else
    match lockNode h p with
    | none => none
    | some h1 => some (h1, tracked ++ [p])

/-- The loop of `Node_V1Locker::unlockAll` over the tracked nodes taken in reverse order. -/
def unlockList : List Nat → List Node_V1 → Option (List Node_V1)
  | [], h => some h
  | p :: rest, h =>
    match unlockNode h p with
    | none => none
    | some h1 => unlockList rest h1

/-- Source `Node_V1Locker::unlockAll`, run by the `ScopeGuard` on every way out of an attempt. -/
def unlockAll (h : List Node_V1) (tracked : List Nat) : Option (List Node_V1) :=
  unlockList tracked.reverse h

/-- The loop of the constructor, `for (level = 0; level <= maxLevel; ++level)
head->next[level] = tail`, with `n` iterations left. -/
def initHead (head tail : Nat) : Nat → Nat → List Node_V1 → Option (List Node_V1)
  | 0, _, h => some h
  | n + 1, level, h =>
    match setNext h head level tail with
    | none => none
    | some h1 => initHead head tail n (level + 1) h1

/-- Source `ConcurrentRangeLock_V1::ConcurrentRangeLock_V1()`; the loop cannot fault on the
two nodes just made. -/
def ConcurrentRangeLock_V1.new (maxLevel : Nat) : ConcurrentRangeLock_V1 :=
  let (h1, head) := createNode_V1 [] 0 0 maxLevel
  let (h2, tail) := createNode_V1 h1 UINT64_MAX UINT64_MAX maxLevel
  ⟨(initHead head tail (maxLevel + 1) 0 h2).getD h2, maxLevel, 0, head, tail⟩

/-- The walk shared by `findInsert` and `findExact`:
`while (start >= curr->getEnd()) { pred = curr; curr = pred->next[level]; }`. -/
def findWalk (h : List Node_V1) (level start : Nat) : Nat → Nat → Nat → Option (Nat × Nat)
  | 0, _, _ => none
  | fuel + 1, pred, curr =>
    match deref h curr with
    | none => none
    | some c =>
      if start ≥ c.end_ then
        match getNext h curr level with
        | none => none
        | some nx => findWalk h level start fuel curr nx
      else some (pred, curr)

/-- The level loop of `findInsert`, `for (level = maxLevel; level >= 0; level--)`, with
levels `n - 1, ..., 0` still to do. -/
def findInsertLevels (h : List Node_V1) (start end_ fuel : Nat) :
    Nat → Nat → Int → List Nat → List Nat → Option (Int × List Nat × List Nat)
  | 0, _, levelFound, preds, succs => some (levelFound, preds, succs)
  | level + 1, pred, levelFound, preds, succs =>
    match getNext h pred level with
    | none => none
    | some curr =>
      match findWalk h level start fuel pred curr with
      | none => none
      | some (pred1, curr1) =>
        match deref h curr1 with
        | none => none
        | some c =>
          findInsertLevels h start end_ fuel level pred1
            (if levelFound = -1 ∧ end_ ≥ c.start then (level : Int) else levelFound)
            (preds.set level pred1) (succs.set level curr1)

/-- Source `ConcurrentRangeLock_V1::findInsert`: `levelFound` and the filled arrays. -/
def findInsert (fuel : Nat) (s : ConcurrentRangeLock_V1) (start end_ : Nat) :
    Option (Int × List Nat × List Nat) :=
  findInsertLevels s.nodes start end_ fuel (s.maxLevel + 1) s.head (-1)
    (List.replicate (s.maxLevel + 1) 0) (List.replicate (s.maxLevel + 1) 0)

/-- The level loop of `findExact`, with levels `n - 1, ..., 0` still to do. -/
def findExactLevels (h : List Node_V1) (start end_ fuel : Nat) :
    Nat → Nat → Int → List Nat → List Nat → Option (Int × List Nat × List Nat)
  | 0, _, levelFound, preds, succs => some (levelFound, preds, succs)
  | level + 1, pred, levelFound, preds, succs =>
    match getNext h pred level with
    | none => none
    | some curr =>
      match findWalk h level start fuel pred curr with
      | none => none
      | some (pred1, curr1) =>
        match deref h curr1 with
        | none => none
        | some c =>
          findExactLevels h start end_ fuel level pred1
            (if levelFound = -1 ∧ start = c.start ∧ end_ = c.end_ then (level : Int)
             else levelFound)
            (preds.set level pred1) (succs.set level curr1)

/-- Source `ConcurrentRangeLock_V1::findExact`. -/
def findExact (fuel : Nat) (s : ConcurrentRangeLock_V1) (start end_ : Nat) :
    Option (Int × List Nat × List Nat) :=
  findExactLevels s.nodes start end_ fuel (s.maxLevel + 1) s.head (-1)
    (List.replicate (s.maxLevel + 1) 0) (List.replicate (s.maxLevel + 1) 0)

/-- The locking loop of `tryLock`,
`for (level = 0; valid && level <= topLevel; ++level) { trackAndLock(pred); valid = ...; }`,
with `n` levels left; it returns `valid`, the heap and the tracked nodes. -/
def tryLockValidate (preds succs : List Nat) :
    Nat → Nat → Bool → List Node_V1 → List Nat → Option (Bool × List Node_V1 × List Nat)
  | 0, _, valid, h, tracked => some (valid, h, tracked)
  | n + 1, level, valid, h, tracked =>
    if valid then
      match preds[level]?, succs[level]? with
      | some pred, some succ =>
        match trackAndLock h tracked pred with
        | none => none
        | some (h1, tracked1) =>
          match deref h1 pred, deref h1 succ with
          | some pn, some sn =>
            tryLockValidate preds succs n (level + 1)
              (!pn.marked && !sn.marked && decide (pn.next[level]? = some succ)) h1 tracked1
          | _, _ => none
      | _, _ => none
    else some (valid, h, tracked)

/-- The splicing loop of `tryLock`, `for (level = 0; level <= topLevel; ++level)
{ newNode->next[level] = succs[level]; preds[level]->next[level] = newNode; }`. -/
def tryLockLink (preds succs : List Nat) (newNode : Nat) :
    Nat → Nat → List Node_V1 → Option (List Node_V1)
  | 0, _, h => some h
  | n + 1, level, h =>
    match preds[level]?, succs[level]? with
    | some pred, some succ =>
      match setNext h newNode level succ with
      | none => none
      | some h1 =>
        match setNext h1 pred level newNode with
        | none => none
        | some h2 => tryLockLink preds succs newNode n (level + 1) h2
    | _, _ => none

/-- Source `newNode_V1->fullyLinked = true`. -/
def setFullyLinked (h : List Node_V1) (p : Nat) : Option (List Node_V1) :=
  match deref h p with
  | none => none
  | some n => some (store h p { n with fullyLinked := true })

/-- Source `victim->marked = true`. -/
def setMarked (h : List Node_V1) (p : Nat) : Option (List Node_V1) :=
  match deref h p with
  | none => none
  | some n => some (store h p { n with marked := true })

/-- The `while (true)` loop of `tryLock`, one unit of budget per attempt; the scope guard
unlocks the tracked nodes on `continue` and on `return`. -/
def tryLockLoop (topLevel start end_ : Nat) :
    Nat → ConcurrentRangeLock_V1 → Option (Bool × ConcurrentRangeLock_V1)
  | 0, _ => none
  | fuel + 1, s =>
    match findInsert s.nodes.length s start end_ with
    | none => none
    | some (levelFound, preds, succs) =>
      if levelFound ≠ -1 then
        match succs[levelFound.toNat]? with
        | none => none
        | some found =>
          match deref s.nodes found with
          | none => none
          | some fn =>
            if !fn.marked then some (false, s)
            else tryLockLoop topLevel start end_ fuel s
      else
        match tryLockValidate preds succs (topLevel + 1) 0 true s.nodes [] with
        | none => none
        | some (valid, h1, tracked) =>
          if !valid then
            match unlockAll h1 tracked with
            | none => none
            | some h2 => tryLockLoop topLevel start end_ fuel { s with nodes := h2 }
          else
            let (h2, newNode) := createNode_V1 h1 start end_ topLevel
            match tryLockLink preds succs newNode (topLevel + 1) 0 h2 with
            | none => none
            | some h3 =>
              match setFullyLinked h3 newNode with
              | none => none
              | some h4 =>
                match unlockAll h4 tracked with
                | none => none
                | some h5 =>
                  some (true, { s with nodes := h5,
                                       elementsCount := fetchAdd1 s.elementsCount })

/-- Source `ConcurrentRangeLock_V1::tryLock`; the retry loop gets a budget of one attempt
per heap node, every walk one step per heap node. -/
def tryLock (s : ConcurrentRangeLock_V1) (start end_ : Nat) (rand : Nat → Nat) :
    Option (Bool × ConcurrentRangeLock_V1) :=
  tryLockLoop (generateRandomLevel rand s.maxLevel) start end_ s.nodes.length s

/-- The locking loop of `releaseLock`,
`for (level = 0; valid && level <= topLevel; ++level) { trackAndLock(pred); valid = ...; }`. -/
def releaseValidate (preds : List Nat) (victim : Nat) :
    Nat → Nat → Bool → List Node_V1 → List Nat → Option (Bool × List Node_V1 × List Nat)
  | 0, _, valid, h, tracked => some (valid, h, tracked)
  | n + 1, level, valid, h, tracked =>
    if valid then
      match preds[level]? with
      | none => none
      | some pred =>
        match trackAndLock h tracked pred with
        | none => none
        | some (h1, tracked1) =>
          match deref h1 pred with
          | none => none
          | some pn =>
            releaseValidate preds victim n (level + 1)
              (!pn.marked && decide (pn.next[level]? = some victim)) h1 tracked1
    else some (valid, h, tracked)

/-- The unlinking loop of `releaseLock`, `for (level = topLevel; level >= 0; --level)
preds[level]->next[level] = victim->next[level]`, with levels `n - 1, ..., 0` left. -/
def releaseUnlink (preds : List Nat) (victim : Nat) :
    Nat → List Node_V1 → Option (List Node_V1)
  | 0, h => some h
  | level + 1, h =>
    match preds[level]?, getNext h victim level with
    | some pred, some nx =>
      match setNext h pred level nx with
      | none => none
      | some h1 => releaseUnlink preds victim level h1
    | _, _ => none

/-- The part of an attempt of `releaseLock` that follows the marking of the victim: lock and
validate the predecessors, then unlink top-down; the scope guard unlocks on both ways out.
The result is `true` with the final heap after the unlinking, `false` for `continue`. -/
def releaseAttempt (preds : List Nat) (victim : Nat) (topLevel : Int)
    (h : List Node_V1) (tracked : List Nat) : Option (Bool × List Node_V1) :=
  match releaseValidate preds victim (topLevel + 1).toNat 0 true h tracked with
  | none => none
  | some (valid, h3, tracked3) =>
    if !valid then
      match unlockAll h3 tracked3 with
      | none => none
      | some h4 => some (false, h4)
    else
      match releaseUnlink preds victim (topLevel + 1).toNat h3 with
      | none => none
      | some h4 =>
        match unlockAll h4 tracked3 with
        | none => none
        | some h5 => some (true, h5)

/-- The `while (true)` loop of `releaseLock`; `isMarked` and `topLevel` live across the
attempts, the locker and its guard are per attempt. -/
def releaseLockLoop (start end_ : Nat) :
    Nat → Bool → Int → ConcurrentRangeLock_V1 → Option (Ret × ConcurrentRangeLock_V1)
  | 0, _, _, _ => none
  | fuel + 1, isMarked, topLevel, s =>
    match findExact s.nodes.length s start end_ with
    | none => none
    | some (levelFound, preds, succs) =>
      if levelFound = -1 then some (Ret.exited, s)
      else
        match succs[levelFound.toNat]? with
        | none => none
        | some victim =>
          match deref s.nodes victim with
          | none => none
          | some vn =>
            if isMarked ∨ ((vn.topLevel : Int) = levelFound ∧ vn.marked = false) then
              if isMarked then
                match releaseAttempt preds victim topLevel s.nodes [] with
                | none => none
                | some (true, h5) =>
                  some (Ret.ret true, { s with nodes := h5,
                                               elementsCount := fetchSub1 s.elementsCount })
                | some (false, h4) =>
                  releaseLockLoop start end_ fuel true topLevel { s with nodes := h4 }
              else
                match trackAndLock s.nodes [] victim with
                | none => none
                | some (h1, tracked1) =>
                  match deref h1 victim with
                  | none => none
                  | some vn1 =>
                    if vn1.marked then
                      match unlockAll h1 tracked1 with
                      | none => none
                      | some h2 => some (Ret.ret false, { s with nodes := h2 })
                    else
                      match setMarked h1 victim with
                      | none => none
                      | some h2 =>
                        match releaseAttempt preds victim (vn.topLevel : Int) h2 tracked1 with
                        | none => none
                        | some (true, h5) =>
                          some (Ret.ret true, { s with nodes := h5,
                                                       elementsCount := fetchSub1 s.elementsCount })
                        | some (false, h4) =>
                          releaseLockLoop start end_ fuel true (vn.topLevel : Int)
                            { s with nodes := h4 }
            else some (Ret.ret false, s)

/-- Source `ConcurrentRangeLock_V1::releaseLock`. -/
def releaseLock (s : ConcurrentRangeLock_V1) (start end_ : Nat) :
    Option (Ret × ConcurrentRangeLock_V1) :=
  releaseLockLoop start end_ s.nodes.length false (-1) s

/-- Source `ConcurrentRangeLock_V1::size`. -/
def size (s : ConcurrentRangeLock_V1) : Nat := s.elementsCount

/-- The addresses met after `p` when following `next[k]`, up to (excluding) `stop`. -/
def chainAfter (h : List Node_V1) (stop k : Nat) : Nat → Nat → List Nat
  | 0, _ => []
  | fuel + 1, p =>
    match getNext h p k with
    | none => []
    | some q => if q = stop ∨ q = 0 then [] else q :: chainAfter h stop k fuel q

/-- The nodes linked at level `k` strictly between the two sentinels. -/
def levelNodes (s : ConcurrentRangeLock_V1) (k : Nat) : List Nat :=
  chainAfter s.nodes s.tail k s.nodes.length s.head

/-- The held intervals, in list order: the nodes of level 0 between the sentinels. -/
def held (s : ConcurrentRangeLock_V1) : List (Nat × Nat) :=
  (levelNodes s 0).filterMap fun p => (deref s.nodes p).map fun n => (n.start, n.end_)

end V1

namespace V0

/-- Source `static const uintptr_t MARK_MASK = 0x1`. -/
def MARK_MASK : Nat := 1

/-- The class `AtomicMarkableReference<T>`: one machine word holding a pointer and, in
bit 0, a mark. -/
structure AtomicMarkableReference where
  atomicRefMark : Nat
  deriving DecidableEq, Repr

/-- Source `pack(ref, mark)`: `reinterpret_cast<uintptr_t>(ref) | (mark ? 1 : 0)`. -/
def pack (ref : Nat) (mark : Bool) : Nat := ref ||| (if mark then 1 else 0)

/-- Source `unpack(packed)`: `{packed & ~MARK_MASK, packed & MARK_MASK}`; pointers are
unbounded naturals here, so clearing the mask bits is subtracting them. -/
def unpack (packed : Nat) : Nat × Bool :=
  (packed - (packed &&& MARK_MASK), decide (packed &&& MARK_MASK ≠ 0))

/-- The constructor `AtomicMarkableReference()`: `pack(nullptr, false)`. -/
def AtomicMarkableReference.new : AtomicMarkableReference := ⟨pack 0 false⟩

/-- Source `AtomicMarkableReference::store`. -/
def AtomicMarkableReference.store (_c : AtomicMarkableReference) (ref : Nat) (mark : Bool) :
    AtomicMarkableReference := ⟨pack ref mark⟩

/-- Source `AtomicMarkableReference::compareAndSet`: `compare_exchange_strong` on the packed
word; the result and the cell afterwards. -/
def AtomicMarkableReference.compareAndSet (c : AtomicMarkableReference)
    (expectedRef newRef : Nat) (expectedMark newMark : Bool) :
    Bool × AtomicMarkableReference :=
  if c.atomicRefMark = pack expectedRef expectedMark then (true, ⟨pack newRef newMark⟩)
  else (false, c)

/-- Source `AtomicMarkableReference::attemptMark`; between the load and the exchange no
other thread writes, so the exchange compares the word with itself. -/
def AtomicMarkableReference.attemptMark (c : AtomicMarkableReference) (expectedRef : Nat)
    (newMark : Bool) : Bool × AtomicMarkableReference :=
  let current := c.atomicRefMark
  if (unpack current).1 = expectedRef ∧ (unpack current).2 ≠ newMark then
    if c.atomicRefMark = current then (true, ⟨pack expectedRef newMark⟩) else (false, c)
  else (false, c)

/-- Source `AtomicMarkableReference::get`: the reference and the mark. -/
def AtomicMarkableReference.get (c : AtomicMarkableReference) : Nat × Bool :=
  unpack c.atomicRefMark

/-- Source `AtomicMarkableReference::getReference`. -/
def AtomicMarkableReference.getReference (c : AtomicMarkableReference) : Nat :=
  (unpack c.atomicRefMark).1

/-- The class `Node<uint64_t>` of `node.hpp` (the copy under `sync/v0`; the header that
`rangelock/v0` includes declares the same class): `next` has `topLevel + 1` cells. -/
structure Node where
  start : Nat
  end_ : Nat
  topLevel : Nat
  next : List AtomicMarkableReference
  deriving DecidableEq, Repr

/-- The class `ConcurrentRangeLock<uint64_t, maxLevel>` with the heap of its nodes. -/
structure ConcurrentRangeLock where
  nodes : List Node
  maxLevel : Nat
  elementsCount : Nat
  tail : Nat
  head : Nat
  deriving DecidableEq, Repr

/-- Source `new Node<T>()`: the constructor sets no field. -/
def newNode (h : List Node) : List Node × Nat := alloc h ⟨0, 0, 0, []⟩

/-- Source `Node::initialize`: the fields, and `topLevel + 1` fresh cells. -/
def initializeNode (h : List Node) (p start end_ topLevel : Nat) : Option (List Node) :=
  match deref h p with
  | none => none
  | some _ =>
    some (store h p ⟨start, end_, topLevel,
      List.replicate (topLevel + 1) AtomicMarkableReference.new⟩)

/-- Source `Node::initializeHead`: as `initialize`, every cell then stores `(tail, false)`. -/
def initializeHead (h : List Node) (p start end_ topLevel tail : Nat) : Option (List Node) :=
  match deref h p with
  | none => none
  | some _ =>
    some (store h p ⟨start, end_, topLevel,
      List.replicate (topLevel + 1) (AtomicMarkableReference.new.store tail false)⟩)

/-- The cell `p->next[k]`. -/
def getCell (h : List Node) (p k : Nat) : Option AtomicMarkableReference :=
  match deref h p with
  | none => none
  | some n => n.next[k]?

/-- Write the cell `p->next[k]`. -/
def setCell (h : List Node) (p k : Nat) (c : AtomicMarkableReference) : Option (List Node) :=
  match deref h p with
  | none => none
  | some n =>
    if k < n.next.length then some (store h p { n with next := n.next.set k c })
    else none

/-- Source `p->next[k]->compareAndSet(expectedRef, newRef, expectedMark, newMark)`. -/
def casCell (h : List Node) (p k expectedRef newRef : Nat) (expectedMark newMark : Bool) :
    Option (Bool × List Node) :=
  match getCell h p k with
  | none => none
  | some c =>
    match setCell h p k (c.compareAndSet expectedRef newRef expectedMark newMark).2 with
    | none => none
    | some h1 => some ((c.compareAndSet expectedRef newRef expectedMark newMark).1, h1)

/-- Source `ConcurrentRangeLock::ConcurrentRangeLock()`; neither initialisation can fault on
the node just made. -/
def ConcurrentRangeLock.new (maxLevel : Nat) : ConcurrentRangeLock :=
  let (h1, head) := newNode []
  let (h2, tail) := newNode h1
  let h3 := (initializeNode h2 tail UINT64_MAX UINT64_MAX maxLevel).getD h2
  let h4 := (initializeHead h3 head 0 0 maxLevel tail).getD h3
  ⟨h4, maxLevel, 0, tail, head⟩

/-- The helping loop shared by the three searches,
`while (marked[0]) { snip = pred->next[level]->compareAndSet(curr, succ, false, false);
if (!snip) goto retry; curr = pred->next[level]->getReference();
succ = curr->next[level]->get(marked); }`.
The first component of the result is `false` for `goto retry`. -/
def snipLoop (level pred : Nat) :
    Nat → List Node → Nat → Nat → Bool → Option (Bool × List Node × Nat × Nat)
  | 0, h, curr, succ, marked => if marked then none else some (true, h, curr, succ)
  | fuel + 1, h, curr, succ, marked =>
    if marked then
      match casCell h pred level curr succ false false with
      | none => none
      | some (snip, h1) =>
        if !snip then some (false, h1, curr, succ)
        else
          match getCell h1 pred level with
          | none => none
          | some pc =>
            match getCell h1 pc.getReference level with
            | none => none
            | some cc => snipLoop level pred fuel h1 pc.getReference cc.get.1 cc.get.2
    else some (true, h, curr, succ)

/-- The walk along one level shared by the three searches,
`while (enter(curr)) { succ = curr->next[level]->get(marked); (helping loop);
if (advance(curr)) { pred = curr; curr = succ; } else break; }`,
where `enter` and `advance` are the two tests in which the searches differ; `budget`
bounds the helping loop. The first component of the result is `false` for `goto retry`. -/
def walkLevel (enter advance : Node → Bool) (budget level : Nat) :
    Nat → List Node → Nat → Nat → Option (Bool × List Node × Nat × Nat)
  | 0, _, _, _ => none
  | fuel + 1, h, pred, curr =>
    match deref h curr with
    | none => none
    | some cn =>
      if enter cn then
        match cn.next[level]? with
        | none => none
        | some cc =>
          match snipLoop level pred budget h curr cc.get.1 cc.get.2 with
          | none => none
          | some (false, h1, _, _) => some (false, h1, pred, curr)
          | some (true, h1, curr1, succ1) =>
            match deref h1 curr1 with
            | none => none
            | some cn1 =>
              if advance cn1 then walkLevel enter advance budget level fuel h1 curr1 succ1
              else some (true, h1, pred, curr1)
      else some (true, h, pred, curr)

/-- The level loop shared by the three searches, `for (level = maxLevel; level >= 0;
level--) { curr = pred->next[level]->getReference(); (walk); preds[level] = pred;
succs[level] = curr; }`, with levels `n - 1, ..., 0` still to do. -/
def findLevels (enter advance : Node → Bool) (budget : Nat) :
    Nat → List Node → Nat → Nat → List Nat → List Nat →
      Option (Bool × List Node × Nat × Nat × List Nat × List Nat)
  | 0, h, pred, curr, preds, succs => some (true, h, pred, curr, preds, succs)
  | level + 1, h, pred, _, preds, succs =>
    match getCell h pred level with
    | none => none
    | some pc =>
      match walkLevel enter advance budget level budget h pred pc.getReference with
      | none => none
      | some (false, h1, _, _) => some (false, h1, pred, pc.getReference, preds, succs)
      | some (true, h1, pred1, curr1) =>
        findLevels enter advance budget level h1 pred1 curr1
          (preds.set level pred1) (succs.set level curr1)

/-- The retry loop shared by the three searches, `retry: while (true) { pred = head; ... }`:
the final heap, `pred`, `curr` and the arrays. -/
def findLoop (enter advance : Node → Bool) (budget maxLevel head : Nat) :
    Nat → List Node → List Nat → List Nat →
      Option (List Node × Nat × Nat × List Nat × List Nat)
  | 0, _, _, _ => none
  | fuel + 1, h, preds, succs =>
    match findLevels enter advance budget (maxLevel + 1) h head 0 preds succs with
    | none => none
    | some (false, h1, _, _, preds1, succs1) =>
      findLoop enter advance budget maxLevel head fuel h1 preds1 succs1
    | some (true, h1, pred, curr, preds1, succs1) => some (h1, pred, curr, preds1, succs1)

/-- Source `ConcurrentRangeLock::findInsert`: the walk goes on while
`start > curr->getStart()` and advances when `start >= curr->getStart()`; the result is
`!(start > pred->getEnd() && end < curr->getStart())`. -/
def findInsert (budget : Nat) (s : ConcurrentRangeLock) (start end_ : Nat)
    (preds succs : List Nat) : Option (Bool × ConcurrentRangeLock × List Nat × List Nat) :=
  match findLoop (fun c => decide (start > c.start)) (fun c => decide (start ≥ c.start))
      budget s.maxLevel s.head budget s.nodes preds succs with
  | none => none
  | some (h1, pred, curr, preds1, succs1) =>
    match deref h1 pred, deref h1 curr with
    | some pn, some cn =>
      some (!(decide (start > pn.end_) && decide (end_ < cn.start)),
        { s with nodes := h1 }, preds1, succs1)
    | _, _ => none

/-- Source `ConcurrentRangeLock::findExact`: the walk goes on while
`start >= curr->getStart()` and advances when `start >= curr->getEnd()`; the result is
`start == curr->getStart() && end == curr->getEnd()`. -/
def findExact (budget : Nat) (s : ConcurrentRangeLock) (start end_ : Nat)
    (preds succs : List Nat) : Option (Bool × ConcurrentRangeLock × List Nat × List Nat) :=
  match findLoop (fun c => decide (start ≥ c.start)) (fun c => decide (start ≥ c.end_))
      budget s.maxLevel s.head budget s.nodes preds succs with
  | none => none
  | some (h1, _, curr, preds1, succs1) =>
    match deref h1 curr with
    | some cn =>
      some (decide (start = cn.start) && decide (end_ = cn.end_),
        { s with nodes := h1 }, preds1, succs1)
    | none => none

/-- Source `ConcurrentRangeLock::findDelete`: the traversal of `findExact` without the
writes to `preds` and `succs`, which are scratch arrays here, and without a result. -/
def findDelete (budget : Nat) (s : ConcurrentRangeLock) (start : Nat) :
    Option ConcurrentRangeLock :=
  match findLoop (fun c => decide (start ≥ c.start)) (fun c => decide (start ≥ c.end_))
      budget s.maxLevel s.head budget s.nodes (List.replicate (s.maxLevel + 1) 0)
      (List.replicate (s.maxLevel + 1) 0) with
  | none => none
  | some (h1, _, _, _, _) => some { s with nodes := h1 }

/-- The first loop of `tryLock`, `for (level = 0; level <= topLevel; ++level)
newNode->next[level]->store(succs[level], false)`, with `n` iterations left. -/
def storeSuccs (succs : List Nat) (newNode : Nat) :
    Nat → Nat → List Node → Option (List Node)
  | 0, _, h => some h
  | n + 1, level, h =>
    match succs[level]?, getCell h newNode level with
    | some succ, some c =>
      match setCell h newNode level (c.store succ false) with
      | none => none
      | some h1 => storeSuccs succs newNode n (level + 1) h1
    | _, _ => none

/-- The inner `while (true)` of the second loop of `tryLock`: try the CAS at `level`, and
after a failure run `findInsert` again. -/
def linkLevel (budget start end_ newNode level : Nat) :
    Nat → ConcurrentRangeLock → List Nat → List Nat →
      Option (ConcurrentRangeLock × List Nat × List Nat)
  | 0, _, _, _ => none
  | fuel + 1, s, preds, succs =>
    match preds[level]?, succs[level]? with
    | some pred, some succ =>
      match casCell s.nodes pred level succ newNode false false with
      | none => none
      | some (true, h1) => some ({ s with nodes := h1 }, preds, succs)
      | some (false, h1) =>
        match findInsert budget { s with nodes := h1 } start end_ preds succs with
        | none => none
        | some (_, s2, preds2, succs2) =>
          linkLevel budget start end_ newNode level fuel s2 preds2 succs2
    | _, _ => none

/-- The second loop of `tryLock`, `for (level = 1; level <= topLevel; ++level)`, with `n`
iterations left. -/
def linkUpper (budget start end_ newNode : Nat) :
    Nat → Nat → ConcurrentRangeLock → List Nat → List Nat → Option ConcurrentRangeLock
  | 0, _, s, _, _ => some s
  | n + 1, level, s, preds, succs =>
    match linkLevel budget start end_ newNode level budget s preds succs with
    | none => none
    | some (s1, preds1, succs1) => linkUpper budget start end_ newNode n (level + 1) s1 preds1 succs1

/-- The `while (true)` loop of `tryLock`. -/
def tryLockLoop (budget topLevel start end_ : Nat) :
    Nat → ConcurrentRangeLock → List Nat → List Nat → Option (Bool × ConcurrentRangeLock)
  | 0, _, _, _ => none
  | fuel + 1, s, preds, succs =>
    match findInsert budget s start end_ preds succs with
    | none => none
    | some (true, s1, _, _) => some (false, s1)
    | some (false, s1, preds1, succs1) =>
      let (h2, newNode) := newNode s1.nodes
      match initializeNode h2 newNode start end_ topLevel with
      | none => none
      | some h3 =>
        match storeSuccs succs1 newNode (topLevel + 1) 0 h3 with
        | none => none
        | some h4 =>
          match preds1[0]?, succs1[0]?, getCell h4 newNode 0 with
          | some pred, some succ, some c =>
            match setCell h4 newNode 0 (c.store succ false) with
            | none => none
            | some h5 =>
              match casCell h5 pred 0 succ newNode false false with
              | none => none
              | some (false, h6) =>
                tryLockLoop budget topLevel start end_ fuel { s1 with nodes := h6 } preds1 succs1
              | some (true, h6) =>
                match linkUpper budget start end_ newNode topLevel 1 { s1 with nodes := h6 }
                    preds1 succs1 with
                | none => none
                | some s7 =>
                  some (true, { s7 with elementsCount := fetchAdd1 s7.elementsCount })
          | _, _, _ => none

/-- Source `ConcurrentRangeLock::tryLock`; every loop gets a budget of one step per heap
node. -/
def tryLock (s : ConcurrentRangeLock) (start end_ : Nat) (rand : Nat → Nat) :
    Option (Bool × ConcurrentRangeLock) :=
  tryLockLoop s.nodes.length (randomLevel rand s.maxLevel) start end_ s.nodes.length s
    (List.replicate (s.maxLevel + 1) 0) (List.replicate (s.maxLevel + 1) 0)

/-- The marking of one upper level in `releaseLock`,
`while (!marked[0]) { nodeToRemove->next[level]->attemptMark(succ, true);
succ = nodeToRemove->next[level]->get(marked); }`. -/
def markLevel (victim level : Nat) : Nat → List Node → Nat → Bool → Option (List Node)
  | 0, h, _, marked => if marked then some h else none
  | fuel + 1, h, succ, marked =>
    if marked then some h
    else
      match getCell h victim level with
      | none => none
      | some c =>
        match setCell h victim level (c.attemptMark succ true).2 with
        | none => none
        | some h1 =>
          match getCell h1 victim level with
          | none => none
          | some c1 => markLevel victim level fuel h1 c1.get.1 c1.get.2

/-- The first loop of `releaseLock`, `for (level = topLevel; level >= 1; level--)`, with
the levels `n, ..., 1` still to do. -/
def markUpper (budget victim : Nat) : Nat → List Node → Option (List Node)
  | 0, h => some h
  | n + 1, h =>
    match getCell h victim (n + 1) with
    | none => none
    | some c =>
      match markLevel victim (n + 1) budget h c.get.1 c.get.2 with
      | none => none
      | some h1 => markUpper budget victim n h1

/-- The last loop of `releaseLock`: `while (true) { iMarkedIt =
nodeToRemove->next[0]->compareAndSet(succ, succ, false, true);
succ = succs[0]->next[0]->get(marked); if (iMarkedIt) { findDelete; count--; return true; }
else if (marked[0]) return false; }`. -/
def markBottom (budget victim start : Nat) :
    Nat → ConcurrentRangeLock → Nat → Option (Bool × ConcurrentRangeLock)
  | 0, _, _ => none
  | fuel + 1, s, succ =>
    match casCell s.nodes victim 0 succ succ false true with
    | none => none
    | some (iMarkedIt, h1) =>
      match getCell h1 victim 0 with
      | none => none
      | some c =>
        if iMarkedIt then
          match findDelete budget { s with nodes := h1 } start with
          | none => none
          | some s2 => some (true, { s2 with elementsCount := fetchSub1 s2.elementsCount })
        else if c.get.2 then some (false, { s with nodes := h1 })
        else markBottom budget victim start fuel { s with nodes := h1 } c.get.1

/-- Source `ConcurrentRangeLock::releaseLock`; its outer `while (true)` returns in the
first round on every path. -/
def releaseLock (s : ConcurrentRangeLock) (start end_ : Nat) :
    Option (Bool × ConcurrentRangeLock) :=
  match findExact s.nodes.length s start end_ (List.replicate (s.maxLevel + 1) 0)
      (List.replicate (s.maxLevel + 1) 0) with
  | none => none
  | some (false, s1, _, _) => some (false, s1)
  | some (true, s1, _, succs) =>
    match succs[0]? with
    | none => none
    | some nodeToRemove =>
      match deref s1.nodes nodeToRemove with
      | none => none
      | some vn =>
        match markUpper s.nodes.length nodeToRemove vn.topLevel s1.nodes with
        | none => none
        | some h2 =>
          match getCell h2 nodeToRemove 0 with
          | none => none
          | some c =>
            markBottom s.nodes.length nodeToRemove start s.nodes.length
              { s1 with nodes := h2 } c.get.1

/-- Source `ConcurrentRangeLock::size`. -/
def size (s : ConcurrentRangeLock) : Nat := s.elementsCount

/-- The addresses met after `p` when following the references of `next[k]`, up to
(excluding) `stop`. -/
def chainAfter (h : List Node) (stop k : Nat) : Nat → Nat → List Nat
  | 0, _ => []
  | fuel + 1, p =>
    match getCell h p k with
    | none => []
    | some c =>
      if c.getReference = stop ∨ c.getReference = 0 then []
      else c.getReference :: chainAfter h stop k fuel c.getReference

/-- The nodes reachable from `head` at level `k`, strictly between the two sentinels. -/
def levelNodes (s : ConcurrentRangeLock) (k : Nat) : List Nat :=
  chainAfter s.nodes s.tail k s.nodes.length s.head

/-- The held intervals, in list order: the nodes of level 0 between the sentinels. -/
def held (s : ConcurrentRangeLock) : List (Nat × Nat) :=
  (levelNodes s 0).filterMap fun p => (deref s.nodes p).map fun n => (n.start, n.end_)

end V0

namespace V2

/-- The struct `LNode`; `next` is the pointer word, whose bit 0 is the deletion mark. -/
structure LNode where
  start : Nat
  end_ : Nat
  next : Nat
  deriving DecidableEq, Repr

/-- The struct `ListRL` with the heap of its nodes. -/
structure ListRL where
  nodes : List LNode
  head : Nat
  elementsCount : Nat
  deriving DecidableEq, Repr

/-- The struct `RangeLock`, the handle an acquire returns. -/
structure RangeLock where
  node : Nat
  deriving DecidableEq, Repr

/-- A `std::atomic<LNode *> *`: the address of the list head or of a node's `next`. -/
inductive Ref where
  | head : Ref
  | next (p : Nat) : Ref
  deriving DecidableEq, Repr

/-- The constructor `ListRL()`: `head(nullptr)`, `elementsCount{0}`. -/
def ListRL.new : ListRL := ⟨[], 0, 0⟩

/-- Source `prev->load()`. -/
def load (s : ListRL) : Ref → Option Nat
  | Ref.head => some s.head
  | Ref.next p => (deref s.nodes p).map fun n => n.next

/-- Source `prev->store(v)`. -/
def storeRef (s : ListRL) : Ref → Nat → Option ListRL
  | Ref.head, v => some { s with head := v }
  | Ref.next p, v =>
    match deref s.nodes p with
    | none => none
    | some n => some { s with nodes := store s.nodes p { n with next := v } }

/-- Source `std::atomic_compare_exchange_strong(prev, &cur, desired)`: the result, the
value left in `cur`, and the state. -/
def compareExchange (s : ListRL) (prev : Ref) (cur desired : Nat) :
    Option (Bool × Nat × ListRL) :=
  match load s prev with
  | none => none
  | some v =>
    if v = cur then
      match storeRef s prev desired with
      | none => none
      | some s1 => some (true, cur, s1)
    else some (false, v, s)

/-- Source `isMarked(node)`: `(uintptr_t(node) & 1) != 0`. -/
def isMarked (node : Nat) : Bool := (node &&& 1) != 0

/-- Source `unmark(node)`: `uintptr_t(node) & ~1`; pointers are unbounded naturals here, so
clearing bit 0 is subtracting it. -/
def unmark (node : Nat) : Nat := node - (node &&& 1)

/-- Source `compare(lock1, lock2)`. -/
def compare (h : List LNode) (lock1 lock2 : Nat) : Option Int :=
  if lock1 = 0 then some 1
  else
    match deref h lock1, deref h lock2 with
    | some n1, some n2 =>
      if n1.start ≥ n2.end_ then some 1
      else if n2.start ≥ n1.end_ then some (-1)
      else some 0
    | _, _ => none

/-- The inner `while (true)` of `InsertNode`; the result is `none` for `break` and
`some b` for `return b`. -/
def insertInner (lock : Nat) : Nat → ListRL → Ref → Nat → Option (Option Bool × ListRL)
  | 0, _, _, _ => none
  | fuel + 1, s, prev, cur =>
    if isMarked cur then some (none, s)
    else
      match (if cur ≠ 0 then (deref s.nodes cur).map fun n => isMarked n.next
        else some false) with
      | none => none
      | some true =>
        match deref s.nodes cur with
        | none => none
        | some cn =>
          match compareExchange s prev cur (unmark cn.next) with
          | none => none
          | some (_, _, s1) => insertInner lock fuel s1 prev (unmark cn.next)
      | some false =>
        match compare s.nodes cur lock with
        | none => none
        | some ret =>
          if ret = -1 then
            match load s (Ref.next cur) with
            | none => none
            | some cur1 => insertInner lock fuel s (Ref.next cur) cur1
          else if ret = 0 then some (some false, s)
          else
            match storeRef s (Ref.next lock) cur with
            | none => none
            | some s1 =>
              match compareExchange s1 prev cur lock with
              | none => none
              | some (true, _, s2) => some (some true, s2)
              | some (false, cur1, s2) => insertInner lock fuel s2 prev cur1

/-- The outer `while (true)` of `InsertNode`; `budget` bounds the inner loop. -/
def insertOuter (lock budget : Nat) : Nat → ListRL → Option (Bool × ListRL)
  | 0, _ => none
  | fuel + 1, s =>
    match insertInner lock budget s Ref.head s.head with
    | none => none
    | some (some b, s1) => some (b, s1)
    | some (none, s1) => insertOuter lock budget fuel s1

/-- Source `InsertNode(listrl, lock)`; both loops get a budget of one step per heap node. -/
def InsertNode (s : ListRL) (lock : Nat) : Option (Bool × ListRL) :=
  insertOuter lock s.nodes.length s.nodes.length s

/-- Source `DeleteNode(lock)`: `lock->next.store(lock->next.load() | 1)`. -/
def DeleteNode (s : ListRL) (lock : Nat) : Option ListRL :=
  match load s (Ref.next lock) with
  | none => none
  | some currentNext => storeRef s (Ref.next lock) (currentNext ||| 1)

/-- Source `MutexRangeAcquire(listrl, start, end)`: `none` is the null handle. -/
def MutexRangeAcquire (s : ListRL) (start end_ : Nat) : Option (Option RangeLock × ListRL) :=
  let (h1, node) := alloc s.nodes ⟨start, end_, 0⟩
  match InsertNode { s with nodes := h1 } node with
  | none => none
  | some (true, s1) => some (some ⟨node⟩, s1)
  | some (false, s1) => some (none, s1)

/-- Source `MutexRangeRelease(rl)`. -/
def MutexRangeRelease (s : ListRL) (rl : RangeLock) : Option ListRL :=
  DeleteNode s rl.node

/-- The nodes met when following the unmarked `next` pointers from `p` to the null
pointer. -/
def chainFrom (h : List LNode) : Nat → Nat → List Nat
  | 0, _ => []
  | fuel + 1, p =>
    match deref h p with
    | none => []
    | some n => p :: chainFrom h fuel (unmark n.next)

/-- The live intervals, in list order: the nodes reachable from `head` whose `next` is not
marked. -/
def live (s : ListRL) : List (Nat × Nat) :=
  (chainFrom s.nodes s.nodes.length (unmark s.head)).filterMap fun p =>
    match deref s.nodes p with
    | none => none
    | some n => if isMarked n.next then none else some (n.start, n.end_)

/-- Abstract view of one node of the chain: its address, its interval, and whether its
`next` carries the mark. -/
structure Item where
  addr : Nat
  start : Nat
  end_ : Nat
  dead : Bool
  deriving DecidableEq, Repr

/-- The pointer `p` leads, through the heap `h`, along the chain `C` to the null pointer. -/
def Chain (h : List LNode) : Nat → List Item → Prop
  | p, [] => p = 0
  | p, a :: rest =>
    p = a.addr ∧ ∃ n, deref h a.addr = some n ∧ n.start = a.start ∧ n.end_ = a.end_ ∧
      ∃ q, n.next = q + (if a.dead then 1 else 0) ∧ q % 2 = 0 ∧ Chain h q rest

/-- The owner of a cell: the node whose `next` it is, the null address for the list head. -/
def owner : Ref → Nat
  | Ref.head => 0
  | Ref.next p => p

/-- The bounds of the node at an address. -/
def fieldsOf (h : List LNode) (x : Nat) : Option (Nat × Nat) :=
  (deref h x).map fun n => (n.start, n.end_)

/-- The chain after `DeleteNode` has marked the node at address `p`. -/
def markDead (p : Nat) (C : List Item) : List Item :=
  C.map fun a => if a.addr = p then { a with dead := true } else a

/-- The intervals of the items that are not marked. -/
def liveOf (C : List Item) : List (Nat × Nat) :=
  (C.filter fun a => !a.dead).map fun a => (a.start, a.end_)

/-- What the traversal of `InsertNode` does to the chain: it drops the marked items it
meets and stops at the first live item that does not lie wholly before the new one. -/
def walkAbs (l : Item) : List Item → Bool × List Item
  | [] => (true, [l])
  | a :: rest =>
    if a.dead then walkAbs l rest
    else if l.end_ ≤ a.start then (true, l :: a :: rest)
    else if a.end_ ≤ l.start then ((walkAbs l rest).1, a :: (walkAbs l rest).2)
    else (false, a :: rest)

/-- The state `s` is a list whose chain from `head` is `C`, with the live intervals sorted
and disjoint; the handles `H` issued so far are nodes of the heap. -/
structure Inv (s : ListRL) (H : List Nat) (C : List Item) : Prop where
  chain : Chain s.nodes s.head C
  nodup : (C.map Item.addr).Nodup
  dom : ∀ a ∈ C, a.start < a.end_
  sorted : (liveOf C).Pairwise fun a b => a.2 ≤ b.1
  handles : ∀ p ∈ H, (deref s.nodes p).isSome = true

/-- States reached from an empty list by single-threaded `MutexRangeAcquire` calls with
`start < end` and `MutexRangeRelease` calls on handles acquired before; the second
component lists the nodes of the handles issued so far. -/
inductive Reachable : ListRL → List Nat → Prop
  | fresh : Reachable ListRL.new []
  | acquired {s s1 : ListRL} {H : List Nat} {start end_ : Nat} {rl : RangeLock} :
      Reachable s H → start < end_ →
      MutexRangeAcquire s start end_ = some (some rl, s1) → Reachable s1 (rl.node :: H)
  | refused {s s1 : ListRL} {H : List Nat} {start end_ : Nat} :
      Reachable s H → start < end_ →
      MutexRangeAcquire s start end_ = some (none, s1) → Reachable s1 H
  | released {s s1 : ListRL} {H : List Nat} {rl : RangeLock} :
      Reachable s H → rl.node ∈ H →
      MutexRangeRelease s rl = some s1 → Reachable s1 H

/-- The state after `MutexRangeAcquire(list, 10, 20)` on an empty list. -/
def heldOnce : ListRL := ⟨[⟨10, 20, 0⟩], 2, 0⟩

end V2

namespace V3

/-- The head sentinel `(0, 0)`, the first object allocated. -/
def headE : Entry := ⟨addrOf 0, 0, 0, MAX_LEVEL⟩

/-- The tail sentinel `(MAX_VALUE, MAX_VALUE)`, the second object allocated. -/
def tailE : Entry := ⟨addrOf 1, MAX_VALUE, MAX_VALUE, MAX_LEVEL⟩

/-- The heap holds, at the entry's address, a node with the entry's fields. -/
def Agree (h : List SkipListNode) (e : Entry) : Prop :=
  ∃ n, deref h e.addr = some n ∧ n.start = e.start ∧ n.end_ = e.end_ ∧
    n.level = e.level ∧ n.forward.length = e.level + 1

/-- Source `a->forward[k] == b`. -/
def Link (h : List SkipListNode) (k : Nat) (a b : Entry) : Prop :=
  getForward h a.addr k = some b.addr

/-- The heap of `s` is a skip list whose level-0 chain between the sentinels is `L`. -/
structure Inv (s : SongRangeLock) (L : List Entry) : Prop where
  head_eq : s.head_ = headE.addr
  tail_eq : s.tail_ = tailE.addr
  agree : ∀ e ∈ headE :: L ++ [tailE], Agree s.nodes e
  dom : ∀ e ∈ L, 1 ≤ e.start ∧ e.start < e.end_ ∧ e.end_ < MAX_VALUE ∧ e.level ≤ MAX_LEVEL
  sorted : (headE :: L ++ [tailE]).Pairwise fun a b => a.end_ < b.start
  nodup : ((headE :: L ++ [tailE]).map Entry.addr).Nodup
  links : ∀ k, k ≤ MAX_LEVEL → List.Chain' (Link s.nodes k) (headE :: atLevel k L ++ [tailE])
  count : s.elementsCount = L.length

/-- States reached from a fresh lock by `tryLock` calls in the domain and
`releaseLock` calls on the start of a held interval. -/
inductive Reachable : SongRangeLock → Prop
  | fresh : Reachable SongRangeLock.new
  | tryLock {s s1 : SongRangeLock} {start end_ : Nat} {rand : Nat → Nat} {r : Bool} :
      Reachable s → 1 ≤ start → start < end_ → end_ ≤ MAX_VALUE - 1 →
      tryLock s start end_ rand = some (r, s1) → Reachable s1
  | releaseLock {s s1 : SongRangeLock} {start : Nat} :
      Reachable s → start ∈ (held s).map Prod.fst →
      releaseLock s start = some s1 → Reachable s1

/-- What `FindNodes` has to know about the list: it splits as `P ++ R` around `start`. -/
structure Split (h : List SkipListNode) (start : Nat) (P R : List Entry) : Prop where
  agree : ∀ e ∈ headE :: (P ++ R) ++ [tailE], Agree h e
  links : ∀ k, k ≤ MAX_LEVEL →
    List.Chain' (Link h k) (headE :: atLevel k (P ++ R) ++ [tailE])
  before : ∀ e ∈ P, e.end_ < start
  after : ∀ e ∈ R ++ [tailE], ¬ e.end_ < start

end V3
namespace V3

/-- What the search of `releaseLock` has to know: the list splits as `P ++ R` around `start`. -/
structure SplitR (h : List SkipListNode) (start : Nat) (P R : List Entry) : Prop where
  agree : ∀ e ∈ headE :: (P ++ R) ++ [tailE], Agree h e
  links : ∀ k, k ≤ MAX_LEVEL →
    List.Chain' (Link h k) (headE :: atLevel k (P ++ R) ++ [tailE])
  before : ∀ e ∈ P, e.start < start
  after : ∀ e ∈ R ++ [tailE], ¬ e.start < start

end V3
namespace V3

/-- One `tryLock` request: the interval and the values `rand()` will return during the call. -/
structure Req where
  start : Nat
  end_ : Nat
  rand : Nat → Nat

/-- Issue the requests one after another; the results in order and the final state. -/
def tryLockAll : SongRangeLock → List Req → Option (List Bool × SongRangeLock)
  | s, [] => some ([], s)
  | s, q :: rest =>
    match tryLock s q.start q.end_ q.rand with
    | none => none
    | some (r, s1) =>
      match tryLockAll s1 rest with
      | none => none
      | some (rs, s2) => some (r :: rs, s2)

/-- The state after `tryLock(10, 20)` on a fresh lock when the coin flip gives level 0. -/
def heldOnce : SongRangeLock :=
  { nodes := [⟨0, 0, 3, [6, 4, 4, 4]⟩, ⟨MAX_VALUE, MAX_VALUE, 3, [0, 0, 0, 0]⟩,
      ⟨10, 20, 0, [4]⟩],
    head_ := 2, tail_ := 4, elementsCount := 1 }

end V3

namespace V1

/-- The head sentinel `(0, 0)`, the first object allocated. -/
def headE (maxLevel : Nat) : Entry := ⟨addrOf 0, 0, 0, maxLevel⟩

/-- The tail sentinel `(max, max)`, the second object allocated. -/
def tailE (maxLevel : Nat) : Entry := ⟨addrOf 1, UINT64_MAX, UINT64_MAX, maxLevel⟩

/-- The fields of a node that no operation changes once the node is linked, its mark
included. -/
def viewOf (h : List Node_V1) (a : Nat) : Option (Nat × Nat × Nat × Nat × Bool) :=
  (deref h a).map fun n => (n.start, n.end_, n.topLevel, n.next.length, n.marked)

/-- The state of a node's mutex. -/
def lockOf (h : List Node_V1) (a : Nat) : Option Bool :=
  (deref h a).map fun n => n.locked

/-- The heap holds, at the entry's address, an unmarked node with the entry's fields. -/
def Shape (h : List Node_V1) (e : Entry) : Prop :=
  viewOf h e.addr = some (e.start, e.end_, e.level, e.level + 1, false)

/-- Source `a->next[k] == b`. -/
def Link (h : List Node_V1) (k : Nat) (a b : Entry) : Prop :=
  getNext h a.addr k = some b.addr

/-- The heap of `s` is a skip list whose level-0 chain between the sentinels is `L`, with
no node marked and no mutex held. -/
structure Inv (s : ConcurrentRangeLock_V1) (L : List Entry) : Prop where
  head_eq : s.head = (headE s.maxLevel).addr
  tail_eq : s.tail = (tailE s.maxLevel).addr
  shape : ∀ e ∈ headE s.maxLevel :: L ++ [tailE s.maxLevel], Shape s.nodes e
  unlocked : ∀ e ∈ headE s.maxLevel :: L ++ [tailE s.maxLevel], lockOf s.nodes e.addr = some false
  dom : ∀ e ∈ L, 1 ≤ e.start ∧ e.start < e.end_ ∧ e.end_ < UINT64_MAX ∧ e.level ≤ s.maxLevel
  sorted : (headE s.maxLevel :: L ++ [tailE s.maxLevel]).Pairwise fun a b => a.end_ ≤ b.start
  nodup : ((headE s.maxLevel :: L ++ [tailE s.maxLevel]).map Entry.addr).Nodup
  links : ∀ k, k ≤ s.maxLevel →
    List.Chain' (Link s.nodes k) (headE s.maxLevel :: atLevel k L ++ [tailE s.maxLevel])
  count : s.elementsCount = L.length

/-- What the walks of `findInsert` and `findExact` have to know: the list splits as
`P ++ R` around `start`. -/
structure Split (h : List Node_V1) (maxLevel start : Nat) (P R : List Entry) : Prop where
  shape : ∀ e ∈ headE maxLevel :: (P ++ R) ++ [tailE maxLevel], Shape h e
  links : ∀ k, k ≤ maxLevel →
    List.Chain' (Link h k) (headE maxLevel :: atLevel k (P ++ R) ++ [tailE maxLevel])
  before : ∀ e ∈ P, e.end_ ≤ start
  after : ∀ e ∈ R ++ [tailE maxLevel], ¬ e.end_ ≤ start

/-- States reached from a fresh lock by single-threaded `tryLock` and `releaseLock` calls
that return, with arguments in the domain. -/
inductive Reachable (maxLevel : Nat) : ConcurrentRangeLock_V1 → Prop
  | fresh : Reachable maxLevel (ConcurrentRangeLock_V1.new maxLevel)
  | tryLock {s s1 : ConcurrentRangeLock_V1} {start end_ : Nat} {rand : Nat → Nat} {r : Bool} :
      Reachable maxLevel s → 1 ≤ start → start < end_ → end_ ≤ UINT64_MAX - 1 →
      tryLock s start end_ rand = some (r, s1) → Reachable maxLevel s1
  | releaseLock {s s1 : ConcurrentRangeLock_V1} {start end_ : Nat} {r : Bool} :
      Reachable maxLevel s → 1 ≤ start → start < end_ → end_ ≤ UINT64_MAX - 1 →
      releaseLock s start end_ = some (Ret.ret r, s1) → Reachable maxLevel s1

end V1
namespace V1

/-- The state after `tryLock(10, 20)` on a fresh lock with `maxLevel = 1`. -/
def heldOnce : ConcurrentRangeLock_V1 :=
  { nodes := [⟨0, 0, 1, [6, 6], false, false, false⟩,
      ⟨UINT64_MAX, UINT64_MAX, 1, [0, 0], false, false, false⟩,
      ⟨10, 20, 1, [4, 4], false, true, false⟩],
    maxLevel := 1, elementsCount := 1, head := 2, tail := 4 }

/-- The state after `tryLock(20, 30)` on a fresh lock with `maxLevel = 1`. -/
def heldLater : ConcurrentRangeLock_V1 :=
  { nodes := [⟨0, 0, 1, [6, 6], false, false, false⟩,
      ⟨UINT64_MAX, UINT64_MAX, 1, [0, 0], false, false, false⟩,
      ⟨20, 30, 1, [4, 4], false, true, false⟩],
    maxLevel := 1, elementsCount := 1, head := 2, tail := 4 }

end V1

namespace V0

/-- The head sentinel `(min, min)`, the first object allocated. -/
def headE (maxLevel : Nat) : Entry := ⟨addrOf 0, 0, 0, maxLevel⟩

/-- The tail sentinel `(max, max)`, the second object allocated. -/
def tailE (maxLevel : Nat) : Entry := ⟨addrOf 1, UINT64_MAX, UINT64_MAX, maxLevel⟩

/-- A node that carries the fields of an entry; the tests of the searches read only these. -/
def nodeOf (e : Entry) : Node := ⟨e.start, e.end_, e.level, []⟩

/-- The tests of a search read only the bounds of a node. -/
def Ext (test : Node → Bool) : Prop :=
  ∀ (n : Node) (e : Entry), n.start = e.start → n.end_ = e.end_ → test n = test (nodeOf e)

/-- The heap holds, at the entry's address, a node with the entry's fields. -/
def Agree (h : List Node) (e : Entry) : Prop :=
  ∃ n, deref h e.addr = some n ∧ n.start = e.start ∧ n.end_ = e.end_ ∧
    n.topLevel = e.level ∧ n.next.length = e.level + 1

/-- Source `a->next[k]` holds the reference `b` and no mark. -/
def Link (h : List Node) (k : Nat) (a b : Entry) : Prop :=
  getCell h a.addr k = some ⟨b.addr⟩

/-- Source `e->next[k]` holds the reference `b` and the mark. -/
def Marked (h : List Node) (k : Nat) (e b : Entry) : Prop :=
  getCell h e.addr k = some ⟨b.addr + 1⟩

/-- Source `e->next[k]` carries no mark. -/
def Unmarked (h : List Node) (k : Nat) (e : Entry) : Prop :=
  ∃ q, getCell h e.addr k = some ⟨q⟩ ∧ q % 2 = 0

/-- The heap `h` is a skip list whose level-0 chain between the sentinels is `L`, no cell
of which carries a mark. -/
structure Wf (h : List Node) (maxLevel : Nat) (L : List Entry) : Prop where
  agree : ∀ e ∈ headE maxLevel :: L ++ [tailE maxLevel], Agree h e
  nodup : ((headE maxLevel :: L ++ [tailE maxLevel]).map Entry.addr).Nodup
  links : ∀ k, k ≤ maxLevel →
    List.Chain' (Link h k) (headE maxLevel :: atLevel k L ++ [tailE maxLevel])
  tailCells : ∀ k, k ≤ maxLevel → getCell h (tailE maxLevel).addr k = some ⟨0⟩

/-- The state `s` is a well-formed skip list with level-0 chain `L`, sorted with a gap
between consecutive intervals, and the counter is the number of nodes. -/
structure Inv (s : ConcurrentRangeLock) (L : List Entry) : Prop where
  head_eq : s.head = (headE s.maxLevel).addr
  tail_eq : s.tail = (tailE s.maxLevel).addr
  wf : Wf s.nodes s.maxLevel L
  dom : ∀ e ∈ L, 1 ≤ e.start ∧ e.start < e.end_ ∧ e.end_ < UINT64_MAX ∧ e.level ≤ s.maxLevel
  sorted : (headE s.maxLevel :: L ++ [tailE s.maxLevel]).Pairwise fun a b => a.end_ < b.start
  count : s.elementsCount = L.length

/-- Source `a->next[k]` holds the reference `b`, with the mark exactly when `a` is the
node at address `v`. -/
def LinkM (h : List Node) (v k : Nat) (a b : Entry) : Prop :=
  getCell h a.addr k = some ⟨if a.addr = v then b.addr + 1 else b.addr⟩

/-- The list while `findDelete` unlinks the marked node `v`: the levels from `k` up are
done, the levels below `k` still pass through `v` where `v` takes part in them. -/
structure Unlinking (h : List Node) (maxLevel : Nat) (P : List Entry) (v : Entry)
    (R : List Entry) (k : Nat) : Prop where
  agree : ∀ e ∈ headE maxLevel :: (P ++ v :: R) ++ [tailE maxLevel], Agree h e
  nodup : ((headE maxLevel :: (P ++ v :: R) ++ [tailE maxLevel]).map Entry.addr).Nodup
  tailCells : ∀ j, j ≤ maxLevel → getCell h (tailE maxLevel).addr j = some ⟨0⟩
  pending : ∀ j, j ≤ maxLevel → j < k →
    List.Chain' (LinkM h v.addr j)
      (headE maxLevel :: atLevel j (P ++ v :: R) ++ [tailE maxLevel])
  done : ∀ j, j ≤ maxLevel → k ≤ j →
    List.Chain' (Link h j) (headE maxLevel :: atLevel j (P ++ R) ++ [tailE maxLevel])

/-- States reached from a fresh lock by single-threaded `tryLock` and `releaseLock` calls
with arguments in the domain. -/
inductive Reachable (maxLevel : Nat) : ConcurrentRangeLock → Prop
  | fresh : Reachable maxLevel (ConcurrentRangeLock.new maxLevel)
  | tryLock {s s1 : ConcurrentRangeLock} {start end_ : Nat} {rand : Nat → Nat} {r : Bool} :
      Reachable maxLevel s → 1 ≤ start → start < end_ → end_ ≤ UINT64_MAX - 1 →
      tryLock s start end_ rand = some (r, s1) → Reachable maxLevel s1
  | releaseLock {s s1 : ConcurrentRangeLock} {start end_ : Nat} {r : Bool} :
      Reachable maxLevel s → 1 ≤ start → start < end_ → end_ ≤ UINT64_MAX - 1 →
      releaseLock s start end_ = some (r, s1) → Reachable maxLevel s1

/-- One `tryLock` request: the interval and the values `rand()` will return during the call. -/
structure Req where
  start : Nat
  end_ : Nat
  rand : Nat → Nat

/-- Issue the `tryLock` requests one after another; the results in order and the final
state. -/
def tryLockAll : ConcurrentRangeLock → List Req → Option (List Bool × ConcurrentRangeLock)
  | s, [] => some ([], s)
  | s, q :: rest =>
    match tryLock s q.start q.end_ q.rand with
    | none => none
    | some (r, s1) =>
      match tryLockAll s1 rest with
      | none => none
      | some (rs, s2) => some (r :: rs, s2)

/-- Issue the `releaseLock` calls one after another; the results in order and the final
state. -/
def releaseAll : ConcurrentRangeLock → List (Nat × Nat) →
    Option (List Bool × ConcurrentRangeLock)
  | s, [] => some ([], s)
  | s, iv :: rest =>
    match releaseLock s iv.1 iv.2 with
    | none => none
    | some (r, s1) =>
      match releaseAll s1 rest with
      | none => none
      | some (rs, s2) => some (r :: rs, s2)

/-- The state after `tryLock(10, 20)` on a fresh lock with `maxLevel = 1` when the coin flip
gives level 0. -/
def heldOnce : ConcurrentRangeLock :=
  { nodes := [⟨0, 0, 1, [⟨6⟩, ⟨4⟩]⟩, ⟨UINT64_MAX, UINT64_MAX, 1, [⟨0⟩, ⟨0⟩]⟩,
      ⟨10, 20, 0, [⟨4⟩]⟩],
    maxLevel := 1, elementsCount := 1, tail := 4, head := 2 }

/-- The state after `tryLock(10, 20)` and then `tryLock(30, 40)` on a fresh lock with
`maxLevel = 1` when both coin flips give level 0. -/
def heldTwice : ConcurrentRangeLock :=
  { nodes := [⟨0, 0, 1, [⟨6⟩, ⟨4⟩]⟩, ⟨UINT64_MAX, UINT64_MAX, 1, [⟨0⟩, ⟨0⟩]⟩,
      ⟨10, 20, 0, [⟨8⟩]⟩, ⟨30, 40, 0, [⟨4⟩]⟩],
    maxLevel := 1, elementsCount := 2, tail := 4, head := 2 }

end V0

namespace V0

/-- The last node met at level `k` before `tail`: the node whose `next[k]` is looked at
last when following `next[k]` from `head`. -/
def levelLast (s : ConcurrentRangeLock) (k : Nat) : Nat :=
  (levelNodes s k).getLastD s.head

/-- The start values along level `k`, from `head` through the nodes of the level to `tail`. -/
def levelStarts (s : ConcurrentRangeLock) (k : Nat) : List Nat :=
  ((s.head :: levelNodes s k) ++ [s.tail]).filterMap fun p =>
    (deref s.nodes p).map fun n => n.start

end V0

namespace Contract

/-- One step of a single-threaded use of a range lock: a `tryLock` together with the values
`rand()` returns during the call in V0 and in V3, or the release of an interval (V0 is
given both bounds, V3 the start). -/
inductive Op where
  | tryLock (start end_ : Nat) (rand0 rand3 : Nat → Nat) : Op
  | release (start end_ : Nat) : Op

/-- What the caller of V0 sees of a sequence of steps: for each step the boolean `tryLock`
returned (nothing for a release) and `size()` after the step. -/
def runV0 : V0.ConcurrentRangeLock → List Op → Option (List (Option Bool × Nat))
  | _, [] => some []
  | s, Op.tryLock start end_ rand0 _ :: ops =>
    match V0.tryLock s start end_ rand0 with
    | none => none
    | some (r, s1) =>
      match runV0 s1 ops with
      | none => none
      | some obs => some ((some r, V0.size s1) :: obs)
  | s, Op.release start end_ :: ops =>
    match V0.releaseLock s start end_ with
    | none => none
    | some (_, s1) =>
      match runV0 s1 ops with
      | none => none
      | some obs => some ((none, V0.size s1) :: obs)

/-- What the caller of V3 sees of a sequence of steps: for each step the boolean `tryLock`
returned (nothing for a release, `releaseLock` is `void`) and `size()` after the step. -/
def runV3 : V3.SongRangeLock → List Op → Option (List (Option Bool × Nat))
  | _, [] => some []
  | s, Op.tryLock start end_ _ rand3 :: ops =>
    match V3.tryLock s start end_ rand3 with
    | none => none
    | some (r, s1) =>
      match runV3 s1 ops with
      | none => none
      | some obs => some ((some r, V3.size s1) :: obs)
  | s, Op.release start _ :: ops =>
    match V3.releaseLock s start with
    | none => none
    | some s1 =>
      match runV3 s1 ops with
      | none => none
      | some obs => some ((none, V3.size s1) :: obs)

/-- The sequences the shared contract is about: every `tryLock` has its arguments in the
domain `1 <= start < end <= MAX - 1`, and every release is of an interval held at that
point of the run. -/
def proper : V0.ConcurrentRangeLock → List Op → Bool
  | _, [] => true
  | s, Op.tryLock start end_ rand0 _ :: ops =>
    decide (1 ≤ start ∧ start < end_ ∧ end_ ≤ UINT64_MAX - 1) &&
      match V0.tryLock s start end_ rand0 with
      | none => false
      | some (_, s1) => proper s1 ops
  | s, Op.release start end_ :: ops =>
    decide ((start, end_) ∈ V0.held s) &&
      match V0.releaseLock s start end_ with
      | none => false
      | some (_, s1) => proper s1 ops

end Contract

/-- The number of leading odd values of a sequence of `rand()` results. -/
def leadingOdd (vals : List Nat) : Nat :=
  (vals.takeWhile fun v => decide (v % 2 = 1)).length

namespace V0

/-- Every mark that a cell of the heap `h` carries is still carried by that cell in `h1`. -/
def MarksKept (h h1 : List Node) : Prop :=
  ∀ (p k : Nat) (c : AtomicMarkableReference), getCell h p k = some c → c.get.2 = true →
    ∃ c1, getCell h1 p k = some c1 ∧ c1.get.2 = true

/-- A list caught in the middle of a release: the node of `(10, 20)` carries the mark in
`next[0]` and is still linked after `head`. -/
def midRelease : ConcurrentRangeLock :=
  { nodes := [⟨0, 0, 1, [⟨6⟩, ⟨4⟩]⟩, ⟨UINT64_MAX, UINT64_MAX, 1, [⟨0⟩, ⟨0⟩]⟩,
      ⟨10, 20, 0, [⟨5⟩]⟩],
    maxLevel := 1, elementsCount := 1, tail := 4, head := 2 }

/-- The state after `tryLock(15, 18)` on `midRelease` when the coin flip gives level 0: the
search has unlinked the marked node, whose `next[0]` still carries the mark. -/
def midReleaseHelped : ConcurrentRangeLock :=
  { nodes := [⟨0, 0, 1, [⟨8⟩, ⟨4⟩]⟩, ⟨UINT64_MAX, UINT64_MAX, 1, [⟨0⟩, ⟨0⟩]⟩,
      ⟨10, 20, 0, [⟨5⟩]⟩, ⟨15, 18, 0, [⟨4⟩]⟩],
    maxLevel := 1, elementsCount := 2, tail := 4, head := 2 }

end V0

namespace V1

/-- The state after `releaseLock(10, 20)` on `heldOnce`: the node is marked and unlinked. -/
def releasedOnce : ConcurrentRangeLock_V1 :=
  { nodes := [⟨0, 0, 1, [4, 4], false, false, false⟩,
      ⟨UINT64_MAX, UINT64_MAX, 1, [0, 0], false, false, false⟩,
      ⟨10, 20, 1, [4, 4], true, true, false⟩],
    maxLevel := 1, elementsCount := 0, head := 2, tail := 4 }

/-- What a caller does with the node mutexes, in program order: the call
`Node_V1Locker.trackAndLock(victim)`, the call `Node_V1Locker.trackAndLock(preds[level])`
of the locking loops, and the calls `lock()` and `unlock()` of a node's mutex. -/
inductive LockEv where
  | victim (p : Nat) : LockEv
  | pred (level p : Nat) : LockEv
  | lock (p : Nat) : LockEv
  | unlock (p : Nat) : LockEv
  deriving DecidableEq, Repr

/-- The level of a `trackAndLock(preds[level])` call. -/
def LockEv.level : LockEv → Option Nat
  | LockEv.pred level _ => some level
  | _ => none

/-- The node a `trackAndLock` call is made for. -/
def LockEv.request : LockEv → Option Nat
  | LockEv.victim p => some p
  | LockEv.pred _ p => some p
  | _ => none

/-- The node a `lock()` call is made on. -/
def LockEv.locked : LockEv → Option Nat
  | LockEv.lock p => some p
  | _ => none

/-- The node an `unlock()` call is made on. -/
def LockEv.unlocked : LockEv → Option Nat
  | LockEv.unlock p => some p
  | _ => none

/-- Whether the event is the `trackAndLock(victim)` call. -/
def LockEv.isVictim : LockEv → Bool
  | LockEv.victim _ => true
  | _ => false

/-- Source `Node_V1Locker::trackAndLock`, with the mutex calls it makes. -/
def trackAndLockT (h : List Node_V1) (tracked : List Nat) (p : Nat) :
    Option (List Node_V1 × List Nat × List LockEv) :=
  if p ∈ tracked then some (h, tracked, [])
  else
    match lockNode h p with
    | none => none
    | some h1 => some (h1, tracked ++ [p], [LockEv.lock p])

/-- The loop of `Node_V1Locker::unlockAll` over the tracked nodes taken in reverse order,
with the mutex calls it makes. -/
def unlockListT : List Nat → List Node_V1 → Option (List Node_V1 × List LockEv)
  | [], h => some (h, [])
  | p :: rest, h =>
    match unlockNode h p with
    | none => none
    | some h1 =>
      match unlockListT rest h1 with
      | none => none
      | some (h2, log) => some (h2, LockEv.unlock p :: log)

/-- Source `Node_V1Locker::unlockAll`, with the mutex calls it makes. -/
def unlockAllT (h : List Node_V1) (tracked : List Nat) :
    Option (List Node_V1 × List LockEv) :=
  unlockListT tracked.reverse h

/-- The locking loop of `tryLock` (see `tryLockValidate`), with the calls it makes. -/
def tryLockValidateT (preds succs : List Nat) :
    Nat → Nat → Bool → List Node_V1 → List Nat →
      Option (Bool × List Node_V1 × List Nat × List LockEv)
  | 0, _, valid, h, tracked => some (valid, h, tracked, [])
  | n + 1, level, valid, h, tracked =>
    if valid then
      match preds[level]?, succs[level]? with
      | some pred, some succ =>
        match trackAndLockT h tracked pred with
        | none => none
        | some (h1, tracked1, log1) =>
          match deref h1 pred, deref h1 succ with
          | some pn, some sn =>
            match tryLockValidateT preds succs n (level + 1)
                (!pn.marked && !sn.marked && decide (pn.next[level]? = some succ))
                h1 tracked1 with
            | none => none
            | some (valid2, h2, tracked2, log2) =>
              some (valid2, h2, tracked2, LockEv.pred level pred :: (log1 ++ log2))
          | _, _ => none
      | _, _ => none
    else some (valid, h, tracked, [])

/-- The `while (true)` loop of `tryLock` (see `tryLockLoop`), with one list of calls for
each `Node_V1Locker` it makes, in program order. -/
def tryLockLoopT (topLevel start end_ : Nat) :
    Nat → ConcurrentRangeLock_V1 →
      Option (Bool × ConcurrentRangeLock_V1 × List (List LockEv))
  | 0, _ => none
  | fuel + 1, s =>
    match findInsert s.nodes.length s start end_ with
    | none => none
    | some (levelFound, preds, succs) =>
      if levelFound ≠ -1 then
        match succs[levelFound.toNat]? with
        | none => none
        | some found =>
          match deref s.nodes found with
          | none => none
          | some fn =>
            if !fn.marked then some (false, s, [])
            else tryLockLoopT topLevel start end_ fuel s
      else
        match tryLockValidateT preds succs (topLevel + 1) 0 true s.nodes [] with
        | none => none
        | some (valid, h1, tracked, log1) =>
          if !valid then
            match unlockAllT h1 tracked with
            | none => none
            | some (h2, log2) =>
              match tryLockLoopT topLevel start end_ fuel { s with nodes := h2 } with
              | none => none
              | some (r, s1, logs) => some (r, s1, (log1 ++ log2) :: logs)
          else
            let (h2, newNode) := createNode_V1 h1 start end_ topLevel
            match tryLockLink preds succs newNode (topLevel + 1) 0 h2 with
            | none => none
            | some h3 =>
              match setFullyLinked h3 newNode with
              | none => none
              | some h4 =>
                match unlockAllT h4 tracked with
                | none => none
                | some (h5, log2) =>
                  some (true, { s with nodes := h5,
                                       elementsCount := fetchAdd1 s.elementsCount },
                    [log1 ++ log2])

/-- Source `ConcurrentRangeLock_V1::tryLock`, with the mutex calls of each attempt. -/
def tryLockT (s : ConcurrentRangeLock_V1) (start end_ : Nat) (rand : Nat → Nat) :
    Option (Bool × ConcurrentRangeLock_V1 × List (List LockEv)) :=
  tryLockLoopT (generateRandomLevel rand s.maxLevel) start end_ s.nodes.length s

/-- The locking loop of `releaseLock` (see `releaseValidate`), with the calls it makes. -/
def releaseValidateT (preds : List Nat) (victim : Nat) :
    Nat → Nat → Bool → List Node_V1 → List Nat →
      Option (Bool × List Node_V1 × List Nat × List LockEv)
  | 0, _, valid, h, tracked => some (valid, h, tracked, [])
  | n + 1, level, valid, h, tracked =>
    if valid then
      match preds[level]? with
      | none => none
      | some pred =>
        match trackAndLockT h tracked pred with
        | none => none
        | some (h1, tracked1, log1) =>
          match deref h1 pred with
          | none => none
          | some pn =>
            match releaseValidateT preds victim n (level + 1)
                (!pn.marked && decide (pn.next[level]? = some victim)) h1 tracked1 with
            | none => none
            | some (valid2, h2, tracked2, log2) =>
              some (valid2, h2, tracked2, LockEv.pred level pred :: (log1 ++ log2))
    else some (valid, h, tracked, [])

/-- The part of an attempt of `releaseLock` that follows the marking of the victim (see
`releaseAttempt`), with the calls it makes. -/
def releaseAttemptT (preds : List Nat) (victim : Nat) (topLevel : Int)
    (h : List Node_V1) (tracked : List Nat) : Option (Bool × List Node_V1 × List LockEv) :=
  match releaseValidateT preds victim (topLevel + 1).toNat 0 true h tracked with
  | none => none
  | some (valid, h3, tracked3, log1) =>
    if !valid then
      match unlockAllT h3 tracked3 with
      | none => none
      | some (h4, log2) => some (false, h4, log1 ++ log2)
    else
      match releaseUnlink preds victim (topLevel + 1).toNat h3 with
      | none => none
      | some h4 =>
        match unlockAllT h4 tracked3 with
        | none => none
        | some (h5, log2) => some (true, h5, log1 ++ log2)

/-- The `while (true)` loop of `releaseLock` (see `releaseLockLoop`), with one list of calls
for each `Node_V1Locker` it makes, in program order. -/
def releaseLockLoopT (start end_ : Nat) :
    Nat → Bool → Int → ConcurrentRangeLock_V1 →
      Option (Ret × ConcurrentRangeLock_V1 × List (List LockEv))
  | 0, _, _, _ => none
  | fuel + 1, isMarked, topLevel, s =>
    match findExact s.nodes.length s start end_ with
    | none => none
    | some (levelFound, preds, succs) =>
      if levelFound = -1 then some (Ret.exited, s, [[]])
      else
        match succs[levelFound.toNat]? with
        | none => none
        | some victim =>
          match deref s.nodes victim with
          | none => none
          | some vn =>
            if isMarked ∨ ((vn.topLevel : Int) = levelFound ∧ vn.marked = false) then
              if isMarked then
                match releaseAttemptT preds victim topLevel s.nodes [] with
                | none => none
                | some (true, h5, log) =>
                  some (Ret.ret true, { s with nodes := h5,
                                               elementsCount := fetchSub1 s.elementsCount },
                    [log])
                | some (false, h4, log) =>
                  match releaseLockLoopT start end_ fuel true topLevel
                      { s with nodes := h4 } with
                  | none => none
                  | some (r, s1, logs) => some (r, s1, log :: logs)
              else
                match trackAndLockT s.nodes [] victim with
                | none => none
                | some (h1, tracked1, log0) =>
                  match deref h1 victim with
                  | none => none
                  | some vn1 =>
                    if vn1.marked then
                      match unlockAllT h1 tracked1 with
                      | none => none
                      | some (h2, log1) =>
                        some (Ret.ret false, { s with nodes := h2 },
                          [LockEv.victim victim :: (log0 ++ log1)])
                    else
                      match setMarked h1 victim with
                      | none => none
                      | some h2 =>
                        match releaseAttemptT preds victim (vn.topLevel : Int) h2 tracked1 with
                        | none => none
                        | some (true, h5, log) =>
                          some (Ret.ret true, { s with nodes := h5,
                                                       elementsCount := fetchSub1 s.elementsCount },
                            [LockEv.victim victim :: (log0 ++ log)])
                        | some (false, h4, log) =>
                          match releaseLockLoopT start end_ fuel true (vn.topLevel : Int)
                              { s with nodes := h4 } with
                          | none => none
                          | some (r, s1, logs) =>
                            some (r, s1, (LockEv.victim victim :: (log0 ++ log)) :: logs)
            else some (Ret.ret false, s, [[]])

/-- Source `ConcurrentRangeLock_V1::releaseLock`, with the mutex calls of each attempt. -/
def releaseLockT (s : ConcurrentRangeLock_V1) (start end_ : Nat) :
    Option (Ret × ConcurrentRangeLock_V1 × List (List LockEv)) :=
  releaseLockLoopT start end_ s.nodes.length false (-1) s

/-- Every mutex is after the call in the state it was in before the call, and the mutex of
a node made during the call is free. -/
def LocksKept (h h1 : List Node_V1) : Prop :=
  ∀ a, lockOf h1 a = lockOf h a ∨ (lockOf h a = none ∧ lockOf h1 a = some false)

/-- The nodes a `Node_V1Locker` tracks after `trackAndLock` calls for the nodes `reqs`, in
that order, when it tracked `tracked` before. -/
def trackAll (tracked reqs : List Nat) : List Nat :=
  reqs.foldl (fun t p => if p ∈ t then t else t ++ [p]) tracked

/-- The calls of one `Node_V1Locker` are balanced: no node is locked twice, the nodes are
unlocked in the reverse of the order in which they were locked, each once, and every
`lock()` comes before every `unlock()`. -/
def Balanced (b : List LockEv) : Prop :=
  (b.filterMap LockEv.locked).Nodup ∧
  b.filterMap LockEv.unlocked = (b.filterMap LockEv.locked).reverse ∧
  ∃ b1 b2, b = b1 ++ b2 ∧ b1.filterMap LockEv.unlocked = [] ∧
    b2.filterMap LockEv.locked = []

/-- The calls of one `Node_V1Locker` are in level order: the `trackAndLock(preds[level])`
calls are for the levels `0, 1, ..., m - 1` in that order, the nodes are locked in the
order in which they are first asked for, and a `trackAndLock(victim)` call, if there is
one, is the first call of all. -/
def LevelOrdered (b : List LockEv) : Prop :=
  (∃ m, b.filterMap LockEv.level = List.range m) ∧
  b.filterMap LockEv.locked = ((b.filterMap LockEv.request).reverse.dedup).reverse ∧
  ((∀ e ∈ b, e.isVictim = false) ∨
    ∃ p rest, b = LockEv.victim p :: LockEv.lock p :: rest ∧ ∀ e ∈ rest, e.isVictim = false)

end V1


namespace V2

/-- The state after `MutexRangeAcquire(list, 10, 20)` and `MutexRangeAcquire(list, 30, 40)` on
an empty list. -/
def heldTwo : ListRL := ⟨[⟨10, 20, 4⟩, ⟨30, 40, 0⟩], 2, 0⟩

/-- The state after `MutexRangeAcquire(list, 10, 20)` on an empty list and the release of its
handle: the node is still linked, its `next` carries the mark. -/
def releasedOnce : ListRL := ⟨[⟨10, 20, 1⟩], 2, 0⟩

/-- The state after `MutexRangeAcquire(list, 30, 40)` on `releasedOnce`: the traversal has
unlinked the marked node. -/
def helpedOnce : ListRL := ⟨[⟨10, 20, 1⟩, ⟨30, 40, 0⟩], 4, 0⟩

end V2

namespace V0

/-- The helping loop `snipLoop` with a log: its result and, in program order, the values
the loop assigned to `curr` (`curr = pred->next[level]->getReference()`). -/
def snipLoopT (level pred : Nat) :
    Nat → List Node → Nat → Nat → Bool → Option ((Bool × List Node × Nat × Nat) × List Nat)
  | 0, h, curr, succ, marked => if marked then none else some ((true, h, curr, succ), [])
  | fuel + 1, h, curr, succ, marked =>
    if marked then
      match casCell h pred level curr succ false false with
      | none => none
      | some (snip, h1) =>
        if !snip then some ((false, h1, curr, succ), [])
        else
          match getCell h1 pred level with
          | none => none
          | some pc =>
            match getCell h1 pc.getReference level with
            | none => none
            | some cc =>
              match snipLoopT level pred fuel h1 pc.getReference cc.get.1 cc.get.2 with
              | none => none
              | some (r, log) => some (r, pc.getReference :: log)
    else some ((true, h, curr, succ), [])

/-- The walk `walkLevel` with a log: its result and, in program order, the values assigned
to `curr` during the walk, by the helping loop and by `curr = succ`. -/
def walkLevelT (enter advance : Node → Bool) (budget level : Nat) :
    Nat → List Node → Nat → Nat → Option ((Bool × List Node × Nat × Nat) × List Nat)
  | 0, _, _, _ => none
  | fuel + 1, h, pred, curr =>
    match deref h curr with
    | none => none
    | some cn =>
      if enter cn then
        match cn.next[level]? with
        | none => none
        | some cc =>
          match snipLoopT level pred budget h curr cc.get.1 cc.get.2 with
          | none => none
          | some ((false, h1, _, _), log1) => some ((false, h1, pred, curr), log1)
          | some ((true, h1, curr1, succ1), log1) =>
            match deref h1 curr1 with
            | none => none
            | some cn1 =>
              if advance cn1 then
                match walkLevelT enter advance budget level fuel h1 curr1 succ1 with
                | none => none
                | some (r, log2) => some (r, log1 ++ succ1 :: log2)
              else some ((true, h1, pred, curr1), log1)
      else some ((true, h, pred, curr), [])

/-- The level loop `findLevels` with a log: its result and, for each level walked (the
highest first), the values `curr` took at that level, starting with
`curr = pred->next[level]->getReference()`. -/
def findLevelsT (enter advance : Node → Bool) (budget : Nat) :
    Nat → List Node → Nat → Nat → List Nat → List Nat →
      Option ((Bool × List Node × Nat × Nat × List Nat × List Nat) × List (List Nat))
  | 0, h, pred, curr, preds, succs => some ((true, h, pred, curr, preds, succs), [])
  | level + 1, h, pred, _, preds, succs =>
    match getCell h pred level with
    | none => none
    | some pc =>
      match walkLevelT enter advance budget level budget h pred pc.getReference with
      | none => none
      | some ((false, h1, _, _), log) =>
        some ((false, h1, pred, pc.getReference, preds, succs), [pc.getReference :: log])
      | some ((true, h1, pred1, curr1), log) =>
        match findLevelsT enter advance budget level h1 pred1 curr1
            (preds.set level pred1) (succs.set level curr1) with
        | none => none
        | some (r, logs) => some (r, (pc.getReference :: log) :: logs)

/-- The retry loop `findLoop` with a log: its result and one entry for each round of
`retry: while (true)`, the log of the level loop of that round. -/
def findLoopT (enter advance : Node → Bool) (budget maxLevel head : Nat) :
    Nat → List Node → List Nat → List Nat →
      Option ((List Node × Nat × Nat × List Nat × List Nat) × List (List (List Nat)))
  | 0, _, _, _ => none
  | fuel + 1, h, preds, succs =>
    match findLevelsT enter advance budget (maxLevel + 1) h head 0 preds succs with
    | none => none
    | some ((false, h1, _, _, preds1, succs1), round) =>
      match findLoopT enter advance budget maxLevel head fuel h1 preds1 succs1 with
      | none => none
      | some (r, rounds) => some (r, round :: rounds)
    | some ((true, h1, pred, curr, preds1, succs1), round) =>
      some ((h1, pred, curr, preds1, succs1), [round])

/-- Source `ConcurrentRangeLock::findInsert` with the log of its rounds. -/
def findInsertT (budget : Nat) (s : ConcurrentRangeLock) (start end_ : Nat)
    (preds succs : List Nat) :
    Option ((Bool × ConcurrentRangeLock × List Nat × List Nat) × List (List (List Nat))) :=
  match findLoopT (fun c => decide (start > c.start)) (fun c => decide (start ≥ c.start))
      budget s.maxLevel s.head budget s.nodes preds succs with
  | none => none
  | some ((h1, pred, curr, preds1, succs1), rounds) =>
    match deref h1 pred, deref h1 curr with
    | some pn, some cn =>
      some ((!(decide (start > pn.end_) && decide (end_ < cn.start)),
        { s with nodes := h1 }, preds1, succs1), rounds)
    | _, _ => none

/-- Source `ConcurrentRangeLock::findExact` with the log of its rounds. -/
def findExactT (budget : Nat) (s : ConcurrentRangeLock) (start end_ : Nat)
    (preds succs : List Nat) :
    Option ((Bool × ConcurrentRangeLock × List Nat × List Nat) × List (List (List Nat))) :=
  match findLoopT (fun c => decide (start ≥ c.start)) (fun c => decide (start ≥ c.end_))
      budget s.maxLevel s.head budget s.nodes preds succs with
  | none => none
  | some ((h1, _, curr, preds1, succs1), rounds) =>
    match deref h1 curr with
    | some cn =>
      some ((decide (start = cn.start) && decide (end_ = cn.end_),
        { s with nodes := h1 }, preds1, succs1), rounds)
    | none => none

/-- Source `ConcurrentRangeLock::findDelete` with the log of its rounds. -/
def findDeleteT (budget : Nat) (s : ConcurrentRangeLock) (start : Nat) :
    Option (ConcurrentRangeLock × List (List (List Nat))) :=
  match findLoopT (fun c => decide (start ≥ c.start)) (fun c => decide (start ≥ c.end_))
      budget s.maxLevel s.head budget s.nodes (List.replicate (s.maxLevel + 1) 0)
      (List.replicate (s.maxLevel + 1) 0) with
  | none => none
  | some ((h1, _, _, _, _), rounds) => some ({ s with nodes := h1 }, rounds)

/-- The log of a search that met no mark on the state `s`: there was one round, without
`goto retry`; it walked the levels `maxLevel, ..., 0`; and at each level `k` the values of
`curr` form a nonempty run of consecutive nodes of the chain of that level (the tail
sentinel included), so no node is met twice, each is a node of the heap and none is the null
pointer, and only the last one can be the tail sentinel. -/
def CleanLog (s : ConcurrentRangeLock) (rounds : List (List (List Nat))) : Prop :=
  ∃ round, rounds = [round] ∧ round.length = s.maxLevel + 1 ∧
    ∀ k, k ≤ s.maxLevel → ∃ vs, round[s.maxLevel - k]? = some vs ∧ vs ≠ [] ∧
      vs <:+: levelNodes s k ++ [s.tail] ∧ vs.Nodup ∧
      (∀ p ∈ vs, p ≠ 0 ∧ (deref s.nodes p).isSome = true) ∧
      (∀ p ∈ vs.dropLast, p ≠ s.tail)

end V0

namespace SyncV0

/-- The class `leanstore::ConcurrentRangeLock<uint64_t, maxLevel>` of `sync/v0` with the heap
of its nodes; it has no counter. The nodes are the `Node` of `sync/v0/node.hpp`. -/
structure ConcurrentRangeLock where
  nodes : List V0.Node
  maxLevel : Nat
  tail : Nat
  head : Nat
  deriving DecidableEq, Repr

/-- Source `ConcurrentRangeLock::ConcurrentRangeLock()` of `sync/v0`. -/
def ConcurrentRangeLock.new (maxLevel : Nat) : ConcurrentRangeLock :=
  let (h1, head) := V0.newNode []
  let (h2, tail) := V0.newNode h1
  let h3 := (V0.initializeNode h2 tail UINT64_MAX UINT64_MAX maxLevel).getD h2
  let h4 := (V0.initializeHead h3 head 0 0 maxLevel tail).getD h3
  ⟨h4, maxLevel, tail, head⟩

/-- The loop `while (rand() % 2 && level < maxLevel) level++` of `sync/v0`, on
`unsigned level`; `rand i` is the value of the `i`-th call of `rand()`. -/
def randomLevelLoop (rand : Nat → Nat) (maxLevel : Nat) : Nat → Nat → Nat
  | 0, level => level
  | fuel + 1, level =>
    if rand level % 2 ≠ 0 ∧ level < maxLevel then
      randomLevelLoop rand maxLevel fuel (level + 1)
    else level

/-- Source `randomLevel()` of `sync/v0`: `unsigned level = 0;` then the loop. -/
def randomLevel (rand : Nat → Nat) (maxLevel : Nat) : Nat :=
  randomLevelLoop rand maxLevel (maxLevel + 1) 0

/-- The helping loop of the three searches of `sync/v0`,
`while (marked[0]) { snip = pred->next[level]->compareAndSet(curr, succ, false, false);
if (!snip) goto retry; curr = pred->next[level]->getReference();
succ = curr->next[level]->get(marked); }`; `false` stands for `goto retry`. -/
def snipLoop (level pred : Nat) :
    Nat → List V0.Node → Nat → Nat → Bool → Option (Bool × List V0.Node × Nat × Nat)
  | 0, h, curr, succ, marked => if marked then none else some (true, h, curr, succ)
  | fuel + 1, h, curr, succ, marked =>
    if marked then
      match V0.casCell h pred level curr succ false false with
      | none => none
      | some (snip, h1) =>
        if !snip then some (false, h1, curr, succ)
        else
          match V0.getCell h1 pred level with
          | none => none
          | some pc =>
            match V0.getCell h1 pc.getReference level with
            | none => none
            | some cc => snipLoop level pred fuel h1 pc.getReference cc.get.1 cc.get.2
    else some (true, h, curr, succ)

/-- The walk along one level of the three searches of `sync/v0`,
`while (enter(curr)) { succ = curr->next[level]->get(marked); (helping loop);
if (advance(curr)) { pred = curr; curr = succ; } else break; }`. -/
def walkLevel (enter advance : V0.Node → Bool) (budget level : Nat) :
    Nat → List V0.Node → Nat → Nat → Option (Bool × List V0.Node × Nat × Nat)
  | 0, _, _, _ => none
  | fuel + 1, h, pred, curr =>
    match deref h curr with
    | none => none
    | some cn =>
      if enter cn then
        match cn.next[level]? with
        | none => none
        | some cc =>
          match snipLoop level pred budget h curr cc.get.1 cc.get.2 with
          | none => none
          | some (false, h1, _, _) => some (false, h1, pred, curr)
          | some (true, h1, curr1, succ1) =>
            match deref h1 curr1 with
            | none => none
            | some cn1 =>
              if advance cn1 then walkLevel enter advance budget level fuel h1 curr1 succ1
              else some (true, h1, pred, curr1)
      else some (true, h, pred, curr)

/-- The level loop of the three searches of `sync/v0`, `for (level = maxLevel; level >= 0;
level--) { curr = pred->next[level]->getReference(); (walk); preds[level] = pred;
succs[level] = curr; }`, with levels `n - 1, ..., 0` still to do. -/
def findLevels (enter advance : V0.Node → Bool) (budget : Nat) :
    Nat → List V0.Node → Nat → Nat → List Nat → List Nat →
      Option (Bool × List V0.Node × Nat × Nat × List Nat × List Nat)
  | 0, h, pred, curr, preds, succs => some (true, h, pred, curr, preds, succs)
  | level + 1, h, pred, _, preds, succs =>
    match V0.getCell h pred level with
    | none => none
    | some pc =>
      match walkLevel enter advance budget level budget h pred pc.getReference with
      | none => none
      | some (false, h1, _, _) => some (false, h1, pred, pc.getReference, preds, succs)
      | some (true, h1, pred1, curr1) =>
        findLevels enter advance budget level h1 pred1 curr1
          (preds.set level pred1) (succs.set level curr1)

/-- The retry loop of the three searches of `sync/v0`,
`retry: while (true) { pred = head; ... }`. -/
def findLoop (enter advance : V0.Node → Bool) (budget maxLevel head : Nat) :
    Nat → List V0.Node → List Nat → List Nat →
      Option (List V0.Node × Nat × Nat × List Nat × List Nat)
  | 0, _, _, _ => none
  | fuel + 1, h, preds, succs =>
    match findLevels enter advance budget (maxLevel + 1) h head 0 preds succs with
    | none => none
    | some (false, h1, _, _, preds1, succs1) =>
      findLoop enter advance budget maxLevel head fuel h1 preds1 succs1
    | some (true, h1, pred, curr, preds1, succs1) => some (h1, pred, curr, preds1, succs1)

/-- Source `ConcurrentRangeLock::findInsert` of `sync/v0`: the walk goes on while
`start > curr->getStart()` and advances when `start >= curr->getStart()`; the result is
`!(start > pred->getEnd() && end < curr->getStart())`. -/
def findInsert (budget : Nat) (s : ConcurrentRangeLock) (start end_ : Nat)
    (preds succs : List Nat) : Option (Bool × ConcurrentRangeLock × List Nat × List Nat) :=
  match findLoop (fun c => decide (start > c.start)) (fun c => decide (start ≥ c.start))
      budget s.maxLevel s.head budget s.nodes preds succs with
  | none => none
  | some (h1, pred, curr, preds1, succs1) =>
    match deref h1 pred, deref h1 curr with
    | some pn, some cn =>
      some (!(decide (start > pn.end_) && decide (end_ < cn.start)),
        { s with nodes := h1 }, preds1, succs1)
    | _, _ => none

/-- Source `ConcurrentRangeLock::findExact` of `sync/v0`: the walk goes on while
`start >= curr->getStart()` and advances when `start >= curr->getEnd()`; the result is
`start == curr->getStart() && end == curr->getEnd()`. -/
def findExact (budget : Nat) (s : ConcurrentRangeLock) (start end_ : Nat)
    (preds succs : List Nat) : Option (Bool × ConcurrentRangeLock × List Nat × List Nat) :=
  match findLoop (fun c => decide (start ≥ c.start)) (fun c => decide (start ≥ c.end_))
      budget s.maxLevel s.head budget s.nodes preds succs with
  | none => none
  | some (h1, _, curr, preds1, succs1) =>
    match deref h1 curr with
    | some cn =>
      some (decide (start = cn.start) && decide (end_ = cn.end_),
        { s with nodes := h1 }, preds1, succs1)
    | none => none

/-- Source `ConcurrentRangeLock::findDelete` of `sync/v0`: the traversal of `findExact`
without the writes to `preds` and `succs`, which are scratch arrays here. -/
def findDelete (budget : Nat) (s : ConcurrentRangeLock) (start : Nat) :
    Option ConcurrentRangeLock :=
  match findLoop (fun c => decide (start ≥ c.start)) (fun c => decide (start ≥ c.end_))
      budget s.maxLevel s.head budget s.nodes (List.replicate (s.maxLevel + 1) 0)
      (List.replicate (s.maxLevel + 1) 0) with
  | none => none
  | some (h1, _, _, _, _) => some { s with nodes := h1 }

/-- The first loop of `tryLock` of `sync/v0`, `for (level = 0; level <= topLevel; ++level)
newNode->next[level]->store(succs[level], false)`, with `n` iterations left. -/
def storeSuccs (succs : List Nat) (newNode : Nat) :
    Nat → Nat → List V0.Node → Option (List V0.Node)
  | 0, _, h => some h
  | n + 1, level, h =>
    match succs[level]?, V0.getCell h newNode level with
    | some succ, some c =>
      match V0.setCell h newNode level (c.store succ false) with
      | none => none
      | some h1 => storeSuccs succs newNode n (level + 1) h1
    | _, _ => none

/-- The inner `while (true)` of the second loop of `tryLock` of `sync/v0`: try the CAS at
`level`, and after a failure run `findInsert` again. -/
def linkLevel (budget start end_ newNode level : Nat) :
    Nat → ConcurrentRangeLock → List Nat → List Nat →
      Option (ConcurrentRangeLock × List Nat × List Nat)
  | 0, _, _, _ => none
  | fuel + 1, s, preds, succs =>
    match preds[level]?, succs[level]? with
    | some pred, some succ =>
      match V0.casCell s.nodes pred level succ newNode false false with
      | none => none
      | some (true, h1) => some ({ s with nodes := h1 }, preds, succs)
      | some (false, h1) =>
        match findInsert budget { s with nodes := h1 } start end_ preds succs with
        | none => none
        | some (_, s2, preds2, succs2) =>
          linkLevel budget start end_ newNode level fuel s2 preds2 succs2
    | _, _ => none

/-- The second loop of `tryLock` of `sync/v0`, `for (level = 1; level <= topLevel;
++level)`, with `n` iterations left. -/
def linkUpper (budget start end_ newNode : Nat) :
    Nat → Nat → ConcurrentRangeLock → List Nat → List Nat → Option ConcurrentRangeLock
  | 0, _, s, _, _ => some s
  | n + 1, level, s, preds, succs =>
    match linkLevel budget start end_ newNode level budget s preds succs with
    | none => none
    | some (s1, preds1, succs1) => linkUpper budget start end_ newNode n (level + 1) s1 preds1 succs1

/-- The `while (true)` loop of `tryLock` of `sync/v0`; it ends with `return true`, there is
no counter to update. -/
def tryLockLoop (budget topLevel start end_ : Nat) :
    Nat → ConcurrentRangeLock → List Nat → List Nat → Option (Bool × ConcurrentRangeLock)
  | 0, _, _, _ => none
  | fuel + 1, s, preds, succs =>
    match findInsert budget s start end_ preds succs with
    | none => none
    | some (true, s1, _, _) => some (false, s1)
    | some (false, s1, preds1, succs1) =>
      let (h2, newNode) := V0.newNode s1.nodes
      match V0.initializeNode h2 newNode start end_ topLevel with
      | none => none
      | some h3 =>
        match storeSuccs succs1 newNode (topLevel + 1) 0 h3 with
        | none => none
        | some h4 =>
          match preds1[0]?, succs1[0]?, V0.getCell h4 newNode 0 with
          | some pred, some succ, some c =>
            match V0.setCell h4 newNode 0 (c.store succ false) with
            | none => none
            | some h5 =>
              match V0.casCell h5 pred 0 succ newNode false false with
              | none => none
              | some (false, h6) =>
                tryLockLoop budget topLevel start end_ fuel { s1 with nodes := h6 } preds1 succs1
              | some (true, h6) =>
                match linkUpper budget start end_ newNode topLevel 1 { s1 with nodes := h6 }
                    preds1 succs1 with
                | none => none
                | some s7 => some (true, s7)
          | _, _, _ => none

/-- Source `ConcurrentRangeLock::tryLock` of `sync/v0`; every loop gets a budget of one
step per heap node. -/
def tryLock (s : ConcurrentRangeLock) (start end_ : Nat) (rand : Nat → Nat) :
    Option (Bool × ConcurrentRangeLock) :=
  tryLockLoop s.nodes.length (randomLevel rand s.maxLevel) start end_ s.nodes.length s
    (List.replicate (s.maxLevel + 1) 0) (List.replicate (s.maxLevel + 1) 0)

/-- The marking of one upper level in `releaseLock` of `sync/v0`,
`while (!marked[0]) { nodeToRemove->next[level]->attemptMark(succ, true);
succ = nodeToRemove->next[level]->get(marked); }`. -/
def markLevel (victim level : Nat) : Nat → List V0.Node → Nat → Bool → Option (List V0.Node)
  | 0, h, _, marked => if marked then some h else none
  | fuel + 1, h, succ, marked =>
    if marked then some h
    else
      match V0.getCell h victim level with
      | none => none
      | some c =>
        match V0.setCell h victim level (c.attemptMark succ true).2 with
        | none => none
        | some h1 =>
          match V0.getCell h1 victim level with
          | none => none
          | some c1 => markLevel victim level fuel h1 c1.get.1 c1.get.2

/-- The first loop of `releaseLock` of `sync/v0`, `for (level = topLevel; level >= 1;
level--)`, with the levels `n, ..., 1` still to do. -/
def markUpper (budget victim : Nat) : Nat → List V0.Node → Option (List V0.Node)
  | 0, h => some h
  | n + 1, h =>
    match V0.getCell h victim (n + 1) with
    | none => none
    | some c =>
      match markLevel victim (n + 1) budget h c.get.1 c.get.2 with
      | none => none
      | some h1 => markUpper budget victim n h1

/-- The last loop of `releaseLock` of `sync/v0`: `while (true) { iMarkedIt =
nodeToRemove->next[0]->compareAndSet(succ, succ, false, true);
succ = succs[0]->next[0]->get(marked); if (iMarkedIt) { findDelete; return true; }
else if (marked[0]) return false; }`. -/
def markBottom (budget victim start : Nat) :
    Nat → ConcurrentRangeLock → Nat → Option (Bool × ConcurrentRangeLock)
  | 0, _, _ => none
  | fuel + 1, s, succ =>
    match V0.casCell s.nodes victim 0 succ succ false true with
    | none => none
    | some (iMarkedIt, h1) =>
      match V0.getCell h1 victim 0 with
      | none => none
      | some c =>
        if iMarkedIt then
          match findDelete budget { s with nodes := h1 } start with
          | none => none
          | some s2 => some (true, s2)
        else if c.get.2 then some (false, { s with nodes := h1 })
        else markBottom budget victim start fuel { s with nodes := h1 } c.get.1

/-- Source `ConcurrentRangeLock::releaseLock` of `sync/v0`; its outer `while (true)`
returns in the first round on every path. -/
def releaseLock (s : ConcurrentRangeLock) (start end_ : Nat) :
    Option (Bool × ConcurrentRangeLock) :=
  match findExact s.nodes.length s start end_ (List.replicate (s.maxLevel + 1) 0)
      (List.replicate (s.maxLevel + 1) 0) with
  | none => none
  | some (false, s1, _, _) => some (false, s1)
  | some (true, s1, _, succs) =>
    match succs[0]? with
    | none => none
    | some nodeToRemove =>
      match deref s1.nodes nodeToRemove with
      | none => none
      | some vn =>
        match markUpper s.nodes.length nodeToRemove vn.topLevel s1.nodes with
        | none => none
        | some h2 =>
          match V0.getCell h2 nodeToRemove 0 with
          | none => none
          | some c =>
            markBottom s.nodes.length nodeToRemove start s.nodes.length
              { s1 with nodes := h2 } c.get.1

/-- The nodes reachable from `head` at level `k`, strictly between the two sentinels. -/
def levelNodes (s : ConcurrentRangeLock) (k : Nat) : List Nat :=
  V0.chainAfter s.nodes s.tail k s.nodes.length s.head

/-- One call of a single-threaded use: a `tryLock` together with the values `rand()`
returns during the call, or a `releaseLock`. -/
inductive Call where
  | tryLock (start end_ : Nat) (rand : Nat → Nat) : Call
  | releaseLock (start end_ : Nat) : Call

/-- Issue the calls one after another on the lock of `sync/v0`: the results in order and
the final state. -/
def run : ConcurrentRangeLock → List Call → Option (List Bool × ConcurrentRangeLock)
  | s, [] => some ([], s)
  | s, Call.tryLock start end_ rand :: calls =>
    match tryLock s start end_ rand with
    | none => none
    | some (r, s1) =>
      match run s1 calls with
      | none => none
      | some (rs, s2) => some (r :: rs, s2)
  | s, Call.releaseLock start end_ :: calls =>
    match releaseLock s start end_ with
    | none => none
    | some (r, s1) =>
      match run s1 calls with
      | none => none
      | some (rs, s2) => some (r :: rs, s2)

/-- Issue the calls one after another on the lock of `rangelock/v0`: the results in order
and the final state. -/
def runRangelock : V0.ConcurrentRangeLock → List Call →
    Option (List Bool × V0.ConcurrentRangeLock)
  | s, [] => some ([], s)
  | s, Call.tryLock start end_ rand :: calls =>
    match V0.tryLock s start end_ rand with
    | none => none
    | some (r, s1) =>
      match runRangelock s1 calls with
      | none => none
      | some (rs, s2) => some (r :: rs, s2)
  | s, Call.releaseLock start end_ :: calls =>
    match V0.releaseLock s start end_ with
    | none => none
    | some (r, s1) =>
      match runRangelock s1 calls with
      | none => none
      | some (rs, s2) => some (r :: rs, s2)

/-- The lock of `rangelock/v0` without its counter, as a lock of `sync/v0`. -/
def forget (s : V0.ConcurrentRangeLock) : ConcurrentRangeLock :=
  ⟨s.nodes, s.maxLevel, s.tail, s.head⟩

/-- The calls of a sequence have their arguments in the domain `1 <= start < end <= MAX - 1`. -/
def inDomain : Call → Prop
  | Call.tryLock start end_ _ => 1 ≤ start ∧ start < end_ ∧ end_ ≤ UINT64_MAX - 1
  | Call.releaseLock start end_ => 1 ≤ start ∧ start < end_ ∧ end_ ≤ UINT64_MAX - 1

end SyncV0

namespace V1

/-- One attempt of `tryLock`: the body of its `while (true)` up to the end of the round, the
run of the scope guard included. The first component is `some r` for `return r` and `none`
for `continue`; the list holds the calls of the `Node_V1Locker` of the attempt when the
attempt made one. -/
def tryLockAttemptT (topLevel start end_ : Nat) (s : ConcurrentRangeLock_V1) :
    Option (Option Bool × ConcurrentRangeLock_V1 × List (List LockEv)) :=
  match findInsert s.nodes.length s start end_ with
  | none => none
  | some (levelFound, preds, succs) =>
    if levelFound ≠ -1 then
      match succs[levelFound.toNat]? with
      | none => none
      | some found =>
        match deref s.nodes found with
        | none => none
        | some fn => if !fn.marked then some (some false, s, []) else some (none, s, [])
    else
      match tryLockValidateT preds succs (topLevel + 1) 0 true s.nodes [] with
      | none => none
      | some (valid, h1, tracked, log1) =>
        if !valid then
          match unlockAllT h1 tracked with
          | none => none
          | some (h2, log2) => some (none, { s with nodes := h2 }, [log1 ++ log2])
        else
          let (h2, newNode) := createNode_V1 h1 start end_ topLevel
          match tryLockLink preds succs newNode (topLevel + 1) 0 h2 with
          | none => none
          | some h3 =>
            match setFullyLinked h3 newNode with
            | none => none
            | some h4 =>
              match unlockAllT h4 tracked with
              | none => none
              | some (h5, log2) =>
                some (some true, { s with nodes := h5,
                                          elementsCount := fetchAdd1 s.elementsCount },
                  [log1 ++ log2])

/-- The part of an attempt of `releaseLock` that starts with
`Node_V1Locker.trackAndLock(victim)`, on the heap as it is when that call is made, up to the
end of the round, the run of the scope guard included. The first component is `some r` for
`return r` and `none` for `continue`. -/
def releaseVictimT (preds : List Nat) (victim : Nat) (topLevel : Int) (h : List Node_V1) :
    Option (Option Bool × List Node_V1 × List LockEv) :=
  match trackAndLockT h [] victim with
  | none => none
  | some (h1, tracked1, log0) =>
    match deref h1 victim with
    | none => none
    | some vn1 =>
      if vn1.marked then
        match unlockAllT h1 tracked1 with
        | none => none
        | some (h2, log1) => some (some false, h2, LockEv.victim victim :: (log0 ++ log1))
      else
        match setMarked h1 victim with
        | none => none
        | some h2 =>
          match releaseAttemptT preds victim topLevel h2 tracked1 with
          | none => none
          | some (true, h5, log) =>
            some (some true, h5, LockEv.victim victim :: (log0 ++ log))
          | some (false, h4, log) => some (none, h4, LockEv.victim victim :: (log0 ++ log))

/-- One attempt of `releaseLock`: the body of its `while (true)` up to the end of the round,
the run of the scope guard included. The first component is `some ret` for a `return` or
the `exit(0)` and `none` for `continue`; then come the values of `isMarked` and `topLevel`
after the attempt, the state, and the calls of the `Node_V1Locker` of the attempt. -/
def releaseLockAttemptT (start end_ : Nat) (isMarked : Bool) (topLevel : Int)
    (s : ConcurrentRangeLock_V1) :
    Option (Option Ret × Bool × Int × ConcurrentRangeLock_V1 × List (List LockEv)) :=
  match findExact s.nodes.length s start end_ with
  | none => none
  | some (levelFound, preds, succs) =>
    if levelFound = -1 then some (some Ret.exited, isMarked, topLevel, s, [[]])
    else
      match succs[levelFound.toNat]? with
      | none => none
      | some victim =>
        match deref s.nodes victim with
        | none => none
        | some vn =>
          if isMarked ∨ ((vn.topLevel : Int) = levelFound ∧ vn.marked = false) then
            if isMarked then
              match releaseAttemptT preds victim topLevel s.nodes [] with
              | none => none
              | some (true, h5, log) =>
                some (some (Ret.ret true), true, topLevel,
                  { s with nodes := h5, elementsCount := fetchSub1 s.elementsCount }, [log])
              | some (false, h4, log) =>
                some (none, true, topLevel, { s with nodes := h4 }, [log])
            else
              match releaseVictimT preds victim (vn.topLevel : Int) s.nodes with
              | none => none
              | some (some true, h5, log) =>
                some (some (Ret.ret true), true, (vn.topLevel : Int),
                  { s with nodes := h5, elementsCount := fetchSub1 s.elementsCount }, [log])
              | some (some false, h2, log) =>
                some (some (Ret.ret false), false, (vn.topLevel : Int),
                  { s with nodes := h2 }, [log])
              | some (none, h4, log) =>
                some (none, true, (vn.topLevel : Int), { s with nodes := h4 }, [log])
          else some (some (Ret.ret false), isMarked, topLevel, s, [[]])

/-- A list in which another thread is in the middle of releasing `(10, 20)`: the node is
marked and still linked at both levels. -/
def markedLinked : ConcurrentRangeLock_V1 :=
  { nodes := [⟨0, 0, 1, [6, 6], false, false, false⟩,
      ⟨UINT64_MAX, UINT64_MAX, 1, [0, 0], false, false, false⟩,
      ⟨10, 20, 1, [4, 4], true, true, false⟩],
    maxLevel := 1, elementsCount := 1, head := 2, tail := 4 }

/-- A list holding `(10, 20)` and `(30, 40)` in which another thread is in the middle of
releasing `(10, 20)`: that node is marked and still linked before the node of `(30, 40)`. -/
def markedPred : ConcurrentRangeLock_V1 :=
  { nodes := [⟨0, 0, 1, [6, 6], false, false, false⟩,
      ⟨UINT64_MAX, UINT64_MAX, 1, [0, 0], false, false, false⟩,
      ⟨10, 20, 1, [8, 8], true, true, false⟩,
      ⟨30, 40, 1, [4, 4], false, true, false⟩],
    maxLevel := 1, elementsCount := 2, head := 2, tail := 4 }

/-- The state `markedPred` after one attempt of `releaseLock(30, 40)`: the victim is marked,
nothing is unlinked, no mutex is held. -/
def markedBoth : ConcurrentRangeLock_V1 :=
  { nodes := [⟨0, 0, 1, [6, 6], false, false, false⟩,
      ⟨UINT64_MAX, UINT64_MAX, 1, [0, 0], false, false, false⟩,
      ⟨10, 20, 1, [8, 8], true, true, false⟩,
      ⟨30, 40, 1, [4, 4], true, true, false⟩],
    maxLevel := 1, elementsCount := 2, head := 2, tail := 4 }

end V1

/-! ## Heap lemmas -/

theorem addrOf_ne_zero (i : Nat) : addrOf i ≠ 0 := by unfold addrOf; omega

theorem addrOf_even (i : Nat) : addrOf i % 2 = 0 := by unfold addrOf; omega

theorem addrOf_inj {i j : Nat} (h : addrOf i = addrOf j) : i = j := by
  unfold addrOf at h; omega

theorem deref_addrOf {α : Type} (h : List α) (i : Nat) : deref h (addrOf i) = h[i]? := by
  unfold deref addrOf
  have h1 : ¬ (2 * (i + 1) = 0 ∨ 2 * (i + 1) % 2 = 1) := by omega
  have h2 : 2 * (i + 1) / 2 - 1 = i := by omega
  simp only [h1, if_false, h2]

theorem deref_some_addr {α : Type} {h : List α} {p : Nat} {a : α}
    (hd : deref h p = some a) : ∃ i, p = addrOf i ∧ i < h.length ∧ h[i]? = some a := by
  unfold deref at hd
  split at hd
  · cases hd
  · rename_i hp
    refine ⟨p / 2 - 1, ?_, ?_, hd⟩
    · unfold addrOf; omega
    · by_contra hlt
      rw [List.getElem?_eq_none (by omega)] at hd
      cases hd

theorem deref_lt {α : Type} {h : List α} {p : Nat} {a : α}
    (hd : deref h p = some a) : p < addrOf h.length := by
  obtain ⟨i, rfl, hi, _⟩ := deref_some_addr hd
  unfold addrOf; omega

theorem deref_ne_zero {α : Type} {h : List α} {p : Nat} {a : α}
    (hd : deref h p = some a) : p ≠ 0 := by
  obtain ⟨i, rfl, _, _⟩ := deref_some_addr hd
  exact addrOf_ne_zero i

theorem deref_zero {α : Type} (h : List α) : deref h 0 = none := by
  unfold deref; simp

theorem deref_store {α : Type} (h : List α) (p q : Nat) (a : α) :
    deref (store h p a) q =
      if q = p then (if (deref h p).isSome then some a else none) else deref h q := by
  unfold store deref
  by_cases hp : p = 0 ∨ p % 2 = 1
  · simp only [hp, if_true]
    by_cases hq : q = p
    · subst hq; simp [hp]
    · simp [hq]
  · simp only [hp, if_false]
    by_cases hq : q = 0 ∨ q % 2 = 1
    · have : q ≠ p := by rintro rfl; exact hp hq
      simp [hq, this]
    · simp only [hq, if_false, List.getElem?_set]
      by_cases hpq : q = p
      · subst hpq
        simp only [if_true]
        by_cases hl : q / 2 - 1 < h.length
        · simp [hl]
        · simp [hl, List.getElem?_eq_none (Nat.le_of_not_lt hl)]
      · have : ¬ (p / 2 - 1 = q / 2 - 1) := by omega
        simp [hpq, this]

theorem deref_store_same {α : Type} {h : List α} {p : Nat} {a b : α}
    (hd : deref h p = some b) : deref (store h p a) p = some a := by
  rw [deref_store]; simp [hd]

theorem deref_store_ne {α : Type} (h : List α) {p q : Nat} (a : α) (hne : q ≠ p) :
    deref (store h p a) q = deref h q := by
  rw [deref_store]; simp [hne]

theorem length_store {α : Type} (h : List α) (p : Nat) (a : α) :
    (store h p a).length = h.length := by
  unfold store; split <;> simp

theorem deref_alloc {α : Type} (h : List α) (a : α) (q : Nat) :
    deref (alloc h a).1 q = if q = addrOf h.length then some a else deref h q := by
  by_cases hq : q = addrOf h.length
  · subst hq
    simp [alloc, deref_addrOf]
  · simp only [hq, if_false, alloc]
    unfold deref
    split
    · rfl
    · rename_i hv
      have hne : q / 2 - 1 ≠ h.length := by
        intro he; apply hq; unfold addrOf; omega
      rw [List.getElem?_append]
      split
      · rfl
      · rename_i hlt
        rw [List.getElem?_eq_none (l := h) (by omega)]
        rw [List.getElem?_eq_none]
        simp; omega

theorem deref_alloc_old {α : Type} {h : List α} (a : α) {q : Nat} {b : α}
    (hd : deref h q = some b) : deref (alloc h a).1 q = some b := by
  rw [deref_alloc]
  have := deref_lt hd
  rw [if_neg (by omega)]; exact hd

theorem deref_alloc_new {α : Type} (h : List α) (a : α) :
    deref (alloc h a).1 (alloc h a).2 = some a := by
  rw [deref_alloc]; simp [alloc]

theorem length_alloc {α : Type} (h : List α) (a : α) :
    (alloc h a).1.length = h.length + 1 := by
  simp [alloc]

/-- Distinct live addresses are at most as many as the heap has objects. -/
theorem length_le_of_nodup_deref {α : Type} (h : List α) (ps : List Nat)
    (hnd : ps.Nodup) (hv : ∀ p ∈ ps, (deref h p).isSome) : ps.length ≤ h.length := by
  have hsub : ps ⊆ (List.range h.length).map addrOf := by
    intro p hp
    have := hv p hp
    obtain ⟨a, ha⟩ := Option.isSome_iff_exists.mp this
    obtain ⟨i, rfl, hi, _⟩ := deref_some_addr ha
    exact List.mem_map.mpr ⟨i, List.mem_range.mpr hi, rfl⟩
  have := (List.subperm_of_subset hnd hsub).length_le
  simpa using this

/-! ## List lemmas for the level chains of a skip list -/

theorem atLevel_append (k : Nat) (l₁ l₂ : List Entry) :
    atLevel k (l₁ ++ l₂) = atLevel k l₁ ++ atLevel k l₂ := by
  simp [atLevel]

theorem atLevel_zero (l : List Entry) : atLevel 0 l = l := by
  simp [atLevel]

theorem mem_atLevel {k : Nat} {l : List Entry} {e : Entry} :
    e ∈ atLevel k l ↔ e ∈ l ∧ k ≤ e.level := by
  simp [atLevel]

theorem atLevel_sublist (k : Nat) (l : List Entry) : (atLevel k l).Sublist l :=
  List.filter_sublist l

theorem getLastD_mem {α : Type} (l : List α) (d : α) : l.getLastD d ∈ d :: l := by
  induction l generalizing d with
  | nil => simp
  | cons a l ih =>
    rw [List.getLastD_cons]
    exact List.mem_cons_of_mem _ (ih a)

theorem getLastD_append_cons {α : Type} (l₁ l₂ : List α) (a d : α) :
    (l₁ ++ a :: l₂).getLastD d = l₂.getLastD a := by
  induction l₁ generalizing d with
  | nil => rw [List.nil_append, List.getLastD_cons]
  | cons b l ih => rw [List.cons_append, List.getLastD_cons]; exact ih b

theorem predAt_mem (hd : Entry) (P : List Entry) (k : Nat) :
    predAt hd P k ∈ hd :: atLevel k P := getLastD_mem _ _

theorem predAt_mem_lower (hd : Entry) (P : List Entry) {j k : Nat} (hjk : j ≤ k) :
    predAt hd P k ∈ hd :: atLevel j P := by
  have := predAt_mem hd P k
  rcases List.mem_cons.mp this with h | h
  · rw [h]; exact List.mem_cons_self _ _
  · apply List.mem_cons_of_mem
    rw [mem_atLevel] at h ⊢
    exact ⟨h.1, by omega⟩

theorem predAt_mem_all (hd : Entry) (P : List Entry) (k : Nat) :
    predAt hd P k ∈ hd :: P := by
  have := predAt_mem_lower hd P (Nat.zero_le k)
  rwa [atLevel_zero] at this

theorem succAt_mem (tl : Entry) (R : List Entry) (k : Nat) :
    succAt tl R k ∈ atLevel k R ++ [tl] := by
  unfold succAt
  cases atLevel k R with
  | nil => simp
  | cons a l => simp

theorem succAt_mem_all (tl : Entry) (R : List Entry) (k : Nat) :
    succAt tl R k ∈ R ++ [tl] := by
  have := succAt_mem tl R k
  rcases List.mem_append.mp this with h | h
  · exact List.mem_append_left _ (mem_atLevel.mp h).1
  · exact List.mem_append_right _ h

theorem atLevel_append_tl_eq (tl : Entry) (R : List Entry) (k : Nat) :
    ∃ Z, atLevel k R ++ [tl] = succAt tl R k :: Z := by
  unfold succAt
  cases atLevel k R with
  | nil => exact ⟨[], rfl⟩
  | cons a l => exact ⟨l ++ [tl], rfl⟩

/-- Links that do not change keep a chain a chain. -/
theorem chain'_congr_of_mem {α : Type} {R S : α → α → Prop} {l : List α}
    (hc : List.Chain' R l) (hi : ∀ a ∈ l, ∀ b ∈ l, R a b → S a b) : List.Chain' S l := by
  induction l with
  | nil => exact List.chain'_nil
  | cons a l ih =>
    cases l with
    | nil => exact List.chain'_singleton a
    | cons b l =>
      rw [List.chain'_cons] at hc ⊢
      refine ⟨hi a (by simp) b (by simp) hc.1, ih hc.2 ?_⟩
      intro x hx y hy
      exact hi x (List.mem_cons_of_mem _ hx) y (List.mem_cons_of_mem _ hy)

/-- A chain whose links change only at its last element stays a chain. -/
theorem chain'_congr_init {α : Type} {R S : α → α → Prop} {l : List α}
    (hc : List.Chain' R l) (hi : ∀ a ∈ l.dropLast, ∀ b, R a b → S a b) : List.Chain' S l := by
  induction l with
  | nil => exact List.chain'_nil
  | cons a l ih =>
    cases l with
    | nil => exact List.chain'_singleton a
    | cons b l =>
      rw [List.chain'_cons] at hc ⊢
      refine ⟨hi a (by simp [List.dropLast]) b hc.1, ih hc.2 ?_⟩
      intro x hx y
      exact hi x (by simp [List.dropLast]; right; exact hx) y

theorem mem_dropLast_ne_getLastD {α : Type} {l : List α} {d a : α}
    (hnd : (d :: l).Nodup) (ha : a ∈ (d :: l).dropLast) : a ≠ l.getLastD d := by
  induction l generalizing d a with
  | nil => simp [List.dropLast] at ha
  | cons b l ih =>
    rw [List.getLastD_cons]
    simp only [List.dropLast_cons₂, List.mem_cons] at ha
    rcases ha with rfl | ha
    · have hmem := getLastD_mem l b
      intro heq
      rw [List.nodup_cons] at hnd
      exact hnd.1 (heq ▸ hmem)
    · exact ih (List.nodup_cons.mp hnd).2 (by simpa using ha)

/-- Source `fetch_add(1)` does not wrap below `2 ^ 64`. -/
theorem fetchAdd1_eq {c : Nat} (h : c + 1 < 2 ^ 64) : fetchAdd1 c = c + 1 := by
  unfold fetchAdd1; exact Nat.mod_eq_of_lt h

/-- Source `fetch_sub(1)` does not wrap on a positive count. -/
theorem fetchSub1_eq {c : Nat} (h0 : 0 < c) (h : c < 2 ^ 64) : fetchSub1 c = c - 1 := by
  unfold fetchSub1
  have : c + (2 ^ 64 - 1) = (c - 1) + 2 ^ 64 := by omega
  rw [this, Nat.add_mod_right]
  exact Nat.mod_eq_of_lt (by omega)

theorem randomLevelLoop_le (rand : Nat → Nat) (maxLevel fuel level : Nat)
    (h : level ≤ maxLevel) : randomLevelLoop rand maxLevel fuel level ≤ maxLevel := by
  induction fuel generalizing level with
  | zero => simpa [randomLevelLoop] using h
  | succ n ih =>
    unfold randomLevelLoop
    split
    · rename_i hc; exact ih _ (by omega)
    · exact h

theorem randomLevel_le (rand : Nat → Nat) (maxLevel : Nat) :
    randomLevel rand maxLevel ≤ maxLevel :=
  randomLevelLoop_le rand maxLevel _ 0 (Nat.zero_le _)

/-- Where a walk at level `k` that starts inside the prefix stands in the level chain. -/
theorem level_chain_split (hd tl : Entry) (P R : List Entry) (k : Nat) {pred : Entry}
    (hp : pred ∈ hd :: atLevel k P) :
    ∃ X Y Z, hd :: atLevel k (P ++ R) ++ [tl] = X ++ (pred :: Y ++ succAt tl R k :: Z) ∧
      Y.getLastD pred = predAt hd P k ∧ (∀ y ∈ Y, y ∈ P) ∧ Y.length ≤ P.length := by
  obtain ⟨X, Y, hXY⟩ := List.append_of_mem hp
  obtain ⟨Z, hZ⟩ := atLevel_append_tl_eq tl R k
  refine ⟨X, Y, Z, ?_, ?_, ?_, ?_⟩
  · rw [atLevel_append, ← List.cons_append, ← List.append_assoc, hXY, List.append_assoc,
      List.append_assoc, hZ]
    simp
  · have : (hd :: atLevel k P).getLastD hd = predAt hd P k := by
      rw [List.getLastD_cons]; rfl
    rw [← this, hXY, getLastD_append_cons]
  · intro y hy
    have hy' : y ∈ hd :: atLevel k P := by rw [hXY]; simp [hy]
    -- `y` comes after `pred`, so it is not the head of the list unless it repeats
    rcases X with _ | ⟨x, X⟩
    · have h2 : atLevel k P = Y := (List.cons.inj hXY).2
      exact (mem_atLevel.mp (h2 ▸ hy)).1
    · have h2 : atLevel k P = X ++ pred :: Y := (List.cons.inj hXY).2
      have : y ∈ atLevel k P := by rw [h2]; simp [hy]
      exact (mem_atLevel.mp this).1
  · have h1 := congrArg List.length hXY
    have h2 := (atLevel_sublist k P).length_le
    simp only [List.length_cons, List.length_append] at h1
    omega

/-- On a sorted list a monotone test fails on everything `dropWhile` keeps. -/
theorem dropWhile_all_not {α : Type} (p : α → Bool) (R : α → α → Prop) :
    ∀ (L : List α), L.Pairwise R →
      (∀ a ∈ L, ∀ b ∈ L, R a b → p a = false → p b = false) →
      ∀ e ∈ L.dropWhile p, p e = false := by
  intro L
  induction L with
  | nil => intro _ _ e he; simp at he
  | cons a L ih =>
    intro hpw hmono e he
    rw [List.pairwise_cons] at hpw
    by_cases hpa : p a = true
    · rw [List.dropWhile_cons_of_pos hpa] at he
      exact ih hpw.2 (fun x hx y hy => hmono x (List.mem_cons_of_mem _ hx) y
        (List.mem_cons_of_mem _ hy)) e he
    · have hpa' : p a = false := by simpa using hpa
      rw [List.dropWhile_cons_of_neg hpa] at he
      rcases List.mem_cons.mp he with rfl | he
      · exact hpa'
      · exact hmono a (List.mem_cons_self _ _) e (List.mem_cons_of_mem _ he) (hpw.1 e he) hpa'

/-- Strictly increasing starts below `M` bound the length of a list. -/
theorem length_le_of_sorted_starts (M : Nat) :
    ∀ (L : List Entry) (lo : Nat), L.Pairwise (fun a b => a.start < b.start) →
      (∀ e ∈ L, lo ≤ e.start ∧ e.start < M) → L = [] ∨ L.length + lo ≤ M := by
  intro L
  induction L with
  | nil => intro _ _ _; exact Or.inl rfl
  | cons a L ih =>
    intro lo hpw hb
    right
    rw [List.pairwise_cons] at hpw
    have ha := hb a (List.mem_cons_self _ _)
    rcases ih (lo + 1) hpw.2 (fun e he => by
      have h1 := hpw.1 e he
      have h2 := hb e (List.mem_cons_of_mem _ he)
      omega) with h | h
    · subst h; simp; omega
    · simp only [List.length_cons]; omega

theorem scanLevels_of_ne (test : Nat → Bool) (n : Nat) {lf : Int} (h : lf ≠ -1) :
    scanLevels test n lf = lf := by
  induction n with
  | zero => rfl
  | succ k ih =>
    rw [scanLevels, if_neg (fun hc => h hc.1)]
    exact ih

theorem scanLevels_eq_neg_one (test : Nat → Bool) (n : Nat) :
    scanLevels test n (-1) = -1 ↔ ∀ j, j < n → test j = false := by
  induction n with
  | zero => simp [scanLevels]
  | succ k ih =>
    rw [scanLevels]
    by_cases ht : test k = true
    · rw [if_pos ⟨rfl, ht⟩, scanLevels_of_ne test k (by omega)]
      constructor
      · intro h; omega
      · intro h
        have := h k (Nat.lt_succ_self k)
        rw [ht] at this
        cases this
    · rw [if_neg (fun hc => ht hc.2), ih]
      constructor
      · intro h j hj
        by_cases hjk : j = k
        · subst hjk; simpa using ht
        · exact h j (by omega)
      · intro h j hj
        exact h j (by omega)

theorem scanLevels_found (test : Nat → Bool) (n : Nat) (h : scanLevels test n (-1) ≠ -1) :
    ∃ j, j < n ∧ scanLevels test n (-1) = (j : Int) ∧ test j = true ∧
      ∀ i, j < i → i < n → test i = false := by
  induction n with
  | zero => exact absurd rfl h
  | succ k ih =>
    rw [scanLevels] at h ⊢
    by_cases ht : test k = true
    · rw [if_pos ⟨rfl, ht⟩, scanLevels_of_ne test k (by omega)]
      exact ⟨k, Nat.lt_succ_self k, rfl, ht, fun i h1 h2 => by omega⟩
    · rw [if_neg (fun hc => ht hc.2)] at h ⊢
      obtain ⟨j, hj, he, htj, hmax⟩ := ih h
      refine ⟨j, by omega, he, htj, ?_⟩
      intro i h1 h2
      by_cases hik : i = k
      · subst hik; simpa using ht
      · exact hmax i h1 (by omega)

theorem Filled_step {hd tl : Entry} {P R : List Entry} {k : Nat}
    {preds succs preds1 succs1 : List Nat}
    (hF : Filled hd tl P R k (preds.set (k + 1) (predAt hd P (k + 1)).addr)
      (succs.set (k + 1) (succAt tl R (k + 1)).addr) preds1 succs1) :
    Filled hd tl P R (k + 1) preds succs preds1 succs1 := by
  obtain ⟨h1, h2, h3, h4, h5, h6⟩ := hF
  refine ⟨by simpa using h1, by simpa using h2, ?_, ?_, ?_, ?_⟩
  · intro j hj hlt
    by_cases hjk : j ≤ k
    · exact h3 j hjk (by simpa using hlt)
    · have : j = k + 1 := by omega
      subst this
      rw [h5 _ (Nat.lt_succ_self k), List.getElem?_set]
      simp [hlt]
  · intro j hj hlt
    by_cases hjk : j ≤ k
    · exact h4 j hjk (by simpa using hlt)
    · have : j = k + 1 := by omega
      subst this
      rw [h6 _ (Nat.lt_succ_self k), List.getElem?_set]
      simp [hlt]
  · intro j hj
    rw [h5 j (by omega), List.getElem?_set]
    have : ¬ (k + 1 = j) := by omega
    simp [this]
  · intro j hj
    rw [h6 j (by omega), List.getElem?_set]
    have : ¬ (k + 1 = j) := by omega
    simp [this]

theorem Filled_zero (hd tl : Entry) (P R : List Entry) (preds succs : List Nat) :
    Filled hd tl P R 0 preds succs (preds.set 0 (predAt hd P 0).addr)
      (succs.set 0 (succAt tl R 0).addr) := by
  refine ⟨by simp, by simp, ?_, ?_, ?_, ?_⟩
  · intro j hj hlt
    have : j = 0 := by omega
    subst this
    simp [List.getElem?_set, hlt]
  · intro j hj hlt
    have : j = 0 := by omega
    subst this
    simp [List.getElem?_set, hlt]
  · intro j hj
    rw [List.getElem?_set]
    have : ¬ (0 = j) := by omega
    simp [this]
  · intro j hj
    rw [List.getElem?_set]
    have : ¬ (0 = j) := by omega
    simp [this]


/-! ## Splicing a node into, and out of, a level chain -/

theorem chain'_cons_append_cons {α : Type} {R : α → α → Prop} :
    ∀ (l : List α) (d b : α) (B : List α),
      List.Chain' R (d :: l ++ b :: B) ↔
        List.Chain' R (d :: l) ∧ R (l.getLastD d) b ∧ List.Chain' R (b :: B) := by
  intro l
  induction l with
  | nil =>
    intro d b B
    simp [List.chain'_cons]
  | cons a l ih =>
    intro d b B
    have := ih a b B
    simp only [List.cons_append] at this ⊢
    rw [List.chain'_cons, this, List.chain'_cons, List.getLastD_cons]
    tauto

theorem entry_eq_of_addr_eq {E : List Entry} (hnd : (E.map Entry.addr).Nodup) {a b : Entry}
    (ha : a ∈ E) (hb : b ∈ E) (h : a.addr = b.addr) : a = b :=
  List.inj_on_of_nodup_map hnd ha hb h

/-- The predecessor at level `k` differs from every entry of the suffix. -/
theorem predAt_addr_ne_of_mem_suffix {hd tl : Entry} {P R : List Entry}
    (hnd : ((hd :: (P ++ R) ++ [tl]).map Entry.addr).Nodup) (k : Nat) {a : Entry}
    (ha : a ∈ R ++ [tl]) : a.addr ≠ (predAt hd P k).addr := by
  intro h
  have hp : predAt hd P k ∈ hd :: P := predAt_mem_all hd P k
  have hmem1 : a ∈ hd :: (P ++ R) ++ [tl] := by
    simp only [List.mem_cons, List.mem_append, List.mem_singleton] at ha ⊢; tauto
  have hmem2 : predAt hd P k ∈ hd :: (P ++ R) ++ [tl] := by
    simp only [List.mem_cons, List.mem_append, List.mem_singleton] at hp ⊢; tauto
  have heq := entry_eq_of_addr_eq hnd hmem1 hmem2 h
  have hnd2 : (hd :: (P ++ R) ++ [tl]).Nodup := List.Nodup.of_map _ hnd
  have hsplit : hd :: (P ++ R) ++ [tl] = (hd :: P) ++ (R ++ [tl]) := by simp
  rw [hsplit, List.nodup_append] at hnd2
  exact hnd2.2.2 (heq ▸ hp) ha

/-- Every entry of the level-`k` prefix but its last differs from the predecessor. -/
theorem predAt_addr_ne_of_mem_dropLast {hd tl : Entry} {P R : List Entry}
    (hnd : ((hd :: (P ++ R) ++ [tl]).map Entry.addr).Nodup) (k : Nat) {a : Entry}
    (ha : a ∈ (hd :: atLevel k P).dropLast) : a.addr ≠ (predAt hd P k).addr := by
  intro h
  have hp : predAt hd P k ∈ hd :: P := predAt_mem_all hd P k
  have ha' : a ∈ hd :: atLevel k P := List.dropLast_subset _ ha
  have ha2 : a ∈ hd :: P := by
    rcases List.mem_cons.mp ha' with h | h
    · rw [h]; exact List.mem_cons_self _ _
    · exact List.mem_cons_of_mem _ (mem_atLevel.mp h).1
  have hmem1 : a ∈ hd :: (P ++ R) ++ [tl] := by
    simp only [List.mem_cons, List.mem_append, List.mem_singleton] at ha2 ⊢; tauto
  have hmem2 : predAt hd P k ∈ hd :: (P ++ R) ++ [tl] := by
    simp only [List.mem_cons, List.mem_append, List.mem_singleton] at hp ⊢; tauto
  have heq := entry_eq_of_addr_eq hnd hmem1 hmem2 h
  have hnd2 : (hd :: (P ++ R) ++ [tl]).Nodup := List.Nodup.of_map _ hnd
  have hsplit : hd :: (P ++ R) ++ [tl] = (hd :: P) ++ (R ++ [tl]) := by simp
  rw [hsplit] at hnd2
  have hnd3 : (hd :: atLevel k P).Nodup :=
    List.Nodup.sublist ((atLevel_sublist k P).cons₂ hd) (List.nodup_append.mp hnd2).1
  exact mem_dropLast_ne_getLastD hnd3 ha heq

/-- Splicing `newE` between the prefix `P` and the suffix `R` at a level it takes part in. -/
theorem chain_insert_at {F G : Entry → Entry → Prop} {hd tl : Entry} {P R : List Entry}
    {newE : Entry} {k : Nat}
    (hnd : ((hd :: (P ++ R) ++ [tl]).map Entry.addr).Nodup)
    (hc : List.Chain' F (hd :: atLevel k (P ++ R) ++ [tl]))
    (hk : k ≤ newE.level)
    (hframe : ∀ a b, a ∈ hd :: (P ++ R) ++ [tl] → a.addr ≠ (predAt hd P k).addr →
      F a b → G a b)
    (hl1 : G (predAt hd P k) newE) (hl2 : G newE (succAt tl R k)) :
    List.Chain' G (hd :: atLevel k (P ++ newE :: R) ++ [tl]) := by
  obtain ⟨Z, hZ⟩ := atLevel_append_tl_eq tl R k
  have e1 : hd :: atLevel k (P ++ R) ++ [tl] = hd :: atLevel k P ++ succAt tl R k :: Z := by
    rw [atLevel_append, ← hZ]; simp
  have e2 : hd :: atLevel k (P ++ newE :: R) ++ [tl] =
      hd :: atLevel k P ++ newE :: succAt tl R k :: Z := by
    rw [atLevel_append, ← hZ]
    have : atLevel k (newE :: R) = newE :: atLevel k R := by
      simp [atLevel, hk]
    rw [this]; simp
  rw [e1, chain'_cons_append_cons] at hc
  rw [e2, chain'_cons_append_cons]
  obtain ⟨hcA, -, hcB⟩ := hc
  have hsubA : ∀ a ∈ hd :: atLevel k P, a ∈ hd :: (P ++ R) ++ [tl] := by
    intro a ha
    rcases List.mem_cons.mp ha with h | h
    · rw [h]; simp
    · have := (mem_atLevel.mp h).1
      simp [this]
  have hsubB : ∀ a ∈ succAt tl R k :: Z, a ∈ R ++ [tl] := by
    intro a ha
    rw [← hZ] at ha
    rcases List.mem_append.mp ha with h | h
    · exact List.mem_append_left _ (mem_atLevel.mp h).1
    · exact List.mem_append_right _ h
  refine ⟨?_, hl1, ?_⟩
  · apply chain'_congr_init hcA
    intro a ha b hab
    exact hframe a b (hsubA a (List.dropLast_subset _ ha))
      (predAt_addr_ne_of_mem_dropLast hnd k ha) hab
  · apply List.Chain'.cons hl2
    apply chain'_congr_of_mem hcB
    intro a ha b _ hab
    have haR := hsubB a ha
    refine hframe a b ?_ (predAt_addr_ne_of_mem_suffix hnd k haR) hab
    simp only [List.mem_cons, List.mem_append, List.mem_singleton] at haR ⊢; tauto

/-- At a level the new node does not take part in, the chain is the old one. -/
theorem chain_insert_above {F G : Entry → Entry → Prop} {hd tl : Entry} {P R : List Entry}
    {newE : Entry} {k : Nat}
    (hc : List.Chain' F (hd :: atLevel k (P ++ R) ++ [tl]))
    (hk : newE.level < k)
    (hframe : ∀ a b, a ∈ hd :: (P ++ R) ++ [tl] → F a b → G a b) :
    List.Chain' G (hd :: atLevel k (P ++ newE :: R) ++ [tl]) := by
  have e : atLevel k (P ++ newE :: R) = atLevel k (P ++ R) := by
    rw [atLevel_append, atLevel_append]
    have : atLevel k (newE :: R) = atLevel k R := by
      have : ¬ k ≤ newE.level := by omega
      simp [atLevel, this]
    rw [this]
  rw [e]
  apply chain'_congr_of_mem hc
  intro a ha b _ hab
  refine hframe a b ?_ hab
  rcases List.mem_append.mp ha with h | h
  · rcases List.mem_cons.mp h with h | h
    · rw [h]; simp
    · have := (mem_atLevel.mp h).1
      simp only [List.mem_cons, List.mem_append, List.mem_singleton] at this ⊢; tauto
  · simp only [List.mem_cons, List.mem_append, List.mem_singleton] at h ⊢; tauto

/-- Unlinking `v`, the first entry of the suffix, at a level it takes part in. -/
theorem chain_remove_at {F G : Entry → Entry → Prop} {hd tl : Entry} {P R : List Entry}
    {v : Entry} {k : Nat}
    (hnd : ((hd :: (P ++ v :: R) ++ [tl]).map Entry.addr).Nodup)
    (hc : List.Chain' F (hd :: atLevel k (P ++ v :: R) ++ [tl]))
    (hk : k ≤ v.level)
    (hframe : ∀ a b, a ∈ hd :: (P ++ R) ++ [tl] → a.addr ≠ (predAt hd P k).addr →
      F a b → G a b)
    (hl : G (predAt hd P k) (succAt tl R k)) :
    List.Chain' G (hd :: atLevel k (P ++ R) ++ [tl]) := by
  obtain ⟨Z, hZ⟩ := atLevel_append_tl_eq tl R k
  have e1 : hd :: atLevel k (P ++ R) ++ [tl] = hd :: atLevel k P ++ succAt tl R k :: Z := by
    rw [atLevel_append, ← hZ]; simp
  have e2 : hd :: atLevel k (P ++ v :: R) ++ [tl] =
      hd :: atLevel k P ++ v :: succAt tl R k :: Z := by
    rw [atLevel_append, ← hZ]
    have : atLevel k (v :: R) = v :: atLevel k R := by
      simp [atLevel, hk]
    rw [this]; simp
  rw [e2, chain'_cons_append_cons] at hc
  rw [e1, chain'_cons_append_cons]
  obtain ⟨hcA, -, hcB⟩ := hc
  have hcB' : List.Chain' F (succAt tl R k :: Z) := (List.chain'_cons.mp hcB).2
  have hnd' : ((hd :: (P ++ R) ++ [tl]).map Entry.addr).Nodup := by
    refine List.Nodup.sublist ?_ hnd
    apply List.Sublist.map
    simp only [List.cons_append, List.append_assoc]
    apply List.Sublist.cons₂
    apply List.Sublist.append_left
    exact List.sublist_cons_self _ _
  have hsubA : ∀ a ∈ hd :: atLevel k P, a ∈ hd :: (P ++ R) ++ [tl] := by
    intro a ha
    rcases List.mem_cons.mp ha with h | h
    · rw [h]; simp
    · have := (mem_atLevel.mp h).1
      simp [this]
  have hsubB : ∀ a ∈ succAt tl R k :: Z, a ∈ R ++ [tl] := by
    intro a ha
    rw [← hZ] at ha
    rcases List.mem_append.mp ha with h | h
    · exact List.mem_append_left _ (mem_atLevel.mp h).1
    · exact List.mem_append_right _ h
  refine ⟨?_, hl, ?_⟩
  · apply chain'_congr_init hcA
    intro a ha b hab
    exact hframe a b (hsubA a (List.dropLast_subset _ ha))
      (predAt_addr_ne_of_mem_dropLast hnd' k ha) hab
  · apply chain'_congr_of_mem hcB'
    intro a ha b _ hab
    have haR := hsubB a ha
    refine hframe a b ?_ (predAt_addr_ne_of_mem_suffix hnd' k haR) hab
    simp only [List.mem_cons, List.mem_append, List.mem_singleton] at haR ⊢; tauto

/-- At a level the removed node does not take part in, the chain is the old one. -/
theorem chain_remove_above {F G : Entry → Entry → Prop} {hd tl : Entry} {P R : List Entry}
    {v : Entry} {k : Nat}
    (hc : List.Chain' F (hd :: atLevel k (P ++ v :: R) ++ [tl]))
    (hk : v.level < k)
    (hframe : ∀ a b, a ∈ hd :: (P ++ R) ++ [tl] → F a b → G a b) :
    List.Chain' G (hd :: atLevel k (P ++ R) ++ [tl]) := by
  have e : atLevel k (P ++ v :: R) = atLevel k (P ++ R) := by
    rw [atLevel_append, atLevel_append]
    have : atLevel k (v :: R) = atLevel k R := by
      have : ¬ k ≤ v.level := by omega
      simp [atLevel, this]
    rw [this]
  rw [e] at hc
  apply chain'_congr_of_mem hc
  intro a ha b _ hab
  refine hframe a b ?_ hab
  rcases List.mem_append.mp ha with h | h
  · rcases List.mem_cons.mp h with h | h
    · rw [h]; simp
    · have := (mem_atLevel.mp h).1
      simp only [List.mem_cons, List.mem_append, List.mem_singleton] at this ⊢; tauto
  · simp only [List.mem_cons, List.mem_append, List.mem_singleton] at h ⊢; tauto

theorem link_pred_succ {F : Entry → Entry → Prop} {hd tl : Entry} {P R : List Entry} {k : Nat}
    (hc : List.Chain' F (hd :: atLevel k (P ++ R) ++ [tl])) :
    F (predAt hd P k) (succAt tl R k) := by
  obtain ⟨Z, hZ⟩ := atLevel_append_tl_eq tl R k
  have e1 : hd :: atLevel k (P ++ R) ++ [tl] = hd :: atLevel k P ++ succAt tl R k :: Z := by
    rw [atLevel_append, ← hZ]; simp
  rw [e1, chain'_cons_append_cons] at hc
  exact hc.2.1

theorem predAt_level {hd : Entry} (P : List Entry) {k : Nat} (hk : k ≤ hd.level) :
    k ≤ (predAt hd P k).level := by
  rcases List.mem_cons.mp (predAt_mem hd P k) with h | h
  · rw [h]; exact hk
  · exact (mem_atLevel.mp h).2

theorem succAt_zero_cons (tl r : Entry) (R : List Entry) : succAt tl (r :: R) 0 = r := by
  simp [succAt, atLevel]

theorem succAt_nil (tl : Entry) (k : Nat) : succAt tl [] k = tl := by
  simp [succAt, atLevel]

theorem succAt_cons_of_le (tl : Entry) {r : Entry} (R : List Entry) {k : Nat}
    (hk : k ≤ r.level) : succAt tl (r :: R) k = r := by
  simp [succAt, atLevel, hk]

theorem succAt_cons_of_lt (tl : Entry) {r : Entry} (R : List Entry) {k : Nat}
    (hk : r.level < k) : succAt tl (r :: R) k = succAt tl R k := by
  have : ¬ k ≤ r.level := by omega
  simp [succAt, atLevel, this]

theorem pairwise_insert {α : Type} {rel : α → α → Prop} {A B : List α} {x : α}
    (h : (A ++ B).Pairwise rel) (hA : ∀ a ∈ A, rel a x) (hB : ∀ b ∈ B, rel x b) :
    (A ++ x :: B).Pairwise rel := by
  rw [List.pairwise_append] at h ⊢
  refine ⟨h.1, List.pairwise_cons.mpr ⟨hB, h.2.1⟩, ?_⟩
  intro a ha b hb
  rcases List.mem_cons.mp hb with rfl | hb
  · exact hA a ha
  · exact h.2.2 a ha b hb

theorem nodup_insert {α : Type} {A B : List α} {x : α}
    (h : (A ++ B).Nodup) (hx : x ∉ A ++ B) : (A ++ x :: B).Nodup := by
  rw [List.nodup_middle]
  exact List.nodup_cons.mpr ⟨hx, h⟩

theorem predAt_append_singleton (hd : Entry) (P : List Entry) {v : Entry} {k : Nat}
    (hk : k ≤ v.level) : predAt hd (P ++ [v]) k = v := by
  unfold predAt
  rw [atLevel_append]
  have : atLevel k [v] = [v] := by simp [atLevel, hk]
  rw [this, List.getLastD_concat]

theorem remove_sublist {α : Type} (hd tl v : α) (P R : List α) :
    (hd :: (P ++ R) ++ [tl]).Sublist (hd :: (P ++ v :: R) ++ [tl]) := by
  simp only [List.cons_append, List.append_assoc]
  apply List.Sublist.cons₂
  apply List.Sublist.append_left
  exact List.sublist_cons_self _ _


namespace V3

/-! ## V3: reading and writing forward pointers -/

theorem v3_setForward_some {h h1 : List SkipListNode} {p k q : Nat}
    (hs : setForward h p k q = some h1) :
    ∃ n, deref h p = some n ∧ k < n.forward.length ∧
      h1 = store h p { n with forward := n.forward.set k q } := by
  unfold setForward at hs
  split at hs
  · cases hs
  · rename_i n hn
    split at hs
    · rename_i hk
      exact ⟨n, hn, hk, (Option.some.inj hs).symm⟩
    · cases hs

theorem v3_deref_setForward {h h1 : List SkipListNode} {p k q : Nat}
    (hs : setForward h p k q = some h1) (a : Nat) :
    deref h1 a = if a = p then (deref h p).map fun n => { n with forward := n.forward.set k q }
      else deref h a := by
  obtain ⟨n, hn, _, rfl⟩ := v3_setForward_some hs
  rw [deref_store]
  split
  · simp [hn]
  · rfl

theorem v3_getForward_setForward {h h1 : List SkipListNode} {p k q : Nat}
    (hs : setForward h p k q = some h1) (a j : Nat) :
    getForward h1 a j = if a = p ∧ j = k then some q else getForward h a j := by
  obtain ⟨n, hn, hk, _⟩ := v3_setForward_some hs
  unfold getForward
  rw [v3_deref_setForward hs]
  by_cases ha : a = p
  · subst ha
    simp only [hn, if_true, Option.map_some', true_and, List.getElem?_set]
    by_cases hj : j = k
    · subst hj; simp [hk]
    · have : ¬ k = j := fun h => hj h.symm
      simp [hj, this]
  · simp [ha]

theorem v3_length_setForward {h h1 : List SkipListNode} {p k q : Nat}
    (hs : setForward h p k q = some h1) : h1.length = h.length := by
  obtain ⟨n, _, _, rfl⟩ := v3_setForward_some hs
  exact length_store _ _ _

theorem v3_Agree_setForward {h h1 : List SkipListNode} {p k q : Nat}
    (hs : setForward h p k q = some h1) (e : Entry) : Agree h1 e ↔ Agree h e := by
  unfold Agree
  rw [v3_deref_setForward hs]
  by_cases ha : e.addr = p
  · simp only [ha, if_true]
    constructor
    · rintro ⟨n, hn, h1, h2, h3, h4⟩
      cases hd : deref h p with
      | none => rw [hd] at hn; cases hn
      | some m =>
        rw [hd] at hn
        simp only [Option.map_some', Option.some.injEq] at hn
        subst hn
        exact ⟨m, rfl, h1, h2, h3, by simpa using h4⟩
    · rintro ⟨n, hn, h1, h2, h3, h4⟩
      exact ⟨{ n with forward := n.forward.set k q }, by rw [hn]; rfl, h1, h2, h3,
        by simpa using h4⟩
  · simp only [ha, if_false]

theorem v3_setForward_of_Agree {h : List SkipListNode} {e : Entry} (hA : Agree h e)
    {k : Nat} (hk : k ≤ e.level) (q : Nat) : ∃ h1, setForward h e.addr k q = some h1 := by
  obtain ⟨n, hn, -, -, -, hl⟩ := hA
  unfold setForward
  rw [hn]
  simp only
  rw [if_pos (by omega)]
  exact ⟨_, rfl⟩

theorem v3_Agree_alloc {h : List SkipListNode} {e : Entry} (n : SkipListNode) (hA : Agree h e) :
    Agree (alloc h n).1 e := by
  obtain ⟨m, hm, h1⟩ := hA
  exact ⟨m, deref_alloc_old n hm, h1⟩

theorem v3_getForward_alloc_old {h : List SkipListNode} {e : Entry} (n : SkipListNode)
    (hA : Agree h e) (k : Nat) : getForward (alloc h n).1 e.addr k = getForward h e.addr k := by
  obtain ⟨m, hm, _⟩ := hA
  unfold getForward
  rw [deref_alloc_old n hm, hm]

theorem v3_Agree_addr_lt {h : List SkipListNode} {e : Entry} (hA : Agree h e) :
    e.addr < addrOf h.length := by
  obtain ⟨m, hm, _⟩ := hA
  exact deref_lt hm

/-! ## V3: the search of `FindNodes` -/

theorem v3_findNodesWalk_spec (h : List SkipListNode) (k start : Nat) :
    ∀ (Y : List Entry) (p c : Entry) (Z : List Entry) (fuel : Nat),
      List.Chain' (Link h k) (p :: Y ++ c :: Z) →
      (∀ e ∈ Y, Agree h e ∧ e.end_ < start) → Agree h c → ¬ c.end_ < start →
      Y.length < fuel →
      findNodesWalk h k start fuel p.addr = some ((Y.getLastD p).addr, c.addr) := by
  intro Y
  induction Y with
  | nil =>
    intro p c Z fuel hc _ hAc hnc hf
    obtain ⟨f, rfl⟩ : ∃ f, fuel = f + 1 := ⟨fuel - 1, by simp at hf; omega⟩
    have hl : Link h k p c := (List.chain'_cons.mp hc).1
    obtain ⟨n, hn, -, hne, -⟩ := hAc
    unfold Link at hl
    simp [findNodesWalk, hl, hn, hne, hnc]
  | cons y Y ih =>
    intro p c Z fuel hc hY hAc hnc hf
    obtain ⟨f, rfl⟩ : ∃ f, fuel = f + 1 := ⟨fuel - 1, by simp at hf; omega⟩
    have hc' : List.Chain' (Link h k) (p :: y :: (Y ++ c :: Z)) := hc
    rw [List.chain'_cons] at hc'
    obtain ⟨⟨n, hn, -, hne, -⟩, hlt⟩ := hY y (List.mem_cons_self _ _)
    have hl : getForward h p.addr k = some y.addr := hc'.1
    rw [List.getLastD_cons]
    have := ih y c Z f hc'.2 (fun e he => hY e (List.mem_cons_of_mem _ he)) hAc hnc
      (by simp at hf; omega)
    simp [findNodesWalk, hl, hn, hne, hlt, this]

theorem v3_findNodesWalk_level {h : List SkipListNode} {start : Nat} {P R : List Entry}
    (hs : Split h start P R) {k : Nat} (hk : k ≤ MAX_LEVEL) {pred : Entry}
    (hp : pred ∈ headE :: atLevel k P) {fuel : Nat} (hf : P.length < fuel) :
    findNodesWalk h k start fuel pred.addr =
      some ((predAt headE P k).addr, (succAt tailE R k).addr) := by
  obtain ⟨X, Y, Z, hxy, hlast, hY, hYl⟩ := level_chain_split headE tailE P R k hp
  have hc := hs.links k hk
  rw [hxy] at hc
  have hc2 : List.Chain' (Link h k) (pred :: Y ++ succAt tailE R k :: Z) :=
    (List.chain'_append.mp hc).2.1
  rw [← hlast]
  apply v3_findNodesWalk_spec h k start Y pred _ Z fuel hc2
  · intro e he
    exact ⟨hs.agree e (by simp [hY e he]), hs.before e (hY e he)⟩
  · apply hs.agree
    have := succAt_mem_all tailE R k
    simp only [List.mem_append, List.mem_cons, List.mem_singleton] at this ⊢
    tauto
  · exact hs.after _ (succAt_mem_all tailE R k)
  · omega

theorem v3_findNodesLevels_spec {h : List SkipListNode} {start : Nat} {P R : List Entry}
    (hs : Split h start P R) {fuel : Nat} (hf : P.length < fuel) :
    ∀ (k : Nat) (pred : Entry) (curr : Nat) (out : List Nat), k ≤ MAX_LEVEL →
      pred ∈ headE :: atLevel k P →
      ∃ out1, findNodesLevels h start fuel (k + 1) pred.addr curr out =
          some ((predAt headE P 0).addr, (succAt tailE R 0).addr, out1) ∧
        out1.length = out.length ∧
        (∀ j, j ≤ k → j < out.length → out1[j]? = some (predAt headE P j).addr) ∧
        (∀ j, k < j → out1[j]? = out[j]?) := by
  intro k
  induction k with
  | zero =>
    intro pred curr out hk hp
    refine ⟨out.set 0 (predAt headE P 0).addr, ?_, by simp, ?_, ?_⟩
    · simp [findNodesLevels, v3_findNodesWalk_level hs hk hp hf]
    · intro j hj hlt
      have : j = 0 := by omega
      subst this
      simp [List.getElem?_set, hlt]
    · intro j hj
      rw [List.getElem?_set]
      have : ¬ (0 = j) := by omega
      simp [this]
  | succ k ih =>
    intro pred curr out hk hp
    have hmem := predAt_mem_lower headE P (Nat.le_succ k)
    obtain ⟨out1, h1, h2, h3, h4⟩ := ih (predAt headE P (k + 1)) (succAt tailE R (k + 1)).addr
      (out.set (k + 1) (predAt headE P (k + 1)).addr) (by omega) hmem
    refine ⟨out1, ?_, by simpa using h2, ?_, ?_⟩
    · rw [findNodesLevels, v3_findNodesWalk_level hs hk hp hf]
      exact h1
    · intro j hj hlt
      by_cases hjk : j ≤ k
      · exact h3 j hjk (by simpa using hlt)
      · have : j = k + 1 := by omega
        subst this
        rw [h4 _ (Nat.lt_succ_self k), List.getElem?_set]
        simp [hlt]
    · intro j hj
      rw [h4 j (by omega), List.getElem?_set]
      have : ¬ (k + 1 = j) := by omega
      simp [this]

theorem v3_FindNodes_spec {s : SongRangeLock} {start : Nat} {P R : List Entry}
    (hs : Split s.nodes start P R) (hhead : s.head_ = headE.addr) (hstart : 1 ≤ start)
    (end_ : Nat) {fuel : Nat} (hf : P.length < fuel) :
    ∃ out, FindNodes fuel s start end_ =
        some (decide ((succAt tailE R 0).start ≤ end_), out) ∧
      ∀ j, j ≤ MAX_LEVEL → out[j]? = some (predAt headE P j).addr := by
  obtain ⟨out, h1, h2, h3, -⟩ := v3_findNodesLevels_spec hs hf MAX_LEVEL headE 0
    (List.replicate (MAX_LEVEL + 1) 0) (Nat.le_refl _) (List.mem_cons_self _ _)
  refine ⟨out, ?_, fun j hj => h3 j hj (by simp; omega)⟩
  have hpA : Agree s.nodes (predAt headE P 0) :=
    hs.agree _ (by
      have := predAt_mem_all headE P 0
      simp only [List.mem_cons, List.mem_append, List.mem_singleton] at this ⊢
      tauto)
  have hcA : Agree s.nodes (succAt tailE R 0) :=
    hs.agree _ (by
      have := succAt_mem_all tailE R 0
      simp only [List.mem_cons, List.mem_append, List.mem_singleton] at this ⊢
      tauto)
  obtain ⟨pn, hpn, -, hpe, -⟩ := hpA
  obtain ⟨cn, hcn, hcs, -, -⟩ := hcA
  have hpend : (predAt headE P 0).end_ < start := by
    rcases List.mem_cons.mp (predAt_mem_all headE P 0) with h | h
    · rw [h]; simp [headE]; omega
    · exact hs.before _ h
  unfold FindNodes
  have hh : headE.addr = s.head_ := hhead.symm
  rw [← hh, h1]
  simp only [hpn, hcn, hpe, hcs]
  have e1 : decide (start ≥ (predAt headE P 0).end_) = true := by
    simp; omega
  have e2 : decide (start > (predAt headE P 0).end_) = true := by
    simp; omega
  simp only [e1, e2, Bool.true_and]
  have e3 : (!decide (end_ < (succAt tailE R 0).start)) =
      decide ((succAt tailE R 0).start ≤ end_) := by
    by_cases hc : end_ < (succAt tailE R 0).start
    · simp [hc]
    · simp [hc]; omega
  split <;> rw [e3]

end V3
namespace V3

theorem v3_sorted_starts {L : List Entry}
    (hs : (headE :: L ++ [tailE]).Pairwise fun a b => a.end_ < b.start)
    (hd : ∀ e ∈ L, 1 ≤ e.start ∧ e.start < e.end_ ∧ e.end_ < MAX_VALUE ∧ e.level ≤ MAX_LEVEL) :
    L.Pairwise fun a b => a.start < b.start := by
  have h1 : L.Pairwise fun a b => a.end_ < b.start := by
    have := (List.pairwise_cons.mp hs).2
    exact (List.pairwise_append.mp this).1
  exact h1.imp_of_mem fun {a b} ha _ hab => by
    have := hd a ha
    omega

theorem Inv.v3_length_lt {s : SongRangeLock} {L : List Entry} (hI : Inv s L) :
    L.length < MAX_VALUE := by
  rcases length_le_of_sorted_starts MAX_VALUE L 1 (v3_sorted_starts hI.sorted hI.dom)
    (fun e he => by have := hI.dom e he; omega) with h | h
  · subst h; simp [MAX_VALUE, UINT64_MAX]
  · omega

theorem Inv.v3_split {s : SongRangeLock} {L : List Entry} (hI : Inv s L) {start : Nat}
    (hmax : start ≤ MAX_VALUE) :
    Split s.nodes start (L.takeWhile fun e => decide (e.end_ < start))
      (L.dropWhile fun e => decide (e.end_ < start)) := by
  refine ⟨?_, ?_, ?_, ?_⟩
  · rw [List.takeWhile_append_dropWhile]; exact hI.agree
  · rw [List.takeWhile_append_dropWhile]; exact hI.links
  · intro e he
    simpa using List.mem_takeWhile_imp he
  · intro e he
    rcases List.mem_append.mp he with h | h
    · have hL : L.Pairwise fun a b => a.end_ < b.start :=
        (List.pairwise_append.mp (List.pairwise_cons.mp hI.sorted).2).1
      have := dropWhile_all_not (fun e => decide (e.end_ < start)) _ L hL
        (fun a _ b hb hab hpa => by
          have := hI.dom b hb
          simp only [decide_eq_false_iff_not] at hpa ⊢
          omega) e h
      simpa using this
    · simp only [List.mem_singleton] at h
      subst h
      simp only [tailE]; omega

end V3

namespace V3

/-! ## V3: `InsertRange` -/

theorem v3_insertRangeLoop_spec (nodes : List Nat) (qE : Entry) (preds succs : Nat → Entry) :
    ∀ (n k : Nat) (h : List SkipListNode), k + n = qE.level + 1 →
      (∀ j, k ≤ j → j ≤ qE.level → nodes[j]? = some (preds j).addr) →
      (∀ j, k ≤ j → j ≤ qE.level → getForward h (preds j).addr j = some (succs j).addr) →
      (∀ j, j ≤ qE.level → Agree h (preds j) ∧ j ≤ (preds j).level ∧ (preds j).addr ≠ qE.addr) →
      Agree h qE →
      ∃ h1, insertRangeLoop nodes qE.addr n k h = some h1 ∧ h1.length = h.length ∧
        (∀ e, Agree h1 e ↔ Agree h e) ∧
        ∀ a j, getForward h1 a j =
          if k ≤ j ∧ j ≤ qE.level ∧ a = qE.addr then some (succs j).addr
          else if k ≤ j ∧ j ≤ qE.level ∧ a = (preds j).addr then some qE.addr
          else getForward h a j := by
  intro n
  induction n with
  | zero =>
    intro k h hk _ _ _ _
    refine ⟨h, rfl, rfl, fun _ => Iff.rfl, ?_⟩
    intro a j
    have h1 : ¬ (k ≤ j ∧ j ≤ qE.level ∧ a = qE.addr) := by omega
    have h2 : ¬ (k ≤ j ∧ j ≤ qE.level ∧ a = (preds j).addr) := by omega
    rw [if_neg h1, if_neg h2]
  | succ n ih =>
    intro k h hk hnodes hfw hpred hq
    have hklv : k ≤ qE.level := by omega
    obtain ⟨h1, hs1⟩ := v3_setForward_of_Agree hq hklv (succs k).addr
    have hpk := hpred k hklv
    obtain ⟨h2, hs2⟩ := v3_setForward_of_Agree ((v3_Agree_setForward hs1 _).mpr hpk.1) hpk.2.1 qE.addr
    have hA2 : ∀ e, Agree h2 e ↔ Agree h e := fun e =>
      (v3_Agree_setForward hs2 e).trans (v3_Agree_setForward hs1 e)
    have hg2 : ∀ a j, getForward h2 a j =
        if a = (preds k).addr ∧ j = k then some qE.addr
        else if a = qE.addr ∧ j = k then some (succs k).addr else getForward h a j := by
      intro a j
      rw [v3_getForward_setForward hs2, v3_getForward_setForward hs1]
    obtain ⟨h3, hr, hlen, hA3, hg3⟩ := ih (k + 1) h2 (by omega)
      (fun j hj hjl => hnodes j (by omega) hjl)
      (fun j hj hjl => by
        rw [hg2]
        have e1 : ¬ ((preds j).addr = (preds k).addr ∧ j = k) := by omega
        have e2 : ¬ ((preds j).addr = qE.addr ∧ j = k) := by omega
        rw [if_neg e1, if_neg e2]
        exact hfw j (by omega) hjl)
      (fun j hj => ⟨(hA2 _).mpr (hpred j hj).1, (hpred j hj).2⟩)
      ((hA2 _).mpr hq)
    refine ⟨h3, ?_, ?_, fun e => (hA3 e).trans (hA2 e), ?_⟩
    · simp only [insertRangeLoop, hnodes k (Nat.le_refl _) hklv, hfw k (Nat.le_refl _) hklv,
        hs1, hs2]
      exact hr
    · rw [hlen, v3_length_setForward hs2, v3_length_setForward hs1]
    · intro a j
      rw [hg3, hg2]
      by_cases hjk : j = k
      · subst hjk
        have e1 : ¬ (j + 1 ≤ j ∧ j ≤ qE.level ∧ a = qE.addr) := by omega
        have e2 : ¬ (j + 1 ≤ j ∧ j ≤ qE.level ∧ a = (preds j).addr) := by omega
        rw [if_neg e1, if_neg e2]
        by_cases ha : a = qE.addr
        · subst ha
          have e3 : ¬ (qE.addr = (preds j).addr ∧ j = j) := fun h => hpk.2.2 h.1.symm
          rw [if_neg e3]
          simp [hklv]
        · by_cases hb : a = (preds j).addr
          · simp [hb, hklv, hpk.2.2]
          · simp [ha, hb]
      · have e1 : ¬ (a = (preds k).addr ∧ j = k) := fun h => hjk h.2
        have e2 : ¬ (a = qE.addr ∧ j = k) := fun h => hjk h.2
        rw [if_neg e1, if_neg e2]
        by_cases hle : k ≤ j
        · have e3 : k + 1 ≤ j := by omega
          simp [hle, e3]
        · have e3 : ¬ (k + 1 ≤ j) := by omega
          simp [hle, e3]

end V3

namespace V3

/-! ## V3: `tryLock` keeps the skip list well formed -/

theorem Inv.v3_heap_length {s : SongRangeLock} {L : List Entry} (hI : Inv s L) :
    L.length + 2 ≤ s.nodes.length := by
  have := length_le_of_nodup_deref s.nodes _ hI.nodup (fun p hp => by
    obtain ⟨e, he, rfl⟩ := List.mem_map.mp hp
    obtain ⟨n, hn, _⟩ := hI.agree e he
    simp [hn])
  simp at this
  omega

theorem Inv.v3_agree_mem {s : SongRangeLock} {L : List Entry} (hI : Inv s L) {e : Entry}
    (he : e ∈ L) : Agree s.nodes e :=
  hI.agree e (by simp [he])

theorem v3_tryLock_overlap {s : SongRangeLock} {L : List Entry} (hI : Inv s L)
    {start end_ : Nat} (h1 : 1 ≤ start) {P R : List Entry} (hPR : L = P ++ R)
    (hs : Split s.nodes start P R) (hov : (succAt tailE R 0).start ≤ end_)
    (rand : Nat → Nat) : tryLock s start end_ rand = some (false, s) := by
  have hlen := hI.v3_heap_length
  have hP : P.length < s.nodes.length := by
    have := congrArg List.length hPR
    simp at this; omega
  obtain ⟨out, hf, -⟩ := v3_FindNodes_spec hs hI.head_eq h1 end_ hP
  unfold tryLock
  rw [hf]
  simp [hov]

theorem v3_tryLock_insert {s : SongRangeLock} {L : List Entry} (hI : Inv s L)
    {start end_ : Nat} (h1 : 1 ≤ start) (h2 : start < end_) (h3 : end_ ≤ MAX_VALUE - 1)
    {P R : List Entry} (hPR : L = P ++ R)
    (hs : Split s.nodes start P R) (hgap : end_ < (succAt tailE R 0).start)
    (rand : Nat → Nat) :
    ∃ s1, tryLock s start end_ rand = some (true, s1) ∧
      Inv s1 (P ++ ⟨addrOf s.nodes.length, start, end_, randomLevel rand MAX_LEVEL⟩ :: R) := by
  subst hPR
  have hlen := hI.v3_heap_length
  have hP : P.length < s.nodes.length := by
    simp at hlen; omega
  obtain ⟨out, hf, hout⟩ := v3_FindNodes_spec hs hI.head_eq h1 end_ hP
  have hlv := randomLevel_le rand MAX_LEVEL
  generalize hlvdef : randomLevel rand MAX_LEVEL = lv at hlv ⊢
  set newN : SkipListNode := ⟨start, end_, lv, List.replicate (lv + 1) 0⟩ with hnewN
  set newE : Entry := ⟨addrOf s.nodes.length, start, end_, lv⟩ with hnewE
  set h1' := (alloc s.nodes newN).1 with hh1
  have hqA : Agree h1' newE :=
    ⟨newN, by rw [hh1]; exact deref_alloc_new _ _, rfl, rfl, rfl, by simp [hnewN]⟩
  have holdmem : ∀ e, e ∈ headE :: P → e ∈ headE :: (P ++ R) ++ [tailE] := by
    intro e he
    simp only [List.mem_cons, List.mem_append, List.mem_singleton] at he ⊢; tauto
  have hloop := v3_insertRangeLoop_spec out newE (predAt headE P) (succAt tailE R)
    (lv + 1) 0 h1' (by simp [hnewE])
    (fun j _ hj => hout j (by simp [hnewE] at hj; omega))
    (fun j _ hj => by
      have hj' : j ≤ MAX_LEVEL := by simp [hnewE] at hj; omega
      have hA := hs.agree _ (holdmem _ (predAt_mem_all headE P j))
      rw [hh1, v3_getForward_alloc_old _ hA]
      exact link_pred_succ (hs.links j hj'))
    (fun j hj => by
      have hj' : j ≤ MAX_LEVEL := by simp [hnewE] at hj; omega
      have hA := hs.agree _ (holdmem _ (predAt_mem_all headE P j))
      refine ⟨v3_Agree_alloc _ hA, predAt_level P (by simpa [headE] using hj'), ?_⟩
      have := v3_Agree_addr_lt hA
      simp only [hnewE]; omega)
    hqA
  obtain ⟨h2', hrun, hlen2, hA2, hg2⟩ := hloop
  refine ⟨⟨h2', s.head_, s.tail_, fetchAdd1 s.elementsCount⟩, ?_, ?_⟩
  · unfold tryLock
    rw [hf]
    have : decide ((succAt tailE R 0).start ≤ end_) = false := by simp; omega
    rw [this]
    simp only [InsertRange, AllocNode, hlvdef]
    have hq : (alloc s.nodes newN).2 = newE.addr := rfl
    rw [hq, ← hh1, hrun]
  · have hAold : ∀ e, e ∈ headE :: (P ++ R) ++ [tailE] → Agree h2' e := fun e he =>
      (hA2 e).mpr (v3_Agree_alloc _ (hI.agree e he))
    have hnewaddr : ∀ e, e ∈ headE :: (P ++ R) ++ [tailE] → e.addr ≠ newE.addr := by
      intro e he
      have := v3_Agree_addr_lt (hI.agree e he)
      simp only [hnewE]; omega
    refine ⟨hI.head_eq, hI.tail_eq, ?_, ?_, ?_, ?_, ?_, ?_⟩
    · intro e he
      have : e = newE ∨ e ∈ headE :: (P ++ R) ++ [tailE] := by
        simp only [List.mem_cons, List.mem_append, List.mem_singleton] at he ⊢; tauto
      rcases this with rfl | h
      · exact (hA2 _).mpr hqA
      · exact hAold e h
    · intro e he
      have : e = newE ∨ e ∈ P ++ R := by
        simp only [List.mem_cons, List.mem_append] at he ⊢; tauto
      rcases this with rfl | h
      · simp only [hnewE]; omega
      · exact hI.dom e h
    · have e1 : headE :: (P ++ newE :: R) ++ [tailE] = (headE :: P) ++ newE :: (R ++ [tailE]) := by
        simp
      have e2 : headE :: (P ++ R) ++ [tailE] = (headE :: P) ++ (R ++ [tailE]) := by simp
      rw [e1]
      have hsorted := hI.sorted
      rw [e2] at hsorted
      apply pairwise_insert hsorted
      · intro a ha
        rcases List.mem_cons.mp ha with h | h
        · rw [h]; simp only [headE, hnewE]; omega
        · exact hs.before a h
      · intro b hb
        have hBpw := (List.pairwise_append.mp hsorted).2.1
        cases R with
        | nil =>
          simp only [List.nil_append, List.mem_singleton] at hb
          rw [succAt_nil] at hgap
          rw [hb]; exact hgap
        | cons r R' =>
          rw [succAt_zero_cons] at hgap
          rcases List.mem_cons.mp hb with h | h
          · rw [h]; exact hgap
          · have hr := hI.dom r (by simp)
            have := (List.pairwise_cons.mp hBpw).1 b h
            simp only [hnewE]; omega
    · have e1 : headE :: (P ++ newE :: R) ++ [tailE] = (headE :: P) ++ newE :: (R ++ [tailE]) := by
        simp
      have e2 : headE :: (P ++ R) ++ [tailE] = (headE :: P) ++ (R ++ [tailE]) := by simp
      rw [e1, List.map_append, List.map_cons]
      have hnd := hI.nodup
      rw [e2, List.map_append] at hnd
      apply nodup_insert hnd
      intro hmem
      rw [← List.map_append, ← e2] at hmem
      obtain ⟨e, he, hea⟩ := List.mem_map.mp hmem
      exact hnewaddr e he hea
    · intro k hk
      by_cases hkl : k ≤ lv
      · apply chain_insert_at (F := Link s.nodes k) hI.nodup (hI.links k hk) hkl
        · intro a b ha hne hab
          unfold Link at hab ⊢
          rw [hg2]
          have e1 : ¬ (0 ≤ k ∧ k ≤ newE.level ∧ a.addr = newE.addr) := fun h =>
            hnewaddr a ha h.2.2
          have e2 : ¬ (0 ≤ k ∧ k ≤ newE.level ∧ a.addr = (predAt headE P k).addr) := fun h =>
            hne h.2.2
          rw [if_neg e1, if_neg e2, hh1, v3_getForward_alloc_old _ (hI.agree a ha)]
          exact hab
        · unfold Link
          rw [hg2]
          have e1 : ¬ (0 ≤ k ∧ k ≤ newE.level ∧ (predAt headE P k).addr = newE.addr) := fun h =>
            hnewaddr _ (holdmem _ (predAt_mem_all headE P k)) h.2.2
          rw [if_neg e1, if_pos ⟨Nat.zero_le _, hkl, rfl⟩]
        · unfold Link
          rw [hg2, if_pos ⟨Nat.zero_le _, hkl, rfl⟩]
      · apply chain_insert_above (F := Link s.nodes k) (hI.links k hk) (by simp only [hnewE]; omega)
        intro a b ha hab
        unfold Link at hab ⊢
        rw [hg2]
        have e1 : ¬ (0 ≤ k ∧ k ≤ newE.level ∧ a.addr = newE.addr) := fun h => hkl h.2.1
        have e2 : ¬ (0 ≤ k ∧ k ≤ newE.level ∧ a.addr = (predAt headE P k).addr) := fun h =>
          hkl h.2.1
        rw [if_neg e1, if_neg e2, hh1, v3_getForward_alloc_old _ (hI.agree a ha)]
        exact hab
    · have hl := hI.v3_length_lt
      simp only [List.length_append, List.length_cons]
      rw [hI.count, fetchAdd1_eq]
      · simp; omega
      · simp only [MAX_VALUE, UINT64_MAX] at hl
        simp at hl ⊢; omega

end V3

namespace V3

/-! ## V3: `releaseLock` of a held start -/

theorem v3_releaseWalk_spec (h : List SkipListNode) (k start : Nat) :
    ∀ (Y : List Entry) (p c : Entry) (Z : List Entry) (fuel : Nat),
      List.Chain' (Link h k) (p :: Y ++ c :: Z) →
      (∀ e ∈ Y, Agree h e ∧ e.start < start) → Agree h c → ¬ c.start < start →
      Y.length < fuel →
      releaseWalk h k start fuel p.addr = some (Y.getLastD p).addr := by
  intro Y
  induction Y with
  | nil =>
    intro p c Z fuel hc _ hAc hnc hf
    obtain ⟨f, rfl⟩ : ∃ f, fuel = f + 1 := ⟨fuel - 1, by simp at hf; omega⟩
    have hl : Link h k p c := (List.chain'_cons.mp hc).1
    obtain ⟨n, hn, hns, -⟩ := hAc
    have hne := deref_ne_zero hn
    unfold Link at hl
    simp [releaseWalk, hl, hn, hns, hnc, hne]
  | cons y Y ih =>
    intro p c Z fuel hc hY hAc hnc hf
    obtain ⟨f, rfl⟩ : ∃ f, fuel = f + 1 := ⟨fuel - 1, by simp at hf; omega⟩
    have hc' : List.Chain' (Link h k) (p :: y :: (Y ++ c :: Z)) := hc
    rw [List.chain'_cons] at hc'
    obtain ⟨⟨n, hn, hns, -⟩, hlt⟩ := hY y (List.mem_cons_self _ _)
    have hne := deref_ne_zero hn
    have hl : getForward h p.addr k = some y.addr := hc'.1
    rw [List.getLastD_cons]
    have := ih y c Z f hc'.2 (fun e he => hY e (List.mem_cons_of_mem _ he)) hAc hnc
      (by simp at hf; omega)
    simp [releaseWalk, hl, hn, hns, hlt, hne, this]

theorem v3_releaseWalk_level {h : List SkipListNode} {start : Nat} {P R : List Entry}
    (hs : SplitR h start P R) {k : Nat} (hk : k ≤ MAX_LEVEL) {pred : Entry}
    (hp : pred ∈ headE :: atLevel k P) {fuel : Nat} (hf : P.length < fuel) :
    releaseWalk h k start fuel pred.addr = some (predAt headE P k).addr := by
  obtain ⟨X, Y, Z, hxy, hlast, hY, hYl⟩ := level_chain_split headE tailE P R k hp
  have hc := hs.links k hk
  rw [hxy] at hc
  have hc2 : List.Chain' (Link h k) (pred :: Y ++ succAt tailE R k :: Z) :=
    (List.chain'_append.mp hc).2.1
  rw [← hlast]
  apply v3_releaseWalk_spec h k start Y pred _ Z fuel hc2
  · intro e he
    exact ⟨hs.agree e (by simp [hY e he]), hs.before e (hY e he)⟩
  · apply hs.agree
    have := succAt_mem_all tailE R k
    simp only [List.mem_append, List.mem_cons, List.mem_singleton] at this ⊢
    tauto
  · exact hs.after _ (succAt_mem_all tailE R k)
  · omega

theorem v3_releaseLevels_spec {h : List SkipListNode} {start : Nat} {P R : List Entry}
    (hs : SplitR h start P R) {fuel : Nat} (hf : P.length < fuel) :
    ∀ (k : Nat) (pred : Entry) (out : List Nat), k ≤ MAX_LEVEL →
      pred ∈ headE :: atLevel k P →
      ∃ out1, releaseLevels h start fuel (k + 1) pred.addr out = some out1 ∧
        out1.length = out.length ∧
        (∀ j, j ≤ k → j < out.length → out1[j]? = some (predAt headE P j).addr) ∧
        (∀ j, k < j → out1[j]? = out[j]?) := by
  intro k
  induction k with
  | zero =>
    intro pred out hk hp
    refine ⟨out.set 0 (predAt headE P 0).addr, ?_, by simp, ?_, ?_⟩
    · simp [releaseLevels, v3_releaseWalk_level hs hk hp hf]
    · intro j hj hlt
      have : j = 0 := by omega
      subst this
      simp [List.getElem?_set, hlt]
    · intro j hj
      rw [List.getElem?_set]
      have : ¬ (0 = j) := by omega
      simp [this]
  | succ k ih =>
    intro pred out hk hp
    have hmem := predAt_mem_lower headE P (Nat.le_succ k)
    obtain ⟨out1, h1, h2, h3, h4⟩ := ih (predAt headE P (k + 1))
      (out.set (k + 1) (predAt headE P (k + 1)).addr) (by omega) hmem
    refine ⟨out1, ?_, by simpa using h2, ?_, ?_⟩
    · rw [releaseLevels, v3_releaseWalk_level hs hk hp hf]
      exact h1
    · intro j hj hlt
      by_cases hjk : j ≤ k
      · exact h3 j hjk (by simpa using hlt)
      · have : j = k + 1 := by omega
        subst this
        rw [h4 _ (Nat.lt_succ_self k), List.getElem?_set]
        simp [hlt]
    · intro j hj
      rw [h4 j (by omega), List.getElem?_set]
      have : ¬ (k + 1 = j) := by omega
      simp [this]

theorem v3_releaseUnlink_spec (preds : List Nat) (v : Entry) (pr sc : Nat → Entry)
    (hvl : v.level ≤ MAX_LEVEL) :
    ∀ (n k : Nat) (h : List SkipListNode), k + n = MAX_LEVEL + 1 →
      (∀ j, k ≤ j → j ≤ MAX_LEVEL → preds[j]? = some (pr j).addr) →
      (∀ j, k ≤ j → j ≤ v.level →
        getForward h (pr j).addr j = some v.addr ∧ getForward h v.addr j = some (sc j).addr) →
      (∀ j, j ≤ v.level → Agree h (pr j) ∧ j ≤ (pr j).level ∧ (pr j).addr ≠ v.addr) →
      (∀ j, v.level < j → j ≤ MAX_LEVEL →
        ∃ x, getForward h (pr j).addr j = some x ∧ x ≠ v.addr) →
      ∃ h1, releaseUnlink preds v.addr n k h = some h1 ∧ h1.length = h.length ∧
        (∀ e, Agree h1 e ↔ Agree h e) ∧
        ∀ a j, getForward h1 a j =
          if k ≤ j ∧ j ≤ v.level ∧ a = (pr j).addr then some (sc j).addr
          else getForward h a j := by
  intro n
  induction n with
  | zero =>
    intro k h hk _ _ _ _
    refine ⟨h, rfl, rfl, fun _ => Iff.rfl, ?_⟩
    intro a j
    have h1 : ¬ (k ≤ j ∧ j ≤ v.level ∧ a = (pr j).addr) := by omega
    rw [if_neg h1]
  | succ n ih =>
    intro k h hk hpreds hfw hpred habove
    have hkM : k ≤ MAX_LEVEL := by omega
    by_cases hkl : k ≤ v.level
    · obtain ⟨hf1, hf2⟩ := hfw k (Nat.le_refl _) hkl
      have hpk := hpred k hkl
      obtain ⟨h1, hs1⟩ := v3_setForward_of_Agree hpk.1 hpk.2.1 (sc k).addr
      have hg1 : ∀ a j, getForward h1 a j =
          if a = (pr k).addr ∧ j = k then some (sc k).addr else getForward h a j :=
        fun a j => v3_getForward_setForward hs1 a j
      obtain ⟨h2, hr, hlen, hA2, hg2⟩ := ih (k + 1) h1 (by omega)
        (fun j hj hjl => hpreds j (by omega) hjl)
        (fun j hj hjl => by
          rw [hg1, hg1]
          have e1 : ¬ ((pr j).addr = (pr k).addr ∧ j = k) := by omega
          have e2 : ¬ (v.addr = (pr k).addr ∧ j = k) := by omega
          rw [if_neg e1, if_neg e2]
          exact hfw j (by omega) hjl)
        (fun j hj => ⟨(v3_Agree_setForward hs1 _).mpr (hpred j hj).1, (hpred j hj).2⟩)
        (fun j hj hjl => by
          rw [hg1]
          have e1 : ¬ ((pr j).addr = (pr k).addr ∧ j = k) := by omega
          rw [if_neg e1]
          exact habove j hj hjl)
      refine ⟨h2, ?_, ?_, fun e => (hA2 e).trans (v3_Agree_setForward hs1 e), ?_⟩
      · simp only [releaseUnlink, hpreds k (Nat.le_refl _) hkM, hf1, if_true, hf2, hs1]
        exact hr
      · rw [hlen, v3_length_setForward hs1]
      · intro a j
        rw [hg2, hg1]
        by_cases hjk : j = k
        · subst hjk
          have e1 : ¬ (j + 1 ≤ j ∧ j ≤ v.level ∧ a = (pr j).addr) := by omega
          rw [if_neg e1]
          by_cases hb : a = (pr j).addr
          · simp [hb, hkl]
          · simp [hb]
        · have e1 : ¬ (a = (pr k).addr ∧ j = k) := fun h => hjk h.2
          rw [if_neg e1]
          by_cases hle : k ≤ j
          · have e3 : k + 1 ≤ j := by omega
            simp [hle, e3]
          · have e3 : ¬ (k + 1 ≤ j) := by omega
            simp [hle, e3]
    · obtain ⟨x, hx, hxne⟩ := habove k (by omega) hkM
      refine ⟨h, ?_, rfl, fun _ => Iff.rfl, ?_⟩
      · simp only [releaseUnlink, hpreds k (Nat.le_refl _) hkM, hx, hxne, if_false]
      · intro a j
        have h1 : ¬ (k ≤ j ∧ j ≤ v.level ∧ a = (pr j).addr) := by omega
        rw [if_neg h1]

end V3

namespace V3

theorem Inv.v3_splitR {s : SongRangeLock} {P R : List Entry} {v : Entry}
    (hI : Inv s (P ++ v :: R)) : SplitR s.nodes v.start P (v :: R) := by
  have hsorted := hI.sorted
  have e2 : headE :: (P ++ v :: R) ++ [tailE] = (headE :: P) ++ v :: (R ++ [tailE]) := by simp
  rw [e2, List.pairwise_append] at hsorted
  refine ⟨hI.agree, hI.links, ?_, ?_⟩
  · intro e he
    have h1 := hsorted.2.2 e (List.mem_cons_of_mem _ he) v (List.mem_cons_self _ _)
    have h2 := hI.dom e (by simp [he])
    omega
  · intro e he
    have : e = v ∨ e ∈ R ++ [tailE] := by
      simp only [List.mem_cons, List.mem_append, List.mem_singleton] at he ⊢; tauto
    rcases this with rfl | h
    · omega
    · have h1 := (List.pairwise_cons.mp hsorted.2.1).1 e h
      have h2 := hI.dom v (by simp)
      omega

theorem v3_releaseLock_held {s : SongRangeLock} {P R : List Entry} {v : Entry}
    (hI : Inv s (P ++ v :: R)) :
    ∃ s1, releaseLock s v.start = some s1 ∧ Inv s1 (P ++ R) := by
  have hs := hI.v3_splitR
  have hlen := hI.v3_heap_length
  have hP : P.length < s.nodes.length := by
    simp at hlen; omega
  have hvdom := hI.dom v (by simp)
  obtain ⟨preds, hrl, -, hpreds, -⟩ := v3_releaseLevels_spec hs hP MAX_LEVEL headE
    (List.replicate (MAX_LEVEL + 1) 0) (Nat.le_refl _) (List.mem_cons_self _ _)
  have hpreds' : ∀ j, j ≤ MAX_LEVEL → preds[j]? = some (predAt headE P j).addr :=
    fun j hj => hpreds j hj (by simp; omega)
  have holdmem : ∀ e, e ∈ headE :: P → e ∈ headE :: (P ++ v :: R) ++ [tailE] := by
    intro e he
    simp only [List.mem_cons, List.mem_append, List.mem_singleton] at he ⊢; tauto
  have hvmem : v ∈ headE :: (P ++ v :: R) ++ [tailE] := by simp
  have hRmem : ∀ e, e ∈ R ++ [tailE] → e ∈ headE :: (P ++ v :: R) ++ [tailE] := by
    intro e he
    simp only [List.mem_cons, List.mem_append, List.mem_singleton] at he ⊢; tauto
  have hnd2 : (headE :: (P ++ v :: R) ++ [tailE]).Nodup := List.Nodup.of_map _ hI.nodup
  have hprne : ∀ j, (predAt headE P j).addr ≠ v.addr := by
    intro j h
    have heq := entry_eq_of_addr_eq hI.nodup (holdmem _ (predAt_mem_all headE P j)) hvmem h
    have e2 : headE :: (P ++ v :: R) ++ [tailE] = (headE :: P) ++ (v :: R ++ [tailE]) := by simp
    rw [e2, List.nodup_append] at hnd2
    exact hnd2.2.2 (predAt_mem_all headE P j) (heq ▸ List.mem_cons_self _ _)
  have hscne : ∀ j, (succAt tailE R j).addr ≠ v.addr := by
    intro j h
    have hm := succAt_mem_all tailE R j
    have heq := entry_eq_of_addr_eq hI.nodup (hRmem _ hm) hvmem h
    have e2 : headE :: (P ++ v :: R) ++ [tailE] = (headE :: P) ++ (v :: (R ++ [tailE])) := by simp
    rw [e2, List.nodup_append] at hnd2
    have := (List.nodup_cons.mp hnd2.2.1).1
    exact this (heq ▸ hm)
  have hlink1 : ∀ j, j ≤ MAX_LEVEL → j ≤ v.level →
      getForward s.nodes (predAt headE P j).addr j = some v.addr := by
    intro j hj hjl
    have := link_pred_succ (hs.links j hj)
    rwa [succAt_cons_of_le tailE R hjl] at this
  have hlink2 : ∀ j, j ≤ MAX_LEVEL → j ≤ v.level →
      getForward s.nodes v.addr j = some (succAt tailE R j).addr := by
    intro j hj hjl
    have hc := hI.links j hj
    have e : P ++ v :: R = (P ++ [v]) ++ R := by simp
    rw [e] at hc
    have := link_pred_succ hc
    rwa [predAt_append_singleton headE P hjl] at this
  obtain ⟨h1, hrun, hlen1, hA1, hg1⟩ := v3_releaseUnlink_spec preds v (predAt headE P)
    (succAt tailE R) hvdom.2.2.2 (MAX_LEVEL + 1) 0 s.nodes (by omega)
    (fun j _ hj => hpreds' j hj)
    (fun j _ hj => ⟨hlink1 j (by omega) hj, hlink2 j (by omega) hj⟩)
    (fun j hj => ⟨hI.agree _ (holdmem _ (predAt_mem_all headE P j)),
      predAt_level P (by simp only [headE]; omega), hprne j⟩)
    (fun j hj hjl => by
      have := link_pred_succ (hs.links j hjl)
      rw [succAt_cons_of_lt tailE R hj] at this
      exact ⟨_, this, hscne j⟩)
  refine ⟨⟨h1, s.head_, s.tail_, fetchSub1 s.elementsCount⟩, ?_, ?_⟩
  · unfold releaseLock
    rw [hI.head_eq, hrl]
    simp only [hpreds' 0 (Nat.zero_le _)]
    rw [hlink1 0 (Nat.zero_le _) (Nat.zero_le _)]
    simp only [hrun]
  · have hsub := remove_sublist headE tailE v P R
    refine ⟨hI.head_eq, hI.tail_eq, ?_, ?_, ?_, ?_, ?_, ?_⟩
    · intro e he
      exact (hA1 e).mpr (hI.agree e (hsub.subset he))
    · intro e he
      apply hI.dom e
      simp only [List.mem_append, List.mem_cons] at he ⊢; tauto
    · exact hI.sorted.sublist hsub
    · exact List.Nodup.sublist (hsub.map _) hI.nodup
    · intro k hk
      by_cases hkl : k ≤ v.level
      · apply chain_remove_at (F := Link s.nodes k) hI.nodup (hI.links k hk) hkl
        · intro a b _ hne hab
          unfold Link at hab ⊢
          rw [hg1]
          have e1 : ¬ (0 ≤ k ∧ k ≤ v.level ∧ a.addr = (predAt headE P k).addr) := fun h =>
            hne h.2.2
          rw [if_neg e1]
          exact hab
        · unfold Link
          rw [hg1, if_pos ⟨Nat.zero_le _, hkl, rfl⟩]
      · apply chain_remove_above (F := Link s.nodes k) (hI.links k hk) (by omega)
        intro a b _ hab
        unfold Link at hab ⊢
        rw [hg1]
        have e1 : ¬ (0 ≤ k ∧ k ≤ v.level ∧ a.addr = (predAt headE P k).addr) := fun h =>
          hkl h.2.1
        rw [if_neg e1]
        exact hab
    · have hl := hI.v3_length_lt
      have hc := hI.count
      simp only [List.length_append, List.length_cons] at hl hc ⊢
      rw [hc, fetchSub1_eq (by omega)]
      · simp
      · simp only [MAX_VALUE, UINT64_MAX] at hl
        omega

end V3

namespace V3

/-! ## V3: the held intervals and the reachable states -/

theorem v3_chainAfter_spec (h : List SkipListNode) (stop k : Nat) :
    ∀ (Y : List Entry) (p t : Entry) (fuel : Nat),
      List.Chain' (Link h k) (p :: Y ++ [t]) → t.addr = stop →
      (∀ e ∈ Y, e.addr ≠ stop ∧ e.addr ≠ 0) → Y.length < fuel →
      chainAfter h stop k fuel p.addr = Y.map Entry.addr := by
  intro Y
  induction Y with
  | nil =>
    intro p t fuel hc ht _ hf
    obtain ⟨f, rfl⟩ : ∃ f, fuel = f + 1 := ⟨fuel - 1, by simp at hf; omega⟩
    have hl : getForward h p.addr k = some t.addr := (List.chain'_cons.mp hc).1
    simp [chainAfter, hl, ht]
  | cons y Y ih =>
    intro p t fuel hc ht hY hf
    obtain ⟨f, rfl⟩ : ∃ f, fuel = f + 1 := ⟨fuel - 1, by simp at hf; omega⟩
    have hc' : List.Chain' (Link h k) (p :: y :: (Y ++ [t])) := hc
    rw [List.chain'_cons] at hc'
    have hl : getForward h p.addr k = some y.addr := hc'.1
    have hy := hY y (List.mem_cons_self _ _)
    have := ih y t f hc'.2 ht (fun e he => hY e (List.mem_cons_of_mem _ he))
      (by simp at hf; omega)
    simp [chainAfter, hl, hy.1, hy.2, this]

theorem Inv.v3_addr_ne {s : SongRangeLock} {L : List Entry} (hI : Inv s L) {e : Entry}
    (he : e ∈ L) : e.addr ≠ s.tail_ ∧ e.addr ≠ 0 := by
  constructor
  · intro h
    rw [hI.tail_eq] at h
    have hnd := hI.nodup
    have e1 : headE :: L ++ [tailE] = (headE :: L) ++ [tailE] := by simp
    rw [e1, List.map_append, List.nodup_append] at hnd
    exact hnd.2.2 (List.mem_map.mpr ⟨e, List.mem_cons_of_mem _ he, rfl⟩)
      (by simp [h])
  · obtain ⟨n, hn, -⟩ := hI.v3_agree_mem he
    exact deref_ne_zero hn

theorem Inv.v3_levelNodes_eq {s : SongRangeLock} {L : List Entry} (hI : Inv s L) {k : Nat}
    (hk : k ≤ MAX_LEVEL) : levelNodes s k = (atLevel k L).map Entry.addr := by
  unfold levelNodes
  rw [hI.head_eq]
  apply v3_chainAfter_spec s.nodes s.tail_ k (atLevel k L) headE tailE _ (hI.links k hk)
    hI.tail_eq.symm
  · intro e he
    exact hI.v3_addr_ne (mem_atLevel.mp he).1
  · have := hI.v3_heap_length
    have := (atLevel_sublist k L).length_le
    omega

theorem Inv.v3_held_eq {s : SongRangeLock} {L : List Entry} (hI : Inv s L) :
    held s = L.map fun e => (e.start, e.end_) := by
  unfold held
  rw [hI.v3_levelNodes_eq (Nat.zero_le _), atLevel_zero, List.filterMap_map]
  have : ∀ (M : List Entry), (∀ e ∈ M, Agree s.nodes e) →
      List.filterMap ((fun p => Option.map (fun n => (n.start, n.end_)) (deref s.nodes p)) ∘
        Entry.addr) M = M.map fun e => (e.start, e.end_) := by
    intro M
    induction M with
    | nil => intro _; rfl
    | cons a M ih =>
      intro hM
      obtain ⟨n, hn, h1, h2, -⟩ := hM a (List.mem_cons_self _ _)
      rw [List.filterMap_cons, List.map_cons]
      simp only [Function.comp, hn, Option.map_some', h1, h2]
      rw [← ih (fun e he => hM e (List.mem_cons_of_mem _ he))]
  exact this L (fun e he => hI.v3_agree_mem he)

theorem Inv.v3_fresh : Inv SongRangeLock.new [] := by
  refine ⟨rfl, rfl, ?_, ?_, ?_, ?_, ?_, rfl⟩
  · intro e he
    have he' : e = headE ∨ e = tailE := by simpa using he
    rcases he' with rfl | rfl
    · exact ⟨_, rfl, rfl, rfl, rfl, rfl⟩
    · exact ⟨_, rfl, rfl, rfl, rfl, rfl⟩
  · intro e he; cases he
  · simp [headE, tailE, MAX_VALUE, UINT64_MAX]
  · simp [headE, tailE, addrOf]
  · intro k hk
    show List.Chain' _ [headE, tailE]
    simp only [List.chain'_cons, List.chain'_singleton, and_true]
    unfold MAX_LEVEL at hk
    unfold Link
    interval_cases k <;> rfl

/-- The functional behaviour of `tryLock` on a well-formed list: it refuses exactly when
some held interval `[s, e]`, ends included, meets `[start, end_]`. -/
theorem v3_tryLock_spec {s : SongRangeLock} {L : List Entry} (hI : Inv s L)
    {start end_ : Nat} (h1 : 1 ≤ start) (h2 : start < end_) (h3 : end_ ≤ MAX_VALUE - 1)
    (rand : Nat → Nat) :
    ((∃ e ∈ L, ¬ e.end_ < start ∧ ¬ end_ < e.start) ∧
        tryLock s start end_ rand = some (false, s)) ∨
    ((∀ e ∈ L, e.end_ < start ∨ end_ < e.start) ∧
      ∃ s1 P R, L = P ++ R ∧ tryLock s start end_ rand = some (true, s1) ∧
        Inv s1 (P ++ ⟨addrOf s.nodes.length, start, end_, randomLevel rand MAX_LEVEL⟩ :: R)) := by
  have hM : start ≤ MAX_VALUE := by omega
  have hs := hI.v3_split hM
  have hPR := (List.takeWhile_append_dropWhile (fun e => decide (e.end_ < start)) L).symm
  generalize List.takeWhile (fun e => decide (e.end_ < start)) L = P at hs hPR
  generalize List.dropWhile (fun e => decide (e.end_ < start)) L = R at hs hPR
  by_cases hgap : end_ < (succAt tailE R 0).start
  · right
    refine ⟨?_, ?_⟩
    · intro e he
      rw [hPR] at he
      rcases List.mem_append.mp he with h | h
      · exact Or.inl (hs.before e h)
      · right
        cases R with
        | nil => cases h
        | cons r R' =>
          rw [succAt_zero_cons] at hgap
          rcases List.mem_cons.mp h with h | h
          · rw [h]; exact hgap
          · have hsorted := hI.sorted
            rw [hPR] at hsorted
            have e2 : headE :: (P ++ r :: R') ++ [tailE] =
                (headE :: P) ++ r :: (R' ++ [tailE]) := by simp
            rw [e2, List.pairwise_append] at hsorted
            have h5 := (List.pairwise_cons.mp hsorted.2.1).1 e (List.mem_append_left _ h)
            have h6 := hI.dom r (by rw [hPR]; simp)
            omega
    · obtain ⟨s1, hr, hI1⟩ := v3_tryLock_insert hI h1 h2 h3 hPR hs hgap rand
      exact ⟨s1, P, R, hPR, hr, hI1⟩
  · left
    refine ⟨?_, v3_tryLock_overlap hI h1 hPR hs (by omega) rand⟩
    cases R with
    | nil =>
      rw [succAt_nil] at hgap
      simp only [tailE, MAX_VALUE] at hgap h3
      omega
    | cons r R' =>
      rw [succAt_zero_cons] at hgap
      refine ⟨r, by rw [hPR]; simp, ?_, hgap⟩
      exact hs.after r (by simp)

theorem Reachable.v3_inv {s : SongRangeLock} (hR : Reachable s) : ∃ L, Inv s L := by
  induction hR with
  | fresh => exact ⟨[], Inv.v3_fresh⟩
  | tryLock _ h1 h2 h3 hrun ih =>
    obtain ⟨L, hI⟩ := ih
    rcases v3_tryLock_spec hI h1 h2 h3 _ with ⟨-, hr⟩ | ⟨-, s2, P, R, -, hr, hI2⟩
    · rw [hr] at hrun
      cases hrun
      exact ⟨L, hI⟩
    · rw [hr] at hrun
      cases hrun
      exact ⟨_, hI2⟩
  | releaseLock _ hmem hrun ih =>
    obtain ⟨L, hI⟩ := ih
    rw [hI.v3_held_eq, List.map_map] at hmem
    obtain ⟨v, hv, hvs⟩ := List.mem_map.mp hmem
    obtain ⟨P, R, rfl⟩ := List.append_of_mem hv
    obtain ⟨s2, hr, hI2⟩ := v3_releaseLock_held hI
    simp only [Function.comp] at hvs
    rw [← hvs, hr] at hrun
    cases hrun
    exact ⟨_, hI2⟩

end V3

namespace V1

/-! ## V1: the effect of the primitive writes on what can be observed -/

theorem v1_setNext_some {h h1 : List Node_V1} {p k q : Nat}
    (hs : setNext h p k q = some h1) :
    ∃ n, deref h p = some n ∧ k < n.next.length ∧
      h1 = store h p { n with next := n.next.set k q } := by
  unfold setNext at hs
  split at hs
  · cases hs
  · rename_i n hn
    split at hs
    · rename_i hk
      exact ⟨n, hn, hk, (Option.some.inj hs).symm⟩
    · cases hs

theorem v1_deref_setNext {h h1 : List Node_V1} {p k q : Nat}
    (hs : setNext h p k q = some h1) (a : Nat) :
    deref h1 a = if a = p then (deref h p).map fun n => { n with next := n.next.set k q }
      else deref h a := by
  obtain ⟨n, hn, _, rfl⟩ := v1_setNext_some hs
  rw [deref_store]
  split
  · simp [hn]
  · rfl

theorem v1_getNext_setNext {h h1 : List Node_V1} {p k q : Nat}
    (hs : setNext h p k q = some h1) (a j : Nat) :
    getNext h1 a j = if a = p ∧ j = k then some q else getNext h a j := by
  obtain ⟨n, hn, hk, _⟩ := v1_setNext_some hs
  unfold getNext
  rw [v1_deref_setNext hs]
  by_cases ha : a = p
  · subst ha
    simp only [hn, if_true, Option.map_some', true_and, List.getElem?_set]
    by_cases hj : j = k
    · subst hj; simp [hk]
    · have : ¬ k = j := fun h => hj h.symm
      simp [hj, this]
  · simp [ha]

theorem v1_viewOf_setNext {h h1 : List Node_V1} {p k q : Nat}
    (hs : setNext h p k q = some h1) (a : Nat) : viewOf h1 a = viewOf h a := by
  unfold viewOf
  rw [v1_deref_setNext hs]
  by_cases ha : a = p
  · subst ha
    rw [if_pos rfl]
    cases deref h a <;> simp
  · rw [if_neg ha]

theorem v1_lockOf_setNext {h h1 : List Node_V1} {p k q : Nat}
    (hs : setNext h p k q = some h1) (a : Nat) : lockOf h1 a = lockOf h a := by
  unfold lockOf
  rw [v1_deref_setNext hs]
  by_cases ha : a = p
  · subst ha
    rw [if_pos rfl]
    cases deref h a <;> simp
  · rw [if_neg ha]

theorem v1_setNext_of_Shape {h : List Node_V1} {e : Entry} (hA : Shape h e)
    {k : Nat} (hk : k ≤ e.level) (q : Nat) : ∃ h1, setNext h e.addr k q = some h1 := by
  unfold Shape viewOf at hA
  cases hd : deref h e.addr with
  | none => rw [hd] at hA; cases hA
  | some n =>
    rw [hd] at hA
    simp only [Option.map_some', Option.some.injEq, Prod.mk.injEq] at hA
    unfold setNext
    rw [hd]
    simp only
    rw [if_pos (by omega)]
    exact ⟨_, rfl⟩

theorem v1_Shape_deref {h : List Node_V1} {e : Entry} (hA : Shape h e) :
    ∃ n, deref h e.addr = some n ∧ n.start = e.start ∧ n.end_ = e.end_ ∧
      n.topLevel = e.level ∧ n.next.length = e.level + 1 ∧ n.marked = false := by
  unfold Shape viewOf at hA
  cases hd : deref h e.addr with
  | none => rw [hd] at hA; cases hA
  | some n =>
    rw [hd] at hA
    simp only [Option.map_some', Option.some.injEq, Prod.mk.injEq] at hA
    exact ⟨n, rfl, hA.1, hA.2.1, hA.2.2.1, hA.2.2.2.1, hA.2.2.2.2⟩

theorem v1_lockNode_some {h h1 : List Node_V1} {p : Nat} (hs : lockNode h p = some h1) :
    ∃ n, deref h p = some n ∧ n.locked = false ∧ h1 = store h p { n with locked := true } := by
  unfold lockNode at hs
  split at hs
  · cases hs
  · rename_i n hn
    split at hs
    · cases hs
    · rename_i hl
      exact ⟨n, hn, by simpa using hl, (Option.some.inj hs).symm⟩

theorem v1_lockNode_of_unlocked {h : List Node_V1} {p : Nat} (hl : lockOf h p = some false) :
    ∃ h1, lockNode h p = some h1 := by
  unfold lockOf at hl
  cases hd : deref h p with
  | none => rw [hd] at hl; cases hl
  | some n =>
    rw [hd] at hl
    simp only [Option.map_some', Option.some.injEq] at hl
    unfold lockNode
    rw [hd]
    simp [hl]

theorem v1_deref_lockNode {h h1 : List Node_V1} {p : Nat} (hs : lockNode h p = some h1)
    (a : Nat) :
    deref h1 a = if a = p then (deref h p).map fun n => { n with locked := true }
      else deref h a := by
  obtain ⟨n, hn, _, rfl⟩ := v1_lockNode_some hs
  rw [deref_store]
  split
  · simp [hn]
  · rfl

theorem v1_getNext_lockNode {h h1 : List Node_V1} {p : Nat} (hs : lockNode h p = some h1)
    (a j : Nat) : getNext h1 a j = getNext h a j := by
  unfold getNext
  rw [v1_deref_lockNode hs]
  by_cases ha : a = p
  · subst ha
    rw [if_pos rfl]
    cases deref h a <;> simp
  · rw [if_neg ha]

theorem v1_viewOf_lockNode {h h1 : List Node_V1} {p : Nat} (hs : lockNode h p = some h1)
    (a : Nat) : viewOf h1 a = viewOf h a := by
  unfold viewOf
  rw [v1_deref_lockNode hs]
  by_cases ha : a = p
  · subst ha
    rw [if_pos rfl]
    cases deref h a <;> simp
  · rw [if_neg ha]

theorem v1_lockOf_lockNode {h h1 : List Node_V1} {p : Nat} (hs : lockNode h p = some h1)
    (a : Nat) : lockOf h1 a = if a = p then some true else lockOf h a := by
  obtain ⟨n, hn, _, _⟩ := v1_lockNode_some hs
  unfold lockOf
  rw [v1_deref_lockNode hs]
  split
  · simp [hn]
  · rfl

theorem v1_unlockNode_some {h : List Node_V1} {p : Nat} (hd : (deref h p).isSome) :
    ∃ h1, unlockNode h p = some h1 := by
  obtain ⟨n, hn⟩ := Option.isSome_iff_exists.mp hd
  unfold unlockNode
  rw [hn]
  exact ⟨_, rfl⟩

theorem v1_deref_unlockNode {h h1 : List Node_V1} {p : Nat} (hs : unlockNode h p = some h1)
    (a : Nat) :
    deref h1 a = if a = p then (deref h p).map fun n => { n with locked := false }
      else deref h a := by
  unfold unlockNode at hs
  split at hs
  · cases hs
  · rename_i n hn
    cases hs
    rw [deref_store]
    split
    · simp [hn]
    · rfl

theorem v1_getNext_unlockNode {h h1 : List Node_V1} {p : Nat} (hs : unlockNode h p = some h1)
    (a j : Nat) : getNext h1 a j = getNext h a j := by
  unfold getNext
  rw [v1_deref_unlockNode hs]
  by_cases ha : a = p
  · subst ha
    rw [if_pos rfl]
    cases deref h a <;> simp
  · rw [if_neg ha]

theorem v1_viewOf_unlockNode {h h1 : List Node_V1} {p : Nat} (hs : unlockNode h p = some h1)
    (a : Nat) : viewOf h1 a = viewOf h a := by
  unfold viewOf
  rw [v1_deref_unlockNode hs]
  by_cases ha : a = p
  · subst ha
    rw [if_pos rfl]
    cases deref h a <;> simp
  · rw [if_neg ha]

theorem v1_lockOf_unlockNode {h h1 : List Node_V1} {p : Nat} (hs : unlockNode h p = some h1)
    (a : Nat) : lockOf h1 a = if a = p then (lockOf h a).map fun _ => false else lockOf h a := by
  unfold lockOf
  rw [v1_deref_unlockNode hs]
  by_cases ha : a = p
  · subst ha
    rw [if_pos rfl]
    cases deref h a <;> simp
  · rw [if_neg ha, if_neg ha]

theorem v1_deref_setFullyLinked {h h1 : List Node_V1} {p : Nat}
    (hs : setFullyLinked h p = some h1) (a : Nat) :
    deref h1 a = if a = p then (deref h p).map fun n => { n with fullyLinked := true }
      else deref h a := by
  unfold setFullyLinked at hs
  split at hs
  · cases hs
  · rename_i n hn
    cases hs
    rw [deref_store]
    split
    · simp [hn]
    · rfl

theorem v1_getNext_setFullyLinked {h h1 : List Node_V1} {p : Nat}
    (hs : setFullyLinked h p = some h1) (a j : Nat) : getNext h1 a j = getNext h a j := by
  unfold getNext
  rw [v1_deref_setFullyLinked hs]
  by_cases ha : a = p
  · subst ha
    rw [if_pos rfl]
    cases deref h a <;> simp
  · rw [if_neg ha]

theorem v1_viewOf_setFullyLinked {h h1 : List Node_V1} {p : Nat}
    (hs : setFullyLinked h p = some h1) (a : Nat) : viewOf h1 a = viewOf h a := by
  unfold viewOf
  rw [v1_deref_setFullyLinked hs]
  by_cases ha : a = p
  · subst ha
    rw [if_pos rfl]
    cases deref h a <;> simp
  · rw [if_neg ha]

theorem v1_lockOf_setFullyLinked {h h1 : List Node_V1} {p : Nat}
    (hs : setFullyLinked h p = some h1) (a : Nat) : lockOf h1 a = lockOf h a := by
  unfold lockOf
  rw [v1_deref_setFullyLinked hs]
  by_cases ha : a = p
  · subst ha
    rw [if_pos rfl]
    cases deref h a <;> simp
  · rw [if_neg ha]

theorem v1_deref_setMarked {h h1 : List Node_V1} {p : Nat}
    (hs : setMarked h p = some h1) (a : Nat) :
    deref h1 a = if a = p then (deref h p).map fun n => { n with marked := true }
      else deref h a := by
  unfold setMarked at hs
  split at hs
  · cases hs
  · rename_i n hn
    cases hs
    rw [deref_store]
    split
    · simp [hn]
    · rfl

theorem v1_getNext_setMarked {h h1 : List Node_V1} {p : Nat}
    (hs : setMarked h p = some h1) (a j : Nat) : getNext h1 a j = getNext h a j := by
  unfold getNext
  rw [v1_deref_setMarked hs]
  by_cases ha : a = p
  · subst ha
    rw [if_pos rfl]
    cases deref h a <;> simp
  · rw [if_neg ha]

theorem v1_viewOf_setMarked {h h1 : List Node_V1} {p : Nat}
    (hs : setMarked h p = some h1) {a : Nat} (ha : a ≠ p) : viewOf h1 a = viewOf h a := by
  unfold viewOf
  rw [v1_deref_setMarked hs, if_neg ha]

theorem v1_lockOf_setMarked {h h1 : List Node_V1} {p : Nat}
    (hs : setMarked h p = some h1) (a : Nat) : lockOf h1 a = lockOf h a := by
  unfold lockOf
  rw [v1_deref_setMarked hs]
  by_cases ha : a = p
  · subst ha
    rw [if_pos rfl]
    cases deref h a <;> simp
  · rw [if_neg ha]

theorem v1_viewOf_lt {h : List Node_V1} {a : Nat} {v : Nat × Nat × Nat × Nat × Bool}
    (hv : viewOf h a = some v) : a < addrOf h.length := by
  unfold viewOf at hv
  cases hd : deref h a with
  | none => rw [hd] at hv; cases hv
  | some n => exact deref_lt hd

theorem v1_viewOf_alloc_old {h : List Node_V1} (n : Node_V1) {a : Nat}
    (ha : a < addrOf h.length) : viewOf (alloc h n).1 a = viewOf h a := by
  unfold viewOf
  rw [deref_alloc, if_neg (by omega)]

theorem v1_lockOf_alloc_old {h : List Node_V1} (n : Node_V1) {a : Nat}
    (ha : a < addrOf h.length) : lockOf (alloc h n).1 a = lockOf h a := by
  unfold lockOf
  rw [deref_alloc, if_neg (by omega)]

theorem v1_getNext_alloc_old {h : List Node_V1} (n : Node_V1) {a : Nat}
    (ha : a < addrOf h.length) (k : Nat) : getNext (alloc h n).1 a k = getNext h a k := by
  unfold getNext
  rw [deref_alloc, if_neg (by omega)]

end V1

namespace V1

/-! ## V1: the searches `findInsert` and `findExact` -/

theorem v1_findWalk_spec (h : List Node_V1) (k start : Nat) :
    ∀ (Y : List Entry) (p c : Entry) (Z : List Entry) (fuel : Nat),
      List.Chain' (Link h k) (p :: Y ++ c :: Z) →
      (∀ e ∈ Y, Shape h e ∧ e.end_ ≤ start) → Shape h c → ¬ c.end_ ≤ start →
      Y.length < fuel →
      ∃ curr, getNext h p.addr k = some curr ∧
        findWalk h k start fuel p.addr curr = some ((Y.getLastD p).addr, c.addr) := by
  intro Y
  induction Y with
  | nil =>
    intro p c Z fuel hc _ hAc hnc hf
    obtain ⟨f, rfl⟩ : ∃ f, fuel = f + 1 := ⟨fuel - 1, by simp at hf; omega⟩
    have hl : getNext h p.addr k = some c.addr := (List.chain'_cons.mp hc).1
    obtain ⟨n, hn, -, hne, -⟩ := v1_Shape_deref hAc
    refine ⟨c.addr, hl, ?_⟩
    have : ¬ start ≥ n.end_ := by rw [hne]; exact hnc
    simp [findWalk, hn, this]
  | cons y Y ih =>
    intro p c Z fuel hc hY hAc hnc hf
    obtain ⟨f, rfl⟩ : ∃ f, fuel = f + 1 := ⟨fuel - 1, by simp at hf; omega⟩
    have hc' : List.Chain' (Link h k) (p :: y :: (Y ++ c :: Z)) := hc
    rw [List.chain'_cons] at hc'
    obtain ⟨hys, hlt⟩ := hY y (List.mem_cons_self _ _)
    obtain ⟨n, hn, -, hne, -⟩ := v1_Shape_deref hys
    have hl : getNext h p.addr k = some y.addr := hc'.1
    obtain ⟨nx, hnx, hw⟩ := ih y c Z f hc'.2 (fun e he => hY e (List.mem_cons_of_mem _ he))
      hAc hnc (by simp at hf; omega)
    refine ⟨y.addr, hl, ?_⟩
    rw [List.getLastD_cons]
    have : start ≥ n.end_ := by rw [hne]; exact hlt
    simp [findWalk, hn, this, hnx, hw]

theorem v1_findWalk_level {h : List Node_V1} {maxLevel start : Nat} {P R : List Entry}
    (hs : Split h maxLevel start P R) {k : Nat} (hk : k ≤ maxLevel) {pred : Entry}
    (hp : pred ∈ headE maxLevel :: atLevel k P) {fuel : Nat} (hf : P.length < fuel) :
    ∃ curr, getNext h pred.addr k = some curr ∧
      findWalk h k start fuel pred.addr curr =
        some ((predAt (headE maxLevel) P k).addr, (succAt (tailE maxLevel) R k).addr) := by
  obtain ⟨X, Y, Z, hxy, hlast, hY, hYl⟩ :=
    level_chain_split (headE maxLevel) (tailE maxLevel) P R k hp
  have hc := hs.links k hk
  rw [hxy] at hc
  have hc2 : List.Chain' (Link h k) (pred :: Y ++ succAt (tailE maxLevel) R k :: Z) :=
    (List.chain'_append.mp hc).2.1
  rw [← hlast]
  apply v1_findWalk_spec h k start Y pred _ Z fuel hc2
  · intro e he
    exact ⟨hs.shape e (by simp [hY e he]), hs.before e (hY e he)⟩
  · apply hs.shape
    have := succAt_mem_all (tailE maxLevel) R k
    simp only [List.mem_append, List.mem_cons, List.mem_singleton] at this ⊢
    tauto
  · exact hs.after _ (succAt_mem_all (tailE maxLevel) R k)
  · omega

theorem v1_Split_succ_shape {h : List Node_V1} {maxLevel start : Nat} {P R : List Entry}
    (hs : Split h maxLevel start P R) (k : Nat) : Shape h (succAt (tailE maxLevel) R k) := by
  apply hs.shape
  have := succAt_mem_all (tailE maxLevel) R k
  simp only [List.mem_append, List.mem_cons, List.mem_singleton] at this ⊢
  tauto

theorem v1_Split_pred_shape {h : List Node_V1} {maxLevel start : Nat} {P R : List Entry}
    (hs : Split h maxLevel start P R) (k : Nat) : Shape h (predAt (headE maxLevel) P k) := by
  apply hs.shape
  have := predAt_mem_all (headE maxLevel) P k
  simp only [List.mem_append, List.mem_cons, List.mem_singleton] at this ⊢
  tauto

theorem v1_findInsertLevels_spec {h : List Node_V1} {maxLevel start : Nat} {P R : List Entry}
    (hs : Split h maxLevel start P R) (end_ : Nat) {fuel : Nat} (hf : P.length < fuel) :
    ∀ (k : Nat) (pred : Entry) (lf : Int) (preds succs : List Nat), k ≤ maxLevel →
      pred ∈ headE maxLevel :: atLevel k P →
      ∃ preds1 succs1, findInsertLevels h start end_ fuel (k + 1) pred.addr lf preds succs =
          some (scanLevels (fun j => decide (end_ ≥ (succAt (tailE maxLevel) R j).start))
            (k + 1) lf, preds1, succs1) ∧
        Filled (headE maxLevel) (tailE maxLevel) P R k preds succs preds1 succs1 := by
  intro k
  induction k with
  | zero =>
    intro pred lf preds succs hk hp
    obtain ⟨curr, hc1, hc2⟩ := v1_findWalk_level hs hk hp hf
    obtain ⟨n, hn, hns, -⟩ := v1_Shape_deref (v1_Split_succ_shape hs 0)
    refine ⟨_, _, ?_, Filled_zero _ _ P R preds succs⟩
    simp [findInsertLevels, hc1, hc2, hn, hns, scanLevels]
  | succ k ih =>
    intro pred lf preds succs hk hp
    obtain ⟨curr, hc1, hc2⟩ := v1_findWalk_level hs hk hp hf
    obtain ⟨n, hn, hns, -⟩ := v1_Shape_deref (v1_Split_succ_shape hs (k + 1))
    have hmem := predAt_mem_lower (headE maxLevel) P (Nat.le_succ k)
    obtain ⟨preds1, succs1, hr, hF⟩ := ih (predAt (headE maxLevel) P (k + 1))
      (if lf = -1 ∧ end_ ≥ (succAt (tailE maxLevel) R (k + 1)).start then ((k + 1 : Nat) : Int)
        else lf)
      (preds.set (k + 1) (predAt (headE maxLevel) P (k + 1)).addr)
      (succs.set (k + 1) (succAt (tailE maxLevel) R (k + 1)).addr) (by omega) hmem
    refine ⟨preds1, succs1, ?_, Filled_step hF⟩
    rw [findInsertLevels]
    simp only [hc1, hc2, hn, hns]
    rw [hr]
    conv_rhs => rw [scanLevels]
    simp

theorem v1_findExactLevels_spec {h : List Node_V1} {maxLevel start : Nat} {P R : List Entry}
    (hs : Split h maxLevel start P R) (end_ : Nat) {fuel : Nat} (hf : P.length < fuel) :
    ∀ (k : Nat) (pred : Entry) (lf : Int) (preds succs : List Nat), k ≤ maxLevel →
      pred ∈ headE maxLevel :: atLevel k P →
      ∃ preds1 succs1, findExactLevels h start end_ fuel (k + 1) pred.addr lf preds succs =
          some (scanLevels (fun j => decide (start = (succAt (tailE maxLevel) R j).start ∧
            end_ = (succAt (tailE maxLevel) R j).end_)) (k + 1) lf, preds1, succs1) ∧
        Filled (headE maxLevel) (tailE maxLevel) P R k preds succs preds1 succs1 := by
  intro k
  induction k with
  | zero =>
    intro pred lf preds succs hk hp
    obtain ⟨curr, hc1, hc2⟩ := v1_findWalk_level hs hk hp hf
    obtain ⟨n, hn, hns, hne, -⟩ := v1_Shape_deref (v1_Split_succ_shape hs 0)
    refine ⟨_, _, ?_, Filled_zero _ _ P R preds succs⟩
    simp [findExactLevels, hc1, hc2, hn, hns, hne, scanLevels]
  | succ k ih =>
    intro pred lf preds succs hk hp
    obtain ⟨curr, hc1, hc2⟩ := v1_findWalk_level hs hk hp hf
    obtain ⟨n, hn, hns, hne, -⟩ := v1_Shape_deref (v1_Split_succ_shape hs (k + 1))
    have hmem := predAt_mem_lower (headE maxLevel) P (Nat.le_succ k)
    obtain ⟨preds1, succs1, hr, hF⟩ := ih (predAt (headE maxLevel) P (k + 1))
      (if lf = -1 ∧ start = (succAt (tailE maxLevel) R (k + 1)).start ∧
          end_ = (succAt (tailE maxLevel) R (k + 1)).end_ then ((k + 1 : Nat) : Int)
        else lf)
      (preds.set (k + 1) (predAt (headE maxLevel) P (k + 1)).addr)
      (succs.set (k + 1) (succAt (tailE maxLevel) R (k + 1)).addr) (by omega) hmem
    refine ⟨preds1, succs1, ?_, Filled_step hF⟩
    rw [findExactLevels]
    simp only [hc1, hc2, hn, hns, hne]
    rw [hr]
    conv_rhs => rw [scanLevels]
    simp

end V1

namespace V1

/-! ## V1: the locking, splicing and unlocking loops -/

theorem v1_viewOf_deref {h : List Node_V1} {a : Nat} {v : Nat × Nat × Nat × Nat × Bool}
    (hv : viewOf h a = some v) :
    ∃ n, deref h a = some n ∧ v = (n.start, n.end_, n.topLevel, n.next.length, n.marked) := by
  unfold viewOf at hv
  cases hd : deref h a with
  | none => rw [hd] at hv; cases hv
  | some n =>
    rw [hd] at hv
    exact ⟨n, rfl, (Option.some.inj hv).symm⟩

theorem v1_lockOf_isSome_of_viewOf {h : List Node_V1} {a : Nat}
    {v : Nat × Nat × Nat × Nat × Bool} (hv : viewOf h a = some v) :
    ∃ b, lockOf h a = some b := by
  obtain ⟨n, hn, -⟩ := v1_viewOf_deref hv
  exact ⟨n.locked, by unfold lockOf; rw [hn]; rfl⟩

theorem v1_trackAndLock_spec {h : List Node_V1} {tracked : List Nat} {p : Nat}
    (hl : p ∈ tracked ∨ lockOf h p = some false) :
    ∃ h1 tracked1, trackAndLock h tracked p = some (h1, tracked1) ∧
      (∀ a k, getNext h1 a k = getNext h a k) ∧ (∀ a, viewOf h1 a = viewOf h a) ∧
      (∀ a, a ∉ tracked1 → lockOf h1 a = lockOf h a) ∧
      (∀ a, a ∈ tracked1 ↔ a ∈ tracked ∨ a = p) := by
  unfold trackAndLock
  by_cases hp : p ∈ tracked
  · rw [if_pos hp]
    refine ⟨h, tracked, rfl, fun _ _ => rfl, fun _ => rfl, fun _ _ => rfl, ?_⟩
    intro a
    constructor
    · intro ha; exact Or.inl ha
    · rintro (ha | rfl)
      · exact ha
      · exact hp
  · rw [if_neg hp]
    have hl' : lockOf h p = some false := by
      rcases hl with h1 | h1
      · exact absurd h1 hp
      · exact h1
    obtain ⟨h1, hs⟩ := v1_lockNode_of_unlocked hl'
    rw [hs]
    refine ⟨h1, tracked ++ [p], rfl, v1_getNext_lockNode hs, v1_viewOf_lockNode hs, ?_, ?_⟩
    · intro a ha
      rw [v1_lockOf_lockNode hs, if_neg]
      intro hap
      apply ha
      simp [hap]
    · intro a
      simp

theorem v1_tryLockValidate_spec (preds succs : List Nat) (pr sc : Nat → Entry) (t : Nat) :
    ∀ (n level : Nat) (h : List Node_V1) (tracked : List Nat), level + n = t + 1 →
      (∀ j, level ≤ j → j ≤ t →
        preds[j]? = some (pr j).addr ∧ succs[j]? = some (sc j).addr) →
      (∀ j, j ≤ t → Shape h (pr j) ∧ Shape h (sc j) ∧
        getNext h (pr j).addr j = some (sc j).addr) →
      (∀ j, j ≤ t → (pr j).addr ∈ tracked ∨ lockOf h (pr j).addr = some false) →
      ∃ h1 tracked1, tryLockValidate preds succs n level true h tracked =
          some (true, h1, tracked1) ∧
        (∀ a k, getNext h1 a k = getNext h a k) ∧ (∀ a, viewOf h1 a = viewOf h a) ∧
        (∀ a, a ∉ tracked1 → lockOf h1 a = lockOf h a) ∧
        (∀ a, a ∈ tracked1 → a ∈ tracked ∨ ∃ j, j ≤ t ∧ a = (pr j).addr) ∧
        (∀ a, a ∈ tracked → a ∈ tracked1) := by
  intro n
  induction n with
  | zero =>
    intro level h tracked _ _ _ _
    exact ⟨h, tracked, rfl, fun _ _ => rfl, fun _ => rfl, fun _ _ => rfl,
      fun a ha => Or.inl ha, fun a ha => ha⟩
  | succ n ih =>
    intro level h tracked hlv harr hsh hlk
    have hlt : level ≤ t := by omega
    obtain ⟨hp, hsu⟩ := harr level (Nat.le_refl _) hlt
    obtain ⟨h1, tracked1, htl, hg1, hv1, hl1, hm1⟩ := v1_trackAndLock_spec (hlk level hlt)
    obtain ⟨hshp, hshs, hnx⟩ := hsh level hlt
    have hshp1 : viewOf h1 (pr level).addr = _ := (hv1 _).trans hshp
    have hshs1 : viewOf h1 (sc level).addr = _ := (hv1 _).trans hshs
    obtain ⟨pn, hpn, hpv⟩ := v1_viewOf_deref hshp1
    obtain ⟨sn, hsn, hsv⟩ := v1_viewOf_deref hshs1
    have hpm : pn.marked = false := by
      simp only [Prod.mk.injEq] at hpv; exact hpv.2.2.2.2.symm
    have hsm : sn.marked = false := by
      simp only [Prod.mk.injEq] at hsv; exact hsv.2.2.2.2.symm
    have hnx1 : pn.next[level]? = some (sc level).addr := by
      have := (hg1 (pr level).addr level).trans hnx
      unfold getNext at this
      rw [hpn] at this
      exact this
    obtain ⟨h2, tracked2, hr, hg2, hv2, hl2, hm2, hsub2⟩ := ih (level + 1) h1 tracked1 (by omega)
      (fun j hj hjt => harr j (by omega) hjt)
      (fun j hj => by
        obtain ⟨a1, a2, a3⟩ := hsh j hj
        exact ⟨(hv1 _).trans a1, (hv1 _).trans a2, (hg1 _ _).trans a3⟩)
      (fun j hj => by
        by_cases hin : (pr j).addr ∈ tracked1
        · exact Or.inl hin
        · right
          rw [hl1 _ hin]
          rcases hlk j hj with h3 | h3
          · exact absurd ((hm1 _).mpr (Or.inl h3)) hin
          · exact h3)
    refine ⟨h2, tracked2, ?_, fun a k => (hg2 a k).trans (hg1 a k),
      fun a => (hv2 a).trans (hv1 a), ?_, ?_, ?_⟩
    · rw [tryLockValidate]
      simp only [if_true, hp, hsu, htl, hpn, hsn, hpm, hsm, hnx1]
      simpa using hr
    · intro a ha
      have hna1 : a ∉ tracked1 := fun hin => ha (hsub2 a hin)
      rw [hl2 a ha, hl1 a hna1]
    · intro a ha
      rcases hm2 a ha with h3 | h3
      · rcases (hm1 a).mp h3 with h4 | h4
        · exact Or.inl h4
        · exact Or.inr ⟨level, hlt, h4⟩
      · exact Or.inr h3
    · intro a ha
      exact hsub2 a ((hm1 a).mpr (Or.inl ha))

theorem v1_unlockList_spec :
    ∀ (l : List Nat) (h : List Node_V1), (∀ a ∈ l, ∃ v, viewOf h a = some v) →
      ∃ h1, unlockList l h = some h1 ∧
        (∀ a k, getNext h1 a k = getNext h a k) ∧ (∀ a, viewOf h1 a = viewOf h a) ∧
        (∀ a, lockOf h1 a = if a ∈ l then (lockOf h a).map (fun _ => false) else lockOf h a) := by
  intro l
  induction l with
  | nil =>
    intro h _
    exact ⟨h, rfl, fun _ _ => rfl, fun _ => rfl, fun a => by simp⟩
  | cons p l ih =>
    intro h hv
    obtain ⟨v, hvp⟩ := hv p (List.mem_cons_self _ _)
    obtain ⟨n, hn, -⟩ := v1_viewOf_deref hvp
    obtain ⟨h1, hs⟩ := v1_unlockNode_some (h := h) (p := p) (by rw [hn]; rfl)
    obtain ⟨h2, hr, hg2, hv2, hl2⟩ := ih h1 (fun a ha => by
      rw [v1_viewOf_unlockNode hs]
      exact hv a (List.mem_cons_of_mem _ ha))
    refine ⟨h2, ?_, fun a k => (hg2 a k).trans (v1_getNext_unlockNode hs a k),
      fun a => (hv2 a).trans (v1_viewOf_unlockNode hs a), ?_⟩
    · rw [unlockList, hs]
      exact hr
    · intro a
      rw [hl2, v1_lockOf_unlockNode hs]
      by_cases hap : a = p
      · subst hap
        by_cases hal : a ∈ l
        · simp [hal]
        · simp [hal]
      · by_cases hal : a ∈ l
        · simp [hal, hap]
        · simp [hal, hap]

theorem v1_unlockAll_spec (tracked : List Nat) (h : List Node_V1)
    (hv : ∀ a ∈ tracked, ∃ v, viewOf h a = some v) :
    ∃ h1, unlockAll h tracked = some h1 ∧
      (∀ a k, getNext h1 a k = getNext h a k) ∧ (∀ a, viewOf h1 a = viewOf h a) ∧
      (∀ a, lockOf h1 a =
        if a ∈ tracked then (lockOf h a).map (fun _ => false) else lockOf h a) := by
  obtain ⟨h1, hr, hg, hvv, hl⟩ := v1_unlockList_spec tracked.reverse h
    (fun a ha => hv a (List.mem_reverse.mp ha))
  refine ⟨h1, hr, hg, hvv, ?_⟩
  intro a
  rw [hl]
  simp only [List.mem_reverse]

theorem v1_tryLockLink_spec (preds succs : List Nat) (qE : Entry) (pr sc : Nat → Entry) :
    ∀ (n k : Nat) (h : List Node_V1), k + n = qE.level + 1 →
      (∀ j, k ≤ j → j ≤ qE.level →
        preds[j]? = some (pr j).addr ∧ succs[j]? = some (sc j).addr) →
      (∀ j, j ≤ qE.level → Shape h (pr j) ∧ j ≤ (pr j).level ∧ (pr j).addr ≠ qE.addr) →
      Shape h qE →
      ∃ h1, tryLockLink preds succs qE.addr n k h = some h1 ∧
        (∀ a, viewOf h1 a = viewOf h a) ∧ (∀ a, lockOf h1 a = lockOf h a) ∧
        ∀ a j, getNext h1 a j =
          if k ≤ j ∧ j ≤ qE.level ∧ a = qE.addr then some (sc j).addr
          else if k ≤ j ∧ j ≤ qE.level ∧ a = (pr j).addr then some qE.addr
          else getNext h a j := by
  intro n
  induction n with
  | zero =>
    intro k h hk _ _ _
    refine ⟨h, rfl, fun _ => rfl, fun _ => rfl, ?_⟩
    intro a j
    have h1 : ¬ (k ≤ j ∧ j ≤ qE.level ∧ a = qE.addr) := by omega
    have h2 : ¬ (k ≤ j ∧ j ≤ qE.level ∧ a = (pr j).addr) := by omega
    rw [if_neg h1, if_neg h2]
  | succ n ih =>
    intro k h hk harr hpred hq
    have hklv : k ≤ qE.level := by omega
    obtain ⟨hp, hsu⟩ := harr k (Nat.le_refl _) hklv
    obtain ⟨h1, hs1⟩ := v1_setNext_of_Shape hq hklv (sc k).addr
    have hpk := hpred k hklv
    have hpk1 : Shape h1 (pr k) := by
      unfold Shape; rw [v1_viewOf_setNext hs1]; exact hpk.1
    obtain ⟨h2, hs2⟩ := v1_setNext_of_Shape hpk1 hpk.2.1 qE.addr
    have hv2 : ∀ a, viewOf h2 a = viewOf h a := fun a =>
      (v1_viewOf_setNext hs2 a).trans (v1_viewOf_setNext hs1 a)
    have hl2 : ∀ a, lockOf h2 a = lockOf h a := fun a =>
      (v1_lockOf_setNext hs2 a).trans (v1_lockOf_setNext hs1 a)
    have hg2 : ∀ a j, getNext h2 a j =
        if a = (pr k).addr ∧ j = k then some qE.addr
        else if a = qE.addr ∧ j = k then some (sc k).addr else getNext h a j := by
      intro a j
      rw [v1_getNext_setNext hs2, v1_getNext_setNext hs1]
    obtain ⟨h3, hr, hv3, hl3, hg3⟩ := ih (k + 1) h2 (by omega)
      (fun j hj hjl => harr j (by omega) hjl)
      (fun j hj => ⟨by unfold Shape; rw [hv2]; exact (hpred j hj).1, (hpred j hj).2⟩)
      (by unfold Shape; rw [hv2]; exact hq)
    refine ⟨h3, ?_, fun a => (hv3 a).trans (hv2 a), fun a => (hl3 a).trans (hl2 a), ?_⟩
    · simp only [tryLockLink, hp, hsu, hs1, hs2]
      exact hr
    · intro a j
      rw [hg3, hg2]
      by_cases hjk : j = k
      · subst hjk
        have e1 : ¬ (j + 1 ≤ j ∧ j ≤ qE.level ∧ a = qE.addr) := by omega
        have e2 : ¬ (j + 1 ≤ j ∧ j ≤ qE.level ∧ a = (pr j).addr) := by omega
        rw [if_neg e1, if_neg e2]
        by_cases ha : a = qE.addr
        · subst ha
          have e3 : ¬ (qE.addr = (pr j).addr ∧ j = j) := fun h => hpk.2.2 h.1.symm
          rw [if_neg e3]
          simp [hklv]
        · by_cases hb : a = (pr j).addr
          · simp [hb, hklv, hpk.2.2]
          · simp [ha, hb]
      · have e1 : ¬ (a = (pr k).addr ∧ j = k) := fun h => hjk h.2
        have e2 : ¬ (a = qE.addr ∧ j = k) := fun h => hjk h.2
        rw [if_neg e1, if_neg e2]
        by_cases hle : k ≤ j
        · have e3 : k + 1 ≤ j := by omega
          simp [hle, e3]
        · have e3 : ¬ (k + 1 ≤ j) := by omega
          simp [hle, e3]

theorem v1_generateRandomLevelLoop_bounds (rand : Nat → Nat) (maxLevel fuel level : Nat)
    (h1 : 1 ≤ level) (h2 : level ≤ maxLevel) :
    1 ≤ generateRandomLevelLoop rand maxLevel fuel level ∧
      generateRandomLevelLoop rand maxLevel fuel level ≤ maxLevel := by
  induction fuel generalizing level with
  | zero => exact ⟨h1, h2⟩
  | succ n ih =>
    unfold generateRandomLevelLoop
    split
    · rename_i hc; exact ih _ (by omega) (by omega)
    · exact ⟨h1, h2⟩

theorem v1_generateRandomLevel_bounds (rand : Nat → Nat) {maxLevel : Nat} (h : 1 ≤ maxLevel) :
    1 ≤ generateRandomLevel rand maxLevel ∧ generateRandomLevel rand maxLevel ≤ maxLevel :=
  v1_generateRandomLevelLoop_bounds rand maxLevel _ 1 (Nat.le_refl _) h

end V1

namespace V1

/-! ## V1: `tryLock` keeps the skip list well formed -/

theorem Inv.v1_heap_length {s : ConcurrentRangeLock_V1} {L : List Entry} (hI : Inv s L) :
    L.length + 2 ≤ s.nodes.length := by
  have := length_le_of_nodup_deref s.nodes _ hI.nodup (fun p hp => by
    obtain ⟨e, he, rfl⟩ := List.mem_map.mp hp
    obtain ⟨n, hn, _⟩ := v1_Shape_deref (hI.shape e he)
    simp [hn])
  simp at this
  omega

theorem v1_sorted_starts {maxLevel : Nat} {L : List Entry}
    (hs : (headE maxLevel :: L ++ [tailE maxLevel]).Pairwise fun a b => a.end_ ≤ b.start)
    (hd : ∀ e ∈ L, 1 ≤ e.start ∧ e.start < e.end_ ∧ e.end_ < UINT64_MAX ∧ e.level ≤ maxLevel) :
    L.Pairwise fun a b => a.start < b.start := by
  have h1 : L.Pairwise fun a b => a.end_ ≤ b.start := by
    have := (List.pairwise_cons.mp hs).2
    exact (List.pairwise_append.mp this).1
  exact h1.imp_of_mem fun {a b} ha _ hab => by
    have := hd a ha
    omega

theorem Inv.v1_length_lt {s : ConcurrentRangeLock_V1} {L : List Entry} (hI : Inv s L) :
    L.length < UINT64_MAX := by
  rcases length_le_of_sorted_starts UINT64_MAX L 1 (v1_sorted_starts hI.sorted hI.dom)
    (fun e he => by have := hI.dom e he; omega) with h | h
  · subst h; simp [UINT64_MAX]
  · omega

theorem Inv.v1_split {s : ConcurrentRangeLock_V1} {L : List Entry} (hI : Inv s L) {start : Nat}
    (hmax : start < UINT64_MAX) :
    Split s.nodes s.maxLevel start (L.takeWhile fun e => decide (e.end_ ≤ start))
      (L.dropWhile fun e => decide (e.end_ ≤ start)) := by
  refine ⟨?_, ?_, ?_, ?_⟩
  · rw [List.takeWhile_append_dropWhile]; exact hI.shape
  · rw [List.takeWhile_append_dropWhile]; exact hI.links
  · intro e he
    simpa using List.mem_takeWhile_imp he
  · intro e he
    rcases List.mem_append.mp he with h | h
    · have hL : L.Pairwise fun a b => a.end_ ≤ b.start :=
        (List.pairwise_append.mp (List.pairwise_cons.mp hI.sorted).2).1
      have := dropWhile_all_not (fun e => decide (e.end_ ≤ start)) _ L hL
        (fun a _ b hb hab hpa => by
          have := hI.dom b hb
          simp only [decide_eq_false_iff_not] at hpa ⊢
          omega) e h
      simpa using this
    · simp only [List.mem_singleton] at h
      subst h
      simp only [tailE]; omega

/-- On a sorted list the successor at level 0 starts no later than the one at any level. -/
theorem v1_succAt_zero_le {s : ConcurrentRangeLock_V1} {P R : List Entry}
    (hI : Inv s (P ++ R)) (j : Nat) :
    (succAt (tailE s.maxLevel) R 0).start ≤ (succAt (tailE s.maxLevel) R j).start := by
  cases R with
  | nil => rw [succAt_nil, succAt_nil]
  | cons r R' =>
    rw [succAt_zero_cons]
    have hm := succAt_mem_all (tailE s.maxLevel) (r :: R') j
    rcases List.mem_cons.mp hm with h | h
    · rw [h]
    · have hsorted := hI.sorted
      have e2 : headE s.maxLevel :: (P ++ r :: R') ++ [tailE s.maxLevel] =
          (headE s.maxLevel :: P) ++ r :: (R' ++ [tailE s.maxLevel]) := by simp
      rw [e2, List.pairwise_append] at hsorted
      have h5 := (List.pairwise_cons.mp hsorted.2.1).1 _ h
      have h6 := hI.dom r (by simp)
      omega

theorem v1_findInsert_spec {s : ConcurrentRangeLock_V1} {L : List Entry} (hI : Inv s L)
    {start : Nat} {P R : List Entry} (hPR : L = P ++ R)
    (hs : Split s.nodes s.maxLevel start P R) (end_ : Nat) :
    ∃ preds succs, findInsert s.nodes.length s start end_ =
        some (scanLevels (fun j => decide (end_ ≥ (succAt (tailE s.maxLevel) R j).start))
          (s.maxLevel + 1) (-1), preds, succs) ∧
      (∀ j, j ≤ s.maxLevel → preds[j]? = some (predAt (headE s.maxLevel) P j).addr ∧
        succs[j]? = some (succAt (tailE s.maxLevel) R j).addr) := by
  have hlen := hI.v1_heap_length
  have hP : P.length < s.nodes.length := by
    have := congrArg List.length hPR
    simp at this; omega
  obtain ⟨preds, succs, hr, hF⟩ := v1_findInsertLevels_spec hs end_ hP s.maxLevel
    (headE s.maxLevel) (-1) (List.replicate (s.maxLevel + 1) 0)
    (List.replicate (s.maxLevel + 1) 0) (Nat.le_refl _) (List.mem_cons_self _ _)
  refine ⟨preds, succs, ?_, ?_⟩
  · unfold findInsert
    rw [hI.head_eq]
    exact hr
  · intro j hj
    exact ⟨hF.2.2.1 j hj (by simp; omega), hF.2.2.2.1 j hj (by simp; omega)⟩

theorem v1_tryLockLoop_overlap {s : ConcurrentRangeLock_V1} {L : List Entry} (hI : Inv s L)
    {start end_ : Nat} {P R : List Entry} (hPR : L = P ++ R)
    (hs : Split s.nodes s.maxLevel start P R)
    (hov : (succAt (tailE s.maxLevel) R 0).start ≤ end_) (topLevel fuel : Nat) :
    tryLockLoop topLevel start end_ (fuel + 1) s = some (false, s) := by
  obtain ⟨preds, succs, hf, harr⟩ := v1_findInsert_spec hI hPR hs end_
  have hne : scanLevels (fun j => decide (end_ ≥ (succAt (tailE s.maxLevel) R j).start))
      (s.maxLevel + 1) (-1) ≠ -1 := by
    intro hc
    have := (scanLevels_eq_neg_one _ _).mp hc 0 (Nat.succ_pos _)
    simp at this
    omega
  obtain ⟨j, hj, hje, htj, -⟩ := scanLevels_found _ _ hne
  have hsh := v1_Split_succ_shape hs j
  obtain ⟨n, hn, -, -, -, -, hm⟩ := v1_Shape_deref hsh
  rw [tryLockLoop, hf]
  simp only [hje]
  have e1 : ((j : Nat) : Int) ≠ -1 := by omega
  rw [if_pos e1]
  simp only [Int.toNat_ofNat, (harr j (by omega)).2, hn, hm]
  simp

theorem v1_lockOf_alloc_new (h : List Node_V1) (n : Node_V1) :
    lockOf (alloc h n).1 (addrOf h.length) = some n.locked := by
  unfold lockOf
  rw [deref_alloc, if_pos rfl]
  rfl

theorem v1_viewOf_alloc_new (h : List Node_V1) (n : Node_V1) :
    viewOf (alloc h n).1 (addrOf h.length) =
      some (n.start, n.end_, n.topLevel, n.next.length, n.marked) := by
  unfold viewOf
  rw [deref_alloc, if_pos rfl]
  rfl

theorem v1_setFullyLinked_some {h : List Node_V1} {p : Nat}
    {v : Nat × Nat × Nat × Nat × Bool} (hv : viewOf h p = some v) :
    ∃ h1, setFullyLinked h p = some h1 := by
  obtain ⟨n, hn, -⟩ := v1_viewOf_deref hv
  unfold setFullyLinked
  rw [hn]
  exact ⟨_, rfl⟩

theorem v1_tryLockLoop_insert {s : ConcurrentRangeLock_V1} {L : List Entry} (hI : Inv s L)
    {start end_ : Nat} (h1 : 1 ≤ start) (h2 : start < end_) (h3 : end_ ≤ UINT64_MAX - 1)
    {P R : List Entry} (hPR : L = P ++ R)
    (hs : Split s.nodes s.maxLevel start P R)
    (hgap : end_ < (succAt (tailE s.maxLevel) R 0).start)
    {lv : Nat} (hlv : lv ≤ s.maxLevel) (fuel : Nat) :
    ∃ s1 q, tryLockLoop lv start end_ (fuel + 1) s = some (true, s1) ∧
      s1.maxLevel = s.maxLevel ∧ Inv s1 (P ++ ⟨q, start, end_, lv⟩ :: R) := by
  subst hPR
  obtain ⟨preds, succs, hf, harr⟩ := v1_findInsert_spec hI rfl hs end_
  have hscan : scanLevels (fun j => decide (end_ ≥ (succAt (tailE s.maxLevel) R j).start))
      (s.maxLevel + 1) (-1) = -1 := by
    rw [scanLevels_eq_neg_one]
    intro j _
    have := v1_succAt_zero_le hI j
    simp only [decide_eq_false_iff_not]
    omega
  rw [hscan] at hf
  set hd := headE s.maxLevel with hhd
  set tl := tailE s.maxLevel with htl
  have hdl : hd.level = s.maxLevel := rfl
  have hde : hd.end_ = 0 := rfl
  have holdmem : ∀ e, e ∈ hd :: P → e ∈ hd :: (P ++ R) ++ [tl] := by
    intro e he
    simp only [List.mem_cons, List.mem_append, List.mem_singleton] at he ⊢; tauto
  have hRmem : ∀ e, e ∈ R ++ [tl] → e ∈ hd :: (P ++ R) ++ [tl] := by
    intro e he
    simp only [List.mem_cons, List.mem_append, List.mem_singleton] at he ⊢; tauto
  -- the locking loop
  obtain ⟨h1', tracked, hval, hg1, hv1, hl1, hm1, -⟩ := v1_tryLockValidate_spec preds succs
    (predAt hd P) (succAt tl R) lv (lv + 1) 0 s.nodes [] (by omega)
    (fun j _ hj => harr j (by omega))
    (fun j hj => ⟨hI.shape _ (holdmem _ (predAt_mem_all hd P j)),
      hI.shape _ (hRmem _ (succAt_mem_all tl R j)), link_pred_succ (hs.links j (by omega))⟩)
    (fun j _ => Or.inr (hI.unlocked _ (holdmem _ (predAt_mem_all hd P j))))
  have htr : ∀ a ∈ tracked, ∃ e, e ∈ hd :: (P ++ R) ++ [tl] ∧ a = e.addr := by
    intro a ha
    rcases hm1 a ha with h | ⟨j, -, h⟩
    · cases h
    · exact ⟨_, holdmem _ (predAt_mem_all hd P j), h⟩
  -- the new node
  generalize hnewN : (⟨start, end_, lv, List.replicate (lv + 1) 0, false, false, false⟩ :
    Node_V1) = newN
  generalize hq : addrOf h1'.length = q
  set newE : Entry := ⟨q, start, end_, lv⟩ with hnewE
  have hqa : newE.addr = q := rfl
  have hql : newE.level = lv := rfl
  have hv1' : ∀ e, e ∈ hd :: (P ++ R) ++ [tl] → Shape h1' e := fun e he => by
    unfold Shape; rw [hv1]; exact hI.shape e he
  have hlt : ∀ e, e ∈ hd :: (P ++ R) ++ [tl] → e.addr < q := fun e he => by
    rw [← hq]; exact v1_viewOf_lt (hv1' e he)
  generalize hh2 : (alloc h1' newN).1 = h2' at *
  have hv2 : ∀ e, e ∈ hd :: (P ++ R) ++ [tl] → Shape h2' e := fun e he => by
    unfold Shape
    rw [← hh2, v1_viewOf_alloc_old newN (by rw [hq]; exact hlt e he)]
    exact hv1' e he
  have hqS : Shape h2' newE := by
    show viewOf h2' q = some (start, end_, lv, lv + 1, false)
    rw [← hh2, ← hq, v1_viewOf_alloc_new, ← hnewN]
    simp
  obtain ⟨h3', hlink, hv3, hl3, hg3⟩ := v1_tryLockLink_spec preds succs newE (predAt hd P)
    (succAt tl R) (lv + 1) 0 h2' (by rw [hql]; omega)
    (fun j _ hj => harr j (by rw [hql] at hj; omega))
    (fun j hj => by
      rw [hql] at hj
      refine ⟨hv2 _ (holdmem _ (predAt_mem_all hd P j)), predAt_level P (by omega), ?_⟩
      have := hlt _ (holdmem _ (predAt_mem_all hd P j))
      rw [hqa]; omega)
    hqS
  obtain ⟨h4', hfl⟩ := v1_setFullyLinked_some (p := newE.addr) ((hv3 _).trans hqS)
  have hq2 : (alloc h1' newN).2 = newE.addr := by rw [hqa, ← hq]; rfl
  have hv4 : ∀ a, viewOf h4' a = viewOf h2' a := fun a =>
    (v1_viewOf_setFullyLinked hfl a).trans (hv3 a)
  obtain ⟨h5', hun, hg5, hv5, hl5⟩ := v1_unlockAll_spec tracked h4' (fun a ha => by
    obtain ⟨e, he, rfl⟩ := htr a ha
    exact ⟨_, (hv4 _).trans (hv2 e he)⟩)
  have hG : ∀ a j, getNext h5' a j =
      if 0 ≤ j ∧ j ≤ lv ∧ a = q then some (succAt tl R j).addr
      else if 0 ≤ j ∧ j ≤ lv ∧ a = (predAt hd P j).addr then some q
      else getNext h2' a j := by
    intro a j
    rw [hg5, v1_getNext_setFullyLinked hfl, hg3, hql, hqa]
  have hGold : ∀ e, e ∈ hd :: (P ++ R) ++ [tl] → ∀ j,
      getNext h2' e.addr j = getNext s.nodes e.addr j := fun e he j => by
    rw [← hh2, v1_getNext_alloc_old newN (by rw [hq]; exact hlt e he), hg1]
  refine ⟨⟨h5', s.maxLevel, fetchAdd1 s.elementsCount, s.head, s.tail⟩, q, ?_, rfl, ?_⟩
  · rw [tryLockLoop, hf]
    simp only [ne_eq, not_true_eq_false, if_false, hval, Bool.not_true, Bool.false_eq_true,
      createNode_V1, hnewN, hq2, hh2, hlink, hfl, hun]
  · have hnewaddr : ∀ e, e ∈ hd :: (P ++ R) ++ [tl] → e.addr ≠ newE.addr := by
      intro e he
      have := hlt e he
      rw [hqa]; omega
    have hmemnew : ∀ e, e ∈ hd :: (P ++ newE :: R) ++ [tl] →
        e = newE ∨ e ∈ hd :: (P ++ R) ++ [tl] := by
      intro e he
      simp only [List.mem_cons, List.mem_append, List.mem_singleton] at he ⊢; tauto
    refine ⟨hI.head_eq, hI.tail_eq, ?_, ?_, ?_, ?_, ?_, ?_, ?_⟩
    · intro e he
      show Shape h5' e
      have he : e ∈ hd :: (P ++ newE :: R) ++ [tl] := he
      unfold Shape
      rw [hv5, hv4]
      rcases hmemnew e he with rfl | h
      · exact hqS
      · exact hv2 e h
    · intro e he
      show lockOf h5' e.addr = some false
      have he : e ∈ hd :: (P ++ newE :: R) ++ [tl] := he
      rw [hl5, v1_lockOf_setFullyLinked hfl, hl3]
      rcases hmemnew e he with rfl | h
      · have hnt : newE.addr ∉ tracked := by
          intro hin
          obtain ⟨e', he', hee⟩ := htr _ hin
          exact hnewaddr e' he' hee.symm
        rw [if_neg hnt, hqa, ← hh2, ← hq, v1_lockOf_alloc_new, ← hnewN]
      · have hlo : lockOf h2' e.addr = lockOf h1' e.addr := by
          rw [← hh2, v1_lockOf_alloc_old newN (by rw [hq]; exact hlt e h)]
        by_cases hin : e.addr ∈ tracked
        · rw [if_pos hin]
          obtain ⟨b, hb⟩ := v1_lockOf_isSome_of_viewOf (hv2 e h)
          rw [hb]; rfl
        · rw [if_neg hin, hlo, hl1 _ hin]
          exact hI.unlocked e h
    · intro e he
      have : e = newE ∨ e ∈ P ++ R := by
        simp only [List.mem_cons, List.mem_append] at he ⊢; tauto
      rcases this with rfl | h
      · exact ⟨h1, h2, by show end_ < UINT64_MAX; omega, hlv⟩
      · exact hI.dom e h
    · show (hd :: (P ++ newE :: R) ++ [tl]).Pairwise _
      have e1 : hd :: (P ++ newE :: R) ++ [tl] = (hd :: P) ++ newE :: (R ++ [tl]) := by simp
      have e2 : hd :: (P ++ R) ++ [tl] = (hd :: P) ++ (R ++ [tl]) := by simp
      rw [e1]
      have hsorted : (hd :: (P ++ R) ++ [tl]).Pairwise fun a b => a.end_ ≤ b.start :=
        hI.sorted
      rw [e2] at hsorted
      apply pairwise_insert hsorted
      · intro a ha
        rcases List.mem_cons.mp ha with h | h
        · rw [h]; exact Nat.zero_le _
        · exact hs.before a h
      · intro b hb
        have hBpw := (List.pairwise_append.mp hsorted).2.1
        show end_ ≤ b.start
        cases R with
        | nil =>
          simp only [List.nil_append, List.mem_singleton] at hb
          rw [succAt_nil] at hgap
          rw [hb]; omega
        | cons r R' =>
          rw [succAt_zero_cons] at hgap
          rcases List.mem_cons.mp hb with h | h
          · rw [h]; omega
          · have hr := hI.dom r (by simp)
            have := (List.pairwise_cons.mp hBpw).1 b h
            omega
    · show ((hd :: (P ++ newE :: R) ++ [tl]).map Entry.addr).Nodup
      have e1 : hd :: (P ++ newE :: R) ++ [tl] = (hd :: P) ++ newE :: (R ++ [tl]) := by simp
      have e2 : hd :: (P ++ R) ++ [tl] = (hd :: P) ++ (R ++ [tl]) := by simp
      rw [e1, List.map_append, List.map_cons]
      have hnd : ((hd :: (P ++ R) ++ [tl]).map Entry.addr).Nodup := hI.nodup
      rw [e2, List.map_append] at hnd
      apply nodup_insert hnd
      intro hmem
      rw [← List.map_append, ← e2] at hmem
      obtain ⟨e, he, hea⟩ := List.mem_map.mp hmem
      exact hnewaddr e he hea
    · intro k hk
      show List.Chain' (Link h5' k) (hd :: atLevel k (P ++ newE :: R) ++ [tl])
      have hnd : ((hd :: (P ++ R) ++ [tl]).map Entry.addr).Nodup := hI.nodup
      have hlk : List.Chain' (Link s.nodes k) (hd :: atLevel k (P ++ R) ++ [tl]) :=
        hI.links k hk
      by_cases hkl : k ≤ lv
      · apply chain_insert_at (F := Link s.nodes k) hnd hlk (by rw [hql]; exact hkl)
        · intro a b ha hne hab
          unfold Link at hab ⊢
          rw [hG]
          have e1 : ¬ (0 ≤ k ∧ k ≤ lv ∧ a.addr = q) := fun h =>
            hnewaddr a ha (h.2.2.trans hqa.symm)
          have e2 : ¬ (0 ≤ k ∧ k ≤ lv ∧ a.addr = (predAt hd P k).addr) := fun h =>
            hne h.2.2
          rw [if_neg e1, if_neg e2, hGold a ha]
          exact hab
        · unfold Link
          rw [hG]
          have e1 : ¬ (0 ≤ k ∧ k ≤ lv ∧ (predAt hd P k).addr = q) := fun h =>
            hnewaddr _ (holdmem _ (predAt_mem_all hd P k)) (h.2.2.trans hqa.symm)
          rw [if_neg e1, if_pos ⟨Nat.zero_le _, hkl, rfl⟩, hqa]
        · unfold Link
          rw [hG, hqa, if_pos ⟨Nat.zero_le _, hkl, rfl⟩]
      · apply chain_insert_above (F := Link s.nodes k) hlk (by rw [hql]; omega)
        intro a b ha hab
        unfold Link at hab ⊢
        rw [hG]
        have e1 : ¬ (0 ≤ k ∧ k ≤ lv ∧ a.addr = q) := fun h => hkl h.2.1
        have e2 : ¬ (0 ≤ k ∧ k ≤ lv ∧ a.addr = (predAt hd P k).addr) := fun h => hkl h.2.1
        rw [if_neg e1, if_neg e2, hGold a ha]
        exact hab
    · have hl := hI.v1_length_lt
      show fetchAdd1 s.elementsCount = (P ++ newE :: R).length
      simp only [List.length_append, List.length_cons] at hl ⊢
      rw [hI.count, fetchAdd1_eq]
      · simp; omega
      · simp only [UINT64_MAX] at hl
        simp at hl ⊢; omega

end V1

namespace V1

/-! ## V1: `releaseLock` -/

theorem v1_findExact_spec {s : ConcurrentRangeLock_V1} {L : List Entry} (hI : Inv s L)
    {start : Nat} {P R : List Entry} (hPR : L = P ++ R)
    (hs : Split s.nodes s.maxLevel start P R) (end_ : Nat) :
    ∃ preds succs, findExact s.nodes.length s start end_ =
        some (scanLevels (fun j => decide (start = (succAt (tailE s.maxLevel) R j).start ∧
          end_ = (succAt (tailE s.maxLevel) R j).end_)) (s.maxLevel + 1) (-1), preds, succs) ∧
      (∀ j, j ≤ s.maxLevel → preds[j]? = some (predAt (headE s.maxLevel) P j).addr ∧
        succs[j]? = some (succAt (tailE s.maxLevel) R j).addr) := by
  have hlen := hI.v1_heap_length
  have hP : P.length < s.nodes.length := by
    have := congrArg List.length hPR
    simp at this; omega
  obtain ⟨preds, succs, hr, hF⟩ := v1_findExactLevels_spec hs end_ hP s.maxLevel
    (headE s.maxLevel) (-1) (List.replicate (s.maxLevel + 1) 0)
    (List.replicate (s.maxLevel + 1) 0) (Nat.le_refl _) (List.mem_cons_self _ _)
  refine ⟨preds, succs, ?_, ?_⟩
  · unfold findExact
    rw [hI.head_eq]
    exact hr
  · intro j hj
    exact ⟨hF.2.2.1 j hj (by simp; omega), hF.2.2.2.1 j hj (by simp; omega)⟩

theorem v1_releaseValidate_spec (preds : List Nat) (victim : Nat) (pr : Nat → Entry) (t : Nat) :
    ∀ (n level : Nat) (h : List Node_V1) (tracked : List Nat), level + n = t + 1 →
      (∀ j, level ≤ j → j ≤ t → preds[j]? = some (pr j).addr) →
      (∀ j, j ≤ t → Shape h (pr j) ∧ getNext h (pr j).addr j = some victim) →
      (∀ j, j ≤ t → (pr j).addr ∈ tracked ∨ lockOf h (pr j).addr = some false) →
      ∃ h1 tracked1, releaseValidate preds victim n level true h tracked =
          some (true, h1, tracked1) ∧
        (∀ a k, getNext h1 a k = getNext h a k) ∧ (∀ a, viewOf h1 a = viewOf h a) ∧
        (∀ a, a ∉ tracked1 → lockOf h1 a = lockOf h a) ∧
        (∀ a, a ∈ tracked1 → a ∈ tracked ∨ ∃ j, j ≤ t ∧ a = (pr j).addr) ∧
        (∀ a, a ∈ tracked → a ∈ tracked1) := by
  intro n
  induction n with
  | zero =>
    intro level h tracked _ _ _ _
    exact ⟨h, tracked, rfl, fun _ _ => rfl, fun _ => rfl, fun _ _ => rfl,
      fun a ha => Or.inl ha, fun a ha => ha⟩
  | succ n ih =>
    intro level h tracked hlv harr hsh hlk
    have hlt : level ≤ t := by omega
    have hp := harr level (Nat.le_refl _) hlt
    obtain ⟨h1, tracked1, htl, hg1, hv1, hl1, hm1⟩ := v1_trackAndLock_spec (hlk level hlt)
    obtain ⟨hshp, hnx⟩ := hsh level hlt
    have hshp1 : viewOf h1 (pr level).addr = _ := (hv1 _).trans hshp
    obtain ⟨pn, hpn, hpv⟩ := v1_viewOf_deref hshp1
    have hpm : pn.marked = false := by
      simp only [Prod.mk.injEq] at hpv; exact hpv.2.2.2.2.symm
    have hnx1 : pn.next[level]? = some victim := by
      have := (hg1 (pr level).addr level).trans hnx
      unfold getNext at this
      rw [hpn] at this
      exact this
    obtain ⟨h2, tracked2, hr, hg2, hv2, hl2, hm2, hsub2⟩ := ih (level + 1) h1 tracked1
      (by omega)
      (fun j hj hjt => harr j (by omega) hjt)
      (fun j hj => by
        obtain ⟨a1, a3⟩ := hsh j hj
        exact ⟨(hv1 _).trans a1, (hg1 _ _).trans a3⟩)
      (fun j hj => by
        by_cases hin : (pr j).addr ∈ tracked1
        · exact Or.inl hin
        · right
          rw [hl1 _ hin]
          rcases hlk j hj with h3 | h3
          · exact absurd ((hm1 _).mpr (Or.inl h3)) hin
          · exact h3)
    refine ⟨h2, tracked2, ?_, fun a k => (hg2 a k).trans (hg1 a k),
      fun a => (hv2 a).trans (hv1 a), ?_, ?_, ?_⟩
    · rw [releaseValidate]
      simp only [if_true, hp, htl, hpn, hpm, hnx1]
      simpa using hr
    · intro a ha
      have hna1 : a ∉ tracked1 := fun hin => ha (hsub2 a hin)
      rw [hl2 a ha, hl1 a hna1]
    · intro a ha
      rcases hm2 a ha with h3 | h3
      · rcases (hm1 a).mp h3 with h4 | h4
        · exact Or.inl h4
        · exact Or.inr ⟨level, hlt, h4⟩
      · exact Or.inr h3
    · intro a ha
      exact hsub2 a ((hm1 a).mpr (Or.inl ha))

theorem v1_releaseUnlink_spec (preds : List Nat) (victim : Nat) (pr sc : Nat → Entry) :
    ∀ (n : Nat) (h : List Node_V1),
      (∀ j, j < n → preds[j]? = some (pr j).addr) →
      (∀ j, j < n → getNext h victim j = some (sc j).addr) →
      (∀ j, j < n → Shape h (pr j) ∧ j ≤ (pr j).level ∧ (pr j).addr ≠ victim) →
      ∃ h1, releaseUnlink preds victim n h = some h1 ∧
        (∀ a, viewOf h1 a = viewOf h a) ∧ (∀ a, lockOf h1 a = lockOf h a) ∧
        ∀ a j, getNext h1 a j =
          if j < n ∧ a = (pr j).addr then some (sc j).addr else getNext h a j := by
  intro n
  induction n with
  | zero =>
    intro h _ _ _
    refine ⟨h, rfl, fun _ => rfl, fun _ => rfl, ?_⟩
    intro a j
    have h1 : ¬ (j < 0 ∧ a = (pr j).addr) := by omega
    rw [if_neg h1]
  | succ n ih =>
    intro h harr hvn hpred
    have hp := harr n (Nat.lt_succ_self n)
    have hv := hvn n (Nat.lt_succ_self n)
    have hpn := hpred n (Nat.lt_succ_self n)
    obtain ⟨h1, hs1⟩ := v1_setNext_of_Shape hpn.1 hpn.2.1 (sc n).addr
    obtain ⟨h2, hr, hv2, hl2, hg2⟩ := ih h1
      (fun j hj => harr j (by omega))
      (fun j hj => by
        rw [v1_getNext_setNext hs1]
        have e1 : ¬ (victim = (pr n).addr ∧ j = n) := by omega
        rw [if_neg e1]
        exact hvn j (by omega))
      (fun j hj => ⟨by unfold Shape; rw [v1_viewOf_setNext hs1]; exact (hpred j (by omega)).1,
        (hpred j (by omega)).2⟩)
    refine ⟨h2, ?_, fun a => (hv2 a).trans (v1_viewOf_setNext hs1 a),
      fun a => (hl2 a).trans (v1_lockOf_setNext hs1 a), ?_⟩
    · simp only [releaseUnlink, hp, hv, hs1]
      exact hr
    · intro a j
      rw [hg2, v1_getNext_setNext hs1]
      by_cases hjn : j = n
      · subst hjn
        have e1 : ¬ (j < j ∧ a = (pr j).addr) := by omega
        rw [if_neg e1]
        by_cases ha : a = (pr j).addr
        · simp [ha]
        · simp [ha]
      · have e1 : ¬ (a = (pr n).addr ∧ j = n) := fun h => hjn h.2
        rw [if_neg e1]
        by_cases hlt : j < n
        · have : j < n + 1 := by omega
          simp [hlt, this]
        · have : ¬ j < n + 1 := by omega
          simp [hlt, this]

theorem v1_setMarked_some {h : List Node_V1} {p : Nat}
    {v : Nat × Nat × Nat × Nat × Bool} (hv : viewOf h p = some v) :
    ∃ h1, setMarked h p = some h1 := by
  obtain ⟨n, hn, -⟩ := v1_viewOf_deref hv
  unfold setMarked
  rw [hn]
  exact ⟨_, rfl⟩

end V1

namespace V1

theorem Inv.v1_splitR {s : ConcurrentRangeLock_V1} {P R : List Entry} {v : Entry}
    (hI : Inv s (P ++ v :: R)) : Split s.nodes s.maxLevel v.start P (v :: R) := by
  have hsorted := hI.sorted
  have e2 : headE s.maxLevel :: (P ++ v :: R) ++ [tailE s.maxLevel] =
      (headE s.maxLevel :: P) ++ v :: (R ++ [tailE s.maxLevel]) := by simp
  rw [e2, List.pairwise_append] at hsorted
  have hv := hI.dom v (by simp)
  refine ⟨hI.shape, hI.links, ?_, ?_⟩
  · intro e he
    exact hsorted.2.2 e (List.mem_cons_of_mem _ he) v (List.mem_cons_self _ _)
  · intro e he
    have : e = v ∨ e ∈ R ++ [tailE s.maxLevel] := by
      simp only [List.mem_cons, List.mem_append, List.mem_singleton] at he ⊢; tauto
    rcases this with rfl | h
    · omega
    · have h1 := (List.pairwise_cons.mp hsorted.2.1).1 e h
      rcases List.mem_append.mp h with h2 | h2
      · have := hI.dom e (by simp [h2])
        omega
      · simp only [List.mem_singleton] at h2
        subst h2
        simp only [tailE]; omega

/-- The level `findExact` reports for a held interval is the top level of its node. -/
theorem v1_scan_exact_held {s : ConcurrentRangeLock_V1} {P R : List Entry} {v : Entry}
    (hI : Inv s (P ++ v :: R)) :
    scanLevels (fun j => decide (v.start = (succAt (tailE s.maxLevel) (v :: R) j).start ∧
      v.end_ = (succAt (tailE s.maxLevel) (v :: R) j).end_)) (s.maxLevel + 1) (-1) =
      (v.level : Int) := by
  have hv := hI.dom v (by simp)
  have htest : ∀ j, (decide (v.start = (succAt (tailE s.maxLevel) (v :: R) j).start ∧
      v.end_ = (succAt (tailE s.maxLevel) (v :: R) j).end_) = true) ↔ j ≤ v.level := by
    intro j
    by_cases hj : j ≤ v.level
    · rw [succAt_cons_of_le _ R hj]
      simp [hj]
    · rw [succAt_cons_of_lt _ R (by omega)]
      have hm := succAt_mem_all (tailE s.maxLevel) R j
      have hsorted := hI.sorted
      have e2 : headE s.maxLevel :: (P ++ v :: R) ++ [tailE s.maxLevel] =
          (headE s.maxLevel :: P) ++ v :: (R ++ [tailE s.maxLevel]) := by simp
      rw [e2, List.pairwise_append] at hsorted
      have h1 := (List.pairwise_cons.mp hsorted.2.1).1 _ hm
      simp only [decide_eq_true_eq, hj, iff_false, not_and]
      intro h2
      omega
  have hne : scanLevels (fun j => decide (v.start = (succAt (tailE s.maxLevel) (v :: R) j).start ∧
      v.end_ = (succAt (tailE s.maxLevel) (v :: R) j).end_)) (s.maxLevel + 1) (-1) ≠ -1 := by
    intro hc
    have h0 := (scanLevels_eq_neg_one _ _).mp hc 0 (Nat.succ_pos _)
    have := (htest 0).mpr (Nat.zero_le _)
    rw [h0] at this
    cases this
  obtain ⟨j, hj, hje, htj, hmax⟩ := scanLevels_found _ _ hne
  rw [hje]
  have h1 : j ≤ v.level := (htest j).mp htj
  have h2 : ¬ j < v.level := by
    intro hlt
    have := hmax v.level hlt (by omega)
    have h3 := (htest v.level).mpr (Nat.le_refl _)
    rw [this] at h3
    cases h3
  have : j = v.level := by omega
  rw [this]

theorem v1_releaseLockLoop_held {s : ConcurrentRangeLock_V1} {P R : List Entry} {v : Entry}
    (hI : Inv s (P ++ v :: R)) (fuel : Nat) (topLevel : Int) :
    ∃ s1, releaseLockLoop v.start v.end_ (fuel + 1) false topLevel s =
        some (Ret.ret true, s1) ∧
      s1.maxLevel = s.maxLevel ∧ Inv s1 (P ++ R) := by
  have hs := hI.v1_splitR
  have hvdom := hI.dom v (by simp)
  obtain ⟨preds, succs, hf, harr⟩ := v1_findExact_spec hI rfl hs v.end_
  rw [v1_scan_exact_held hI] at hf
  set hd := headE s.maxLevel with hhd
  set tl := tailE s.maxLevel with htl
  have holdmem : ∀ e, e ∈ hd :: P → e ∈ hd :: (P ++ v :: R) ++ [tl] := by
    intro e he
    simp only [List.mem_cons, List.mem_append, List.mem_singleton] at he ⊢; tauto
  have hvmem : v ∈ hd :: (P ++ v :: R) ++ [tl] := by simp
  have hRmem : ∀ e, e ∈ R ++ [tl] → e ∈ hd :: (P ++ v :: R) ++ [tl] := by
    intro e he
    simp only [List.mem_cons, List.mem_append, List.mem_singleton] at he ⊢; tauto
  have hnd : ((hd :: (P ++ v :: R) ++ [tl]).map Entry.addr).Nodup := hI.nodup
  have hnd2 : (hd :: (P ++ v :: R) ++ [tl]).Nodup := List.Nodup.of_map _ hnd
  have hprne : ∀ j, (predAt hd P j).addr ≠ v.addr := by
    intro j h
    have heq := entry_eq_of_addr_eq hnd (holdmem _ (predAt_mem_all hd P j)) hvmem h
    have e2 : hd :: (P ++ v :: R) ++ [tl] = (hd :: P) ++ (v :: R ++ [tl]) := by simp
    rw [e2, List.nodup_append] at hnd2
    exact hnd2.2.2 (predAt_mem_all hd P j) (heq ▸ List.mem_cons_self _ _)
  have hlink1 : ∀ j, j ≤ v.level → getNext s.nodes (predAt hd P j).addr j = some v.addr := by
    intro j hjl
    have := link_pred_succ (hs.links j (by omega))
    rwa [succAt_cons_of_le tl R hjl] at this
  have hlink2 : ∀ j, j ≤ v.level → getNext s.nodes v.addr j = some (succAt tl R j).addr := by
    intro j hjl
    have hc := hI.links j (by omega)
    have e : P ++ v :: R = (P ++ [v]) ++ R := by simp
    rw [e] at hc
    have := link_pred_succ hc
    rwa [predAt_append_singleton hd P hjl] at this
  -- the victim
  have hvS : Shape s.nodes v := hI.shape v hvmem
  obtain ⟨vn, hvn, -, -, hvt, -, hvm⟩ := v1_Shape_deref hvS
  obtain ⟨h1, tracked1, htl1, hg1, hv1, hl1, hm1⟩ :=
    @v1_trackAndLock_spec s.nodes [] v.addr (Or.inr (hI.unlocked v hvmem))
  obtain ⟨vn1, hvn1, hvv1⟩ := v1_viewOf_deref ((hv1 v.addr).trans hvS)
  have hvm1 : vn1.marked = false := by
    simp only [Prod.mk.injEq] at hvv1; exact hvv1.2.2.2.2.symm
  obtain ⟨h2, hsm⟩ := v1_setMarked_some ((hv1 v.addr).trans hvS)
  have hV2 : ∀ e, e ∈ hd :: (P ++ v :: R) ++ [tl] → e.addr ≠ v.addr → Shape h2 e := by
    intro e he hne
    unfold Shape
    rw [v1_viewOf_setMarked hsm hne, hv1]
    exact hI.shape e he
  have hG2 : ∀ a j, getNext h2 a j = getNext s.nodes a j := fun a j =>
    (v1_getNext_setMarked hsm a j).trans (hg1 a j)
  have hL2 : ∀ a, a ≠ v.addr → lockOf h2 a = lockOf s.nodes a := by
    intro a ha
    rw [v1_lockOf_setMarked hsm, hl1 a]
    intro hin
    rcases (hm1 a).mp hin with h | h
    · cases h
    · exact ha h
  -- locking the predecessors
  obtain ⟨h3, tracked3, hval, hg3, hv3, hl3, hm3, hsub3⟩ := v1_releaseValidate_spec preds
    v.addr (predAt hd P) v.level (v.level + 1) 0 h2 tracked1 (by omega)
    (fun j _ hj => (harr j (by omega)).1)
    (fun j hj => ⟨hV2 _ (holdmem _ (predAt_mem_all hd P j)) (hprne j),
      (hG2 _ _).trans (hlink1 j hj)⟩)
    (fun j _ => Or.inr (by
      rw [hL2 _ (hprne j)]
      exact hI.unlocked _ (holdmem _ (predAt_mem_all hd P j))))
  -- unlinking
  obtain ⟨h4, hunl, hv4, hl4, hg4⟩ := v1_releaseUnlink_spec preds v.addr (predAt hd P)
    (succAt tl R) (v.level + 1) h3
    (fun j hj => (harr j (by omega)).1)
    (fun j hj => by rw [hg3, hG2]; exact hlink2 j (by omega))
    (fun j _ => ⟨by
        unfold Shape; rw [hv3]
        exact hV2 _ (holdmem _ (predAt_mem_all hd P j)) (hprne j),
      predAt_level P (by show j ≤ s.maxLevel; omega), hprne j⟩)
  have hvsome : ∃ w, viewOf h2 v.addr = some w := by
    unfold viewOf
    rw [v1_deref_setMarked hsm, if_pos rfl, hvn1]
    exact ⟨_, rfl⟩
  obtain ⟨h5, hun, hg5, hv5, hl5⟩ := v1_unlockAll_spec tracked3 h4 (fun a ha => by
    rw [hv4, hv3]
    rcases hm3 a ha with h | ⟨j, -, h⟩
    · rcases (hm1 a).mp h with h' | h'
      · cases h'
      · rw [h']; exact hvsome
    · rw [h]
      exact ⟨_, hV2 _ (holdmem _ (predAt_mem_all hd P j)) (hprne j)⟩)
  have hvt3 : v.addr ∈ tracked3 := hsub3 _ ((hm1 _).mpr (Or.inr rfl))
  refine ⟨⟨h5, s.maxLevel, fetchSub1 s.elementsCount, s.head, s.tail⟩, ?_, rfl, ?_⟩
  · rw [releaseLockLoop, hf]
    have hsuccv : succs[v.level]? = some v.addr := by
      have := (harr v.level hvdom.2.2.2).2
      rwa [succAt_cons_of_le tl R (Nat.le_refl _)] at this
    have e1 : ¬ ((v.level : Int) = -1) := by omega
    have e2 : ((v.level : Int) + 1).toNat = v.level + 1 := by omega
    have e3 : ((vn.topLevel : Int) + 1).toNat = v.level + 1 := by rw [hvt]; omega
    simp only [e1, if_false, Int.toNat_ofNat, hsuccv, hvn, hvt, hvm,
      Bool.false_eq_true, and_self, or_true, if_true, htl1, hvn1, hvm1, hsm, releaseAttempt,
      e2, hval, Bool.not_true, hunl, hun]
  · have hsub := remove_sublist hd tl v P R
    have hG : ∀ a j, getNext h5 a j =
        if j < v.level + 1 ∧ a = (predAt hd P j).addr then some (succAt tl R j).addr
        else getNext s.nodes a j := by
      intro a j
      rw [hg5, hg4, hg3, hG2]
    refine ⟨hI.head_eq, hI.tail_eq, ?_, ?_, ?_, ?_, ?_, ?_, ?_⟩
    · intro e he
      show Shape h5 e
      have he : e ∈ hd :: (P ++ R) ++ [tl] := he
      have hne : e.addr ≠ v.addr := by
        intro h
        have heq := entry_eq_of_addr_eq hnd (hsub.subset he) hvmem h
        have e2 : hd :: (P ++ v :: R) ++ [tl] = (hd :: P) ++ v :: (R ++ [tl]) := by simp
        rw [e2] at hnd2
        have := List.nodup_middle.mp hnd2
        rw [List.nodup_cons] at this
        apply this.1
        rw [← heq]
        simp only [List.mem_cons, List.mem_append, List.mem_singleton] at he ⊢; tauto
      unfold Shape
      rw [hv5, hv4, hv3]
      exact hV2 e (hsub.subset he) hne
    · intro e he
      show lockOf h5 e.addr = some false
      have he : e ∈ hd :: (P ++ R) ++ [tl] := he
      have hne : e.addr ≠ v.addr := by
        intro h
        have heq := entry_eq_of_addr_eq hnd (hsub.subset he) hvmem h
        have e2 : hd :: (P ++ v :: R) ++ [tl] = (hd :: P) ++ v :: (R ++ [tl]) := by simp
        rw [e2] at hnd2
        have := List.nodup_middle.mp hnd2
        rw [List.nodup_cons] at this
        apply this.1
        rw [← heq]
        simp only [List.mem_cons, List.mem_append, List.mem_singleton] at he ⊢; tauto
      rw [hl5, hl4]
      by_cases hin : e.addr ∈ tracked3
      · rw [if_pos hin]
        obtain ⟨b, hb⟩ := v1_lockOf_isSome_of_viewOf
          ((hv3 e.addr).trans (hV2 e (hsub.subset he) hne))
        rw [hb]; rfl
      · rw [if_neg hin, hl3 _ hin, hL2 _ hne]
        exact hI.unlocked e (hsub.subset he)
    · intro e he
      apply hI.dom e
      simp only [List.mem_append, List.mem_cons] at he ⊢; tauto
    · exact List.Pairwise.sublist hsub hI.sorted
    · exact List.Nodup.sublist (hsub.map _) hnd
    · intro k hk
      show List.Chain' (Link h5 k) (hd :: atLevel k (P ++ R) ++ [tl])
      have hlk : List.Chain' (Link s.nodes k) (hd :: atLevel k (P ++ v :: R) ++ [tl]) :=
        hI.links k hk
      by_cases hkl : k ≤ v.level
      · apply chain_remove_at (F := Link s.nodes k) hnd hlk hkl
        · intro a b _ hne hab
          unfold Link at hab ⊢
          rw [hG]
          have e1 : ¬ (k < v.level + 1 ∧ a.addr = (predAt hd P k).addr) := fun h => hne h.2
          rw [if_neg e1]
          exact hab
        · unfold Link
          rw [hG, if_pos ⟨by omega, rfl⟩]
      · apply chain_remove_above (F := Link s.nodes k) hlk (by omega)
        intro a b _ hab
        unfold Link at hab ⊢
        rw [hG]
        have e1 : ¬ (k < v.level + 1 ∧ a.addr = (predAt hd P k).addr) := fun h => by omega
        rw [if_neg e1]
        exact hab
    · have hl := hI.v1_length_lt
      have hc := hI.count
      show fetchSub1 s.elementsCount = (P ++ R).length
      simp only [List.length_append, List.length_cons] at hl hc ⊢
      rw [hc, fetchSub1_eq (by omega)]
      · simp
      · simp only [UINT64_MAX] at hl
        omega

end V1

namespace V1

/-! ## V1: the held intervals and the reachable states -/

theorem v1_chainAfter_spec (h : List Node_V1) (stop k : Nat) :
    ∀ (Y : List Entry) (p t : Entry) (fuel : Nat),
      List.Chain' (Link h k) (p :: Y ++ [t]) → t.addr = stop →
      (∀ e ∈ Y, e.addr ≠ stop ∧ e.addr ≠ 0) → Y.length < fuel →
      chainAfter h stop k fuel p.addr = Y.map Entry.addr := by
  intro Y
  induction Y with
  | nil =>
    intro p t fuel hc ht _ hf
    obtain ⟨f, rfl⟩ : ∃ f, fuel = f + 1 := ⟨fuel - 1, by simp at hf; omega⟩
    have hl : getNext h p.addr k = some t.addr := (List.chain'_cons.mp hc).1
    simp [chainAfter, hl, ht]
  | cons y Y ih =>
    intro p t fuel hc ht hY hf
    obtain ⟨f, rfl⟩ : ∃ f, fuel = f + 1 := ⟨fuel - 1, by simp at hf; omega⟩
    have hc' : List.Chain' (Link h k) (p :: y :: (Y ++ [t])) := hc
    rw [List.chain'_cons] at hc'
    have hl : getNext h p.addr k = some y.addr := hc'.1
    have hy := hY y (List.mem_cons_self _ _)
    have := ih y t f hc'.2 ht (fun e he => hY e (List.mem_cons_of_mem _ he))
      (by simp at hf; omega)
    simp [chainAfter, hl, hy.1, hy.2, this]

theorem Inv.v1_addr_ne {s : ConcurrentRangeLock_V1} {L : List Entry} (hI : Inv s L) {e : Entry}
    (he : e ∈ L) : e.addr ≠ s.tail ∧ e.addr ≠ 0 := by
  constructor
  · intro h
    rw [hI.tail_eq] at h
    have hnd := hI.nodup
    have e1 : headE s.maxLevel :: L ++ [tailE s.maxLevel] =
        (headE s.maxLevel :: L) ++ [tailE s.maxLevel] := by simp
    rw [e1, List.map_append, List.nodup_append] at hnd
    exact hnd.2.2 (List.mem_map.mpr ⟨e, List.mem_cons_of_mem _ he, rfl⟩)
      (by simp [h])
  · obtain ⟨n, hn, -⟩ := v1_Shape_deref (hI.shape e (by simp [he]))
    exact deref_ne_zero hn

theorem Inv.v1_levelNodes_eq {s : ConcurrentRangeLock_V1} {L : List Entry} (hI : Inv s L)
    {k : Nat} (hk : k ≤ s.maxLevel) : levelNodes s k = (atLevel k L).map Entry.addr := by
  unfold levelNodes
  rw [hI.head_eq]
  apply v1_chainAfter_spec s.nodes s.tail k (atLevel k L) (headE s.maxLevel)
    (tailE s.maxLevel) _ (hI.links k hk) hI.tail_eq.symm
  · intro e he
    exact hI.v1_addr_ne (mem_atLevel.mp he).1
  · have := hI.v1_heap_length
    have := (atLevel_sublist k L).length_le
    omega

theorem Inv.v1_held_eq {s : ConcurrentRangeLock_V1} {L : List Entry} (hI : Inv s L) :
    held s = L.map fun e => (e.start, e.end_) := by
  unfold held
  rw [hI.v1_levelNodes_eq (Nat.zero_le _), atLevel_zero, List.filterMap_map]
  have : ∀ (M : List Entry), (∀ e ∈ M, Shape s.nodes e) →
      List.filterMap ((fun p => Option.map (fun n => (n.start, n.end_)) (deref s.nodes p)) ∘
        Entry.addr) M = M.map fun e => (e.start, e.end_) := by
    intro M
    induction M with
    | nil => intro _; rfl
    | cons a M ih =>
      intro hM
      obtain ⟨n, hn, h1, h2, -⟩ := v1_Shape_deref (hM a (List.mem_cons_self _ _))
      rw [List.filterMap_cons, List.map_cons]
      simp only [Function.comp, hn, Option.map_some', h1, h2]
      rw [← ih (fun e he => hM e (List.mem_cons_of_mem _ he))]
  exact this L (fun e he => hI.shape e (by simp [he]))

theorem v1_initHead_spec (head tail : Nat) :
    ∀ (n level : Nat) (h : List Node_V1) (hn : Node_V1), deref h head = some hn →
      level + n ≤ hn.next.length →
      ∃ h1 hn1, initHead head tail n level h = some h1 ∧ deref h1 head = some hn1 ∧
        (∀ a, a ≠ head → deref h1 a = deref h a) ∧
        hn1.start = hn.start ∧ hn1.end_ = hn.end_ ∧ hn1.topLevel = hn.topLevel ∧
        hn1.marked = hn.marked ∧ hn1.locked = hn.locked ∧
        hn1.next.length = hn.next.length ∧
        ∀ j, hn1.next[j]? =
          if level ≤ j ∧ j < level + n then some tail else hn.next[j]? := by
  intro n
  induction n with
  | zero =>
    intro level h hn hd _
    refine ⟨h, hn, rfl, hd, fun _ _ => rfl, rfl, rfl, rfl, rfl, rfl, rfl, ?_⟩
    intro j
    have : ¬ (level ≤ j ∧ j < level + 0) := by omega
    rw [if_neg this]
  | succ n ih =>
    intro level h hn hd hlen
    have hs : setNext h head level tail =
        some (store h head { hn with next := hn.next.set level tail }) := by
      unfold setNext
      rw [hd]
      simp only
      rw [if_pos (by omega)]
    have hd1 : deref (store h head { hn with next := hn.next.set level tail }) head =
        some { hn with next := hn.next.set level tail } := deref_store_same hd
    obtain ⟨h2, hn2, hr, hd2, hoth, e1, e2, e3, e4, e5, e6, e7⟩ :=
      ih (level + 1) _ _ hd1 (by simp; omega)
    refine ⟨h2, hn2, ?_, hd2, ?_, e1, e2, e3, e4, e5, by simpa using e6, ?_⟩
    · rw [initHead, hs]
      exact hr
    · intro a ha
      rw [hoth a ha, deref_store_ne _ _ ha]
    · intro j
      rw [e7]
      simp only [List.getElem?_set]
      by_cases hj : j = level
      · subst hj
        have c1 : ¬ (j + 1 ≤ j ∧ j < j + 1 + n) := by omega
        have c2 : j ≤ j ∧ j < j + (n + 1) := by omega
        rw [if_neg c1, if_pos c2]
        simp
        omega
      · have c0 : ¬ level = j := fun h => hj h.symm
        by_cases hc : level + 1 ≤ j ∧ j < level + 1 + n
        · have c2 : level ≤ j ∧ j < level + (n + 1) := by omega
          rw [if_pos hc, if_pos c2]
        · have c2 : ¬ (level ≤ j ∧ j < level + (n + 1)) := by omega
          rw [if_neg hc, if_neg c2]
          simp [c0]

theorem Inv.v1_fresh (maxLevel : Nat) : Inv (ConcurrentRangeLock_V1.new maxLevel) [] := by
  have hd0 : deref (createNode_V1 (createNode_V1 [] 0 0 maxLevel).1 UINT64_MAX UINT64_MAX
      maxLevel).1 (addrOf 0) =
      some ⟨0, 0, maxLevel, List.replicate (maxLevel + 1) 0, false, false, false⟩ := by
    simp [createNode_V1, alloc, deref_addrOf]
  have hd1 : deref (createNode_V1 (createNode_V1 [] 0 0 maxLevel).1 UINT64_MAX UINT64_MAX
      maxLevel).1 (addrOf 1) =
      some ⟨UINT64_MAX, UINT64_MAX, maxLevel, List.replicate (maxLevel + 1) 0, false, false,
        false⟩ := by
    simp [createNode_V1, alloc, deref_addrOf]
  obtain ⟨h1, hn1, hr, hdn, hoth, e1, e2, e3, e4, e5, e6, e7⟩ :=
    v1_initHead_spec (addrOf 0) (addrOf 1) (maxLevel + 1) 0 _ _ hd0 (by simp)
  have hnodes : (ConcurrentRangeLock_V1.new maxLevel).nodes = h1 := by
    show Option.getD (initHead (addrOf 0) (addrOf 1) (maxLevel + 1) 0
      (createNode_V1 (createNode_V1 [] 0 0 maxLevel).1 UINT64_MAX UINT64_MAX maxLevel).1)
      (createNode_V1 (createNode_V1 [] 0 0 maxLevel).1 UINT64_MAX UINT64_MAX maxLevel).1 = h1
    rw [hr]; rfl
  have htail : deref h1 (addrOf 1) = _ := (hoth (addrOf 1) (by simp [addrOf])).trans hd1
  refine ⟨rfl, rfl, ?_, ?_, ?_, ?_, ?_, ?_, rfl⟩
  · intro e he
    have he' : e = headE maxLevel ∨ e = tailE maxLevel := by simpa using he
    show Shape (ConcurrentRangeLock_V1.new maxLevel).nodes e
    rw [hnodes]
    rcases he' with rfl | rfl
    · unfold Shape viewOf
      show Option.map _ (deref h1 (addrOf 0)) = _
      rw [hdn]
      simp [e1, e2, e3, e4, e6, headE]
    · unfold Shape viewOf
      show Option.map _ (deref h1 (addrOf 1)) = _
      rw [htail]
      simp [tailE]
  · intro e he
    have he' : e = headE maxLevel ∨ e = tailE maxLevel := by simpa using he
    show lockOf (ConcurrentRangeLock_V1.new maxLevel).nodes e.addr = some false
    rw [hnodes]
    rcases he' with rfl | rfl
    · unfold lockOf
      show Option.map _ (deref h1 (addrOf 0)) = _
      rw [hdn]
      simp [e5]
    · unfold lockOf
      show Option.map _ (deref h1 (addrOf 1)) = _
      rw [htail]
      simp
  · intro e he; cases he
  · simp [headE, tailE, UINT64_MAX]
  · simp [headE, tailE, addrOf]
  · intro k hk
    show List.Chain' _ [headE maxLevel, tailE maxLevel]
    simp only [List.chain'_cons, List.chain'_singleton, and_true]
    show getNext (ConcurrentRangeLock_V1.new maxLevel).nodes (addrOf 0) k = some (addrOf 1)
    rw [hnodes]
    unfold getNext
    rw [hdn]
    show hn1.next[k]? = some (addrOf 1)
    rw [e7]
    have hk' : k ≤ maxLevel := hk
    rw [if_pos (by omega)]

end V1

namespace V1

theorem v1_heap_pos {s : ConcurrentRangeLock_V1} {L : List Entry} (hI : Inv s L) :
    ∃ f, s.nodes.length = f + 1 :=
  ⟨s.nodes.length - 1, by have := hI.v1_heap_length; omega⟩

/-- The functional behaviour of `tryLock` on a well-formed list: it refuses exactly when some
held interval `(s, e)` has `start < e` and `s <= end_`. -/
theorem v1_tryLock_spec {s : ConcurrentRangeLock_V1} {L : List Entry} (hI : Inv s L)
    (hml : 1 ≤ s.maxLevel)
    {start end_ : Nat} (h1 : 1 ≤ start) (h2 : start < end_) (h3 : end_ ≤ UINT64_MAX - 1)
    (rand : Nat → Nat) :
    ((∃ e ∈ L, ¬ e.end_ ≤ start ∧ ¬ end_ < e.start) ∧
        tryLock s start end_ rand = some (false, s)) ∨
    ((∀ e ∈ L, e.end_ ≤ start ∨ end_ < e.start) ∧
      ∃ s1 P R q, L = P ++ R ∧ tryLock s start end_ rand = some (true, s1) ∧
        s1.maxLevel = s.maxLevel ∧
        Inv s1 (P ++ ⟨q, start, end_, generateRandomLevel rand s.maxLevel⟩ :: R)) := by
  have hM : start < UINT64_MAX := by omega
  have hs := hI.v1_split hM
  have hPR := (List.takeWhile_append_dropWhile (fun e => decide (e.end_ ≤ start)) L).symm
  generalize List.takeWhile (fun e => decide (e.end_ ≤ start)) L = P at hs hPR
  generalize List.dropWhile (fun e => decide (e.end_ ≤ start)) L = R at hs hPR
  obtain ⟨f, hf⟩ := v1_heap_pos hI
  by_cases hgap : end_ < (succAt (tailE s.maxLevel) R 0).start
  · right
    refine ⟨?_, ?_⟩
    · intro e he
      rw [hPR] at he
      rcases List.mem_append.mp he with h | h
      · exact Or.inl (hs.before e h)
      · right
        cases R with
        | nil => cases h
        | cons r R' =>
          rw [succAt_zero_cons] at hgap
          rcases List.mem_cons.mp h with h | h
          · rw [h]; exact hgap
          · have hsorted := hI.sorted
            rw [hPR] at hsorted
            have e2 : headE s.maxLevel :: (P ++ r :: R') ++ [tailE s.maxLevel] =
                (headE s.maxLevel :: P) ++ r :: (R' ++ [tailE s.maxLevel]) := by simp
            rw [e2, List.pairwise_append] at hsorted
            have h5 := (List.pairwise_cons.mp hsorted.2.1).1 e (List.mem_append_left _ h)
            have h6 := hI.dom r (by rw [hPR]; simp)
            omega
    · obtain ⟨s1, q, hr, hm, hI1⟩ := v1_tryLockLoop_insert hI h1 h2 h3 hPR hs hgap
        (v1_generateRandomLevel_bounds rand hml).2 f
      refine ⟨s1, P, R, q, hPR, ?_, hm, hI1⟩
      unfold tryLock
      rw [hf]
      exact hr
  · left
    refine ⟨?_, ?_⟩
    · cases R with
      | nil =>
        rw [succAt_nil] at hgap
        simp only [tailE] at hgap
        omega
      | cons r R' =>
        rw [succAt_zero_cons] at hgap
        refine ⟨r, by rw [hPR]; simp, ?_, hgap⟩
        exact hs.after r (by simp)
    · unfold tryLock
      rw [hf]
      exact v1_tryLockLoop_overlap hI hPR hs (by omega) _ f

/-- On a well-formed list `tryLock` refuses an interval that meets a held one, whatever the
number of levels. -/
theorem v1_tryLock_meets {s : ConcurrentRangeLock_V1} {L : List Entry} (hI : Inv s L)
    {start end_ : Nat}
    (rand : Nat → Nat) (hov : ∃ e ∈ L, ¬ e.end_ ≤ start ∧ ¬ end_ < e.start) :
    tryLock s start end_ rand = some (false, s) := by
  have hM : start < UINT64_MAX := by
    obtain ⟨e, he, h1, h2⟩ := hov
    have := hI.dom e he
    omega
  have hs := hI.v1_split hM
  have hPR := (List.takeWhile_append_dropWhile (fun e => decide (e.end_ ≤ start)) L).symm
  generalize List.takeWhile (fun e => decide (e.end_ ≤ start)) L = P at hs hPR
  generalize List.dropWhile (fun e => decide (e.end_ ≤ start)) L = R at hs hPR
  obtain ⟨f, hf⟩ := v1_heap_pos hI
  unfold tryLock
  rw [hf]
  apply v1_tryLockLoop_overlap hI hPR hs _ _ f
  obtain ⟨e, he, hx, hy⟩ := hov
  rw [hPR] at he
  rcases List.mem_append.mp he with h | h
  · exact absurd (hs.before e h) hx
  · cases R with
    | nil => cases h
    | cons r R' =>
      rw [succAt_zero_cons]
      rcases List.mem_cons.mp h with h | h
      · rw [← h]; omega
      · have hsorted := hI.sorted
        rw [hPR] at hsorted
        have e2 : headE s.maxLevel :: (P ++ r :: R') ++ [tailE s.maxLevel] =
            (headE s.maxLevel :: P) ++ r :: (R' ++ [tailE s.maxLevel]) := by simp
        rw [e2, List.pairwise_append] at hsorted
        have h5 := (List.pairwise_cons.mp hsorted.2.1).1 e (List.mem_append_left _ h)
        have h6 := hI.dom r (by rw [hPR]; simp)
        omega

/-- Releasing an interval that is not held ends the process through `exit(0)`. -/
theorem v1_releaseLock_absent {s : ConcurrentRangeLock_V1} {L : List Entry} (hI : Inv s L)
    {start end_ : Nat} (hM : start < UINT64_MAX)
    (habs : ∀ e ∈ L, ¬ (e.start = start ∧ e.end_ = end_)) :
    releaseLock s start end_ = some (Ret.exited, s) := by
  have hs := hI.v1_split hM
  have hPR := (List.takeWhile_append_dropWhile (fun e => decide (e.end_ ≤ start)) L).symm
  generalize List.takeWhile (fun e => decide (e.end_ ≤ start)) L = P at hs hPR
  generalize List.dropWhile (fun e => decide (e.end_ ≤ start)) L = R at hs hPR
  obtain ⟨f, hf⟩ := v1_heap_pos hI
  obtain ⟨preds, succs, hfe, -⟩ := v1_findExact_spec hI hPR hs end_
  have hscan : scanLevels (fun j => decide (start = (succAt (tailE s.maxLevel) R j).start ∧
      end_ = (succAt (tailE s.maxLevel) R j).end_)) (s.maxLevel + 1) (-1) = -1 := by
    rw [scanLevels_eq_neg_one]
    intro j _
    simp only [decide_eq_false_iff_not]
    intro hc
    rcases List.mem_append.mp (succAt_mem_all (tailE s.maxLevel) R j) with h | h
    · exact habs _ (by rw [hPR]; exact List.mem_append_right _ h) ⟨hc.1.symm, hc.2.symm⟩
    · simp only [List.mem_singleton] at h
      rw [h] at hc
      simp only [tailE] at hc
      omega
  rw [hscan] at hfe
  unfold releaseLock
  rw [hf, releaseLockLoop, hfe]
  simp

theorem v1_Reachable_inv {maxLevel : Nat} (hml : 1 ≤ maxLevel) {s : ConcurrentRangeLock_V1}
    (hR : Reachable maxLevel s) : s.maxLevel = maxLevel ∧ ∃ L, Inv s L := by
  induction hR with
  | fresh => exact ⟨rfl, [], Inv.v1_fresh maxLevel⟩
  | tryLock _ h1 h2 h3 hrun ih =>
    obtain ⟨hm, L, hI⟩ := ih
    rcases v1_tryLock_spec hI (by omega) h1 h2 h3 _ with
      ⟨-, hr⟩ | ⟨-, s2, P, R, q, -, hr, hm2, hI2⟩
    · rw [hr] at hrun
      cases hrun
      exact ⟨hm, L, hI⟩
    · rw [hr] at hrun
      cases hrun
      exact ⟨hm2.trans hm, _, hI2⟩
  | @releaseLock s0 s1 start end_ r _ h1 h2 h3 hrun ih =>
    obtain ⟨hm, L, hI⟩ := ih
    by_cases hheld : ∃ e ∈ L, e.start = start ∧ e.end_ = end_
    · obtain ⟨v, hv, rfl, rfl⟩ := hheld
      obtain ⟨P, R, rfl⟩ := List.append_of_mem hv
      obtain ⟨f, hf⟩ := v1_heap_pos hI
      obtain ⟨s2, hr, hm2, hI2⟩ := v1_releaseLockLoop_held hI f (-1)
      unfold V1.releaseLock at hrun
      rw [hf, hr] at hrun
      cases hrun
      exact ⟨hm2.trans hm, _, hI2⟩
    · have habs : ∀ e ∈ L, ¬ (e.start = start ∧ e.end_ = end_) := fun e he hc =>
        hheld ⟨e, he, hc⟩
      rw [v1_releaseLock_absent hI (by omega) habs] at hrun
      cases hrun

end V1

namespace V1

/-! ## V1: releasing twice -/

theorem v1_releaseLock_held {s : ConcurrentRangeLock_V1} {P R : List Entry} {v : Entry}
    (hI : Inv s (P ++ v :: R)) :
    ∃ s1, releaseLock s v.start v.end_ = some (Ret.ret true, s1) ∧
      s1.maxLevel = s.maxLevel ∧ Inv s1 (P ++ R) := by
  obtain ⟨f, hf⟩ := v1_heap_pos hI
  obtain ⟨s2, hr, hm2, hI2⟩ := v1_releaseLockLoop_held hI f (-1)
  refine ⟨s2, ?_, hm2, hI2⟩
  unfold releaseLock
  rw [hf, hr]

theorem Inv.v1_intervals_ne {s : ConcurrentRangeLock_V1} {P R : List Entry} {v : Entry}
    (hI : Inv s (P ++ v :: R)) :
    ∀ e ∈ P ++ R, ¬ (e.start = v.start ∧ e.end_ = v.end_) := by
  have hsorted := hI.sorted
  have e2 : headE s.maxLevel :: (P ++ v :: R) ++ [tailE s.maxLevel] =
      (headE s.maxLevel :: P) ++ v :: (R ++ [tailE s.maxLevel]) := by simp
  rw [e2, List.pairwise_append] at hsorted
  have hv := hI.dom v (by simp)
  intro e he hc
  rcases List.mem_append.mp he with h | h
  · have h1 := hsorted.2.2 e (List.mem_cons_of_mem _ h) v (List.mem_cons_self _ _)
    have h2 := hI.dom e (by simp [h])
    omega
  · have h1 := (List.pairwise_cons.mp hsorted.2.1).1 e (List.mem_append_left _ h)
    omega

end V1

namespace V0

/-! ## V0: the packed word, the cells and the heap -/

theorem v0_pack_false (x : Nat) : pack x false = x := by
  simp [pack]

theorem v0_lor_one_even (q : Nat) : (2 * q) ||| 1 = 2 * q + 1 := by
  have h1 : 2 * q = Nat.bit false q := by simp [Nat.bit_val]
  have h2 : (1 : Nat) = Nat.bit true 0 := by simp [Nat.bit_val]
  rw [h1, h2, Nat.lor_bit]
  simp [Nat.bit_val]

theorem v0_pack_true {x : Nat} (hx : x % 2 = 0) : pack x true = x + 1 := by
  obtain ⟨q, rfl⟩ : ∃ q, x = 2 * q := ⟨x / 2, by omega⟩
  simp [pack, v0_lor_one_even]

theorem v0_unpack_even {x : Nat} (hx : x % 2 = 0) : unpack x = (x, false) := by
  simp [unpack, MARK_MASK, Nat.and_one_is_mod, hx]

theorem v0_unpack_odd {x : Nat} (hx : x % 2 = 0) : unpack (x + 1) = (x, true) := by
  have h1 : (x + 1) % 2 = 1 := by omega
  simp [unpack, MARK_MASK, Nat.and_one_is_mod, h1]

theorem v0_getCell_of_deref {h : List Node} {p : Nat} {n : Node} (hd : deref h p = some n)
    (k : Nat) : getCell h p k = n.next[k]? := by
  simp [getCell, hd]

theorem v0_setCell_of_Agree {h : List Node} {e : Entry} (hA : Agree h e) {k : Nat}
    (hk : k ≤ e.level) (c : AtomicMarkableReference) :
    ∃ h1, setCell h e.addr k c = some h1 := by
  obtain ⟨n, hn, -, -, -, hl⟩ := hA
  have : k < n.next.length := by omega
  exact ⟨store h e.addr { n with next := n.next.set k c }, by simp [setCell, hn, this]⟩

theorem v0_deref_setCell {h h1 : List Node} {p k : Nat} {c : AtomicMarkableReference}
    (hs : setCell h p k c = some h1) (a : Nat) :
    deref h1 a = (deref h a).map fun n =>
      if a = p then { n with next := n.next.set k c } else n := by
  unfold setCell at hs
  cases hp : deref h p with
  | none => simp [hp] at hs
  | some n =>
    simp only [hp] at hs
    split at hs
    · cases hs
      rw [deref_store]
      by_cases ha : a = p
      · subst ha
        simp [hp]
      · rw [if_neg ha]
        cases deref h a <;> simp [ha]
    · cases hs

theorem v0_getCell_setCell {h h1 : List Node} {p k : Nat} {c : AtomicMarkableReference}
    (hs : setCell h p k c = some h1) (a j : Nat) :
    getCell h1 a j = if a = p ∧ j = k then some c else getCell h a j := by
  have hd := v0_deref_setCell hs a
  unfold getCell
  rw [hd]
  unfold setCell at hs
  cases hp : deref h p with
  | none => simp [hp] at hs
  | some n =>
    simp only [hp] at hs
    split at hs
    · rename_i hlt
      by_cases ha : a = p
      · subst ha
        simp only [hp, Option.map_some', if_true, true_and]
        by_cases hj : j = k
        · subst hj
          simp [hlt]
        · rw [if_neg hj, List.getElem?_set]
          have : ¬ k = j := fun h => hj h.symm
          simp [this]
      · have e1 : ¬ (a = p ∧ j = k) := fun h => ha h.1
        rw [if_neg e1]
        cases deref h a <;> simp [ha]
    · cases hs

theorem v0_length_setCell {h h1 : List Node} {p k : Nat} {c : AtomicMarkableReference}
    (hs : setCell h p k c = some h1) : h1.length = h.length := by
  unfold setCell at hs
  cases hp : deref h p with
  | none => simp [hp] at hs
  | some n =>
    simp only [hp] at hs
    split at hs
    · cases hs
      exact length_store _ _ _
    · cases hs

theorem v0_Agree_setCell {h h1 : List Node} {p k : Nat} {c : AtomicMarkableReference}
    (hs : setCell h p k c = some h1) (e : Entry) : Agree h1 e ↔ Agree h e := by
  have hd := v0_deref_setCell hs e.addr
  unfold Agree
  rw [hd]
  constructor
  · rintro ⟨n, hn, h1, h2, h3, h4⟩
    cases hm : deref h e.addr with
    | none => simp [hm] at hn
    | some m =>
      simp only [hm, Option.map_some', Option.some.injEq] at hn
      refine ⟨m, rfl, ?_, ?_, ?_, ?_⟩
      · rw [← h1, ← hn]; split <;> rfl
      · rw [← h2, ← hn]; split <;> rfl
      · rw [← h3, ← hn]; split <;> rfl
      · rw [← h4, ← hn]; split <;> simp
  · rintro ⟨n, hn, h1, h2, h3, h4⟩
    refine ⟨_, by rw [hn]; rfl, ?_, ?_, ?_, ?_⟩
    · rw [← h1]; split <;> rfl
    · rw [← h2]; split <;> rfl
    · rw [← h3]; split <;> rfl
    · rw [← h4]; split <;> simp

theorem v0_Agree_addr_lt {h : List Node} {e : Entry} (hA : Agree h e) :
    e.addr < addrOf h.length := by
  obtain ⟨m, hm, _⟩ := hA
  exact deref_lt hm

theorem v0_Agree_even {h : List Node} {e : Entry} (hA : Agree h e) : e.addr % 2 = 0 := by
  obtain ⟨m, hm, _⟩ := hA
  obtain ⟨i, hi, -⟩ := deref_some_addr hm
  rw [hi]
  exact addrOf_even i

theorem v0_Agree_getCell {h : List Node} {e : Entry} (hA : Agree h e) {k : Nat}
    (hk : k ≤ e.level) : ∃ c, getCell h e.addr k = some c := by
  obtain ⟨n, hn, -, -, -, hl⟩ := hA
  rw [v0_getCell_of_deref hn]
  have : k < n.next.length := by omega
  exact ⟨n.next[k], by simp [this]⟩

theorem v0_casCell_hit {h h1 : List Node} {p k er nr : Nat} {em nm : Bool}
    (hg : getCell h p k = some ⟨pack er em⟩) (hs : setCell h p k ⟨pack nr nm⟩ = some h1) :
    casCell h p k er nr em nm = some (true, h1) := by
  simp [casCell, hg, AtomicMarkableReference.compareAndSet, hs]

theorem v0_Link_unmarked {h : List Node} {k : Nat} {a b : Entry} (hl : Link h k a b)
    (hb : Agree h b) : Unmarked h k a :=
  ⟨b.addr, hl, v0_Agree_even hb⟩

end V0

namespace V0

/-! ## V0: the walk shared by `findInsert`, `findExact` and `findDelete` -/

theorem v0_snipLoop_unmarked (level pred fuel : Nat) (h : List Node) (curr succ : Nat) :
    snipLoop level pred fuel h curr succ false = some (true, h, curr, succ) := by
  cases fuel <;> simp [snipLoop]

theorem v0_getReference_even {x : Nat} (hx : x % 2 = 0) :
    AtomicMarkableReference.getReference ⟨x⟩ = x := by
  simp [AtomicMarkableReference.getReference, v0_unpack_even hx]

theorem v0_get_even {x : Nat} (hx : x % 2 = 0) :
    AtomicMarkableReference.get ⟨x⟩ = (x, false) := by
  simp [AtomicMarkableReference.get, v0_unpack_even hx]

theorem v0_get_odd {x : Nat} (hx : x % 2 = 0) :
    AtomicMarkableReference.get ⟨x + 1⟩ = (x, true) := by
  simp [AtomicMarkableReference.get, v0_unpack_odd hx]

theorem v0_walkLevel_advance {enter advance : Node → Bool} (hE : Ext enter) (hV : Ext advance)
    (h : List Node) (budget k : Nat) :
    ∀ (Y : List Entry) (p c : Entry) (f : Nat),
      List.Chain' (Link h k) (Y ++ [c]) →
      (∀ e ∈ Y, Agree h e ∧ enter (nodeOf e) = true ∧ advance (nodeOf e) = true) →
      Agree h c →
      walkLevel enter advance budget k (Y.length + f) h p.addr ((Y ++ [c]).headD c).addr =
        walkLevel enter advance budget k f h (Y.getLastD p).addr c.addr := by
  intro Y
  induction Y with
  | nil =>
    intro p c f _ _ _
    simp
  | cons y Y ih =>
    intro p c f hc hY hAc
    have hc' : List.Chain' (Link h k) (y :: (Y ++ [c])) := hc
    obtain ⟨hyA, hye, hya⟩ := hY y (List.mem_cons_self _ _)
    obtain ⟨n, hn, hns, hne, -, -⟩ := hyA
    have hnxA : Agree h ((Y ++ [c]).headD c) := by
      cases Y with
      | nil => exact hAc
      | cons z Z => exact (hY z (by simp)).1
    have hl : Link h k y ((Y ++ [c]).headD c) := by
      cases Y with
      | nil => exact (List.chain'_cons.mp hc').1
      | cons z Z => exact (List.chain'_cons.mp hc').1
    have hcell : n.next[k]? = some ⟨((Y ++ [c]).headD c).addr⟩ := by
      rw [← v0_getCell_of_deref hn]; exact hl
    have hev := v0_Agree_even hnxA
    have e1 : enter n = true := by rw [hE n y hns hne]; exact hye
    have e2 : advance n = true := by rw [hV n y hns hne]; exact hya
    have hih := ih y c f (List.chain'_cons'.mp hc').2 (fun e he => hY e (List.mem_cons_of_mem _ he))
      hAc
    have hlen : (y :: Y).length + f = (Y.length + f) + 1 := by simp; omega
    rw [hlen, List.getLastD_cons]
    show walkLevel enter advance budget k (Y.length + f + 1) h p.addr y.addr = _
    rw [walkLevel]
    simp only [hn, e1, if_true, hcell, v0_get_even hev, v0_snipLoop_unmarked, e2]
    exact hih

theorem v0_walkLevel_stop {enter advance : Node → Bool} (hE : Ext enter) (hV : Ext advance)
    {h : List Node} (budget : Nat) {k : Nat} {c : Entry} (hAc : Agree h c)
    (hU : Unmarked h k c)
    (hstop : ¬ (enter (nodeOf c) = true ∧ advance (nodeOf c) = true)) (p f : Nat) :
    walkLevel enter advance budget k (f + 1) h p c.addr = some (true, h, p, c.addr) := by
  obtain ⟨n, hn, hns, hne, -, -⟩ := hAc
  obtain ⟨q, hq, hqe⟩ := hU
  rw [v0_getCell_of_deref hn] at hq
  rw [walkLevel]
  simp only [hn]
  by_cases he : enter n = true
  · have ha : advance n = false := by
      rw [hE n c hns hne] at he
      rw [hV n c hns hne]
      cases hx : advance (nodeOf c)
      · rfl
      · exact absurd ⟨he, hx⟩ hstop
    simp [he, hq, v0_get_even hqe, v0_snipLoop_unmarked, hn, ha]
  · simp [he]

theorem v0_walkLevel_snip {enter advance : Node → Bool} (hE : Ext enter) (hV : Ext advance)
    {h : List Node} {budget k : Nat} {pe v c : Entry} (hAp : Agree h pe) (hk : k ≤ pe.level)
    (hl : Link h k pe v) (hAv : Agree h v) (hev : enter (nodeOf v) = true)
    (hm : Marked h k v c) (hAc : Agree h c) (hU : Unmarked h k c)
    (hne : c.addr ≠ pe.addr) (hstop : advance (nodeOf c) = false) (hb : 1 ≤ budget)
    (f : Nat) :
    ∃ h1, setCell h pe.addr k ⟨c.addr⟩ = some h1 ∧
      walkLevel enter advance budget k (f + 1) h pe.addr v.addr =
        some (true, h1, pe.addr, c.addr) := by
  obtain ⟨h1, hs⟩ := v0_setCell_of_Agree hAp hk ⟨c.addr⟩
  refine ⟨h1, hs, ?_⟩
  obtain ⟨b, rfl⟩ : ∃ b, budget = b + 1 := ⟨budget - 1, by omega⟩
  have hAc1 : Agree h1 c := (v0_Agree_setCell hs c).mpr hAc
  have hcev := v0_Agree_even hAc
  obtain ⟨vn, hvn, hvs, hve, -, -⟩ := hAv
  obtain ⟨cn, hcn, hcs, hce, -, -⟩ := hAc1
  obtain ⟨q, hq, hqe⟩ := hU
  have hvcell : vn.next[k]? = some ⟨c.addr + 1⟩ := by
    rw [← v0_getCell_of_deref hvn]; exact hm
  have e1 : enter vn = true := by rw [hE vn v hvs hve]; exact hev
  have e2 : advance cn = false := by rw [hV cn c hcs hce]; exact hstop
  have hcas : casCell h pe.addr k v.addr c.addr false false = some (true, h1) := by
    apply v0_casCell_hit
    · rw [v0_pack_false]; exact hl
    · rw [v0_pack_false]; exact hs
  have hg1 : getCell h1 pe.addr k = some ⟨c.addr⟩ := by
    rw [v0_getCell_setCell hs]; simp
  have hg2 : getCell h1 c.addr k = some ⟨q⟩ := by
    rw [v0_getCell_setCell hs]
    have : ¬ (c.addr = pe.addr ∧ k = k) := fun h => hne h.1
    rw [if_neg this]; exact hq
  rw [walkLevel]
  simp only [hvn, e1, if_true, hvcell, v0_get_odd hcev]
  rw [snipLoop]
  simp only [if_true, hcas, Bool.not_true, Bool.false_eq_true, if_false, hg1,
    v0_getReference_even hcev, hg2, v0_get_even hqe, v0_snipLoop_unmarked, hcn, e2]

/-! ## V0: a search on a list without marks -/

theorem v0_chain_next {F : Entry → Entry → Prop} :
    ∀ (l : List Entry) (t : Entry), List.Chain' F (l ++ [t]) →
      ∀ e ∈ l, ∃ b ∈ l ++ [t], F e b := by
  intro l
  induction l with
  | nil => intro t _ e he; cases he
  | cons a l ih =>
    intro t hc e he
    have hc' : List.Chain' F (a :: (l ++ [t])) := hc
    rcases List.mem_cons.mp he with rfl | h
    · cases l with
      | nil => exact ⟨t, by simp, (List.chain'_cons.mp hc').1⟩
      | cons b l' => exact ⟨b, by simp, (List.chain'_cons.mp hc').1⟩
    · obtain ⟨b, hb, hF⟩ := ih t (List.chain'_cons'.mp hc').2 e h
      exact ⟨b, List.mem_cons_of_mem _ hb, hF⟩

theorem Wf.v0_agree_level {h : List Node} {maxLevel : Nat} {L : List Entry}
    (hW : Wf h maxLevel L) {k : Nat} {e : Entry}
    (he : e ∈ headE maxLevel :: atLevel k L ++ [tailE maxLevel]) : Agree h e := by
  apply hW.agree
  simp only [List.mem_cons, List.mem_append, List.mem_singleton, mem_atLevel] at he ⊢
  tauto

theorem Wf.v0_unmarked {h : List Node} {maxLevel : Nat} {L : List Entry}
    (hW : Wf h maxLevel L) {k : Nat} (hk : k ≤ maxLevel) {e : Entry}
    (he : e ∈ headE maxLevel :: atLevel k L ++ [tailE maxLevel]) : Unmarked h k e := by
  have he' : e ∈ (headE maxLevel :: atLevel k L) ∨ e = tailE maxLevel := by
    simp only [List.mem_cons, List.mem_append, List.mem_singleton] at he ⊢
    tauto
  rcases he' with h1 | rfl
  · obtain ⟨b, hb, hl⟩ := v0_chain_next _ _ (hW.links k hk) e h1
    exact v0_Link_unmarked hl (hW.v0_agree_level hb)
  · exact ⟨0, hW.tailCells k hk, rfl⟩

theorem Wf.v0_succ_mem {maxLevel : Nat} (P R : List Entry) (k : Nat) :
    succAt (tailE maxLevel) R k ∈
      headE maxLevel :: atLevel k (P ++ R) ++ [tailE maxLevel] := by
  have := succAt_mem (tailE maxLevel) R k
  simp only [List.mem_cons, List.mem_append, List.mem_singleton, atLevel_append] at this ⊢
  tauto

theorem Wf.v0_pred_mem {maxLevel : Nat} (P R : List Entry) (k : Nat) :
    predAt (headE maxLevel) P k ∈
      headE maxLevel :: atLevel k (P ++ R) ++ [tailE maxLevel] := by
  have := predAt_mem (headE maxLevel) P k
  simp only [List.mem_cons, List.mem_append, List.mem_singleton, atLevel_append] at this ⊢
  tauto

theorem v0_walkLevel_chain {enter advance : Node → Bool} (hE : Ext enter) (hV : Ext advance)
    {h : List Node} {maxLevel : Nat} {P R : List Entry} {k : Nat}
    (hc : List.Chain' (Link h k) (headE maxLevel :: atLevel k (P ++ R) ++ [tailE maxLevel]))
    (hagree : ∀ e ∈ headE maxLevel :: (P ++ R) ++ [tailE maxLevel], Agree h e)
    (hU : Unmarked h k (succAt (tailE maxLevel) R k))
    (hbefore : ∀ e ∈ P, enter (nodeOf e) = true ∧ advance (nodeOf e) = true)
    (hafter : ∀ e ∈ R ++ [tailE maxLevel],
      ¬ (enter (nodeOf e) = true ∧ advance (nodeOf e) = true))
    (budget : Nat) {pred : Entry}
    (hp : pred ∈ headE maxLevel :: atLevel k P) {fuel : Nat} (hf : P.length < fuel) :
    ∃ pc, getCell h pred.addr k = some pc ∧
      walkLevel enter advance budget k fuel h pred.addr pc.getReference =
        some (true, h, (predAt (headE maxLevel) P k).addr,
          (succAt (tailE maxLevel) R k).addr) := by
  obtain ⟨X, Y, Z, hxy, hlast, hY, hYl⟩ :=
    level_chain_split (headE maxLevel) (tailE maxLevel) P R k hp
  rw [hxy] at hc
  have hc2 : List.Chain' (Link h k) (pred :: Y ++ succAt (tailE maxLevel) R k :: Z) :=
    (List.chain'_append.mp hc).2.1
  have hc3 : List.Chain' (Link h k) (pred :: (Y ++ [succAt (tailE maxLevel) R k])) := by
    have e1 : pred :: Y ++ succAt (tailE maxLevel) R k :: Z =
        (pred :: (Y ++ [succAt (tailE maxLevel) R k])) ++ Z := by simp
    rw [e1] at hc2
    exact (List.chain'_append.mp hc2).1
  have hAc : Agree h (succAt (tailE maxLevel) R k) := by
    apply hagree
    have := succAt_mem_all (tailE maxLevel) R k
    simp only [List.mem_append, List.mem_cons, List.mem_singleton] at this ⊢
    tauto
  have hYA : ∀ e ∈ Y, Agree h e ∧ enter (nodeOf e) = true ∧ advance (nodeOf e) = true := by
    intro e he
    exact ⟨hagree e (by simp [hY e he]), hbefore e (hY e he)⟩
  have hnxA : Agree h ((Y ++ [succAt (tailE maxLevel) R k]).headD
      (succAt (tailE maxLevel) R k)) := by
    cases Y with
    | nil => exact hAc
    | cons z Z => exact (hYA z (by simp)).1
  have hl : Link h k pred ((Y ++ [succAt (tailE maxLevel) R k]).headD
      (succAt (tailE maxLevel) R k)) := by
    cases Y with
    | nil => exact (List.chain'_cons.mp hc3).1
    | cons z Z => exact (List.chain'_cons.mp hc3).1
  refine ⟨_, hl, ?_⟩
  rw [v0_getReference_even (v0_Agree_even hnxA)]
  obtain ⟨f, rfl⟩ : ∃ f, fuel = Y.length + (f + 1) := ⟨fuel - Y.length - 1, by omega⟩
  rw [v0_walkLevel_advance hE hV h budget k Y pred _ (f + 1) (List.chain'_cons'.mp hc3).2 hYA hAc,
    hlast]
  exact v0_walkLevel_stop hE hV budget hAc hU
    (hafter _ (succAt_mem_all (tailE maxLevel) R k)) _ f

theorem v0_walkLevel_clean {enter advance : Node → Bool} (hE : Ext enter) (hV : Ext advance)
    {h : List Node} {maxLevel : Nat} {P R : List Entry} (hW : Wf h maxLevel (P ++ R))
    (hbefore : ∀ e ∈ P, enter (nodeOf e) = true ∧ advance (nodeOf e) = true)
    (hafter : ∀ e ∈ R ++ [tailE maxLevel],
      ¬ (enter (nodeOf e) = true ∧ advance (nodeOf e) = true))
    (budget : Nat) {k : Nat} (hk : k ≤ maxLevel) {pred : Entry}
    (hp : pred ∈ headE maxLevel :: atLevel k P) {fuel : Nat} (hf : P.length < fuel) :
    ∃ pc, getCell h pred.addr k = some pc ∧
      walkLevel enter advance budget k fuel h pred.addr pc.getReference =
        some (true, h, (predAt (headE maxLevel) P k).addr,
          (succAt (tailE maxLevel) R k).addr) :=
  v0_walkLevel_chain hE hV (hW.links k hk) hW.agree
    (hW.v0_unmarked hk (Wf.v0_succ_mem P R k)) hbefore hafter budget hp hf

theorem v0_findLevels_clean {enter advance : Node → Bool} (hE : Ext enter) (hV : Ext advance)
    {h : List Node} {maxLevel : Nat} {P R : List Entry} (hW : Wf h maxLevel (P ++ R))
    (hbefore : ∀ e ∈ P, enter (nodeOf e) = true ∧ advance (nodeOf e) = true)
    (hafter : ∀ e ∈ R ++ [tailE maxLevel],
      ¬ (enter (nodeOf e) = true ∧ advance (nodeOf e) = true))
    {budget : Nat} (hf : P.length < budget) :
    ∀ (k : Nat) (pred : Entry) (curr : Nat) (preds succs : List Nat), k ≤ maxLevel →
      pred ∈ headE maxLevel :: atLevel k P →
      ∃ preds1 succs1,
        findLevels enter advance budget (k + 1) h pred.addr curr preds succs =
          some (true, h, (predAt (headE maxLevel) P 0).addr,
            (succAt (tailE maxLevel) R 0).addr, preds1, succs1) ∧
        Filled (headE maxLevel) (tailE maxLevel) P R k preds succs preds1 succs1 := by
  intro k
  induction k with
  | zero =>
    intro pred curr preds succs hk hp
    obtain ⟨pc, hc1, hc2⟩ := v0_walkLevel_clean hE hV hW hbefore hafter budget hk hp hf
    refine ⟨_, _, ?_, Filled_zero _ _ P R preds succs⟩
    simp [findLevels, hc1, hc2]
  | succ k ih =>
    intro pred curr preds succs hk hp
    obtain ⟨pc, hc1, hc2⟩ := v0_walkLevel_clean hE hV hW hbefore hafter budget hk hp hf
    have hmem := predAt_mem_lower (headE maxLevel) P (Nat.le_succ k)
    obtain ⟨preds1, succs1, hr, hF⟩ := ih (predAt (headE maxLevel) P (k + 1))
      (succAt (tailE maxLevel) R (k + 1)).addr
      (preds.set (k + 1) (predAt (headE maxLevel) P (k + 1)).addr)
      (succs.set (k + 1) (succAt (tailE maxLevel) R (k + 1)).addr) (by omega) hmem
    refine ⟨preds1, succs1, ?_, Filled_step hF⟩
    rw [findLevels]
    simp only [hc1, hc2]
    exact hr

theorem v0_findLoop_clean (enter advance : Node → Bool) (hE : Ext enter) (hV : Ext advance)
    {h : List Node} {maxLevel : Nat} {P R : List Entry} (hW : Wf h maxLevel (P ++ R))
    (hbefore : ∀ e ∈ P, enter (nodeOf e) = true ∧ advance (nodeOf e) = true)
    (hafter : ∀ e ∈ R ++ [tailE maxLevel],
      ¬ (enter (nodeOf e) = true ∧ advance (nodeOf e) = true))
    {budget : Nat} (hf : P.length < budget) (preds succs : List Nat) :
    ∃ preds1 succs1,
      findLoop enter advance budget maxLevel (headE maxLevel).addr budget h preds succs =
        some (h, (predAt (headE maxLevel) P 0).addr, (succAt (tailE maxLevel) R 0).addr,
          preds1, succs1) ∧
      Filled (headE maxLevel) (tailE maxLevel) P R maxLevel preds succs preds1 succs1 := by
  obtain ⟨preds1, succs1, hr, hF⟩ := v0_findLevels_clean hE hV hW hbefore hafter hf maxLevel
    (headE maxLevel) 0 preds succs (Nat.le_refl _) (List.mem_cons_self _ _)
  refine ⟨preds1, succs1, ?_, hF⟩
  obtain ⟨b, hb⟩ : ∃ b, budget = b + 1 := ⟨budget - 1, by omega⟩
  conv_lhs => arg 6; rw [hb]
  rw [findLoop, hr]

end V0

namespace V0

/-! ## V0: `findInsert` and `findExact` on a list without marks -/

theorem Wf.v0_heap_length {h : List Node} {maxLevel : Nat} {L : List Entry}
    (hW : Wf h maxLevel L) : L.length + 2 ≤ h.length := by
  have := length_le_of_nodup_deref h _ hW.nodup (fun p hp => by
    obtain ⟨e, he, rfl⟩ := List.mem_map.mp hp
    obtain ⟨n, hn, _⟩ := hW.agree e he
    simp [hn])
  simp at this
  omega

theorem Wf.v0_agree_pred {h : List Node} {maxLevel : Nat} {P R : List Entry}
    (hW : Wf h maxLevel (P ++ R)) (k : Nat) : Agree h (predAt (headE maxLevel) P k) := by
  apply hW.agree
  have := predAt_mem_all (headE maxLevel) P k
  simp only [List.mem_append, List.mem_cons, List.mem_singleton] at this ⊢
  tauto

theorem Wf.v0_agree_succ {h : List Node} {maxLevel : Nat} {P R : List Entry}
    (hW : Wf h maxLevel (P ++ R)) (k : Nat) : Agree h (succAt (tailE maxLevel) R k) := by
  apply hW.agree
  have := succAt_mem_all (tailE maxLevel) R k
  simp only [List.mem_append, List.mem_cons, List.mem_singleton] at this ⊢
  tauto

theorem v0_findInsert_spec {s : ConcurrentRangeLock} {P R : List Entry}
    (hW : Wf s.nodes s.maxLevel (P ++ R)) (hhead : s.head = (headE s.maxLevel).addr)
    {start : Nat} (hb : ∀ e ∈ P, e.start < start)
    (ha : ∀ e ∈ R ++ [tailE s.maxLevel], ¬ e.start < start) (end_ : Nat) {budget : Nat}
    (hf : P.length < budget) (preds succs : List Nat) :
    ∃ preds1 succs1, findInsert budget s start end_ preds succs =
        some (!(decide (start > (predAt (headE s.maxLevel) P 0).end_) &&
          decide (end_ < (succAt (tailE s.maxLevel) R 0).start)), s, preds1, succs1) ∧
      Filled (headE s.maxLevel) (tailE s.maxLevel) P R s.maxLevel preds succs preds1 succs1 := by
  obtain ⟨preds1, succs1, hr, hF⟩ := v0_findLoop_clean
    (fun c => decide (start > c.start)) (fun c => decide (start ≥ c.start))
    (by intro n e h1 _; simp [nodeOf, h1]) (by intro n e h1 _; simp [nodeOf, h1]) hW
    (by intro e he; have := hb e he; simp [nodeOf]; omega)
    (by intro e he; have := ha e he; simp [nodeOf]; omega) hf preds succs
  refine ⟨preds1, succs1, ?_, hF⟩
  obtain ⟨pn, hpn, -, hpe, -, -⟩ := hW.v0_agree_pred 0
  obtain ⟨cn, hcn, hcs, -, -, -⟩ := hW.v0_agree_succ 0
  unfold findInsert
  rw [hhead, hr]
  simp only [hpn, hcn, hpe, hcs]
  rw [← hhead]

theorem v0_findExact_spec {s : ConcurrentRangeLock} {P R : List Entry}
    (hW : Wf s.nodes s.maxLevel (P ++ R)) (hhead : s.head = (headE s.maxLevel).addr)
    {start : Nat} (hb : ∀ e ∈ P, e.start ≤ start ∧ e.end_ ≤ start)
    (ha : ∀ e ∈ R ++ [tailE s.maxLevel], ¬ (e.start ≤ start ∧ e.end_ ≤ start)) (end_ : Nat)
    {budget : Nat} (hf : P.length < budget) (preds succs : List Nat) :
    ∃ preds1 succs1, findExact budget s start end_ preds succs =
        some (decide (start = (succAt (tailE s.maxLevel) R 0).start) &&
          decide (end_ = (succAt (tailE s.maxLevel) R 0).end_), s, preds1, succs1) ∧
      Filled (headE s.maxLevel) (tailE s.maxLevel) P R s.maxLevel preds succs preds1 succs1 := by
  obtain ⟨preds1, succs1, hr, hF⟩ := v0_findLoop_clean
    (fun c => decide (start ≥ c.start)) (fun c => decide (start ≥ c.end_))
    (by intro n e h1 _; simp [nodeOf, h1]) (by intro n e _ h2; simp [nodeOf, h2]) hW
    (by intro e he; have := hb e he; simp [nodeOf]; omega)
    (by intro e he; have := ha e he; simp [nodeOf]; omega) hf preds succs
  refine ⟨preds1, succs1, ?_, hF⟩
  obtain ⟨cn, hcn, hcs, hce, -, -⟩ := hW.v0_agree_succ 0
  unfold findExact
  rw [hhead, hr]
  simp only [hcn, hcs, hce]
  rw [← hhead]

end V0

namespace V0

/-! ## V0: the new node of `tryLock` and its linking -/

theorem v0_getCell_congr {h h1 : List Node} {a : Nat} (hd : deref h1 a = deref h a) (j : Nat) :
    getCell h1 a j = getCell h a j := by
  unfold getCell
  rw [hd]

theorem v0_Agree_congr {h h1 : List Node} {e : Entry} (hd : deref h1 e.addr = deref h e.addr) :
    Agree h1 e ↔ Agree h e := by
  unfold Agree
  rw [hd]

theorem v0_initializeNode_fresh (h : List Node) (start end_ lv : Nat) :
    ∃ h3, initializeNode (newNode h).1 (newNode h).2 start end_ lv = some h3 ∧
      ∀ a, deref h3 a = if a = addrOf h.length then
          some ⟨start, end_, lv, List.replicate (lv + 1) AtomicMarkableReference.new⟩
        else deref h a := by
  refine ⟨store (alloc h ⟨0, 0, 0, []⟩).1 (addrOf h.length)
    ⟨start, end_, lv, List.replicate (lv + 1) AtomicMarkableReference.new⟩, ?_, ?_⟩
  · have := deref_alloc_new h (⟨0, 0, 0, []⟩ : Node)
    simp only [initializeNode, newNode, this]
    rfl
  · intro a
    rw [deref_store]
    by_cases ha : a = addrOf h.length
    · subst ha
      have := deref_alloc_new h (⟨0, 0, 0, []⟩ : Node)
      have e : (alloc h (⟨0, 0, 0, []⟩ : Node)).2 = addrOf h.length := rfl
      rw [e] at this
      simp [this]
    · rw [if_neg ha, if_neg ha, deref_alloc, if_neg ha]

theorem v0_storeSuccs_spec (succs : List Nat) (qE : Entry) (sc : Nat → Nat) :
    ∀ (n level : Nat) (h : List Node), level + n = qE.level + 1 →
      (∀ j, level ≤ j → j ≤ qE.level → succs[j]? = some (sc j)) → Agree h qE →
      ∃ h1, storeSuccs succs qE.addr n level h = some h1 ∧
        (∀ e, Agree h1 e ↔ Agree h e) ∧
        ∀ a j, getCell h1 a j =
          if level ≤ j ∧ j ≤ qE.level ∧ a = qE.addr then some ⟨sc j⟩ else getCell h a j := by
  intro n
  induction n with
  | zero =>
    intro level h hk _ _
    refine ⟨h, rfl, fun _ => Iff.rfl, ?_⟩
    intro a j
    have h1 : ¬ (level ≤ j ∧ j ≤ qE.level ∧ a = qE.addr) := by omega
    rw [if_neg h1]
  | succ n ih =>
    intro level h hk hsuccs hq
    have hklv : level ≤ qE.level := by omega
    obtain ⟨c, hc⟩ := v0_Agree_getCell hq hklv
    obtain ⟨h1, hs1⟩ := v0_setCell_of_Agree hq hklv ⟨sc level⟩
    obtain ⟨h2, hr, hA2, hg2⟩ := ih (level + 1) h1 (by omega)
      (fun j hj hjl => hsuccs j (by omega) hjl) ((v0_Agree_setCell hs1 _).mpr hq)
    refine ⟨h2, ?_, fun e => (hA2 e).trans (v0_Agree_setCell hs1 e), ?_⟩
    · simp only [storeSuccs, hsuccs level (Nat.le_refl _) hklv, hc,
        AtomicMarkableReference.store, v0_pack_false, hs1]
      exact hr
    · intro a j
      rw [hg2, v0_getCell_setCell hs1]
      by_cases ha : a = qE.addr
      · by_cases hj : j = level
        · subst hj
          have e1 : ¬ (j + 1 ≤ j ∧ j ≤ qE.level ∧ a = qE.addr) := by omega
          simp [ha, hklv]
        · by_cases hle : level ≤ j
          · have e3 : level + 1 ≤ j := by omega
            simp [ha, hj, hle, e3]
          · have e3 : ¬ (level + 1 ≤ j) := by omega
            simp [ha, hj, hle, e3]
      · simp [ha]

theorem v0_linkUpper_spec (budget start end_ : Nat) (qE : Entry) (pr sc : Nat → Entry)
    (preds succs : List Nat) (hb : 1 ≤ budget) :
    ∀ (n level : Nat) (s : ConcurrentRangeLock), level + n = qE.level + 1 →
      (∀ j, level ≤ j → j ≤ qE.level →
        preds[j]? = some (pr j).addr ∧ succs[j]? = some (sc j).addr) →
      (∀ j, level ≤ j → j ≤ qE.level →
        getCell s.nodes (pr j).addr j = some ⟨(sc j).addr⟩) →
      (∀ j, j ≤ qE.level → Agree s.nodes (pr j) ∧ j ≤ (pr j).level) →
      ∃ h1, linkUpper budget start end_ qE.addr n level s preds succs =
          some { s with nodes := h1 } ∧
        (∀ e, Agree h1 e ↔ Agree s.nodes e) ∧
        ∀ a j, getCell h1 a j =
          if level ≤ j ∧ j ≤ qE.level ∧ a = (pr j).addr then some ⟨qE.addr⟩
          else getCell s.nodes a j := by
  intro n
  induction n with
  | zero =>
    intro level s hk _ _ _
    refine ⟨s.nodes, rfl, fun _ => Iff.rfl, ?_⟩
    intro a j
    have h1 : ¬ (level ≤ j ∧ j ≤ qE.level ∧ a = (pr j).addr) := by omega
    rw [if_neg h1]
  | succ n ih =>
    intro level s hk harr hcell hpred
    have hklv : level ≤ qE.level := by omega
    obtain ⟨b, rfl⟩ : ∃ b, budget = b + 1 := ⟨budget - 1, by omega⟩
    obtain ⟨hpA, hpl⟩ := hpred level hklv
    obtain ⟨h1, hs1⟩ := v0_setCell_of_Agree hpA hpl ⟨qE.addr⟩
    have hcas : casCell s.nodes (pr level).addr level (sc level).addr qE.addr false false =
        some (true, h1) := by
      apply v0_casCell_hit
      · rw [v0_pack_false]; exact hcell level (Nat.le_refl _) hklv
      · rw [v0_pack_false]; exact hs1
    obtain ⟨h2, hr, hA2, hg2⟩ := ih (level + 1) { s with nodes := h1 } (by omega)
      (fun j hj hjl => harr j (by omega) hjl)
      (fun j hj hjl => by
        show getCell h1 (pr j).addr j = _
        rw [v0_getCell_setCell hs1]
        have e1 : ¬ ((pr j).addr = (pr level).addr ∧ j = level) := by omega
        rw [if_neg e1]
        exact hcell j (by omega) hjl)
      (fun j hj => ⟨(v0_Agree_setCell hs1 _).mpr (hpred j hj).1, (hpred j hj).2⟩)
    refine ⟨h2, ?_, fun e => (hA2 e).trans (v0_Agree_setCell hs1 e), ?_⟩
    · rw [linkUpper, linkLevel]
      simp only [(harr level (Nat.le_refl _) hklv).1, (harr level (Nat.le_refl _) hklv).2, hcas]
      exact hr
    · intro a j
      rw [hg2]
      show (if level + 1 ≤ j ∧ j ≤ qE.level ∧ a = (pr j).addr then some ⟨qE.addr⟩
        else getCell h1 a j) = _
      rw [v0_getCell_setCell hs1]
      by_cases hj : j = level
      · subst hj
        have e1 : ¬ (j + 1 ≤ j ∧ j ≤ qE.level ∧ a = (pr j).addr) := by omega
        rw [if_neg e1]
        by_cases ha : a = (pr j).addr
        · simp [ha, hklv]
        · simp [ha]
      · have e1 : ¬ (a = (pr level).addr ∧ j = level) := fun h => hj h.2
        rw [if_neg e1]
        by_cases hle : level ≤ j
        · have e3 : level + 1 ≤ j := by omega
          simp [hle, e3]
        · have e3 : ¬ (level + 1 ≤ j) := by omega
          simp [hle, e3]

/-- The linking phase of `tryLock` on a heap that holds the new node: the stores into the
new node, the CAS at level 0 and the CAS at every upper level all succeed. -/
theorem v0_link_new (budget start end_ : Nat) (qE : Entry) (pr sc : Nat → Entry)
    (preds succs : List Nat) (hb : 1 ≤ budget) (s : ConcurrentRangeLock)
    (harr : ∀ j, j ≤ qE.level →
      preds[j]? = some (pr j).addr ∧ succs[j]? = some (sc j).addr)
    (hcell : ∀ j, j ≤ qE.level → getCell s.nodes (pr j).addr j = some ⟨(sc j).addr⟩)
    (hpred : ∀ j, j ≤ qE.level →
      Agree s.nodes (pr j) ∧ j ≤ (pr j).level ∧ (pr j).addr ≠ qE.addr)
    (hq : Agree s.nodes qE) :
    ∃ h4 c h5 h6 h7, storeSuccs succs qE.addr (qE.level + 1) 0 s.nodes = some h4 ∧
      getCell h4 qE.addr 0 = some c ∧
      setCell h4 qE.addr 0 ⟨(sc 0).addr⟩ = some h5 ∧
      casCell h5 (pr 0).addr 0 (sc 0).addr qE.addr false false = some (true, h6) ∧
      linkUpper budget start end_ qE.addr qE.level 1 { s with nodes := h6 } preds succs =
        some { s with nodes := h7 } ∧
      (∀ e, Agree h7 e ↔ Agree s.nodes e) ∧
      ∀ a j, getCell h7 a j =
        if j ≤ qE.level ∧ a = (pr j).addr then some ⟨qE.addr⟩
        else if j ≤ qE.level ∧ a = qE.addr then some ⟨(sc j).addr⟩
        else getCell s.nodes a j := by
  obtain ⟨h4, hr4, hA4, hg4⟩ := v0_storeSuccs_spec succs qE (fun j => (sc j).addr)
    (qE.level + 1) 0 s.nodes (by omega) (fun j _ hj => (harr j hj).2) hq
  have hq4 : Agree h4 qE := (hA4 _).mpr hq
  obtain ⟨h5, hs5⟩ := v0_setCell_of_Agree hq4 (Nat.zero_le _) ⟨(sc 0).addr⟩
  have hg5 := v0_getCell_setCell hs5
  have hA5 : ∀ e, Agree h5 e ↔ Agree s.nodes e := fun e =>
    (v0_Agree_setCell hs5 e).trans (hA4 e)
  obtain ⟨hp0A, hp0l, hp0ne⟩ := hpred 0 (Nat.zero_le _)
  obtain ⟨h6, hs6⟩ := v0_setCell_of_Agree ((hA5 _).mpr hp0A) hp0l ⟨qE.addr⟩
  have hg6 := v0_getCell_setCell hs6
  have hA6 : ∀ e, Agree h6 e ↔ Agree s.nodes e := fun e =>
    (v0_Agree_setCell hs6 e).trans (hA5 e)
  have hcas : casCell h5 (pr 0).addr 0 (sc 0).addr qE.addr false false = some (true, h6) := by
    apply v0_casCell_hit
    · rw [v0_pack_false, hg5, hg4]
      have e1 : ¬ ((pr 0).addr = qE.addr ∧ 0 = 0) := fun h => hp0ne h.1
      have e2 : ¬ (0 ≤ 0 ∧ 0 ≤ qE.level ∧ (pr 0).addr = qE.addr) := fun h => hp0ne h.2.2
      rw [if_neg e1, if_neg e2]
      exact hcell 0 (Nat.zero_le _)
    · rw [v0_pack_false]; exact hs6
  obtain ⟨h7, hr7, hA7, hg7⟩ := v0_linkUpper_spec budget start end_ qE pr sc preds succs hb
    qE.level 1 { s with nodes := h6 } (by omega) (fun j _ hj => harr j hj)
    (fun j hj1 hj => by
      show getCell h6 (pr j).addr j = _
      have hne := (hpred j hj).2.2
      rw [hg6, hg5, hg4]
      have e0 : ¬ ((pr j).addr = (pr 0).addr ∧ j = 0) := by omega
      have e1 : ¬ ((pr j).addr = qE.addr ∧ j = 0) := by omega
      have e2 : ¬ (0 ≤ j ∧ j ≤ qE.level ∧ (pr j).addr = qE.addr) := fun h => hne h.2.2
      rw [if_neg e0, if_neg e1, if_neg e2]
      exact hcell j hj)
    (fun j hj => ⟨(hA6 _).mpr (hpred j hj).1, (hpred j hj).2.1⟩)
  refine ⟨h4, ⟨(sc 0).addr⟩, h5, h6, h7, hr4, ?_, hs5, hcas, hr7,
    fun e => (hA7 e).trans (hA6 e), ?_⟩
  · rw [hg4]
    simp
  · intro a j
    rw [hg7]
    show (if 1 ≤ j ∧ j ≤ qE.level ∧ a = (pr j).addr then some ⟨qE.addr⟩ else getCell h6 a j) = _
    rw [hg6, hg5, hg4]
    by_cases hj : j = 0
    · subst hj
      by_cases ha : a = (pr 0).addr
      · simp [ha]
      · by_cases hb : a = qE.addr
        · simp [ha, hb]
        · simp [ha, hb]
    · have hj1 : 1 ≤ j := by omega
      by_cases hle : j ≤ qE.level
      · by_cases ha : a = (pr j).addr
        · simp [ha, hj1, hle]
        · by_cases hb : a = qE.addr
          · have hne : ¬ qE.addr = (pr j).addr := fun h => (hpred j hle).2.2 h.symm
            simp [hb, hne, hj, hle]
          · simp [ha, hb, hj]
      · simp [hj, hle]

end V0

namespace V0

/-! ## V0: `tryLock` keeps the skip list well formed -/

theorem Inv.v0_sorted_list {s : ConcurrentRangeLock} {L : List Entry} (hI : Inv s L) :
    L.Pairwise fun a b => a.end_ < b.start :=
  (List.pairwise_append.mp (List.pairwise_cons.mp hI.sorted).2).1

theorem Inv.v0_sorted_starts {s : ConcurrentRangeLock} {L : List Entry} (hI : Inv s L) :
    L.Pairwise fun a b => a.start < b.start :=
  hI.v0_sorted_list.imp_of_mem fun {a b} ha _ hab => by
    have := hI.dom a ha
    omega

theorem Inv.v0_length_lt {s : ConcurrentRangeLock} {L : List Entry} (hI : Inv s L) :
    L.length < UINT64_MAX := by
  rcases length_le_of_sorted_starts UINT64_MAX L 1 hI.v0_sorted_starts
    (fun e he => by have := hI.dom e he; omega) with h | h
  · subst h; simp [UINT64_MAX]
  · omega

theorem v0_end_le_last :
    ∀ (P : List Entry) (d : Entry), (d :: P).Pairwise (fun a b => a.end_ < b.start) →
      (∀ e ∈ P, e.start < e.end_) → ∀ a ∈ d :: P, a.end_ ≤ (P.getLastD d).end_ := by
  intro P
  induction P with
  | nil =>
    intro d _ _ a ha
    simp only [List.mem_singleton] at ha
    subst ha
    exact Nat.le_refl _
  | cons p P ih =>
    intro d hpw hdom a ha
    rw [List.getLastD_cons]
    rw [List.pairwise_cons] at hpw
    rcases List.mem_cons.mp ha with rfl | h
    · have hm := getLastD_mem P p
      have h1 := hpw.1 _ hm
      have h2 := hdom _ hm
      omega
    · exact ih p hpw.2 (fun e he => hdom e (List.mem_cons_of_mem _ he)) a h

theorem Inv.v0_pred_end {s : ConcurrentRangeLock} {P R : List Entry} (hI : Inv s (P ++ R)) :
    ∀ a ∈ headE s.maxLevel :: P, a.end_ ≤ (predAt (headE s.maxLevel) P 0).end_ := by
  have hsorted := hI.sorted
  have e2 : headE s.maxLevel :: (P ++ R) ++ [tailE s.maxLevel] =
      (headE s.maxLevel :: P) ++ (R ++ [tailE s.maxLevel]) := by simp
  rw [e2] at hsorted
  have := v0_end_le_last P (headE s.maxLevel) (List.pairwise_append.mp hsorted).1
    (fun e he => (hI.dom e (by simp [he])).2.1)
  unfold predAt
  rw [atLevel_zero]
  exact this

theorem Inv.v0_succ_start {s : ConcurrentRangeLock} {P R : List Entry} (hI : Inv s (P ++ R)) :
    ∀ b ∈ R ++ [tailE s.maxLevel], (succAt (tailE s.maxLevel) R 0).start ≤ b.start := by
  intro b hb
  have hsorted := hI.sorted
  have e2 : headE s.maxLevel :: (P ++ R) ++ [tailE s.maxLevel] =
      (headE s.maxLevel :: P) ++ (R ++ [tailE s.maxLevel]) := by simp
  rw [e2] at hsorted
  have hBpw := (List.pairwise_append.mp hsorted).2.1
  cases R with
  | nil =>
    simp only [List.nil_append, List.mem_singleton] at hb
    rw [succAt_nil, hb]
  | cons r R' =>
    rw [succAt_zero_cons]
    rcases List.mem_cons.mp hb with h | h
    · rw [h]
    · have hr := hI.dom r (by simp)
      have := (List.pairwise_cons.mp hBpw).1 b h
      omega

theorem Inv.v0_split_start {s : ConcurrentRangeLock} {L : List Entry} (hI : Inv s L)
    {start : Nat} (hmax : start ≤ UINT64_MAX) :
    (∀ e ∈ L.takeWhile (fun e => decide (e.start < start)), e.start < start) ∧
    ∀ e ∈ L.dropWhile (fun e => decide (e.start < start)) ++ [tailE s.maxLevel],
      ¬ e.start < start := by
  refine ⟨?_, ?_⟩
  · intro e he
    simpa using List.mem_takeWhile_imp he
  · intro e he
    rcases List.mem_append.mp he with h | h
    · have := dropWhile_all_not (fun e => decide (e.start < start)) _ L hI.v0_sorted_starts
        (fun a _ b hb hab hpa => by
          simp only [decide_eq_false_iff_not] at hpa ⊢
          omega) e h
      simpa using this
    · simp only [List.mem_singleton] at h
      subst h
      simp only [tailE]; omega

theorem v0_tryLock_found {s : ConcurrentRangeLock} {P R : List Entry} (hI : Inv s (P ++ R))
    {start : Nat} (hb : ∀ e ∈ P, e.start < start)
    (ha : ∀ e ∈ R ++ [tailE s.maxLevel], ¬ e.start < start) {end_ : Nat}
    (hov : ¬ ((predAt (headE s.maxLevel) P 0).end_ < start ∧
      end_ < (succAt (tailE s.maxLevel) R 0).start))
    (rand : Nat → Nat) : tryLock s start end_ rand = some (false, s) := by
  have hlen := hI.wf.v0_heap_length
  have hP : P.length < s.nodes.length := by
    simp at hlen; omega
  obtain ⟨preds1, succs1, hf, -⟩ := v0_findInsert_spec hI.wf hI.head_eq hb ha end_ hP
    (List.replicate (s.maxLevel + 1) 0) (List.replicate (s.maxLevel + 1) 0)
  obtain ⟨f, hfuel⟩ : ∃ f, s.nodes.length = f + 1 := ⟨s.nodes.length - 1, by omega⟩
  unfold tryLock
  conv_lhs => arg 5; rw [hfuel]
  rw [tryLockLoop, hf]
  have : (!(decide (start > (predAt (headE s.maxLevel) P 0).end_) &&
      decide (end_ < (succAt (tailE s.maxLevel) R 0).start))) = true := by
    by_cases h1 : (predAt (headE s.maxLevel) P 0).end_ < start
    · have h2 : ¬ end_ < (succAt (tailE s.maxLevel) R 0).start := fun h => hov ⟨h1, h⟩
      simp [h1, h2]
    · simp [h1]
  rw [this]

theorem v0_tryLock_insert {s : ConcurrentRangeLock} {P R : List Entry} (hI : Inv s (P ++ R))
    {start end_ : Nat} (h1 : 1 ≤ start) (h2 : start < end_) (h3 : end_ ≤ UINT64_MAX - 1)
    (hb : ∀ e ∈ P, e.start < start)
    (ha : ∀ e ∈ R ++ [tailE s.maxLevel], ¬ e.start < start)
    (hgapL : (predAt (headE s.maxLevel) P 0).end_ < start)
    (hgapR : end_ < (succAt (tailE s.maxLevel) R 0).start) (rand : Nat → Nat) :
    ∃ s1, tryLock s start end_ rand = some (true, s1) ∧ s1.maxLevel = s.maxLevel ∧
      Inv s1 (P ++ ⟨addrOf s.nodes.length, start, end_, randomLevel rand s.maxLevel⟩ :: R) := by
  have hW := hI.wf
  have hlen := hW.v0_heap_length
  have hP : P.length < s.nodes.length := by
    simp at hlen; omega
  obtain ⟨preds1, succs1, hf, hF⟩ := v0_findInsert_spec hW hI.head_eq hb ha end_ hP
    (List.replicate (s.maxLevel + 1) 0) (List.replicate (s.maxLevel + 1) 0)
  obtain ⟨f, hfuel⟩ : ∃ f, s.nodes.length = f + 1 := ⟨s.nodes.length - 1, by omega⟩
  have hlv := randomLevel_le rand s.maxLevel
  generalize hlvdef : randomLevel rand s.maxLevel = lv at hlv ⊢
  set hd := headE s.maxLevel with hhd
  set tl := tailE s.maxLevel with htl
  set newE : Entry := ⟨addrOf s.nodes.length, start, end_, lv⟩ with hnewE
  obtain ⟨h3', hinit, hd3⟩ := v0_initializeNode_fresh s.nodes start end_ lv
  have hq3 : Agree h3' newE := by
    refine ⟨⟨start, end_, lv, List.replicate (lv + 1) AtomicMarkableReference.new⟩,
      ?_, rfl, rfl, rfl, ?_⟩
    · rw [hd3]; simp [hnewE]
    · simp
  have hnewaddr : ∀ e, e ∈ hd :: (P ++ R) ++ [tl] → e.addr ≠ newE.addr := by
    intro e he
    have := v0_Agree_addr_lt (hW.agree e he)
    simp only [hnewE]; omega
  have hold3 : ∀ e, e ∈ hd :: (P ++ R) ++ [tl] → deref h3' e.addr = deref s.nodes e.addr := by
    intro e he
    rw [hd3, if_neg (hnewaddr e he)]
  have holdmem : ∀ e, e ∈ hd :: P → e ∈ hd :: (P ++ R) ++ [tl] := by
    intro e he
    simp only [List.mem_cons, List.mem_append, List.mem_singleton] at he ⊢; tauto
  have hsufmem : ∀ e, e ∈ R ++ [tl] → e ∈ hd :: (P ++ R) ++ [tl] := by
    intro e he
    simp only [List.mem_cons, List.mem_append, List.mem_singleton] at he ⊢; tauto
  have hbud : 1 ≤ s.nodes.length := by omega
  obtain ⟨hF1, hF2, hF3, hF4, -, -⟩ := hF
  obtain ⟨h4, c, h5, h6, h7, hr4, hc4, hs5, hcas, hr7, hA7, hg7⟩ :=
    v0_link_new s.nodes.length start end_ newE (predAt hd P) (succAt tl R) preds1 succs1 hbud
      { s with nodes := h3' }
      (fun j hj => by
        have hj' : j ≤ s.maxLevel := by simp [hnewE] at hj; omega
        exact ⟨hF3 j hj' (by simp; omega), hF4 j hj' (by simp; omega)⟩)
      (fun j hj => by
        have hj' : j ≤ s.maxLevel := by simp [hnewE] at hj; omega
        show getCell h3' (predAt hd P j).addr j = _
        rw [v0_getCell_congr (hold3 _ (holdmem _ (predAt_mem_all hd P j)))]
        exact link_pred_succ (hW.links j hj'))
      (fun j hj => by
        have hj' : j ≤ s.maxLevel := by simp [hnewE] at hj; omega
        have hm := holdmem _ (predAt_mem_all hd P j)
        refine ⟨(v0_Agree_congr (hold3 _ hm)).mpr (hW.agree _ hm),
          predAt_level P (by simpa [hhd, headE] using hj'), hnewaddr _ hm⟩)
      hq3
  have hg7' : ∀ a j, getCell h7 a j =
      if j ≤ lv ∧ a = (predAt hd P j).addr then some ⟨newE.addr⟩
      else if j ≤ lv ∧ a = newE.addr then some ⟨(succAt tl R j).addr⟩
      else getCell h3' a j := hg7
  have hA7' : ∀ e, Agree h7 e ↔ Agree h3' e := hA7
  refine ⟨⟨h7, s.maxLevel, fetchAdd1 s.elementsCount, s.tail, s.head⟩, ?_, rfl, ?_⟩
  · unfold tryLock
    conv_lhs => arg 5; rw [hfuel]
    rw [tryLockLoop, hf]
    have hnf : (!(decide (start > (predAt hd P 0).end_) &&
        decide (end_ < (succAt tl R 0).start))) = false := by
      simp [hgapL, hgapR]
    rw [hnf, hlvdef]
    simp only []
    have hnn : (newNode s.nodes).2 = newE.addr := rfl
    rw [hinit]
    simp only [hnn]
    have hr4' : storeSuccs succs1 newE.addr (lv + 1) 0 h3' = some h4 := hr4
    have hp0 := hF3 0 (Nat.zero_le _) (by simp)
    have hs0 := hF4 0 (Nat.zero_le _) (by simp)
    rw [hr4']
    simp only [hp0, hs0, hc4, AtomicMarkableReference.store, v0_pack_false, hs5, hcas]
    have hr7' : linkUpper s.nodes.length start end_ newE.addr lv 1
        { s with nodes := h6 } preds1 succs1 = some { s with nodes := h7 } := hr7
    rw [hr7']
  · have hAold : ∀ e, e ∈ hd :: (P ++ R) ++ [tl] → Agree h7 e := fun e he =>
      (hA7' e).mpr ((v0_Agree_congr (hold3 e he)).mpr (hW.agree e he))
    have hcold : ∀ a, a ∈ hd :: (P ++ R) ++ [tl] → ∀ j,
        getCell h3' a.addr j = getCell s.nodes a.addr j := fun a ha j =>
      v0_getCell_congr (hold3 a ha) j
    refine ⟨hI.head_eq, hI.tail_eq, ⟨?_, ?_, ?_, ?_⟩, ?_, ?_, ?_⟩
    · intro e he
      have : e = newE ∨ e ∈ hd :: (P ++ R) ++ [tl] := by
        simp only [List.mem_cons, List.mem_append, List.mem_singleton] at he ⊢; tauto
      rcases this with rfl | h
      · exact (hA7' _).mpr hq3
      · exact hAold e h
    · have e1 : hd :: (P ++ newE :: R) ++ [tl] = (hd :: P) ++ newE :: (R ++ [tl]) := by
        simp
      have e2 : hd :: (P ++ R) ++ [tl] = (hd :: P) ++ (R ++ [tl]) := by simp
      show ((hd :: (P ++ newE :: R) ++ [tl]).map Entry.addr).Nodup
      rw [e1, List.map_append, List.map_cons]
      have hnd := hW.nodup
      rw [e2, List.map_append] at hnd
      apply nodup_insert hnd
      intro hmem
      rw [← List.map_append, ← e2] at hmem
      obtain ⟨e, he, hea⟩ := List.mem_map.mp hmem
      exact hnewaddr e he hea
    · intro k hk
      have hk' : k ≤ s.maxLevel := hk
      show List.Chain' (Link h7 k) (hd :: atLevel k (P ++ newE :: R) ++ [tl])
      by_cases hkl : k ≤ lv
      · apply chain_insert_at (F := Link s.nodes k) hW.nodup (hW.links k hk') hkl
        · intro a b ha hne hab
          unfold Link at hab ⊢
          rw [hg7']
          have e1 : ¬ (k ≤ lv ∧ a.addr = (predAt hd P k).addr) := fun h => hne h.2
          have e2 : ¬ (k ≤ lv ∧ a.addr = newE.addr) := fun h => hnewaddr a ha h.2
          rw [if_neg e1, if_neg e2, hcold a ha]
          exact hab
        · unfold Link
          rw [hg7', if_pos ⟨hkl, rfl⟩]
        · unfold Link
          rw [hg7']
          have e1 : ¬ (k ≤ lv ∧ newE.addr = (predAt hd P k).addr) := fun h =>
            hnewaddr _ (holdmem _ (predAt_mem_all hd P k)) h.2.symm
          rw [if_neg e1, if_pos ⟨hkl, rfl⟩]
      · apply chain_insert_above (F := Link s.nodes k) (hW.links k hk')
          (by simp only [hnewE]; omega)
        intro a b ha hab
        unfold Link at hab ⊢
        rw [hg7']
        have e1 : ¬ (k ≤ lv ∧ a.addr = (predAt hd P k).addr) := fun h => hkl h.1
        have e2 : ¬ (k ≤ lv ∧ a.addr = newE.addr) := fun h => hkl h.1
        rw [if_neg e1, if_neg e2, hcold a ha]
        exact hab
    · intro k hk
      have hk' : k ≤ s.maxLevel := hk
      show getCell h7 tl.addr k = some ⟨0⟩
      have htm : tl ∈ R ++ [tl] := by simp
      rw [hg7']
      have e1 : ¬ (k ≤ lv ∧ tl.addr = (predAt hd P k).addr) := fun h =>
        predAt_addr_ne_of_mem_suffix hW.nodup k htm h.2
      have e2 : ¬ (k ≤ lv ∧ tl.addr = newE.addr) := fun h => hnewaddr tl (hsufmem _ htm) h.2
      rw [if_neg e1, if_neg e2, hcold tl (hsufmem _ htm)]
      exact hW.tailCells k hk'
    · intro e he
      have : e = newE ∨ e ∈ P ++ R := by
        simp only [List.mem_cons, List.mem_append] at he ⊢; tauto
      rcases this with rfl | h
      · simp only [hnewE]
        refine ⟨h1, h2, ?_, hlv⟩
        omega
      · exact hI.dom e h
    · have e1 : hd :: (P ++ newE :: R) ++ [tl] = (hd :: P) ++ newE :: (R ++ [tl]) := by
        simp
      have e2 : hd :: (P ++ R) ++ [tl] = (hd :: P) ++ (R ++ [tl]) := by simp
      show (hd :: (P ++ newE :: R) ++ [tl]).Pairwise _
      rw [e1]
      have hsorted := hI.sorted
      rw [e2] at hsorted
      apply pairwise_insert hsorted
      · intro a ha
        have : a.end_ ≤ (predAt hd P 0).end_ := hI.v0_pred_end a ha
        show a.end_ < start
        omega
      · intro b hb
        have : (succAt tl R 0).start ≤ b.start := hI.v0_succ_start b hb
        show end_ < b.start
        omega
    · have hl := hI.v0_length_lt
      show fetchAdd1 s.elementsCount = (P ++ newE :: R).length
      simp only [List.length_append, List.length_cons]
      rw [hI.count, fetchAdd1_eq]
      · simp; omega
      · simp only [UINT64_MAX] at hl
        simp at hl ⊢; omega

end V0

namespace V0

/-! ## V0: the marking of the node to remove -/

theorem v0_markLevel_marked (victim level fuel : Nat) (h : List Node) (succ : Nat) :
    markLevel victim level fuel h succ true = some h := by
  cases fuel <;> simp [markLevel]

theorem v0_attemptMark_even {x : Nat} (hx : x % 2 = 0) :
    AtomicMarkableReference.attemptMark ⟨x⟩ x true = (true, ⟨x + 1⟩) := by
  simp [AtomicMarkableReference.attemptMark, v0_unpack_even hx, v0_pack_true hx]

theorem v0_markLevel_spec {h : List Node} {v : Entry} (hA : Agree h v) {level : Nat}
    (hl : level ≤ v.level) {c : Nat} (hc : c % 2 = 0)
    (hg : getCell h v.addr level = some ⟨c⟩) {budget : Nat} (hb : 1 ≤ budget) :
    ∃ h1, setCell h v.addr level ⟨c + 1⟩ = some h1 ∧
      markLevel v.addr level budget h c false = some h1 := by
  obtain ⟨h1, hs⟩ := v0_setCell_of_Agree hA hl ⟨c + 1⟩
  refine ⟨h1, hs, ?_⟩
  obtain ⟨b, rfl⟩ : ∃ b, budget = b + 1 := ⟨budget - 1, by omega⟩
  have hg1 : getCell h1 v.addr level = some ⟨c + 1⟩ := by
    rw [v0_getCell_setCell hs]; simp
  rw [markLevel]
  simp only [Bool.false_eq_true, if_false, hg, v0_attemptMark_even hc, hs, hg1, v0_get_odd hc,
    v0_markLevel_marked]

theorem v0_markUpper_spec (budget : Nat) (hb : 1 ≤ budget) (v : Entry) (sc : Nat → Nat) :
    ∀ (n : Nat) (h : List Node), n ≤ v.level → Agree h v →
      (∀ j, 1 ≤ j → j ≤ n → getCell h v.addr j = some ⟨sc j⟩ ∧ sc j % 2 = 0) →
      ∃ h1, markUpper budget v.addr n h = some h1 ∧
        (∀ e, Agree h1 e ↔ Agree h e) ∧
        ∀ a j, getCell h1 a j =
          if 1 ≤ j ∧ j ≤ n ∧ a = v.addr then some ⟨sc j + 1⟩ else getCell h a j := by
  intro n
  induction n with
  | zero =>
    intro h _ _ _
    refine ⟨h, rfl, fun _ => Iff.rfl, ?_⟩
    intro a j
    have h1 : ¬ (1 ≤ j ∧ j ≤ 0 ∧ a = v.addr) := by omega
    rw [if_neg h1]
  | succ n ih =>
    intro h hn hA hcell
    obtain ⟨hg, hev⟩ := hcell (n + 1) (by omega) (Nat.le_refl _)
    obtain ⟨h1, hs1, hm⟩ := v0_markLevel_spec hA hn hev hg hb
    obtain ⟨h2, hr, hA2, hg2⟩ := ih h1 (by omega) ((v0_Agree_setCell hs1 _).mpr hA)
      (fun j hj1 hjn => by
        rw [v0_getCell_setCell hs1]
        have e1 : ¬ (v.addr = v.addr ∧ j = n + 1) := by omega
        rw [if_neg e1]
        exact hcell j hj1 (by omega))
    refine ⟨h2, ?_, fun e => (hA2 e).trans (v0_Agree_setCell hs1 e), ?_⟩
    · rw [markUpper]
      simp only [hg, v0_get_even hev, hm]
      exact hr
    · intro a j
      rw [hg2, v0_getCell_setCell hs1]
      by_cases ha : a = v.addr
      · by_cases hj : j = n + 1
        · subst hj
          have e1 : ¬ (1 ≤ n + 1 ∧ n + 1 ≤ n ∧ a = v.addr) := by omega
          rw [if_neg e1]
          simp [ha]
        · by_cases hle : 1 ≤ j ∧ j ≤ n
          · have e3 : 1 ≤ j ∧ j ≤ n + 1 := by omega
            simp [ha, hle, e3]
          · have e3 : ¬ (1 ≤ j ∧ j ≤ n + 1) := by omega
            have e4 : ¬ (1 ≤ j ∧ j ≤ n ∧ a = v.addr) := fun h => hle ⟨h.1, h.2.1⟩
            have e5 : ¬ (1 ≤ j ∧ j ≤ n + 1 ∧ a = v.addr) := fun h => e3 ⟨h.1, h.2.1⟩
            have e6 : ¬ (a = v.addr ∧ j = n + 1) := fun h => hj h.2
            rw [if_neg e4, if_neg e5, if_neg e6]
      · simp [ha]

/-- The marking phase of `releaseLock`: every cell of the node to remove gets the mark. -/
theorem v0_mark_all (budget : Nat) (hb : 1 ≤ budget) (v : Entry) (sc : Nat → Nat)
    {h : List Node} (hA : Agree h v)
    (hcell : ∀ j, j ≤ v.level → getCell h v.addr j = some ⟨sc j⟩ ∧ sc j % 2 = 0) :
    ∃ h2 h3, markUpper budget v.addr v.level h = some h2 ∧
      getCell h2 v.addr 0 = some ⟨sc 0⟩ ∧
      casCell h2 v.addr 0 (sc 0) (sc 0) false true = some (true, h3) ∧
      getCell h3 v.addr 0 = some ⟨sc 0 + 1⟩ ∧
      (∀ e, Agree h3 e ↔ Agree h e) ∧
      ∀ a j, getCell h3 a j =
        if j ≤ v.level ∧ a = v.addr then some ⟨sc j + 1⟩ else getCell h a j := by
  obtain ⟨h2, hr, hA2, hg2⟩ := v0_markUpper_spec budget hb v sc v.level h (Nat.le_refl _) hA
    (fun j _ hj => hcell j hj)
  have hv2 : Agree h2 v := (hA2 _).mpr hA
  obtain ⟨h3, hs3⟩ := v0_setCell_of_Agree hv2 (Nat.zero_le _) ⟨sc 0 + 1⟩
  have hg0 : getCell h2 v.addr 0 = some ⟨sc 0⟩ := by
    rw [hg2]
    have e1 : ¬ (1 ≤ 0 ∧ 0 ≤ v.level ∧ v.addr = v.addr) := by omega
    rw [if_neg e1]
    exact (hcell 0 (Nat.zero_le _)).1
  have hev := (hcell 0 (Nat.zero_le _)).2
  refine ⟨h2, h3, hr, hg0, ?_, ?_, fun e => (v0_Agree_setCell hs3 e).trans (hA2 e), ?_⟩
  · apply v0_casCell_hit
    · rw [v0_pack_false]; exact hg0
    · rw [v0_pack_true hev]; exact hs3
  · rw [v0_getCell_setCell hs3]; simp
  · intro a j
    rw [v0_getCell_setCell hs3, hg2]
    by_cases ha : a = v.addr
    · by_cases hj : j = 0
      · simp [ha, hj]
      · by_cases hle : j ≤ v.level
        · have e3 : 1 ≤ j := by omega
          simp [ha, hj, hle, e3]
        · simp [ha, hj, hle]
    · simp [ha]

end V0

namespace V0

/-! ## V0: `findDelete` unlinks the marked node -/

theorem v0_ne_victim {hd tl v : Entry} {P R : List Entry}
    (hnd : ((hd :: (P ++ v :: R) ++ [tl]).map Entry.addr).Nodup) :
    ∀ a ∈ hd :: (P ++ R) ++ [tl], a.addr ≠ v.addr := by
  intro a ha hav
  have e1 : hd :: (P ++ v :: R) ++ [tl] = (hd :: P) ++ v :: (R ++ [tl]) := by simp
  have hnd2 : (List.map Entry.addr (hd :: P) ++
      v.addr :: List.map Entry.addr (R ++ [tl])).Nodup := by
    rw [e1, List.map_append] at hnd
    exact hnd
  rw [List.nodup_middle, List.nodup_cons] at hnd2
  apply hnd2.1
  rw [← hav, ← List.map_append]
  apply List.mem_map_of_mem
  simp only [List.mem_cons, List.mem_append, List.mem_singleton] at ha ⊢
  tauto

theorem v0_mem_keep {hd tl v : Entry} {P R : List Entry} {a : Entry}
    (ha : a ∈ hd :: (P ++ R) ++ [tl]) : a ∈ hd :: (P ++ v :: R) ++ [tl] := by
  simp only [List.mem_cons, List.mem_append, List.mem_singleton] at ha ⊢
  tauto

theorem v0_mem_level {hd tl : Entry} {L : List Entry} {k : Nat} {a : Entry}
    (ha : a ∈ hd :: atLevel k L ++ [tl]) : a ∈ hd :: L ++ [tl] := by
  simp only [List.mem_cons, List.mem_append, List.mem_singleton, mem_atLevel] at ha ⊢
  tauto

theorem v0_unlink_level {h : List Node} {maxLevel : Nat} {P R : List Entry} {v : Entry}
    {start : Nat} (hv : v.start ≤ start)
    (hbefore : ∀ e ∈ P, e.start ≤ start ∧ e.end_ ≤ start)
    (hafter : ∀ e ∈ R ++ [tailE maxLevel], start < e.end_)
    {k : Nat} (hk : k ≤ maxLevel) (hU : Unlinking h maxLevel P v R (k + 1)) {pred : Entry}
    (hp : pred ∈ headE maxLevel :: atLevel k P) {budget : Nat} (hf : P.length < budget) :
    ∃ pc h1 c1, getCell h pred.addr k = some pc ∧
      walkLevel (fun c => decide (start ≥ c.start)) (fun c => decide (start ≥ c.end_))
          budget k budget h pred.addr pc.getReference =
        some (true, h1, (predAt (headE maxLevel) P k).addr, c1) ∧
      Unlinking h1 maxLevel P v R k := by
  have hE : Ext (fun c => decide (start ≥ c.start)) := by
    intro n e h1 _; simp [nodeOf, h1]
  have hV : Ext (fun c => decide (start ≥ c.end_)) := by
    intro n e _ h2; simp [nodeOf, h2]
  set hd := headE maxLevel with hhd
  set tl := tailE maxLevel with htl
  have hpend := hU.pending k hk (Nat.lt_succ_self k)
  have hnev := v0_ne_victim hU.nodup
  have hagree : ∀ e ∈ hd :: (P ++ R) ++ [tl], Agree h e := fun e he =>
    hU.agree e (v0_mem_keep he)
  have hcA : Agree h (succAt tl R k) := by
    apply hagree
    have := succAt_mem_all tl R k
    simp only [List.mem_append, List.mem_cons, List.mem_singleton] at this ⊢
    tauto
  have hcne : (succAt tl R k).addr ≠ v.addr := by
    apply hnev
    have := succAt_mem_all tl R k
    simp only [List.mem_append, List.mem_cons, List.mem_singleton] at this ⊢
    tauto
  have hcU : Unmarked h k (succAt tl R k) := by
    have hm := succAt_mem tl R k
    rcases List.mem_append.mp hm with h1 | h1
    · have hmem : succAt tl R k ∈ hd :: atLevel k (P ++ v :: R) := by
        have : atLevel k (P ++ v :: R) = atLevel k P ++ atLevel k (v :: R) :=
          atLevel_append k P (v :: R)
        rw [this]
        have h2 : succAt tl R k ∈ atLevel k (v :: R) := by
          rw [mem_atLevel] at h1 ⊢
          exact ⟨List.mem_cons_of_mem _ h1.1, h1.2⟩
        simp only [List.mem_cons, List.mem_append]
        right; right
        simpa [List.mem_cons] using h2
      obtain ⟨b, hb, hl⟩ := v0_chain_next _ _ hpend _ hmem
      have hl' : getCell h (succAt tl R k).addr k = some ⟨b.addr⟩ := by
        unfold LinkM at hl
        rw [if_neg hcne] at hl
        exact hl
      exact ⟨b.addr, hl', v0_Agree_even (hU.agree b (v0_mem_level hb))⟩
    · simp only [List.mem_singleton] at h1
      rw [h1]
      exact ⟨0, hU.tailCells k hk, rfl⟩
  by_cases hkv : k ≤ v.level
  · obtain ⟨X, Y, Z, hxy, hlast, hY, hYl⟩ := level_chain_split hd tl P (v :: R) k hp
    rw [succAt_cons_of_le tl R hkv] at hxy
    have hpend2 := hpend
    rw [hxy] at hpend2
    have hc2 : List.Chain' (LinkM h v.addr k) (pred :: Y ++ v :: Z) :=
      (List.chain'_append.mp hpend2).2.1
    have hc3 : List.Chain' (LinkM h v.addr k) (pred :: (Y ++ [v])) := by
      have e1 : pred :: Y ++ v :: Z = (pred :: (Y ++ [v])) ++ Z := by simp
      rw [e1] at hc2
      exact (List.chain'_append.mp hc2).1
    have hpredmem : ∀ a ∈ pred :: Y, a ∈ hd :: (P ++ R) ++ [tl] := by
      intro a ha
      rcases List.mem_cons.mp ha with rfl | h1
      · have := hp
        simp only [List.mem_cons, List.mem_append, List.mem_singleton, mem_atLevel] at this ⊢
        tauto
      · have := hY a h1
        simp only [List.mem_cons, List.mem_append, List.mem_singleton]
        tauto
    have hc4 : List.Chain' (Link h k) (pred :: (Y ++ [v])) := by
      apply chain'_congr_init hc3
      intro a ha b hab
      have ha' : a ∈ pred :: Y := by
        have e : (pred :: (Y ++ [v])).dropLast = pred :: Y := by
          rw [← List.cons_append, List.dropLast_concat]
        rw [e] at ha
        exact ha
      unfold LinkM at hab
      rw [if_neg (hnev a (hpredmem a ha'))] at hab
      exact hab
    have hvA : Agree h v := hU.agree v (by simp)
    have hYA : ∀ e ∈ Y, Agree h e ∧ (fun c => decide (start ≥ c.start)) (nodeOf e) = true ∧
        (fun c => decide (start ≥ c.end_)) (nodeOf e) = true := by
      intro e he
      have := hbefore e (hY e he)
      refine ⟨hagree e (hpredmem e (List.mem_cons_of_mem _ he)), ?_, ?_⟩
      · simp [nodeOf]; omega
      · simp [nodeOf]; omega
    have hnxA : Agree h ((Y ++ [v]).headD v) := by
      cases Y with
      | nil => exact hvA
      | cons z Z => exact (hYA z (by simp)).1
    have hl : Link h k pred ((Y ++ [v]).headD v) := by
      cases Y with
      | nil => exact (List.chain'_cons.mp hc4).1
      | cons z Z => exact (List.chain'_cons.mp hc4).1
    have hlv : Link h k (Y.getLastD pred) v := by
      have e1 : pred :: (Y ++ [v]) = pred :: Y ++ v :: [] := by simp
      rw [e1] at hc4
      exact ((chain'_cons_append_cons Y pred v []).mp hc4).2.1
    have hpeA : Agree h (predAt hd P k) := by
      apply hagree
      have := predAt_mem_all hd P k
      simp only [List.mem_append, List.mem_cons, List.mem_singleton] at this ⊢
      tauto
    have hpel : k ≤ (predAt hd P k).level := predAt_level P (by simpa [hhd, headE] using hk)
    have hm : Marked h k v (succAt tl R k) := by
      have e1 : hd :: atLevel k (P ++ v :: R) ++ [tl] =
          hd :: atLevel k ((P ++ [v]) ++ R) ++ [tl] := by simp
      have hc5 := hpend
      rw [e1] at hc5
      have := link_pred_succ hc5
      rw [predAt_append_singleton hd P hkv] at this
      unfold LinkM at this
      rw [if_pos rfl] at this
      exact this
    have hcpe : (succAt tl R k).addr ≠ (predAt hd P k).addr := by
      apply predAt_addr_ne_of_mem_suffix hU.nodup k
      have := succAt_mem_all tl R k
      simp only [List.mem_append, List.mem_cons, List.mem_singleton] at this ⊢
      tauto
    have hstop : (fun c => decide (start ≥ c.end_)) (nodeOf (succAt tl R k)) = false := by
      have := hafter _ (succAt_mem_all tl R k)
      simp [nodeOf]; omega
    have hev : (fun c => decide (start ≥ c.start)) (nodeOf v) = true := by
      simp [nodeOf]; omega
    obtain ⟨f, hfuel⟩ : ∃ f, budget = Y.length + (f + 1) := ⟨budget - Y.length - 1, by omega⟩
    rw [← hlast] at hpeA hpel hcpe
    obtain ⟨h1, hs, hw⟩ := v0_walkLevel_snip hE hV hpeA hpel hlv hvA hev hm hcA hcU hcpe hstop
      (by omega : 1 ≤ budget) f
    rw [hlast] at hs hw hcpe
    refine ⟨_, h1, (succAt tl R k).addr, hl, ?_, ?_⟩
    · rw [v0_getReference_even (v0_Agree_even hnxA)]
      conv_lhs => arg 5; rw [hfuel]
      rw [v0_walkLevel_advance hE hV h budget k Y pred v (f + 1)
        (List.chain'_cons'.mp hc4).2 hYA hvA, hlast]
      exact hw
    · have hg1 := v0_getCell_setCell hs
      refine ⟨fun e he => (v0_Agree_setCell hs e).mpr (hU.agree e he), hU.nodup, ?_, ?_, ?_⟩
      · intro j hj
        rw [hg1]
        have e1 : ¬ (tl.addr = (predAt hd P k).addr ∧ j = k) := fun h =>
          predAt_addr_ne_of_mem_suffix hU.nodup k (by simp) h.1
        rw [if_neg e1]
        exact hU.tailCells j hj
      · intro j hj hjk
        apply (hU.pending j hj (by omega)).imp
        intro a b hab
        unfold LinkM at hab ⊢
        rw [hg1]
        have e1 : ¬ (a.addr = (predAt hd P k).addr ∧ j = k) := by omega
        rw [if_neg e1]
        exact hab
      · intro j hj hjk
        by_cases hjeq : j = k
        · subst hjeq
          apply chain_remove_at (F := LinkM h v.addr j) hU.nodup hpend hkv
          · intro a b ha hne hab
            unfold LinkM at hab
            rw [if_neg (hnev a ha)] at hab
            unfold Link
            rw [hg1]
            have e1 : ¬ (a.addr = (predAt hd P j).addr ∧ j = j) := fun h => hne h.1
            rw [if_neg e1]
            exact hab
          · unfold Link
            rw [hg1]
            simp
        · apply (hU.done j hj (by omega)).imp
          intro a b hab
          unfold Link at hab ⊢
          rw [hg1]
          have e1 : ¬ (a.addr = (predAt hd P k).addr ∧ j = k) := fun h => hjeq h.2
          rw [if_neg e1]
          exact hab
  · have hdone : List.Chain' (Link h k) (hd :: atLevel k (P ++ R) ++ [tl]) := by
      apply chain_remove_above (F := LinkM h v.addr k) hpend (by omega)
      intro a b ha hab
      unfold LinkM at hab
      rw [if_neg (hnev a ha)] at hab
      exact hab
    obtain ⟨pc, hg, hw⟩ := v0_walkLevel_chain hE hV hdone hagree hcU
      (fun e he => by
        have := hbefore e he
        constructor
        · simp [nodeOf]; omega
        · simp [nodeOf]; omega)
      (fun e he => by
        have := hafter e he
        simp [nodeOf]; omega) budget hp hf
    refine ⟨pc, h, _, hg, hw, hU.agree, hU.nodup, hU.tailCells, ?_, ?_⟩
    · intro j hj hjk
      exact hU.pending j hj (by omega)
    · intro j hj hjk
      by_cases hjeq : j = k
      · subst hjeq; exact hdone
      · exact hU.done j hj (by omega)

theorem v0_findLevels_unlink {maxLevel : Nat} {P R : List Entry} {v : Entry}
    {start : Nat} (hv : v.start ≤ start)
    (hbefore : ∀ e ∈ P, e.start ≤ start ∧ e.end_ ≤ start)
    (hafter : ∀ e ∈ R ++ [tailE maxLevel], start < e.end_)
    {budget : Nat} (hf : P.length < budget) :
    ∀ (k : Nat) (h : List Node) (pred : Entry) (curr : Nat) (preds succs : List Nat),
      k ≤ maxLevel → Unlinking h maxLevel P v R (k + 1) →
      pred ∈ headE maxLevel :: atLevel k P →
      ∃ h1 p1 c1 preds1 succs1,
        findLevels (fun c => decide (start ≥ c.start)) (fun c => decide (start ≥ c.end_))
            budget (k + 1) h pred.addr curr preds succs =
          some (true, h1, p1, c1, preds1, succs1) ∧
        Unlinking h1 maxLevel P v R 0 := by
  intro k
  induction k with
  | zero =>
    intro h pred curr preds succs hk hU hp
    obtain ⟨pc, h1, c1, hg, hw, hU1⟩ := v0_unlink_level hv hbefore hafter hk hU hp hf
    refine ⟨h1, (predAt (headE maxLevel) P 0).addr, c1,
      preds.set 0 (predAt (headE maxLevel) P 0).addr, succs.set 0 c1, ?_, hU1⟩
    rw [findLevels]
    simp only [hg, hw]
    rfl
  | succ k ih =>
    intro h pred curr preds succs hk hU hp
    obtain ⟨pc, h1, c1, hg, hw, hU1⟩ := v0_unlink_level hv hbefore hafter hk hU hp hf
    have hmem := predAt_mem_lower (headE maxLevel) P (Nat.le_succ k)
    obtain ⟨h2, p2, c2, preds2, succs2, hr, hU2⟩ := ih h1 (predAt (headE maxLevel) P (k + 1)) c1
      (preds.set (k + 1) (predAt (headE maxLevel) P (k + 1)).addr)
      (succs.set (k + 1) c1) (by omega) hU1 hmem
    refine ⟨h2, p2, c2, preds2, succs2, ?_, hU2⟩
    rw [findLevels]
    simp only [hg, hw]
    exact hr

theorem v0_findDelete_spec {s : ConcurrentRangeLock} {P R : List Entry} {v : Entry}
    {start : Nat} (hv : v.start ≤ start)
    (hbefore : ∀ e ∈ P, e.start ≤ start ∧ e.end_ ≤ start)
    (hafter : ∀ e ∈ R ++ [tailE s.maxLevel], start < e.end_)
    (hhead : s.head = (headE s.maxLevel).addr)
    {budget : Nat} (hf : P.length < budget)
    (hU : Unlinking s.nodes s.maxLevel P v R (s.maxLevel + 1)) :
    ∃ h1, findDelete budget s start = some { s with nodes := h1 } ∧
      Wf h1 s.maxLevel (P ++ R) := by
  obtain ⟨h1, p1, c1, preds1, succs1, hr, hU1⟩ := v0_findLevels_unlink hv hbefore hafter hf
    s.maxLevel s.nodes (headE s.maxLevel) 0 (List.replicate (s.maxLevel + 1) 0)
    (List.replicate (s.maxLevel + 1) 0) (Nat.le_refl _) hU (List.mem_cons_self _ _)
  refine ⟨h1, ?_, ?_⟩
  · have hloop : findLoop (fun c => decide (start ≥ c.start)) (fun c => decide (start ≥ c.end_))
        budget s.maxLevel (headE s.maxLevel).addr budget s.nodes
        (List.replicate (s.maxLevel + 1) 0) (List.replicate (s.maxLevel + 1) 0) =
        some (h1, p1, c1, preds1, succs1) := by
      obtain ⟨b, hb⟩ : ∃ b, budget = b + 1 := ⟨budget - 1, by omega⟩
      conv_lhs => arg 6; rw [hb]
      rw [findLoop, hr]
    unfold findDelete
    rw [hhead, hloop]
  · refine ⟨fun e he => hU1.agree e (v0_mem_keep he), ?_, ?_, hU1.tailCells⟩
    · exact (((remove_sublist (headE s.maxLevel) (tailE s.maxLevel) v P R).map Entry.addr).nodup
        hU1.nodup)
    · intro k hk
      exact hU1.done k hk (Nat.zero_le _)

end V0

namespace V0

/-! ## V0: `releaseLock` -/

theorem Inv.v0_around {s : ConcurrentRangeLock} {P R : List Entry} {v : Entry}
    (hI : Inv s (P ++ v :: R)) :
    (∀ e ∈ P, e.start ≤ v.start ∧ e.end_ ≤ v.start) ∧
    (∀ e ∈ R ++ [tailE s.maxLevel], v.start < e.end_) ∧ v.start < v.end_ := by
  have hsorted := hI.sorted
  have e2 : headE s.maxLevel :: (P ++ v :: R) ++ [tailE s.maxLevel] =
      (headE s.maxLevel :: P) ++ v :: (R ++ [tailE s.maxLevel]) := by simp
  rw [e2, List.pairwise_append] at hsorted
  have hv := hI.dom v (by simp)
  refine ⟨?_, ?_, hv.2.1⟩
  · intro e he
    have h1 := hsorted.2.2 e (List.mem_cons_of_mem _ he) v (List.mem_cons_self _ _)
    have h2 := hI.dom e (by simp [he])
    omega
  · intro e he
    have h1 := (List.pairwise_cons.mp hsorted.2.1).1 e he
    rcases List.mem_append.mp he with h | h
    · have h2 := hI.dom e (by simp [h])
      omega
    · simp only [List.mem_singleton] at h
      subst h
      simp only [tailE] at h1 ⊢
      omega

theorem Inv.v0_victim_cells {s : ConcurrentRangeLock} {P R : List Entry} {v : Entry}
    (hI : Inv s (P ++ v :: R)) :
    ∀ j, j ≤ v.level → getCell s.nodes v.addr j = some ⟨(succAt (tailE s.maxLevel) R j).addr⟩ ∧
      (succAt (tailE s.maxLevel) R j).addr % 2 = 0 := by
  intro j hj
  have hjm : j ≤ s.maxLevel := Nat.le_trans hj (hI.dom v (by simp)).2.2.2
  have hc := hI.wf.links j hjm
  have e1 : headE s.maxLevel :: atLevel j (P ++ v :: R) ++ [tailE s.maxLevel] =
      headE s.maxLevel :: atLevel j ((P ++ [v]) ++ R) ++ [tailE s.maxLevel] := by simp
  rw [e1] at hc
  have hl := link_pred_succ hc
  rw [predAt_append_singleton (headE s.maxLevel) P hj] at hl
  refine ⟨hl, v0_Agree_even (hI.wf.agree _ ?_)⟩
  have := succAt_mem_all (tailE s.maxLevel) R j
  simp only [List.mem_append, List.mem_cons, List.mem_singleton] at this ⊢
  tauto

theorem v0_releaseLock_held {s : ConcurrentRangeLock} {P R : List Entry} {v : Entry}
    (hI : Inv s (P ++ v :: R)) :
    ∃ s1, releaseLock s v.start v.end_ = some (true, s1) ∧ s1.maxLevel = s.maxLevel ∧
      Inv s1 (P ++ R) := by
  have hW := hI.wf
  have hlen := hW.v0_heap_length
  have hP : P.length < s.nodes.length := by
    simp at hlen; omega
  have hbud : 1 ≤ s.nodes.length := by omega
  obtain ⟨hbefore, hafter, hvlt⟩ := hI.v0_around
  set hd := headE s.maxLevel with hhd
  set tl := tailE s.maxLevel with htl
  obtain ⟨preds1, succs1, hf, hF⟩ := v0_findExact_spec hW hI.head_eq hbefore
    (by
      intro e he
      have he' : e = v ∨ e ∈ R ++ [tl] := by
        simp only [List.mem_cons, List.mem_append, List.mem_singleton] at he ⊢; tauto
      rcases he' with rfl | h
      · omega
      · have := hafter e h
        omega) v.end_ hP
    (List.replicate (s.maxLevel + 1) 0) (List.replicate (s.maxLevel + 1) 0)
  have hs0 : succs1[0]? = some v.addr := by
    have := hF.2.2.2.1 0 (Nat.zero_le _) (by simp)
    rw [succAt_zero_cons] at this
    exact this
  have hvA : Agree s.nodes v := hW.agree v (by simp)
  obtain ⟨vn, hvn, -, -, hvt, -⟩ := id hvA
  have hcells := hI.v0_victim_cells
  obtain ⟨h2, h3, hmu, hg2, hcas, hg3, hA3, hc3⟩ := v0_mark_all s.nodes.length hbud v
    (fun j => (succAt tl R j).addr) hvA hcells
  have hnev := v0_ne_victim hW.nodup
  have hU : Unlinking h3 s.maxLevel P v R (s.maxLevel + 1) := by
    refine ⟨fun e he => (hA3 e).mpr (hW.agree e he), hW.nodup, ?_, ?_, ?_⟩
    · intro j hj
      rw [hc3]
      have e1 : ¬ (j ≤ v.level ∧ tl.addr = v.addr) := fun h =>
        hnev tl (by simp) h.2
      rw [if_neg e1]
      exact hW.tailCells j hj
    · intro j hj _
      apply chain'_congr_of_mem (hW.links j hj)
      intro a ha b _ hab
      unfold Link at hab
      unfold LinkM
      rw [hc3]
      by_cases hav : a.addr = v.addr
      · have hjv : j ≤ v.level := by
          by_contra hn
          have hnv : ¬ (a = v ∧ j ≤ a.level) := fun h => hn (h.1 ▸ h.2)
          have : a ∈ hd :: (P ++ R) ++ [tl] := by
            simp only [List.mem_cons, List.mem_append, List.mem_singleton, mem_atLevel] at ha ⊢
            tauto
          exact hnev a this hav
        rw [if_pos ⟨hjv, hav⟩, if_pos hav]
        rw [hav, (hcells j hjv).1] at hab
        simp only [Option.some.injEq, AtomicMarkableReference.mk.injEq] at hab
        rw [hab]
      · have e1 : ¬ (j ≤ v.level ∧ a.addr = v.addr) := fun h => hav h.2
        rw [if_neg e1, if_neg hav]
        exact hab
    · intro j hj hjk
      omega
  obtain ⟨h4, hfd, hW4⟩ := v0_findDelete_spec (s := { s with nodes := h3 }) (Nat.le_refl _)
    hbefore hafter hI.head_eq hP hU
  refine ⟨⟨h4, s.maxLevel, fetchSub1 s.elementsCount, s.tail, s.head⟩, ?_, rfl, ?_⟩
  · obtain ⟨b, hb⟩ : ∃ b, s.nodes.length = b + 1 := ⟨s.nodes.length - 1, by omega⟩
    have hmb : markBottom s.nodes.length v.addr v.start s.nodes.length
        { s with nodes := h2 } (succAt tl R 0).addr =
        some (true, ⟨h4, s.maxLevel, fetchSub1 s.elementsCount, s.tail, s.head⟩) := by
      conv_lhs => arg 4; rw [hb]
      rw [markBottom]
      simp only [hcas, hg3, if_true, hfd]
    unfold releaseLock
    rw [hf]
    have hfound : (decide (v.start = (succAt tl (v :: R) 0).start) &&
        decide (v.end_ = (succAt tl (v :: R) 0).end_)) = true := by
      rw [succAt_zero_cons]; simp
    rw [hfound]
    simp only [hs0, hvn, hvt, hmu, hg2,
      v0_get_even (hcells 0 (Nat.zero_le _)).2]
    exact hmb
  · refine ⟨hI.head_eq, hI.tail_eq, hW4, ?_, ?_, ?_⟩
    · intro e he
      apply hI.dom e
      simp only [List.mem_append, List.mem_cons] at he ⊢
      tauto
    · exact hI.sorted.sublist (remove_sublist hd tl v P R)
    · have hl := hI.v0_length_lt
      show fetchSub1 s.elementsCount = (P ++ R).length
      rw [hI.count, fetchSub1_eq]
      · simp
      · simp
      · simp only [UINT64_MAX] at hl
        omega

theorem Inv.v0_split_end {s : ConcurrentRangeLock} {L : List Entry} (hI : Inv s L)
    {start : Nat} (hmax : start < UINT64_MAX) :
    (∀ e ∈ L.takeWhile (fun e => decide (e.end_ ≤ start)), e.start ≤ start ∧ e.end_ ≤ start) ∧
    ∀ e ∈ L.dropWhile (fun e => decide (e.end_ ≤ start)) ++ [tailE s.maxLevel],
      ¬ (e.start ≤ start ∧ e.end_ ≤ start) := by
  refine ⟨?_, ?_⟩
  · intro e he
    have h1 : e.end_ ≤ start := by simpa using List.mem_takeWhile_imp he
    have h2 := hI.dom e ((List.takeWhile_prefix _).subset he)
    omega
  · intro e he
    rcases List.mem_append.mp he with h | h
    · have := dropWhile_all_not (fun e => decide (e.end_ ≤ start)) _ L hI.v0_sorted_list
        (fun a _ b hb hab hpa => by
          have := hI.dom b hb
          simp only [decide_eq_false_iff_not] at hpa ⊢
          omega) e h
      have h3 : ¬ e.end_ ≤ start := by simpa using this
      omega
    · simp only [List.mem_singleton] at h
      subst h
      simp only [tailE]; omega

theorem v0_releaseLock_absent {s : ConcurrentRangeLock} {L : List Entry} (hI : Inv s L)
    {start end_ : Nat} (h3 : end_ ≤ UINT64_MAX - 1) (h2 : start < end_)
    (hab : (start, end_) ∉ L.map fun e => (e.start, e.end_)) :
    releaseLock s start end_ = some (false, s) := by
  have hM : start < UINT64_MAX := by omega
  obtain ⟨hb, ha⟩ := hI.v0_split_end hM
  have hPR := (List.takeWhile_append_dropWhile (fun e => decide (e.end_ ≤ start)) L).symm
  generalize List.takeWhile (fun e => decide (e.end_ ≤ start)) L = P at hb hPR
  generalize List.dropWhile (fun e => decide (e.end_ ≤ start)) L = R at ha hPR
  subst hPR
  have hW := hI.wf
  have hlen := hW.v0_heap_length
  have hP : P.length < s.nodes.length := by
    simp at hlen; omega
  obtain ⟨preds1, succs1, hf, -⟩ := v0_findExact_spec hW hI.head_eq hb ha end_ hP
    (List.replicate (s.maxLevel + 1) 0) (List.replicate (s.maxLevel + 1) 0)
  unfold releaseLock
  rw [hf]
  have hfound : (decide (start = (succAt (tailE s.maxLevel) R 0).start) &&
      decide (end_ = (succAt (tailE s.maxLevel) R 0).end_)) = false := by
    cases R with
    | nil =>
      rw [succAt_nil]
      have : ¬ start = (tailE s.maxLevel).start := by simp only [tailE]; omega
      simp [this]
    | cons r R' =>
      rw [succAt_zero_cons]
      by_cases hs : start = r.start
      · by_cases he : end_ = r.end_
        · exfalso
          apply hab
          rw [hs, he]
          exact List.mem_map.mpr ⟨r, by simp, rfl⟩
        · simp [he]
      · simp [hs]
  rw [hfound]

end V0

namespace V0

/-! ## V0: the held intervals and the reachable states -/

theorem v0_chainAfter_spec (h : List Node) (stop k : Nat) :
    ∀ (Y : List Entry) (p t : Entry) (fuel : Nat),
      List.Chain' (Link h k) (p :: Y ++ [t]) → t.addr = stop → t.addr % 2 = 0 →
      (∀ e ∈ Y, e.addr ≠ stop ∧ e.addr ≠ 0 ∧ e.addr % 2 = 0) → Y.length < fuel →
      chainAfter h stop k fuel p.addr = Y.map Entry.addr := by
  intro Y
  induction Y with
  | nil =>
    intro p t fuel hc ht hte _ hf
    obtain ⟨f, rfl⟩ : ∃ f, fuel = f + 1 := ⟨fuel - 1, by simp at hf; omega⟩
    have hl : getCell h p.addr k = some ⟨t.addr⟩ := (List.chain'_cons.mp hc).1
    have hr : AtomicMarkableReference.getReference ⟨t.addr⟩ = stop := by
      rw [v0_getReference_even hte, ht]
    simp [chainAfter, hl, hr]
  | cons y Y ih =>
    intro p t fuel hc ht hte hY hf
    obtain ⟨f, rfl⟩ : ∃ f, fuel = f + 1 := ⟨fuel - 1, by simp at hf; omega⟩
    have hc' : List.Chain' (Link h k) (p :: y :: (Y ++ [t])) := hc
    rw [List.chain'_cons] at hc'
    have hl : getCell h p.addr k = some ⟨y.addr⟩ := hc'.1
    have hy := hY y (List.mem_cons_self _ _)
    have := ih y t f hc'.2 ht hte (fun e he => hY e (List.mem_cons_of_mem _ he))
      (by simp at hf; omega)
    have hr : AtomicMarkableReference.getReference ⟨y.addr⟩ = y.addr :=
      v0_getReference_even hy.2.2
    simp [chainAfter, hl, hr, hy.1, hy.2.1, this]

theorem Inv.v0_addr_ne {s : ConcurrentRangeLock} {L : List Entry} (hI : Inv s L) {e : Entry}
    (he : e ∈ L) : e.addr ≠ s.tail ∧ e.addr ≠ 0 ∧ e.addr % 2 = 0 := by
  refine ⟨?_, ?_, ?_⟩
  · intro h
    rw [hI.tail_eq] at h
    have hnd := hI.wf.nodup
    have e1 : headE s.maxLevel :: L ++ [tailE s.maxLevel] =
        (headE s.maxLevel :: L) ++ [tailE s.maxLevel] := by simp
    rw [e1, List.map_append, List.nodup_append] at hnd
    exact hnd.2.2 (List.mem_map.mpr ⟨e, List.mem_cons_of_mem _ he, rfl⟩)
      (by simp [h])
  · obtain ⟨n, hn, -⟩ := hI.wf.agree e (by simp [he])
    exact deref_ne_zero hn
  · exact v0_Agree_even (hI.wf.agree e (by simp [he]))

theorem Inv.v0_levelNodes_eq {s : ConcurrentRangeLock} {L : List Entry} (hI : Inv s L)
    {k : Nat} (hk : k ≤ s.maxLevel) : levelNodes s k = (atLevel k L).map Entry.addr := by
  unfold levelNodes
  rw [hI.head_eq]
  apply v0_chainAfter_spec s.nodes s.tail k (atLevel k L) (headE s.maxLevel)
    (tailE s.maxLevel) _ (hI.wf.links k hk) hI.tail_eq.symm
  · exact v0_Agree_even (hI.wf.agree _ (by simp))
  · intro e he
    exact hI.v0_addr_ne (mem_atLevel.mp he).1
  · have := hI.wf.v0_heap_length
    have := (atLevel_sublist k L).length_le
    omega

theorem Inv.v0_held_eq {s : ConcurrentRangeLock} {L : List Entry} (hI : Inv s L) :
    held s = L.map fun e => (e.start, e.end_) := by
  unfold held
  rw [hI.v0_levelNodes_eq (Nat.zero_le _), atLevel_zero, List.filterMap_map]
  have : ∀ (M : List Entry), (∀ e ∈ M, Agree s.nodes e) →
      List.filterMap ((fun p => Option.map (fun n => (n.start, n.end_)) (deref s.nodes p)) ∘
        Entry.addr) M = M.map fun e => (e.start, e.end_) := by
    intro M
    induction M with
    | nil => intro _; rfl
    | cons a M ih =>
      intro hM
      obtain ⟨n, hn, h1, h2, -⟩ := hM a (List.mem_cons_self _ _)
      rw [List.filterMap_cons, List.map_cons]
      simp only [Function.comp, hn, Option.map_some', h1, h2]
      rw [← ih (fun e he => hM e (List.mem_cons_of_mem _ he))]
  exact this L (fun e he => hI.wf.agree e (by simp [he]))

theorem v0_new_eq (maxLevel : Nat) :
    ConcurrentRangeLock.new maxLevel =
      ⟨[⟨0, 0, maxLevel, List.replicate (maxLevel + 1) ⟨4⟩⟩,
        ⟨UINT64_MAX, UINT64_MAX, maxLevel, List.replicate (maxLevel + 1) ⟨0⟩⟩],
        maxLevel, 0, 4, 2⟩ := by
  rfl

theorem Inv.v0_fresh (maxLevel : Nat) : Inv (ConcurrentRangeLock.new maxLevel) [] := by
  rw [v0_new_eq]
  refine ⟨rfl, rfl, ⟨?_, ?_, ?_, ?_⟩, ?_, ?_, rfl⟩
  · intro e he
    have he' : e = headE maxLevel ∨ e = tailE maxLevel := by simpa using he
    rcases he' with rfl | rfl
    · exact ⟨⟨0, 0, maxLevel, List.replicate (maxLevel + 1) ⟨4⟩⟩,
        by simp [deref, headE, addrOf], rfl, rfl, rfl, by simp [headE]⟩
    · exact ⟨⟨UINT64_MAX, UINT64_MAX, maxLevel, List.replicate (maxLevel + 1) ⟨0⟩⟩,
        by simp [deref, tailE, addrOf], rfl, rfl, rfl, by simp [tailE]⟩
  · simp [headE, tailE, addrOf]
  · intro k hk
    have hk' : k < maxLevel + 1 := Nat.lt_succ_of_le hk
    show List.Chain' _ [headE maxLevel, tailE maxLevel]
    simp only [List.chain'_cons, List.chain'_singleton, and_true]
    show getCell _ (addrOf 0) k = some ⟨addrOf 1⟩
    rw [v0_getCell_of_deref (n := ⟨0, 0, maxLevel, List.replicate (maxLevel + 1) ⟨4⟩⟩)
      (by simp [deref, addrOf])]
    simp [List.getElem?_replicate, hk', addrOf]
  · intro k hk
    have hk' : k < maxLevel + 1 := Nat.lt_succ_of_le hk
    show getCell _ (addrOf 1) k = some ⟨0⟩
    rw [v0_getCell_of_deref
      (n := ⟨UINT64_MAX, UINT64_MAX, maxLevel, List.replicate (maxLevel + 1) ⟨0⟩⟩)
      (by simp [deref, addrOf])]
    simp [List.getElem?_replicate, hk']
  · intro e he; cases he
  · simp [headE, tailE, UINT64_MAX]

/-- The functional behaviour of `tryLock` on a well-formed list: it refuses exactly when
some held interval `[s, e]`, ends included, meets `[start, end_]`. -/
theorem v0_tryLock_spec {s : ConcurrentRangeLock} {L : List Entry} (hI : Inv s L)
    {start end_ : Nat} (h1 : 1 ≤ start) (h2 : start < end_) (h3 : end_ ≤ UINT64_MAX - 1)
    (rand : Nat → Nat) :
    ((∃ e ∈ L, ¬ e.end_ < start ∧ ¬ end_ < e.start) ∧
        tryLock s start end_ rand = some (false, s)) ∨
    ((∀ e ∈ L, e.end_ < start ∨ end_ < e.start) ∧
      ∃ s1 P R, L = P ++ R ∧ tryLock s start end_ rand = some (true, s1) ∧
        s1.maxLevel = s.maxLevel ∧
        Inv s1 (P ++ ⟨addrOf s.nodes.length, start, end_, randomLevel rand s.maxLevel⟩ :: R)) := by
  have hM : start ≤ UINT64_MAX := by omega
  obtain ⟨hb, ha⟩ := hI.v0_split_start hM
  have hPR := (List.takeWhile_append_dropWhile (fun e => decide (e.start < start)) L).symm
  generalize List.takeWhile (fun e => decide (e.start < start)) L = P at hb hPR
  generalize List.dropWhile (fun e => decide (e.start < start)) L = R at ha hPR
  subst hPR
  by_cases hgap : (predAt (headE s.maxLevel) P 0).end_ < start ∧
      end_ < (succAt (tailE s.maxLevel) R 0).start
  · right
    refine ⟨?_, ?_⟩
    · intro e he
      rcases List.mem_append.mp he with h | h
      · left
        have := hI.v0_pred_end e (List.mem_cons_of_mem _ h)
        omega
      · right
        have := hI.v0_succ_start e (List.mem_append_left _ h)
        omega
    · obtain ⟨s1, hr, hm, hI1⟩ := v0_tryLock_insert hI h1 h2 h3 hb ha hgap.1 hgap.2 rand
      exact ⟨s1, P, R, rfl, hr, hm, hI1⟩
  · left
    refine ⟨?_, v0_tryLock_found hI hb ha hgap rand⟩
    by_cases hl : (predAt (headE s.maxLevel) P 0).end_ < start
    · have hr : ¬ end_ < (succAt (tailE s.maxLevel) R 0).start := fun h => hgap ⟨hl, h⟩
      have hm := succAt_mem_all (tailE s.maxLevel) R 0
      rcases List.mem_append.mp hm with h | h
      · refine ⟨_, List.mem_append_right _ h, ?_, hr⟩
        have := ha _ hm
        have := hI.dom _ (List.mem_append_right _ h)
        omega
      · exfalso
        simp only [List.mem_singleton] at h
        rw [h] at hr
        simp only [tailE] at hr
        omega
    · have hm := predAt_mem_all (headE s.maxLevel) P 0
      rcases List.mem_cons.mp hm with h | h
      · exfalso
        rw [h] at hl
        simp only [headE] at hl
        omega
      · refine ⟨_, List.mem_append_left _ h, hl, ?_⟩
        have := hb _ h
        omega

/-- The functional behaviour of `releaseLock` on a well-formed list: a held interval is
removed, anything else is refused. -/
theorem v0_releaseLock_spec {s : ConcurrentRangeLock} {L : List Entry} (hI : Inv s L)
    {start end_ : Nat} (h2 : start < end_) (h3 : end_ ≤ UINT64_MAX - 1) :
    ((start, end_) ∉ (L.map fun e => (e.start, e.end_)) ∧
        releaseLock s start end_ = some (false, s)) ∨
    (∃ s1 P R lv a, L = P ++ ⟨a, start, end_, lv⟩ :: R ∧
      releaseLock s start end_ = some (true, s1) ∧ s1.maxLevel = s.maxLevel ∧
      Inv s1 (P ++ R)) := by
  by_cases hmem : (start, end_) ∈ L.map fun e => (e.start, e.end_)
  · right
    obtain ⟨v, hv, hvs⟩ := List.mem_map.mp hmem
    obtain ⟨P, R, rfl⟩ := List.append_of_mem hv
    obtain ⟨s1, hr, hm, hI1⟩ := v0_releaseLock_held hI
    simp only [Prod.mk.injEq] at hvs
    refine ⟨s1, P, R, v.level, v.addr, ?_, ?_, hm, hI1⟩
    · rw [← hvs.1, ← hvs.2]
    · rw [← hvs.1, ← hvs.2]
      exact hr
  · left
    exact ⟨hmem, v0_releaseLock_absent hI h3 h2 hmem⟩

theorem v0_Reachable_inv {maxLevel : Nat} {s : ConcurrentRangeLock}
    (hR : Reachable maxLevel s) : ∃ L, Inv s L ∧ s.maxLevel = maxLevel := by
  induction hR with
  | fresh => exact ⟨[], Inv.v0_fresh maxLevel, rfl⟩
  | tryLock _ h1 h2 h3 hrun ih =>
    obtain ⟨L, hI, hm⟩ := ih
    rcases v0_tryLock_spec hI h1 h2 h3 _ with ⟨-, hr⟩ | ⟨-, s2, P, R, -, hr, hm2, hI2⟩
    · rw [hr] at hrun
      cases hrun
      exact ⟨L, hI, hm⟩
    · rw [hr] at hrun
      cases hrun
      exact ⟨_, hI2, hm2.trans hm⟩
  | releaseLock _ h1 h2 h3 hrun ih =>
    obtain ⟨L, hI, hm⟩ := ih
    rcases v0_releaseLock_spec hI h2 h3 with ⟨-, hr⟩ | ⟨s2, P, R, lv, a, -, hr, hm2, hI2⟩
    · rw [hr] at hrun
      cases hrun
      exact ⟨L, hI, hm⟩
    · rw [hr] at hrun
      cases hrun
      exact ⟨_, hI2, hm2.trans hm⟩

end V0

namespace V0

/-! ## V0: counts, levels and the round trip -/

theorem Inv.v0_intervals_ne {s : ConcurrentRangeLock} {P R : List Entry} {v : Entry}
    (hI : Inv s (P ++ v :: R)) :
    (v.start, v.end_) ∉ (P ++ R).map fun e => (e.start, e.end_) := by
  obtain ⟨hb, ha, hlt⟩ := hI.v0_around
  intro hmem
  obtain ⟨e, he, hev⟩ := List.mem_map.mp hmem
  simp only [Prod.mk.injEq] at hev
  rcases List.mem_append.mp he with h | h
  · have := hb e h
    have := hI.dom e (by simp [h])
    omega
  · have h1 := ha e (List.mem_append_left _ h)
    have hsorted := hI.sorted
    have e2 : headE s.maxLevel :: (P ++ v :: R) ++ [tailE s.maxLevel] =
        (headE s.maxLevel :: P) ++ v :: (R ++ [tailE s.maxLevel]) := by simp
    rw [e2, List.pairwise_append] at hsorted
    have h2 := (List.pairwise_cons.mp hsorted.2.1).1 e (List.mem_append_left _ h)
    omega

/-- The result of `tryLock` depends on the held intervals only. -/
theorem v0_tryLock_same_result {s t : ConcurrentRangeLock} {L M : List Entry}
    (hs : Inv s L) (ht : Inv t M)
    (hLM : ∀ iv, iv ∈ (L.map fun e => (e.start, e.end_)) ↔
      iv ∈ (M.map fun e => (e.start, e.end_)))
    {start end_ : Nat} (h1 : 1 ≤ start) (h2 : start < end_) (h3 : end_ ≤ UINT64_MAX - 1)
    (rand1 rand2 : Nat → Nat) :
    ∃ r s1 t1, tryLock s start end_ rand1 = some (r, s1) ∧
      tryLock t start end_ rand2 = some (r, t1) := by
  rcases v0_tryLock_spec hs h1 h2 h3 rand1 with
    ⟨⟨e, he, hx, hy⟩, hr⟩ | ⟨hsep, s1, P, R, -, hr, -, -⟩
  · rcases v0_tryLock_spec ht h1 h2 h3 rand2 with ⟨-, hr2⟩ | ⟨hsep2, -⟩
    · exact ⟨false, s, t, hr, hr2⟩
    · exfalso
      have hm : (e.start, e.end_) ∈ M.map fun e => (e.start, e.end_) :=
        (hLM _).mp (List.mem_map.mpr ⟨e, he, rfl⟩)
      obtain ⟨e', he', hee⟩ := List.mem_map.mp hm
      simp only [Prod.mk.injEq] at hee
      rcases hsep2 e' he' with h | h
      · omega
      · omega
  · rcases v0_tryLock_spec ht h1 h2 h3 rand2 with
      ⟨⟨e, he, hx, hy⟩, -⟩ | ⟨-, t1, P2, R2, -, hr2, -, -⟩
    · exfalso
      have hm : (e.start, e.end_) ∈ L.map fun e => (e.start, e.end_) :=
        (hLM _).mpr (List.mem_map.mpr ⟨e, he, rfl⟩)
      obtain ⟨e', he', hee⟩ := List.mem_map.mp hm
      simp only [Prod.mk.injEq] at hee
      rcases hsep e' he' with h | h
      · omega
      · omega
    · exact ⟨true, s1, t1, hr, hr2⟩

theorem Inv.v0_levelNodes_above {s : ConcurrentRangeLock} {L : List Entry} (hI : Inv s L)
    {k : Nat} (hk : s.maxLevel < k) : levelNodes s k = [] := by
  have hlen := hI.wf.v0_heap_length
  obtain ⟨f, hf⟩ : ∃ f, s.nodes.length = f + 1 := ⟨s.nodes.length - 1, by omega⟩
  obtain ⟨n, hn, -, -, -, hnl⟩ := hI.wf.agree (headE s.maxLevel) (by simp)
  have hc : getCell s.nodes s.head k = none := by
    rw [hI.head_eq, v0_getCell_of_deref hn]
    simp only [headE] at hnl
    exact List.getElem?_eq_none (by omega)
  unfold levelNodes
  rw [hf, chainAfter, hc]

theorem Inv.v0_mem_levelNodes {s : ConcurrentRangeLock} {L : List Entry} (hI : Inv s L)
    {e : Entry} (he : e ∈ L) (k : Nat) : e.addr ∈ levelNodes s k ↔ k ≤ e.level := by
  by_cases hk : k ≤ s.maxLevel
  · rw [hI.v0_levelNodes_eq hk]
    constructor
    · intro hm
      obtain ⟨e', he', hee⟩ := List.mem_map.mp hm
      have hmem := mem_atLevel.mp he'
      have : e' = e := entry_eq_of_addr_eq hI.wf.nodup (by simp [hmem.1]) (by simp [he]) hee
      rw [← this]
      exact hmem.2
    · intro hle
      exact List.mem_map.mpr ⟨e, mem_atLevel.mpr ⟨he, hle⟩, rfl⟩
  · rw [hI.v0_levelNodes_above (by omega)]
    have := (hI.dom e he).2.2.2
    constructor
    · intro h; cases h
    · intro h; omega

theorem Inv.v0_levelLast {s : ConcurrentRangeLock} {L : List Entry} (hI : Inv s L)
    {k : Nat} (hk : k ≤ s.maxLevel) :
    levelLast s k = (predAt (headE s.maxLevel) L k).addr := by
  unfold levelLast predAt
  rw [hI.v0_levelNodes_eq hk, hI.head_eq]
  generalize atLevel k L = M
  generalize headE s.maxLevel = d
  induction M generalizing d with
  | nil => rfl
  | cons a M ih =>
    rw [List.map_cons, List.getLastD_cons, List.getLastD_cons]
    exact ih a

theorem Inv.v0_levelStarts {s : ConcurrentRangeLock} {L : List Entry} (hI : Inv s L)
    {k : Nat} (hk : k ≤ s.maxLevel) :
    levelStarts s k =
      (headE s.maxLevel :: atLevel k L ++ [tailE s.maxLevel]).map Entry.start := by
  unfold levelStarts
  rw [hI.v0_levelNodes_eq hk, hI.head_eq, hI.tail_eq]
  have e1 : ((headE s.maxLevel).addr :: List.map Entry.addr (atLevel k L)) ++
      [(tailE s.maxLevel).addr] =
      (headE s.maxLevel :: atLevel k L ++ [tailE s.maxLevel]).map Entry.addr := by simp
  rw [e1, List.filterMap_map]
  have : ∀ (M : List Entry), (∀ e ∈ M, Agree s.nodes e) →
      List.filterMap ((fun p => Option.map (fun n => n.start) (deref s.nodes p)) ∘
        Entry.addr) M = M.map Entry.start := by
    intro M
    induction M with
    | nil => intro _; rfl
    | cons a M ih =>
      intro hM
      obtain ⟨n, hn, h1, -⟩ := hM a (List.mem_cons_self _ _)
      rw [List.filterMap_cons, List.map_cons]
      simp only [Function.comp, hn, Option.map_some', h1]
      rw [← ih (fun e he => hM e (List.mem_cons_of_mem _ he))]
  exact this _ (fun e he => hI.wf.v0_agree_level he)

theorem Inv.v0_starts_increasing {s : ConcurrentRangeLock} {L : List Entry} (hI : Inv s L)
    (k : Nat) :
    ((headE s.maxLevel :: atLevel k L ++ [tailE s.maxLevel]).map Entry.start).Pairwise
      (fun a b => a < b) := by
  rw [List.pairwise_map]
  have hsub : (headE s.maxLevel :: atLevel k L ++ [tailE s.maxLevel]).Sublist
      (headE s.maxLevel :: L ++ [tailE s.maxLevel]) := by
    have := (atLevel_sublist k L).append_right [tailE s.maxLevel]
    exact List.Sublist.cons₂ _ this
  have hall : (headE s.maxLevel :: L ++ [tailE s.maxLevel]).Pairwise
      (fun a b => a.start < b.start) := by
    apply hI.sorted.imp_of_mem
    intro a b ha _ hab
    have ha' : a = headE s.maxLevel ∨ a ∈ L ∨ a = tailE s.maxLevel := by
      simp only [List.mem_cons, List.mem_append, List.mem_singleton] at ha
      tauto
    rcases ha' with rfl | h | rfl
    · simp only [headE] at hab ⊢
      omega
    · have := hI.dom a h
      omega
    · simp only [tailE] at hab ⊢
      omega
  exact hall.sublist hsub

end V0

namespace V2

/-! ## V2: pointer words, cells and chains -/

theorem v2_isMarked_even {q : Nat} (hq : q % 2 = 0) : isMarked q = false := by
  simp [isMarked, Nat.and_one_is_mod, hq]

theorem v2_isMarked_odd {q : Nat} (hq : q % 2 = 0) : isMarked (q + 1) = true := by
  have : (q + 1) % 2 = 1 := by omega
  simp [isMarked, Nat.and_one_is_mod, this]

theorem v2_unmark_even {q : Nat} (hq : q % 2 = 0) : unmark q = q := by
  simp [unmark, Nat.and_one_is_mod, hq]

theorem v2_unmark_odd {q : Nat} (hq : q % 2 = 0) : unmark (q + 1) = q := by
  have : (q + 1) % 2 = 1 := by omega
  simp [unmark, Nat.and_one_is_mod, this]

theorem v2_lor_one_even {q : Nat} (hq : q % 2 = 0) : q ||| 1 = q + 1 := by
  obtain ⟨k, rfl⟩ : ∃ k, q = 2 * k := ⟨q / 2, by omega⟩
  have h1 : 2 * k = Nat.bit false k := by simp [Nat.bit_val]
  have h2 : (1 : Nat) = Nat.bit true 0 := by simp [Nat.bit_val]
  rw [h1, h2, Nat.lor_bit]
  simp [Nat.bit_val]

theorem v2_lor_one_odd {q : Nat} (hq : q % 2 = 0) : (q + 1) ||| 1 = q + 1 := by
  obtain ⟨k, rfl⟩ : ∃ k, q = 2 * k := ⟨q / 2, by omega⟩
  have h1 : 2 * k + 1 = Nat.bit true k := by simp [Nat.bit_val]
  have h2 : (1 : Nat) = Nat.bit true 0 := by simp [Nat.bit_val]
  rw [h1, h2, Nat.lor_bit]
  simp [Nat.bit_val]

theorem v2_deref_even {h : List LNode} {p : Nat} {n : LNode} (hd : deref h p = some n) :
    p % 2 = 0 ∧ p ≠ 0 := by
  obtain ⟨i, hi, -⟩ := deref_some_addr hd
  rw [hi]
  exact ⟨addrOf_even i, addrOf_ne_zero i⟩

theorem v2_storeRef_some {s : ListRL} {r : Ref} {c : Nat} (hl : load s r = some c) (v : Nat) :
    ∃ s1, storeRef s r v = some s1 := by
  cases r with
  | head => exact ⟨_, rfl⟩
  | next p =>
    cases hp : deref s.nodes p with
    | none => simp [load, hp] at hl
    | some n =>
      exact ⟨{ s with nodes := store s.nodes p { n with next := v } }, by simp [storeRef, hp]⟩

theorem v2_deref_storeRef {s s1 : ListRL} {r : Ref} {v : Nat} (hs : storeRef s r v = some s1)
    {x : Nat} (hx : x ≠ owner r) : deref s1.nodes x = deref s.nodes x := by
  cases r with
  | head =>
    simp only [storeRef, Option.some.injEq] at hs
    rw [← hs]
  | next p =>
    unfold storeRef at hs
    cases hp : deref s.nodes p with
    | none => simp [hp] at hs
    | some n =>
      simp only [hp, Option.some.injEq] at hs
      rw [← hs]
      exact deref_store_ne _ _ hx

theorem v2_fieldsOf_storeRef {s s1 : ListRL} {r : Ref} {v : Nat}
    (hs : storeRef s r v = some s1) (x : Nat) : fieldsOf s1.nodes x = fieldsOf s.nodes x := by
  cases r with
  | head =>
    simp only [storeRef, Option.some.injEq] at hs
    rw [← hs]
  | next p =>
    unfold storeRef at hs
    cases hp : deref s.nodes p with
    | none => simp [hp] at hs
    | some n =>
      simp only [hp, Option.some.injEq] at hs
      rw [← hs]
      unfold fieldsOf
      show Option.map _ (deref (store s.nodes p _) x) = _
      rw [deref_store]
      by_cases hx : x = p
      · subst hx
        simp [hp]
      · rw [if_neg hx]

theorem v2_load_storeRef_same {s s1 : ListRL} {r : Ref} {v : Nat}
    (hs : storeRef s r v = some s1) : load s1 r = some v := by
  cases r with
  | head =>
    simp only [storeRef, Option.some.injEq] at hs
    rw [← hs]
    rfl
  | next p =>
    unfold storeRef at hs
    cases hp : deref s.nodes p with
    | none => simp [hp] at hs
    | some n =>
      simp only [hp, Option.some.injEq] at hs
      rw [← hs]
      unfold load
      show Option.map _ (deref (store s.nodes p _) p) = _
      rw [deref_store_same hp]
      rfl

theorem v2_head_storeRef {s s1 : ListRL} {r : Ref} {v : Nat}
    (hs : storeRef s r v = some s1) (hr : owner r ≠ 0) : s1.head = s.head := by
  cases r with
  | head => exact absurd rfl hr
  | next p =>
    unfold storeRef at hs
    cases hp : deref s.nodes p with
    | none => simp [hp] at hs
    | some n =>
      simp only [hp, Option.some.injEq] at hs
      rw [← hs]

theorem v2_count_storeRef {s s1 : ListRL} {r : Ref} {v : Nat}
    (hs : storeRef s r v = some s1) : s1.elementsCount = s.elementsCount := by
  cases r with
  | head =>
    simp only [storeRef, Option.some.injEq] at hs
    rw [← hs]
  | next p =>
    unfold storeRef at hs
    cases hp : deref s.nodes p with
    | none => simp [hp] at hs
    | some n =>
      simp only [hp, Option.some.injEq] at hs
      rw [← hs]

theorem v2_length_storeRef {s s1 : ListRL} {r : Ref} {v : Nat}
    (hs : storeRef s r v = some s1) : s1.nodes.length = s.nodes.length := by
  cases r with
  | head =>
    simp only [storeRef, Option.some.injEq] at hs
    rw [← hs]
  | next p =>
    unfold storeRef at hs
    cases hp : deref s.nodes p with
    | none => simp [hp] at hs
    | some n =>
      simp only [hp, Option.some.injEq] at hs
      rw [← hs]
      exact length_store _ _ _

/-- A cell whose owner is left alone, in a state whose head is left alone, reads the same. -/
theorem v2_load_congr {s s1 : ListRL} {r : Ref}
    (hd : deref s1.nodes (owner r) = deref s.nodes (owner r))
    (hh : owner r = 0 → s1.head = s.head) : load s1 r = load s r := by
  cases r with
  | head =>
    show some s1.head = some s.head
    rw [hh rfl]
  | next p =>
    have : deref s1.nodes p = deref s.nodes p := hd
    show Option.map _ (deref s1.nodes p) = Option.map _ (deref s.nodes p)
    rw [this]

theorem v2_Chain_congr {h h1 : List LNode} :
    ∀ (C : List Item) (p : Nat), (∀ x ∈ C.map Item.addr, deref h1 x = deref h x) →
      Chain h p C → Chain h1 p C := by
  intro C
  induction C with
  | nil => intro p _ hc; exact hc
  | cons a rest ih =>
    intro p hx hc
    obtain ⟨hp, n, hn, h1', h2, q, hq, hqe, hrest⟩ := hc
    refine ⟨hp, n, ?_, h1', h2, q, hq, hqe, ?_⟩
    · rw [hx a.addr (by simp)]
      exact hn
    · exact ih q (fun x hx' => hx x (by simp only [List.map_cons, List.mem_cons]; exact Or.inr hx'))
        hrest

theorem v2_Chain_even {h : List LNode} {p : Nat} {C : List Item} (hc : Chain h p C) :
    p % 2 = 0 := by
  cases C with
  | nil =>
    have : p = 0 := hc
    rw [this]
  | cons a rest =>
    obtain ⟨hp, n, hn, -⟩ := hc
    rw [hp]
    exact (v2_deref_even hn).1

theorem v2_Chain_valid {h : List LNode} :
    ∀ (C : List Item) (p : Nat), Chain h p C → ∀ a ∈ C, (deref h a.addr).isSome = true := by
  intro C
  induction C with
  | nil => intro p _ a ha; cases ha
  | cons b rest ih =>
    intro p hc a ha
    obtain ⟨-, n, hn, -, -, q, -, -, hrest⟩ := hc
    rcases List.mem_cons.mp ha with rfl | h
    · simp [hn]
    · exact ih q hrest a h

theorem v2_Chain_length {h : List LNode} {p : Nat} {C : List Item} (hc : Chain h p C)
    (hnd : (C.map Item.addr).Nodup) : C.length ≤ h.length := by
  have := length_le_of_nodup_deref h _ hnd (fun x hx => by
    obtain ⟨a, ha, rfl⟩ := List.mem_map.mp hx
    exact v2_Chain_valid C p hc a ha)
  simpa using this

end V2

namespace V2

/-! ## V2: what the traversal does to the chain -/

theorem v2_liveOf_cons (a : Item) (C : List Item) :
    liveOf (a :: C) = if a.dead then liveOf C else (a.start, a.end_) :: liveOf C := by
  unfold liveOf
  cases h : a.dead <;> simp [List.filter_cons, h]

theorem v2_mem_liveOf {C : List Item} {iv : Nat × Nat} :
    iv ∈ liveOf C ↔ ∃ a ∈ C, a.dead = false ∧ iv = (a.start, a.end_) := by
  unfold liveOf
  simp only [List.mem_map, List.mem_filter, Bool.not_eq_true']
  constructor
  · rintro ⟨a, ⟨ha, hd⟩, rfl⟩
    exact ⟨a, ha, hd, rfl⟩
  · rintro ⟨a, ha, hd, rfl⟩
    exact ⟨a, ⟨ha, hd⟩, rfl⟩

theorem v2_walkAbs_mem (l : Item) :
    ∀ (C : List Item) (a : Item), a ∈ (walkAbs l C).2 → a = l ∨ a ∈ C := by
  intro C
  induction C with
  | nil =>
    intro a ha
    simp only [walkAbs, List.mem_singleton] at ha
    exact Or.inl ha
  | cons b rest ih =>
    intro a ha
    unfold walkAbs at ha
    split at ha
    · rcases ih a ha with h | h
      · exact Or.inl h
      · exact Or.inr (List.mem_cons_of_mem _ h)
    · split at ha
      · rcases List.mem_cons.mp ha with h | h
        · exact Or.inl h
        · exact Or.inr h
      · split at ha
        · rcases List.mem_cons.mp ha with h | h
          · exact Or.inr (by rw [h]; exact List.mem_cons_self _ _)
          · rcases ih a h with h' | h'
            · exact Or.inl h'
            · exact Or.inr (List.mem_cons_of_mem _ h')
        · exact Or.inr ha

theorem v2_walkAbs_nodup (l : Item) :
    ∀ (C : List Item), (C.map Item.addr).Nodup → l.addr ∉ C.map Item.addr →
      ((walkAbs l C).2.map Item.addr).Nodup := by
  intro C
  induction C with
  | nil => intro _ _; simp [walkAbs]
  | cons b rest ih =>
    intro hnd hl
    rw [List.map_cons, List.nodup_cons] at hnd
    have hl' : l.addr ∉ rest.map Item.addr := fun h => hl (by
      rw [List.map_cons]; exact List.mem_cons_of_mem _ h)
    have hlb : l.addr ≠ b.addr := fun h => hl (by rw [List.map_cons, h]; exact List.mem_cons_self _ _)
    unfold walkAbs
    split
    · exact ih hnd.2 hl'
    · split
      · simp only [List.map_cons, List.nodup_cons]
        exact ⟨hl, hnd.1, hnd.2⟩
      · split
        · simp only [List.map_cons, List.nodup_cons]
          refine ⟨?_, ih hnd.2 hl'⟩
          intro hmem
          obtain ⟨a, ha, hab⟩ := List.mem_map.mp hmem
          rcases v2_walkAbs_mem l rest a ha with h | h
          · rw [h] at hab; exact hlb hab
          · exact hnd.1 (List.mem_map.mpr ⟨a, h, hab⟩)
        · simp only [List.map_cons, List.nodup_cons]
          exact hnd

theorem v2_walkAbs_false_live (l : Item) :
    ∀ (C : List Item), (walkAbs l C).1 = false → liveOf (walkAbs l C).2 = liveOf C := by
  intro C
  induction C with
  | nil => intro h; simp [walkAbs] at h
  | cons b rest ih =>
    intro h
    unfold walkAbs at h ⊢
    split at h
    · rename_i hb
      rw [if_pos hb, v2_liveOf_cons, if_pos hb]
      exact ih h
    · rename_i hb
      rw [if_neg hb]
      split at h
      · simp at h
      · rename_i h1
        rw [if_neg h1]
        split at h
        · rename_i h2
          rw [if_pos h2]
          simp only at h ⊢
          rw [v2_liveOf_cons, v2_liveOf_cons, ih h]
        · rename_i h2
          rw [if_neg h2]

theorem v2_walkAbs_false_overlap (l : Item) :
    ∀ (C : List Item), (walkAbs l C).1 = false →
      ∃ iv ∈ liveOf C, iv.1 < l.end_ ∧ l.start < iv.2 := by
  intro C
  induction C with
  | nil => intro h; simp [walkAbs] at h
  | cons b rest ih =>
    intro h
    unfold walkAbs at h
    split at h
    · rename_i hb
      obtain ⟨iv, hiv, hx⟩ := ih h
      refine ⟨iv, ?_, hx⟩
      rw [v2_liveOf_cons, if_pos hb]
      exact hiv
    · rename_i hb
      split at h
      · simp at h
      · rename_i h1
        split at h
        · obtain ⟨iv, hiv, hx⟩ := ih h
          refine ⟨iv, ?_, hx⟩
          rw [v2_liveOf_cons, if_neg hb]
          exact List.mem_cons_of_mem _ hiv
        · rename_i h2
          refine ⟨(b.start, b.end_), ?_, ?_⟩
          · rw [v2_liveOf_cons, if_neg hb]
            exact List.mem_cons_self _ _
          · simp only
            omega

theorem v2_walkAbs_true (l : Item) (hld : l.dead = false) :
    ∀ (C : List Item), (liveOf C).Pairwise (fun a b => a.2 ≤ b.1) →
      (∀ a ∈ C, a.start < a.end_) → (walkAbs l C).1 = true →
      (liveOf (walkAbs l C).2).Pairwise (fun a b => a.2 ≤ b.1) ∧
        ∀ iv ∈ liveOf C, ¬ (iv.1 < l.end_ ∧ l.start < iv.2) := by
  intro C
  induction C with
  | nil =>
    intro _ _ _
    refine ⟨?_, fun iv hiv => by simp [liveOf] at hiv⟩
    simp [walkAbs, v2_liveOf_cons, hld, liveOf]
  | cons b rest ih =>
    intro hs hdom h
    have hdomr : ∀ a ∈ rest, a.start < a.end_ := fun a ha => hdom a (List.mem_cons_of_mem _ ha)
    have hb := hdom b (List.mem_cons_self _ _)
    unfold walkAbs at h ⊢
    split at h
    · rename_i hbd
      rw [if_pos hbd]
      rw [v2_liveOf_cons, if_pos hbd] at hs ⊢
      exact ih hs hdomr h
    · rename_i hbd
      rw [if_neg hbd]
      rw [v2_liveOf_cons, if_neg hbd] at hs
      rw [List.pairwise_cons] at hs
      split at h
      · rename_i h1
        rw [if_pos h1]
        have hall : ∀ iv ∈ liveOf (b :: rest), l.end_ ≤ iv.1 := by
          intro iv hiv
          rw [v2_liveOf_cons, if_neg hbd] at hiv
          rcases List.mem_cons.mp hiv with h2 | h2
          · rw [h2]; exact h1
          · have := hs.1 iv h2
            simp only at this
            omega
        refine ⟨?_, ?_⟩
        · simp only
          rw [v2_liveOf_cons, hld]
          simp only [Bool.false_eq_true, if_false, List.pairwise_cons]
          refine ⟨fun iv hiv => hall iv hiv, ?_⟩
          rw [v2_liveOf_cons, if_neg hbd, List.pairwise_cons]
          exact hs
        · intro iv hiv hx
          have := hall iv hiv
          omega
      · rename_i h1
        rw [if_neg h1]
        split at h
        · rename_i h2
          rw [if_pos h2]
          simp only at h ⊢
          obtain ⟨hp, hno⟩ := ih hs.2 hdomr h
          refine ⟨?_, ?_⟩
          · rw [v2_liveOf_cons, if_neg hbd, List.pairwise_cons]
            refine ⟨?_, hp⟩
            intro iv hiv
            obtain ⟨a, ha, had, rfl⟩ := v2_mem_liveOf.mp hiv
            rcases v2_walkAbs_mem l rest a ha with h3 | h3
            · rw [h3]; exact h2
            · exact hs.1 _ (v2_mem_liveOf.mpr ⟨a, h3, had, rfl⟩)
          · intro iv hiv hx
            rw [v2_liveOf_cons, if_neg hbd] at hiv
            rcases List.mem_cons.mp hiv with h3 | h3
            · rw [h3] at hx
              simp only at hx
              omega
            · exact hno iv h3 hx
        · simp at h

theorem v2_markDead_addr (p : Nat) (C : List Item) :
    (markDead p C).map Item.addr = C.map Item.addr := by
  unfold markDead
  rw [List.map_map]
  apply List.map_congr_left
  intro a _
  simp only [Function.comp]
  split <;> rfl

theorem v2_markDead_live (p : Nat) :
    ∀ (C : List Item), (liveOf (markDead p C)).Sublist (liveOf C) := by
  intro C
  induction C with
  | nil => exact List.Sublist.refl _
  | cons a rest ih =>
    have e : markDead p (a :: rest) =
        (if a.addr = p then { a with dead := true } else a) :: markDead p rest := rfl
    rw [e, v2_liveOf_cons, v2_liveOf_cons]
    by_cases hap : a.addr = p
    · rw [if_pos hap]
      simp only [if_true]
      cases had : a.dead
      · simp only [Bool.false_eq_true, if_false]
        exact List.Sublist.cons _ ih
      · simp only [if_true]
        exact ih
    · rw [if_neg hap]
      cases had : a.dead
      · simp only [Bool.false_eq_true, if_false]
        exact List.Sublist.cons₂ _ ih
      · simp only [if_true]
        exact ih

end V2

namespace V2

/-! ## V2: `InsertNode` -/

theorem v2_compareExchange_hit {s s1 : ListRL} {prev : Ref} {cur desired : Nat}
    (hl : load s prev = some cur) (hs : storeRef s prev desired = some s1) :
    compareExchange s prev cur desired = some (true, cur, s1) := by
  simp [compareExchange, hl, hs]

theorem v2_insertInner_spec (lock : Nat) (l : Item) (hla : l.addr = lock)
    (hld : l.dead = false) :
    ∀ (C : List Item) (fuel : Nat) (s : ListRL) (prev : Ref) (cur : Nat),
      C.length < fuel → load s prev = some cur → Chain s.nodes cur C →
      owner prev ∉ C.map Item.addr → owner prev ≠ lock → lock ∉ C.map Item.addr →
      (C.map Item.addr).Nodup →
      (∃ n, deref s.nodes lock = some n ∧ n.start = l.start ∧ n.end_ = l.end_) →
      ∃ s1 p1, insertInner lock fuel s prev cur = some (some (walkAbs l C).1, s1) ∧
        load s1 prev = some p1 ∧ Chain s1.nodes p1 (walkAbs l C).2 ∧
        (∀ x, x ≠ owner prev → x ∉ C.map Item.addr → x ≠ lock →
          deref s1.nodes x = deref s.nodes x) ∧
        (owner prev ≠ 0 → s1.head = s.head) ∧
        (∀ x, fieldsOf s1.nodes x = fieldsOf s.nodes x) ∧
        s1.elementsCount = s.elementsCount := by
  intro C
  induction C with
  | nil =>
    intro fuel s prev cur hf hload hc hpo hpl _ _ hlock
    obtain ⟨f, rfl⟩ : ∃ f, fuel = f + 1 := ⟨fuel - 1, by simp at hf; omega⟩
    have hcur : cur = 0 := hc
    subst hcur
    obtain ⟨ln, hln, hls, hle⟩ := hlock
    have hlnext : load s (Ref.next lock) = some ln.next := by simp [load, hln]
    obtain ⟨s1, hs1⟩ := v2_storeRef_some hlnext 0
    have hload1 : load s1 prev = some 0 := by
      rw [v2_load_congr (v2_deref_storeRef hs1 hpl) (fun h0 => by
        cases prev with
        | head =>
          simp only [storeRef] at hs1
          cases hp : deref s.nodes lock with
          | none => simp [hp] at hs1
          | some n =>
            simp only [hp, Option.some.injEq] at hs1
            rw [← hs1]
        | next p => exact v2_head_storeRef hs1 (by
            have := (v2_deref_even hln).2
            exact this))]
      exact hload
    obtain ⟨s2, hs2⟩ := v2_storeRef_some hload1 lock
    have hlock1 : load s1 (Ref.next lock) = some 0 := v2_load_storeRef_same hs1
    have hd2 : deref s2.nodes lock = deref s1.nodes lock := v2_deref_storeRef hs2 (Ne.symm hpl)
    have hf1 := v2_fieldsOf_storeRef hs1
    have hf2 := v2_fieldsOf_storeRef hs2
    refine ⟨s2, lock, ?_, v2_load_storeRef_same hs2, ?_, ?_, ?_, ?_, ?_⟩
    · rw [insertInner]
      have e1 : isMarked 0 = false := by decide
      have e2 : compare s.nodes 0 lock = some 1 := by simp [compare]
      simp only [e1, Bool.false_eq_true, if_false, ne_eq, not_true_eq_false, e2, hs1,
        v2_compareExchange_hit hload1 hs2]
      rfl
    · show Chain s2.nodes lock [l]
      cases hx : deref s1.nodes lock with
      | none => simp [load, hx] at hlock1
      | some n1 =>
        have hn1 : n1.next = 0 := by simpa [load, hx] using hlock1
        have hfl := hf1 lock
        simp only [fieldsOf, hx, hln, Option.map_some', Option.some.injEq, Prod.mk.injEq] at hfl
        refine ⟨hla.symm, n1, ?_, ?_, ?_, 0, ?_, rfl, rfl⟩
        · rw [hla, hd2, hx]
        · rw [hfl.1, hls]
        · rw [hfl.2, hle]
        · rw [hn1, hld]; rfl
    · intro x hx _ hxl
      rw [v2_deref_storeRef hs2 hx, v2_deref_storeRef hs1 hxl]
    · intro h0
      rw [v2_head_storeRef hs2 h0, v2_head_storeRef hs1 (v2_deref_even hln).2]
    · intro x
      rw [hf2, hf1]
    · rw [v2_count_storeRef hs2, v2_count_storeRef hs1]
  | cons a rest ih =>
    intro fuel s prev cur hf hload hc hpo hpl hlC hnd hlock
    obtain ⟨f, rfl⟩ : ∃ f, fuel = f + 1 := ⟨fuel - 1, by simp at hf; omega⟩
    have hc0 := hc
    obtain ⟨hcur, n, hn, hns, hne, q, hq, hqe, hrest⟩ := hc
    subst hcur
    obtain ⟨hae, ha0⟩ := v2_deref_even hn
    have hmk : isMarked a.addr = false := v2_isMarked_even hae
    rw [List.map_cons, List.nodup_cons] at hnd
    have hpo' : owner prev ∉ rest.map Item.addr := fun h => hpo (by
      rw [List.map_cons]; exact List.mem_cons_of_mem _ h)
    have hpa : owner prev ≠ a.addr := fun h => hpo (by
      rw [List.map_cons, h]; exact List.mem_cons_self _ _)
    have hlC' : lock ∉ rest.map Item.addr := fun h => hlC (by
      rw [List.map_cons]; exact List.mem_cons_of_mem _ h)
    have hla' : lock ≠ a.addr := fun h => hlC (by
      rw [List.map_cons, h]; exact List.mem_cons_self _ _)
    obtain ⟨ln, hln, hls, hle⟩ := hlock
    by_cases had : a.dead = true
    · -- the node is logically deleted: unlink it
      rw [had] at hq
      simp only [if_true] at hq
      obtain ⟨s1, hs1⟩ := v2_storeRef_some hload q
      have hframe1 : ∀ x, x ≠ owner prev → deref s1.nodes x = deref s.nodes x := fun x hx =>
        v2_deref_storeRef hs1 hx
      have hc1 : Chain s1.nodes q rest := by
        apply v2_Chain_congr rest q _ hrest
        intro x hx
        exact hframe1 x (fun h => hpo' (h ▸ hx))
      obtain ⟨s2, p2, hr, hl2, hc2, hfr2, hh2, hf2, hcnt2⟩ := ih f s1 prev q
        (by simp at hf; omega) (v2_load_storeRef_same hs1) hc1 hpo' hpl hlC' hnd.2
        ⟨ln, by rw [hframe1 lock (Ne.symm hpl)]; exact hln, hls, hle⟩
      refine ⟨s2, p2, ?_, hl2, ?_, ?_, ?_, ?_, ?_⟩
      · rw [insertInner]
        simp only [hmk, Bool.false_eq_true, if_false, ne_eq, ha0, not_false_eq_true, if_true,
          hn, Option.map_some', hq, v2_isMarked_odd hqe, v2_unmark_odd hqe,
          v2_compareExchange_hit hload hs1]
        rw [hr]
        simp [walkAbs, had]
      · simp only [walkAbs, had, if_true]
        exact hc2
      · intro x hx hxC hxl
        have hxC' : x ∉ rest.map Item.addr := fun h => hxC (by
          rw [List.map_cons]; exact List.mem_cons_of_mem _ h)
        rw [hfr2 x hx hxC' hxl, hframe1 x hx]
      · intro h0
        rw [hh2 h0, v2_head_storeRef hs1 h0]
      · intro x
        rw [hf2, v2_fieldsOf_storeRef hs1]
      · rw [hcnt2, v2_count_storeRef hs1]
    · -- the node protects a range
      have had' : a.dead = false := by
        cases h : a.dead
        · rfl
        · exact absurd h had
      rw [had'] at hq
      simp only [Bool.false_eq_true, if_false, Nat.add_zero] at hq
      have hmq : isMarked n.next = false := by rw [hq]; exact v2_isMarked_even hqe
      by_cases h1 : l.end_ ≤ a.start
      · -- the new node goes in front of this one
        have hcmp : compare s.nodes a.addr lock = some 1 := by
          have : n.start ≥ ln.end_ := by rw [hns, hle]; exact h1
          simp [compare, ha0, hn, hln, this]
        have hlnext : load s (Ref.next lock) = some ln.next := by simp [load, hln]
        obtain ⟨s1, hs1⟩ := v2_storeRef_some hlnext a.addr
        have hload1 : load s1 prev = some a.addr := by
          rw [v2_load_congr (v2_deref_storeRef hs1 hpl)
            (fun _ => v2_head_storeRef hs1 (v2_deref_even hln).2)]
          exact hload
        obtain ⟨s2, hs2⟩ := v2_storeRef_some hload1 lock
        have hlock1 : load s1 (Ref.next lock) = some a.addr := v2_load_storeRef_same hs1
        have hd2 : deref s2.nodes lock = deref s1.nodes lock :=
          v2_deref_storeRef hs2 (Ne.symm hpl)
        have hf1 := v2_fieldsOf_storeRef hs1
        have hf2 := v2_fieldsOf_storeRef hs2
        have hw : walkAbs l (a :: rest) = (true, l :: a :: rest) := by
          simp [walkAbs, had', h1]
        rw [hw]
        refine ⟨s2, lock, ?_, v2_load_storeRef_same hs2, ?_, ?_, ?_, ?_, ?_⟩
        · rw [insertInner]
          simp only [hmk, Bool.false_eq_true, if_false, ne_eq, ha0, not_false_eq_true, if_true,
            hn, Option.map_some', hmq, hcmp, hs1, v2_compareExchange_hit hload1 hs2]
          rfl
        · show Chain s2.nodes lock (l :: a :: rest)
          cases hx : deref s1.nodes lock with
          | none => simp [load, hx] at hlock1
          | some n1 =>
            have hn1 : n1.next = a.addr := by simpa [load, hx] using hlock1
            have hfl := hf1 lock
            simp only [fieldsOf, hx, hln, Option.map_some', Option.some.injEq,
              Prod.mk.injEq] at hfl
            refine ⟨hla.symm, n1, ?_, ?_, ?_, a.addr, ?_, hae, ?_⟩
            · rw [hla, hd2, hx]
            · rw [hfl.1, hls]
            · rw [hfl.2, hle]
            · rw [hn1, hld]; rfl
            · apply v2_Chain_congr (a :: rest) a.addr _ hc0
              intro x hx'
              have hxp : x ≠ owner prev := fun h => hpo (h ▸ hx')
              have hxl : x ≠ lock := fun h => hlC (h ▸ hx')
              rw [v2_deref_storeRef hs2 hxp, v2_deref_storeRef hs1 hxl]
        · intro x hx _ hxl
          rw [v2_deref_storeRef hs2 hx, v2_deref_storeRef hs1 hxl]
        · intro h0
          rw [v2_head_storeRef hs2 h0, v2_head_storeRef hs1 (v2_deref_even hln).2]
        · intro x
          rw [hf2, hf1]
        · rw [v2_count_storeRef hs2, v2_count_storeRef hs1]
      · by_cases h2 : a.end_ ≤ l.start
        · -- the new node comes after this one: move on
          have hcmp : compare s.nodes a.addr lock = some (-1) := by
            have e1 : ¬ n.start ≥ ln.end_ := by rw [hns, hle]; exact h1
            have e2 : ln.start ≥ n.end_ := by rw [hne, hls]; exact h2
            simp [compare, ha0, hn, hln, e1, e2]
          have hnext : load s (Ref.next a.addr) = some q := by simp [load, hn, hq]
          obtain ⟨s1, p1, hr, hl1, hc1, hfr1, hh1, hf1, hcnt1⟩ := ih f s (Ref.next a.addr) q
            (by simp at hf; omega) hnext hrest hnd.1 (Ne.symm hla') hlC' hnd.2
            ⟨ln, hln, hls, hle⟩
          have hw : walkAbs l (a :: rest) = ((walkAbs l rest).1, a :: (walkAbs l rest).2) := by
            simp [walkAbs, had', h1, h2]
          rw [hw]
          have hkeep : ∀ x, x ≠ a.addr → x ∉ rest.map Item.addr → x ≠ lock →
              deref s1.nodes x = deref s.nodes x := hfr1
          refine ⟨s1, a.addr, ?_, ?_, ?_, ?_, ?_, hf1, hcnt1⟩
          · rw [insertInner]
            simp only [hmk, Bool.false_eq_true, if_false, ne_eq, ha0, not_false_eq_true,
              if_true, hn, Option.map_some', hmq, hcmp, hnext]
            exact hr
          · rw [← hload]
            apply v2_load_congr
            · by_cases h0 : owner prev = 0
              · rw [h0, deref_zero, deref_zero]
              · exact hkeep _ hpa hpo' hpl
            · intro _
              exact hh1 ha0
          · show Chain s1.nodes a.addr (a :: (walkAbs l rest).2)
            cases hx : deref s1.nodes a.addr with
            | none => simp [load, hx] at hl1
            | some n1 =>
              have hn1 : n1.next = p1 := by simpa [load, hx] using hl1
              have hfl := hf1 a.addr
              simp only [fieldsOf, hx, hn, Option.map_some', Option.some.injEq,
                Prod.mk.injEq] at hfl
              refine ⟨rfl, n1, hx, ?_, ?_, p1, ?_, v2_Chain_even hc1, hc1⟩
              · rw [hfl.1, hns]
              · rw [hfl.2, hne]
              · rw [hn1, had']; rfl
          · intro x hx hxC hxl
            have hxa : x ≠ a.addr := fun h => hxC (by
              rw [List.map_cons, h]; exact List.mem_cons_self _ _)
            have hxC' : x ∉ rest.map Item.addr := fun h => hxC (by
              rw [List.map_cons]; exact List.mem_cons_of_mem _ h)
            exact hkeep x hxa hxC' hxl
          · intro _
            exact hh1 ha0
        · -- the new node overlaps this one
          have hcmp : compare s.nodes a.addr lock = some 0 := by
            have e1 : ¬ n.start ≥ ln.end_ := by rw [hns, hle]; exact h1
            have e2 : ¬ ln.start ≥ n.end_ := by rw [hne, hls]; exact h2
            simp [compare, ha0, hn, hln, e1, e2]
          have hw : walkAbs l (a :: rest) = (false, a :: rest) := by
            simp [walkAbs, had', h1, h2]
          rw [hw]
          refine ⟨s, a.addr, ?_, hload, hc0, fun _ _ _ _ => rfl, fun _ => rfl, fun _ => rfl,
            rfl⟩
          rw [insertInner]
          simp only [hmk, Bool.false_eq_true, if_false, ne_eq, ha0, not_false_eq_true,
            if_true, hn, Option.map_some', hmq, hcmp]
          rfl

end V2

namespace V2

/-! ## V2: acquire, release and the reachable states -/

theorem Inv.v2_addr_lt {s : ListRL} {H : List Nat} {C : List Item} (hI : Inv s H C) :
    ∀ x ∈ C.map Item.addr, x < addrOf s.nodes.length ∧ x ≠ 0 := by
  intro x hx
  obtain ⟨a, ha, rfl⟩ := List.mem_map.mp hx
  have := v2_Chain_valid C s.head hI.chain a ha
  cases hd : deref s.nodes a.addr with
  | none => simp [hd] at this
  | some n => exact ⟨deref_lt hd, deref_ne_zero hd⟩

theorem v2_fieldsOf_isSome {h h1 : List LNode} {x : Nat}
    (hf : fieldsOf h1 x = fieldsOf h x) (hs : (deref h x).isSome = true) :
    (deref h1 x).isSome = true := by
  unfold fieldsOf at hf
  cases hd : deref h x with
  | none => simp [hd] at hs
  | some n =>
    cases hd1 : deref h1 x with
    | none => simp [hd, hd1] at hf
    | some n1 => rfl

theorem v2_MutexRangeAcquire_spec {s : ListRL} {H : List Nat} {C : List Item}
    (hI : Inv s H C) {start end_ : Nat} (hlt : start < end_) :
    ∃ s1, MutexRangeAcquire s start end_ =
        some (if (walkAbs ⟨addrOf s.nodes.length, start, end_, false⟩ C).1 then
          some ⟨addrOf s.nodes.length⟩ else none, s1) ∧
      Inv s1 (if (walkAbs ⟨addrOf s.nodes.length, start, end_, false⟩ C).1 then
          addrOf s.nodes.length :: H else H)
        (walkAbs ⟨addrOf s.nodes.length, start, end_, false⟩ C).2 := by
  set l : Item := ⟨addrOf s.nodes.length, start, end_, false⟩ with hl
  set lock := addrOf s.nodes.length with hlock
  set h1 := (alloc s.nodes (⟨start, end_, 0⟩ : LNode)).1 with hh1
  have haddr := hI.v2_addr_lt
  have hold : ∀ x, x ≠ lock → deref h1 x = deref s.nodes x := by
    intro x hx
    rw [hh1, deref_alloc, if_neg hx]
  have hnew : deref h1 lock = some ⟨start, end_, 0⟩ := by
    rw [hh1, deref_alloc, if_pos rfl]
  have hlC : lock ∉ C.map Item.addr := fun h => by
    have := (haddr lock h).1
    omega
  have h0C : (0 : Nat) ∉ C.map Item.addr := fun h => (haddr 0 h).2 rfl
  have hc1 : Chain h1 s.head C := by
    apply v2_Chain_congr C s.head _ hI.chain
    intro x hx
    exact hold x (fun h => hlC (h ▸ hx))
  have hlen1 : h1.length = s.nodes.length + 1 := by
    rw [hh1]; exact length_alloc _ _
  have hClen := v2_Chain_length hI.chain hI.nodup
  obtain ⟨s1, p1, hr, hl1, hch, hfr, -, hf, hcnt⟩ := v2_insertInner_spec lock l rfl rfl C
    (s.nodes.length + 1) { s with nodes := h1 } Ref.head s.head (by omega) rfl hc1 h0C
    (by
      show (0 : Nat) ≠ lock
      rw [hlock]
      exact (addrOf_ne_zero _).symm) hlC hI.nodup ⟨(⟨start, end_, 0⟩ : LNode), hnew, rfl, rfl⟩
  have hhead : s1.head = p1 := by
    simpa [load] using hl1
  have hrun : InsertNode { s with nodes := h1 } lock = some ((walkAbs l C).1, s1) := by
    unfold InsertNode
    show insertOuter lock h1.length h1.length _ = _
    rw [hlen1, insertOuter, hr]
  refine ⟨s1, ?_, ?_⟩
  · unfold MutexRangeAcquire
    show (match InsertNode { s with nodes := h1 } lock with
      | none => none
      | some (true, s1) => some (some (RangeLock.mk lock), s1)
      | some (false, s1) => some (none, s1)) = _
    rw [hrun]
    cases (walkAbs l C).1 <;> rfl
  · refine ⟨?_, v2_walkAbs_nodup l C hI.nodup hlC, ?_, ?_, ?_⟩
    · rw [hhead]; exact hch
    · intro a ha
      rcases v2_walkAbs_mem l C a ha with h | h
      · rw [h]; exact hlt
      · exact hI.dom a h
    · cases hv : (walkAbs l C).1
      · rw [v2_walkAbs_false_live l C hv]
        exact hI.sorted
      · exact (v2_walkAbs_true l rfl C hI.sorted hI.dom hv).1
    · intro p hp
      have hp' : p = lock ∨ p ∈ H := by
        cases hv : (walkAbs l C).1
        · rw [hv] at hp
          exact Or.inr hp
        · rw [hv] at hp
          simp only [if_true] at hp
          rcases List.mem_cons.mp hp with h | h
          · exact Or.inl h
          · exact Or.inr h
      apply v2_fieldsOf_isSome (hf p)
      show (deref h1 p).isSome = true
      rcases hp' with rfl | h
      · rw [hnew]; rfl
      · by_cases hpl : p = lock
        · rw [hpl, hnew]; rfl
        · rw [hold p hpl]
          exact hI.handles p h

theorem v2_chainFrom_spec (h : List LNode) :
    ∀ (C : List Item) (p fuel : Nat), Chain h p C → C.length ≤ fuel →
      chainFrom h fuel p = C.map Item.addr := by
  intro C
  induction C with
  | nil =>
    intro p fuel hc _
    have : p = 0 := hc
    subst this
    cases fuel <;> simp [chainFrom, deref_zero]
  | cons a rest ih =>
    intro p fuel hc hf
    obtain ⟨f, rfl⟩ : ∃ f, fuel = f + 1 := ⟨fuel - 1, by simp at hf; omega⟩
    obtain ⟨hp, n, hn, -, -, q, hq, hqe, hrest⟩ := hc
    subst hp
    have hu : unmark n.next = q := by
      rw [hq]
      cases a.dead
      · exact v2_unmark_even hqe
      · exact v2_unmark_odd hqe
    rw [chainFrom]
    simp only [hn, hu, List.map_cons]
    rw [ih q f hrest (by simp at hf; omega)]

theorem v2_filter_live (h : List LNode) :
    ∀ (C : List Item) (p : Nat), Chain h p C →
      (C.map Item.addr).filterMap (fun p =>
        match deref h p with
        | none => none
        | some n => if isMarked n.next then none else some (n.start, n.end_)) = liveOf C := by
  intro C
  induction C with
  | nil => intro _ _; rfl
  | cons a rest ih =>
    intro p hc
    obtain ⟨-, n, hn, hns, hne, q, hq, hqe, hrest⟩ := hc
    rw [List.map_cons, List.filterMap_cons, v2_liveOf_cons, ih q hrest]
    simp only [hn]
    cases had : a.dead
    · rw [had] at hq
      have : isMarked n.next = false := by rw [hq]; exact v2_isMarked_even hqe
      simp [this, hns, hne]
    · rw [had] at hq
      have : isMarked n.next = true := by rw [hq]; exact v2_isMarked_odd hqe
      simp [this]

theorem Inv.v2_live_eq {s : ListRL} {H : List Nat} {C : List Item} (hI : Inv s H C) :
    live s = liveOf C := by
  unfold live
  rw [v2_unmark_even (v2_Chain_even hI.chain),
    v2_chainFrom_spec s.nodes C s.head s.nodes.length hI.chain
      (v2_Chain_length hI.chain hI.nodup)]
  exact v2_filter_live s.nodes C s.head hI.chain

theorem v2_Chain_markDead {h : List LNode} {p : Nat} {n : LNode} (hn : deref h p = some n) :
    ∀ (C : List Item) (ptr : Nat), Chain h ptr C →
      Chain (store h p { n with next := n.next ||| 1 }) ptr (markDead p C) := by
  intro C
  induction C with
  | nil => intro ptr hc; exact hc
  | cons a rest ih =>
    intro ptr hc
    obtain ⟨hp, m, hm, hms, hme, q, hq, hqe, hrest⟩ := hc
    have e : markDead p (a :: rest) =
        (if a.addr = p then { a with dead := true } else a) :: markDead p rest := rfl
    rw [e]
    by_cases hap : a.addr = p
    · rw [if_pos hap]
      have hmn : m = n := by
        rw [hap, hn] at hm
        exact (Option.some.inj hm).symm
      subst hmn
      refine ⟨hp, { m with next := m.next ||| 1 }, ?_, hms, hme, q, ?_, hqe, ih q hrest⟩
      · show deref _ a.addr = _
        rw [hap]
        exact deref_store_same hn
      · show m.next ||| 1 = q + 1
        rw [hq]
        cases a.dead
        · exact v2_lor_one_even hqe
        · exact v2_lor_one_odd hqe
    · rw [if_neg hap]
      refine ⟨hp, m, ?_, hms, hme, q, hq, hqe, ih q hrest⟩
      rw [deref_store_ne _ _ hap]
      exact hm

theorem v2_MutexRangeRelease_spec {s : ListRL} {H : List Nat} {C : List Item}
    (hI : Inv s H C) {p : Nat} (hp : p ∈ H) :
    ∃ s1, MutexRangeRelease s ⟨p⟩ = some s1 ∧ Inv s1 H (markDead p C) := by
  have hv := hI.handles p hp
  cases hn : deref s.nodes p with
  | none => simp [hn] at hv
  | some n =>
    refine ⟨{ s with nodes := store s.nodes p { n with next := n.next ||| 1 } }, ?_, ?_⟩
    · simp [MutexRangeRelease, DeleteNode, load, storeRef, hn]
    · refine ⟨v2_Chain_markDead hn C s.head hI.chain, ?_, ?_, ?_, ?_⟩
      · rw [v2_markDead_addr]
        exact hI.nodup
      · intro a ha
        unfold markDead at ha
        obtain ⟨b, hb, rfl⟩ := List.mem_map.mp ha
        have := hI.dom b hb
        split
        · exact this
        · exact this
      · exact hI.sorted.sublist (v2_markDead_live p C)
      · intro x hx
        show (deref (store s.nodes p _) x).isSome = true
        rw [deref_store]
        by_cases hxp : x = p
        · rw [if_pos hxp, hn]
          rfl
        · rw [if_neg hxp]
          exact hI.handles x hx

theorem v2_Inv_fresh : Inv ListRL.new [] [] := by
  refine ⟨rfl, by simp, ?_, ?_, ?_⟩
  · intro a ha; cases ha
  · simp [liveOf]
  · intro p hp; cases hp

theorem v2_Reachable_inv {s : ListRL} {H : List Nat} (hR : Reachable s H) :
    ∃ C, Inv s H C := by
  induction hR with
  | fresh => exact ⟨[], v2_Inv_fresh⟩
  | acquired _ hlt hrun ih =>
    obtain ⟨C, hI⟩ := ih
    obtain ⟨s2, hr, hI2⟩ := v2_MutexRangeAcquire_spec hI hlt
    rw [hr] at hrun
    simp only [Option.some.injEq, Prod.mk.injEq] at hrun
    obtain ⟨h1, h2⟩ := hrun
    subst h2
    split at h1
    · rename_i hv
      rw [if_pos hv] at hI2
      simp only [Option.some.injEq] at h1
      rw [← h1]
      exact ⟨_, hI2⟩
    · cases h1
  | refused _ hlt hrun ih =>
    obtain ⟨C, hI⟩ := ih
    obtain ⟨s2, hr, hI2⟩ := v2_MutexRangeAcquire_spec hI hlt
    rw [hr] at hrun
    simp only [Option.some.injEq, Prod.mk.injEq] at hrun
    obtain ⟨h1, h2⟩ := hrun
    subst h2
    split at h1
    · cases h1
    · rename_i hv
      rw [if_neg hv] at hI2
      exact ⟨_, hI2⟩
  | released _ hmem hrun ih =>
    obtain ⟨C, hI⟩ := ih
    obtain ⟨s2, hr, hI2⟩ := v2_MutexRangeRelease_spec hI hmem
    rw [hr] at hrun
    cases hrun
    exact ⟨_, hI2⟩

end V2

namespace V2

/-! ## V2: acquire followed by release -/

theorem v2_markDead_of_not_mem (p : Nat) :
    ∀ (C : List Item), p ∉ C.map Item.addr → markDead p C = C := by
  intro C
  induction C with
  | nil => intro _; rfl
  | cons a rest ih =>
    intro hp
    have e : markDead p (a :: rest) =
        (if a.addr = p then { a with dead := true } else a) :: markDead p rest := rfl
    have ha : a.addr ≠ p := fun h => hp (by rw [List.map_cons, h]; exact List.mem_cons_self _ _)
    rw [e, if_neg ha, ih (fun h => hp (by rw [List.map_cons]; exact List.mem_cons_of_mem _ h))]

theorem v2_walkAbs_true_mem (l : Item) :
    ∀ (C : List Item), (walkAbs l C).1 = true → l ∈ (walkAbs l C).2 := by
  intro C
  induction C with
  | nil => intro _; simp [walkAbs]
  | cons a rest ih =>
    intro h
    unfold walkAbs at h ⊢
    split at h
    · rename_i hd
      rw [if_pos hd]
      exact ih h
    · rename_i hd
      rw [if_neg hd]
      split at h
      · rename_i h1
        rw [if_pos h1]
        exact List.mem_cons_self _ _
      · rename_i h1
        rw [if_neg h1]
        split at h
        · rename_i h2
          rw [if_pos h2]
          exact List.mem_cons_of_mem _ (ih h)
        · simp at h

theorem v2_round_trip_live (l : Item) :
    ∀ (C : List Item), l.addr ∉ C.map Item.addr → (walkAbs l C).1 = true →
      liveOf (markDead l.addr (walkAbs l C).2) = liveOf C := by
  intro C
  induction C with
  | nil =>
    intro _ _
    simp [walkAbs, markDead, liveOf]
  | cons a rest ih =>
    intro hl h
    have hl' : l.addr ∉ rest.map Item.addr := fun h => hl (by
      rw [List.map_cons]; exact List.mem_cons_of_mem _ h)
    have hla : a.addr ≠ l.addr := fun h => hl (by
      rw [List.map_cons, h]; exact List.mem_cons_self _ _)
    unfold walkAbs at h ⊢
    split at h
    · rename_i hd
      rw [if_pos hd, v2_liveOf_cons, if_pos hd]
      exact ih hl' h
    · rename_i hd
      rw [if_neg hd]
      split at h
      · rename_i h1
        rw [if_pos h1]
        have e : markDead l.addr (l :: a :: rest) =
            { l with dead := true } :: markDead l.addr (a :: rest) := by
          simp [markDead]
        rw [e, v2_liveOf_cons, v2_markDead_of_not_mem l.addr (a :: rest) hl]
        simp
      · rename_i h1
        rw [if_neg h1]
        split at h
        · rename_i h2
          rw [if_pos h2]
          simp only at h ⊢
          have e : markDead l.addr (a :: (walkAbs l rest).2) =
              a :: markDead l.addr (walkAbs l rest).2 := by
            simp [markDead, hla]
          rw [e, v2_liveOf_cons, v2_liveOf_cons, ih hl' h]
        · simp at h

theorem v2_Chain_mem_marked {h : List LNode} :
    ∀ (C : List Item) (p : Nat), Chain h p C → ∀ a ∈ C,
      ∃ n, deref h a.addr = some n ∧ isMarked n.next = a.dead := by
  intro C
  induction C with
  | nil => intro p _ a ha; cases ha
  | cons b rest ih =>
    intro p hc a ha
    obtain ⟨-, n, hn, -, -, q, hq, hqe, hrest⟩ := hc
    rcases List.mem_cons.mp ha with rfl | h
    · refine ⟨n, hn, ?_⟩
      rw [hq]
      cases a.dead
      · exact v2_isMarked_even hqe
      · exact v2_isMarked_odd hqe
    · exact ih q hrest a h

theorem Inv.v2_chainFrom_eq {s : ListRL} {H : List Nat} {C : List Item} (hI : Inv s H C) :
    chainFrom s.nodes s.nodes.length (unmark s.head) = C.map Item.addr := by
  rw [v2_unmark_even (v2_Chain_even hI.chain)]
  exact v2_chainFrom_spec s.nodes C s.head s.nodes.length hI.chain
    (v2_Chain_length hI.chain hI.nodup)

end V2

namespace Contract

/-! ## V0 and V3 side by side -/

theorem ct_perm_insert {α β : Type} (f : α → β) {L M P R P1 R1 : List α} {x y : α}
    (hp : (L.map f).Perm (M.map f)) (hL : L = P ++ R) (hM : M = P1 ++ R1) (hxy : f x = f y) :
    ((P ++ x :: R).map f).Perm ((P1 ++ y :: R1).map f) := by
  subst hL
  subst hM
  simp only [List.map_append, List.map_cons] at hp ⊢
  rw [hxy]
  exact (List.perm_middle.trans ((List.Perm.cons _ hp).trans List.perm_middle.symm))

theorem ct_perm_remove {α β : Type} (f : α → β) {P R P1 R1 : List α} {x y : α}
    (hp : ((P ++ x :: R).map f).Perm ((P1 ++ y :: R1).map f)) (hxy : f x = f y) :
    ((P ++ R).map f).Perm ((P1 ++ R1).map f) := by
  simp only [List.map_append, List.map_cons] at hp ⊢
  rw [hxy] at hp
  exact (List.perm_middle.symm.trans (hp.trans List.perm_middle)).cons_inv

/-- The two locks, holding the same intervals, answer every proper sequence alike. -/
theorem ct_simulation :
    ∀ (ops : List Op) (s0 : V0.ConcurrentRangeLock) (s3 : V3.SongRangeLock)
      (L0 L3 : List Entry), V0.Inv s0 L0 → V3.Inv s3 L3 →
      (L0.map fun e => (e.start, e.end_)).Perm (L3.map fun e => (e.start, e.end_)) →
      proper s0 ops = true →
      ∃ obs, runV0 s0 ops = some obs ∧ runV3 s3 ops = some obs := by
  intro ops
  induction ops with
  | nil =>
    intro s0 s3 L0 L3 _ _ _ _
    exact ⟨[], rfl, rfl⟩
  | cons op ops ih =>
    intro s0 s3 L0 L3 hI0 hI3 hperm hprop
    cases op with
    | tryLock a b r0 r3 =>
      simp only [proper, Bool.and_eq_true, decide_eq_true_eq] at hprop
      obtain ⟨⟨h1, h2, h3⟩, hrest⟩ := hprop
      have h3' : b ≤ V3.MAX_VALUE - 1 := h3
      rcases V0.v0_tryLock_spec hI0 h1 h2 h3 r0 with
        ⟨⟨e, he, hx, hy⟩, hr0⟩ | ⟨hsep0, t0, P, R, hPR, hr0, -, hJ0⟩
      · rcases V3.v3_tryLock_spec hI3 h1 h2 h3' r3 with ⟨-, hr3⟩ | ⟨hsep3, -⟩
        · rw [hr0] at hrest
          obtain ⟨obs, ho0, ho3⟩ := ih s0 s3 L0 L3 hI0 hI3 hperm hrest
          refine ⟨(some false, L0.length) :: obs, ?_, ?_⟩
          · simp only [runV0, hr0, ho0, V0.size, hI0.count]
          · simp only [runV3, hr3, ho3, V3.size, hI3.count]
            have := hperm.length_eq
            simp only [List.length_map] at this
            rw [this]
        · exfalso
          have hm : (e.start, e.end_) ∈ L3.map fun e => (e.start, e.end_) :=
            hperm.subset (List.mem_map.mpr ⟨e, he, rfl⟩)
          obtain ⟨e', he', hee⟩ := List.mem_map.mp hm
          simp only [Prod.mk.injEq] at hee
          rcases hsep3 e' he' with h | h
          · omega
          · omega
      · rcases V3.v3_tryLock_spec hI3 h1 h2 h3' r3 with
          ⟨⟨e, he, hx, hy⟩, -⟩ | ⟨-, t3, P3, R3, hPR3, hr3, hJ3⟩
        · exfalso
          have hm : (e.start, e.end_) ∈ L0.map fun e => (e.start, e.end_) :=
            hperm.symm.subset (List.mem_map.mpr ⟨e, he, rfl⟩)
          obtain ⟨e', he', hee⟩ := List.mem_map.mp hm
          simp only [Prod.mk.injEq] at hee
          rcases hsep0 e' he' with h | h
          · omega
          · omega
        · rw [hr0] at hrest
          have hperm1 := ct_perm_insert (fun e : Entry => (e.start, e.end_))
            (x := ⟨addrOf s0.nodes.length, a, b, randomLevel r0 s0.maxLevel⟩)
            (y := ⟨addrOf s3.nodes.length, a, b, randomLevel r3 V3.MAX_LEVEL⟩)
            hperm hPR hPR3 rfl
          obtain ⟨obs, ho0, ho3⟩ := ih t0 t3 _ _ hJ0 hJ3 hperm1 hrest
          refine ⟨(some true, (P ++ ⟨addrOf s0.nodes.length, a, b,
            randomLevel r0 s0.maxLevel⟩ :: R).length) :: obs, ?_, ?_⟩
          · simp only [runV0, hr0, ho0, V0.size, hJ0.count]
          · simp only [runV3, hr3, ho3, V3.size, hJ3.count]
            have := hperm1.length_eq
            simp only [List.length_map] at this
            rw [this]
    | release a b =>
      simp only [proper, Bool.and_eq_true, decide_eq_true_eq] at hprop
      obtain ⟨hheld, hrest⟩ := hprop
      rw [hI0.v0_held_eq] at hheld
      obtain ⟨v, hv, hvs⟩ := List.mem_map.mp hheld
      have hm3 : (a, b) ∈ L3.map fun e => (e.start, e.end_) := hperm.subset hheld
      obtain ⟨w, hw, hws⟩ := List.mem_map.mp hm3
      simp only [Prod.mk.injEq] at hvs hws
      obtain ⟨P, R, rfl⟩ := List.append_of_mem hv
      obtain ⟨P3, R3, rfl⟩ := List.append_of_mem hw
      obtain ⟨t0, hr0, -, hJ0⟩ := V0.v0_releaseLock_held hI0
      obtain ⟨t3, hr3, hJ3⟩ := V3.v3_releaseLock_held hI3
      rw [hvs.1, hvs.2] at hr0
      rw [hws.1] at hr3
      rw [hr0] at hrest
      have hperm1 := ct_perm_remove (fun e : Entry => (e.start, e.end_)) hperm
        (by simp only [Prod.mk.injEq]; exact ⟨hvs.1.trans hws.1.symm, hvs.2.trans hws.2.symm⟩)
      obtain ⟨obs, ho0, ho3⟩ := ih t0 t3 _ _ hJ0 hJ3 hperm1 hrest
      refine ⟨(none, (P ++ R).length) :: obs, ?_, ?_⟩
      · simp only [runV0, hr0, ho0, V0.size, hJ0.count]
      · simp only [runV3, hr3, ho3, V3.size, hJ3.count]
        have := hperm1.length_eq
        simp only [List.length_map] at this
        rw [this]

end Contract

/-! ## The level generator -/

theorem randomLevelLoop_eq (rand : Nat → Nat) (maxLevel : Nat) :
    ∀ (fuel level : Nat), maxLevel < level + fuel → level ≤ maxLevel →
      randomLevelLoop rand maxLevel fuel level =
        min (level + leadingOdd ((List.range' level (maxLevel - level)).map rand)) maxLevel := by
  intro fuel
  induction fuel with
  | zero => intro level h1 h2; omega
  | succ n ih =>
    intro level h1 h2
    unfold randomLevelLoop
    by_cases hlt : level < maxLevel
    · obtain ⟨d, hd⟩ : ∃ d, maxLevel - level = d + 1 := ⟨maxLevel - level - 1, by omega⟩
      have hd1 : maxLevel - (level + 1) = d := by omega
      by_cases hodd : rand level % 2 = 1
      · rw [if_pos ⟨by omega, hlt⟩, ih (level + 1) (by omega) (by omega), hd, hd1]
        simp [leadingOdd, List.range', List.takeWhile, hodd]
        omega
      · rw [if_neg (by intro hc; omega), hd]
        simp [leadingOdd, List.range', List.takeWhile, hodd]
        omega
    · have : maxLevel - level = 0 := by omega
      rw [if_neg (by intro hc; omega), this]
      simp [leadingOdd]
      omega

theorem leadingOdd_append_min (l1 l2 : List Nat) :
    min (leadingOdd (l1 ++ l2)) l1.length = leadingOdd l1 := by
  induction l1 with
  | nil => simp [leadingOdd]
  | cons a l ih =>
    unfold leadingOdd at ih ⊢
    rw [List.cons_append, List.takeWhile_cons, List.takeWhile_cons]
    by_cases ha : a % 2 = 1
    · simp only [ha, decide_True, if_true, List.length_cons]
      omega
    · simp [ha]

namespace V0

/-! ## V0: the operations of one cell -/

theorem v0_unpack_pack {ref : Nat} (hr : ref % 2 = 0) (m : Bool) :
    unpack (pack ref m) = (ref, m) := by
  cases m with
  | false => rw [v0_pack_false]; exact v0_unpack_even hr
  | true => rw [v0_pack_true hr]; exact v0_unpack_odd hr

theorem v0_pack_unpack (w : Nat) : pack (unpack w).1 (unpack w).2 = w := by
  rcases Nat.mod_two_eq_zero_or_one w with h | h
  · rw [v0_unpack_even h]; exact v0_pack_false w
  · obtain ⟨x, rfl, hx⟩ : ∃ x, w = x + 1 ∧ x % 2 = 0 := ⟨w - 1, by omega, by omega⟩
    rw [v0_unpack_odd hx]
    exact v0_pack_true hx

theorem v0_unpack_fst_even (w : Nat) : (unpack w).1 % 2 = 0 := by
  rcases Nat.mod_two_eq_zero_or_one w with h | h
  · rw [v0_unpack_even h]; exact h
  · obtain ⟨x, rfl, hx⟩ : ∃ x, w = x + 1 ∧ x % 2 = 0 := ⟨w - 1, by omega, by omega⟩
    rw [v0_unpack_odd hx]
    exact hx

theorem v0_word_eq_pack_iff (w : Nat) {ref : Nat} (hr : ref % 2 = 0) (m : Bool) :
    w = pack ref m ↔ unpack w = (ref, m) := by
  constructor
  · intro h
    rw [h]
    exact v0_unpack_pack hr m
  · intro h
    have := v0_pack_unpack w
    rw [h] at this
    exact this.symm

end V0

namespace V0

/-! ## V0: what `findInsert` returns on a clean list -/

theorem v0_levelChain_zero {s : ConcurrentRangeLock} {P R : List Entry}
    (hI : Inv s (P ++ R)) :
    s.head :: levelNodes s 0 ++ [s.tail] =
      (headE s.maxLevel :: P).map Entry.addr ++ (R ++ [tailE s.maxLevel]).map Entry.addr := by
  rw [hI.v0_levelNodes_eq (Nat.zero_le _), atLevel_zero, hI.head_eq, hI.tail_eq]
  simp

theorem v0_getLast?_map_cons (hd : Entry) (P : List Entry) :
    ((hd :: P).map Entry.addr).getLast? = some (predAt hd P 0).addr := by
  unfold predAt
  rw [atLevel_zero]
  induction P generalizing hd with
  | nil => rfl
  | cons a P ih =>
    rw [List.map_cons, List.map_cons, List.getLast?_cons_cons, ← List.map_cons, ih a,
      List.getLastD_cons]

theorem v0_head?_map_append (tl : Entry) (R : List Entry) :
    ((R ++ [tl]).map Entry.addr).head? = some (succAt tl R 0).addr := by
  unfold succAt
  rw [atLevel_zero]
  cases R <;> rfl

theorem Inv.v0_findInsert_full {s : ConcurrentRangeLock} {L : List Entry} (hI : Inv s L)
    {start : Nat} (h1 : 1 ≤ start) (hmax : start ≤ UINT64_MAX) (end_ : Nat)
    (preds succs : List Nat) (hp : preds.length = s.maxLevel + 1)
    (hs : succs.length = s.maxLevel + 1) :
    ∃ P R preds1 succs1, L = P ++ R ∧
      (∀ e ∈ headE s.maxLevel :: P, e.start < start) ∧
      (∀ e ∈ R ++ [tailE s.maxLevel], start ≤ e.start) ∧
      findInsert s.nodes.length s start end_ preds succs =
        some (!(decide (start > (predAt (headE s.maxLevel) P 0).end_) &&
          decide (end_ < (succAt (tailE s.maxLevel) R 0).start)), s, preds1, succs1) ∧
      ∀ k, k ≤ s.maxLevel →
        preds1[k]? = some (predAt (headE s.maxLevel) P k).addr ∧
        succs1[k]? = some (succAt (tailE s.maxLevel) R k).addr ∧
        Link s.nodes k (predAt (headE s.maxLevel) P k) (succAt (tailE s.maxLevel) R k) := by
  obtain ⟨hb, ha⟩ := hI.v0_split_start hmax
  have hPR : L = L.takeWhile (fun e => decide (e.start < start)) ++
      L.dropWhile (fun e => decide (e.start < start)) := (List.takeWhile_append_dropWhile _ _).symm
  generalize L.takeWhile (fun e => decide (e.start < start)) = P at hb hPR
  generalize L.dropWhile (fun e => decide (e.start < start)) = R at ha hPR
  subst hPR
  have hlen := hI.wf.v0_heap_length
  have hP : P.length < s.nodes.length := by
    simp at hlen; omega
  obtain ⟨preds1, succs1, hf, hF⟩ := v0_findInsert_spec hI.wf hI.head_eq hb ha end_ hP
    preds succs
  refine ⟨P, R, preds1, succs1, rfl, ?_, ?_, hf, ?_⟩
  · intro e he
    rcases List.mem_cons.mp he with rfl | he
    · show 0 < start
      omega
    · exact hb e he
  · intro e he
    have := ha e he
    omega
  · intro k hk
    obtain ⟨-, -, h3, h4, -, -⟩ := hF
    exact ⟨h3 k hk (by omega), h4 k hk (by omega), link_pred_succ (hI.wf.links k hk)⟩

theorem Inv.v0_no_marks {s : ConcurrentRangeLock} {L : List Entry} (hI : Inv s L) :
    ∀ p ∈ s.head :: levelNodes s 0 ++ [s.tail], ∀ (k : Nat) (c : AtomicMarkableReference),
      getCell s.nodes p k = some c → c.get.2 = false := by
  intro p hp k c hc
  have hch : s.head :: levelNodes s 0 ++ [s.tail] =
      (headE s.maxLevel :: L ++ [tailE s.maxLevel]).map Entry.addr := by
    rw [hI.v0_levelNodes_eq (Nat.zero_le _), atLevel_zero, hI.head_eq, hI.tail_eq]
    simp
  rw [hch] at hp
  obtain ⟨e, he, rfl⟩ := List.mem_map.mp hp
  obtain ⟨n, hn, -, -, -, hlen⟩ := hI.wf.agree e he
  rw [v0_getCell_of_deref hn] at hc
  have hk : k < n.next.length := by
    by_contra hcon
    rw [List.getElem?_eq_none (by omega)] at hc
    cases hc
  have hlev : e.level ≤ s.maxLevel := by
    simp only [List.cons_append, List.mem_cons, List.mem_append, List.not_mem_nil,
      or_false] at he
    rcases he with rfl | he | rfl
    · exact Nat.le_refl _
    · exact (hI.dom e he).2.2.2
    · exact Nat.le_refl _
  have he2 : e ∈ headE s.maxLevel :: atLevel k L ++ [tailE s.maxLevel] := by
    simp only [List.cons_append, List.mem_cons, List.mem_append, List.not_mem_nil,
      or_false, mem_atLevel] at he ⊢
    rcases he with rfl | he | rfl
    · exact Or.inl rfl
    · exact Or.inr (Or.inl ⟨he, by omega⟩)
    · exact Or.inr (Or.inr rfl)
  obtain ⟨q, hq, hev⟩ := hI.wf.v0_unmarked (by omega : k ≤ s.maxLevel) he2
  rw [v0_getCell_of_deref hn, hc] at hq
  cases hq
  rw [v0_get_even hev]

theorem Inv.v0_released_unlinked {s s1 : ConcurrentRangeLock} {P R : List Entry} {v : Entry}
    (hI : Inv s (P ++ v :: R)) (hI1 : Inv s1 (P ++ R)) (hml : s1.maxLevel = s.maxLevel) :
    ∀ k, v.addr ∉ levelNodes s1 k := by
  intro k hmem
  by_cases hk : k ≤ s1.maxLevel
  · rw [hI1.v0_levelNodes_eq hk] at hmem
    obtain ⟨e, he, hee⟩ := List.mem_map.mp hmem
    have he1 : e ∈ P ++ R := (mem_atLevel.mp he).1
    refine v0_ne_victim hI.wf.nodup e ?_ hee
    simp only [List.cons_append, List.mem_cons, List.mem_append, List.mem_singleton] at he1 ⊢
    tauto
  · rw [hI1.v0_levelNodes_above (by omega)] at hmem
    cases hmem

end V0

/-! ## Removing one entry from the level lists -/

theorem filter_addr_remove {P R : List Entry} {v : Entry} (k : Nat)
    (hne : ∀ e ∈ P ++ R, e.addr ≠ v.addr) :
    ((atLevel k (P ++ v :: R)).map Entry.addr).filter (fun q => decide (q ≠ v.addr)) =
      (atLevel k (P ++ R)).map Entry.addr := by
  have hkeep : ∀ (M : List Entry), (∀ e ∈ M, e ∈ P ++ R) →
      ((atLevel k M).map Entry.addr).filter (fun q => decide (q ≠ v.addr)) =
        (atLevel k M).map Entry.addr := by
    intro M hM
    rw [List.filter_eq_self]
    intro q hq
    obtain ⟨e, he, rfl⟩ := List.mem_map.mp hq
    simpa using hne e (hM e (mem_atLevel.mp he).1)
  have hv : ((atLevel k [v]).map Entry.addr).filter (fun q => decide (q ≠ v.addr)) = [] := by
    unfold atLevel
    by_cases h : k ≤ v.level <;> simp [List.filter, h]
  have e1 : P ++ v :: R = P ++ ([v] ++ R) := by simp
  rw [e1, atLevel_append, atLevel_append, List.map_append, List.map_append, List.filter_append,
    List.filter_append, hv, hkeep P (fun e he => List.mem_append_left _ he),
    hkeep R (fun e he => List.mem_append_right _ he), atLevel_append, List.map_append]
  simp

theorem filter_interval_remove {P R : List Entry} {v : Entry}
    (hne : ∀ e ∈ P ++ R, ¬ (e.start = v.start ∧ e.end_ = v.end_)) :
    ((P ++ v :: R).map fun e => (e.start, e.end_)).filter
        (fun iv => decide (iv ≠ (v.start, v.end_))) =
      (P ++ R).map fun e => (e.start, e.end_) := by
  have hkeep : ∀ (M : List Entry), (∀ e ∈ M, e ∈ P ++ R) →
      (M.map fun e => (e.start, e.end_)).filter (fun iv => decide (iv ≠ (v.start, v.end_))) =
        M.map fun e => (e.start, e.end_) := by
    intro M hM
    rw [List.filter_eq_self]
    intro q hq
    obtain ⟨e, he, rfl⟩ := List.mem_map.mp hq
    have := hne e (hM e he)
    simp only [ne_eq, Prod.mk.injEq, decide_not, Bool.not_eq_true', decide_eq_false_iff_not]
    exact this
  have e1 : P ++ v :: R = P ++ ([v] ++ R) := by simp
  rw [e1, List.map_append, List.map_append, List.filter_append, List.filter_append,
    hkeep P (fun e he => List.mem_append_left _ he),
    hkeep R (fun e he => List.mem_append_right _ he), List.map_append]
  simp

namespace V1

/-! ## V1: what the release of a held interval does -/

theorem Inv.v1_levelNodes_above {s : ConcurrentRangeLock_V1} {L : List Entry} (hI : Inv s L)
    {k : Nat} (hk : s.maxLevel < k) : levelNodes s k = [] := by
  obtain ⟨f, hf⟩ := v1_heap_pos hI
  have hsh := hI.shape (headE s.maxLevel) (List.mem_cons_self _ _)
  obtain ⟨n, hn, hv⟩ := v1_viewOf_deref hsh
  simp only [Prod.mk.injEq] at hv
  have hlen : n.next.length = s.maxLevel + 1 := by
    have := hv.2.2.2.1
    simp only [headE] at this
    omega
  unfold levelNodes
  rw [hf, chainAfter, hI.head_eq]
  unfold getNext
  rw [hn]
  simp only
  rw [List.getElem?_eq_none (by omega)]

theorem v1_release_full {s : ConcurrentRangeLock_V1} {P R : List Entry} {v : Entry}
    (hI : Inv s (P ++ v :: R)) :
    ∃ n preds succs s1, v.addr ∈ levelNodes s 0 ∧ deref s.nodes v.addr = some n ∧
      n.start = v.start ∧ n.end_ = v.end_ ∧ n.topLevel = v.level ∧ v.start < v.end_ ∧
      findExact s.nodes.length s v.start v.end_ = some ((v.level : Int), preds, succs) ∧
      succs[v.level]? = some v.addr ∧
      releaseLock s v.start v.end_ = some (Ret.ret true, s1) ∧
      (∀ k, levelNodes s1 k = (levelNodes s k).filter (fun q => decide (q ≠ v.addr))) ∧
      (∀ k, k ≤ v.level → v.addr ∈ levelNodes s k) ∧
      held s1 = (held s).filter (fun iv => decide (iv ≠ (v.start, v.end_))) ∧
      size s1 + 1 = size s := by
  have hv : v ∈ P ++ v :: R := by simp
  have hdom := hI.dom v hv
  obtain ⟨n, hn, hview⟩ := v1_viewOf_deref (hI.shape v (by simp))
  simp only [Prod.mk.injEq] at hview
  obtain ⟨preds, succs, hfe, hfill⟩ := v1_findExact_spec hI rfl hI.v1_splitR v.end_
  rw [v1_scan_exact_held hI] at hfe
  obtain ⟨s1, hrel, hml, hI1⟩ := v1_releaseLock_held hI
  have hmemlev : ∀ k, k ≤ v.level → v.addr ∈ levelNodes s k := by
    intro k hk
    rw [hI.v1_levelNodes_eq (by omega)]
    exact List.mem_map.mpr ⟨v, mem_atLevel.mpr ⟨hv, hk⟩, rfl⟩
  have hne : ∀ e ∈ P ++ R, e.addr ≠ v.addr := by
    intro e he
    refine V0.v0_ne_victim hI.nodup e ?_
    simp only [List.cons_append, List.mem_cons, List.mem_append] at he ⊢
    tauto
  refine ⟨n, preds, succs, s1, hmemlev 0 (Nat.zero_le _), hn, hview.1.symm, hview.2.1.symm,
    hview.2.2.1.symm, hdom.2.1, hfe, ?_, hrel, ?_, hmemlev, ?_, ?_⟩
  · rw [(hfill v.level hdom.2.2.2).2, succAt_cons_of_le _ _ (Nat.le_refl _)]
  · intro k
    by_cases hk : k ≤ s.maxLevel
    · rw [hI1.v1_levelNodes_eq (by omega), hI.v1_levelNodes_eq hk, filter_addr_remove k hne]
    · rw [hI1.v1_levelNodes_above (by omega), hI.v1_levelNodes_above (by omega)]
      rfl
  · rw [hI1.v1_held_eq, hI.v1_held_eq, filter_interval_remove hI.v1_intervals_ne]
  · unfold size
    rw [hI1.count, hI.count]
    simp only [List.length_append, List.length_cons]
    omega

end V1

namespace V0

/-! ## V0: marks are kept -/

theorem v0_compareAndSet_marked {c : AtomicMarkableReference} {er : Nat} (he : er % 2 = 0)
    (nr : Nat) (nm : Bool) (hm : c.get.2 = true) :
    c.compareAndSet er nr false nm = (false, c) := by
  unfold AtomicMarkableReference.compareAndSet
  rw [if_neg]
  intro h
  have := (v0_word_eq_pack_iff c.atomicRefMark he false).mp h
  unfold AtomicMarkableReference.get at hm
  rw [this] at hm
  cases hm

theorem v0_attemptMark_marked {c : AtomicMarkableReference} (er : Nat) (hm : c.get.2 = true) :
    c.attemptMark er true = (false, c) := by
  unfold AtomicMarkableReference.attemptMark
  unfold AtomicMarkableReference.get at hm
  rw [if_neg]
  intro h
  exact h.2 hm

theorem v0_marksKept_refl (h : List Node) : MarksKept h h :=
  fun _ _ c hc hm => ⟨c, hc, hm⟩

theorem v0_marksKept_trans {h1 h2 h3 : List Node} (h12 : MarksKept h1 h2)
    (h23 : MarksKept h2 h3) : MarksKept h1 h3 := by
  intro p k c hc hm
  obtain ⟨c1, hc1, hm1⟩ := h12 p k c hc hm
  exact h23 p k c1 hc1 hm1

theorem v0_marksKept_setCell {h h1 : List Node} {p k : Nat} {c1 : AtomicMarkableReference}
    (hs : setCell h p k c1 = some h1)
    (hk : ∀ c, getCell h p k = some c → c.get.2 = true → c1.get.2 = true) :
    MarksKept h h1 := by
  intro a j c hc hm
  rw [v0_getCell_setCell hs]
  by_cases haj : a = p ∧ j = k
  · rw [if_pos haj]
    obtain ⟨rfl, rfl⟩ := haj
    exact ⟨c1, rfl, hk c hc hm⟩
  · rw [if_neg haj]
    exact ⟨c, hc, hm⟩

theorem v0_marksKept_casCell {h h1 : List Node} {p k er nr : Nat} {nm b : Bool}
    (he : er % 2 = 0) (hc : casCell h p k er nr false nm = some (b, h1)) :
    MarksKept h h1 := by
  unfold casCell at hc
  cases hg : getCell h p k with
  | none => simp [hg] at hc
  | some c =>
    simp only [hg] at hc
    cases hs : setCell h p k (c.compareAndSet er nr false nm).2 with
    | none => simp [hs] at hc
    | some h2 =>
      simp only [hs, Option.some.injEq, Prod.mk.injEq] at hc
      obtain ⟨-, rfl⟩ := hc
      apply v0_marksKept_setCell hs
      intro c0 hc0 hm
      rw [hg] at hc0
      cases hc0
      rw [v0_compareAndSet_marked he nr nm hm]
      exact hm

theorem v0_marksKept_of_frame {h0 h1 : List Node} {nn : Nat} (hnew : deref h0 nn = none)
    (hfr : ∀ p, p ≠ nn → ∀ k, getCell h1 p k = getCell h0 p k) : MarksKept h0 h1 := by
  intro p k c hc hm
  have hp : p ≠ nn := by
    rintro rfl
    unfold getCell at hc
    rw [hnew] at hc
    cases hc
  exact ⟨c, by rw [hfr p hp k]; exact hc, hm⟩

theorem v0_frame_newNode {h h3 : List Node} {start end_ topLevel : Nat}
    (hi : initializeNode (newNode h).1 (newNode h).2 start end_ topLevel = some h3) :
    deref h (newNode h).2 = none ∧
      ∀ p, p ≠ (newNode h).2 → ∀ k, getCell h3 p k = getCell h p k := by
  have hnn : (newNode h).2 = addrOf h.length := rfl
  refine ⟨?_, ?_⟩
  · rw [hnn, deref_addrOf]
    simp
  · intro p hp k
    unfold initializeNode at hi
    split at hi
    · cases hi
    · cases hi
      unfold getCell
      rw [deref_store_ne _ _ hp]
      unfold newNode
      rw [deref_alloc, if_neg (by rw [← hnn]; exact hp)]

theorem v0_frame_storeSuccs (succs : List Nat) (nn : Nat) :
    ∀ (n level : Nat) (h h1 : List Node), storeSuccs succs nn n level h = some h1 →
      ∀ p, p ≠ nn → ∀ k, getCell h1 p k = getCell h p k := by
  intro n
  induction n with
  | zero =>
    intro level h h1 hs p _ k
    simp only [storeSuccs, Option.some.injEq] at hs
    rw [hs]
  | succ n ih =>
    intro level h h1 hs p hp k
    unfold storeSuccs at hs
    split at hs
    · rename_i succ c _ _
      split at hs
      · cases hs
      · rename_i h2 hset
        rw [ih _ _ _ hs p hp k, v0_getCell_setCell hset, if_neg (fun hc => hp hc.1)]
    · cases hs

theorem v0_marksKept_snipLoop (level pred : Nat) :
    ∀ (fuel : Nat) (h : List Node) (curr succ : Nat) (marked : Bool)
      (r : Bool × List Node × Nat × Nat), curr % 2 = 0 →
      snipLoop level pred fuel h curr succ marked = some r → MarksKept h r.2.1 := by
  intro fuel
  induction fuel with
  | zero =>
    intro h curr succ marked r _ hr
    unfold snipLoop at hr
    split at hr
    · cases hr
    · cases hr
      exact v0_marksKept_refl h
  | succ n ih =>
    intro h curr succ marked r hev hr
    unfold snipLoop at hr
    split at hr
    · split at hr
      · cases hr
      · rename_i snip h1 hcas
        have hk1 := v0_marksKept_casCell hev hcas
        split at hr
        · cases hr
          exact hk1
        · split at hr
          · cases hr
          · rename_i pc _
            split at hr
            · cases hr
            · rename_i cc _
              exact v0_marksKept_trans hk1
                (ih _ _ _ _ r (v0_unpack_fst_even _) hr)
    · cases hr
      exact v0_marksKept_refl h

theorem v0_marksKept_walkLevel (enter advance : Node → Bool) (budget level : Nat) :
    ∀ (fuel : Nat) (h : List Node) (pred curr : Nat) (r : Bool × List Node × Nat × Nat),
      walkLevel enter advance budget level fuel h pred curr = some r →
      MarksKept h r.2.1 ∧ (r.1 = true → r.2.2.2 % 2 = 0) := by
  intro fuel
  induction fuel with
  | zero =>
    intro h pred curr r hr
    simp [walkLevel] at hr
  | succ n ih =>
    intro h pred curr r hr
    unfold walkLevel at hr
    split at hr
    · cases hr
    · rename_i cn hcn
      have hcev : curr % 2 = 0 := by
        obtain ⟨i, hi, -⟩ := deref_some_addr hcn
        rw [hi]; exact addrOf_even i
      split at hr
      · split at hr
        · cases hr
        · rename_i cc _
          split at hr
          · cases hr
          · rename_i h1 _ _ hsnip
            have hk1 := v0_marksKept_snipLoop level pred budget h curr _ _ _ hcev hsnip
            cases hr
            exact ⟨hk1, fun hc => by cases hc⟩
          · rename_i h1 curr1 succ1 hsnip
            have hk1 := v0_marksKept_snipLoop level pred budget h curr _ _ _ hcev hsnip
            split at hr
            · cases hr
            · rename_i cn1 hcn1
              split at hr
              · obtain ⟨hk2, hev2⟩ := ih _ _ _ r hr
                exact ⟨v0_marksKept_trans hk1 hk2, hev2⟩
              · cases hr
                refine ⟨hk1, fun _ => ?_⟩
                obtain ⟨i, hi, -⟩ := deref_some_addr hcn1
                show curr1 % 2 = 0
                rw [hi]; exact addrOf_even i
      · cases hr
        exact ⟨v0_marksKept_refl h, fun _ => hcev⟩

theorem v0_marksKept_findLevels (enter advance : Node → Bool) (budget : Nat) :
    ∀ (n : Nat) (h : List Node) (pred curr : Nat) (preds succs : List Nat)
      (r : Bool × List Node × Nat × Nat × List Nat × List Nat),
      findLevels enter advance budget n h pred curr preds succs = some r →
      MarksKept h r.2.1 ∧ ((∀ x ∈ succs, x % 2 = 0) → ∀ x ∈ r.2.2.2.2.2, x % 2 = 0) := by
  intro n
  induction n with
  | zero =>
    intro h pred curr preds succs r hr
    simp only [findLevels, Option.some.injEq] at hr
    subst hr
    exact ⟨v0_marksKept_refl h, fun hev => hev⟩
  | succ n ih =>
    intro h pred curr preds succs r hr
    unfold findLevels at hr
    split at hr
    · cases hr
    · rename_i pc _
      split at hr
      · cases hr
      · rename_i h1 _ _ hw
        have hk1 := (v0_marksKept_walkLevel enter advance budget n budget h pred _ _ hw).1
        cases hr
        exact ⟨hk1, fun hev => hev⟩
      · rename_i h1 pred1 curr1 hw
        obtain ⟨hk1, hev1⟩ := v0_marksKept_walkLevel enter advance budget n budget h pred _ _ hw
        obtain ⟨hk2, hev3⟩ := ih _ _ _ _ _ r hr
        refine ⟨v0_marksKept_trans hk1 hk2, fun hev => hev3 ?_⟩
        intro x hx
        rcases List.mem_or_eq_of_mem_set hx with hx | rfl
        · exact hev x hx
        · exact hev1 rfl

theorem v0_marksKept_findLoop (enter advance : Node → Bool) (budget maxLevel head : Nat) :
    ∀ (fuel : Nat) (h : List Node) (preds succs : List Nat)
      (r : List Node × Nat × Nat × List Nat × List Nat),
      findLoop enter advance budget maxLevel head fuel h preds succs = some r →
      MarksKept h r.1 ∧ ((∀ x ∈ succs, x % 2 = 0) → ∀ x ∈ r.2.2.2.2, x % 2 = 0) := by
  intro fuel
  induction fuel with
  | zero =>
    intro h preds succs r hr
    simp [findLoop] at hr
  | succ n ih =>
    intro h preds succs r hr
    unfold findLoop at hr
    split at hr
    · cases hr
    · rename_i h1 _ _ preds1 succs1 hl
      obtain ⟨hk1, hev1⟩ := v0_marksKept_findLevels enter advance budget _ h head 0 preds succs
        _ hl
      obtain ⟨hk2, hev2⟩ := ih _ _ _ r hr
      exact ⟨v0_marksKept_trans hk1 hk2, fun hev => hev2 (hev1 hev)⟩
    · rename_i h1 pred curr preds1 succs1 hl
      have hk1 := v0_marksKept_findLevels enter advance budget _ h head 0 preds succs _ hl
      cases hr
      exact hk1

theorem v0_marksKept_findInsert {budget : Nat} {s : ConcurrentRangeLock} {start end_ : Nat}
    {preds succs : List Nat} {r : Bool × ConcurrentRangeLock × List Nat × List Nat}
    (hr : findInsert budget s start end_ preds succs = some r) :
    MarksKept s.nodes r.2.1.nodes ∧
      ((∀ x ∈ succs, x % 2 = 0) → ∀ x ∈ r.2.2.2, x % 2 = 0) := by
  unfold findInsert at hr
  split at hr
  · cases hr
  · rename_i h1 pred curr preds1 succs1 hl
    obtain ⟨hk, hev1⟩ := v0_marksKept_findLoop _ _ budget s.maxLevel s.head budget s.nodes
      preds succs _ hl
    split at hr
    · cases hr
      exact ⟨hk, hev1⟩
    · cases hr

theorem v0_marksKept_findExact {budget : Nat} {s : ConcurrentRangeLock} {start end_ : Nat}
    {preds succs : List Nat} {r : Bool × ConcurrentRangeLock × List Nat × List Nat}
    (hr : findExact budget s start end_ preds succs = some r) :
    MarksKept s.nodes r.2.1.nodes := by
  unfold findExact at hr
  split at hr
  · cases hr
  · rename_i h1 pred curr preds1 succs1 hl
    obtain ⟨hk, -⟩ := v0_marksKept_findLoop _ _ budget s.maxLevel s.head budget s.nodes
      preds succs _ hl
    split at hr
    · cases hr
      exact hk
    · cases hr

theorem v0_marksKept_findDelete {budget : Nat} {s s1 : ConcurrentRangeLock} {start : Nat}
    (hr : findDelete budget s start = some s1) : MarksKept s.nodes s1.nodes := by
  unfold findDelete at hr
  split at hr
  · cases hr
  · rename_i h1 _ _ _ _ hl
    have hk1 := (v0_marksKept_findLoop _ _ budget s.maxLevel s.head budget s.nodes _ _ _
      hl).1
    cases hr
    exact hk1

end V0

namespace V0

/-! ## V0: marks are kept by `tryLock` and `releaseLock` -/

theorem v0_marksKept_linkLevel (budget start end_ newNode level : Nat) :
    ∀ (fuel : Nat) (s : ConcurrentRangeLock) (preds succs : List Nat)
      (r : ConcurrentRangeLock × List Nat × List Nat), (∀ x ∈ succs, x % 2 = 0) →
      linkLevel budget start end_ newNode level fuel s preds succs = some r →
      MarksKept s.nodes r.1.nodes ∧ ∀ x ∈ r.2.2, x % 2 = 0 := by
  intro fuel
  induction fuel with
  | zero =>
    intro s preds succs r _ hr
    simp [linkLevel] at hr
  | succ n ih =>
    intro s preds succs r hev hr
    unfold linkLevel at hr
    split at hr
    · rename_i pred succ _ hsucc
      have hse : succ % 2 = 0 := hev succ (List.mem_iff_getElem?.mpr ⟨_, hsucc⟩)
      split at hr
      · cases hr
      · rename_i h1 hcas
        have hk1 := v0_marksKept_casCell hse hcas
        cases hr
        exact ⟨hk1, hev⟩
      · rename_i h1 hcas
        have hk1 := v0_marksKept_casCell hse hcas
        split at hr
        · cases hr
        · rename_i s2 preds2 succs2 hfi
          obtain ⟨hk2, hev2⟩ := v0_marksKept_findInsert hfi
          obtain ⟨hk3, hev3⟩ := ih _ _ _ r (hev2 hev) hr
          exact ⟨v0_marksKept_trans hk1 (v0_marksKept_trans hk2 hk3), hev3⟩
    · cases hr

theorem v0_marksKept_linkUpper (budget start end_ newNode : Nat) :
    ∀ (n level : Nat) (s : ConcurrentRangeLock) (preds succs : List Nat)
      (r : ConcurrentRangeLock), (∀ x ∈ succs, x % 2 = 0) →
      linkUpper budget start end_ newNode n level s preds succs = some r →
      MarksKept s.nodes r.nodes := by
  intro n
  induction n with
  | zero =>
    intro level s preds succs r _ hr
    simp only [linkUpper, Option.some.injEq] at hr
    subst hr
    exact v0_marksKept_refl _
  | succ n ih =>
    intro level s preds succs r hev hr
    unfold linkUpper at hr
    split at hr
    · cases hr
    · rename_i s1 preds1 succs1 hl
      obtain ⟨hk1, hev1⟩ := v0_marksKept_linkLevel budget start end_ newNode level budget s
        preds succs _ hev hl
      exact v0_marksKept_trans hk1 (ih _ _ _ _ r hev1 hr)

theorem v0_marksKept_tryLockLoop (budget topLevel start end_ : Nat) :
    ∀ (fuel : Nat) (s : ConcurrentRangeLock) (preds succs : List Nat)
      (r : Bool × ConcurrentRangeLock), (∀ x ∈ succs, x % 2 = 0) →
      tryLockLoop budget topLevel start end_ fuel s preds succs = some r →
      MarksKept s.nodes r.2.nodes := by
  intro fuel
  induction fuel with
  | zero =>
    intro s preds succs r _ hr
    simp [tryLockLoop] at hr
  | succ n ih =>
    intro s preds succs r hev hr
    unfold tryLockLoop at hr
    split at hr
    · cases hr
    · rename_i s1 _ _ hfi
      have hk1 := (v0_marksKept_findInsert hfi).1
      cases hr
      exact hk1
    · rename_i s1 preds1 succs1 hfi
      obtain ⟨hk1, hev1⟩ := v0_marksKept_findInsert hfi
      replace hev1 := hev1 hev
      simp only at hk1 hev1
      generalize hnn : newNode s1.nodes = pr at hr
      obtain ⟨h2, nn⟩ := pr
      simp only at hr
      have e1 : h2 = (newNode s1.nodes).1 := by rw [hnn]
      have e2 : nn = (newNode s1.nodes).2 := by rw [hnn]
      split at hr
      · cases hr
      · rename_i h3 hini
        rw [e1, e2] at hini
        obtain ⟨hnew, hfr3⟩ := v0_frame_newNode hini
        rw [← e2] at hnew hfr3
        split at hr
        · cases hr
        · rename_i h4 hst
          have hfr4 := v0_frame_storeSuccs succs1 nn _ _ _ _ hst
          split at hr
          · rename_i pred succ c _ hsucc _
            have hse : succ % 2 = 0 := hev1 succ (List.mem_iff_getElem?.mpr ⟨_, hsucc⟩)
            split at hr
            · cases hr
            · rename_i h5 hset
              have hk5 : MarksKept s1.nodes h5 := by
                apply v0_marksKept_of_frame hnew
                intro p hp k
                rw [v0_getCell_setCell hset, if_neg (fun hc => hp hc.1), hfr4 p hp k,
                  hfr3 p hp k]
              split at hr
              · cases hr
              · rename_i h6 hcas
                have hk6 := v0_marksKept_casCell hse hcas
                have hk7 := ih _ _ _ r hev1 hr
                exact v0_marksKept_trans hk1 (v0_marksKept_trans hk5
                  (v0_marksKept_trans hk6 hk7))
              · rename_i h6 hcas
                have hk6 := v0_marksKept_casCell hse hcas
                split at hr
                · cases hr
                · rename_i s7 hlu
                  have hk7 := v0_marksKept_linkUpper budget start end_ nn topLevel 1 _
                    preds1 succs1 s7 hev1 hlu
                  generalize fetchAdd1 s7.elementsCount = cnt at hr
                  cases hr
                  exact v0_marksKept_trans hk1 (v0_marksKept_trans hk5
                    (v0_marksKept_trans hk6 hk7))
          · cases hr

theorem v0_marksKept_tryLock {s : ConcurrentRangeLock} {start end_ : Nat} {rand : Nat → Nat}
    {r : Bool × ConcurrentRangeLock} (hr : tryLock s start end_ rand = some r) :
    MarksKept s.nodes r.2.nodes :=
  v0_marksKept_tryLockLoop _ _ start end_ _ s _ _ r
    (by intro x hx; rw [List.eq_of_mem_replicate hx]) hr

theorem v0_marksKept_markLevel (victim level : Nat) :
    ∀ (fuel : Nat) (h : List Node) (succ : Nat) (marked : Bool) (h1 : List Node),
      markLevel victim level fuel h succ marked = some h1 → MarksKept h h1 := by
  intro fuel
  induction fuel with
  | zero =>
    intro h succ marked h1 hr
    unfold markLevel at hr
    split at hr
    · cases hr
      exact v0_marksKept_refl h
    · cases hr
  | succ n ih =>
    intro h succ marked h1 hr
    unfold markLevel at hr
    split at hr
    · cases hr
      exact v0_marksKept_refl h
    · split at hr
      · cases hr
      · rename_i c hg
        split at hr
        · cases hr
        · rename_i h2 hset
          have hk1 : MarksKept h h2 := by
            apply v0_marksKept_setCell hset
            intro c0 hc0 hm
            rw [hg] at hc0
            cases hc0
            rw [v0_attemptMark_marked succ hm]
            exact hm
          split at hr
          · cases hr
          · exact v0_marksKept_trans hk1 (ih _ _ _ _ hr)

theorem v0_marksKept_markUpper (budget victim : Nat) :
    ∀ (n : Nat) (h h1 : List Node), markUpper budget victim n h = some h1 →
      MarksKept h h1 := by
  intro n
  induction n with
  | zero =>
    intro h h1 hr
    simp only [markUpper, Option.some.injEq] at hr
    subst hr
    exact v0_marksKept_refl h
  | succ n ih =>
    intro h h1 hr
    unfold markUpper at hr
    split at hr
    · cases hr
    · split at hr
      · cases hr
      · rename_i h2 hml
        exact v0_marksKept_trans (v0_marksKept_markLevel victim _ budget h _ _ h2 hml)
          (ih _ _ hr)

theorem v0_nodes_with_count (t : ConcurrentRangeLock) (c : Nat) :
    ({ t with elementsCount := c } : ConcurrentRangeLock).nodes = t.nodes := rfl

theorem v0_marksKept_markBottom (budget victim start : Nat) :
    ∀ (fuel : Nat) (s : ConcurrentRangeLock) (succ : Nat) (b : Bool) (t : ConcurrentRangeLock),
      succ % 2 = 0 → markBottom budget victim start fuel s succ = some (b, t) →
      MarksKept s.nodes t.nodes := by
  intro fuel
  induction fuel with
  | zero =>
    intro s succ b t _ hr
    rw [markBottom] at hr
    cases hr
  | succ n ih =>
    intro s succ b t hse hr
    rw [markBottom] at hr
    split at hr
    · cases hr
    · rename_i iMarkedIt h1 hcas
      have hk1 : MarksKept s.nodes h1 := v0_marksKept_casCell hse hcas
      split at hr
      · cases hr
      · rename_i c _
        split at hr
        · split at hr
          · cases hr
          · rename_i s2 hfd
            have hk2 : MarksKept h1 s2.nodes := v0_marksKept_findDelete hfd
            have hk3 : MarksKept s.nodes s2.nodes := v0_marksKept_trans hk1 hk2
            simp only [Option.some.injEq, Prod.mk.injEq] at hr
            rw [← hr.2, v0_nodes_with_count]
            exact hk3
        · split at hr
          · simp only [Option.some.injEq, Prod.mk.injEq] at hr
            rw [← hr.2]
            exact hk1
          · have hk2 : MarksKept h1 t.nodes := ih _ _ b t (v0_unpack_fst_even _) hr
            exact v0_marksKept_trans hk1 hk2

theorem v0_marksKept_releaseLock {s : ConcurrentRangeLock} {start end_ : Nat}
    {b : Bool} {t : ConcurrentRangeLock} (hr : releaseLock s start end_ = some (b, t)) :
    MarksKept s.nodes t.nodes := by
  unfold releaseLock at hr
  split at hr
  · cases hr
  · rename_i s1 _ _ hfe
    have hk1 : MarksKept s.nodes s1.nodes := v0_marksKept_findExact hfe
    simp only [Option.some.injEq, Prod.mk.injEq] at hr
    rw [← hr.2]
    exact hk1
  · rename_i s1 _ succs hfe
    have hk1 : MarksKept s.nodes s1.nodes := v0_marksKept_findExact hfe
    split at hr
    · cases hr
    · rename_i nodeToRemove _
      split at hr
      · cases hr
      · rename_i vn _
        split at hr
        · cases hr
        · rename_i h2 hmu
          have hk2 : MarksKept s1.nodes h2 := v0_marksKept_markUpper _ _ _ _ _ hmu
          split at hr
          · cases hr
          · rename_i c _
            have hk3 : MarksKept h2 t.nodes :=
              v0_marksKept_markBottom _ _ _ _ _ _ b t (v0_unpack_fst_even _) hr
            exact v0_marksKept_trans hk1 (v0_marksKept_trans hk2 hk3)

end V0

namespace V1

/-! ## V1: the operations with their mutex calls agree with the plain operations -/

theorem v1_trackAndLockT_erase (h : List Node_V1) (tracked : List Nat) (p : Nat) :
    (trackAndLockT h tracked p).map (fun x => (x.1, x.2.1)) = trackAndLock h tracked p := by
  unfold trackAndLockT trackAndLock
  split
  · rfl
  · cases lockNode h p <;> rfl

theorem v1_unlockListT_erase :
    ∀ (l : List Nat) (h : List Node_V1),
      (unlockListT l h).map (fun x => x.1) = unlockList l h := by
  intro l
  induction l with
  | nil => intro h; rfl
  | cons p l ih =>
    intro h
    unfold unlockListT unlockList
    cases unlockNode h p with
    | none => rfl
    | some h1 =>
      simp only
      rw [← ih h1]
      cases unlockListT l h1 <;> rfl

theorem v1_unlockAllT_erase (h : List Node_V1) (tracked : List Nat) :
    (unlockAllT h tracked).map (fun x => x.1) = unlockAll h tracked :=
  v1_unlockListT_erase _ _

theorem v1_tryLockValidateT_erase (preds succs : List Nat) :
    ∀ (n level : Nat) (valid : Bool) (h : List Node_V1) (tracked : List Nat),
      (tryLockValidateT preds succs n level valid h tracked).map
          (fun x => (x.1, x.2.1, x.2.2.1)) =
        tryLockValidate preds succs n level valid h tracked := by
  intro n
  induction n with
  | zero => intro level valid h tracked; rfl
  | succ n ih =>
    intro level valid h tracked
    unfold tryLockValidateT tryLockValidate
    cases valid with
    | false => rfl
    | true =>
      simp only [if_true]
      cases hp : preds[level]? with
      | none => rfl
      | some pred =>
        cases hs : succs[level]? with
        | none => rfl
        | some succ =>
          simp only
          have he := v1_trackAndLockT_erase h tracked pred
          cases hT : trackAndLockT h tracked pred with
          | none =>
            rw [hT] at he
            rw [← he]
            rfl
          | some x =>
            obtain ⟨h1, t1, log1⟩ := x
            rw [hT] at he
            rw [← he]
            simp only [Option.map_some']
            cases deref h1 pred with
            | none => rfl
            | some pn =>
              cases deref h1 succ with
              | none => rfl
              | some sn =>
                simp only
                rw [← ih]
                cases tryLockValidateT preds succs n (level + 1)
                  (!pn.marked && !sn.marked && decide (pn.next[level]? = some succ)) h1 t1 <;> rfl

theorem v1_releaseValidateT_erase (preds : List Nat) (victim : Nat) :
    ∀ (n level : Nat) (valid : Bool) (h : List Node_V1) (tracked : List Nat),
      (releaseValidateT preds victim n level valid h tracked).map
          (fun x => (x.1, x.2.1, x.2.2.1)) =
        releaseValidate preds victim n level valid h tracked := by
  intro n
  induction n with
  | zero => intro level valid h tracked; rfl
  | succ n ih =>
    intro level valid h tracked
    unfold releaseValidateT releaseValidate
    cases valid with
    | false => rfl
    | true =>
      simp only [if_true]
      cases hp : preds[level]? with
      | none => rfl
      | some pred =>
        simp only
        have he := v1_trackAndLockT_erase h tracked pred
        cases hT : trackAndLockT h tracked pred with
        | none =>
          rw [hT] at he
          rw [← he]
          rfl
        | some x =>
          obtain ⟨h1, t1, log1⟩ := x
          rw [hT] at he
          rw [← he]
          simp only [Option.map_some']
          cases deref h1 pred with
          | none => rfl
          | some pn =>
            simp only
            rw [← ih]
            cases releaseValidateT preds victim n (level + 1)
              (!pn.marked && decide (pn.next[level]? = some victim)) h1 t1 <;> rfl

theorem v1_releaseAttemptT_erase (preds : List Nat) (victim : Nat) (topLevel : Int)
    (h : List Node_V1) (tracked : List Nat) :
    (releaseAttemptT preds victim topLevel h tracked).map (fun x => (x.1, x.2.1)) =
      releaseAttempt preds victim topLevel h tracked := by
  unfold releaseAttemptT releaseAttempt
  have he := v1_releaseValidateT_erase preds victim (topLevel + 1).toNat 0 true h tracked
  cases hT : releaseValidateT preds victim (topLevel + 1).toNat 0 true h tracked with
  | none =>
    rw [hT] at he
    rw [← he]
    rfl
  | some x =>
    obtain ⟨valid, h3, t3, log1⟩ := x
    rw [hT] at he
    rw [← he]
    simp only [Option.map_some']
    cases valid with
    | false =>
      simp only [Bool.not_false, if_true]
      rw [← v1_unlockAllT_erase]
      cases unlockAllT h3 t3 <;> rfl
    | true =>
      simp only [Bool.not_true, Bool.false_eq_true, if_false]
      cases releaseUnlink preds victim (topLevel + 1).toNat h3 with
      | none => rfl
      | some h4 =>
        simp only
        rw [← v1_unlockAllT_erase]
        cases unlockAllT h4 t3 <;> rfl

theorem v1_tryLockLoopT_erase (topLevel start end_ : Nat) :
    ∀ (fuel : Nat) (s : ConcurrentRangeLock_V1),
      (tryLockLoopT topLevel start end_ fuel s).map (fun x => (x.1, x.2.1)) =
        tryLockLoop topLevel start end_ fuel s := by
  intro fuel
  induction fuel with
  | zero => intro s; rfl
  | succ n ih =>
    intro s
    unfold tryLockLoopT tryLockLoop
    cases findInsert s.nodes.length s start end_ with
    | none => rfl
    | some x =>
      obtain ⟨levelFound, preds, succs⟩ := x
      simp only
      by_cases hlf : levelFound ≠ -1
      · rw [if_pos hlf, if_pos hlf]
        cases succs[levelFound.toNat]? with
        | none => rfl
        | some found =>
          simp only
          cases deref s.nodes found with
          | none => rfl
          | some fn =>
            simp only
            cases fn.marked with
            | false => rfl
            | true =>
              simp only [Bool.not_true, Bool.false_eq_true, if_false]
              exact ih s
      · rw [if_neg hlf, if_neg hlf]
        have he := v1_tryLockValidateT_erase preds succs (topLevel + 1) 0 true s.nodes []
        cases hT : tryLockValidateT preds succs (topLevel + 1) 0 true s.nodes [] with
        | none =>
          rw [hT] at he
          rw [← he]
          rfl
        | some y =>
          obtain ⟨valid, h1, tracked, log1⟩ := y
          rw [hT] at he
          rw [← he]
          simp only [Option.map_some']
          cases valid with
          | false =>
            simp only [Bool.not_false, if_true]
            rw [← v1_unlockAllT_erase]
            cases unlockAllT h1 tracked with
            | none => rfl
            | some z =>
              obtain ⟨h2, log2⟩ := z
              simp only [Option.map_some']
              rw [← ih]
              cases tryLockLoopT topLevel start end_ n { s with nodes := h2 } <;> rfl
          | true =>
            simp only [Bool.not_true, Bool.false_eq_true, if_false]
            cases tryLockLink preds succs (createNode_V1 h1 start end_ topLevel).2
                (topLevel + 1) 0 (createNode_V1 h1 start end_ topLevel).1 with
            | none => rfl
            | some h3 =>
              simp only
              cases setFullyLinked h3 (createNode_V1 h1 start end_ topLevel).2 with
              | none => rfl
              | some h4 =>
                simp only
                rw [← v1_unlockAllT_erase]
                cases unlockAllT h4 tracked <;> rfl

theorem v1_tryLockT_erase (s : ConcurrentRangeLock_V1) (start end_ : Nat) (rand : Nat → Nat) :
    (tryLockT s start end_ rand).map (fun x => (x.1, x.2.1)) = tryLock s start end_ rand :=
  v1_tryLockLoopT_erase _ _ _ _ _

theorem v1_releaseLockLoopT_erase (start end_ : Nat) :
    ∀ (fuel : Nat) (isMarked : Bool) (topLevel : Int) (s : ConcurrentRangeLock_V1),
      (releaseLockLoopT start end_ fuel isMarked topLevel s).map (fun x => (x.1, x.2.1)) =
        releaseLockLoop start end_ fuel isMarked topLevel s := by
  intro fuel
  induction fuel with
  | zero => intro isMarked topLevel s; rfl
  | succ n ih =>
    intro isMarked topLevel s
    unfold releaseLockLoopT releaseLockLoop
    cases findExact s.nodes.length s start end_ with
    | none => rfl
    | some x =>
      obtain ⟨levelFound, preds, succs⟩ := x
      simp only
      by_cases hlf : levelFound = -1
      · rw [if_pos hlf, if_pos hlf]
        rfl
      · rw [if_neg hlf, if_neg hlf]
        cases succs[levelFound.toNat]? with
        | none => rfl
        | some victim =>
          simp only
          cases deref s.nodes victim with
          | none => rfl
          | some vn =>
            simp only
            by_cases hc : isMarked = true ∨ ((vn.topLevel : Int) = levelFound ∧ vn.marked = false)
            · rw [if_pos hc, if_pos hc]
              cases isMarked with
              | true =>
                simp only [if_true]
                have he := v1_releaseAttemptT_erase preds victim topLevel s.nodes []
                cases hT : releaseAttemptT preds victim topLevel s.nodes [] with
                | none =>
                  rw [hT] at he
                  rw [← he]
                  rfl
                | some y =>
                  obtain ⟨ok, h5, log⟩ := y
                  rw [hT] at he
                  rw [← he]
                  simp only [Option.map_some']
                  cases ok with
                  | true => rfl
                  | false =>
                    simp only
                    rw [← ih]
                    cases releaseLockLoopT start end_ n true topLevel { s with nodes := h5 } <;> rfl
              | false =>
                simp only [Bool.false_eq_true, if_false]
                have he0 := v1_trackAndLockT_erase s.nodes [] victim
                cases hT0 : trackAndLockT s.nodes [] victim with
                | none =>
                  rw [hT0] at he0
                  rw [← he0]
                  rfl
                | some y0 =>
                  obtain ⟨h1, tracked1, log0⟩ := y0
                  rw [hT0] at he0
                  rw [← he0]
                  simp only [Option.map_some']
                  cases deref h1 victim with
                  | none => rfl
                  | some vn1 =>
                    simp only
                    cases vn1.marked with
                    | true =>
                      simp only [if_true]
                      rw [← v1_unlockAllT_erase]
                      cases unlockAllT h1 tracked1 <;> rfl
                    | false =>
                      simp only [Bool.false_eq_true, if_false]
                      cases setMarked h1 victim with
                      | none => rfl
                      | some h2 =>
                        simp only
                        have he := v1_releaseAttemptT_erase preds victim (vn.topLevel : Int) h2
                          tracked1
                        cases hT : releaseAttemptT preds victim (vn.topLevel : Int) h2
                            tracked1 with
                        | none =>
                          rw [hT] at he
                          rw [← he]
                          rfl
                        | some y =>
                          obtain ⟨ok, h5, log⟩ := y
                          rw [hT] at he
                          rw [← he]
                          simp only [Option.map_some']
                          cases ok with
                          | true => rfl
                          | false =>
                            simp only
                            rw [← ih]
                            cases releaseLockLoopT start end_ n true (vn.topLevel : Int)
                              { s with nodes := h5 } <;> rfl
            · rw [if_neg hc, if_neg hc]
              rfl

theorem v1_releaseLockT_erase (s : ConcurrentRangeLock_V1) (start end_ : Nat) :
    (releaseLockT s start end_).map (fun x => (x.1, x.2.1)) = releaseLock s start end_ :=
  v1_releaseLockLoopT_erase _ _ _ _ _ _

end V1

/-! ## The nodes a locker tracks -/

theorem dedup_append_cons_of_mem {p : Nat} {B : List Nat} (hp : p ∈ B) :
    ∀ (A : List Nat), (A ++ p :: B).dedup = (A ++ B).dedup := by
  intro A
  induction A with
  | nil => exact List.dedup_cons_of_mem hp
  | cons a A ih =>
    by_cases ha : a ∈ A ++ B
    · have ha2 : a ∈ A ++ p :: B := by
        simp only [List.mem_append, List.mem_cons] at ha ⊢
        tauto
      rw [List.cons_append, List.cons_append, List.dedup_cons_of_mem ha2,
        List.dedup_cons_of_mem ha, ih]
    · have ha2 : a ∉ A ++ p :: B := by
        intro hc
        apply ha
        simp only [List.mem_append, List.mem_cons] at hc ⊢
        rcases hc with h | rfl | h
        · exact Or.inl h
        · exact Or.inr hp
        · exact Or.inr h
      rw [List.cons_append, List.cons_append, List.dedup_cons_of_not_mem ha2,
        List.dedup_cons_of_not_mem ha, ih]

namespace V1

theorem v1_trackAll_cons (t : List Nat) (p : Nat) (l : List Nat) :
    trackAll t (p :: l) = trackAll (if p ∈ t then t else t ++ [p]) l := rfl

theorem v1_trackAll_eq :
    ∀ (l t : List Nat), t.Nodup → trackAll t l = ((t ++ l).reverse.dedup).reverse := by
  intro l
  induction l with
  | nil =>
    intro t ht
    rw [List.append_nil, (List.nodup_reverse.mpr ht).dedup, List.reverse_reverse]
    rfl
  | cons p l ih =>
    intro t ht
    rw [v1_trackAll_cons]
    by_cases hp : p ∈ t
    · rw [if_pos hp, ih t ht]
      congr 1
      simp only [List.reverse_append, List.reverse_cons, List.append_assoc,
        List.singleton_append]
      exact (dedup_append_cons_of_mem (List.mem_reverse.mpr hp) l.reverse).symm
    · rw [if_neg hp, ih (t ++ [p])]
      · simp
      · rw [List.nodup_append]
        refine ⟨ht, List.nodup_singleton p, ?_⟩
        intro a ha hb
        rw [List.mem_singleton] at hb
        subst hb
        exact hp ha

theorem v1_trackAll_nodup (l t : List Nat) (ht : t.Nodup) : (trackAll t l).Nodup := by
  rw [v1_trackAll_eq l t ht, List.nodup_reverse]
  exact List.nodup_dedup _

theorem v1_trackAndLockT_inv {h h1 : List Node_V1} {tracked t1 : List Nat} {p : Nat}
    {log : List LockEv} (hr : trackAndLockT h tracked p = some (h1, t1, log)) :
    (p ∈ tracked ∧ h1 = h ∧ t1 = tracked ∧ log = []) ∨
    (p ∉ tracked ∧ lockNode h p = some h1 ∧ t1 = tracked ++ [p] ∧ log = [LockEv.lock p]) := by
  unfold trackAndLockT at hr
  split at hr
  · rename_i hm
    simp only [Option.some.injEq, Prod.mk.injEq] at hr
    exact Or.inl ⟨hm, hr.1.symm, hr.2.1.symm, hr.2.2.symm⟩
  · rename_i hm
    split at hr
    · cases hr
    · rename_i h2 hl
      simp only [Option.some.injEq, Prod.mk.injEq] at hr
      exact Or.inr ⟨hm, by rw [hl, hr.1], hr.2.1.symm, hr.2.2.symm⟩

theorem v1_lockNode_was_free {h h1 : List Node_V1} {p : Nat} (hs : lockNode h p = some h1) :
    lockOf h p = some false := by
  obtain ⟨n, hn, hl, -⟩ := v1_lockNode_some hs
  unfold lockOf
  rw [hn, Option.map_some', hl]

/-- What one `trackAndLock` call adds to the facts about the calls made so far. -/
theorem v1_track_step {h h1 h2 : List Node_V1} {t0 t1 t2 : List Nat} {p : Nat}
    {log1 log2 : List LockEv} (ev : LockEv) (hev : ev.locked = none)
    (hreq : ev.request = some p) (hun : ev.unlocked = none)
    (hT : trackAndLockT h t0 p = some (h1, t1, log1))
    (h1' : t2 = t1 ++ log2.filterMap LockEv.locked)
    (h2' : t2 = trackAll t1 (log2.filterMap LockEv.request))
    (h3' : log2.filterMap LockEv.unlocked = [])
    (h6' : ∀ a, lockOf h2 a =
      if a ∈ log2.filterMap LockEv.locked then some true else lockOf h1 a)
    (h7' : ∀ a ∈ log2.filterMap LockEv.locked, lockOf h1 a = some false) :
    t2 = t0 ++ (ev :: (log1 ++ log2)).filterMap LockEv.locked ∧
    t2 = trackAll t0 ((ev :: (log1 ++ log2)).filterMap LockEv.request) ∧
    (ev :: (log1 ++ log2)).filterMap LockEv.unlocked = [] ∧
    (∀ a, lockOf h2 a =
      if a ∈ (ev :: (log1 ++ log2)).filterMap LockEv.locked then some true
      else lockOf h a) ∧
    (∀ a ∈ (ev :: (log1 ++ log2)).filterMap LockEv.locked, lockOf h a = some false) := by
  have c1 : ∀ (l : List LockEv), (ev :: l).filterMap LockEv.locked =
      l.filterMap LockEv.locked := by
    intro l; rw [List.filterMap_cons, hev]
  have c2 : ∀ (l : List LockEv), (ev :: l).filterMap LockEv.request =
      p :: l.filterMap LockEv.request := by
    intro l; rw [List.filterMap_cons, hreq]
  have c3 : ∀ (l : List LockEv), (ev :: l).filterMap LockEv.unlocked =
      l.filterMap LockEv.unlocked := by
    intro l; rw [List.filterMap_cons, hun]
  rw [c1, c2, c3]
  rcases v1_trackAndLockT_inv hT with ⟨hm, rfl, rfl, rfl⟩ | ⟨hm, hl, rfl, rfl⟩
  · rw [List.nil_append]
    refine ⟨h1', ?_, h3', h6', h7'⟩
    rw [v1_trackAll_cons, if_pos hm]
    exact h2'
  · have hlk := v1_lockOf_lockNode hl
    have hfree := v1_lockNode_was_free hl
    have d1 : ([LockEv.lock p] ++ log2).filterMap LockEv.locked =
        p :: log2.filterMap LockEv.locked := rfl
    have d2 : ([LockEv.lock p] ++ log2).filterMap LockEv.request =
        log2.filterMap LockEv.request := rfl
    have d3 : ([LockEv.lock p] ++ log2).filterMap LockEv.unlocked =
        log2.filterMap LockEv.unlocked := rfl
    rw [d1, d2, d3]
    refine ⟨?_, ?_, h3', ?_, ?_⟩
    · rw [h1', List.append_assoc]
      rfl
    · rw [v1_trackAll_cons, if_neg hm]
      exact h2'
    · intro a
      rw [h6' a, hlk a]
      by_cases ha : a = p
      · subst ha
        simp
      · simp [ha]
    · intro a ha
      rcases List.mem_cons.mp ha with rfl | ha
      · exact hfree
      · have := h7' a ha
        rw [hlk a] at this
        by_cases hap : a = p
        · rw [if_pos hap] at this
          cases this
        · rw [if_neg hap] at this
          exact this

theorem v1_trackAndLockT_plain {h h1 : List Node_V1} {tracked t1 : List Nat} {p : Nat}
    {log : List LockEv} (hr : trackAndLockT h tracked p = some (h1, t1, log)) :
    log.filterMap LockEv.level = [] ∧ ∀ e ∈ log, e.isVictim = false := by
  rcases v1_trackAndLockT_inv hr with ⟨-, -, -, rfl⟩ | ⟨-, -, -, rfl⟩
  · exact ⟨rfl, fun e he => by cases he⟩
  · refine ⟨rfl, fun e he => ?_⟩
    rw [List.mem_singleton] at he
    subst he
    rfl

theorem v1_levels_step {level p : Nat} {log1 log2 : List LockEv} {n m : Nat} {v : Bool}
    (hl1 : log1.filterMap LockEv.level = [] ∧ ∀ e ∈ log1, e.isVictim = false)
    (hm : m ≤ n) (hl2 : log2.filterMap LockEv.level = List.range' (level + 1) m)
    (hv : v = true → m = n) (hvic : ∀ e ∈ log2, e.isVictim = false) :
    (∃ m1, m1 ≤ n + 1 ∧
      (LockEv.pred level p :: (log1 ++ log2)).filterMap LockEv.level = List.range' level m1 ∧
      (v = true → m1 = n + 1)) ∧
    ∀ e ∈ LockEv.pred level p :: (log1 ++ log2), e.isVictim = false := by
  refine ⟨⟨m + 1, by omega, ?_, fun h => by rw [hv h]⟩, ?_⟩
  · have e1 : (LockEv.pred level p :: (log1 ++ log2)).filterMap LockEv.level =
        level :: (log1 ++ log2).filterMap LockEv.level := rfl
    rw [e1, List.filterMap_append, hl1.1, List.nil_append, hl2]
    rfl
  · intro e he
    rcases List.mem_cons.mp he with rfl | he
    · rfl
    · rcases List.mem_append.mp he with h | h
      · exact hl1.2 e h
      · exact hvic e h

theorem v1_tryLockValidateT_log (preds succs : List Nat) :
    ∀ (n level : Nat) (valid : Bool) (h : List Node_V1) (t0 : List Nat) (v : Bool)
      (h1 : List Node_V1) (t1 : List Nat) (log : List LockEv),
      tryLockValidateT preds succs n level valid h t0 = some (v, h1, t1, log) →
      (t1 = t0 ++ log.filterMap LockEv.locked ∧
        t1 = trackAll t0 (log.filterMap LockEv.request) ∧
        log.filterMap LockEv.unlocked = [] ∧
        (∀ a, lockOf h1 a =
          if a ∈ log.filterMap LockEv.locked then some true else lockOf h a) ∧
        (∀ a ∈ log.filterMap LockEv.locked, lockOf h a = some false)) ∧
      (∃ m, m ≤ n ∧ log.filterMap LockEv.level = List.range' level m ∧
        (v = true → m = n)) ∧
      ∀ e ∈ log, e.isVictim = false := by
  intro n
  induction n with
  | zero =>
    intro level valid h t0 v h1 t1 log hr
    simp only [tryLockValidateT, Option.some.injEq, Prod.mk.injEq] at hr
    obtain ⟨-, rfl, rfl, rfl⟩ := hr
    exact ⟨⟨by simp, rfl, rfl, fun a => by simp, fun a ha => by cases ha⟩,
      ⟨0, Nat.le_refl _, rfl, fun _ => rfl⟩, fun e he => by cases he⟩
  | succ n ih =>
    intro level valid h t0 v h1 t1 log hr
    unfold tryLockValidateT at hr
    split at hr
    · split at hr
      · rename_i pred succ _ _
        split at hr
        · cases hr
        · rename_i h1a t1a log1 hT
          split at hr
          · rename_i pn sn _ _
            split at hr
            · cases hr
            · rename_i v2 h2 t2 log2 hrec
              simp only [Option.some.injEq, Prod.mk.injEq] at hr
              obtain ⟨rfl, rfl, rfl, rfl⟩ := hr
              obtain ⟨⟨q1, q2, q3, q4, q5⟩, ⟨m, hm, hlev, hvm⟩, hvic⟩ :=
                ih _ _ _ _ _ _ _ _ hrec
              exact ⟨v1_track_step (LockEv.pred level pred) rfl rfl rfl hT q1 q2 q3 q4 q5,
                v1_levels_step (v1_trackAndLockT_plain hT) hm hlev hvm hvic⟩
          · cases hr
      · cases hr
    · rename_i hvalid
      simp only [Option.some.injEq, Prod.mk.injEq] at hr
      obtain ⟨rfl, rfl, rfl, rfl⟩ := hr
      exact ⟨⟨by simp, rfl, rfl, fun a => by simp, fun a ha => by cases ha⟩,
        ⟨0, Nat.zero_le _, rfl, fun hc => absurd hc hvalid⟩, fun e he => by cases he⟩

theorem v1_releaseValidateT_log (preds : List Nat) (victim : Nat) :
    ∀ (n level : Nat) (valid : Bool) (h : List Node_V1) (t0 : List Nat) (v : Bool)
      (h1 : List Node_V1) (t1 : List Nat) (log : List LockEv),
      releaseValidateT preds victim n level valid h t0 = some (v, h1, t1, log) →
      (t1 = t0 ++ log.filterMap LockEv.locked ∧
        t1 = trackAll t0 (log.filterMap LockEv.request) ∧
        log.filterMap LockEv.unlocked = [] ∧
        (∀ a, lockOf h1 a =
          if a ∈ log.filterMap LockEv.locked then some true else lockOf h a) ∧
        (∀ a ∈ log.filterMap LockEv.locked, lockOf h a = some false)) ∧
      (∃ m, m ≤ n ∧ log.filterMap LockEv.level = List.range' level m ∧
        (v = true → m = n)) ∧
      ∀ e ∈ log, e.isVictim = false := by
  intro n
  induction n with
  | zero =>
    intro level valid h t0 v h1 t1 log hr
    simp only [releaseValidateT, Option.some.injEq, Prod.mk.injEq] at hr
    obtain ⟨-, rfl, rfl, rfl⟩ := hr
    exact ⟨⟨by simp, rfl, rfl, fun a => by simp, fun a ha => by cases ha⟩,
      ⟨0, Nat.le_refl _, rfl, fun _ => rfl⟩, fun e he => by cases he⟩
  | succ n ih =>
    intro level valid h t0 v h1 t1 log hr
    unfold releaseValidateT at hr
    split at hr
    · split at hr
      · cases hr
      · rename_i pred _
        split at hr
        · cases hr
        · rename_i h1a t1a log1 hT
          split at hr
          · cases hr
          · rename_i pn _
            split at hr
            · cases hr
            · rename_i v2 h2 t2 log2 hrec
              simp only [Option.some.injEq, Prod.mk.injEq] at hr
              obtain ⟨rfl, rfl, rfl, rfl⟩ := hr
              obtain ⟨⟨q1, q2, q3, q4, q5⟩, ⟨m, hm, hlev, hvm⟩, hvic⟩ :=
                ih _ _ _ _ _ _ _ _ hrec
              exact ⟨v1_track_step (LockEv.pred level pred) rfl rfl rfl hT q1 q2 q3 q4 q5,
                v1_levels_step (v1_trackAndLockT_plain hT) hm hlev hvm hvic⟩
    · rename_i hvalid
      simp only [Option.some.injEq, Prod.mk.injEq] at hr
      obtain ⟨rfl, rfl, rfl, rfl⟩ := hr
      exact ⟨⟨by simp, rfl, rfl, fun a => by simp, fun a ha => by cases ha⟩,
        ⟨0, Nat.zero_le _, rfl, fun hc => absurd hc hvalid⟩, fun e he => by cases he⟩

end V1

namespace V1

/-! ## V1: one locker, from its first call to `unlockAll` -/

theorem v1_unlockListT_log :
    ∀ (l : List Nat) (h h1 : List Node_V1) (log : List LockEv),
      unlockListT l h = some (h1, log) →
      log = l.map LockEv.unlock ∧
        ∀ a, lockOf h1 a = if a ∈ l then (lockOf h a).map (fun _ => false) else lockOf h a := by
  intro l
  induction l with
  | nil =>
    intro h h1 log hr
    simp only [unlockListT, Option.some.injEq, Prod.mk.injEq] at hr
    obtain ⟨rfl, rfl⟩ := hr
    exact ⟨rfl, fun a => by simp⟩
  | cons p l ih =>
    intro h h1 log hr
    unfold unlockListT at hr
    split at hr
    · cases hr
    · rename_i h2 hu
      split at hr
      · cases hr
      · rename_i h3 log3 hrec
        simp only [Option.some.injEq, Prod.mk.injEq] at hr
        obtain ⟨rfl, rfl⟩ := hr
        obtain ⟨rfl, hlk⟩ := ih _ _ _ hrec
        refine ⟨rfl, fun a => ?_⟩
        rw [hlk a, v1_lockOf_unlockNode hu a]
        by_cases hap : a = p
        · subst hap
          by_cases hal : a ∈ l
          · simp [hal]
          · simp [hal]
        · by_cases hal : a ∈ l
          · simp [hal, hap]
          · simp [hal, hap]

theorem v1_unlockAllT_log {h h1 : List Node_V1} {tracked : List Nat} {log : List LockEv}
    (hr : unlockAllT h tracked = some (h1, log)) :
    log = tracked.reverse.map LockEv.unlock ∧
      ∀ a, lockOf h1 a =
        if a ∈ tracked then (lockOf h a).map (fun _ => false) else lockOf h a := by
  obtain ⟨h1', h2'⟩ := v1_unlockListT_log _ _ _ _ hr
  refine ⟨h1', fun a => ?_⟩
  rw [h2' a]
  simp only [List.mem_reverse]

theorem v1_unlock_log_facts (l : List Nat) :
    (l.map LockEv.unlock).filterMap LockEv.locked = [] ∧
    (l.map LockEv.unlock).filterMap LockEv.unlocked = l ∧
    (l.map LockEv.unlock).filterMap LockEv.request = [] ∧
    (l.map LockEv.unlock).filterMap LockEv.level = [] ∧
    ∀ e ∈ l.map LockEv.unlock, e.isVictim = false := by
  induction l with
  | nil => exact ⟨rfl, rfl, rfl, rfl, fun e he => by cases he⟩
  | cons p l ih =>
    obtain ⟨i1, i2, i3, i4, i5⟩ := ih
    refine ⟨i1, ?_, i3, i4, ?_⟩
    · show p :: (l.map LockEv.unlock).filterMap LockEv.unlocked = p :: l
      rw [i2]
    · intro e he
      rcases List.mem_cons.mp he with rfl | he
      · rfl
      · exact i5 e he

theorem v1_locksKept_refl (h : List Node_V1) : LocksKept h h := fun _ => Or.inl rfl

theorem v1_locksKept_trans {h1 h2 h3 : List Node_V1} (h12 : LocksKept h1 h2)
    (h23 : LocksKept h2 h3) : LocksKept h1 h3 := by
  intro a
  rcases h12 a with e1 | ⟨n1, f1⟩
  · rcases h23 a with e2 | ⟨n2, f2⟩
    · exact Or.inl (e2.trans e1)
    · exact Or.inr ⟨by rw [← e1]; exact n2, f2⟩
  · rcases h23 a with e2 | ⟨n2, f2⟩
    · exact Or.inr ⟨n1, by rw [e2]; exact f1⟩
    · rw [f1] at n2
      cases n2

theorem v1_locksKept_of_eq {h h1 : List Node_V1} (he : ∀ a, lockOf h1 a = lockOf h a) :
    LocksKept h h1 := fun a => Or.inl (he a)

/-- One locker: the calls `log` made while the heap went from `h` to `hA`, then a stretch
from `hA` to `hB` without mutex calls, then `unlockAll`. -/
theorem v1_attempt {h hA hB h5 : List Node_V1} {t : List Nat} {log log2 : List LockEv}
    (q1 : t = [] ++ log.filterMap LockEv.locked)
    (q2 : t = trackAll [] (log.filterMap LockEv.request))
    (q3 : log.filterMap LockEv.unlocked = [])
    (q4 : ∀ a, lockOf hA a =
      if a ∈ log.filterMap LockEv.locked then some true else lockOf h a)
    (q5 : ∀ a ∈ log.filterMap LockEv.locked, lockOf h a = some false)
    (hAB : LocksKept hA hB) (hu : unlockAllT hB t = some (h5, log2)) :
    LocksKept h h5 ∧ Balanced (log ++ log2) ∧
      (log ++ log2).filterMap LockEv.locked =
        (((log ++ log2).filterMap LockEv.request).reverse.dedup).reverse ∧
      (log ++ log2).filterMap LockEv.level = log.filterMap LockEv.level ∧
      ((∀ e ∈ log, e.isVictim = false) → ∀ e ∈ log ++ log2, e.isVictim = false) := by
  rw [List.nil_append] at q1
  obtain ⟨rfl, hlk⟩ := v1_unlockAllT_log hu
  obtain ⟨u1, u2, u3, u4, u5⟩ := v1_unlock_log_facts t.reverse
  have hnd : t.Nodup := by
    rw [q2]
    exact v1_trackAll_nodup _ _ List.nodup_nil
  refine ⟨?_, ⟨?_, ?_, log, _, rfl, q3, u1⟩, ?_, ?_, ?_⟩
  · intro a
    rw [hlk a]
    by_cases ha : a ∈ t
    · rw [if_pos ha]
      have ha2 : a ∈ log.filterMap LockEv.locked := by rw [← q1]; exact ha
      have hA1 : lockOf hA a = some true := by rw [q4 a, if_pos ha2]
      have hB1 : lockOf hB a = some true := by
        rcases hAB a with e | ⟨n, -⟩
        · rw [e, hA1]
        · rw [hA1] at n
          cases n
      rw [hB1, q5 a ha2]
      exact Or.inl rfl
    · rw [if_neg ha]
      have ha2 : a ∉ log.filterMap LockEv.locked := by rw [← q1]; exact ha
      have hA1 : lockOf hA a = lockOf h a := by rw [q4 a, if_neg ha2]
      rcases hAB a with e | ⟨n, f⟩
      · exact Or.inl (e.trans hA1)
      · exact Or.inr ⟨by rw [← hA1]; exact n, f⟩
  · rw [List.filterMap_append, u1, List.append_nil, ← q1]
    exact hnd
  · rw [List.filterMap_append, List.filterMap_append, q3, u1, u2, List.nil_append,
      List.append_nil, ← q1]
  · rw [List.filterMap_append, List.filterMap_append, u1, u3, List.append_nil,
      List.append_nil, ← q1, q2, v1_trackAll_eq _ _ List.nodup_nil, List.nil_append]
  · rw [List.filterMap_append, u4, List.append_nil]
  · intro hv e he
    rcases List.mem_append.mp he with h1 | h1
    · exact hv e h1
    · exact u5 e h1

theorem v1_lockOf_tryLockLink (preds succs : List Nat) (nn : Nat) :
    ∀ (n level : Nat) (h h1 : List Node_V1), tryLockLink preds succs nn n level h = some h1 →
      ∀ a, lockOf h1 a = lockOf h a := by
  intro n
  induction n with
  | zero =>
    intro level h h1 hr a
    simp only [tryLockLink, Option.some.injEq] at hr
    rw [hr]
  | succ n ih =>
    intro level h h1 hr a
    unfold tryLockLink at hr
    split at hr
    · split at hr
      · cases hr
      · rename_i h2 hs1
        split at hr
        · cases hr
        · rename_i h3 hs2
          rw [ih _ _ _ hr a, v1_lockOf_setNext hs2 a, v1_lockOf_setNext hs1 a]
    · cases hr

theorem v1_lockOf_releaseUnlink (preds : List Nat) (victim : Nat) :
    ∀ (n : Nat) (h h1 : List Node_V1), releaseUnlink preds victim n h = some h1 →
      ∀ a, lockOf h1 a = lockOf h a := by
  intro n
  induction n with
  | zero =>
    intro h h1 hr a
    simp only [releaseUnlink, Option.some.injEq] at hr
    rw [hr]
  | succ n ih =>
    intro h h1 hr a
    unfold releaseUnlink at hr
    split at hr
    · split at hr
      · cases hr
      · rename_i h2 hs1
        rw [ih _ _ hr a, v1_lockOf_setNext hs1 a]
    · cases hr

theorem v1_locksKept_createNode (h : List Node_V1) (start end_ level : Nat) :
    LocksKept h (createNode_V1 h start end_ level).1 := by
  intro a
  unfold createNode_V1 lockOf
  rw [deref_alloc]
  by_cases ha : a = addrOf h.length
  · rw [if_pos ha]
    refine Or.inr ⟨?_, rfl⟩
    rw [ha, deref_addrOf]
    simp
  · rw [if_neg ha]
    exact Or.inl rfl

end V1

namespace V1

/-! ## V1: the mutex calls of `tryLock` and `releaseLock` -/

theorem v1_tryLock_block {preds succs : List Nat} {top : Nat} {h h1 hB h5 : List Node_V1}
    {v : Bool} {t : List Nat} {log1 log2 : List LockEv}
    (hval : tryLockValidateT preds succs (top + 1) 0 true h [] = some (v, h1, t, log1))
    (hAB : LocksKept h1 hB) (hu : unlockAllT hB t = some (h5, log2)) :
    LocksKept h h5 ∧
      (Balanced (log1 ++ log2) ∧ LevelOrdered (log1 ++ log2) ∧
        (∀ e ∈ log1 ++ log2, e.isVictim = false) ∧
        ∃ m, m ≤ top + 1 ∧ (log1 ++ log2).filterMap LockEv.level = List.range m) ∧
      (v = true → (log1 ++ log2).filterMap LockEv.level = List.range (top + 1)) := by
  obtain ⟨⟨q1, q2, q3, q4, q5⟩, ⟨m, hm, hlev, hvm⟩, hvic⟩ :=
    v1_tryLockValidateT_log _ _ _ _ _ _ _ _ _ _ _ hval
  obtain ⟨a1, a2, a3, a4, a5⟩ := v1_attempt q1 q2 q3 q4 q5 hAB hu
  have hlev2 : (log1 ++ log2).filterMap LockEv.level = List.range m := by
    rw [a4, hlev, List.range_eq_range']
  refine ⟨a1, ⟨a2, ⟨⟨m, hlev2⟩, a3, Or.inl (a5 hvic)⟩, a5 hvic, m, hm, hlev2⟩, ?_⟩
  intro hv
  rw [hlev2, hvm hv]

theorem v1_getLast?_cons_of_some {α : Type} (b : α) {l : List α} {x : α}
    (h : l.getLast? = some x) : (b :: l).getLast? = some x := by
  cases l with
  | nil => cases h
  | cons c l => rw [List.getLast?_cons_cons]; exact h

theorem v1_tryLockLoopT_log (top start end_ : Nat) :
    ∀ (fuel : Nat) (s : ConcurrentRangeLock_V1) (r : Bool) (s1 : ConcurrentRangeLock_V1)
      (logs : List (List LockEv)),
      tryLockLoopT top start end_ fuel s = some (r, s1, logs) →
      LocksKept s.nodes s1.nodes ∧
        (∀ b ∈ logs, Balanced b ∧ LevelOrdered b ∧ (∀ e ∈ b, e.isVictim = false) ∧
          ∃ m, m ≤ top + 1 ∧ b.filterMap LockEv.level = List.range m) ∧
        (r = true → ∃ bl, logs.getLast? = some bl ∧
          bl.filterMap LockEv.level = List.range (top + 1)) := by
  intro fuel
  induction fuel with
  | zero =>
    intro s r s1 logs hr
    simp [tryLockLoopT] at hr
  | succ n ih =>
    intro s r s1 logs hr
    unfold tryLockLoopT at hr
    split at hr
    · cases hr
    · rename_i levelFound preds succs _
      split at hr
      · split at hr
        · cases hr
        · split at hr
          · cases hr
          · split at hr
            · simp only [Option.some.injEq, Prod.mk.injEq] at hr
              obtain ⟨rfl, rfl, rfl⟩ := hr
              refine ⟨v1_locksKept_refl _, ?_, ?_⟩
              · intro b hb
                cases hb
              · intro hc
                cases hc
            · exact ih _ _ _ _ hr
      · split at hr
        · cases hr
        · rename_i valid h1 tracked log1 hval
          split at hr
          · split at hr
            · cases hr
            · rename_i h2 log2 hu
              split at hr
              · cases hr
              · rename_i r2 s2 logs2 hrec
                simp only [Option.some.injEq, Prod.mk.injEq] at hr
                obtain ⟨hr1, hr2, hr3⟩ := hr
                obtain ⟨k1, kb, -⟩ := v1_tryLock_block hval (v1_locksKept_refl h1) hu
                obtain ⟨k2, kbs, klast⟩ := ih _ _ _ _ hrec
                have k3 : LocksKept s.nodes s2.nodes := v1_locksKept_trans k1 k2
                rw [← hr1, ← hr2, ← hr3]
                refine ⟨k3, ?_, ?_⟩
                · intro b hb
                  rcases List.mem_cons.mp hb with rfl | hb
                  · exact kb
                  · exact kbs b hb
                · intro hr1
                  obtain ⟨bl, hbl, hl⟩ := klast hr1
                  exact ⟨bl, v1_getLast?_cons_of_some _ hbl, hl⟩
          · rename_i hvalid
            have hv : valid = true := by
              cases valid with
              | true => rfl
              | false => exact absurd rfl hvalid
            generalize hcn : createNode_V1 h1 start end_ top = pr at hr
            obtain ⟨h2, nn⟩ := pr
            simp only at hr
            have e1 : h2 = (createNode_V1 h1 start end_ top).1 := by rw [hcn]
            split at hr
            · cases hr
            · rename_i h3 hlink
              split at hr
              · cases hr
              · rename_i h4 hfl
                split at hr
                · cases hr
                · rename_i h5 log2 hu
                  have hAB : LocksKept h1 h4 := by
                    refine v1_locksKept_trans (v1_locksKept_createNode h1 start end_ top) ?_
                    rw [← e1]
                    apply v1_locksKept_of_eq
                    intro a
                    rw [v1_lockOf_setFullyLinked hfl a,
                      v1_lockOf_tryLockLink _ _ _ _ _ _ _ hlink a]
                  obtain ⟨k1, kb, klev⟩ := v1_tryLock_block hval hAB hu
                  simp only [Option.some.injEq, Prod.mk.injEq] at hr
                  obtain ⟨hr1, hr2, hr3⟩ := hr
                  rw [← hr2, ← hr3]
                  refine ⟨k1, ?_, ?_⟩
                  · intro b hb
                    rw [List.mem_singleton] at hb
                    rw [hb]
                    exact kb
                  · intro _
                    exact ⟨_, rfl, klev hv⟩

theorem v1_tryLockT_log {s s1 : ConcurrentRangeLock_V1} {start end_ : Nat} {rand : Nat → Nat}
    {r : Bool} {logs : List (List LockEv)}
    (hr : tryLockT s start end_ rand = some (r, s1, logs)) :
    LocksKept s.nodes s1.nodes ∧
      (∀ b ∈ logs, Balanced b ∧ LevelOrdered b ∧ (∀ e ∈ b, e.isVictim = false) ∧
        ∃ m, m ≤ generateRandomLevel rand s.maxLevel + 1 ∧
          b.filterMap LockEv.level = List.range m) ∧
      (r = true → ∃ bl, logs.getLast? = some bl ∧
        bl.filterMap LockEv.level = List.range (generateRandomLevel rand s.maxLevel + 1)) :=
  v1_tryLockLoopT_log _ _ _ _ _ _ _ _ hr

theorem v1_trackAll_append (t l1 l2 : List Nat) :
    trackAll t (l1 ++ l2) = trackAll (trackAll t l1) l2 := by
  unfold trackAll
  rw [List.foldl_append]

/-- The facts about the calls made so far, after more calls. -/
theorem v1_facts_append {h0 h h3 : List Node_V1} {t t3 : List Nat} {pre log : List LockEv}
    (p1 : t = [] ++ pre.filterMap LockEv.locked)
    (p2 : t = trackAll [] (pre.filterMap LockEv.request))
    (p3 : pre.filterMap LockEv.unlocked = [])
    (p4 : ∀ a, lockOf h a =
      if a ∈ pre.filterMap LockEv.locked then some true else lockOf h0 a)
    (p5 : ∀ a ∈ pre.filterMap LockEv.locked, lockOf h0 a = some false)
    (q1 : t3 = t ++ log.filterMap LockEv.locked)
    (q2 : t3 = trackAll t (log.filterMap LockEv.request))
    (q3 : log.filterMap LockEv.unlocked = [])
    (q4 : ∀ a, lockOf h3 a =
      if a ∈ log.filterMap LockEv.locked then some true else lockOf h a)
    (q5 : ∀ a ∈ log.filterMap LockEv.locked, lockOf h a = some false) :
    t3 = [] ++ (pre ++ log).filterMap LockEv.locked ∧
    t3 = trackAll [] ((pre ++ log).filterMap LockEv.request) ∧
    (pre ++ log).filterMap LockEv.unlocked = [] ∧
    (∀ a, lockOf h3 a =
      if a ∈ (pre ++ log).filterMap LockEv.locked then some true else lockOf h0 a) ∧
    (∀ a ∈ (pre ++ log).filterMap LockEv.locked, lockOf h0 a = some false) := by
  rw [List.filterMap_append, List.filterMap_append, List.filterMap_append]
  have hfree : ∀ a ∈ log.filterMap LockEv.locked,
      a ∉ pre.filterMap LockEv.locked ∧ lockOf h0 a = some false := by
    intro a ha
    have := q5 a ha
    rw [p4 a] at this
    by_cases hp : a ∈ pre.filterMap LockEv.locked
    · rw [if_pos hp] at this
      cases this
    · rw [if_neg hp] at this
      exact ⟨hp, this⟩
  refine ⟨?_, ?_, ?_, ?_, ?_⟩
  · rw [q1, p1]
    simp
  · rw [v1_trackAll_append, ← p2]
    exact q2
  · rw [p3, q3]
    rfl
  · intro a
    rw [q4 a, p4 a]
    by_cases h1 : a ∈ log.filterMap LockEv.locked
    · simp [h1]
    · by_cases h2 : a ∈ pre.filterMap LockEv.locked
      · simp [h1, h2]
      · simp [h1, h2]
  · intro a ha
    rcases List.mem_append.mp ha with h1 | h1
    · exact p5 a h1
    · exact (hfree a h1).2

theorem v1_release_block (h0 : List Node_V1) (pre : List LockEv) {preds : List Nat}
    {victim : Nat} {topLevel : Int} {h h5 : List Node_V1} {t : List Nat}
    {log : List LockEv} {ok : Bool}
    (p1 : t = [] ++ pre.filterMap LockEv.locked)
    (p2 : t = trackAll [] (pre.filterMap LockEv.request))
    (p3 : pre.filterMap LockEv.unlocked = [])
    (p4 : ∀ a, lockOf h a =
      if a ∈ pre.filterMap LockEv.locked then some true else lockOf h0 a)
    (p5 : ∀ a ∈ pre.filterMap LockEv.locked, lockOf h0 a = some false)
    (p6 : pre.filterMap LockEv.level = [])
    (hatt : releaseAttemptT preds victim topLevel h t = some (ok, h5, log)) :
    LocksKept h0 h5 ∧ Balanced (pre ++ log) ∧
      (pre ++ log).filterMap LockEv.locked =
        (((pre ++ log).filterMap LockEv.request).reverse.dedup).reverse ∧
      (∃ m, (pre ++ log).filterMap LockEv.level = List.range m) ∧
      (∀ e ∈ log, e.isVictim = false) ∧
      (ok = true →
        (pre ++ log).filterMap LockEv.level = List.range (topLevel + 1).toNat) := by
  unfold releaseAttemptT at hatt
  split at hatt
  · cases hatt
  · rename_i valid h3 t3 log1 hval
    obtain ⟨⟨q1, q2, q3, q4, q5⟩, ⟨m, hm, hlev, hvm⟩, hvic⟩ :=
      v1_releaseValidateT_log _ _ _ _ _ _ _ _ _ _ _ hval
    obtain ⟨f1, f2, f3, f4, f5⟩ := v1_facts_append p1 p2 p3 p4 p5 q1 q2 q3 q4 q5
    have hcore : ∀ (hB : List Node_V1) (log2 : List LockEv), LocksKept h3 hB →
        unlockAllT hB t3 = some (h5, log2) → log = log1 ++ log2 →
        LocksKept h0 h5 ∧ Balanced (pre ++ log) ∧
          (pre ++ log).filterMap LockEv.locked =
            (((pre ++ log).filterMap LockEv.request).reverse.dedup).reverse ∧
          (∃ m, (pre ++ log).filterMap LockEv.level = List.range m) ∧
          (∀ e ∈ log, e.isVictim = false) ∧
          (pre ++ log).filterMap LockEv.level = List.range m := by
      intro hB log2 hAB hu hlog
      obtain ⟨a1, a2, a3, a4, -⟩ := v1_attempt f1 f2 f3 f4 f5 hAB hu
      obtain ⟨-, -, -, -, u5⟩ := v1_unlock_log_facts t3.reverse
      have hl2 : log2 = t3.reverse.map LockEv.unlock := (v1_unlockAllT_log hu).1
      have e0 : pre ++ log = (pre ++ log1) ++ log2 := by rw [hlog, List.append_assoc]
      have hlev2 : (pre ++ log).filterMap LockEv.level = List.range m := by
        rw [e0, a4, List.filterMap_append, p6, List.nil_append, hlev, List.range_eq_range']
      rw [e0] at hlev2 ⊢
      refine ⟨a1, a2, a3, ⟨m, hlev2⟩, ?_, hlev2⟩
      intro e he
      rw [hlog] at he
      rcases List.mem_append.mp he with h1 | h1
      · exact hvic e h1
      · rw [hl2] at h1
        exact u5 e h1
    split at hatt
    · split at hatt
      · cases hatt
      · rename_i h4 log2 hu
        simp only [Option.some.injEq, Prod.mk.injEq] at hatt
        obtain ⟨hok, hh, hlog⟩ := hatt
        rw [hh] at hu
        obtain ⟨c1, c2, c3, c4, c5, -⟩ := hcore h3 log2 (v1_locksKept_refl _) hu hlog.symm
        refine ⟨c1, c2, c3, c4, c5, ?_⟩
        intro hc
        rw [hc] at hok
        cases hok
    · rename_i hvalid
      have hv : valid = true := by
        cases valid with
        | true => rfl
        | false => exact absurd rfl hvalid
      split at hatt
      · cases hatt
      · rename_i h4 hunl
        split at hatt
        · cases hatt
        · rename_i h5a log2 hu
          simp only [Option.some.injEq, Prod.mk.injEq] at hatt
          obtain ⟨-, hh, hlog⟩ := hatt
          rw [hh] at hu
          have hAB : LocksKept h3 h4 :=
            v1_locksKept_of_eq (v1_lockOf_releaseUnlink _ _ _ _ _ hunl)
          obtain ⟨c1, c2, c3, c4, c5, c6⟩ := hcore h4 log2 hAB hu hlog.symm
          refine ⟨c1, c2, c3, c4, c5, ?_⟩
          intro _
          rw [c6, hvm hv]

theorem v1_balanced_nil : Balanced [] ∧ LevelOrdered [] :=
  ⟨⟨List.nodup_nil, rfl, [], [], rfl, rfl, rfl⟩, ⟨0, rfl⟩, rfl, Or.inl (fun e he => by cases he)⟩

/-- The facts about a locker that has only served `trackAndLock(victim)`. -/
theorem v1_victim_pre {h h1 : List Node_V1} {t1 : List Nat} {v : Nat} {log0 : List LockEv}
    (hT : trackAndLockT h [] v = some (h1, t1, log0)) :
    log0 = [LockEv.lock v] ∧
    t1 = [] ++ [LockEv.victim v, LockEv.lock v].filterMap LockEv.locked ∧
    t1 = trackAll [] ([LockEv.victim v, LockEv.lock v].filterMap LockEv.request) ∧
    [LockEv.victim v, LockEv.lock v].filterMap LockEv.unlocked = [] ∧
    (∀ a, lockOf h1 a =
      if a ∈ [LockEv.victim v, LockEv.lock v].filterMap LockEv.locked then some true
      else lockOf h a) ∧
    (∀ a ∈ [LockEv.victim v, LockEv.lock v].filterMap LockEv.locked,
      lockOf h a = some false) ∧
    [LockEv.victim v, LockEv.lock v].filterMap LockEv.level = [] := by
  rcases v1_trackAndLockT_inv hT with ⟨hm, -, -, -⟩ | ⟨-, hl, rfl, rfl⟩
  · cases hm
  · have e1 : [LockEv.victim v, LockEv.lock v].filterMap LockEv.locked = [v] := rfl
    have e2 : [LockEv.victim v, LockEv.lock v].filterMap LockEv.request = [v] := rfl
    rw [e1, e2]
    refine ⟨rfl, rfl, ?_, rfl, ?_, ?_, rfl⟩
    · simp [trackAll]
    · intro a
      rw [v1_lockOf_lockNode hl a]
      simp
    · intro a ha
      rw [List.mem_singleton] at ha
      rw [ha]
      exact v1_lockNode_was_free hl

theorem v1_releaseLockLoopT_log (start end_ : Nat) :
    ∀ (fuel : Nat) (isMarked : Bool) (topLevel : Int) (s : ConcurrentRangeLock_V1)
      (ret : Ret) (s1 : ConcurrentRangeLock_V1) (logs : List (List LockEv)),
      releaseLockLoopT start end_ fuel isMarked topLevel s = some (ret, s1, logs) →
      LocksKept s.nodes s1.nodes ∧
        (∀ b ∈ logs, Balanced b ∧ LevelOrdered b) ∧
        (isMarked = true → (∀ b ∈ logs, ∀ e ∈ b, e.isVictim = false) ∧
          (ret = Ret.ret true → ∃ bl, logs.getLast? = some bl ∧
            bl.filterMap LockEv.level = List.range (topLevel + 1).toNat)) ∧
        (isMarked = false → ret = Ret.ret true →
          ∃ p vn b0 bl, logs.head? = some b0 ∧ b0.head? = some (LockEv.victim p) ∧
            deref s.nodes p = some vn ∧ logs.getLast? = some bl ∧
            bl.filterMap LockEv.level = List.range (vn.topLevel + 1)) := by
  intro fuel
  induction fuel with
  | zero =>
    intro isMarked topLevel s ret s1 logs hr
    simp [releaseLockLoopT] at hr
  | succ n ih =>
    intro isMarked topLevel s ret s1 logs hr
    unfold releaseLockLoopT at hr
    split at hr
    · cases hr
    · rename_i levelFound preds succs _
      split at hr
      · simp only [Option.some.injEq, Prod.mk.injEq] at hr
        obtain ⟨rfl, rfl, rfl⟩ := hr
        refine ⟨v1_locksKept_refl _, ?_, ?_, ?_⟩
        · intro b hb
          rw [List.mem_singleton] at hb
          rw [hb]
          exact v1_balanced_nil
        · intro _
          refine ⟨?_, ?_⟩
          · intro b hb e he
            rw [List.mem_singleton] at hb
            rw [hb] at he
            cases he
          · intro hc
            cases hc
        · intro _ hc
          cases hc
      · split at hr
        · cases hr
        · rename_i victim _
          split at hr
          · cases hr
          · rename_i vn hvn
            split at hr
            · split at hr
              · rename_i him
                split at hr
                · cases hr
                · rename_i h5 log hatt
                  obtain ⟨c1, c2, c3, c4, c5, c6⟩ := v1_release_block s.nodes []
                    rfl rfl rfl (fun a => by simp)
                    (fun a ha => by cases ha) rfl hatt
                  rw [List.nil_append] at c2 c3 c4 c6
                  simp only [Option.some.injEq, Prod.mk.injEq] at hr
                  obtain ⟨hr1, hr2, hr3⟩ := hr
                  rw [← hr2, ← hr3]
                  refine ⟨c1, ?_, ?_, ?_⟩
                  · intro b hb
                    rw [List.mem_singleton] at hb
                    rw [hb]
                    exact ⟨c2, c4, c3, Or.inl c5⟩
                  · intro _
                    refine ⟨?_, ?_⟩
                    · intro b hb
                      rw [List.mem_singleton] at hb
                      rw [hb]
                      exact c5
                    · intro _
                      exact ⟨log, rfl, c6 rfl⟩
                  · intro hc
                    rw [him] at hc
                    cases hc
                · rename_i h4 log hatt
                  obtain ⟨c1, c2, c3, c4, c5, -⟩ := v1_release_block s.nodes []
                    rfl rfl rfl (fun a => by simp)
                    (fun a ha => by cases ha) rfl hatt
                  rw [List.nil_append] at c2 c3 c4
                  split at hr
                  · cases hr
                  · rename_i r2 s2 logs2 hrec
                    obtain ⟨k1, k2, k3, -⟩ := ih _ _ _ _ _ _ hrec
                    obtain ⟨k3a, k3b⟩ := k3 rfl
                    have k4 : LocksKept s.nodes s2.nodes := v1_locksKept_trans c1 k1
                    simp only [Option.some.injEq, Prod.mk.injEq] at hr
                    obtain ⟨hr1, hr2, hr3⟩ := hr
                    rw [← hr1, ← hr2, ← hr3]
                    refine ⟨k4, ?_, ?_, ?_⟩
                    · intro b hb
                      rcases List.mem_cons.mp hb with rfl | hb
                      · exact ⟨c2, c4, c3, Or.inl c5⟩
                      · exact k2 b hb
                    · intro _
                      refine ⟨?_, ?_⟩
                      · intro b hb
                        rcases List.mem_cons.mp hb with rfl | hb
                        · exact c5
                        · exact k3a b hb
                      · intro hret
                        obtain ⟨bl, hbl, hl⟩ := k3b hret
                        exact ⟨bl, v1_getLast?_cons_of_some _ hbl, hl⟩
                    · intro hc
                      rw [him] at hc
                      cases hc
              · rename_i him
                have him2 : isMarked = false := by
                  cases isMarked with
                  | true => exact absurd rfl him
                  | false => rfl
                split at hr
                · cases hr
                · rename_i h1 tracked1 log0 hT
                  obtain ⟨hlog0, p1, p2, p3, p4, p5, p6⟩ := v1_victim_pre hT
                  split at hr
                  · cases hr
                  · rename_i vn1 _
                    split at hr
                    · split at hr
                      · cases hr
                      · rename_i h2 log1 hu
                        obtain ⟨a1, a2, a3, a4, a5⟩ :=
                          v1_attempt p1 p2 p3 p4 p5 (v1_locksKept_refl h1) hu
                        obtain ⟨hl1, -⟩ := v1_unlockAllT_log hu
                        obtain ⟨-, -, -, -, u5⟩ := v1_unlock_log_facts tracked1.reverse
                        simp only [Option.some.injEq, Prod.mk.injEq] at hr
                        obtain ⟨hr1, hr2, hr3⟩ := hr
                        have eb : LockEv.victim victim :: (log0 ++ log1) =
                            [LockEv.victim victim, LockEv.lock victim] ++ log1 := by
                          rw [hlog0]; rfl
                        rw [← hr1, ← hr2, ← hr3, eb]
                        refine ⟨a1, ?_, ?_, ?_⟩
                        · intro b hb
                          rw [List.mem_singleton] at hb
                          rw [hb]
                          refine ⟨a2, ⟨0, by rw [a4, p6]; rfl⟩, a3, Or.inr ⟨victim, log1, rfl, ?_⟩⟩
                          intro e he
                          rw [hl1] at he
                          exact u5 e he
                        · intro hc
                          rw [him2] at hc
                          cases hc
                        · intro _ hc
                          cases hc
                    · split at hr
                      · cases hr
                      · rename_i h2 hsm
                        have p4' : ∀ a, lockOf h2 a =
                            if a ∈ [LockEv.victim victim, LockEv.lock victim].filterMap
                              LockEv.locked then some true else lockOf s.nodes a := by
                          intro a
                          rw [v1_lockOf_setMarked hsm a]
                          exact p4 a
                        split at hr
                        · cases hr
                        · rename_i h5 log hatt
                          obtain ⟨c1, c2, c3, c4, c5, c6⟩ :=
                            v1_release_block _ _ p1 p2 p3 p4' p5 p6 hatt
                          simp only [Option.some.injEq, Prod.mk.injEq] at hr
                          obtain ⟨hr1, hr2, hr3⟩ := hr
                          have eb : LockEv.victim victim :: (log0 ++ log) =
                              [LockEv.victim victim, LockEv.lock victim] ++ log := by
                            rw [hlog0]; rfl
                          rw [← hr2, ← hr3, eb]
                          refine ⟨c1, ?_, ?_, ?_⟩
                          · intro b hb
                            rw [List.mem_singleton] at hb
                            rw [hb]
                            exact ⟨c2, c4, c3, Or.inr ⟨victim, log, rfl, c5⟩⟩
                          · intro hc
                            rw [him2] at hc
                            cases hc
                          · intro _ _
                            have etop : ((vn.topLevel : Int) + 1).toNat = vn.topLevel + 1 := by
                              omega
                            refine ⟨victim, vn, _,
                              [LockEv.victim victim, LockEv.lock victim] ++ log, rfl, rfl, hvn,
                              rfl, ?_⟩
                            rw [c6 rfl, etop]
                        · rename_i h4 log hatt
                          obtain ⟨c1, c2, c3, c4, c5, -⟩ :=
                            v1_release_block _ _ p1 p2 p3 p4' p5 p6 hatt
                          split at hr
                          · cases hr
                          · rename_i r2 s2 logs2 hrec
                            obtain ⟨k1, k2, k3, -⟩ := ih _ _ _ _ _ _ hrec
                            obtain ⟨-, k3b⟩ := k3 rfl
                            have k4 : LocksKept s.nodes s2.nodes := v1_locksKept_trans c1 k1
                            simp only [Option.some.injEq, Prod.mk.injEq] at hr
                            obtain ⟨hr1, hr2, hr3⟩ := hr
                            have eb : LockEv.victim victim :: (log0 ++ log) =
                                [LockEv.victim victim, LockEv.lock victim] ++ log := by
                              rw [hlog0]; rfl
                            rw [← hr1, ← hr2, ← hr3, eb]
                            refine ⟨k4, ?_, ?_, ?_⟩
                            · intro b hb
                              rcases List.mem_cons.mp hb with rfl | hb
                              · exact ⟨c2, c4, c3, Or.inr ⟨victim, log, rfl, c5⟩⟩
                              · exact k2 b hb
                            · intro hc
                              rw [him2] at hc
                              cases hc
                            · intro _ hret
                              obtain ⟨bl, hbl, hl⟩ := k3b hret
                              have etop : ((vn.topLevel : Int) + 1).toNat =
                                  vn.topLevel + 1 := by omega
                              refine ⟨victim, vn, _, bl, rfl, rfl, hvn,
                                v1_getLast?_cons_of_some _ hbl, ?_⟩
                              rw [hl, etop]
            · simp only [Option.some.injEq, Prod.mk.injEq] at hr
              obtain ⟨rfl, rfl, rfl⟩ := hr
              refine ⟨v1_locksKept_refl _, ?_, ?_, ?_⟩
              · intro b hb
                rw [List.mem_singleton] at hb
                rw [hb]
                exact v1_balanced_nil
              · intro _
                refine ⟨?_, ?_⟩
                · intro b hb e he
                  rw [List.mem_singleton] at hb
                  rw [hb] at he
                  cases he
                · intro hc
                  cases hc
              · intro _ hc
                cases hc

theorem v1_releaseLockT_log {s s1 : ConcurrentRangeLock_V1} {start end_ : Nat} {ret : Ret}
    {logs : List (List LockEv)} (hr : releaseLockT s start end_ = some (ret, s1, logs)) :
    LocksKept s.nodes s1.nodes ∧ (∀ b ∈ logs, Balanced b ∧ LevelOrdered b) ∧
      (ret = Ret.ret true →
        ∃ p vn b0 bl, logs.head? = some b0 ∧ b0.head? = some (LockEv.victim p) ∧
          deref s.nodes p = some vn ∧ logs.getLast? = some bl ∧
          bl.filterMap LockEv.level = List.range (vn.topLevel + 1)) := by
  obtain ⟨k1, k2, -, k4⟩ := v1_releaseLockLoopT_log _ _ _ _ _ _ _ _ _ hr
  exact ⟨k1, k2, k4 rfl⟩

theorem v1_tryLockT_of_tryLock {s s1 : ConcurrentRangeLock_V1} {start end_ : Nat}
    {rand : Nat → Nat} {r : Bool} (hr : tryLock s start end_ rand = some (r, s1)) :
    ∃ logs, tryLockT s start end_ rand = some (r, s1, logs) := by
  have he := v1_tryLockT_erase s start end_ rand
  rw [hr] at he
  cases hT : tryLockT s start end_ rand with
  | none => rw [hT] at he; cases he
  | some x =>
    obtain ⟨r2, s2, logs⟩ := x
    rw [hT] at he
    simp only [Option.map_some', Option.some.injEq, Prod.mk.injEq] at he
    rw [he.1, he.2]
    exact ⟨logs, rfl⟩

theorem v1_releaseLockT_of_releaseLock {s s1 : ConcurrentRangeLock_V1} {start end_ : Nat}
    {ret : Ret} (hr : releaseLock s start end_ = some (ret, s1)) :
    ∃ logs, releaseLockT s start end_ = some (ret, s1, logs) := by
  have he := v1_releaseLockT_erase s start end_
  rw [hr] at he
  cases hT : releaseLockT s start end_ with
  | none => rw [hT] at he; cases he
  | some x =>
    obtain ⟨r2, s2, logs⟩ := x
    rw [hT] at he
    simp only [Option.map_some', Option.some.injEq, Prod.mk.injEq] at he
    rw [he.1, he.2]
    exact ⟨logs, rfl⟩

theorem v1_lockOf_initHead (head tail : Nat) :
    ∀ (n level : Nat) (h h1 : List Node_V1), initHead head tail n level h = some h1 →
      ∀ a, lockOf h1 a = lockOf h a := by
  intro n
  induction n with
  | zero =>
    intro level h h1 hr a
    simp only [initHead, Option.some.injEq] at hr
    rw [hr]
  | succ n ih =>
    intro level h h1 hr a
    unfold initHead at hr
    split at hr
    · cases hr
    · rename_i h2 hs
      rw [ih _ _ _ hr a, v1_lockOf_setNext hs a]

theorem v1_free_of_locksKept {h h1 : List Node_V1} (hk : LocksKept h h1)
    (hf : ∀ a, lockOf h a ≠ some true) : ∀ a, lockOf h1 a ≠ some true := by
  intro a hc
  rcases hk a with e | ⟨-, f⟩
  · exact hf a (e ▸ hc)
  · rw [f] at hc
    cases hc

theorem v1_free_new (maxLevel : Nat) :
    ∀ a, lockOf (ConcurrentRangeLock_V1.new maxLevel).nodes a ≠ some true := by
  have h0 : ∀ a, lockOf ([] : List Node_V1) a ≠ some true := by
    intro a hc
    unfold lockOf deref at hc
    split at hc <;> simp at hc
  have h1 := v1_free_of_locksKept (v1_locksKept_createNode [] 0 0 maxLevel) h0
  have h2 := v1_free_of_locksKept (v1_locksKept_createNode
    (createNode_V1 [] 0 0 maxLevel).1 UINT64_MAX UINT64_MAX maxLevel) h1
  show ∀ a, lockOf ((initHead (createNode_V1 [] 0 0 maxLevel).2
    (createNode_V1 (createNode_V1 [] 0 0 maxLevel).1 UINT64_MAX UINT64_MAX maxLevel).2
    (maxLevel + 1) 0
    (createNode_V1 (createNode_V1 [] 0 0 maxLevel).1 UINT64_MAX UINT64_MAX maxLevel).1).getD
    (createNode_V1 (createNode_V1 [] 0 0 maxLevel).1 UINT64_MAX UINT64_MAX maxLevel).1) a ≠
      some true
  cases hi : initHead (createNode_V1 [] 0 0 maxLevel).2
    (createNode_V1 (createNode_V1 [] 0 0 maxLevel).1 UINT64_MAX UINT64_MAX maxLevel).2
    (maxLevel + 1) 0
    (createNode_V1 (createNode_V1 [] 0 0 maxLevel).1 UINT64_MAX UINT64_MAX maxLevel).1 with
  | none => exact h2
  | some h3 =>
    intro a
    rw [Option.getD_some, v1_lockOf_initHead _ _ _ _ _ _ hi a]
    exact h2 a

theorem v1_Reachable_free {maxLevel : Nat} {s : ConcurrentRangeLock_V1}
    (hR : Reachable maxLevel s) : ∀ a, lockOf s.nodes a ≠ some true := by
  induction hR with
  | fresh => exact v1_free_new maxLevel
  | tryLock _ _ _ _ hr ih =>
    obtain ⟨logs, hT⟩ := v1_tryLockT_of_tryLock hr
    exact v1_free_of_locksKept (v1_tryLockT_log hT).1 ih
  | releaseLock _ _ _ _ hr ih =>
    obtain ⟨logs, hT⟩ := v1_releaseLockT_of_releaseLock hr
    exact v1_free_of_locksKept (v1_releaseLockT_log hT).1 ih

end V1

/-! ## Writing the same object twice -/

theorem store_store {α : Type} (h : List α) (p : Nat) (a b : α) :
    store (store h p a) p b = store h p b := by
  unfold store
  by_cases hp : p = 0 ∨ p % 2 = 1
  · simp only [hp, if_true]
  · simp only [hp, if_false, List.set_set]

namespace V2

/-! ## V2: the tag bit -/

theorem v2_parity (x : Nat) : ∃ q, q % 2 = 0 ∧ (x = q ∨ x = q + 1) := by
  rcases Nat.mod_two_eq_zero_or_one x with h | h
  · exact ⟨x, h, Or.inl rfl⟩
  · exact ⟨x - 1, by omega, Or.inr (by omega)⟩

theorem v2_isMarked_lor_one (x : Nat) : isMarked (x ||| 1) = true := by
  obtain ⟨q, hq, rfl | rfl⟩ := v2_parity x
  · rw [v2_lor_one_even hq]
    exact v2_isMarked_odd hq
  · rw [v2_lor_one_odd hq]
    exact v2_isMarked_odd hq

theorem v2_unmark_lor_one (x : Nat) : unmark (x ||| 1) = unmark x := by
  obtain ⟨q, hq, rfl | rfl⟩ := v2_parity x
  · rw [v2_lor_one_even hq, v2_unmark_odd hq, v2_unmark_even hq]
  · rw [v2_lor_one_odd hq]

theorem v2_lor_one_idem (x : Nat) : (x ||| 1) ||| 1 = x ||| 1 := by
  obtain ⟨q, hq, rfl | rfl⟩ := v2_parity x
  · rw [v2_lor_one_even hq, v2_lor_one_odd hq]
  · rw [v2_lor_one_odd hq, v2_lor_one_odd hq]

theorem v2_unmark_of_unmarked {x : Nat} (h : isMarked x = false) : unmark x = x := by
  obtain ⟨q, hq, rfl | rfl⟩ := v2_parity x
  · exact v2_unmark_even hq
  · rw [v2_isMarked_odd hq] at h
    cases h

/-! ## V2: what the traversal does to the chain -/

theorem v2_walkAbs_split (l : Item) :
    ∀ (C : List Item), ∃ C1 C2, C = C1 ++ C2 ∧
      (walkAbs l C).2 = C1.filter (fun a => !a.dead) ++
        (if (walkAbs l C).1 then l :: C2 else C2) ∧
      ((walkAbs l C).1 = false → ∃ a rest, C2 = a :: rest ∧ a.dead = false) := by
  intro C
  induction C with
  | nil => exact ⟨[], [], rfl, rfl, fun h => by simp [walkAbs] at h⟩
  | cons a rest ih =>
    obtain ⟨C1, C2, hC, hw, hf⟩ := ih
    by_cases hd : a.dead = true
    · refine ⟨a :: C1, C2, by rw [hC]; rfl, ?_, ?_⟩
      · rw [walkAbs, if_pos hd, hw, List.filter_cons]
        simp [hd]
      · rw [walkAbs, if_pos hd]
        exact hf
    · have hd1 : a.dead = false := by simpa using hd
      by_cases h1 : l.end_ ≤ a.start
      · refine ⟨[], a :: rest, rfl, ?_, ?_⟩
        · rw [walkAbs, if_neg hd, if_pos h1]
          rfl
        · rw [walkAbs, if_neg hd, if_pos h1]
          intro h
          cases h
      · by_cases h2 : a.end_ ≤ l.start
        · refine ⟨a :: C1, C2, by rw [hC]; rfl, ?_, ?_⟩
          · rw [walkAbs, if_neg hd, if_neg h1, if_pos h2, List.filter_cons]
            simp only [hd1, Bool.not_false, if_true, List.cons_append]
            rw [hw]
          · rw [walkAbs, if_neg hd, if_neg h1, if_pos h2]
            exact hf
        · refine ⟨[], a :: rest, rfl, ?_, ?_⟩
          · rw [walkAbs, if_neg hd, if_neg h1, if_neg h2]
            rfl
          · intro _
            exact ⟨a, rest, rfl, hd1⟩

/-- One round of the inner loop of `InsertNode` on a logically deleted node: the exchange
makes `prev` point past the node, and the loop goes on from the same `prev`. -/
theorem v2_help_step (lock fuel : Nat) {t : ListRL} {prev : Ref} {cur : Nat} {cn : LNode}
    (hl : load t prev = some cur) (hc : isMarked cur = false)
    (hn : deref t.nodes cur = some cn) (hm : isMarked cn.next = true) :
    ∃ t1, compareExchange t prev cur (unmark cn.next) = some (true, cur, t1) ∧
      load t1 prev = some (unmark cn.next) ∧
      insertInner lock (fuel + 1) t prev cur = insertInner lock fuel t1 prev (unmark cn.next) := by
  obtain ⟨t1, ht1⟩ := v2_storeRef_some hl (unmark cn.next)
  have hce := v2_compareExchange_hit hl ht1
  refine ⟨t1, hce, v2_load_storeRef_same ht1, ?_⟩
  rw [insertInner]
  simp only [hc, Bool.false_eq_true, if_false, ne_eq, deref_ne_zero hn, not_false_eq_true,
    if_true, hn, Option.map_some', hm, hce]

end V2

namespace V2

/-! ## V2: the chain before and after an acquire -/

theorem v2_InsertNode_of_acquire {s s1 : ListRL} {start end_ : Nat} {w : Bool}
    (hr : MutexRangeAcquire s start end_ =
      some (if w then some ⟨addrOf s.nodes.length⟩ else none, s1)) :
    InsertNode { s with nodes := (alloc s.nodes (⟨start, end_, 0⟩ : LNode)).1 }
      (addrOf s.nodes.length) = some (w, s1) := by
  unfold MutexRangeAcquire at hr
  simp only [alloc] at hr ⊢
  cases hi : InsertNode { s with nodes := s.nodes ++ [(⟨start, end_, 0⟩ : LNode)] }
      (addrOf s.nodes.length) with
  | none => simp [hi] at hr
  | some x =>
    obtain ⟨b, s2⟩ := x
    cases b <;> cases w <;> simp [hi] at hr ⊢ <;> exact hr

theorem v2_live_flag {h : List LNode} {C : List Item} {p : Nat} (hc : Chain h p C)
    {a : Item} (ha : a ∈ C) :
    decide ((deref h a.addr).map (fun n => isMarked n.next) = some false) = !a.dead := by
  obtain ⟨n, hn, hm⟩ := v2_Chain_mem_marked C p hc a ha
  rw [hn]
  simp only [Option.map_some', Option.some.injEq, hm]
  cases a.dead <;> simp

theorem v2_acquire_chain {s : ListRL} {H : List Nat} {C : List Item} (hI : Inv s H C)
    {start end_ : Nat} (hlt : start < end_) :
    ∃ r s1 A B, MutexRangeAcquire s start end_ = some (r, s1) ∧
      InsertNode { s with nodes := (alloc s.nodes (⟨start, end_, 0⟩ : LNode)).1 }
        (addrOf s.nodes.length) = some (r.isSome, s1) ∧
      chainFrom s.nodes s.nodes.length (unmark s.head) = A ++ B ∧
      chainFrom s1.nodes s1.nodes.length (unmark s1.head) =
        A.filter (fun p =>
          decide ((deref s.nodes p).map (fun n => isMarked n.next) = some false)) ++
          (match r with
            | some rl => rl.node :: B
            | none => B) ∧
      (∀ p ∈ A.filter (fun p =>
          decide ((deref s.nodes p).map (fun n => isMarked n.next) = some false)),
        (deref s1.nodes p).map (fun n => isMarked n.next) = some false) ∧
      (∀ p ∈ chainFrom s.nodes s.nodes.length (unmark s.head),
        (deref s.nodes p).map (fun n => isMarked n.next) = some false →
        p ∈ chainFrom s1.nodes s1.nodes.length (unmark s1.head) ∧
          (deref s1.nodes p).map (fun n => isMarked n.next) = some false) := by
  obtain ⟨s1, hr, hI1⟩ := v2_MutexRangeAcquire_spec hI hlt
  obtain ⟨C1, C2, hC, hw, -⟩ := v2_walkAbs_split ⟨addrOf s.nodes.length, start, end_, false⟩ C
  have hflag : ∀ a ∈ C,
      decide ((deref s.nodes a.addr).map (fun n => isMarked n.next) = some false) = !a.dead :=
    fun a ha => v2_live_flag hI.chain ha
  have hflag1 : ∀ a ∈ (walkAbs ⟨addrOf s.nodes.length, start, end_, false⟩ C).2,
      decide ((deref s1.nodes a.addr).map (fun n => isMarked n.next) = some false) = !a.dead :=
    fun a ha => v2_live_flag hI1.chain ha
  have hfil : (C1.map Item.addr).filter (fun p =>
        decide ((deref s.nodes p).map (fun n => isMarked n.next) = some false)) =
      (C1.filter (fun a => !a.dead)).map Item.addr := by
    rw [List.filter_map]
    congr 1
    apply List.filter_congr
    intro a ha
    exact hflag a (by rw [hC]; exact List.mem_append_left _ ha)
  have hkeep : ∀ a ∈ C, a.dead = false →
      a ∈ (walkAbs ⟨addrOf s.nodes.length, start, end_, false⟩ C).2 := by
    intro a ha hd
    rw [hw]
    rw [hC] at ha
    rcases List.mem_append.mp ha with h | h
    · exact List.mem_append_left _ (List.mem_filter.mpr ⟨h, by simp [hd]⟩)
    · apply List.mem_append_right
      split
      · exact List.mem_cons_of_mem _ h
      · exact h
  refine ⟨_, s1, C1.map Item.addr, C2.map Item.addr, hr, ?_, ?_, ?_, ?_, ?_⟩
  · have := v2_InsertNode_of_acquire hr
    rw [this]
    cases (walkAbs ⟨addrOf s.nodes.length, start, end_, false⟩ C).1 <;> rfl
  · rw [hI.v2_chainFrom_eq, hC, List.map_append]
  · rw [hI1.v2_chainFrom_eq, hw, hfil, List.map_append]
    cases (walkAbs ⟨addrOf s.nodes.length, start, end_, false⟩ C).1 <;> rfl
  · intro p hp
    rw [hfil] at hp
    obtain ⟨a, ha, rfl⟩ := List.mem_map.mp hp
    have ha' := List.mem_filter.mp ha
    have hd : a.dead = false := by simpa using ha'.2
    have hmem := hkeep a (by rw [hC]; exact List.mem_append_left _ ha'.1) hd
    have := hflag1 a hmem
    rw [hd] at this
    simpa using this
  · intro p hp hlive
    rw [hI.v2_chainFrom_eq] at hp
    obtain ⟨a, ha, rfl⟩ := List.mem_map.mp hp
    have hd : a.dead = false := by
      have := hflag a ha
      rw [hlive] at this
      simpa using this.symm
    have hmem := hkeep a ha hd
    refine ⟨?_, ?_⟩
    · rw [hI1.v2_chainFrom_eq]
      exact List.mem_map.mpr ⟨a, hmem, rfl⟩
    · have := hflag1 a hmem
      rw [hd] at this
      simpa using this

end V2

namespace V3

/-! ## V3: what the release of a held start does -/

theorem Inv.v3_starts_ne {s : SongRangeLock} {P R : List Entry} {v : Entry}
    (hI : Inv s (P ++ v :: R)) : ∀ e ∈ P ++ R, e.start ≠ v.start := by
  have hsorted := hI.sorted
  have e2 : headE :: (P ++ v :: R) ++ [tailE] = (headE :: P) ++ v :: (R ++ [tailE]) := by simp
  rw [e2, List.pairwise_append] at hsorted
  have hv := hI.dom v (by simp)
  intro e he hc
  rcases List.mem_append.mp he with h | h
  · have h1 := hsorted.2.2 e (List.mem_cons_of_mem _ h) v (List.mem_cons_self _ _)
    have h2 := hI.dom e (by simp [h])
    omega
  · have h1 := (List.pairwise_cons.mp hsorted.2.1).1 e (List.mem_append_left _ h)
    omega

theorem Inv.v3_level_chain {s : SongRangeLock} {L : List Entry} (hI : Inv s L) {k : Nat}
    (hk : k ≤ MAX_LEVEL) :
    List.Chain' (fun a b => getForward s.nodes a k = some b)
      (s.head_ :: levelNodes s k ++ [s.tail_]) := by
  have h := hI.links k hk
  have e : s.head_ :: levelNodes s k ++ [s.tail_] =
      (headE :: atLevel k L ++ [tailE]).map Entry.addr := by
    rw [hI.v3_levelNodes_eq hk, hI.head_eq, hI.tail_eq]
    simp
  rw [e, List.chain'_map]
  exact h

theorem v3_release_full {s : SongRangeLock} {P R : List Entry} {v : Entry}
    (hI : Inv s (P ++ v :: R)) :
    ∃ n s1, v.addr ∈ levelNodes s 0 ∧ deref s.nodes v.addr = some n ∧
      n.start = v.start ∧ n.end_ = v.end_ ∧ n.level = v.level ∧
      releaseLock s v.start = some s1 ∧
      (∀ k, k ≤ MAX_LEVEL →
        levelNodes s1 k = (levelNodes s k).filter (fun q => decide (q ≠ v.addr))) ∧
      (∀ k, k ≤ MAX_LEVEL → (v.addr ∈ levelNodes s k ↔ k ≤ v.level)) ∧
      (∀ k, k ≤ MAX_LEVEL → List.Chain' (fun a b => getForward s1.nodes a k = some b)
        (s1.head_ :: levelNodes s1 k ++ [s1.tail_])) ∧
      s1.head_ = s.head_ ∧ s1.tail_ = s.tail_ ∧
      (∀ iv ∈ held s, iv.1 = v.start → iv = (v.start, v.end_)) ∧
      held s1 = (held s).filter (fun iv => decide (iv ≠ (v.start, v.end_))) ∧
      size s1 + 1 = size s := by
  have hv : v ∈ P ++ v :: R := by simp
  obtain ⟨n, hn, hns, hne_, hnl, -⟩ := hI.v3_agree_mem hv
  obtain ⟨s1, hrel, hI1⟩ := v3_releaseLock_held hI
  have hmem : ∀ k, k ≤ MAX_LEVEL → (v.addr ∈ levelNodes s k ↔ k ≤ v.level) := by
    intro k hk
    rw [hI.v3_levelNodes_eq hk]
    constructor
    · intro h
      obtain ⟨e, he, hea⟩ := List.mem_map.mp h
      have he' := mem_atLevel.mp he
      have : e = v := entry_eq_of_addr_eq hI.nodup
        (List.mem_append_left _ (List.mem_cons_of_mem _ he'.1))
        (by simp) hea
      rw [← this]
      exact he'.2
    · intro h
      exact List.mem_map.mpr ⟨v, mem_atLevel.mpr ⟨hv, h⟩, rfl⟩
  have hne : ∀ e ∈ P ++ R, e.addr ≠ v.addr := by
    intro e he
    refine V0.v0_ne_victim hI.nodup e ?_
    simp only [List.cons_append, List.mem_cons, List.mem_append] at he ⊢
    tauto
  have hstarts := hI.v3_starts_ne
  refine ⟨n, s1, (hmem 0 (Nat.zero_le _)).mpr (Nat.zero_le _), hn, hns, hne_, hnl, hrel, ?_,
    hmem, fun k hk => hI1.v3_level_chain hk, ?_, ?_, ?_, ?_, ?_⟩
  · intro k hk
    rw [hI1.v3_levelNodes_eq hk, hI.v3_levelNodes_eq hk, filter_addr_remove k hne]
  · rw [hI1.head_eq, hI.head_eq]
  · rw [hI1.tail_eq, hI.tail_eq]
  · intro iv hiv hst
    rw [hI.v3_held_eq] at hiv
    obtain ⟨e, he, rfl⟩ := List.mem_map.mp hiv
    rcases List.mem_append.mp he with h | h
    · exact absurd hst (hstarts e (List.mem_append_left _ h))
    · rcases List.mem_cons.mp h with rfl | h
      · rfl
      · exact absurd hst (hstarts e (List.mem_append_right _ h))
  · rw [hI1.v3_held_eq, hI.v3_held_eq, filter_interval_remove]
    intro e he hc
    exact hstarts e he hc.1
  · unfold size
    rw [hI1.count, hI.count]
    simp only [List.length_append, List.length_cons]
    omega

end V3

namespace V0

/-! ## V0: the searches with their log agree with the plain searches -/

theorem v0_snipLoopT_erase (level pred : Nat) :
    ∀ (fuel : Nat) (h : List Node) (curr succ : Nat) (marked : Bool),
      (snipLoopT level pred fuel h curr succ marked).map Prod.fst =
        snipLoop level pred fuel h curr succ marked := by
  intro fuel
  induction fuel with
  | zero =>
    intro h curr succ marked
    unfold snipLoopT snipLoop
    cases marked <;> rfl
  | succ fuel ih =>
    intro h curr succ marked
    unfold snipLoopT snipLoop
    cases marked with
    | false => rfl
    | true =>
      simp only [if_true]
      cases casCell h pred level curr succ false false with
      | none => rfl
      | some x =>
        obtain ⟨snip, h1⟩ := x
        cases snip with
        | false => rfl
        | true =>
          simp only [Bool.not_true, Bool.false_eq_true, if_false]
          cases getCell h1 pred level with
          | none => rfl
          | some pc =>
            simp only
            cases getCell h1 pc.getReference level with
            | none => rfl
            | some cc =>
              simp only
              rw [← ih]
              cases snipLoopT level pred fuel h1 pc.getReference cc.get.1 cc.get.2 <;> rfl

theorem v0_walkLevelT_erase (enter advance : Node → Bool) (budget level : Nat) :
    ∀ (fuel : Nat) (h : List Node) (pred curr : Nat),
      (walkLevelT enter advance budget level fuel h pred curr).map Prod.fst =
        walkLevel enter advance budget level fuel h pred curr := by
  intro fuel
  induction fuel with
  | zero => intro h pred curr; rfl
  | succ fuel ih =>
    intro h pred curr
    unfold walkLevelT walkLevel
    cases deref h curr with
    | none => rfl
    | some cn =>
      simp only
      cases enter cn with
      | false => rfl
      | true =>
        simp only [if_true]
        cases cn.next[level]? with
        | none => rfl
        | some cc =>
          simp only
          rw [← v0_snipLoopT_erase]
          cases snipLoopT level pred budget h curr cc.get.1 cc.get.2 with
          | none => rfl
          | some x =>
            obtain ⟨⟨b, h1, curr1, succ1⟩, log1⟩ := x
            cases b with
            | false => rfl
            | true =>
              simp only [Option.map_some']
              cases deref h1 curr1 with
              | none => rfl
              | some cn1 =>
                simp only
                cases advance cn1 with
                | false => rfl
                | true =>
                  simp only [if_true]
                  rw [← ih]
                  cases walkLevelT enter advance budget level fuel h1 curr1 succ1 <;> rfl

theorem v0_findLevelsT_erase (enter advance : Node → Bool) (budget : Nat) :
    ∀ (n : Nat) (h : List Node) (pred curr : Nat) (preds succs : List Nat),
      (findLevelsT enter advance budget n h pred curr preds succs).map Prod.fst =
        findLevels enter advance budget n h pred curr preds succs := by
  intro n
  induction n with
  | zero => intro h pred curr preds succs; rfl
  | succ n ih =>
    intro h pred curr preds succs
    unfold findLevelsT findLevels
    cases getCell h pred n with
    | none => rfl
    | some pc =>
      simp only
      rw [← v0_walkLevelT_erase]
      cases walkLevelT enter advance budget n budget h pred pc.getReference with
      | none => rfl
      | some x =>
        obtain ⟨⟨b, h1, pred1, curr1⟩, log⟩ := x
        cases b with
        | false => rfl
        | true =>
          simp only [Option.map_some']
          rw [← ih]
          cases findLevelsT enter advance budget n h1 pred1 curr1 (preds.set n pred1)
            (succs.set n curr1) <;> rfl

theorem v0_findLoopT_erase (enter advance : Node → Bool) (budget maxLevel head : Nat) :
    ∀ (fuel : Nat) (h : List Node) (preds succs : List Nat),
      (findLoopT enter advance budget maxLevel head fuel h preds succs).map Prod.fst =
        findLoop enter advance budget maxLevel head fuel h preds succs := by
  intro fuel
  induction fuel with
  | zero => intro h preds succs; rfl
  | succ fuel ih =>
    intro h preds succs
    unfold findLoopT findLoop
    rw [← v0_findLevelsT_erase]
    cases findLevelsT enter advance budget (maxLevel + 1) h head 0 preds succs with
    | none => rfl
    | some x =>
      obtain ⟨⟨b, h1, pred, curr, preds1, succs1⟩, round⟩ := x
      cases b with
      | true => rfl
      | false =>
        simp only [Option.map_some']
        rw [← ih]
        cases findLoopT enter advance budget maxLevel head fuel h1 preds1 succs1 <;> rfl

theorem v0_findInsertT_erase (budget : Nat) (s : ConcurrentRangeLock) (start end_ : Nat)
    (preds succs : List Nat) :
    (findInsertT budget s start end_ preds succs).map Prod.fst =
      findInsert budget s start end_ preds succs := by
  unfold findInsertT findInsert
  rw [← v0_findLoopT_erase]
  cases findLoopT (fun c => decide (start > c.start)) (fun c => decide (start ≥ c.start))
      budget s.maxLevel s.head budget s.nodes preds succs with
  | none => rfl
  | some x =>
    obtain ⟨⟨h1, pred, curr, preds1, succs1⟩, rounds⟩ := x
    simp only [Option.map_some']
    cases deref h1 pred with
    | none => rfl
    | some pn =>
      cases deref h1 curr with
      | none => rfl
      | some cn => rfl

theorem v0_findExactT_erase (budget : Nat) (s : ConcurrentRangeLock) (start end_ : Nat)
    (preds succs : List Nat) :
    (findExactT budget s start end_ preds succs).map Prod.fst =
      findExact budget s start end_ preds succs := by
  unfold findExactT findExact
  rw [← v0_findLoopT_erase]
  cases findLoopT (fun c => decide (start ≥ c.start)) (fun c => decide (start ≥ c.end_))
      budget s.maxLevel s.head budget s.nodes preds succs with
  | none => rfl
  | some x =>
    obtain ⟨⟨h1, pred, curr, preds1, succs1⟩, rounds⟩ := x
    simp only [Option.map_some']
    cases deref h1 curr with
    | none => rfl
    | some cn => rfl

theorem v0_findDeleteT_erase (budget : Nat) (s : ConcurrentRangeLock) (start : Nat) :
    (findDeleteT budget s start).map Prod.fst = findDelete budget s start := by
  unfold findDeleteT findDelete
  rw [← v0_findLoopT_erase]
  cases findLoopT (fun c => decide (start ≥ c.start)) (fun c => decide (start ≥ c.end_))
      budget s.maxLevel s.head budget s.nodes (List.replicate (s.maxLevel + 1) 0)
      (List.replicate (s.maxLevel + 1) 0) with
  | none => rfl
  | some x =>
    obtain ⟨⟨h1, pred, curr, preds1, succs1⟩, rounds⟩ := x
    rfl

end V0

namespace V0

/-! ## V0: the log of a search on a list without marks -/

theorem v0_snipLoopT_unmarked (level pred fuel : Nat) (h : List Node) (curr succ : Nat) :
    snipLoopT level pred fuel h curr succ false = some ((true, h, curr, succ), []) := by
  cases fuel <;> simp [snipLoopT]

theorem v0_walkLevelT_advance {enter advance : Node → Bool} (hE : Ext enter)
    (hV : Ext advance) (h : List Node) (budget k : Nat) :
    ∀ (Y : List Entry) (p c : Entry) (f : Nat),
      List.Chain' (Link h k) (Y ++ [c]) →
      (∀ e ∈ Y, Agree h e ∧ enter (nodeOf e) = true ∧ advance (nodeOf e) = true) →
      Agree h c →
      walkLevelT enter advance budget k (Y.length + f) h p.addr ((Y ++ [c]).headD c).addr =
        (walkLevelT enter advance budget k f h (Y.getLastD p).addr c.addr).map
          (fun x => (x.1, (Y ++ [c]).tail.map Entry.addr ++ x.2)) := by
  intro Y
  induction Y with
  | nil =>
    intro p c f _ _ _
    simp only [List.length_nil, Nat.zero_add, List.nil_append, List.headD_cons,
      List.getLastD_nil, List.tail_cons, List.map_nil]
    cases walkLevelT enter advance budget k f h p.addr c.addr <;> rfl
  | cons y Y ih =>
    intro p c f hc hY hAc
    have hc' : List.Chain' (Link h k) (y :: (Y ++ [c])) := hc
    obtain ⟨hyA, hye, hya⟩ := hY y (List.mem_cons_self _ _)
    obtain ⟨n, hn, hns, hne, -, -⟩ := hyA
    have hnxA : Agree h ((Y ++ [c]).headD c) := by
      cases Y with
      | nil => exact hAc
      | cons z Z => exact (hY z (by simp)).1
    have hl : Link h k y ((Y ++ [c]).headD c) := by
      cases Y with
      | nil => exact (List.chain'_cons.mp hc').1
      | cons z Z => exact (List.chain'_cons.mp hc').1
    have hcell : n.next[k]? = some ⟨((Y ++ [c]).headD c).addr⟩ := by
      rw [← v0_getCell_of_deref hn]; exact hl
    have hev := v0_Agree_even hnxA
    have e1 : enter n = true := by rw [hE n y hns hne]; exact hye
    have e2 : advance n = true := by rw [hV n y hns hne]; exact hya
    have hih := ih y c f (List.chain'_cons'.mp hc').2 (fun e he => hY e (List.mem_cons_of_mem _ he))
      hAc
    have hlen : (y :: Y).length + f = (Y.length + f) + 1 := by simp; omega
    have htail : ((y :: Y) ++ [c]).tail.map Entry.addr =
        ((Y ++ [c]).headD c).addr :: (Y ++ [c]).tail.map Entry.addr := by
      cases Y with
      | nil => rfl
      | cons z Z => rfl
    rw [hlen, List.getLastD_cons, htail]
    show walkLevelT enter advance budget k (Y.length + f + 1) h p.addr y.addr = _
    rw [walkLevelT]
    simp only [hn, e1, if_true, hcell, v0_get_even hev, v0_snipLoopT_unmarked, e2,
      List.nil_append]
    rw [hih]
    cases walkLevelT enter advance budget k f h (Y.getLastD y).addr c.addr <;> rfl

theorem v0_walkLevelT_stop {enter advance : Node → Bool} (hE : Ext enter) (hV : Ext advance)
    {h : List Node} (budget : Nat) {k : Nat} {c : Entry} (hAc : Agree h c)
    (hU : Unmarked h k c)
    (hstop : ¬ (enter (nodeOf c) = true ∧ advance (nodeOf c) = true)) (p f : Nat) :
    walkLevelT enter advance budget k (f + 1) h p c.addr =
      some ((true, h, p, c.addr), []) := by
  obtain ⟨n, hn, hns, hne, -, -⟩ := hAc
  obtain ⟨q, hq, hqe⟩ := hU
  rw [v0_getCell_of_deref hn] at hq
  rw [walkLevelT]
  simp only [hn]
  by_cases he : enter n = true
  · have ha : advance n = false := by
      rw [hE n c hns hne] at he
      rw [hV n c hns hne]
      cases hx : advance (nodeOf c)
      · rfl
      · exact absurd ⟨he, hx⟩ hstop
    simp [he, hq, v0_get_even hqe, v0_snipLoopT_unmarked, hn, ha]
  · simp [he]

/-- The walk of one level on a list without marks: the values of `curr`, from the first
one read off `pred`, are the addresses of consecutive entries of the level. -/
theorem v0_walkLevelT_clean {enter advance : Node → Bool} (hE : Ext enter) (hV : Ext advance)
    {h : List Node} {maxLevel : Nat} {P R : List Entry} (hW : Wf h maxLevel (P ++ R))
    (hbefore : ∀ e ∈ P, enter (nodeOf e) = true ∧ advance (nodeOf e) = true)
    (hafter : ∀ e ∈ R ++ [tailE maxLevel],
      ¬ (enter (nodeOf e) = true ∧ advance (nodeOf e) = true))
    (budget : Nat) {k : Nat} (hk : k ≤ maxLevel) {pred : Entry}
    (hp : pred ∈ headE maxLevel :: atLevel k P) {fuel : Nat} (hf : P.length < fuel) :
    ∃ pc log W, getCell h pred.addr k = some pc ∧
      walkLevelT enter advance budget k fuel h pred.addr pc.getReference =
        some ((true, h, (predAt (headE maxLevel) P k).addr,
          (succAt (tailE maxLevel) R k).addr), log) ∧
      pc.getReference :: log = W.map Entry.addr ∧ W ≠ [] ∧
      W <:+: atLevel k (P ++ R) ++ [tailE maxLevel] ∧ ∀ e ∈ W.dropLast, e ∈ P := by
  have hc := hW.links k hk
  have hagree := hW.agree
  have hU := hW.v0_unmarked hk (Wf.v0_succ_mem P R k)
  obtain ⟨X, Y, Z, hxy, hlast, hY, hYl⟩ :=
    level_chain_split (headE maxLevel) (tailE maxLevel) P R k hp
  rw [hxy] at hc
  have hc2 : List.Chain' (Link h k) (pred :: Y ++ succAt (tailE maxLevel) R k :: Z) :=
    (List.chain'_append.mp hc).2.1
  have hc3 : List.Chain' (Link h k) (pred :: (Y ++ [succAt (tailE maxLevel) R k])) := by
    have e1 : pred :: Y ++ succAt (tailE maxLevel) R k :: Z =
        (pred :: (Y ++ [succAt (tailE maxLevel) R k])) ++ Z := by simp
    rw [e1] at hc2
    exact (List.chain'_append.mp hc2).1
  have hAc : Agree h (succAt (tailE maxLevel) R k) := by
    apply hagree
    have := succAt_mem_all (tailE maxLevel) R k
    simp only [List.mem_append, List.mem_cons, List.mem_singleton] at this ⊢
    tauto
  have hYA : ∀ e ∈ Y, Agree h e ∧ enter (nodeOf e) = true ∧ advance (nodeOf e) = true := by
    intro e he
    exact ⟨hagree e (by simp [hY e he]), hbefore e (hY e he)⟩
  have hnxA : Agree h ((Y ++ [succAt (tailE maxLevel) R k]).headD
      (succAt (tailE maxLevel) R k)) := by
    cases Y with
    | nil => exact hAc
    | cons z Z => exact (hYA z (by simp)).1
  have hl : Link h k pred ((Y ++ [succAt (tailE maxLevel) R k]).headD
      (succAt (tailE maxLevel) R k)) := by
    cases Y with
    | nil => exact (List.chain'_cons.mp hc3).1
    | cons z Z => exact (List.chain'_cons.mp hc3).1
  obtain ⟨f, rfl⟩ : ∃ f, fuel = Y.length + (f + 1) := ⟨fuel - Y.length - 1, by omega⟩
  have hwalk := v0_walkLevelT_advance hE hV h budget k Y pred _ (f + 1)
    (List.chain'_cons'.mp hc3).2 hYA hAc
  rw [hlast, v0_walkLevelT_stop hE hV budget hAc hU
    (hafter _ (succAt_mem_all (tailE maxLevel) R k)) _ f] at hwalk
  simp only [Option.map_some', List.append_nil] at hwalk
  refine ⟨_, (Y ++ [succAt (tailE maxLevel) R k]).tail.map Entry.addr,
    Y ++ [succAt (tailE maxLevel) R k], hl, ?_, ?_, by simp, ?_, ?_⟩
  · rw [v0_getReference_even (v0_Agree_even hnxA), hwalk]
  · rw [v0_getReference_even (v0_Agree_even hnxA)]
    cases Y with
    | nil => rfl
    | cons z Z => rfl
  · have hsplit : ∃ S, headE maxLevel :: S = X ++ [pred] ∧
        atLevel k (P ++ R) ++ [tailE maxLevel] =
          S ++ (Y ++ [succAt (tailE maxLevel) R k]) ++ Z := by
      cases X with
      | nil =>
        simp only [List.nil_append, List.cons_append, List.cons.injEq] at hxy
        refine ⟨[], by rw [hxy.1]; rfl, ?_⟩
        rw [hxy.2]
        simp
      | cons x X' =>
        simp only [List.cons_append, List.cons.injEq] at hxy
        refine ⟨X' ++ [pred], by rw [hxy.1]; rfl, ?_⟩
        rw [hxy.2]
        simp
    obtain ⟨S, -, hS⟩ := hsplit
    exact ⟨S, Z, hS.symm⟩
  · intro e he
    rw [List.dropLast_concat] at he
    exact hY e he

theorem v0_findLevelsT_clean {enter advance : Node → Bool} (hE : Ext enter) (hV : Ext advance)
    {h : List Node} {maxLevel : Nat} {P R : List Entry} (hW : Wf h maxLevel (P ++ R))
    (hbefore : ∀ e ∈ P, enter (nodeOf e) = true ∧ advance (nodeOf e) = true)
    (hafter : ∀ e ∈ R ++ [tailE maxLevel],
      ¬ (enter (nodeOf e) = true ∧ advance (nodeOf e) = true))
    {budget : Nat} (hf : P.length < budget) :
    ∀ (k : Nat) (pred : Entry) (curr : Nat) (preds succs : List Nat), k ≤ maxLevel →
      pred ∈ headE maxLevel :: atLevel k P →
      ∃ r round,
        findLevelsT enter advance budget (k + 1) h pred.addr curr preds succs =
          some ((true, r), round) ∧
        round.length = k + 1 ∧
        ∀ j, j ≤ k → ∃ W, round[k - j]? = some (W.map Entry.addr) ∧ W ≠ [] ∧
          W <:+: atLevel j (P ++ R) ++ [tailE maxLevel] ∧ ∀ e ∈ W.dropLast, e ∈ P := by
  intro k
  induction k with
  | zero =>
    intro pred curr preds succs hk hp
    obtain ⟨pc, log, W, hc1, hc2, hlog, hW1, hW2, hW3⟩ :=
      v0_walkLevelT_clean hE hV hW hbefore hafter budget hk hp hf
    refine ⟨(h, (predAt (headE maxLevel) P 0).addr, (succAt (tailE maxLevel) R 0).addr,
      preds.set 0 (predAt (headE maxLevel) P 0).addr,
      succs.set 0 (succAt (tailE maxLevel) R 0).addr), [pc.getReference :: log], ?_, rfl, ?_⟩
    · simp [findLevelsT, hc1, hc2]
    · intro j hj
      have hj0 : j = 0 := by omega
      subst hj0
      exact ⟨W, by rw [← hlog, Nat.sub_self, List.getElem?_cons_zero], hW1, hW2, hW3⟩
  | succ k ih =>
    intro pred curr preds succs hk hp
    obtain ⟨pc, log, W, hc1, hc2, hlog, hW1, hW2, hW3⟩ :=
      v0_walkLevelT_clean hE hV hW hbefore hafter budget hk hp hf
    have hmem := predAt_mem_lower (headE maxLevel) P (Nat.le_succ k)
    obtain ⟨r, round, hr, hlen, hrounds⟩ := ih (predAt (headE maxLevel) P (k + 1))
      (succAt (tailE maxLevel) R (k + 1)).addr
      (preds.set (k + 1) (predAt (headE maxLevel) P (k + 1)).addr)
      (succs.set (k + 1) (succAt (tailE maxLevel) R (k + 1)).addr) (by omega) hmem
    refine ⟨r, (pc.getReference :: log) :: round, ?_, by simp [hlen], ?_⟩
    · rw [findLevelsT]
      simp only [hc1, hc2, hr]
    · intro j hj
      by_cases hjk : j = k + 1
      · subst hjk
        refine ⟨W, ?_, hW1, hW2, hW3⟩
        rw [Nat.sub_self, ← hlog, List.getElem?_cons_zero]
      · obtain ⟨W', h1, h2, h3, h4⟩ := hrounds j (by omega)
        refine ⟨W', ?_, h2, h3, h4⟩
        have e : k + 1 - j = (k - j) + 1 := by omega
        rw [e, List.getElem?_cons_succ]
        exact h1

theorem v0_findLoopT_clean (enter advance : Node → Bool) (hE : Ext enter) (hV : Ext advance)
    {h : List Node} {maxLevel : Nat} {P R : List Entry} (hW : Wf h maxLevel (P ++ R))
    (hbefore : ∀ e ∈ P, enter (nodeOf e) = true ∧ advance (nodeOf e) = true)
    (hafter : ∀ e ∈ R ++ [tailE maxLevel],
      ¬ (enter (nodeOf e) = true ∧ advance (nodeOf e) = true))
    {budget : Nat} (hf : P.length < budget) (preds succs : List Nat) :
    ∃ r round,
      findLoopT enter advance budget maxLevel (headE maxLevel).addr budget h preds succs =
        some (r, [round]) ∧
      round.length = maxLevel + 1 ∧
      ∀ j, j ≤ maxLevel → ∃ W, round[maxLevel - j]? = some (W.map Entry.addr) ∧ W ≠ [] ∧
        W <:+: atLevel j (P ++ R) ++ [tailE maxLevel] ∧ ∀ e ∈ W.dropLast, e ∈ P := by
  obtain ⟨r, round, hr, hlen, hrounds⟩ := v0_findLevelsT_clean hE hV hW hbefore hafter hf
    maxLevel (headE maxLevel) 0 preds succs (Nat.le_refl _) (List.mem_cons_self _ _)
  obtain ⟨h1, pred, curr, preds1, succs1⟩ := r
  refine ⟨(h1, pred, curr, preds1, succs1), round, ?_, hlen, hrounds⟩
  obtain ⟨b, hb⟩ : ∃ b, budget = b + 1 := ⟨budget - 1, by omega⟩
  conv_lhs => arg 6; rw [hb]
  rw [findLoopT, hr]

end V0

theorem option_map_fst_some {α β : Type} {o : Option (α × β)} {x : α}
    (h : o.map Prod.fst = some x) : ∃ y, o = some (x, y) := by
  cases o with
  | none => cases h
  | some v =>
    obtain ⟨a, b⟩ := v
    simp only [Option.map_some', Option.some.injEq] at h
    exact ⟨b, by rw [h]⟩

namespace V0

/-! ## V0: the three searches on a sequentially reachable list -/

theorem v0_findInsertT_rounds {budget : Nat} {s : ConcurrentRangeLock} {start end_ : Nat}
    {preds succs : List Nat} {r : Bool × ConcurrentRangeLock × List Nat × List Nat}
    {rounds : List (List (List Nat))}
    (h : findInsertT budget s start end_ preds succs = some (r, rounds)) :
    ∃ r0, findLoopT (fun c => decide (start > c.start)) (fun c => decide (start ≥ c.start))
      budget s.maxLevel s.head budget s.nodes preds succs = some (r0, rounds) := by
  unfold findInsertT at h
  cases hl : findLoopT (fun c => decide (start > c.start)) (fun c => decide (start ≥ c.start))
      budget s.maxLevel s.head budget s.nodes preds succs with
  | none => rw [hl] at h; cases h
  | some x =>
    obtain ⟨⟨h1, pred, curr, preds1, succs1⟩, rounds1⟩ := x
    rw [hl] at h
    simp only at h
    cases hp : deref h1 pred with
    | none => rw [hp] at h; cases h
    | some pn =>
      cases hc : deref h1 curr with
      | none => rw [hp, hc] at h; cases h
      | some cn =>
        rw [hp, hc] at h
        simp only [Option.some.injEq, Prod.mk.injEq] at h
        exact ⟨_, by rw [h.2]⟩

theorem v0_findExactT_rounds {budget : Nat} {s : ConcurrentRangeLock} {start end_ : Nat}
    {preds succs : List Nat} {r : Bool × ConcurrentRangeLock × List Nat × List Nat}
    {rounds : List (List (List Nat))}
    (h : findExactT budget s start end_ preds succs = some (r, rounds)) :
    ∃ r0, findLoopT (fun c => decide (start ≥ c.start)) (fun c => decide (start ≥ c.end_))
      budget s.maxLevel s.head budget s.nodes preds succs = some (r0, rounds) := by
  unfold findExactT at h
  cases hl : findLoopT (fun c => decide (start ≥ c.start)) (fun c => decide (start ≥ c.end_))
      budget s.maxLevel s.head budget s.nodes preds succs with
  | none => rw [hl] at h; cases h
  | some x =>
    obtain ⟨⟨h1, pred, curr, preds1, succs1⟩, rounds1⟩ := x
    rw [hl] at h
    simp only at h
    cases hc : deref h1 curr with
    | none => rw [hc] at h; cases h
    | some cn =>
      rw [hc] at h
      simp only [Option.some.injEq, Prod.mk.injEq] at h
      exact ⟨_, by rw [h.2]⟩

theorem v0_findDeleteT_rounds {budget : Nat} {s : ConcurrentRangeLock} {start : Nat}
    {r : ConcurrentRangeLock} {rounds : List (List (List Nat))}
    (h : findDeleteT budget s start = some (r, rounds)) :
    ∃ r0, findLoopT (fun c => decide (start ≥ c.start)) (fun c => decide (start ≥ c.end_))
      budget s.maxLevel s.head budget s.nodes (List.replicate (s.maxLevel + 1) 0)
      (List.replicate (s.maxLevel + 1) 0) = some (r0, rounds) := by
  unfold findDeleteT at h
  cases hl : findLoopT (fun c => decide (start ≥ c.start)) (fun c => decide (start ≥ c.end_))
      budget s.maxLevel s.head budget s.nodes (List.replicate (s.maxLevel + 1) 0)
      (List.replicate (s.maxLevel + 1) 0) with
  | none => rw [hl] at h; cases h
  | some x =>
    obtain ⟨⟨h1, pred, curr, preds1, succs1⟩, rounds1⟩ := x
    rw [hl] at h
    simp only [Option.some.injEq, Prod.mk.injEq] at h
    exact ⟨_, by rw [h.2]⟩

theorem Inv.v0_cleanLog {s : ConcurrentRangeLock} {P R : List Entry} (hI : Inv s (P ++ R))
    {round : List (List Nat)} (hlen : round.length = s.maxLevel + 1)
    (hrounds : ∀ j, j ≤ s.maxLevel → ∃ W, round[s.maxLevel - j]? = some (W.map Entry.addr) ∧
      W ≠ [] ∧ W <:+: atLevel j (P ++ R) ++ [tailE s.maxLevel] ∧ ∀ e ∈ W.dropLast, e ∈ P) :
    CleanLog s [round] := by
  refine ⟨round, rfl, hlen, ?_⟩
  intro k hk
  obtain ⟨W, h1, h2, h3, h4⟩ := hrounds k hk
  have hchain : levelNodes s k ++ [s.tail] =
      (atLevel k (P ++ R) ++ [tailE s.maxLevel]).map Entry.addr := by
    rw [hI.v0_levelNodes_eq hk, hI.tail_eq]
    simp
  have hsub : (atLevel k (P ++ R) ++ [tailE s.maxLevel]).Sublist
      (headE s.maxLevel :: (P ++ R) ++ [tailE s.maxLevel]) := by
    apply List.Sublist.cons
    exact List.Sublist.append (atLevel_sublist k _) (List.Sublist.refl _)
  have hnd : ((atLevel k (P ++ R) ++ [tailE s.maxLevel]).map Entry.addr).Nodup :=
    List.Nodup.sublist (hsub.map _) hI.wf.nodup
  refine ⟨W.map Entry.addr, h1, ?_, ?_, ?_, ?_, ?_⟩
  · intro hc
    exact h2 (List.map_eq_nil_iff.mp hc)
  · rw [hchain]
    exact List.IsInfix.map _ h3
  · exact List.Nodup.sublist (List.IsInfix.sublist (List.IsInfix.map _ h3)) hnd
  · intro p hp
    obtain ⟨e, he, rfl⟩ := List.mem_map.mp hp
    obtain ⟨n, hn, -⟩ := hI.wf.agree e (hsub.subset (h3.subset he))
    exact ⟨deref_ne_zero hn, by rw [hn]; rfl⟩
  · intro p hp
    rw [← List.map_dropLast] at hp
    obtain ⟨e, he, rfl⟩ := List.mem_map.mp hp
    exact (hI.v0_addr_ne (List.mem_append_left _ (h4 e he))).1

theorem Inv.v0_findInsertT_clean {s : ConcurrentRangeLock} {L : List Entry} (hI : Inv s L)
    {start : Nat} (hmax : start ≤ UINT64_MAX - 1) (end_ : Nat) (preds succs : List Nat) :
    ∃ b preds1 succs1 rounds,
      findInsertT s.nodes.length s start end_ preds succs =
        some ((b, s, preds1, succs1), rounds) ∧
      findInsert s.nodes.length s start end_ preds succs = some (b, s, preds1, succs1) ∧
      CleanLog s rounds := by
  have hsp := @Inv.v0_split_start s L hI start (by omega)
  have hL : L = L.takeWhile (fun e => decide (e.start < start)) ++
      L.dropWhile (fun e => decide (e.start < start)) := (List.takeWhile_append_dropWhile _ _).symm
  have hI' := hI
  rw [hL] at hI'
  have hf : (L.takeWhile (fun e => decide (e.start < start))).length < s.nodes.length := by
    have := hI.wf.v0_heap_length
    have := (List.takeWhile_sublist (fun e => decide (e.start < start)) (l := L)).length_le
    omega
  obtain ⟨preds1, succs1, hr, -⟩ := v0_findInsert_spec hI'.wf hI.head_eq hsp.1 hsp.2 end_ hf
    preds succs
  obtain ⟨rounds, hT⟩ := option_map_fst_some
    ((v0_findInsertT_erase s.nodes.length s start end_ preds succs).trans hr)
  obtain ⟨r0, hloop⟩ := v0_findInsertT_rounds hT
  obtain ⟨r1, round, hloop1, hlen, hrounds⟩ := v0_findLoopT_clean
    (fun c => decide (start > c.start)) (fun c => decide (start ≥ c.start))
    (by intro n e h1 _; simp [nodeOf, h1]) (by intro n e h1 _; simp [nodeOf, h1]) hI'.wf
    (by intro e he; have := hsp.1 e he; simp [nodeOf]; omega)
    (by intro e he; have := hsp.2 e he; simp [nodeOf]; omega) hf preds succs
  rw [← hI.head_eq, hloop] at hloop1
  simp only [Option.some.injEq, Prod.mk.injEq] at hloop1
  refine ⟨_, preds1, succs1, rounds, hT, hr, ?_⟩
  rw [hloop1.2]
  exact hI'.v0_cleanLog hlen hrounds

theorem Inv.v0_findExactT_clean {s : ConcurrentRangeLock} {L : List Entry} (hI : Inv s L)
    {start : Nat} (hmax : start ≤ UINT64_MAX - 1) (end_ : Nat) (preds succs : List Nat) :
    ∃ b preds1 succs1 rounds,
      findExactT s.nodes.length s start end_ preds succs =
        some ((b, s, preds1, succs1), rounds) ∧
      findExact s.nodes.length s start end_ preds succs = some (b, s, preds1, succs1) ∧
      CleanLog s rounds := by
  have hM : start < UINT64_MAX := by
    have : 0 < UINT64_MAX := by decide
    omega
  have hsp := hI.v0_split_end hM
  have hL : L = L.takeWhile (fun e => decide (e.end_ ≤ start)) ++
      L.dropWhile (fun e => decide (e.end_ ≤ start)) := (List.takeWhile_append_dropWhile _ _).symm
  have hI' := hI
  rw [hL] at hI'
  have hf : (L.takeWhile (fun e => decide (e.end_ ≤ start))).length < s.nodes.length := by
    have := hI.wf.v0_heap_length
    have := (List.takeWhile_sublist (fun e => decide (e.end_ ≤ start)) (l := L)).length_le
    omega
  obtain ⟨preds1, succs1, hr, -⟩ := v0_findExact_spec hI'.wf hI.head_eq hsp.1 hsp.2 end_ hf
    preds succs
  obtain ⟨rounds, hT⟩ := option_map_fst_some
    ((v0_findExactT_erase s.nodes.length s start end_ preds succs).trans hr)
  obtain ⟨r0, hloop⟩ := v0_findExactT_rounds hT
  obtain ⟨r1, round, hloop1, hlen, hrounds⟩ := v0_findLoopT_clean
    (fun c => decide (start ≥ c.start)) (fun c => decide (start ≥ c.end_))
    (by intro n e h1 _; simp [nodeOf, h1]) (by intro n e _ h2; simp [nodeOf, h2]) hI'.wf
    (by intro e he; have := hsp.1 e he; simp [nodeOf]; omega)
    (by intro e he; have := hsp.2 e he; simp [nodeOf]; omega) hf preds succs
  rw [← hI.head_eq, hloop] at hloop1
  simp only [Option.some.injEq, Prod.mk.injEq] at hloop1
  refine ⟨_, preds1, succs1, rounds, hT, hr, ?_⟩
  rw [hloop1.2]
  exact hI'.v0_cleanLog hlen hrounds

theorem Inv.v0_findDeleteT_clean {s : ConcurrentRangeLock} {L : List Entry} (hI : Inv s L)
    {start : Nat} (hmax : start ≤ UINT64_MAX - 1) :
    ∃ rounds, findDeleteT s.nodes.length s start = some (s, rounds) ∧
      findDelete s.nodes.length s start = some s ∧ CleanLog s rounds := by
  have hM : start < UINT64_MAX := by
    have : 0 < UINT64_MAX := by decide
    omega
  have hsp := hI.v0_split_end hM
  have hL : L = L.takeWhile (fun e => decide (e.end_ ≤ start)) ++
      L.dropWhile (fun e => decide (e.end_ ≤ start)) := (List.takeWhile_append_dropWhile _ _).symm
  have hI' := hI
  rw [hL] at hI'
  have hf : (L.takeWhile (fun e => decide (e.end_ ≤ start))).length < s.nodes.length := by
    have := hI.wf.v0_heap_length
    have := (List.takeWhile_sublist (fun e => decide (e.end_ ≤ start)) (l := L)).length_le
    omega
  obtain ⟨preds1, succs1, hplain, -⟩ := v0_findLoop_clean
    (fun c => decide (start ≥ c.start)) (fun c => decide (start ≥ c.end_))
    (by intro n e h1 _; simp [nodeOf, h1]) (by intro n e _ h2; simp [nodeOf, h2]) hI'.wf
    (by intro e he; have := hsp.1 e he; simp [nodeOf]; omega)
    (by intro e he; have := hsp.2 e he; simp [nodeOf]; omega) hf
    (List.replicate (s.maxLevel + 1) 0) (List.replicate (s.maxLevel + 1) 0)
  have hr : findDelete s.nodes.length s start = some s := by
    rw [← hI.head_eq] at hplain
    unfold findDelete
    rw [hplain]
  obtain ⟨rounds, hT⟩ := option_map_fst_some
    ((v0_findDeleteT_erase s.nodes.length s start).trans hr)
  obtain ⟨r0, hloop⟩ := v0_findDeleteT_rounds hT
  obtain ⟨r1, round, hloop1, hlen, hrounds⟩ := v0_findLoopT_clean
    (fun c => decide (start ≥ c.start)) (fun c => decide (start ≥ c.end_))
    (by intro n e h1 _; simp [nodeOf, h1]) (by intro n e _ h2; simp [nodeOf, h2]) hI'.wf
    (by intro e he; have := hsp.1 e he; simp [nodeOf]; omega)
    (by intro e he; have := hsp.2 e he; simp [nodeOf]; omega) hf
    (List.replicate (s.maxLevel + 1) 0) (List.replicate (s.maxLevel + 1) 0)
  rw [← hI.head_eq, hloop] at hloop1
  simp only [Option.some.injEq, Prod.mk.injEq] at hloop1
  refine ⟨rounds, hT, hr, ?_⟩
  rw [hloop1.2]
  exact hI'.v0_cleanLog hlen hrounds

end V0

namespace SyncV0

/-! ## The two copies of V0: the loops over the heap -/

theorem sync_randomLevelLoop_eq (rand : Nat → Nat) (maxLevel : Nat) :
    ∀ (fuel level : Nat),
      randomLevelLoop rand maxLevel fuel level =
        RangeLock.randomLevelLoop rand maxLevel fuel level := by
  intro fuel
  induction fuel with
  | zero => intro level; rfl
  | succ fuel ih =>
    intro level
    rw [randomLevelLoop, RangeLock.randomLevelLoop, ih]

theorem sync_randomLevel_eq (rand : Nat → Nat) (maxLevel : Nat) :
    randomLevel rand maxLevel = RangeLock.randomLevel rand maxLevel :=
  sync_randomLevelLoop_eq rand maxLevel _ _

theorem sync_snipLoop_eq (level pred : Nat) :
    ∀ (fuel : Nat) (h : List V0.Node) (curr succ : Nat) (marked : Bool),
      snipLoop level pred fuel h curr succ marked =
        V0.snipLoop level pred fuel h curr succ marked := by
  intro fuel
  induction fuel with
  | zero => intro h curr succ marked; rfl
  | succ fuel ih =>
    intro h curr succ marked
    rw [snipLoop, V0.snipLoop]
    simp only [ih]

theorem sync_walkLevel_eq (enter advance : V0.Node → Bool) (budget level : Nat) :
    ∀ (fuel : Nat) (h : List V0.Node) (pred curr : Nat),
      walkLevel enter advance budget level fuel h pred curr =
        V0.walkLevel enter advance budget level fuel h pred curr := by
  intro fuel
  induction fuel with
  | zero => intro h pred curr; rfl
  | succ fuel ih =>
    intro h pred curr
    rw [walkLevel, V0.walkLevel]
    simp only [ih, sync_snipLoop_eq]

theorem sync_findLevels_eq (enter advance : V0.Node → Bool) (budget : Nat) :
    ∀ (n : Nat) (h : List V0.Node) (pred curr : Nat) (preds succs : List Nat),
      findLevels enter advance budget n h pred curr preds succs =
        V0.findLevels enter advance budget n h pred curr preds succs := by
  intro n
  induction n with
  | zero => intro h pred curr preds succs; rfl
  | succ n ih =>
    intro h pred curr preds succs
    rw [findLevels, V0.findLevels]
    simp only [ih, sync_walkLevel_eq]

theorem sync_findLoop_eq (enter advance : V0.Node → Bool) (budget maxLevel head : Nat) :
    ∀ (fuel : Nat) (h : List V0.Node) (preds succs : List Nat),
      findLoop enter advance budget maxLevel head fuel h preds succs =
        V0.findLoop enter advance budget maxLevel head fuel h preds succs := by
  intro fuel
  induction fuel with
  | zero => intro h preds succs; rfl
  | succ fuel ih =>
    intro h preds succs
    rw [findLoop, V0.findLoop]
    simp only [ih, sync_findLevels_eq]

theorem sync_storeSuccs_eq (succs : List Nat) (newNode : Nat) :
    ∀ (n level : Nat) (h : List V0.Node),
      storeSuccs succs newNode n level h = V0.storeSuccs succs newNode n level h := by
  intro n
  induction n with
  | zero => intro level h; rfl
  | succ n ih =>
    intro level h
    rw [storeSuccs, V0.storeSuccs]
    simp only [ih]

theorem sync_markLevel_eq (victim level : Nat) :
    ∀ (fuel : Nat) (h : List V0.Node) (succ : Nat) (marked : Bool),
      markLevel victim level fuel h succ marked =
        V0.markLevel victim level fuel h succ marked := by
  intro fuel
  induction fuel with
  | zero => intro h succ marked; rfl
  | succ fuel ih =>
    intro h succ marked
    rw [markLevel, V0.markLevel]
    simp only [ih]

theorem sync_markUpper_eq (budget victim : Nat) :
    ∀ (n : Nat) (h : List V0.Node),
      markUpper budget victim n h = V0.markUpper budget victim n h := by
  intro n
  induction n with
  | zero => intro h; rfl
  | succ n ih =>
    intro h
    rw [markUpper, V0.markUpper]
    simp only [ih, sync_markLevel_eq]

end SyncV0

namespace SyncV0

/-! ## The two copies of V0: the operations on the lock -/

theorem sync_forget_nodes (s : V0.ConcurrentRangeLock) : (forget s).nodes = s.nodes := rfl

theorem sync_forget_maxLevel (s : V0.ConcurrentRangeLock) :
    (forget s).maxLevel = s.maxLevel := rfl

theorem sync_forget_head (s : V0.ConcurrentRangeLock) : (forget s).head = s.head := rfl

theorem sync_forget_tail (s : V0.ConcurrentRangeLock) : (forget s).tail = s.tail := rfl

theorem sync_forget_with_nodes (s : V0.ConcurrentRangeLock) (h : List V0.Node) :
    ({ forget s with nodes := h } : ConcurrentRangeLock) = forget { s with nodes := h } := rfl

theorem sync_forget_with_count (t : V0.ConcurrentRangeLock) (c : Nat) :
    forget { t with elementsCount := c } = forget t := rfl

theorem sync_forget_new (maxLevel : Nat) :
    forget (V0.ConcurrentRangeLock.new maxLevel) = ConcurrentRangeLock.new maxLevel := rfl

theorem sync_levelNodes (s : V0.ConcurrentRangeLock) (k : Nat) :
    levelNodes (forget s) k = V0.levelNodes s k := rfl

theorem sync_findInsert (budget : Nat) (s : V0.ConcurrentRangeLock) (start end_ : Nat)
    (preds succs : List Nat) :
    findInsert budget (forget s) start end_ preds succs =
      (V0.findInsert budget s start end_ preds succs).map
        (fun r => (r.1, forget r.2.1, r.2.2.1, r.2.2.2)) := by
  unfold findInsert V0.findInsert
  rw [sync_findLoop_eq]
  simp only [sync_forget_nodes, sync_forget_maxLevel, sync_forget_head]
  cases V0.findLoop (fun c => decide (start > c.start)) (fun c => decide (start ≥ c.start))
      budget s.maxLevel s.head budget s.nodes preds succs with
  | none => rfl
  | some x =>
    obtain ⟨h1, pred, curr, preds1, succs1⟩ := x
    simp only
    cases deref h1 pred with
    | none => rfl
    | some pn =>
      cases deref h1 curr with
      | none => rfl
      | some cn => rfl

theorem sync_findExact (budget : Nat) (s : V0.ConcurrentRangeLock) (start end_ : Nat)
    (preds succs : List Nat) :
    findExact budget (forget s) start end_ preds succs =
      (V0.findExact budget s start end_ preds succs).map
        (fun r => (r.1, forget r.2.1, r.2.2.1, r.2.2.2)) := by
  unfold findExact V0.findExact
  rw [sync_findLoop_eq]
  simp only [sync_forget_nodes, sync_forget_maxLevel, sync_forget_head]
  cases V0.findLoop (fun c => decide (start ≥ c.start)) (fun c => decide (start ≥ c.end_))
      budget s.maxLevel s.head budget s.nodes preds succs with
  | none => rfl
  | some x =>
    obtain ⟨h1, pred, curr, preds1, succs1⟩ := x
    simp only
    cases deref h1 curr with
    | none => rfl
    | some cn => rfl

theorem sync_findDelete (budget : Nat) (s : V0.ConcurrentRangeLock) (start : Nat) :
    findDelete budget (forget s) start = (V0.findDelete budget s start).map forget := by
  unfold findDelete V0.findDelete
  rw [sync_findLoop_eq]
  simp only [sync_forget_nodes, sync_forget_maxLevel, sync_forget_head]
  cases V0.findLoop (fun c => decide (start ≥ c.start)) (fun c => decide (start ≥ c.end_))
      budget s.maxLevel s.head budget s.nodes (List.replicate (s.maxLevel + 1) 0)
      (List.replicate (s.maxLevel + 1) 0) with
  | none => rfl
  | some x =>
    obtain ⟨h1, pred, curr, preds1, succs1⟩ := x
    rfl

theorem sync_linkLevel (budget start end_ newNode level : Nat) :
    ∀ (fuel : Nat) (s : V0.ConcurrentRangeLock) (preds succs : List Nat),
      linkLevel budget start end_ newNode level fuel (forget s) preds succs =
        (V0.linkLevel budget start end_ newNode level fuel s preds succs).map
          (fun r => (forget r.1, r.2.1, r.2.2)) := by
  intro fuel
  induction fuel with
  | zero => intro s preds succs; rfl
  | succ fuel ih =>
    intro s preds succs
    rw [linkLevel, V0.linkLevel]
    cases preds[level]? with
    | none => rfl
    | some pred =>
      cases succs[level]? with
      | none => rfl
      | some succ =>
        simp only [sync_forget_nodes]
        cases V0.casCell s.nodes pred level succ newNode false false with
        | none => rfl
        | some x =>
          obtain ⟨b, h1⟩ := x
          cases b with
          | true => rfl
          | false =>
            simp only [sync_forget_with_nodes, sync_findInsert]
            cases V0.findInsert budget { s with nodes := h1 } start end_ preds succs with
            | none => rfl
            | some y =>
              obtain ⟨b2, s2, preds2, succs2⟩ := y
              simp only [Option.map_some']
              exact ih s2 preds2 succs2

theorem sync_linkUpper (budget start end_ newNode : Nat) :
    ∀ (n level : Nat) (s : V0.ConcurrentRangeLock) (preds succs : List Nat),
      linkUpper budget start end_ newNode n level (forget s) preds succs =
        (V0.linkUpper budget start end_ newNode n level s preds succs).map forget := by
  intro n
  induction n with
  | zero => intro level s preds succs; rfl
  | succ n ih =>
    intro level s preds succs
    rw [linkUpper, V0.linkUpper, sync_linkLevel]
    cases V0.linkLevel budget start end_ newNode level budget s preds succs with
    | none => rfl
    | some x =>
      obtain ⟨s1, preds1, succs1⟩ := x
      simp only [Option.map_some']
      exact ih (level + 1) s1 preds1 succs1

theorem sync_tryLockLoop (budget topLevel start end_ : Nat) :
    ∀ (fuel : Nat) (s : V0.ConcurrentRangeLock) (preds succs : List Nat),
      tryLockLoop budget topLevel start end_ fuel (forget s) preds succs =
        (V0.tryLockLoop budget topLevel start end_ fuel s preds succs).map
          (fun r => (r.1, forget r.2)) := by
  intro fuel
  induction fuel with
  | zero => intro s preds succs; rfl
  | succ fuel ih =>
    intro s preds succs
    rw [tryLockLoop, V0.tryLockLoop, sync_findInsert]
    cases V0.findInsert budget s start end_ preds succs with
    | none => rfl
    | some x =>
      obtain ⟨b, s1, preds1, succs1⟩ := x
      cases b with
      | true => rfl
      | false =>
        simp only [Option.map_some', sync_forget_nodes, sync_storeSuccs_eq]
        cases V0.initializeNode (V0.newNode s1.nodes).1 (V0.newNode s1.nodes).2 start end_
            topLevel with
        | none => rfl
        | some h3 =>
          simp only
          cases V0.storeSuccs succs1 (V0.newNode s1.nodes).2 (topLevel + 1) 0 h3 with
          | none => rfl
          | some h4 =>
            simp only
            cases preds1[0]? with
            | none => rfl
            | some pred =>
              cases succs1[0]? with
              | none => rfl
              | some succ =>
                cases hg : V0.getCell h4 (V0.newNode s1.nodes).2 0 with
                | none => rfl
                | some c =>
                  simp only
                  cases V0.setCell h4 (V0.newNode s1.nodes).2 0 (c.store succ false) with
                  | none => rfl
                  | some h5 =>
                    simp only
                    cases V0.casCell h5 pred 0 succ (V0.newNode s1.nodes).2 false false with
                    | none => rfl
                    | some y =>
                      obtain ⟨b2, h6⟩ := y
                      cases b2 with
                      | false =>
                        simp only [sync_forget_with_nodes]
                        exact ih { s1 with nodes := h6 } preds1 succs1
                      | true =>
                        simp only [sync_forget_with_nodes, sync_linkUpper]
                        cases V0.linkUpper budget start end_ (V0.newNode s1.nodes).2 topLevel 1
                            { s1 with nodes := h6 } preds1 succs1 with
                        | none => rfl
                        | some s7 =>
                          simp only [Option.map_some']
                          exact congrArg (fun x => some (true, x))
                            (sync_forget_with_count s7 _).symm

theorem sync_tryLock (s : V0.ConcurrentRangeLock) (start end_ : Nat) (rand : Nat → Nat) :
    tryLock (forget s) start end_ rand =
      (V0.tryLock s start end_ rand).map (fun r => (r.1, forget r.2)) := by
  unfold tryLock V0.tryLock
  rw [sync_randomLevel_eq]
  exact sync_tryLockLoop _ _ _ _ _ s _ _

theorem sync_markBottom (budget victim start : Nat) :
    ∀ (fuel : Nat) (s : V0.ConcurrentRangeLock) (succ : Nat),
      markBottom budget victim start fuel (forget s) succ =
        (V0.markBottom budget victim start fuel s succ).map (fun r => (r.1, forget r.2)) := by
  intro fuel
  induction fuel with
  | zero => intro s succ; rfl
  | succ fuel ih =>
    intro s succ
    rw [markBottom, V0.markBottom]
    simp only [sync_forget_nodes]
    cases V0.casCell s.nodes victim 0 succ succ false true with
    | none => rfl
    | some x =>
      obtain ⟨iMarkedIt, h1⟩ := x
      simp only
      cases V0.getCell h1 victim 0 with
      | none => rfl
      | some c =>
        simp only
        cases iMarkedIt with
        | true =>
          simp only [if_true, sync_forget_with_nodes, sync_findDelete]
          cases V0.findDelete budget { s with nodes := h1 } start with
          | none => rfl
          | some s2 =>
            simp only [Option.map_some']
            exact congrArg (fun x => some (true, x)) (sync_forget_with_count s2 _).symm
        | false =>
          simp only [Bool.false_eq_true, if_false]
          cases hm : c.get.2 with
          | true =>
            simp only [if_true, Option.map_some']
            rfl
          | false =>
            simp only [Bool.false_eq_true, if_false, sync_forget_with_nodes]
            exact ih { s with nodes := h1 } c.get.1

theorem sync_releaseLock (s : V0.ConcurrentRangeLock) (start end_ : Nat) :
    releaseLock (forget s) start end_ =
      (V0.releaseLock s start end_).map (fun r => (r.1, forget r.2)) := by
  unfold releaseLock V0.releaseLock
  rw [sync_findExact]
  simp only [sync_forget_nodes, sync_forget_maxLevel]
  cases V0.findExact s.nodes.length s start end_ (List.replicate (s.maxLevel + 1) 0)
      (List.replicate (s.maxLevel + 1) 0) with
  | none => rfl
  | some x =>
    obtain ⟨b, s1, preds, succs⟩ := x
    cases b with
    | false => rfl
    | true =>
      simp only [Option.map_some', sync_forget_nodes]
      cases succs[0]? with
      | none => rfl
      | some nodeToRemove =>
        simp only
        cases deref s1.nodes nodeToRemove with
        | none => rfl
        | some vn =>
          simp only [sync_markUpper_eq]
          cases V0.markUpper s.nodes.length nodeToRemove vn.topLevel s1.nodes with
          | none => rfl
          | some h2 =>
            simp only
            cases V0.getCell h2 nodeToRemove 0 with
            | none => rfl
            | some c =>
              simp only [sync_forget_with_nodes]
              exact sync_markBottom _ _ _ _ _ _

theorem sync_run :
    ∀ (calls : List Call) (s : V0.ConcurrentRangeLock),
      run (forget s) calls = (runRangelock s calls).map (fun r => (r.1, forget r.2)) := by
  intro calls
  induction calls with
  | nil => intro s; rfl
  | cons c calls ih =>
    intro s
    cases c with
    | tryLock start end_ rand =>
      rw [run, runRangelock, sync_tryLock]
      cases V0.tryLock s start end_ rand with
      | none => rfl
      | some x =>
        obtain ⟨r, s1⟩ := x
        simp only [Option.map_some']
        rw [ih s1]
        cases runRangelock s1 calls with
        | none => rfl
        | some y => rfl
    | releaseLock start end_ =>
      rw [run, runRangelock, sync_releaseLock]
      cases V0.releaseLock s start end_ with
      | none => rfl
      | some x =>
        obtain ⟨r, s1⟩ := x
        simp only [Option.map_some']
        rw [ih s1]
        cases runRangelock s1 calls with
        | none => rfl
        | some y => rfl

end SyncV0

namespace SyncV0

/-! ## The two copies of V0: calls in the domain return -/

theorem sync_run_total :
    ∀ (calls : List Call) (s : V0.ConcurrentRangeLock) (L : List Entry), V0.Inv s L →
      (∀ c ∈ calls, inDomain c) → ∃ rs t, runRangelock s calls = some (rs, t) := by
  intro calls
  induction calls with
  | nil => intro s L _ _; exact ⟨[], s, rfl⟩
  | cons c calls ih =>
    intro s L hI hdom
    have hc := hdom c (List.mem_cons_self _ _)
    have hrest : ∀ x ∈ calls, inDomain x := fun x hx => hdom x (List.mem_cons_of_mem _ hx)
    cases c with
    | tryLock start end_ rand =>
      obtain ⟨h1, h2, h3⟩ := hc
      rcases V0.v0_tryLock_spec hI h1 h2 h3 rand with ⟨-, hr⟩ | ⟨-, s1, P, R, -, hr, -, hI1⟩
      · obtain ⟨rs, t, hrun⟩ := ih s L hI hrest
        exact ⟨false :: rs, t, by rw [runRangelock, hr]; simp only [hrun]⟩
      · obtain ⟨rs, t, hrun⟩ := ih s1 _ hI1 hrest
        exact ⟨true :: rs, t, by rw [runRangelock, hr]; simp only [hrun]⟩
    | releaseLock start end_ =>
      obtain ⟨-, h2, h3⟩ := hc
      rcases V0.v0_releaseLock_spec hI h2 h3 with ⟨-, hr⟩ | ⟨s1, P, R, lv, a, -, hr, -, hI1⟩
      · obtain ⟨rs, t, hrun⟩ := ih s L hI hrest
        exact ⟨false :: rs, t, by rw [runRangelock, hr]; simp only [hrun]⟩
      · obtain ⟨rs, t, hrun⟩ := ih s1 _ hI1 hrest
        exact ⟨true :: rs, t, by rw [runRangelock, hr]; simp only [hrun]⟩

end SyncV0

namespace V1

/-! ## V1: one attempt of `tryLock` and of `releaseLock` -/

theorem v1_tryLockLoopT_step (top start end_ fuel : Nat) (s : ConcurrentRangeLock_V1) :
    tryLockLoopT top start end_ (fuel + 1) s =
      match tryLockAttemptT top start end_ s with
      | none => none
      | some (some r, s1, bl) => some (r, s1, bl)
      | some (none, s1, bl) =>
        match tryLockLoopT top start end_ fuel s1 with
        | none => none
        | some (r, s2, logs) => some (r, s2, bl ++ logs) := by
  rw [tryLockLoopT, tryLockAttemptT]
  cases findInsert s.nodes.length s start end_ with
  | none => rfl
  | some x =>
    obtain ⟨levelFound, preds, succs⟩ := x
    simp only
    by_cases hlf : levelFound ≠ -1
    · simp only [if_pos hlf]
      cases succs[levelFound.toNat]? with
      | none => rfl
      | some found =>
        simp only
        cases deref s.nodes found with
        | none => rfl
        | some fn =>
          simp only
          cases fn.marked with
          | false => rfl
          | true =>
            simp only [Bool.not_true, Bool.false_eq_true, if_false]
            cases tryLockLoopT top start end_ fuel s with
            | none => rfl
            | some y => rfl
    · simp only [if_neg hlf]
      cases tryLockValidateT preds succs (top + 1) 0 true s.nodes [] with
      | none => rfl
      | some y =>
        obtain ⟨valid, h1, tracked, log1⟩ := y
        simp only
        cases valid with
        | false =>
          simp only [Bool.not_false, if_true]
          cases unlockAllT h1 tracked with
          | none => rfl
          | some z =>
            obtain ⟨h2, log2⟩ := z
            simp only
            cases tryLockLoopT top start end_ fuel { s with nodes := h2 } with
            | none => rfl
            | some w => rfl
        | true =>
          simp only [Bool.not_true, Bool.false_eq_true, if_false]
          cases tryLockLink preds succs (createNode_V1 h1 start end_ top).2 (top + 1) 0
              (createNode_V1 h1 start end_ top).1 with
          | none => rfl
          | some h3 =>
            simp only
            cases setFullyLinked h3 (createNode_V1 h1 start end_ top).2 with
            | none => rfl
            | some h4 =>
              simp only
              cases unlockAllT h4 tracked with
              | none => rfl
              | some z => rfl

theorem v1_unlockAllT_returns {hB : List Node_V1} {t : List Nat}
    (hv : ∀ a ∈ t, (lockOf hB a).isSome = true) :
    ∃ h5 log2, unlockAllT hB t = some (h5, log2) := by
  obtain ⟨h5, hu, -⟩ := v1_unlockAll_spec t hB (fun a ha => by
    have := hv a ha
    unfold lockOf at this
    unfold viewOf
    cases hd : deref hB a with
    | none => rw [hd] at this; cases this
    | some n => exact ⟨_, rfl⟩)
  have he := v1_unlockAllT_erase hB t
  rw [hu] at he
  cases hT : unlockAllT hB t with
  | none => rw [hT] at he; cases he
  | some x => exact ⟨x.1, x.2, rfl⟩

theorem v1_tryLockValidateT_guard {preds succs : List Nat} {n level : Nat} {valid v : Bool}
    {h h1 : List Node_V1} {t0 t1 : List Nat} {log : List LockEv}
    (ht : ∀ a ∈ t0, (lockOf h a).isSome = true)
    (hval : tryLockValidateT preds succs n level valid h t0 = some (v, h1, t1, log)) :
    ∃ h2 log2, unlockAllT h1 t1 = some (h2, log2) := by
  obtain ⟨⟨q1, -, -, q4, -⟩, -, -⟩ := v1_tryLockValidateT_log _ _ _ _ _ _ _ _ _ _ _ hval
  apply v1_unlockAllT_returns
  intro a ha
  rw [q4 a]
  by_cases hm : a ∈ log.filterMap LockEv.locked
  · rw [if_pos hm]; rfl
  · rw [if_neg hm]
    rw [q1] at ha
    rcases List.mem_append.mp ha with h0 | h0
    · exact ht a h0
    · exact absurd h0 hm

theorem v1_releaseValidateT_guard {preds : List Nat} {victim n level : Nat} {valid v : Bool}
    {h h1 : List Node_V1} {t0 t1 : List Nat} {log : List LockEv}
    (ht : ∀ a ∈ t0, (lockOf h a).isSome = true)
    (hval : releaseValidateT preds victim n level valid h t0 = some (v, h1, t1, log)) :
    ∃ h2 log2, unlockAllT h1 t1 = some (h2, log2) := by
  obtain ⟨⟨q1, -, -, q4, -⟩, -, -⟩ := v1_releaseValidateT_log _ _ _ _ _ _ _ _ _ _ _ hval
  apply v1_unlockAllT_returns
  intro a ha
  rw [q4 a]
  by_cases hm : a ∈ log.filterMap LockEv.locked
  · rw [if_pos hm]; rfl
  · rw [if_neg hm]
    rw [q1] at ha
    rcases List.mem_append.mp ha with h0 | h0
    · exact ht a h0
    · exact absurd h0 hm

theorem v1_trackAndLockT_guard {h h1 : List Node_V1} {t1 : List Nat} {p : Nat}
    {log0 : List LockEv} (hT : trackAndLockT h [] p = some (h1, t1, log0)) :
    ∃ h2 log1, unlockAllT h1 t1 = some (h2, log1) ∧ (∀ a ∈ t1, lockOf h1 a = some true) := by
  obtain ⟨-, p1, -, -, p4, -, -⟩ := v1_victim_pre hT
  have hall : ∀ a ∈ t1, lockOf h1 a = some true := by
    intro a ha
    rw [p4 a, if_pos (by rw [p1] at ha; simpa using ha)]
  obtain ⟨h2, log1, hu⟩ := @v1_unlockAllT_returns h1 t1
    (fun a ha => by rw [hall a ha]; rfl)
  exact ⟨h2, log1, hu, hall⟩

/-- Every way out of one attempt of `tryLock` leaves each mutex as it was, and the calls of
the locker of the attempt are balanced. -/
theorem v1_tryLockAttemptT_log {top start end_ : Nat} {s s1 : ConcurrentRangeLock_V1}
    {o : Option Bool} {bl : List (List LockEv)}
    (hr : tryLockAttemptT top start end_ s = some (o, s1, bl)) :
    LocksKept s.nodes s1.nodes ∧ ∀ b ∈ bl, Balanced b := by
  unfold tryLockAttemptT at hr
  split at hr
  · cases hr
  · rename_i levelFound preds succs _
    split at hr
    · split at hr
      · cases hr
      · split at hr
        · cases hr
        · split at hr
          · simp only [Option.some.injEq, Prod.mk.injEq] at hr
            rw [← hr.2.1, ← hr.2.2]
            exact ⟨v1_locksKept_refl _, fun b hb => by cases hb⟩
          · simp only [Option.some.injEq, Prod.mk.injEq] at hr
            rw [← hr.2.1, ← hr.2.2]
            exact ⟨v1_locksKept_refl _, fun b hb => by cases hb⟩
    · split at hr
      · cases hr
      · rename_i valid h1 tracked log1 hval
        split at hr
        · split at hr
          · cases hr
          · rename_i h2 log2 hu
            obtain ⟨k1, kb, -⟩ := v1_tryLock_block hval (v1_locksKept_refl h1) hu
            simp only [Option.some.injEq, Prod.mk.injEq] at hr
            rw [← hr.2.1, ← hr.2.2]
            refine ⟨k1, ?_⟩
            intro b hb
            rw [List.mem_singleton] at hb
            rw [hb]
            exact kb.1
        · generalize hcn : createNode_V1 h1 start end_ top = pr at hr
          obtain ⟨h2, nn⟩ := pr
          simp only at hr
          have e1 : h2 = (createNode_V1 h1 start end_ top).1 := by rw [hcn]
          split at hr
          · cases hr
          · rename_i h3 hlink
            split at hr
            · cases hr
            · rename_i h4 hfl
              split at hr
              · cases hr
              · rename_i h5 log2 hu
                have hAB : LocksKept h1 h4 := by
                  refine v1_locksKept_trans (v1_locksKept_createNode h1 start end_ top) ?_
                  rw [← e1]
                  apply v1_locksKept_of_eq
                  intro a
                  rw [v1_lockOf_setFullyLinked hfl a,
                    v1_lockOf_tryLockLink _ _ _ _ _ _ _ hlink a]
                obtain ⟨k1, kb, -⟩ := v1_tryLock_block hval hAB hu
                simp only [Option.some.injEq, Prod.mk.injEq] at hr
                rw [← hr.2.1, ← hr.2.2]
                refine ⟨k1, ?_⟩
                intro b hb
                rw [List.mem_singleton] at hb
                rw [hb]
                exact kb.1

/-- Every way out of the part of an attempt of `releaseLock` that locks the victim leaves each
mutex as it was on the heap the victim was locked on, whatever that heap is, and the calls of
the locker are balanced; when the victim is found marked after it is locked, the part returns
`false` and the calls are the lock and the unlock of the victim. -/
theorem v1_releaseVictimT_log {preds : List Nat} {victim : Nat} {topLevel : Int}
    {h h2 : List Node_V1} {o : Option Bool} {log : List LockEv}
    (hr : releaseVictimT preds victim topLevel h = some (o, h2, log)) :
    LocksKept h h2 ∧ Balanced log ∧
      (∀ vn, deref h victim = some vn → vn.marked = true →
        o = some false ∧
          log = [LockEv.victim victim, LockEv.lock victim, LockEv.unlock victim]) := by
  unfold releaseVictimT at hr
  split at hr
  · cases hr
  · rename_i h1 tracked1 log0 hT
    obtain ⟨hlog0, p1, p2, p3, p4, p5, p6⟩ := v1_victim_pre hT
    have e1 : [LockEv.victim victim, LockEv.lock victim].filterMap LockEv.locked = [victim] :=
      rfl
    have ht1 : tracked1 = [victim] := by rw [p1, e1]; rfl
    have hmk : ∀ vn vn1, deref h victim = some vn → deref h1 victim = some vn1 →
        vn1.marked = vn.marked := by
      intro vn vn1 hv hv1
      rcases v1_trackAndLockT_inv hT with ⟨hm, -, -, -⟩ | ⟨-, hl, -, -⟩
      · cases hm
      · have := v1_viewOf_lockNode hl victim
        unfold viewOf at this
        rw [hv, hv1] at this
        simp only [Option.map_some', Option.some.injEq, Prod.mk.injEq] at this
        exact this.2.2.2.2
    split at hr
    · cases hr
    · rename_i vn1 hvn1
      split at hr
      · split at hr
        · cases hr
        · rename_i h3 log1 hu
          obtain ⟨a1, a2, -⟩ := v1_attempt p1 p2 p3 p4 p5 (v1_locksKept_refl h1) hu
          obtain ⟨hl1, -⟩ := v1_unlockAllT_log hu
          simp only [Option.some.injEq, Prod.mk.injEq] at hr
          obtain ⟨hr1, hr2, hr3⟩ := hr
          have eb : LockEv.victim victim :: (log0 ++ log1) =
              [LockEv.victim victim, LockEv.lock victim] ++ log1 := by
            rw [hlog0]; rfl
          rw [← hr1, ← hr2, ← hr3, eb]
          refine ⟨a1, a2, ?_⟩
          intro vn _ _
          refine ⟨rfl, ?_⟩
          rw [hl1, ht1]
          rfl
      · rename_i hnm
        split at hr
        · cases hr
        · rename_i h3 hsm
          have p4' : ∀ a, lockOf h3 a =
              if a ∈ [LockEv.victim victim, LockEv.lock victim].filterMap
                LockEv.locked then some true else lockOf h a := by
            intro a
            rw [v1_lockOf_setMarked hsm a]
            exact p4 a
          have hno : ∀ vn, deref h victim = some vn → vn.marked = true → False := by
            intro vn hv hm
            apply hnm
            rw [hmk vn vn1 hv hvn1, hm]
          have eb : ∀ lg, LockEv.victim victim :: (log0 ++ lg) =
              [LockEv.victim victim, LockEv.lock victim] ++ lg := by
            intro lg
            rw [hlog0]; rfl
          split at hr
          · cases hr
          · rename_i h5 lg hatt
            obtain ⟨c1, c2, -⟩ := v1_release_block _ _ p1 p2 p3 p4' p5 p6 hatt
            simp only [Option.some.injEq, Prod.mk.injEq] at hr
            obtain ⟨hr1, hr2, hr3⟩ := hr
            rw [← hr2, ← hr3, eb]
            exact ⟨c1, c2, fun vn hv hm => (hno vn hv hm).elim⟩
          · rename_i h4 lg hatt
            obtain ⟨c1, c2, -⟩ := v1_release_block _ _ p1 p2 p3 p4' p5 p6 hatt
            simp only [Option.some.injEq, Prod.mk.injEq] at hr
            obtain ⟨hr1, hr2, hr3⟩ := hr
            rw [← hr2, ← hr3, eb]
            exact ⟨c1, c2, fun vn hv hm => (hno vn hv hm).elim⟩

theorem v1_releaseLockLoopT_step (start end_ fuel : Nat) (isMarked : Bool) (topLevel : Int)
    (s : ConcurrentRangeLock_V1) :
    releaseLockLoopT start end_ (fuel + 1) isMarked topLevel s =
      match releaseLockAttemptT start end_ isMarked topLevel s with
      | none => none
      | some (some ret, _, _, s1, bl) => some (ret, s1, bl)
      | some (none, im, tl, s1, bl) =>
        match releaseLockLoopT start end_ fuel im tl s1 with
        | none => none
        | some (r, s2, logs) => some (r, s2, bl ++ logs) := by
  rw [releaseLockLoopT, releaseLockAttemptT]
  cases findExact s.nodes.length s start end_ with
  | none => rfl
  | some x =>
    obtain ⟨levelFound, preds, succs⟩ := x
    simp only
    by_cases hlf : levelFound = -1
    · simp only [if_pos hlf]
    · simp only [if_neg hlf]
      cases succs[levelFound.toNat]? with
      | none => rfl
      | some victim =>
        simp only
        cases deref s.nodes victim with
        | none => rfl
        | some vn =>
          simp only
          by_cases hc : isMarked ∨ ((vn.topLevel : Int) = levelFound ∧ vn.marked = false)
          · simp only [if_pos hc]
            by_cases him : isMarked = true
            · simp only [if_pos him]
              cases releaseAttemptT preds victim topLevel s.nodes [] with
              | none => rfl
              | some y =>
                obtain ⟨ok, h5, log⟩ := y
                cases ok with
                | true => rfl
                | false =>
                  simp only
                  cases releaseLockLoopT start end_ fuel true topLevel
                      { s with nodes := h5 } with
                  | none => rfl
                  | some w => rfl
            · simp only [if_neg him]
              rw [releaseVictimT]
              cases trackAndLockT s.nodes [] victim with
              | none => rfl
              | some y =>
                obtain ⟨h1, tracked1, log0⟩ := y
                simp only
                cases deref h1 victim with
                | none => rfl
                | some vn1 =>
                  simp only
                  by_cases hm : vn1.marked = true
                  · simp only [if_pos hm]
                    cases unlockAllT h1 tracked1 with
                    | none => rfl
                    | some z => rfl
                  · simp only [if_neg hm]
                    cases setMarked h1 victim with
                    | none => rfl
                    | some h2 =>
                      simp only
                      cases releaseAttemptT preds victim (vn.topLevel : Int) h2 tracked1 with
                      | none => rfl
                      | some y =>
                        obtain ⟨ok, h5, log⟩ := y
                        cases ok with
                        | true => rfl
                        | false =>
                          simp only
                          cases releaseLockLoopT start end_ fuel true (vn.topLevel : Int)
                              { s with nodes := h5 } with
                          | none => rfl
                          | some w => rfl
          · simp only [if_neg hc]

/-- Every way out of one attempt of `releaseLock` leaves each mutex as it was, and the calls
of the locker of the attempt are balanced. -/
theorem v1_releaseLockAttemptT_log {start end_ : Nat} {isMarked im1 : Bool}
    {topLevel tl1 : Int} {s s1 : ConcurrentRangeLock_V1} {o : Option Ret}
    {bl : List (List LockEv)}
    (hr : releaseLockAttemptT start end_ isMarked topLevel s = some (o, im1, tl1, s1, bl)) :
    LocksKept s.nodes s1.nodes ∧ ∀ b ∈ bl, Balanced b := by
  have hsing : ∀ (x : List LockEv), Balanced x → ∀ b ∈ [x], Balanced b := by
    intro x hx b hb
    rw [List.mem_singleton] at hb
    rw [hb]
    exact hx
  unfold releaseLockAttemptT at hr
  split at hr
  · cases hr
  · rename_i levelFound preds succs _
    split at hr
    · simp only [Option.some.injEq, Prod.mk.injEq] at hr
      obtain ⟨-, -, -, hr4, hr5⟩ := hr
      rw [← hr4, ← hr5]
      exact ⟨v1_locksKept_refl _, hsing _ v1_balanced_nil.1⟩
    · split at hr
      · cases hr
      · rename_i victim _
        split at hr
        · cases hr
        · rename_i vn hvn
          split at hr
          · split at hr
            · split at hr
              · cases hr
              · rename_i h5 log hatt
                obtain ⟨c1, c2, -⟩ := v1_release_block s.nodes []
                  rfl rfl rfl (fun a => by simp)
                  (fun a ha => by cases ha) rfl hatt
                rw [List.nil_append] at c2
                simp only [Option.some.injEq, Prod.mk.injEq] at hr
                obtain ⟨-, -, -, hr4, hr5⟩ := hr
                rw [← hr4, ← hr5]
                exact ⟨c1, hsing _ c2⟩
              · rename_i h4 log hatt
                obtain ⟨c1, c2, -⟩ := v1_release_block s.nodes []
                  rfl rfl rfl (fun a => by simp)
                  (fun a ha => by cases ha) rfl hatt
                rw [List.nil_append] at c2
                simp only [Option.some.injEq, Prod.mk.injEq] at hr
                obtain ⟨-, -, -, hr4, hr5⟩ := hr
                rw [← hr4, ← hr5]
                exact ⟨c1, hsing _ c2⟩
            · split at hr
              · cases hr
              · rename_i h5 log hv
                obtain ⟨c1, c2, -⟩ := v1_releaseVictimT_log hv
                simp only [Option.some.injEq, Prod.mk.injEq] at hr
                obtain ⟨-, -, -, hr4, hr5⟩ := hr
                rw [← hr4, ← hr5]
                exact ⟨c1, hsing _ c2⟩
              · rename_i h2 log hv
                obtain ⟨c1, c2, -⟩ := v1_releaseVictimT_log hv
                simp only [Option.some.injEq, Prod.mk.injEq] at hr
                obtain ⟨-, -, -, hr4, hr5⟩ := hr
                rw [← hr4, ← hr5]
                exact ⟨c1, hsing _ c2⟩
              · rename_i h4 log hv
                obtain ⟨c1, c2, -⟩ := v1_releaseVictimT_log hv
                simp only [Option.some.injEq, Prod.mk.injEq] at hr
                obtain ⟨-, -, -, hr4, hr5⟩ := hr
                rw [← hr4, ← hr5]
                exact ⟨c1, hsing _ c2⟩
          · simp only [Option.some.injEq, Prod.mk.injEq] at hr
            obtain ⟨-, -, -, hr4, hr5⟩ := hr
            rw [← hr4, ← hr5]
            exact ⟨v1_locksKept_refl _, hsing _ v1_balanced_nil.1⟩

/-- The exit of `tryLock` by a failed validation: when the search finds no overlap and the
locking loop ends with `valid == false`, the scope guard returns, the attempt ends with
`continue`, every mutex is as it was before the attempt and the calls are balanced. -/
theorem v1_tryLockAttemptT_invalid {top start end_ : Nat} {s : ConcurrentRangeLock_V1}
    {preds succs : List Nat} {h1 : List Node_V1} {tracked : List Nat} {log1 : List LockEv}
    (hfi : findInsert s.nodes.length s start end_ = some (-1, preds, succs))
    (hval : tryLockValidateT preds succs (top + 1) 0 true s.nodes [] =
      some (false, h1, tracked, log1)) :
    ∃ h2 log2, unlockAllT h1 tracked = some (h2, log2) ∧
      tryLockAttemptT top start end_ s = some (none, { s with nodes := h2 }, [log1 ++ log2]) ∧
      LocksKept s.nodes h2 ∧ Balanced (log1 ++ log2) := by
  obtain ⟨h2, log2, hu⟩ := v1_tryLockValidateT_guard (fun a ha => by cases ha) hval
  obtain ⟨k1, kb, -⟩ := v1_tryLock_block hval (v1_locksKept_refl h1) hu
  refine ⟨h2, log2, hu, ?_, k1, kb.1⟩
  unfold tryLockAttemptT
  rw [hfi]
  simp only [ne_eq, not_true_eq_false, if_false]
  rw [hval]
  simp only [Bool.not_false, if_true]
  rw [hu]

/-- The exit of `releaseLock` by a failed validation: when the locking loop ends with
`valid == false`, the scope guard returns and the attempt ends with `continue`. -/
theorem v1_releaseAttemptT_invalid {preds : List Nat} {victim : Nat} {topLevel : Int}
    {h h3 : List Node_V1} {t t3 : List Nat} {log1 : List LockEv}
    (ht : ∀ a ∈ t, (lockOf h a).isSome = true)
    (hval : releaseValidateT preds victim (topLevel + 1).toNat 0 true h t =
      some (false, h3, t3, log1)) :
    ∃ h4 log2, unlockAllT h3 t3 = some (h4, log2) ∧
      releaseAttemptT preds victim topLevel h t = some (false, h4, log1 ++ log2) := by
  obtain ⟨h4, log2, hu⟩ := v1_releaseValidateT_guard ht hval
  refine ⟨h4, log2, hu, ?_⟩
  unfold releaseAttemptT
  rw [hval]
  simp only [Bool.not_false, if_true]
  rw [hu]

/-- The exit of `releaseLock` by an already-marked victim: on a heap where the victim is marked
and its mutex free when `trackAndLock(victim)` runs, the attempt locks the victim, returns
`false` and the scope guard unlocks the victim. -/
theorem v1_releaseVictimT_marked {preds : List Nat} {victim : Nat} {topLevel : Int}
    {h : List Node_V1} {vn : Node_V1}
    (hv : deref h victim = some vn) (hm : vn.marked = true) (hl : vn.locked = false) :
    ∃ h2, releaseVictimT preds victim topLevel h =
        some (some false, h2,
          [LockEv.victim victim, LockEv.lock victim, LockEv.unlock victim]) ∧
      LocksKept h h2 := by
  have hfree : lockOf h victim = some false := by
    unfold lockOf
    rw [hv, Option.map_some', hl]
  obtain ⟨h1, hlk⟩ := v1_lockNode_of_unlocked hfree
  have hT : trackAndLockT h [] victim = some (h1, [victim], [LockEv.lock victim]) := by
    unfold trackAndLockT
    rw [if_neg (by simp), hlk]
    rfl
  obtain ⟨h2, lg, hu, -⟩ := v1_trackAndLockT_guard hT
  have hview := v1_viewOf_lockNode hlk victim
  unfold viewOf at hview
  rw [hv] at hview
  cases hd1 : deref h1 victim with
  | none => rw [hd1] at hview; cases hview
  | some vn1 =>
    rw [hd1] at hview
    simp only [Option.map_some', Option.some.injEq, Prod.mk.injEq] at hview
    have hm1 : vn1.marked = true := by rw [hview.2.2.2.2, hm]
    have hres : releaseVictimT preds victim topLevel h =
        some (some false, h2, LockEv.victim victim :: ([LockEv.lock victim] ++ lg)) := by
      unfold releaseVictimT
      rw [hT]
      simp only
      rw [hd1]
      simp only [hm1, if_true]
      rw [hu]
    obtain ⟨c1, -, c3⟩ := v1_releaseVictimT_log hres
    obtain ⟨-, c4⟩ := c3 vn hv hm
    rw [c4] at hres
    exact ⟨h2, hres, c1⟩

end V1

namespace V3

/-! ## V3: the claims -/

theorem v3_heldOnce_reachable : Reachable heldOnce :=
  @Reachable.tryLock _ heldOnce 10 20 (fun _ => 0) true Reachable.fresh
    (by decide) (by decide) (by decide) (by decide)

/-- C4: in every state of SongRangeLock reached from a fresh lock by tryLock calls in the
domain and releaseLock calls on starts of held intervals, a tryLock of an interval of the
domain that overlaps a held interval in the half-open sense returns false and leaves the
whole lock, node list and count, as it was. -/
theorem c4_v3_tryLock_rejects_overlap (s : SongRangeLock) (start end_ : Nat)
    (rand : Nat → Nat) (hR : Reachable s) (h1 : 1 ≤ start) (h2 : start < end_)
    (h3 : end_ ≤ MAX_VALUE - 1) (hov : ∃ iv ∈ held s, iv.1 < end_ ∧ start < iv.2) :
    tryLock s start end_ rand = some (false, s) := by
  obtain ⟨L, hI⟩ := hR.v3_inv
  rcases v3_tryLock_spec hI h1 h2 h3 rand with ⟨-, hr⟩ | ⟨hsep, -⟩
  · exact hr
  · exfalso
    obtain ⟨iv, hiv, ha, hb⟩ := hov
    rw [hI.v3_held_eq] at hiv
    obtain ⟨e, he, rfl⟩ := List.mem_map.mp hiv
    have hd := hI.dom e he
    rcases hsep e he with h | h
    · simp only at hb; omega
    · simp only at ha; omega

theorem c4_v3_witness :
    (10, 20) ∈ held heldOnce ∧ tryLock heldOnce 15 25 (fun _ => 0) = some (false, heldOnce) :=
  ⟨by decide, c4_v3_tryLock_rejects_overlap heldOnce 15 25 (fun _ => 0) v3_heldOnce_reachable
    (by decide) (by decide) (by decide) ⟨(10, 20), by decide, by decide, by decide⟩⟩

theorem v3_tryLockAll_separated :
    ∀ (reqs : List Req) (s : SongRangeLock) (L : List Entry), Inv s L →
      (∀ q ∈ reqs, 1 ≤ q.start ∧ q.start < q.end_ ∧ q.end_ ≤ MAX_VALUE - 1) →
      reqs.Pairwise (fun a b => a.end_ < b.start ∨ b.end_ < a.start) →
      (∀ q ∈ reqs, ∀ e ∈ L, e.end_ < q.start ∨ q.end_ < e.start) →
      ∃ s1 L1, tryLockAll s reqs = some (List.replicate reqs.length true, s1) ∧
        Inv s1 L1 ∧ L1.length = L.length + reqs.length := by
  intro reqs
  induction reqs with
  | nil =>
    intro s L hI _ _ _
    exact ⟨s, L, rfl, hI, rfl⟩
  | cons q rest ih =>
    intro s L hI hdom hpw hsep
    obtain ⟨h1, h2, h3⟩ := hdom q (List.mem_cons_self _ _)
    rw [List.pairwise_cons] at hpw
    rcases v3_tryLock_spec hI h1 h2 h3 q.rand with ⟨⟨e, he, hx, hy⟩, -⟩ | ⟨-, s1, P, R, hPR, hr, hI1⟩
    · exfalso
      rcases hsep q (List.mem_cons_self _ _) e he with h | h
      · exact hx h
      · exact hy h
    · obtain ⟨s2, L2, hr2, hI2, hlen⟩ := ih s1 _ hI1
        (fun x hx => hdom x (List.mem_cons_of_mem _ hx)) hpw.2
        (fun x hx e he => by
          have : e = ⟨addrOf s.nodes.length, q.start, q.end_, randomLevel q.rand MAX_LEVEL⟩ ∨
              e ∈ L := by
            rw [hPR]
            simp only [List.mem_append, List.mem_cons] at he ⊢; tauto
          rcases this with rfl | h
          · have := hpw.1 x hx
            simp only; omega
          · exact hsep x (List.mem_cons_of_mem _ hx) e h)
      refine ⟨s2, L2, ?_, hI2, ?_⟩
      · simp only [tryLockAll, hr, hr2, List.length_cons, List.replicate_succ]
      · rw [hlen, hPR]
        simp only [List.length_append, List.length_cons]
        omega

/-- C8, as the code has it: for every finite list of intervals of the domain that are pairwise
separated by at least one unit (one ends strictly below the start of the other), issuing
tryLock for them one after another on a fresh SongRangeLock returns true every time, and the
final size() is the number of intervals. -/
theorem c8_v3_separated_all_succeed (reqs : List Req)
    (hdom : ∀ q ∈ reqs, 1 ≤ q.start ∧ q.start < q.end_ ∧ q.end_ ≤ MAX_VALUE - 1)
    (hsep : reqs.Pairwise (fun a b => a.end_ < b.start ∨ b.end_ < a.start)) :
    ∃ s1, tryLockAll SongRangeLock.new reqs = some (List.replicate reqs.length true, s1) ∧
      size s1 = reqs.length := by
  obtain ⟨s1, L1, hr, hI, hlen⟩ := v3_tryLockAll_separated reqs _ [] Inv.v3_fresh hdom hsep
    (fun _ _ e he => by cases he)
  refine ⟨s1, hr, ?_⟩
  unfold size
  rw [hI.count, hlen]
  simp

theorem c8_v3_witness :
    ∃ s1, tryLockAll SongRangeLock.new [⟨10, 20, fun _ => 0⟩, ⟨21, 30, fun _ => 1⟩] =
        some ([true, true], s1) ∧ size s1 = 2 :=
  c8_v3_separated_all_succeed [⟨10, 20, fun _ => 0⟩, ⟨21, 30, fun _ => 1⟩]
    (by intro q hq; simp at hq; rcases hq with rfl | rfl <;> decide)
    (by simp)

/-- C8 as stated fails: the intervals [10,20) and [20,30) do not overlap in the half-open
sense and lie in the domain, yet the second tryLock on a fresh SongRangeLock returns false. -/
theorem c8_v3_counterexample :
    List.Pairwise (fun a b : Nat × Nat => ¬ (a.1 < b.2 ∧ b.1 < a.2)) [(10, 20), (20, 30)] ∧
    (∀ iv ∈ [((10 : Nat), (20 : Nat)), (20, 30)],
      1 ≤ iv.1 ∧ iv.1 < iv.2 ∧ iv.2 ≤ MAX_VALUE - 1) ∧
    (tryLockAll SongRangeLock.new [⟨10, 20, fun _ => 0⟩, ⟨20, 30, fun _ => 0⟩]).map Prod.fst =
      some [true, false] := by
  refine ⟨by decide, by decide, by decide⟩

end V3

namespace V1

/-! ## V1: the claims -/

theorem v1_heldOnce_reachable : Reachable 1 heldOnce :=
  @Reachable.tryLock 1 _ heldOnce 10 20 (fun _ => 1) true Reachable.fresh
    (by decide) (by decide) (by decide) (by decide)

theorem v1_heldLater_reachable : Reachable 1 heldLater :=
  @Reachable.tryLock 1 _ heldLater 20 30 (fun _ => 1) true Reachable.fresh
    (by decide) (by decide) (by decide) (by decide)

/-- C3: in every state of ConcurrentRangeLock_V1 (with at least one level above level 0)
reached from a fresh lock by single-threaded tryLock and releaseLock calls in the domain,
a tryLock of an interval that overlaps a held interval in the half-open sense returns false
and leaves the whole lock, held set and count, as it was; this needs no bound on the
candidate itself. -/
theorem c3_v1_tryLock_rejects_overlap (maxLevel : Nat) (s : ConcurrentRangeLock_V1)
    (start end_ : Nat) (rand : Nat → Nat) (hml : 1 ≤ maxLevel) (hR : Reachable maxLevel s)
    (hov : ∃ iv ∈ held s, iv.1 < end_ ∧ start < iv.2) :
    tryLock s start end_ rand = some (false, s) := by
  obtain ⟨-, L, hI⟩ := v1_Reachable_inv hml hR
  apply v1_tryLock_meets hI rand
  obtain ⟨iv, hiv, ha, hb⟩ := hov
  rw [hI.v1_held_eq] at hiv
  obtain ⟨e, he, rfl⟩ := List.mem_map.mp hiv
  exact ⟨e, he, by simp only at hb; omega, by simp only at ha; omega⟩

theorem c3_v1_witness :
    (10, 20) ∈ held heldOnce ∧ tryLock heldOnce 15 25 (fun _ => 0) = some (false, heldOnce) :=
  ⟨by decide, c3_v1_tryLock_rejects_overlap 1 heldOnce 15 25 (fun _ => 0) (by decide)
    v1_heldOnce_reachable ⟨(10, 20), by decide, by decide, by decide⟩⟩

/-- C7, as the code has it: in every sequentially reachable state of ConcurrentRangeLock_V1
and for every start < end in the domain such that every held interval (s, e) has e <= start
or end < s, tryLock(start, end) returns true and the interval joins the held ones; a
candidate whose start equals the end of a held interval is accepted, one whose end equals the
start of a held interval is not covered. -/
theorem c7_v1_tryLock_accepts (maxLevel : Nat) (s : ConcurrentRangeLock_V1)
    (start end_ : Nat) (rand : Nat → Nat) (hml : 1 ≤ maxLevel) (hR : Reachable maxLevel s)
    (h1 : 1 ≤ start) (h2 : start < end_) (h3 : end_ ≤ UINT64_MAX - 1)
    (hfree : ∀ iv ∈ held s, iv.2 ≤ start ∨ end_ < iv.1) :
    ∃ s1 A B, tryLock s start end_ rand = some (true, s1) ∧
      held s = A ++ B ∧ held s1 = A ++ (start, end_) :: B := by
  obtain ⟨hm, L, hI⟩ := v1_Reachable_inv hml hR
  rcases v1_tryLock_spec hI (by omega) h1 h2 h3 rand with
    ⟨⟨e, he, hx, hy⟩, -⟩ | ⟨-, s1, P, R, q, hPR, hr, -, hI1⟩
  · exfalso
    have := hfree (e.start, e.end_) (by
      rw [hI.v1_held_eq]
      exact List.mem_map.mpr ⟨e, he, rfl⟩)
    simp only at this
    omega
  · refine ⟨s1, P.map (fun e => (e.start, e.end_)), R.map (fun e => (e.start, e.end_)), hr, ?_, ?_⟩
    · rw [hI.v1_held_eq, hPR, List.map_append]
    · rw [hI1.v1_held_eq, List.map_append, List.map_cons]

theorem c7_v1_witness :
    ∃ s1 A B, tryLock heldOnce 20 30 (fun _ => 0) = some (true, s1) ∧
      held heldOnce = A ++ B ∧ held s1 = A ++ (20, 30) :: B :=
  c7_v1_tryLock_accepts 1 heldOnce 20 30 (fun _ => 0) (by decide) v1_heldOnce_reachable
    (by decide) (by decide) (by decide) (by decide)

/-- C7 as stated fails: after tryLock(20, 30) on a fresh lock the interval [10, 20) overlaps
no held interval in the half-open sense and lies in the domain, its end equals the start of
the held interval, and tryLock(10, 20) returns false. -/
theorem c7_v1_counterexample :
    Reachable 1 heldLater ∧
    (∀ iv ∈ held heldLater, ¬ (iv.1 < 20 ∧ 10 < iv.2)) ∧
    tryLock heldLater 10 20 (fun _ => 0) = some (false, heldLater) :=
  ⟨v1_heldLater_reachable, by decide, by decide⟩

end V1

namespace V0

/-! ## V0: the claims -/

theorem v0_heldOnce_reachable : Reachable 1 heldOnce :=
  @Reachable.tryLock 1 _ heldOnce 10 20 (fun _ => 0) true Reachable.fresh
    (by decide) (by decide) (by decide) (by decide)

theorem v0_heldTwice_reachable : Reachable 1 heldTwice :=
  @Reachable.tryLock 1 heldOnce heldTwice 30 40 (fun _ => 0) true v0_heldOnce_reachable
    (by decide) (by decide) (by decide) (by decide)

/-- C1: in every state of the V0 ConcurrentRangeLock reached from a fresh lock by
single-threaded tryLock and releaseLock calls in the domain, a tryLock of an interval of the
domain that overlaps a held interval in the half-open sense returns false and leaves the
whole lock as it was, so the held intervals and size() are unchanged. -/
theorem c1_v0_tryLock_rejects_overlap (maxLevel : Nat) (s : ConcurrentRangeLock)
    (start end_ : Nat) (rand : Nat → Nat) (hR : Reachable maxLevel s) (h1 : 1 ≤ start)
    (h2 : start < end_) (h3 : end_ ≤ UINT64_MAX - 1)
    (hov : ∃ iv ∈ held s, iv.1 < end_ ∧ start < iv.2) :
    tryLock s start end_ rand = some (false, s) := by
  obtain ⟨L, hI, -⟩ := v0_Reachable_inv hR
  rcases v0_tryLock_spec hI h1 h2 h3 rand with ⟨-, hr⟩ | ⟨hsep, -⟩
  · exact hr
  · exfalso
    obtain ⟨iv, hiv, ha, hb⟩ := hov
    rw [hI.v0_held_eq] at hiv
    obtain ⟨e, he, rfl⟩ := List.mem_map.mp hiv
    rcases hsep e he with h | h
    · simp only at hb; omega
    · simp only at ha; omega

theorem c1_v0_witness :
    (10, 20) ∈ held heldOnce ∧ tryLock heldOnce 15 25 (fun _ => 0) = some (false, heldOnce) :=
  ⟨by decide, c1_v0_tryLock_rejects_overlap 1 heldOnce 15 25 (fun _ => 0) v0_heldOnce_reachable
    (by decide) (by decide) (by decide) ⟨(10, 20), by decide, by decide, by decide⟩⟩

/-- C5: in every state of the V0 ConcurrentRangeLock reached from a fresh lock by
single-threaded tryLock and releaseLock calls in the domain, any two distinct nodes on the
level-0 chain between the sentinels hold intervals a, b with a.end <= b.start or
b.end <= a.start. -/
theorem c5_v0_held_disjoint (maxLevel : Nat) (s : ConcurrentRangeLock)
    (hR : Reachable maxLevel s) (i j : Nat) (a b : Nat × Nat) (hij : i ≠ j)
    (ha : (held s)[i]? = some a) (hb : (held s)[j]? = some b) :
    a.2 ≤ b.1 ∨ b.2 ≤ a.1 := by
  obtain ⟨L, hI, -⟩ := v0_Reachable_inv hR
  have hpw : (held s).Pairwise fun x y => x.2 < y.1 := by
    rw [hI.v0_held_eq, List.pairwise_map]
    exact hI.v0_sorted_list
  rw [List.pairwise_iff_getElem] at hpw
  obtain ⟨hi, hai⟩ := List.getElem?_eq_some_iff.mp ha
  obtain ⟨hj, hbj⟩ := List.getElem?_eq_some_iff.mp hb
  rcases Nat.lt_or_gt_of_ne hij with h | h
  · have := hpw i j hi hj h
    rw [hai, hbj] at this
    omega
  · have := hpw j i hj hi h
    rw [hai, hbj] at this
    omega

theorem c5_v0_witness :
    (held heldTwice)[0]? = some (10, 20) ∧ (held heldTwice)[1]? = some (30, 40) ∧
      ((20 : Nat) ≤ 30 ∨ (40 : Nat) ≤ 10) :=
  ⟨by decide, by decide, c5_v0_held_disjoint 1 heldTwice v0_heldTwice_reachable 0 1 (10, 20)
    (30, 40) (by decide) (by decide) (by decide)⟩

/-- C6, as the code has it: in every state of the V0 ConcurrentRangeLock reached from a fresh
lock by single-threaded tryLock and releaseLock calls in the domain, a tryLock of an interval
of the domain returns true whenever every held interval either ends strictly below start or
begins strictly above end. -/
theorem c6_v0_tryLock_accepts_separated (maxLevel : Nat) (s : ConcurrentRangeLock)
    (start end_ : Nat) (rand : Nat → Nat) (hR : Reachable maxLevel s) (h1 : 1 ≤ start)
    (h2 : start < end_) (h3 : end_ ≤ UINT64_MAX - 1)
    (hsep : ∀ iv ∈ held s, iv.2 < start ∨ end_ < iv.1) :
    ∃ s1, tryLock s start end_ rand = some (true, s1) := by
  obtain ⟨L, hI, -⟩ := v0_Reachable_inv hR
  rcases v0_tryLock_spec hI h1 h2 h3 rand with ⟨⟨e, he, hx, hy⟩, -⟩ | ⟨-, s1, P, R, -, hr, -⟩
  · exfalso
    have hm : (e.start, e.end_) ∈ held s := by
      rw [hI.v0_held_eq]
      exact List.mem_map.mpr ⟨e, he, rfl⟩
    rcases hsep _ hm with h | h
    · exact hx h
    · exact hy h
  · exact ⟨s1, hr⟩

theorem c6_v0_witness :
    (∀ iv ∈ held heldOnce, iv.2 < 21 ∨ 30 < iv.1) ∧
      ∃ s1, tryLock heldOnce 21 30 (fun _ => 0) = some (true, s1) :=
  ⟨by decide, c6_v0_tryLock_accepts_separated 1 heldOnce 21 30 (fun _ => 0)
    v0_heldOnce_reachable (by decide) (by decide) (by decide) (by decide)⟩

/-- C6 as stated fails: on a fresh lock tryLock(10,20) returns true, the interval [20,30)
lies in the domain and overlaps no held interval in the half-open sense, yet tryLock(20,30)
returns false. -/
theorem c6_v0_counterexample :
    tryLock (ConcurrentRangeLock.new 1) 10 20 (fun _ => 0) = some (true, heldOnce) ∧
    tryLock heldOnce 15 25 (fun _ => 0) = some (false, heldOnce) ∧
    (1 ≤ 20 ∧ 20 < 30 ∧ 30 ≤ UINT64_MAX - 1) ∧
    (∀ iv ∈ held heldOnce, ¬ (iv.1 < 30 ∧ 20 < iv.2)) ∧
    tryLock heldOnce 20 30 (fun _ => 0) = some (false, heldOnce) := by
  refine ⟨by decide, by decide, by decide, by decide, by decide⟩

theorem v0_tryLockAll_separated :
    ∀ (reqs : List Req) (s : ConcurrentRangeLock) (L : List Entry), Inv s L →
      (∀ q ∈ reqs, 1 ≤ q.start ∧ q.start < q.end_ ∧ q.end_ ≤ UINT64_MAX - 1) →
      reqs.Pairwise (fun a b => a.end_ < b.start ∨ b.end_ < a.start) →
      (∀ q ∈ reqs, ∀ e ∈ L, e.end_ < q.start ∨ q.end_ < e.start) →
      ∃ s1 L1, tryLockAll s reqs = some (List.replicate reqs.length true, s1) ∧
        Inv s1 L1 ∧ s1.maxLevel = s.maxLevel ∧ L1.length = L.length + reqs.length ∧
        (L1.map fun e => (e.start, e.end_)).Perm
          ((reqs.map fun q => (q.start, q.end_)) ++ L.map fun e => (e.start, e.end_)) := by
  intro reqs
  induction reqs with
  | nil =>
    intro s L hI _ _ _
    exact ⟨s, L, rfl, hI, rfl, rfl, List.Perm.refl _⟩
  | cons q rest ih =>
    intro s L hI hdom hpw hsep
    obtain ⟨h1, h2, h3⟩ := hdom q (List.mem_cons_self _ _)
    rw [List.pairwise_cons] at hpw
    rcases v0_tryLock_spec hI h1 h2 h3 q.rand with
      ⟨⟨e, he, hx, hy⟩, -⟩ | ⟨-, s1, P, R, hPR, hr, hm1, hI1⟩
    · exfalso
      rcases hsep q (List.mem_cons_self _ _) e he with h | h
      · exact hx h
      · exact hy h
    · obtain ⟨s2, L2, hr2, hI2, hm2, hlen, hperm⟩ := ih s1 _ hI1
        (fun x hx => hdom x (List.mem_cons_of_mem _ hx)) hpw.2
        (fun x hx e he => by
          have : e = ⟨addrOf s.nodes.length, q.start, q.end_, randomLevel q.rand s.maxLevel⟩ ∨
              e ∈ L := by
            rw [hPR]
            simp only [List.mem_append, List.mem_cons] at he ⊢; tauto
          rcases this with rfl | h
          · have := hpw.1 x hx
            simp only; omega
          · exact hsep x (List.mem_cons_of_mem _ hx) e h)
      refine ⟨s2, L2, ?_, hI2, hm2.trans hm1, ?_, ?_⟩
      · simp only [tryLockAll, hr, hr2, List.length_cons, List.replicate_succ]
      · rw [hlen, hPR]
        simp only [List.length_append, List.length_cons]
        omega
      · refine hperm.trans ?_
        rw [hPR]
        simp only [List.map_append, List.map_cons, List.cons_append]
        rw [← List.append_assoc]
        refine List.perm_middle.trans ?_
        rw [List.append_assoc]

theorem v0_releaseAll_held :
    ∀ (rel : List (Nat × Nat)) (s : ConcurrentRangeLock) (L : List Entry), Inv s L →
      rel.Perm (L.map fun e => (e.start, e.end_)) →
      ∃ s2, releaseAll s rel = some (List.replicate rel.length true, s2) ∧ Inv s2 [] ∧
        s2.maxLevel = s.maxLevel := by
  intro rel
  induction rel with
  | nil =>
    intro s L hI hp
    have : L = [] := by
      have := hp.length_eq
      simp at this
      exact List.length_eq_zero.mp this.symm
    subst this
    exact ⟨s, rfl, hI, rfl⟩
  | cons iv rest ih =>
    intro s L hI hp
    have hmem : iv ∈ L.map fun e => (e.start, e.end_) := hp.subset (List.mem_cons_self _ _)
    obtain ⟨v, hv, hvs⟩ := List.mem_map.mp hmem
    obtain ⟨P, R, rfl⟩ := List.append_of_mem hv
    obtain ⟨s1, hr, hm1, hI1⟩ := v0_releaseLock_held hI
    have hp2 : rest.Perm ((P ++ R).map fun e => (e.start, e.end_)) := by
      have h1 : (iv :: rest).Perm (iv :: (P ++ R).map fun e => (e.start, e.end_)) := by
        refine hp.trans ?_
        simp only [List.map_append, List.map_cons]
        rw [hvs]
        exact List.perm_middle
      exact h1.cons_inv
    obtain ⟨s2, hr2, hI2, hm2⟩ := ih s1 _ hI1 hp2
    refine ⟨s2, ?_, hI2, hm2.trans hm1⟩
    have e1 : iv.1 = v.start := by rw [← hvs]
    have e2 : iv.2 = v.end_ := by rw [← hvs]
    simp only [releaseAll, e1, e2, hr, hr2, List.length_cons, List.replicate_succ]

/-- C9: for every finite list of intervals of the domain that are pairwise separated by at
least one unit, taken in any order, issuing tryLock for them one after another on a fresh V0
lock returns true every time and size() is then the number of intervals; releasing all of
them afterwards in any order returns true every time, and at the end size() is 0 and
head.next[k] is the unmarked reference to tail at every level k. -/
theorem c9_v0_partition_workload (maxLevel : Nat) (reqs : List Req) (rel : List (Nat × Nat))
    (hdom : ∀ q ∈ reqs, 1 ≤ q.start ∧ q.start < q.end_ ∧ q.end_ ≤ UINT64_MAX - 1)
    (hsep : reqs.Pairwise (fun a b => a.end_ < b.start ∨ b.end_ < a.start))
    (hperm : rel.Perm (reqs.map fun q => (q.start, q.end_))) :
    ∃ s1 s2, tryLockAll (ConcurrentRangeLock.new maxLevel) reqs =
        some (List.replicate reqs.length true, s1) ∧
      size s1 = reqs.length ∧
      releaseAll s1 rel = some (List.replicate rel.length true, s2) ∧
      size s2 = 0 ∧
      ∀ k, k ≤ maxLevel →
        (getCell s2.nodes s2.head k).map AtomicMarkableReference.get = some (s2.tail, false) := by
  obtain ⟨s1, L1, hr, hI, hm, hlen, hp⟩ := v0_tryLockAll_separated reqs _ []
    (Inv.v0_fresh maxLevel) hdom hsep (fun _ _ e he => by cases he)
  simp only [List.map_nil, List.append_nil] at hp
  obtain ⟨s2, hr2, hI2, hm2⟩ := v0_releaseAll_held rel s1 L1 hI (hperm.trans hp.symm)
  refine ⟨s1, s2, hr, ?_, hr2, ?_, ?_⟩
  · unfold size
    rw [hI.count, hlen]
    simp
  · unfold size
    rw [hI2.count]
    rfl
  · intro k hk
    have hms : s2.maxLevel = maxLevel := by
      rw [hm2, hm]; rfl
    have hc := hI2.wf.links k (by omega)
    have hl : getCell s2.nodes (headE s2.maxLevel).addr k = some ⟨(tailE s2.maxLevel).addr⟩ :=
      (List.chain'_cons.mp hc).1
    rw [hI2.head_eq, hI2.tail_eq, hl]
    simp only [Option.map_some']
    rw [v0_get_even (by simp [tailE, addrOf])]

theorem c9_v0_witness :
    ∃ s1 s2, tryLockAll (ConcurrentRangeLock.new 1)
        [⟨258, 514, fun _ => 0⟩, ⟨1, 257, fun _ => 1⟩] = some ([true, true], s1) ∧
      size s1 = 2 ∧
      releaseAll s1 [(1, 257), (258, 514)] = some ([true, true], s2) ∧
      size s2 = 0 ∧
      ∀ k, k ≤ 1 →
        (getCell s2.nodes s2.head k).map AtomicMarkableReference.get = some (s2.tail, false) :=
  c9_v0_partition_workload 1 [⟨258, 514, fun _ => 0⟩, ⟨1, 257, fun _ => 1⟩]
    [(1, 257), (258, 514)]
    (by intro q hq; simp at hq; rcases hq with rfl | rfl <;> decide)
    (by simp)
    (by simp [List.Perm.swap])

/-- C10: in every state of the V0 ConcurrentRangeLock reached from a fresh lock by
single-threaded tryLock and releaseLock calls in the domain, releaseLock of a held interval
returns true, removes exactly that interval from the held intervals, the others staying in
the same order, and decreases size() by one. -/
theorem c10_v0_releaseLock_held (maxLevel : Nat) (s : ConcurrentRangeLock)
    (start end_ : Nat) (hR : Reachable maxLevel s) (hheld : (start, end_) ∈ held s) :
    ∃ s1 A B, releaseLock s start end_ = some (true, s1) ∧
      held s = A ++ (start, end_) :: B ∧ held s1 = A ++ B ∧ size s1 + 1 = size s := by
  obtain ⟨L, hI, -⟩ := v0_Reachable_inv hR
  rw [hI.v0_held_eq] at hheld
  obtain ⟨v, hv, hvs⟩ := List.mem_map.mp hheld
  obtain ⟨P, R, rfl⟩ := List.append_of_mem hv
  obtain ⟨s1, hr, -, hI1⟩ := v0_releaseLock_held hI
  simp only [Prod.mk.injEq] at hvs
  refine ⟨s1, P.map (fun e => (e.start, e.end_)), R.map (fun e => (e.start, e.end_)), ?_, ?_,
    ?_, ?_⟩
  · rw [← hvs.1, ← hvs.2]; exact hr
  · rw [hI.v0_held_eq, ← hvs.1, ← hvs.2]; simp
  · rw [hI1.v0_held_eq]; simp
  · unfold size
    rw [hI.count, hI1.count]
    simp only [List.length_append, List.length_cons]
    omega

theorem c10_v0_witness :
    tryLock (ConcurrentRangeLock.new 1) 10 20 (fun _ => 0) = some (true, heldOnce) ∧
    size heldOnce = 1 ∧
    ∃ s1 A B, releaseLock heldOnce 10 20 = some (true, s1) ∧
      held heldOnce = A ++ (10, 20) :: B ∧ held s1 = A ++ B ∧ size s1 + 1 = size heldOnce :=
  ⟨by decide, by decide,
    c10_v0_releaseLock_held 1 heldOnce 10 20 v0_heldOnce_reachable (by decide)⟩

end V0

namespace V2

/-! ## V2: the claim -/

theorem v2_heldOnce_reachable : Reachable heldOnce [2] :=
  @Reachable.acquired ListRL.new heldOnce [] 10 20 ⟨2⟩ Reachable.fresh (by decide) (by decide)

/-- C2: in every state of the V2 list reached from an empty list by single-threaded
MutexRangeAcquire calls with start below end and MutexRangeRelease calls on handles acquired
before, MutexRangeAcquire(list, start, end) with start below end returns a non-null handle
if and only if no live node overlaps the interval in the half-open sense, and when it
returns null the live intervals are unchanged. -/
theorem c2_v2_acquire_iff_no_overlap (s : ListRL) (H : List Nat) (start end_ : Nat)
    (hR : Reachable s H) (hlt : start < end_) :
    ∃ r s1, MutexRangeAcquire s start end_ = some (r, s1) ∧
      (r.isSome = true ↔ ∀ iv ∈ live s, ¬ (iv.1 < end_ ∧ start < iv.2)) ∧
      (r = none → live s1 = live s) := by
  obtain ⟨C, hI⟩ := v2_Reachable_inv hR
  obtain ⟨s1, hr, hI1⟩ := v2_MutexRangeAcquire_spec hI hlt
  refine ⟨_, s1, hr, ?_, ?_⟩
  · cases hv : (walkAbs ⟨addrOf s.nodes.length, start, end_, false⟩ C).1
    · simp only [Bool.false_eq_true, if_false, Option.isSome_none, false_iff]
      intro hno
      obtain ⟨iv, hiv, hx⟩ := v2_walkAbs_false_overlap _ C hv
      rw [← hI.v2_live_eq] at hiv
      exact hno iv hiv hx
    · simp only [if_true, Option.isSome_some, true_iff]
      intro iv hiv
      rw [hI.v2_live_eq] at hiv
      exact (v2_walkAbs_true _ rfl C hI.sorted hI.dom hv).2 iv hiv
  · intro hnone
    cases hv : (walkAbs ⟨addrOf s.nodes.length, start, end_, false⟩ C).1
    · rw [hI1.v2_live_eq, hI.v2_live_eq]
      exact v2_walkAbs_false_live _ C hv
    · rw [hv] at hnone
      simp at hnone

theorem c2_v2_witness :
    ∃ r s1, MutexRangeAcquire heldOnce 15 25 = some (r, s1) ∧
      (r.isSome = true ↔ ∀ iv ∈ live heldOnce, ¬ (iv.1 < 25 ∧ 15 < iv.2)) ∧
      (r = none → live s1 = live heldOnce) :=
  c2_v2_acquire_iff_no_overlap heldOnce [2] 15 25 v2_heldOnce_reachable (by decide)

end V2

namespace V0

/-! ## V0: further claims -/

/-- C11: in every state of the V0 ConcurrentRangeLock reached from a fresh lock by
single-threaded tryLock and releaseLock calls in the domain, releaseLock(start, end) with
start < end <= MAX-1 (so in particular with 1 <= start) returns, and it returns true if and
only if a held interval has exactly this start and this end; when it returns false the whole
lock, node list and size() included, is unchanged. -/
theorem c11_v0_releaseLock_iff_held (maxLevel : Nat) (s : ConcurrentRangeLock)
    (start end_ : Nat) (hR : Reachable maxLevel s) (h2 : start < end_)
    (h3 : end_ ≤ UINT64_MAX - 1) :
    ∃ r s1, releaseLock s start end_ = some (r, s1) ∧
      (r = true ↔ (start, end_) ∈ held s) ∧ (r = false → s1 = s) := by
  obtain ⟨L, hI, -⟩ := v0_Reachable_inv hR
  rw [hI.v0_held_eq]
  rcases v0_releaseLock_spec hI h2 h3 with ⟨habs, hr⟩ | ⟨s1, P, R, lv, a, hL, hr, -, -⟩
  · refine ⟨false, s, hr, ?_, fun _ => rfl⟩
    constructor
    · intro h; cases h
    · intro h; exact absurd h habs
  · refine ⟨true, s1, hr, ?_, fun h => by cases h⟩
    constructor
    · intro _
      rw [hL]
      exact List.mem_map.mpr ⟨⟨a, start, end_, lv⟩, by simp, rfl⟩
    · intro _; rfl

theorem c11_v0_witness :
    (∃ r s1, releaseLock (ConcurrentRangeLock.new 1) 5 10 = some (r, s1) ∧
      (r = true ↔ (5, 10) ∈ held (ConcurrentRangeLock.new 1)) ∧
      (r = false → s1 = ConcurrentRangeLock.new 1)) ∧
    (∃ r s1, releaseLock heldOnce 10 15 = some (r, s1) ∧
      (r = true ↔ (10, 15) ∈ held heldOnce) ∧ (r = false → s1 = heldOnce)) :=
  ⟨c11_v0_releaseLock_iff_held 1 (ConcurrentRangeLock.new 1) 5 10 Reachable.fresh
      (by decide) (by decide),
    c11_v0_releaseLock_iff_held 1 heldOnce 10 15 v0_heldOnce_reachable
      (by decide) (by decide)⟩

/-- C14: for every state S of the V0 ConcurrentRangeLock reached from a fresh lock by
single-threaded calls in the domain and every interval (a, b) of the domain with
tryLock(a, b) = true in S, the releaseLock(a, b) that follows returns true and yields a state
whose held intervals and size() are those of S, and in which every tryLock of the domain
returns the boolean it returns in S, whatever the random levels. -/
theorem c14_v0_round_trip (maxLevel : Nat) (s s1 : ConcurrentRangeLock) (a b : Nat)
    (rand : Nat → Nat) (hR : Reachable maxLevel s) (h1 : 1 ≤ a) (h2 : a < b)
    (h3 : b ≤ UINT64_MAX - 1) (ht : tryLock s a b rand = some (true, s1)) :
    ∃ s2, releaseLock s1 a b = some (true, s2) ∧ held s2 = held s ∧ size s2 = size s ∧
      ∀ (c d : Nat) (rand1 rand2 : Nat → Nat), 1 ≤ c → c < d → d ≤ UINT64_MAX - 1 →
        ∃ r t t2, tryLock s c d rand1 = some (r, t) ∧ tryLock s2 c d rand2 = some (r, t2) := by
  obtain ⟨L, hI, -⟩ := v0_Reachable_inv hR
  rcases v0_tryLock_spec hI h1 h2 h3 rand with ⟨-, hr⟩ | ⟨-, s1', P, R, hPR, hr, -, hI1⟩
  · rw [hr] at ht
    cases ht
  · rw [hr] at ht
    simp only [Option.some.injEq, Prod.mk.injEq, true_and] at ht
    subst ht
    obtain ⟨s2, hrel, -, hI2⟩ := v0_releaseLock_held hI1
    have hheld : held s2 = held s := by
      rw [hI2.v0_held_eq, hI.v0_held_eq, hPR]
    refine ⟨s2, hrel, hheld, ?_, ?_⟩
    · unfold size
      rw [hI2.count, hI.count, hPR]
    · intro c d rand1 rand2 hc1 hc2 hc3
      apply v0_tryLock_same_result hI hI2 _ hc1 hc2 hc3
      intro iv
      rw [hPR]

theorem c14_v0_witness :
    ∃ s2, releaseLock heldOnce 10 20 = some (true, s2) ∧
      held s2 = held (ConcurrentRangeLock.new 1) ∧ size s2 = size (ConcurrentRangeLock.new 1) ∧
      ∀ (c d : Nat) (rand1 rand2 : Nat → Nat), 1 ≤ c → c < d → d ≤ UINT64_MAX - 1 →
        ∃ r t t2, tryLock (ConcurrentRangeLock.new 1) c d rand1 = some (r, t) ∧
          tryLock s2 c d rand2 = some (r, t2) :=
  c14_v0_round_trip 1 (ConcurrentRangeLock.new 1) heldOnce 10 20 (fun _ => 0) Reachable.fresh
    (by decide) (by decide) (by decide) (by decide)

/-- C16: in every state of the V0 ConcurrentRangeLock reached from a fresh lock by
single-threaded tryLock and releaseLock calls in the domain, whatever they return, size()
is the number of nodes met between the sentinels when following next[0] from head; the
64-bit counter holds that number itself, so it has never wrapped below zero. -/
theorem c16_v0_size_counts_nodes (maxLevel : Nat) (s : ConcurrentRangeLock)
    (hR : Reachable maxLevel s) :
    size s = (levelNodes s 0).length ∧ size s < 2 ^ 64 := by
  obtain ⟨L, hI, -⟩ := v0_Reachable_inv hR
  have hl := hI.v0_length_lt
  unfold size
  rw [hI.v0_levelNodes_eq (Nat.zero_le _), atLevel_zero, List.length_map, hI.count]
  refine ⟨rfl, ?_⟩
  simp only [UINT64_MAX] at hl
  omega

theorem c16_v0_witness :
    size heldTwice = (levelNodes heldTwice 0).length ∧ size heldTwice < 2 ^ 64 :=
  c16_v0_size_counts_nodes 1 heldTwice v0_heldTwice_reachable

/-- C17: in every state of the V0 ConcurrentRangeLock reached from a fresh lock by
single-threaded calls in the domain and for every level k in 0..maxLevel, following next[k]
from head ends at tail after the finitely many nodes of the level (the last of them holds
the unmarked reference to tail), and the start values along the chain, from 0 at head to
MAX at tail, are strictly increasing. -/
theorem c17_v0_levels_sorted (maxLevel : Nat) (s : ConcurrentRangeLock) (k : Nat)
    (hR : Reachable maxLevel s) (hk : k ≤ maxLevel) :
    (getCell s.nodes (levelLast s k) k).map AtomicMarkableReference.get =
        some (s.tail, false) ∧
      (levelStarts s k).length = (levelNodes s k).length + 2 ∧
      (levelStarts s k).head? = some 0 ∧ (levelStarts s k).getLast? = some UINT64_MAX ∧
      (levelStarts s k).Pairwise (fun x y => x < y) := by
  obtain ⟨L, hI, hm⟩ := v0_Reachable_inv hR
  have hk' : k ≤ s.maxLevel := by omega
  refine ⟨?_, ?_, ?_, ?_, ?_⟩
  · have hc := hI.wf.links k hk'
    have e1 : headE s.maxLevel :: atLevel k L ++ [tailE s.maxLevel] =
        headE s.maxLevel :: atLevel k (L ++ []) ++ [tailE s.maxLevel] := by simp
    rw [e1] at hc
    have hl : getCell s.nodes (predAt (headE s.maxLevel) L k).addr k =
        some ⟨(succAt (tailE s.maxLevel) [] k).addr⟩ := link_pred_succ hc
    rw [hI.v0_levelLast hk', hl, succAt_nil, hI.tail_eq]
    simp only [Option.map_some']
    rw [v0_get_even (by simp [tailE, addrOf])]
  · rw [hI.v0_levelStarts hk', hI.v0_levelNodes_eq hk']
    simp
  · rw [hI.v0_levelStarts hk']
    simp [headE]
  · rw [hI.v0_levelStarts hk']
    have e1 : (headE s.maxLevel :: atLevel k L ++ [tailE s.maxLevel]).map Entry.start =
        (headE s.maxLevel :: atLevel k L).map Entry.start ++ [UINT64_MAX] := by
      simp [tailE]
    rw [e1, List.getLast?_concat]
  · rw [hI.v0_levelStarts hk']
    exact hI.v0_starts_increasing k

theorem c17_v0_witness :
    (getCell heldTwice.nodes (levelLast heldTwice 0) 0).map AtomicMarkableReference.get =
        some (heldTwice.tail, false) ∧
      (levelStarts heldTwice 0).length = (levelNodes heldTwice 0).length + 2 ∧
      (levelStarts heldTwice 0).head? = some 0 ∧
      (levelStarts heldTwice 0).getLast? = some UINT64_MAX ∧
      (levelStarts heldTwice 0).Pairwise (fun x y => x < y) :=
  c17_v0_levels_sorted 1 heldTwice 0 v0_heldTwice_reachable (by decide)

/-- C18: in every state of the V0 ConcurrentRangeLock reached from a fresh lock by
single-threaded calls in the domain, every node met at a level k > 0 when following next[k]
from head is also met at level k - 1, and a node of the list with top level t is met at
exactly the levels 0..t. -/
theorem c18_v0_level_consistency (maxLevel : Nat) (s : ConcurrentRangeLock)
    (hR : Reachable maxLevel s) :
    (∀ k p, 0 < k → p ∈ levelNodes s k → p ∈ levelNodes s (k - 1)) ∧
    ∀ p, p ∈ levelNodes s 0 →
      ∃ n, deref s.nodes p = some n ∧ ∀ k, p ∈ levelNodes s k ↔ k ≤ n.topLevel := by
  obtain ⟨L, hI, -⟩ := v0_Reachable_inv hR
  have hmem : ∀ k p, p ∈ levelNodes s k → ∃ e ∈ L, e.addr = p ∧ k ≤ e.level := by
    intro k p hp
    by_cases hk : k ≤ s.maxLevel
    · rw [hI.v0_levelNodes_eq hk] at hp
      obtain ⟨e, he, hee⟩ := List.mem_map.mp hp
      exact ⟨e, (mem_atLevel.mp he).1, hee, (mem_atLevel.mp he).2⟩
    · rw [hI.v0_levelNodes_above (by omega)] at hp
      cases hp
  refine ⟨?_, ?_⟩
  · intro k p hk hp
    obtain ⟨e, he, hee, hle⟩ := hmem k p hp
    rw [← hee]
    exact (hI.v0_mem_levelNodes he (k - 1)).mpr (by omega)
  · intro p hp
    obtain ⟨e, he, hee, -⟩ := hmem 0 p hp
    obtain ⟨n, hn, -, -, ht, -⟩ := hI.wf.agree e (by simp [he])
    refine ⟨n, by rw [← hee]; exact hn, ?_⟩
    intro k
    rw [← hee, ht]
    exact hI.v0_mem_levelNodes he k

theorem c18_v0_witness :
    (∀ k p, 0 < k → p ∈ levelNodes heldTwice k → p ∈ levelNodes heldTwice (k - 1)) ∧
    ∀ p, p ∈ levelNodes heldTwice 0 →
      ∃ n, deref heldTwice.nodes p = some n ∧
        ∀ k, p ∈ levelNodes heldTwice k ↔ k ≤ n.topLevel :=
  c18_v0_level_consistency 1 heldTwice v0_heldTwice_reachable

end V0

namespace V1

/-! ## V1: further claims -/

/-- C12, as the code has it: in every state of ConcurrentRangeLock_V1 (MAX_LEVEL at least 1)
reached from a fresh lock by single-threaded tryLock and releaseLock calls in the domain,
releaseLock(start, end) with start below MAX of an interval that is not held does not
return: it ends the process through exit(0), the lock being unchanged up to then; and
releaseLock of a held interval returns true, after which the same releaseLock ends the
process, so of two successive calls exactly one returns true. -/
theorem c12_v1_releaseLock_absent_exits (maxLevel : Nat) (s : ConcurrentRangeLock_V1)
    (start end_ : Nat) (hml : 1 ≤ maxLevel) (hR : Reachable maxLevel s)
    (hM : start < UINT64_MAX) :
    ((start, end_) ∉ held s → releaseLock s start end_ = some (Ret.exited, s)) ∧
    ((start, end_) ∈ held s →
      ∃ s1, releaseLock s start end_ = some (Ret.ret true, s1) ∧
        releaseLock s1 start end_ = some (Ret.exited, s1)) := by
  obtain ⟨-, L, hI⟩ := v1_Reachable_inv hml hR
  rw [hI.v1_held_eq]
  refine ⟨?_, ?_⟩
  · intro habs
    apply v1_releaseLock_absent hI hM
    intro e he hc
    apply habs
    rw [← hc.1, ← hc.2]
    exact List.mem_map.mpr ⟨e, he, rfl⟩
  · intro hheld
    obtain ⟨v, hv, hvs⟩ := List.mem_map.mp hheld
    simp only [Prod.mk.injEq] at hvs
    obtain ⟨P, R, rfl⟩ := List.append_of_mem hv
    obtain ⟨s1, hr, -, hI1⟩ := v1_releaseLock_held hI
    rw [← hvs.1, ← hvs.2]
    refine ⟨s1, hr, ?_⟩
    apply v1_releaseLock_absent hI1 (by rw [hvs.1]; exact hM)
    exact hI.v1_intervals_ne

theorem c12_v1_witness :
    ((5, 10) ∉ held (ConcurrentRangeLock_V1.new 1) →
      releaseLock (ConcurrentRangeLock_V1.new 1) 5 10 =
        some (Ret.exited, ConcurrentRangeLock_V1.new 1)) ∧
    ((5, 10) ∈ held (ConcurrentRangeLock_V1.new 1) →
      ∃ s1, releaseLock (ConcurrentRangeLock_V1.new 1) 5 10 = some (Ret.ret true, s1) ∧
        releaseLock s1 5 10 = some (Ret.exited, s1)) :=
  c12_v1_releaseLock_absent_exits 1 (ConcurrentRangeLock_V1.new 1) 5 10 (by decide)
    Reachable.fresh (by decide)

/-- C12 as stated fails: releaseLock(5, 10) on a fresh lock does not return false, it ends
the process through exit(0); and after tryLock(10, 20) the first releaseLock(10, 20) returns
true while the second ends the process instead of returning false. -/
theorem c12_v1_counterexample :
    (5, 10) ∉ held (ConcurrentRangeLock_V1.new 1) ∧
    (releaseLock (ConcurrentRangeLock_V1.new 1) 5 10).map Prod.fst = some Ret.exited ∧
    (releaseLock (ConcurrentRangeLock_V1.new 1) 5 10).map Prod.fst ≠ some (Ret.ret false) ∧
    (releaseLock heldOnce 10 20).map Prod.fst = some (Ret.ret true) ∧
    ((releaseLock heldOnce 10 20).bind fun r => (releaseLock r.2 10 20).map Prod.fst) =
      some Ret.exited := by
  refine ⟨by decide, by decide, by decide, by decide, by decide⟩

end V1

namespace V3

/-! ## V3: further claims -/

/-- C13 fails on the code: releaseLock(5) on a fresh SongRangeLock, where no interval starts
at 5, unlinks the tail sentinel from head at every level (each head.forward[k] becomes the
null pointer) and takes the counter from 0 to 2^64 - 1; and after tryLock(10, 20) the same
releaseLock(5) removes the held interval (10, 20). -/
theorem c13_v3_release_absent_corrupts :
    5 ∉ (held SongRangeLock.new).map Prod.fst ∧
    (∃ s1, releaseLock SongRangeLock.new 5 = some s1 ∧
      (∀ k, k ≤ MAX_LEVEL → getForward s1.nodes s1.head_ k = some 0) ∧
      size s1 = 2 ^ 64 - 1) ∧
    held heldOnce = [(10, 20)] ∧
    (releaseLock heldOnce 5).map held = some [] := by
  refine ⟨by decide, ⟨_, rfl, ?_, by decide⟩, by decide, by decide⟩
  intro k hk
  unfold MAX_LEVEL at hk
  interval_cases k <;> decide

end V3

namespace V2

/-! ## V2: further claims -/

/-- C15: in every state of the V2 list reached from an empty list by single-threaded
acquires and releases, when MutexRangeAcquire(list, a, b) with a below b returns a handle rl,
MutexRangeRelease(rl) leaves the live intervals as they were before the acquire; the released
node is then still on the chain from head, with its next pointer marked; and a following
MutexRangeAcquire of any interval c below d that overlaps no interval live before the
acquire, so also one that overlaps [a, b), returns a non-null handle. -/
theorem c15_v2_round_trip (s s1 : ListRL) (H : List Nat) (a b : Nat) (rl : RangeLock)
    (hR : Reachable s H) (hab : a < b)
    (hacq : MutexRangeAcquire s a b = some (some rl, s1)) :
    ∃ s2, MutexRangeRelease s1 rl = some s2 ∧ live s2 = live s ∧
      rl.node ∈ chainFrom s2.nodes s2.nodes.length (unmark s2.head) ∧
      (deref s2.nodes rl.node).map (fun n => isMarked n.next) = some true ∧
      ∀ c d, c < d → (∀ iv ∈ live s, ¬ (iv.1 < d ∧ c < iv.2)) →
        ∃ rl2 s3, MutexRangeAcquire s2 c d = some (some rl2, s3) := by
  obtain ⟨C, hI⟩ := v2_Reachable_inv hR
  obtain ⟨s1', hr, hI1⟩ := v2_MutexRangeAcquire_spec hI hab
  have hlC : addrOf s.nodes.length ∉ C.map Item.addr := fun h => by
    have := (hI.v2_addr_lt _ h).1
    omega
  cases hv : (walkAbs ⟨addrOf s.nodes.length, a, b, false⟩ C).1
  · rw [hr, hv] at hacq
    simp at hacq
  · rw [hr, hv] at hacq
    rw [hv] at hI1
    simp only [if_true, Option.some.injEq, Prod.mk.injEq] at hacq hI1
    obtain ⟨hrl, hs1⟩ := hacq
    subst hs1
    subst hrl
    obtain ⟨s2, hrel, hI2⟩ := v2_MutexRangeRelease_spec hI1 (List.mem_cons_self _ _)
    have hlive : live s2 = live s := by
      rw [hI2.v2_live_eq, hI.v2_live_eq]
      exact v2_round_trip_live ⟨addrOf s.nodes.length, a, b, false⟩ C hlC hv
    have hmem : (⟨addrOf s.nodes.length, a, b, true⟩ : Item) ∈
        markDead (addrOf s.nodes.length)
          (walkAbs ⟨addrOf s.nodes.length, a, b, false⟩ C).2 := by
      unfold markDead
      apply List.mem_map.mpr
      exact ⟨_, v2_walkAbs_true_mem _ C hv, by simp⟩
    refine ⟨s2, hrel, hlive, ?_, ?_, ?_⟩
    · rw [hI2.v2_chainFrom_eq]
      exact List.mem_map.mpr ⟨_, hmem, rfl⟩
    · obtain ⟨n, hn, hm⟩ := v2_Chain_mem_marked _ s2.head hI2.chain _ hmem
      have hn' : deref s2.nodes (addrOf s.nodes.length) = some n := hn
      simp only [hn', Option.map_some', Option.some.injEq]
      exact hm
    · intro c d hcd hno
      obtain ⟨s3, hr3, -⟩ := v2_MutexRangeAcquire_spec hI2 hcd
      cases hv3 : (walkAbs ⟨addrOf s2.nodes.length, c, d, false⟩
          (markDead (addrOf s.nodes.length)
            (walkAbs ⟨addrOf s.nodes.length, a, b, false⟩ C).2)).1
      · exfalso
        obtain ⟨iv, hiv, hx⟩ := v2_walkAbs_false_overlap _ _ hv3
        rw [← hI2.v2_live_eq, hlive] at hiv
        exact hno iv hiv hx
      · rw [hv3] at hr3
        exact ⟨_, s3, hr3⟩

theorem c15_v2_witness :
    ∃ s2, MutexRangeRelease heldOnce ⟨2⟩ = some s2 ∧ live s2 = live ListRL.new ∧
      (2 : Nat) ∈ chainFrom s2.nodes s2.nodes.length (unmark s2.head) ∧
      (deref s2.nodes 2).map (fun n => isMarked n.next) = some true ∧
      ∀ c d, c < d → (∀ iv ∈ live ListRL.new, ¬ (iv.1 < d ∧ c < iv.2)) →
        ∃ rl2 s3, MutexRangeAcquire s2 c d = some (some rl2, s3) :=
  c15_v2_round_trip ListRL.new heldOnce [] 10 20 ⟨2⟩ Reachable.fresh (by decide) (by decide)

end V2

namespace Contract

/-! ## The shared contract of V0 and V3 -/

/-- C19: for every single-threaded sequence of tryLock calls with 1 <= start < end <= MAX-1
and of releases of intervals held at that point (releaseLock(start, end) in V0,
releaseLock(start) in V3), for every maxLevel of V0 and whatever the random levels in either
lock, the lock-free skip list V0 and the coarse-grained skip list V3, both started fresh,
run the sequence to its end, return the same boolean for every tryLock and report the same
size() after every step. -/
theorem c19_v0_v3_same_contract (maxLevel : Nat) (ops : List Op)
    (hp : proper (V0.ConcurrentRangeLock.new maxLevel) ops = true) :
    ∃ obs, runV0 (V0.ConcurrentRangeLock.new maxLevel) ops = some obs ∧
      runV3 V3.SongRangeLock.new ops = some obs :=
  ct_simulation ops _ _ [] [] (V0.Inv.v0_fresh maxLevel) V3.Inv.v3_fresh
    (List.Perm.refl _) hp

theorem c19_witness :
    ∃ obs, runV0 (V0.ConcurrentRangeLock.new 1)
        [Op.tryLock 10 20 (fun _ => 0) (fun _ => 1), Op.tryLock 20 30 (fun _ => 1) (fun _ => 0),
          Op.tryLock 21 30 (fun _ => 0) (fun _ => 0), Op.release 10 20] = some obs ∧
      runV3 V3.SongRangeLock.new
        [Op.tryLock 10 20 (fun _ => 0) (fun _ => 1), Op.tryLock 20 30 (fun _ => 1) (fun _ => 0),
          Op.tryLock 21 30 (fun _ => 0) (fun _ => 0), Op.release 10 20] = some obs :=
  c19_v0_v3_same_contract 1
    [Op.tryLock 10 20 (fun _ => 0) (fun _ => 1), Op.tryLock 20 30 (fun _ => 1) (fun _ => 0),
      Op.tryLock 21 30 (fun _ => 0) (fun _ => 0), Op.release 10 20] (by decide)

end Contract

/-! ## The level generator of V0 and V3 -/

/-- C27: for every sequence rand of values returned by rand() and every MAX_LEVEL, the
randomLevel() of V0 and V3 returns min(k, MAX_LEVEL), where k is the number of leading odd
values among the first n values of the sequence, for any n >= MAX_LEVEL (so k counts the
leading odd values of the whole sequence as far as the minimum can tell); the result is at
most MAX_LEVEL and so an index into arrays of MAX_LEVEL + 1 elements. -/
theorem c27_randomLevel_leading_odd (rand : Nat → Nat) (maxLevel n : Nat)
    (hn : maxLevel ≤ n) :
    randomLevel rand maxLevel = min (leadingOdd ((List.range n).map rand)) maxLevel ∧
      randomLevel rand maxLevel ≤ maxLevel ∧
      randomLevel rand maxLevel < (List.replicate (maxLevel + 1) 0).length := by
  have hle := randomLevel_le rand maxLevel
  refine ⟨?_, hle, by simp; omega⟩
  unfold randomLevel
  rw [randomLevelLoop_eq rand maxLevel (maxLevel + 1) 0 (by omega) (Nat.zero_le _)]
  obtain ⟨d, rfl⟩ : ∃ d, n = maxLevel + d := ⟨n - maxLevel, by omega⟩
  have hsplit : List.range (maxLevel + d) = List.range' 0 maxLevel ++ List.range' maxLevel d := by
    have h := List.range'_append_1 0 maxLevel d
    rw [Nat.zero_add] at h
    rw [List.range_eq_range', h, Nat.add_comm]
  have hmin := leadingOdd_append_min ((List.range' 0 maxLevel).map rand)
    ((List.range' maxLevel d).map rand)
  rw [List.length_map, List.length_range'] at hmin
  rw [hsplit, List.map_append, Nat.zero_add, Nat.sub_zero]
  omega

theorem c27_witness :
    randomLevel (fun i => [3, 5, 4, 7].getD i 1) V3.MAX_LEVEL =
        min (leadingOdd ((List.range 4).map fun i => [3, 5, 4, 7].getD i 1)) V3.MAX_LEVEL ∧
      randomLevel (fun i => [3, 5, 4, 7].getD i 1) V3.MAX_LEVEL ≤ V3.MAX_LEVEL ∧
      randomLevel (fun i => [3, 5, 4, 7].getD i 1) V3.MAX_LEVEL <
        (List.replicate (V3.MAX_LEVEL + 1) 0).length :=
  c27_randomLevel_leading_odd (fun i => [3, 5, 4, 7].getD i 1) V3.MAX_LEVEL 4 (by decide)

namespace V0

/-! ## V0: the atomic markable reference -/

/-- C21: for every pointer value ref whose least-significant bit is 0 and every mark m,
after store(ref, m) on any AtomicMarkableReference, get returns the reference ref together
with the mark m and getReference returns ref; and unpack(pack(ref, m)) = (ref, m). -/
theorem c21_v0_store_get_round_trip (c : AtomicMarkableReference) (ref : Nat) (m : Bool)
    (hr : ref % 2 = 0) :
    (c.store ref m).get = (ref, m) ∧ (c.store ref m).getReference = ref ∧
      unpack (pack ref m) = (ref, m) := by
  have h := v0_unpack_pack hr m
  refine ⟨h, ?_, h⟩
  show (unpack (pack ref m)).1 = ref
  rw [h]

theorem c21_v0_witness :
    (AtomicMarkableReference.new.store 6 true).get = (6, true) ∧
      (AtomicMarkableReference.new.store 6 true).getReference = 6 ∧
      unpack (pack 6 true) = (6, true) :=
  c21_v0_store_get_round_trip AtomicMarkableReference.new 6 true (by decide)

/-- C22: for aligned pointers expectedRef and newRef (bit 0 clear) and any cell,
compareAndSet(expectedRef, newRef, expectedMark, newMark) returns true if and only if the
cell holds exactly (expectedRef, expectedMark), that is if get returns this pair; when it
returns true the cell holds (newRef, newMark) afterwards, and when it returns false the cell
is unchanged. -/
theorem c22_v0_compareAndSet (c : AtomicMarkableReference) (expectedRef newRef : Nat)
    (expectedMark newMark : Bool) (he : expectedRef % 2 = 0) (hn : newRef % 2 = 0) :
    ((c.compareAndSet expectedRef newRef expectedMark newMark).1 = true ↔
        c.get = (expectedRef, expectedMark)) ∧
      ((c.compareAndSet expectedRef newRef expectedMark newMark).1 = true →
        (c.compareAndSet expectedRef newRef expectedMark newMark).2.get = (newRef, newMark)) ∧
      ((c.compareAndSet expectedRef newRef expectedMark newMark).1 = false →
        (c.compareAndSet expectedRef newRef expectedMark newMark).2 = c) := by
  have hiff := v0_word_eq_pack_iff c.atomicRefMark he expectedMark
  unfold AtomicMarkableReference.compareAndSet AtomicMarkableReference.get
  by_cases hc : c.atomicRefMark = pack expectedRef expectedMark
  · rw [if_pos hc]
    refine ⟨⟨fun _ => hiff.mp hc, fun _ => rfl⟩, fun _ => v0_unpack_pack hn newMark, ?_⟩
    intro h; cases h
  · rw [if_neg hc]
    refine ⟨⟨?_, fun h => absurd (hiff.mpr h) hc⟩, ?_, fun _ => rfl⟩
    · intro h; cases h
    · intro h; cases h

theorem c22_v0_witness :
    (((⟨6⟩ : AtomicMarkableReference).compareAndSet 6 8 false true).1 = true ↔
        (⟨6⟩ : AtomicMarkableReference).get = (6, false)) ∧
      (((⟨6⟩ : AtomicMarkableReference).compareAndSet 6 8 false true).1 = true →
        ((⟨6⟩ : AtomicMarkableReference).compareAndSet 6 8 false true).2.get = (8, true)) ∧
      (((⟨6⟩ : AtomicMarkableReference).compareAndSet 6 8 false true).1 = false →
        ((⟨6⟩ : AtomicMarkableReference).compareAndSet 6 8 false true).2 = ⟨6⟩) :=
  c22_v0_compareAndSet ⟨6⟩ 6 8 false true (by decide) (by decide)

/-- C23: on any cell, attemptMark(expectedRef, newMark) returns true exactly when the
current reference equals expectedRef and the current mark differs from newMark; in that case
the cell afterwards holds (expectedRef, newMark); in every other case, the one where the
reference matches and the mark already equals newMark included, it returns false and the
cell is unchanged. -/
theorem c23_v0_attemptMark (c : AtomicMarkableReference) (expectedRef : Nat) (newMark : Bool) :
    ((c.attemptMark expectedRef newMark).1 = true ↔
        c.get.1 = expectedRef ∧ c.get.2 ≠ newMark) ∧
      ((c.attemptMark expectedRef newMark).1 = true →
        (c.attemptMark expectedRef newMark).2.get = (expectedRef, newMark)) ∧
      ((c.attemptMark expectedRef newMark).1 = false →
        (c.attemptMark expectedRef newMark).2 = c) ∧
      (c.get = (expectedRef, newMark) → c.attemptMark expectedRef newMark = (false, c)) := by
  unfold AtomicMarkableReference.attemptMark AtomicMarkableReference.get
  by_cases hc : (unpack c.atomicRefMark).1 = expectedRef ∧ (unpack c.atomicRefMark).2 ≠ newMark
  · have he : expectedRef % 2 = 0 := by rw [← hc.1]; exact v0_unpack_fst_even _
    simp only [hc, ne_eq, not_false_eq_true, and_self, if_true, true_iff]
    refine ⟨trivial, fun _ => v0_unpack_pack he newMark, ?_, ?_⟩
    · intro h; cases h
    · intro h
      rw [h] at hc
      exact absurd rfl hc.2
  · rw [if_neg hc]
    refine ⟨⟨?_, fun h => absurd h hc⟩, ?_, fun _ => rfl, fun _ => rfl⟩
    · intro h; cases h
    · intro h; cases h

theorem c23_v0_witness :
    (⟨7⟩ : AtomicMarkableReference).attemptMark 6 true = (false, ⟨7⟩) ∧
      (((⟨6⟩ : AtomicMarkableReference).attemptMark 6 true).1 = true →
        ((⟨6⟩ : AtomicMarkableReference).attemptMark 6 true).2.get = (6, true)) :=
  ⟨(c23_v0_attemptMark ⟨7⟩ 6 true).2.2.2 (by decide), (c23_v0_attemptMark ⟨6⟩ 6 true).2.1⟩

end V0

namespace V0

/-! ## V0: the searches and the unlinking -/

/-- C24: in every state of the V0 ConcurrentRangeLock reached from a fresh lock by
single-threaded calls in the domain, and for 1 <= start < end <= MAX-1 and arrays preds and
succs of maxLevel + 1 elements, findInsert(start, end, preds, succs) returns, leaves the
list as it is, and its result is exactly not(start > pred.end and end < curr.start), where
the level-0 chain from head to tail splits into the nodes with node.start < start, the
last of which is pred, followed by the nodes with node.start >= start, the first of which
is curr; and on return, for every level k <= maxLevel, preds[k].next[k] holds succs[k]
without a mark and preds[k].start < start <= succs[k].start. -/
theorem c24_v0_findInsert_result (maxLevel : Nat) (s : ConcurrentRangeLock) (start end_ : Nat)
    (preds succs : List Nat) (hR : Reachable maxLevel s) (h1 : 1 ≤ start) (h2 : start < end_)
    (h3 : end_ ≤ UINT64_MAX - 1) (hp : preds.length = maxLevel + 1)
    (hs : succs.length = maxLevel + 1) :
    ∃ A B pred curr pn cn preds1 succs1,
      s.head :: levelNodes s 0 ++ [s.tail] = A ++ B ∧
      A.getLast? = some pred ∧ B.head? = some curr ∧
      (∀ q ∈ A, ∃ n, deref s.nodes q = some n ∧ n.start < start) ∧
      (∀ q ∈ B, ∃ n, deref s.nodes q = some n ∧ start ≤ n.start) ∧
      deref s.nodes pred = some pn ∧ deref s.nodes curr = some cn ∧
      findInsert s.nodes.length s start end_ preds succs =
        some (!(decide (start > pn.end_) && decide (end_ < cn.start)), s, preds1, succs1) ∧
      ∀ k, k ≤ maxLevel → ∃ p c pk ck, preds1[k]? = some p ∧ succs1[k]? = some c ∧
        (getCell s.nodes p k).map AtomicMarkableReference.get = some (c, false) ∧
        deref s.nodes p = some pk ∧ deref s.nodes c = some ck ∧
        pk.start < start ∧ start ≤ ck.start := by
  obtain ⟨L, hI, hml⟩ := v0_Reachable_inv hR
  subst hml
  obtain ⟨P, R, preds1, succs1, hL, hb, ha, hf, hk⟩ :=
    hI.v0_findInsert_full h1 (by omega : start ≤ UINT64_MAX) end_ preds succs hp hs
  subst hL
  have hagP : ∀ e ∈ headE s.maxLevel :: P, Agree s.nodes e := by
    intro e he
    apply hI.wf.agree
    simp only [List.mem_append, List.mem_cons, List.mem_singleton] at he ⊢
    tauto
  have hagR : ∀ e ∈ R ++ [tailE s.maxLevel], Agree s.nodes e := by
    intro e he
    apply hI.wf.agree
    simp only [List.mem_append, List.mem_cons, List.mem_singleton] at he ⊢
    tauto
  obtain ⟨pn, hpn, -, hpe, -, -⟩ := hagP _ (predAt_mem_all (headE s.maxLevel) P 0)
  obtain ⟨cn, hcn, hcs, -, -, -⟩ := hagR _ (succAt_mem_all (tailE s.maxLevel) R 0)
  refine ⟨(headE s.maxLevel :: P).map Entry.addr, (R ++ [tailE s.maxLevel]).map Entry.addr,
    (predAt (headE s.maxLevel) P 0).addr, (succAt (tailE s.maxLevel) R 0).addr, pn, cn,
    preds1, succs1, v0_levelChain_zero hI, v0_getLast?_map_cons _ _, v0_head?_map_append _ _,
    ?_, ?_, hpn, hcn, ?_, ?_⟩
  · intro q hq
    obtain ⟨e, he, rfl⟩ := List.mem_map.mp hq
    obtain ⟨n, hn, hns, -⟩ := hagP e he
    exact ⟨n, hn, by rw [hns]; exact hb e he⟩
  · intro q hq
    obtain ⟨e, he, rfl⟩ := List.mem_map.mp hq
    obtain ⟨n, hn, hns, -⟩ := hagR e he
    exact ⟨n, hn, by rw [hns]; exact ha e he⟩
  · rw [hf, hpe, hcs]
  · intro k hkl
    obtain ⟨hp1, hs1, hlink⟩ := hk k hkl
    obtain ⟨pk, hpk, hpks, -⟩ := hagP _ (predAt_mem_all (headE s.maxLevel) P k)
    obtain ⟨ck, hck, hcks, -⟩ := hagR _ (succAt_mem_all (tailE s.maxLevel) R k)
    refine ⟨_, _, pk, ck, hp1, hs1, ?_, hpk, hck, ?_, ?_⟩
    · unfold Link at hlink
      rw [hlink, Option.map_some']
      obtain ⟨i, hi, -⟩ := deref_some_addr hck
      rw [v0_get_even (by rw [hi]; exact addrOf_even i)]
    · rw [hpks]; exact hb _ (predAt_mem_all (headE s.maxLevel) P k)
    · rw [hcks]; exact ha _ (succAt_mem_all (tailE s.maxLevel) R k)

theorem c24_v0_witness :
    ∃ A B pred curr pn cn preds1 succs1,
      heldTwice.head :: levelNodes heldTwice 0 ++ [heldTwice.tail] = A ++ B ∧
      A.getLast? = some pred ∧ B.head? = some curr ∧
      (∀ q ∈ A, ∃ n, deref heldTwice.nodes q = some n ∧ n.start < 22) ∧
      (∀ q ∈ B, ∃ n, deref heldTwice.nodes q = some n ∧ 22 ≤ n.start) ∧
      deref heldTwice.nodes pred = some pn ∧ deref heldTwice.nodes curr = some cn ∧
      findInsert heldTwice.nodes.length heldTwice 22 28 [0, 0] [0, 0] =
        some (!(decide (22 > pn.end_) && decide (28 < cn.start)), heldTwice, preds1, succs1) ∧
      ∀ k, k ≤ 1 → ∃ p c pk ck, preds1[k]? = some p ∧ succs1[k]? = some c ∧
        (getCell heldTwice.nodes p k).map AtomicMarkableReference.get = some (c, false) ∧
        deref heldTwice.nodes p = some pk ∧ deref heldTwice.nodes c = some ck ∧
        pk.start < 22 ∧ 22 ≤ ck.start :=
  c24_v0_findInsert_result 1 heldTwice 22 28 [0, 0] [0, 0] v0_heldTwice_reachable
    (by decide) (by decide) (by decide) rfl rfl

/-- C25: in every state of the V0 ConcurrentRangeLock reached from a fresh lock by
single-threaded calls in the domain, when releaseLock(start, end) returns true the node that
held (start, end), which was met from head at each of the levels 0..topLevel, is afterwards
met at no level when following next[k] from head; and in every such reachable state, no node
of the chain from head to tail carries a mark in any of its next cells. -/
theorem c25_v0_physical_unlink (maxLevel : Nat) (s s1 : ConcurrentRangeLock) (start end_ : Nat)
    (hR : Reachable maxLevel s) (h2 : start < end_) (h3 : end_ ≤ UINT64_MAX - 1)
    (hrel : releaseLock s start end_ = some (true, s1)) :
    (∃ p n, p ∈ levelNodes s 0 ∧ deref s.nodes p = some n ∧ n.start = start ∧
      n.end_ = end_ ∧ (∀ k, k ≤ n.topLevel → p ∈ levelNodes s k) ∧
      ∀ k, p ∉ levelNodes s1 k) ∧
    ∀ t, Reachable maxLevel t →
      ∀ p ∈ t.head :: levelNodes t 0 ++ [t.tail], ∀ (k : Nat) (c : AtomicMarkableReference),
        getCell t.nodes p k = some c → c.get.2 = false := by
  refine ⟨?_, ?_⟩
  · obtain ⟨L, hI, -⟩ := v0_Reachable_inv hR
    rcases v0_releaseLock_spec hI h2 h3 with ⟨-, hr⟩ | ⟨s1', P, R, lv, a, hL, hr, hml, hI1⟩
    · rw [hr] at hrel
      cases hrel
    · rw [hr] at hrel
      simp only [Option.some.injEq, Prod.mk.injEq, true_and] at hrel
      subst hrel
      subst hL
      have hv : (⟨a, start, end_, lv⟩ : Entry) ∈ P ++ ⟨a, start, end_, lv⟩ :: R := by simp
      obtain ⟨n, hn, hs, he, ht, -⟩ := hI.wf.agree ⟨a, start, end_, lv⟩ (by simp)
      refine ⟨a, n, ?_, hn, hs, he, ?_, hI.v0_released_unlinked hI1 hml⟩
      · exact (hI.v0_mem_levelNodes hv 0).mpr (Nat.zero_le _)
      · intro k hk
        exact (hI.v0_mem_levelNodes hv k).mpr (by rw [← ht]; exact hk)
  · intro t ht
    obtain ⟨L, hI, -⟩ := v0_Reachable_inv ht
    exact hI.v0_no_marks

theorem c25_v0_witness :
    (∃ p n, p ∈ levelNodes heldTwice 0 ∧ deref heldTwice.nodes p = some n ∧ n.start = 10 ∧
      n.end_ = 20 ∧ (∀ k, k ≤ n.topLevel → p ∈ levelNodes heldTwice k) ∧
      ∀ k, p ∉ levelNodes
        { nodes := [⟨0, 0, 1, [⟨8⟩, ⟨4⟩]⟩, ⟨UINT64_MAX, UINT64_MAX, 1, [⟨0⟩, ⟨0⟩]⟩,
            ⟨10, 20, 0, [⟨9⟩]⟩, ⟨30, 40, 0, [⟨4⟩]⟩],
          maxLevel := 1, elementsCount := 1, tail := 4, head := 2 } k) ∧
    ∀ t, Reachable 1 t →
      ∀ p ∈ t.head :: levelNodes t 0 ++ [t.tail], ∀ (k : Nat) (c : AtomicMarkableReference),
        getCell t.nodes p k = some c → c.get.2 = false :=
  c25_v0_physical_unlink 1 heldTwice _ 10 20 v0_heldTwice_reachable (by decide) (by decide)
    (by decide)

end V0

namespace V1

/-! ## V1: the release of a held interval -/

/-- C28: in every state of ConcurrentRangeLock_V1 (MAX_LEVEL at least 1) reached from a fresh
lock by single-threaded tryLock and releaseLock calls in the domain, and for every held
interval (start, end), which then has start < end: findExact(start, end) returns a
levelFound equal to the top level of the node holding that interval, with
succs[levelFound] that node; releaseLock(start, end) returns true; the node, which was
linked at each of its levels 0..topLevel, is afterwards the one node missing from the
chain of every level; the held intervals are those held before without (start, end); and
size() has decreased by one. -/
theorem c28_v1_releaseLock_held (maxLevel : Nat) (s : ConcurrentRangeLock_V1)
    (start end_ : Nat) (hml : 1 ≤ maxLevel) (hR : Reachable maxLevel s)
    (hh : (start, end_) ∈ held s) :
    ∃ p n preds succs s1, p ∈ levelNodes s 0 ∧ deref s.nodes p = some n ∧
      n.start = start ∧ n.end_ = end_ ∧ start < end_ ∧
      findExact s.nodes.length s start end_ = some ((n.topLevel : Int), preds, succs) ∧
      succs[n.topLevel]? = some p ∧
      releaseLock s start end_ = some (Ret.ret true, s1) ∧
      (∀ k, levelNodes s1 k = (levelNodes s k).filter (fun q => decide (q ≠ p))) ∧
      (∀ k, k ≤ n.topLevel → p ∈ levelNodes s k) ∧
      held s1 = (held s).filter (fun iv => decide (iv ≠ (start, end_))) ∧
      size s1 + 1 = size s := by
  obtain ⟨-, L, hI⟩ := v1_Reachable_inv hml hR
  rw [hI.v1_held_eq] at hh
  obtain ⟨v, hv, hvs⟩ := List.mem_map.mp hh
  simp only [Prod.mk.injEq] at hvs
  obtain ⟨rfl, rfl⟩ := hvs
  obtain ⟨P, R, rfl⟩ := List.append_of_mem hv
  obtain ⟨n, preds, succs, s1, h1, h2, h3, h4, h5, h6, h7, h8, h9, h10, h11, h12, h13⟩ :=
    v1_release_full hI
  rw [← h5] at h7 h8 h11
  exact ⟨v.addr, n, preds, succs, s1, h1, h2, h3, h4, h6, h7, h8, h9, h10, h11, h12, h13⟩

theorem c28_v1_witness :
    ∃ p n preds succs s1, p ∈ levelNodes heldOnce 0 ∧ deref heldOnce.nodes p = some n ∧
      n.start = 10 ∧ n.end_ = 20 ∧ 10 < 20 ∧
      findExact heldOnce.nodes.length heldOnce 10 20 = some ((n.topLevel : Int), preds, succs) ∧
      succs[n.topLevel]? = some p ∧
      releaseLock heldOnce 10 20 = some (Ret.ret true, s1) ∧
      (∀ k, levelNodes s1 k = (levelNodes heldOnce k).filter (fun q => decide (q ≠ p))) ∧
      (∀ k, k ≤ n.topLevel → p ∈ levelNodes heldOnce k) ∧
      held s1 = (held heldOnce).filter (fun iv => decide (iv ≠ (10, 20))) ∧
      size s1 + 1 = size heldOnce :=
  c28_v1_releaseLock_held 1 heldOnce 10 20 (by decide) v1_heldOnce_reachable (by decide)

end V1

namespace V0

/-! ## V0: marks are never cleared -/

/-- C26: in V0 a mark, once set, stays. On one cell: a compareAndSet with expected mark
false and an aligned expected reference, and an attemptMark(_, true), both fail and leave the
cell as it is when the cell carries the mark. On the whole heap, from any state (reachable
or not, with marked nodes still linked or not): whenever tryLock, releaseLock, findInsert,
findExact or findDelete returns, every cell next[k] of every node that existed before the
call and carried the mark before the call carries the mark after the call; in particular
the store(_, false) calls of tryLock reach no such cell, they write to the node allocated
in that call. -/
theorem c26_v0_marks_never_cleared :
    (∀ (c : AtomicMarkableReference) (expectedRef newRef : Nat) (newMark : Bool),
      expectedRef % 2 = 0 → c.get.2 = true →
        c.compareAndSet expectedRef newRef false newMark = (false, c)) ∧
    (∀ (c : AtomicMarkableReference) (expectedRef : Nat), c.get.2 = true →
        c.attemptMark expectedRef true = (false, c)) ∧
    (∀ (s : ConcurrentRangeLock) (start end_ : Nat) (rand : Nat → Nat) (r : Bool)
      (s1 : ConcurrentRangeLock),
      tryLock s start end_ rand = some (r, s1) → MarksKept s.nodes s1.nodes) ∧
    (∀ (s : ConcurrentRangeLock) (start end_ : Nat) (r : Bool) (s1 : ConcurrentRangeLock),
      releaseLock s start end_ = some (r, s1) → MarksKept s.nodes s1.nodes) ∧
    (∀ (budget : Nat) (s : ConcurrentRangeLock) (start end_ : Nat) (preds succs : List Nat)
      (r : Bool) (s1 : ConcurrentRangeLock) (preds1 succs1 : List Nat),
      findInsert budget s start end_ preds succs = some (r, s1, preds1, succs1) →
        MarksKept s.nodes s1.nodes) ∧
    (∀ (budget : Nat) (s : ConcurrentRangeLock) (start end_ : Nat) (preds succs : List Nat)
      (r : Bool) (s1 : ConcurrentRangeLock) (preds1 succs1 : List Nat),
      findExact budget s start end_ preds succs = some (r, s1, preds1, succs1) →
        MarksKept s.nodes s1.nodes) ∧
    (∀ (budget : Nat) (s : ConcurrentRangeLock) (start : Nat) (s1 : ConcurrentRangeLock),
      findDelete budget s start = some s1 → MarksKept s.nodes s1.nodes) := by
  refine ⟨?_, ?_, ?_, ?_, ?_, ?_, ?_⟩
  · intro c er nr nm he hm
    exact v0_compareAndSet_marked he nr nm hm
  · intro c er hm
    exact v0_attemptMark_marked er hm
  · intro s start end_ rand r s1 h
    exact v0_marksKept_tryLock h
  · intro s start end_ r s1 h
    exact v0_marksKept_releaseLock h
  · intro budget s start end_ preds succs r s1 preds1 succs1 h
    exact (v0_marksKept_findInsert h).1
  · intro budget s start end_ preds succs r s1 preds1 succs1 h
    exact v0_marksKept_findExact h
  · intro budget s start s1 h
    exact v0_marksKept_findDelete h

theorem c26_v0_witness :
    tryLock midRelease 15 18 (fun _ => 0) = some (true, midReleaseHelped) ∧
      (getCell midRelease.nodes 6 0).map AtomicMarkableReference.get = some (4, true) ∧
      (getCell midReleaseHelped.nodes 6 0).map AtomicMarkableReference.get = some (4, true) ∧
      MarksKept midRelease.nodes midReleaseHelped.nodes :=
  ⟨by decide, by decide, by decide,
    c26_v0_marks_never_cleared.2.2.1 midRelease 15 18 (fun _ => 0) true midReleaseHelped
      (by decide)⟩

end V0

namespace V1

/-! ## V1: the node mutexes -/

/-- C29: from any state of ConcurrentRangeLock_V1 (reachable or not), every call of tryLock
and of releaseLock that returns (the way out through exit(0) included) has a log of mutex
calls, one list per Node_V1Locker made, such that: every node mutex is afterwards in the
state it was in before the call, and the mutex of a node made by the call is free, so the
caller holds none; and within each locker no node is locked twice, the nodes are unlocked in
the reverse of the order in which they were locked, each once, and all lock() calls come
before all unlock() calls. Of the locker itself: trackAndLock of a tracked node does nothing,
trackAndLock of another node locks it and appends it to the tracked nodes, and unlockAll
makes exactly the unlock() calls of the tracked nodes in reverse order. As a consequence,
in every state reached from a fresh lock by single-threaded calls that return, no node
mutex is held.
The same holds attempt by attempt, whatever the state an attempt starts from. The loop of
tryLock and the loop of releaseLock run one attempt after the other, the next one on the
state the previous one left. Every attempt that ends, by return or by continue, leaves each
node mutex as it was before the attempt, with balanced calls. When the search of tryLock
finds no overlap and the locking loop ends with valid == false, the scope guard returns,
the attempt ends with continue and the mutexes are as before. In releaseLock, the part of
the attempt from trackAndLock(victim) on, run on any heap, leaves each mutex as it was on
that heap; when the victim is marked on that heap and its mutex free, that part locks the
victim, returns false, and the guard unlocks the victim, these being all the calls; and when
the locking loop of releaseLock ends with valid == false, the scope guard returns and the
attempt ends with continue. -/
theorem c29_v1_lock_balance (s s1 : ConcurrentRangeLock_V1) (start end_ : Nat) :
    (∀ (rand : Nat → Nat) (r : Bool), tryLock s start end_ rand = some (r, s1) →
      ∃ logs, tryLockT s start end_ rand = some (r, s1, logs) ∧
        LocksKept s.nodes s1.nodes ∧ ∀ b ∈ logs, Balanced b) ∧
    (∀ (ret : Ret), releaseLock s start end_ = some (ret, s1) →
      ∃ logs, releaseLockT s start end_ = some (ret, s1, logs) ∧
        LocksKept s.nodes s1.nodes ∧ ∀ b ∈ logs, Balanced b) ∧
    (∀ (h : List Node_V1) (tracked : List Nat) (p : Nat), p ∈ tracked →
      trackAndLockT h tracked p = some (h, tracked, [])) ∧
    (∀ (h h1 : List Node_V1) (tracked t1 : List Nat) (p : Nat) (log : List LockEv),
      p ∉ tracked → trackAndLockT h tracked p = some (h1, t1, log) →
        lockNode h p = some h1 ∧ t1 = tracked ++ [p] ∧ log = [LockEv.lock p]) ∧
    (∀ (h h1 : List Node_V1) (tracked : List Nat) (log : List LockEv),
      unlockAllT h tracked = some (h1, log) → log = tracked.reverse.map LockEv.unlock) ∧
    (∀ (maxLevel : Nat) (t : ConcurrentRangeLock_V1), Reachable maxLevel t →
      ∀ n ∈ t.nodes, n.locked = false) ∧
    (∀ (top fuel : Nat), tryLockLoopT top start end_ (fuel + 1) s =
      match tryLockAttemptT top start end_ s with
      | none => none
      | some (some r, s2, bl) => some (r, s2, bl)
      | some (none, s2, bl) =>
        match tryLockLoopT top start end_ fuel s2 with
        | none => none
        | some (r, s3, logs) => some (r, s3, bl ++ logs)) ∧
    (∀ (top : Nat) (o : Option Bool) (s2 : ConcurrentRangeLock_V1) (bl : List (List LockEv)),
      tryLockAttemptT top start end_ s = some (o, s2, bl) →
        LocksKept s.nodes s2.nodes ∧ ∀ b ∈ bl, Balanced b) ∧
    (∀ (top : Nat) (preds succs : List Nat) (h1 : List Node_V1) (tracked : List Nat)
        (log1 : List LockEv),
      findInsert s.nodes.length s start end_ = some (-1, preds, succs) →
      tryLockValidateT preds succs (top + 1) 0 true s.nodes [] =
        some (false, h1, tracked, log1) →
      ∃ h2 log2, unlockAllT h1 tracked = some (h2, log2) ∧
        tryLockAttemptT top start end_ s =
          some (none, { s with nodes := h2 }, [log1 ++ log2]) ∧
        LocksKept s.nodes h2 ∧ Balanced (log1 ++ log2)) ∧
    (∀ (fuel : Nat) (isMarked : Bool) (topLevel : Int),
      releaseLockLoopT start end_ (fuel + 1) isMarked topLevel s =
        match releaseLockAttemptT start end_ isMarked topLevel s with
        | none => none
        | some (some ret, _, _, s2, bl) => some (ret, s2, bl)
        | some (none, im, tl, s2, bl) =>
          match releaseLockLoopT start end_ fuel im tl s2 with
          | none => none
          | some (r, s3, logs) => some (r, s3, bl ++ logs)) ∧
    (∀ (isMarked im1 : Bool) (topLevel tl1 : Int) (o : Option Ret)
        (s2 : ConcurrentRangeLock_V1) (bl : List (List LockEv)),
      releaseLockAttemptT start end_ isMarked topLevel s = some (o, im1, tl1, s2, bl) →
        LocksKept s.nodes s2.nodes ∧ ∀ b ∈ bl, Balanced b) ∧
    (∀ (preds : List Nat) (victim : Nat) (topLevel : Int) (h h2 : List Node_V1)
        (o : Option Bool) (log : List LockEv),
      releaseVictimT preds victim topLevel h = some (o, h2, log) →
        LocksKept h h2 ∧ Balanced log ∧
          (∀ vn, deref h victim = some vn → vn.marked = true →
            o = some false ∧
              log = [LockEv.victim victim, LockEv.lock victim, LockEv.unlock victim])) ∧
    (∀ (preds : List Nat) (victim : Nat) (topLevel : Int) (h : List Node_V1) (vn : Node_V1),
      deref h victim = some vn → vn.marked = true → vn.locked = false →
        ∃ h2, releaseVictimT preds victim topLevel h =
            some (some false, h2,
              [LockEv.victim victim, LockEv.lock victim, LockEv.unlock victim]) ∧
          LocksKept h h2) ∧
    (∀ (preds : List Nat) (victim : Nat) (topLevel : Int) (h h3 : List Node_V1)
        (t t3 : List Nat) (log1 : List LockEv),
      (∀ a ∈ t, (lockOf h a).isSome = true) →
      releaseValidateT preds victim (topLevel + 1).toNat 0 true h t =
        some (false, h3, t3, log1) →
      ∃ h4 log2, unlockAllT h3 t3 = some (h4, log2) ∧
        releaseAttemptT preds victim topLevel h t = some (false, h4, log1 ++ log2)) := by
  refine ⟨?_, ?_, ?_, ?_, ?_, ?_, ?_, ?_, ?_, ?_, ?_, ?_, ?_, ?_⟩
  · intro rand r hr
    obtain ⟨logs, hT⟩ := v1_tryLockT_of_tryLock hr
    obtain ⟨k1, k2, -⟩ := v1_tryLockT_log hT
    exact ⟨logs, hT, k1, fun b hb => (k2 b hb).1⟩
  · intro ret hr
    obtain ⟨logs, hT⟩ := v1_releaseLockT_of_releaseLock hr
    obtain ⟨k1, k2, -⟩ := v1_releaseLockT_log hT
    exact ⟨logs, hT, k1, fun b hb => (k2 b hb).1⟩
  · intro h tracked p hp
    unfold trackAndLockT
    rw [if_pos hp]
  · intro h h1 tracked t1 p log hp hT
    rcases v1_trackAndLockT_inv hT with ⟨hm, -⟩ | ⟨-, h2, h3, h4⟩
    · exact absurd hm hp
    · exact ⟨h2, h3, h4⟩
  · intro h h1 tracked log hu
    exact (v1_unlockAllT_log hu).1
  · intro maxLevel t hR n hn
    obtain ⟨i, hi, hget⟩ := List.getElem_of_mem hn
    have hfree := v1_Reachable_free hR (addrOf i)
    unfold lockOf at hfree
    rw [deref_addrOf, List.getElem?_eq_getElem hi, hget, Option.map_some'] at hfree
    cases hl : n.locked with
    | false => rfl
    | true => rw [hl] at hfree; exact absurd rfl hfree
  · intro top fuel
    exact v1_tryLockLoopT_step top start end_ fuel s
  · intro top o s2 bl hr
    exact v1_tryLockAttemptT_log hr
  · intro top preds succs h1 tracked log1 hfi hval
    exact v1_tryLockAttemptT_invalid hfi hval
  · intro fuel isMarked topLevel
    exact v1_releaseLockLoopT_step start end_ fuel isMarked topLevel s
  · intro isMarked im1 topLevel tl1 o s2 bl hr
    exact v1_releaseLockAttemptT_log hr
  · intro preds victim topLevel h h2 o log hr
    exact v1_releaseVictimT_log hr
  · intro preds victim topLevel h vn hv hm hl
    exact v1_releaseVictimT_marked hv hm hl
  · intro preds victim topLevel h h3 t t3 log1 ht hval
    exact v1_releaseAttemptT_invalid ht hval

theorem c29_v1_witness :
    (∃ logs, releaseLockT heldOnce 10 20 = some (Ret.ret true, releasedOnce, logs) ∧
      LocksKept heldOnce.nodes releasedOnce.nodes ∧ ∀ b ∈ logs, Balanced b) ∧
    (tryLock markedLinked 30 40 (fun _ => 1) = none ∧
      tryLockAttemptT 1 30 40 markedLinked =
        some (none, markedLinked, [[LockEv.pred 0 6, LockEv.lock 6, LockEv.unlock 6]]) ∧
      LocksKept markedLinked.nodes markedLinked.nodes ∧
      ∀ b ∈ [[LockEv.pred 0 6, LockEv.lock 6, LockEv.unlock 6]], Balanced b) ∧
    (∃ h2 log2,
      unlockAllT [⟨0, 0, 1, [6, 6], false, false, false⟩,
          ⟨UINT64_MAX, UINT64_MAX, 1, [0, 0], false, false, false⟩,
          ⟨10, 20, 1, [4, 4], true, true, true⟩] [6] = some (h2, log2) ∧
        tryLockAttemptT 1 30 40 markedLinked =
          some (none, { markedLinked with nodes := h2 },
            [[LockEv.pred 0 6, LockEv.lock 6] ++ log2]) ∧
        LocksKept markedLinked.nodes h2 ∧
        Balanced ([LockEv.pred 0 6, LockEv.lock 6] ++ log2)) ∧
    (∃ h2, releaseVictimT [6, 6] 6 1 markedLinked.nodes =
        some (some false, h2, [LockEv.victim 6, LockEv.lock 6, LockEv.unlock 6]) ∧
      LocksKept markedLinked.nodes h2) ∧
    (releaseLock markedPred 30 40 = none ∧
      releaseLockAttemptT 30 40 false (-1) markedPred =
        some (none, true, 1, markedBoth,
          [[LockEv.victim 8, LockEv.lock 8, LockEv.pred 0 6, LockEv.lock 6, LockEv.unlock 6,
            LockEv.unlock 8]]) ∧
      LocksKept markedPred.nodes markedBoth.nodes ∧
      ∀ b ∈ [[LockEv.victim 8, LockEv.lock 8, LockEv.pred 0 6, LockEv.lock 6,
          LockEv.unlock 6, LockEv.unlock 8]], Balanced b) :=
  ⟨(c29_v1_lock_balance heldOnce releasedOnce 10 20).2.1 (Ret.ret true) (by decide),
   ⟨by decide, by decide,
    (c29_v1_lock_balance markedLinked markedLinked 30 40).2.2.2.2.2.2.2.1 1 none markedLinked
      [[LockEv.pred 0 6, LockEv.lock 6, LockEv.unlock 6]] (by decide)⟩,
   (c29_v1_lock_balance markedLinked markedLinked 30 40).2.2.2.2.2.2.2.2.1 1 [6, 6] [4, 4]
     [⟨0, 0, 1, [6, 6], false, false, false⟩,
      ⟨UINT64_MAX, UINT64_MAX, 1, [0, 0], false, false, false⟩,
      ⟨10, 20, 1, [4, 4], true, true, true⟩] [6] [LockEv.pred 0 6, LockEv.lock 6]
     (by decide) (by decide),
   (c29_v1_lock_balance markedLinked markedLinked 30 40).2.2.2.2.2.2.2.2.2.2.2.2.1
     [6, 6] 6 1 markedLinked.nodes ⟨10, 20, 1, [4, 4], true, true, false⟩
     (by decide) rfl rfl,
   ⟨by decide, rfl,
    (c29_v1_lock_balance markedPred markedBoth 30 40).2.2.2.2.2.2.2.2.2.2.1 false true (-1) 1
      none markedBoth
      [[LockEv.victim 8, LockEv.lock 8, LockEv.pred 0 6, LockEv.lock 6, LockEv.unlock 6,
        LockEv.unlock 8]] rfl⟩⟩

end V1

namespace V2

/-! ## V2: comparison, deletion tag, helping and the list invariant -/

/-- C31: for every two nodes a and b of the heap (so a is not null), compare(a, b) is +1 when
a.start >= b.end, otherwise -1 when b.start >= a.end, otherwise 0, and compare(null, b) is
+1; when both nodes have start < end, compare(a, b) is 0 exactly when the half-open
intervals overlap, and compare(a, b) is the negation of compare(b, a). -/
theorem c31_v2_compare (h : List LNode) (a b : Nat) (na nb : LNode)
    (ha : deref h a = some na) (hb : deref h b = some nb) :
    compare h a b = some (if na.start ≥ nb.end_ then 1
      else if nb.start ≥ na.end_ then -1 else 0) ∧
    compare h 0 b = some 1 ∧
    (na.start < na.end_ → nb.start < nb.end_ →
      (compare h a b = some 0 ↔ na.start < nb.end_ ∧ nb.start < na.end_) ∧
      ∃ x y, compare h a b = some x ∧ compare h b a = some y ∧ x = -y) := by
  have hab : compare h a b = some (if na.start ≥ nb.end_ then 1
      else if nb.start ≥ na.end_ then -1 else 0) := by
    unfold compare
    rw [if_neg (deref_ne_zero ha), ha, hb]
    simp only
    split
    · rfl
    · split <;> rfl
  have hba : compare h b a = some (if nb.start ≥ na.end_ then 1
      else if na.start ≥ nb.end_ then -1 else 0) := by
    unfold compare
    rw [if_neg (deref_ne_zero hb), ha, hb]
    simp only
    split
    · rfl
    · split <;> rfl
  refine ⟨hab, by simp [compare], ?_⟩
  intro hla hlb
  refine ⟨?_, _, _, hab, hba, ?_⟩
  · rw [hab]
    by_cases h1 : na.start ≥ nb.end_
    · rw [if_pos h1]
      constructor
      · intro hc
        cases hc
      · intro hc
        omega
    · rw [if_neg h1]
      by_cases h2 : nb.start ≥ na.end_
      · rw [if_pos h2]
        constructor
        · intro hc
          cases hc
        · intro hc
          omega
      · rw [if_neg h2]
        constructor
        · intro _
          omega
        · intro _
          rfl
  · by_cases h1 : na.start ≥ nb.end_
    · have h2 : ¬ nb.start ≥ na.end_ := by omega
      rw [if_pos h1, if_neg h2, if_pos h1]
      rfl
    · rw [if_neg h1]
      by_cases h2 : nb.start ≥ na.end_
      · rw [if_pos h2, if_pos h2]
      · rw [if_neg h2, if_neg h2, if_neg h1]
        rfl

theorem c31_v2_witness :
    compare heldTwo.nodes 2 4 = some (if (10 : Nat) ≥ 40 then 1
      else if (30 : Nat) ≥ 20 then -1 else 0) ∧
    compare heldTwo.nodes 0 4 = some 1 ∧
    ((10 : Nat) < 20 → (30 : Nat) < 40 →
      (compare heldTwo.nodes 2 4 = some 0 ↔ (10 : Nat) < 40 ∧ (30 : Nat) < 20) ∧
      ∃ x y, compare heldTwo.nodes 2 4 = some x ∧ compare heldTwo.nodes 4 2 = some y ∧
        x = -y) :=
  c31_v2_compare heldTwo.nodes 2 4 ⟨10, 20, 4⟩ ⟨30, 40, 0⟩ (by decide) (by decide)

/-- C32: for every node n of the heap, DeleteNode(n) stores n.next with its low bit set and
changes nothing else: afterwards isMarked(n.next) holds, unmark(n.next) is the successor n
had before (the old n.next itself when that carried no mark), the bounds of n, every other
node, the list head and the counter are as before; and a second DeleteNode(n) leaves the
state as the first one left it. -/
theorem c32_v2_DeleteNode_only_tags (s : ListRL) (lock : Nat) (n : LNode)
    (hn : deref s.nodes lock = some n) :
    ∃ s1, DeleteNode s lock = some s1 ∧
      deref s1.nodes lock = some { n with next := n.next ||| 1 } ∧
      isMarked (n.next ||| 1) = true ∧ unmark (n.next ||| 1) = unmark n.next ∧
      (isMarked n.next = false → unmark (n.next ||| 1) = n.next) ∧
      (∀ x, x ≠ lock → deref s1.nodes x = deref s.nodes x) ∧
      s1.nodes.length = s.nodes.length ∧ s1.head = s.head ∧
      s1.elementsCount = s.elementsCount ∧
      DeleteNode s1 lock = some s1 := by
  have hd : deref (store s.nodes lock { n with next := n.next ||| 1 }) lock =
      some { n with next := n.next ||| 1 } := deref_store_same hn
  refine ⟨{ s with nodes := store s.nodes lock { n with next := n.next ||| 1 } }, ?_, hd,
    v2_isMarked_lor_one _, v2_unmark_lor_one _, ?_, ?_, length_store _ _ _, rfl, rfl, ?_⟩
  · simp [DeleteNode, load, storeRef, hn]
  · intro hm
    rw [v2_unmark_lor_one, v2_unmark_of_unmarked hm]
  · intro x hx
    exact deref_store_ne _ _ hx
  · simp only [DeleteNode, load, storeRef, hd, Option.map_some', v2_lor_one_idem, store_store]

theorem c32_v2_witness :
    ∃ s1, DeleteNode heldTwo 2 = some s1 ∧
      deref s1.nodes 2 = some { (⟨10, 20, 4⟩ : LNode) with next := 4 ||| 1 } ∧
      isMarked (4 ||| 1) = true ∧ unmark (4 ||| 1) = unmark 4 ∧
      (isMarked 4 = false → unmark (4 ||| 1) = 4) ∧
      (∀ x, x ≠ 2 → deref s1.nodes x = deref heldTwo.nodes x) ∧
      s1.nodes.length = heldTwo.nodes.length ∧ s1.head = heldTwo.head ∧
      s1.elementsCount = heldTwo.elementsCount ∧
      DeleteNode s1 2 = some s1 :=
  c32_v2_DeleteNode_only_tags heldTwo 2 ⟨10, 20, 4⟩ (by decide)

/-- C34: in every state of the V2 list reached from an empty list by single-threaded
MutexRangeAcquire calls with start < end and MutexRangeRelease calls on handles acquired
before, the live (unmarked) nodes in list order have start < end, each one ends at or
before the start of every later one (so of the next one), their starts are strictly
increasing, and no two of them overlap in the half-open sense. -/
theorem c34_v2_live_sorted (s : ListRL) (H : List Nat) (hR : Reachable s H) :
    (∀ iv ∈ live s, iv.1 < iv.2) ∧
    (live s).Pairwise (fun a b => a.1 < b.1 ∧ a.2 ≤ b.1) ∧
    (live s).Chain' (fun a b => a.1 < b.1 ∧ a.2 ≤ b.1) ∧
    (live s).Pairwise (fun a b => ¬ (a.1 < b.2 ∧ b.1 < a.2)) := by
  obtain ⟨C, hI⟩ := v2_Reachable_inv hR
  rw [hI.v2_live_eq]
  have hdom : ∀ iv ∈ liveOf C, iv.1 < iv.2 := by
    intro iv hiv
    obtain ⟨a, ha, -, rfl⟩ := v2_mem_liveOf.mp hiv
    exact hI.dom a ha
  have hpw : (liveOf C).Pairwise (fun a b => a.1 < b.1 ∧ a.2 ≤ b.1) := by
    refine hI.sorted.imp_of_mem ?_
    intro a b ha _ hab
    have := hdom a ha
    exact ⟨by omega, hab⟩
  refine ⟨hdom, hpw, List.Pairwise.chain' hpw, ?_⟩
  refine hI.sorted.imp ?_
  intro a b hab hc
  omega

theorem c34_v2_witness :
    (∀ iv ∈ live heldTwo, iv.1 < iv.2) ∧
    (live heldTwo).Pairwise (fun a b => a.1 < b.1 ∧ a.2 ≤ b.1) ∧
    (live heldTwo).Chain' (fun a b => a.1 < b.1 ∧ a.2 ≤ b.1) ∧
    (live heldTwo).Pairwise (fun a b => ¬ (a.1 < b.2 ∧ b.1 < a.2)) :=
  c34_v2_live_sorted heldTwo [4, 2]
    (@Reachable.acquired heldOnce heldTwo [2] 30 40 ⟨4⟩ v2_heldOnce_reachable (by decide)
      (by decide))

theorem v2_releasedOnce_reachable : Reachable releasedOnce [2] :=
  @Reachable.released heldOnce releasedOnce [2] ⟨2⟩ v2_heldOnce_reachable (by decide)
    (by decide)

/-- C33: in every state of the V2 list reached by single-threaded acquires and releases,
MutexRangeAcquire(list, start, end) with start < end, that is InsertNode on the fresh node,
returns, and the chain from head splits as A ++ B so that afterwards the chain is the live
nodes of A, then the new node when the call succeeded, then B unchanged: every marked node
the traversal passed is unlinked, every node before the new one is live, and every node
that was live is still linked and live. Each single round of the inner loop that meets a
marked node cur swings prev past cur by the exchange and goes on from the same prev with
the successor of cur. -/
theorem c33_v2_helping (s : ListRL) (H : List Nat) (start end_ : Nat) (hR : Reachable s H)
    (hlt : start < end_) :
    (∃ r s1 A B, MutexRangeAcquire s start end_ = some (r, s1) ∧
      InsertNode { s with nodes := (alloc s.nodes (⟨start, end_, 0⟩ : LNode)).1 }
        (addrOf s.nodes.length) = some (r.isSome, s1) ∧
      chainFrom s.nodes s.nodes.length (unmark s.head) = A ++ B ∧
      chainFrom s1.nodes s1.nodes.length (unmark s1.head) =
        A.filter (fun p =>
          decide ((deref s.nodes p).map (fun n => isMarked n.next) = some false)) ++
          (match r with
            | some rl => rl.node :: B
            | none => B) ∧
      (∀ p ∈ A.filter (fun p =>
          decide ((deref s.nodes p).map (fun n => isMarked n.next) = some false)),
        (deref s1.nodes p).map (fun n => isMarked n.next) = some false) ∧
      (∀ p ∈ chainFrom s.nodes s.nodes.length (unmark s.head),
        (deref s.nodes p).map (fun n => isMarked n.next) = some false →
        p ∈ chainFrom s1.nodes s1.nodes.length (unmark s1.head) ∧
          (deref s1.nodes p).map (fun n => isMarked n.next) = some false)) ∧
    (∀ (t : ListRL) (lock fuel : Nat) (prev : Ref) (cur : Nat) (cn : LNode),
      load t prev = some cur → isMarked cur = false → deref t.nodes cur = some cn →
      isMarked cn.next = true →
      ∃ t1, compareExchange t prev cur (unmark cn.next) = some (true, cur, t1) ∧
        load t1 prev = some (unmark cn.next) ∧
        insertInner lock (fuel + 1) t prev cur =
          insertInner lock fuel t1 prev (unmark cn.next)) := by
  obtain ⟨C, hI⟩ := v2_Reachable_inv hR
  refine ⟨v2_acquire_chain hI hlt, ?_⟩
  intro t lock fuel prev cur cn hl hc hn hm
  exact v2_help_step lock fuel hl hc hn hm

theorem c33_v2_witness :
    MutexRangeAcquire releasedOnce 30 40 = some (some ⟨4⟩, helpedOnce) ∧
    chainFrom releasedOnce.nodes releasedOnce.nodes.length (unmark releasedOnce.head) = [2] ∧
    chainFrom helpedOnce.nodes helpedOnce.nodes.length (unmark helpedOnce.head) = [4] ∧
    ∃ r s1 A B, MutexRangeAcquire releasedOnce 30 40 = some (r, s1) ∧
      InsertNode { releasedOnce with
          nodes := (alloc releasedOnce.nodes (⟨30, 40, 0⟩ : LNode)).1 }
        (addrOf releasedOnce.nodes.length) = some (r.isSome, s1) ∧
      chainFrom releasedOnce.nodes releasedOnce.nodes.length (unmark releasedOnce.head) =
        A ++ B ∧
      chainFrom s1.nodes s1.nodes.length (unmark s1.head) =
        A.filter (fun p =>
          decide ((deref releasedOnce.nodes p).map (fun n => isMarked n.next) =
            some false)) ++
          (match r with
            | some rl => rl.node :: B
            | none => B) ∧
      (∀ p ∈ A.filter (fun p =>
          decide ((deref releasedOnce.nodes p).map (fun n => isMarked n.next) =
            some false)),
        (deref s1.nodes p).map (fun n => isMarked n.next) = some false) ∧
      (∀ p ∈ chainFrom releasedOnce.nodes releasedOnce.nodes.length
          (unmark releasedOnce.head),
        (deref releasedOnce.nodes p).map (fun n => isMarked n.next) = some false →
        p ∈ chainFrom s1.nodes s1.nodes.length (unmark s1.head) ∧
          (deref s1.nodes p).map (fun n => isMarked n.next) = some false) :=
  ⟨by decide, by decide, by decide,
    (c33_v2_helping releasedOnce [2] 30 40 v2_releasedOnce_reachable (by decide)).1⟩

end V2

namespace V3

/-! ## V3: the release of a held start -/

/-- C35: in every state of SongRangeLock reached from a fresh lock by tryLock calls in the
domain and releaseLock calls on starts of held intervals, and for every held interval
(start, end): releaseLock(start) returns; the node holding the interval, the only one with
that start, was linked exactly at the levels 0..level and is afterwards the one node missing
from the chain of every level, the other nodes keeping their order; each level still leads
from the head sentinel through its nodes to the tail sentinel; the held intervals are those
held before without (start, end); and size() has decreased by one. -/
theorem c35_v3_releaseLock_held (s : SongRangeLock) (start end_ : Nat) (hR : Reachable s)
    (hh : (start, end_) ∈ held s) :
    ∃ p n s1, p ∈ levelNodes s 0 ∧ deref s.nodes p = some n ∧
      n.start = start ∧ n.end_ = end_ ∧
      releaseLock s start = some s1 ∧
      (∀ k, k ≤ MAX_LEVEL →
        levelNodes s1 k = (levelNodes s k).filter (fun q => decide (q ≠ p))) ∧
      (∀ k, k ≤ MAX_LEVEL → (p ∈ levelNodes s k ↔ k ≤ n.level)) ∧
      (∀ k, k ≤ MAX_LEVEL → List.Chain' (fun a b => getForward s1.nodes a k = some b)
        (s1.head_ :: levelNodes s1 k ++ [s1.tail_])) ∧
      s1.head_ = s.head_ ∧ s1.tail_ = s.tail_ ∧
      (∀ iv ∈ held s, iv.1 = start → iv = (start, end_)) ∧
      held s1 = (held s).filter (fun iv => decide (iv ≠ (start, end_))) ∧
      size s1 + 1 = size s := by
  obtain ⟨L, hI⟩ := hR.v3_inv
  rw [hI.v3_held_eq] at hh
  obtain ⟨v, hv, hvs⟩ := List.mem_map.mp hh
  simp only [Prod.mk.injEq] at hvs
  obtain ⟨rfl, rfl⟩ := hvs
  obtain ⟨P, R, rfl⟩ := List.append_of_mem hv
  obtain ⟨n, s1, h1, h2, h3, h4, h5, h6, h7, h8, h9, h10, h11, h12, h13, h14⟩ :=
    v3_release_full hI
  rw [← h5] at h8
  exact ⟨v.addr, n, s1, h1, h2, h3, h4, h6, h7, h8, h9, h10, h11, h12, h13, h14⟩

theorem c35_v3_witness :
    ∃ p n s1, p ∈ levelNodes heldOnce 0 ∧ deref heldOnce.nodes p = some n ∧
      n.start = 10 ∧ n.end_ = 20 ∧
      releaseLock heldOnce 10 = some s1 ∧
      (∀ k, k ≤ MAX_LEVEL →
        levelNodes s1 k = (levelNodes heldOnce k).filter (fun q => decide (q ≠ p))) ∧
      (∀ k, k ≤ MAX_LEVEL → (p ∈ levelNodes heldOnce k ↔ k ≤ n.level)) ∧
      (∀ k, k ≤ MAX_LEVEL → List.Chain' (fun a b => getForward s1.nodes a k = some b)
        (s1.head_ :: levelNodes s1 k ++ [s1.tail_])) ∧
      s1.head_ = heldOnce.head_ ∧ s1.tail_ = heldOnce.tail_ ∧
      (∀ iv ∈ held heldOnce, iv.1 = 10 → iv = (10, 20)) ∧
      held s1 = (held heldOnce).filter (fun iv => decide (iv ≠ (10, 20))) ∧
      size s1 + 1 = size heldOnce :=
  c35_v3_releaseLock_held heldOnce 10 20 v3_heldOnce_reachable (by decide)

end V3

namespace V1

/-! ## V1: touching intervals -/

/-- C36: on a fresh ConcurrentRangeLock_V1 (MAX_LEVEL at least 1) and for all a < b < c in
the domain, tryLock(a, b) followed by tryLock(b, c) returns true and true, whereas
tryLock(b, c) followed by tryLock(a, b) returns true and false, leaving the lock unchanged;
and in every sequentially reachable state tryLock(start, end) of an interval of the domain
returns true if and only if every held interval (s, e) has e <= start or end < s. -/
theorem c36_v1_touching_asymmetric (maxLevel a b c : Nat) (ra rb : Nat → Nat)
    (hml : 1 ≤ maxLevel) (h1 : 1 ≤ a) (hab : a < b) (hbc : b < c)
    (hc : c ≤ UINT64_MAX - 1) :
    (∃ s1 s2, tryLock (ConcurrentRangeLock_V1.new maxLevel) a b ra = some (true, s1) ∧
      tryLock s1 b c rb = some (true, s2)) ∧
    (∃ t1, tryLock (ConcurrentRangeLock_V1.new maxLevel) b c ra = some (true, t1) ∧
      tryLock t1 a b rb = some (false, t1)) ∧
    (∀ (s : ConcurrentRangeLock_V1) (start end_ : Nat) (rand : Nat → Nat),
      Reachable maxLevel s → 1 ≤ start → start < end_ → end_ ≤ UINT64_MAX - 1 →
      ∃ r s1, tryLock s start end_ rand = some (r, s1) ∧
        (r = true ↔ ∀ iv ∈ held s, iv.2 ≤ start ∨ end_ < iv.1)) := by
  have hnew : (ConcurrentRangeLock_V1.new maxLevel).maxLevel = maxLevel := rfl
  have hfresh := Inv.v1_fresh maxLevel
  refine ⟨?_, ?_, ?_⟩
  · rcases v1_tryLock_spec hfresh (by rw [hnew]; exact hml) h1 hab (by omega) ra with
      ⟨⟨e, he, -⟩, -⟩ | ⟨-, s1, P, R, q, hPR, hr, hm1, hI1⟩
    · cases he
    · have hP : P = [] := by
        cases P with
        | nil => rfl
        | cons x xs => cases hPR
      subst hP
      have hR0 : R = [] := by
        cases R with
        | nil => rfl
        | cons x xs => cases hPR
      subst hR0
      rcases v1_tryLock_spec hI1 (by rw [hm1, hnew]; exact hml) (by omega : 1 ≤ b) hbc hc rb
        with ⟨⟨e, he, hx, -⟩, -⟩ | ⟨-, s2, _, _, _, _, hr2, -, -⟩
      · exfalso
        simp only [List.nil_append, List.mem_singleton] at he
        subst he
        exact hx (Nat.le_refl _)
      · exact ⟨s1, s2, hr, hr2⟩
  · rcases v1_tryLock_spec hfresh (by rw [hnew]; exact hml) (by omega : 1 ≤ b) hbc hc ra with
      ⟨⟨e, he, -⟩, -⟩ | ⟨-, t1, P, R, q, hPR, hr, hm1, hI1⟩
    · cases he
    · have hP : P = [] := by
        cases P with
        | nil => rfl
        | cons x xs => cases hPR
      subst hP
      have hR0 : R = [] := by
        cases R with
        | nil => rfl
        | cons x xs => cases hPR
      subst hR0
      refine ⟨t1, hr, ?_⟩
      apply v1_tryLock_meets hI1 rb
      refine ⟨_, List.mem_singleton.mpr rfl, ?_, ?_⟩
      · simp only
        omega
      · simp only
        omega
  · intro s start end_ rand hR hs1 hs2 hs3
    obtain ⟨hm, L, hI⟩ := v1_Reachable_inv hml hR
    rw [hI.v1_held_eq]
    rcases v1_tryLock_spec hI (by omega) hs1 hs2 hs3 rand with
      ⟨⟨e, he, hx, hy⟩, hr⟩ | ⟨hfree, s1, _, _, _, _, hr, -, -⟩
    · refine ⟨false, s, hr, ?_⟩
      constructor
      · intro hc
        cases hc
      · intro hall
        exfalso
        have := hall (e.start, e.end_) (List.mem_map.mpr ⟨e, he, rfl⟩)
        simp only at this
        omega
    · refine ⟨true, s1, hr, ?_⟩
      constructor
      · intro _ iv hiv
        obtain ⟨e, he, rfl⟩ := List.mem_map.mp hiv
        exact hfree e he
      · intro _
        rfl

theorem c36_v1_witness :
    (∃ s1 s2, tryLock (ConcurrentRangeLock_V1.new 1) 10 20 (fun _ => 1) = some (true, s1) ∧
      tryLock s1 20 30 (fun _ => 0) = some (true, s2)) ∧
    (∃ t1, tryLock (ConcurrentRangeLock_V1.new 1) 20 30 (fun _ => 1) = some (true, t1) ∧
      tryLock t1 10 20 (fun _ => 0) = some (false, t1)) ∧
    (∀ (s : ConcurrentRangeLock_V1) (start end_ : Nat) (rand : Nat → Nat),
      Reachable 1 s → 1 ≤ start → start < end_ → end_ ≤ UINT64_MAX - 1 →
      ∃ r s1, tryLock s start end_ rand = some (r, s1) ∧
        (r = true ↔ ∀ iv ∈ held s, iv.2 ≤ start ∨ end_ < iv.1)) :=
  c36_v1_touching_asymmetric 1 10 20 30 (fun _ => 1) (fun _ => 0) (by decide) (by decide)
    (by decide) (by decide) (by decide)

end V1

namespace V0

/-! ## V0: safety and termination of the searches -/

/-- C37: on every list of ConcurrentRangeLock reached from a fresh lock by single-threaded
tryLock and releaseLock calls in the domain, and for every start <= MAX - 1 (the lower bound
1 <= start is not needed), findInsert, findExact and findDelete return within the budget of
one step per heap node and leave the list as it is; their logs, which record every value
curr takes, show one round only (no goto retry), and at each level 0..maxLevel a nonempty run
of consecutive nodes of that level's chain up to the tail sentinel at most: no node is met
twice, every value of curr is a node of the heap and not the null pointer, and only the last
value at a level can be the tail sentinel, whose next cells hold the null pointer. The
searches with a log return what the plain searches return, on every state. -/
theorem c37_v0_traversal_safe (maxLevel : Nat) (s : ConcurrentRangeLock) (start end_ : Nat)
    (preds succs : List Nat) (hR : Reachable maxLevel s) (h2 : start ≤ UINT64_MAX - 1) :
    (∃ b preds1 succs1 rounds,
      findInsertT s.nodes.length s start end_ preds succs =
        some ((b, s, preds1, succs1), rounds) ∧
      findInsert s.nodes.length s start end_ preds succs = some (b, s, preds1, succs1) ∧
      CleanLog s rounds) ∧
    (∃ b preds1 succs1 rounds,
      findExactT s.nodes.length s start end_ preds succs =
        some ((b, s, preds1, succs1), rounds) ∧
      findExact s.nodes.length s start end_ preds succs = some (b, s, preds1, succs1) ∧
      CleanLog s rounds) ∧
    (∃ rounds, findDeleteT s.nodes.length s start = some (s, rounds) ∧
      findDelete s.nodes.length s start = some s ∧ CleanLog s rounds) ∧
    (∀ k, k ≤ maxLevel → getCell s.nodes s.tail k = some ⟨0⟩) ∧
    (∀ (budget : Nat) (t : ConcurrentRangeLock) (a b : Nat) (p q : List Nat),
      (findInsertT budget t a b p q).map Prod.fst = findInsert budget t a b p q ∧
      (findExactT budget t a b p q).map Prod.fst = findExact budget t a b p q ∧
      (findDeleteT budget t a).map Prod.fst = findDelete budget t a) := by
  obtain ⟨L, hI, hm⟩ := v0_Reachable_inv hR
  refine ⟨hI.v0_findInsertT_clean h2 end_ preds succs,
    hI.v0_findExactT_clean h2 end_ preds succs, hI.v0_findDeleteT_clean h2, ?_, ?_⟩
  · intro k hk
    rw [hI.tail_eq]
    exact hI.wf.tailCells k (by omega)
  · intro budget t a b p q
    exact ⟨v0_findInsertT_erase budget t a b p q, v0_findExactT_erase budget t a b p q,
      v0_findDeleteT_erase budget t a⟩

theorem c37_v0_witness :
    findInsertT heldTwice.nodes.length heldTwice 22 28 [0, 0] [0, 0] =
      some ((false, heldTwice, [6, 2], [8, 4]), [[[4], [6, 8]]]) ∧
    findExactT heldTwice.nodes.length heldTwice 30 40 [0, 0] [0, 0] =
      some ((true, heldTwice, [6, 2], [8, 4]), [[[4], [6, 8]]]) ∧
    levelNodes heldTwice 0 ++ [heldTwice.tail] = [6, 8, 4] ∧
    levelNodes heldTwice 1 ++ [heldTwice.tail] = [4] ∧
    ∃ b preds1 succs1 rounds,
      findInsertT heldTwice.nodes.length heldTwice 22 28 [0, 0] [0, 0] =
        some ((b, heldTwice, preds1, succs1), rounds) ∧
      findInsert heldTwice.nodes.length heldTwice 22 28 [0, 0] [0, 0] =
        some (b, heldTwice, preds1, succs1) ∧
      CleanLog heldTwice rounds :=
  ⟨by decide, by decide, by decide, by decide,
    (c37_v0_traversal_safe 1 heldTwice 22 28 [0, 0] [0, 0] v0_heldTwice_reachable
      (by decide)).1⟩

end V0

namespace SyncV0

/-! ## The two copies of V0 agree -/

/-- C38: for every maxLevel and every single-threaded sequence of tryLock and releaseLock
calls, with whatever values rand() returns during each tryLock, the lock of sync/v0 and the
lock of rangelock/v0, both started fresh, behave alike: the run on sync/v0 is the run on
rangelock/v0 with the counter forgotten (both fault or exhaust their budget, or both return
the same booleans in the same order and end with the same heap of nodes, head and tail), so
the node lists of every level are the same; and when every call has its arguments in the
domain 1 <= start < end <= MAX - 1 both runs return. -/
theorem c38_v0_copies_agree (maxLevel : Nat) (calls : List Call) :
    run (ConcurrentRangeLock.new maxLevel) calls =
      (runRangelock (V0.ConcurrentRangeLock.new maxLevel) calls).map
        (fun r => (r.1, forget r.2)) ∧
    (∀ rs t, runRangelock (V0.ConcurrentRangeLock.new maxLevel) calls = some (rs, t) →
      run (ConcurrentRangeLock.new maxLevel) calls = some (rs, forget t) ∧
      (forget t).nodes = t.nodes ∧ (forget t).head = t.head ∧ (forget t).tail = t.tail ∧
      ∀ k, levelNodes (forget t) k = V0.levelNodes t k) ∧
    ((∀ c ∈ calls, inDomain c) →
      ∃ rs t, runRangelock (V0.ConcurrentRangeLock.new maxLevel) calls = some (rs, t)) := by
  have hsim := sync_run calls (V0.ConcurrentRangeLock.new maxLevel)
  rw [sync_forget_new] at hsim
  refine ⟨hsim, ?_, ?_⟩
  · intro rs t hrun
    rw [hsim, hrun]
    exact ⟨rfl, rfl, rfl, rfl, fun k => rfl⟩
  · intro hdom
    exact sync_run_total calls _ [] (V0.Inv.v0_fresh maxLevel) hdom

theorem c38_v0_witness :
    (run (ConcurrentRangeLock.new 1)
        [Call.tryLock 10 20 (fun _ => 0), Call.tryLock 15 25 (fun _ => 1),
          Call.releaseLock 10 20]).map Prod.fst = some [true, false, true] ∧
    ∃ rs t, runRangelock (V0.ConcurrentRangeLock.new 1)
        [Call.tryLock 10 20 (fun _ => 0), Call.tryLock 15 25 (fun _ => 1),
          Call.releaseLock 10 20] = some (rs, t) ∧
      run (ConcurrentRangeLock.new 1)
        [Call.tryLock 10 20 (fun _ => 0), Call.tryLock 15 25 (fun _ => 1),
          Call.releaseLock 10 20] = some (rs, forget t) := by
  refine ⟨by decide, ?_⟩
  have h := c38_v0_copies_agree 1
    [Call.tryLock 10 20 (fun _ => 0), Call.tryLock 15 25 (fun _ => 1), Call.releaseLock 10 20]
  obtain ⟨rs, t, hrun⟩ := h.2.2 (by
    intro c hc
    simp only [List.mem_cons, List.mem_singleton, List.not_mem_nil, or_false] at hc
    rcases hc with rfl | rfl | rfl <;> (unfold inDomain; decide))
  exact ⟨rs, t, hrun, (h.2.1 rs t hrun).1⟩

end SyncV0

end RangeLock
